import Mathlib

/-!
# git-merge-changelog: a shallow embedding and its verified properties

The definitions below follow `src/git-merge-changelog.c` function by function.

* A byte is a natural number (the C code only ever compares bytes with the
  constants 0, 9, 10 and 32); an entry is the list of its bytes.
* `double` similarities are rationals.
* `ASSERT (e)` aborts the program: every function that can reach an `ASSERT`
  returns an `Option`, and `none` stands for "the program did not produce a
  result" (abort, or a loop that did not finish within its fuel).
* Two library routines are not part of the source file and are parameters of
  the model: `fstrcmp_bounded` (from `fstrcmp.h`) and the midpoint search
  `diag` used by `compareseq` (from `diffseq.h`).
-/

namespace GitMergeChangelog

/-! ## Entries -/

/-- A byte of a file. -/
abbrev Byte := Nat

/-- The `struct entry`: a memory region, given by its bytes. The cached hash code
is a function of the bytes and is not represented. -/
abbrev Entry := List Byte

/-- The type of the library routine `fstrcmp_bounded (s1, s2, lower_bound)`. -/
abbrev Fstrcmp := List Byte → List Byte → ℚ → ℚ

/-- The type of the midpoint search of `diffseq.h`: from the two vectors and the
window `xoff xlim yoff ylim` it gives the partition point `(xmid, ymid)`. -/
abbrev Diag := List Entry → List Entry → Nat → Nat → Nat → Nat → Nat × Nat

/-- The macro `FSTRCMP_THRESHOLD`. -/
def FSTRCMP_THRESHOLD : ℚ := 6 / 10

/-- The macro `FSTRCMP_STRICTER_THRESHOLD`. -/
def FSTRCMP_STRICTER_THRESHOLD : ℚ := 8 / 10

/-- The function `entry_equals`: same length and same bytes. -/
def entry_equals (entry1 entry2 : Entry) : Bool :=
  decide (entry1.length = entry2.length) && decide (entry1 = entry2)

/-- The function `entry_fstrcmp`: 0 when either entry holds a NUL byte, else the
result of `fstrcmp_bounded`. -/
def entry_fstrcmp (fstrcmp_bounded : Fstrcmp) (entry1 entry2 : Entry) (lower_bound : ℚ) : ℚ :=
  if (0 : Byte) ∈ entry1 then 0
  else if (0 : Byte) ∈ entry2 then 0
  else fstrcmp_bounded entry1 entry2 lower_bound

/-! ## Reading a file -/

/-- The inner loop of `read_changelog_file`: the distance from `ptr` to the end of
the current entry. `memchr` skips to the next newline; after a newline, the entry
ends past a second newline that is followed by a byte other than newline, tab and
space. -/
def entry_end : List Byte → Nat
  | [] => 0
  | c :: rest =>
    if c = 10 then
      match rest with
      | 10 :: d :: _ =>
        if d = 10 ∨ d = 9 ∨ d = 32 then 1 + entry_end rest else 2
      | _ => 1 + entry_end rest
    else 1 + entry_end rest

/-- The outer loop of `read_changelog_file`, from `start` (the bytes left). -/
def split_entries : Nat → List Byte → List Entry
  | 0, _ => []
  | fuel + 1, contents =>
    if contents = [] then []
    else
      (contents.take (entry_end contents)) ::
        split_entries fuel (contents.drop (entry_end contents))

/-- The function `read_changelog_file`, on the contents of the file: the list of
entries (`entries_list`, `entries` and, reversed, `entries_reversed`). -/
def read_changelog_file (contents : List Byte) : List Entry :=
  split_entries contents.length contents

/-! ## The mapping between the entries of two files -/

/-- The `struct entries_mapping`. In `index_mapping` and `index_mapping_reverse`
the value -1 means "not found" and -2 means "not yet computed". -/
structure entries_mapping where
  /-- The entries of FILE1. -/
  file1 : List Entry
  /-- The entries of FILE2. -/
  file2 : List Entry
  /-- From indices in FILE1 to indices in FILE2. -/
  index_mapping : List Int
  /-- From indices in FILE2 to indices in FILE1. -/
  index_mapping_reverse : List Int
deriving DecidableEq

/-- The search loop of `entries_mapping_get` over FILE2,
`for (j = n2 - 1; j >= 0; j--)`, called with the number of indices still to
visit; the state is `(best_j, best_j_similarity)`. -/
def search_file2 (fstrcmp_bounded : Fstrcmp) (file2 : List Entry)
    (index_mapping_reverse : List Int) (entry_i : Entry) : Nat → Int × ℚ → Int × ℚ
  | 0, best => best
  | j + 1, best =>
    search_file2 fstrcmp_bounded file2 index_mapping_reverse entry_i j
      (if index_mapping_reverse.getD j 0 < 0 then
        (if entry_fstrcmp fstrcmp_bounded entry_i (file2.getD j []) best.2 > best.2 then
          ((j : Int), entry_fstrcmp fstrcmp_bounded entry_i (file2.getD j []) best.2)
        else best)
      else best)

/-- The search loop of `entries_mapping_get` over FILE1,
`for (ii = n1 - 1; ii >= 0; ii--)`, called with the number of indices still to
visit; the state is `(best_i, best_i_similarity)`. -/
def search_file1 (fstrcmp_bounded : Fstrcmp) (file1 : List Entry)
    (index_mapping : List Int) (entry_j : Entry) : Nat → Int × ℚ → Int × ℚ
  | 0, best => best
  | ii + 1, best =>
    search_file1 fstrcmp_bounded file1 index_mapping entry_j ii
      (if index_mapping.getD ii 0 < 0 then
        (if entry_fstrcmp fstrcmp_bounded (file1.getD ii []) entry_j best.2 > best.2 then
          ((ii : Int), entry_fstrcmp fstrcmp_bounded (file1.getD ii []) entry_j best.2)
        else best)
      else best)

/-- The function `entries_mapping_get`: the index in FILE2 of entry `i` of FILE1
(or -1), and the mapping after the lazy computation. -/
def entries_mapping_get (fstrcmp_bounded : Fstrcmp) (mapping : entries_mapping) (i : Nat) :
    Int × entries_mapping :=
  if mapping.index_mapping.getD i 0 < -1 then
    let entry_i := mapping.file1.getD i []
    let best_j := search_file2 fstrcmp_bounded mapping.file2 mapping.index_mapping_reverse
      entry_i mapping.file2.length (-1, 0)
    let mapping1 : entries_mapping :=
      if best_j.2 ≥ FSTRCMP_THRESHOLD then
        let entry_j := mapping.file2.getD best_j.1.toNat []
        let best_i := search_file1 fstrcmp_bounded mapping.file1 mapping.index_mapping
          entry_j mapping.file1.length (-1, 0)
        if best_i.2 ≥ FSTRCMP_THRESHOLD ∧ best_i.1 = (i : Int) then
          { mapping with
            index_mapping := mapping.index_mapping.set i best_j.1
            index_mapping_reverse := mapping.index_mapping_reverse.set best_j.1.toNat (i : Int) }
        else mapping
      else mapping
    let mapping2 : entries_mapping :=
      if mapping1.index_mapping.getD i 0 < -1 then
        { mapping1 with index_mapping := mapping1.index_mapping.set i (-1) }
      else mapping1
    (mapping2.index_mapping.getD i 0, mapping2)
  else (mapping.index_mapping.getD i 0, mapping)

/-- The function `entries_mapping_reverse_get`: the index in FILE1 of entry `j` of
FILE2 (or -1), and the mapping after the lazy computation. -/
def entries_mapping_reverse_get (fstrcmp_bounded : Fstrcmp) (mapping : entries_mapping)
    (j : Nat) : Int × entries_mapping :=
  if mapping.index_mapping_reverse.getD j 0 < -1 then
    let entry_j := mapping.file2.getD j []
    let best_i := search_file1 fstrcmp_bounded mapping.file1 mapping.index_mapping
      entry_j mapping.file1.length (-1, 0)
    let mapping1 : entries_mapping :=
      if best_i.2 ≥ FSTRCMP_THRESHOLD then
        let entry_i := mapping.file1.getD best_i.1.toNat []
        let best_j := search_file2 fstrcmp_bounded mapping.file2 mapping.index_mapping_reverse
          entry_i mapping.file2.length (-1, 0)
        if best_j.2 ≥ FSTRCMP_THRESHOLD ∧ best_j.1 = (j : Int) then
          { mapping with
            index_mapping_reverse := mapping.index_mapping_reverse.set j best_i.1
            index_mapping := mapping.index_mapping.set best_i.1.toNat (j : Int) }
        else mapping
      else mapping
    let mapping2 : entries_mapping :=
      if mapping1.index_mapping_reverse.getD j 0 < -1 then
        { mapping1 with index_mapping_reverse := mapping1.index_mapping_reverse.set j (-1) }
      else mapping1
    (mapping2.index_mapping_reverse.getD j 0, mapping2)
  else (mapping.index_mapping_reverse.getD j 0, mapping)

/-- The list routine `gl_list_indexof_from (list, start_index, elt)` for a list
whose equality function is `entry_equals`: the first index at or after
`start_index` that holds `elt`, or -1. -/
def gl_list_indexof_from : List Entry → Nat → Entry → Int
  | [], _, _ => -1
  | x :: rest, 0, elt =>
    if entry_equals x elt then 0
    else if gl_list_indexof_from rest 0 elt < 0 then -1
    else gl_list_indexof_from rest 0 elt + 1
  | _ :: rest, start + 1, elt =>
    if gl_list_indexof_from rest start elt < 0 then -1
    else gl_list_indexof_from rest start elt + 1

/-- The list routine `gl_list_indexof (list, elt)`. -/
def gl_list_indexof (list : List Entry) (elt : Entry) : Int :=
  gl_list_indexof_from list 0 elt

/-- The loop `for (;;)` of `compute_mapping` that pairs the further occurrences of
`entry`, from `(curr_i, curr_j)`. The first argument bounds the number of
iterations; `none` is a failed `ASSERT` (or the bound reached). -/
def pair_occurrences (file1 file2 : List Entry) (entry : Entry) :
    Nat → Nat → Nat → List Int × List Int → Option (List Int × List Int)
  | 0, _, _, _ => none
  | fuel + 1, curr_i, curr_j, (index_mapping, index_mapping_reverse) =>
    if gl_list_indexof_from file1.reverse (file1.length - curr_i) entry < 0 then
      some (index_mapping, index_mapping_reverse)
    else if gl_list_indexof_from file2.reverse (file2.length - curr_j) entry < 0 then
      some (index_mapping, index_mapping_reverse)
    else
      let next_i := gl_list_indexof_from file1.reverse (file1.length - curr_i) entry
      let next_j := gl_list_indexof_from file2.reverse (file2.length - curr_j) entry
      let curr_i1 := ((file1.length : Int) - 1 - next_i).toNat
      let curr_j1 := ((file2.length : Int) - 1 - next_j).toNat
      if index_mapping.getD curr_i1 0 < 0 ∧ index_mapping_reverse.getD curr_j1 0 < 0 then
        pair_occurrences file1 file2 entry fuel curr_i1 curr_j1
          (index_mapping.set curr_i1 (curr_j1 : Int),
           index_mapping_reverse.set curr_j1 (curr_i1 : Int))
      else none

/-- The body of the loop `for (i = n1 - 1; i >= 0; i--)` of `compute_mapping`, at
index `i`. -/
def exact_step (file1 file2 : List Entry) (i : Nat) (arrays : List Int × List Int) :
    Option (List Int × List Int) :=
  if arrays.1.getD i 0 < -1 then
    let entry := file1.getD i []
    if gl_list_indexof file2.reverse entry ≥ 0 then
      let j := ((file2.length : Int) - 1 - gl_list_indexof file2.reverse entry).toNat
      if arrays.2.getD j 0 < 0 then
        pair_occurrences file1 file2 entry (i + 1) i j
          (arrays.1.set i (j : Int), arrays.2.set j (i : Int))
      else some arrays
    else some arrays
  else some arrays

/-- The loop `for (i = n1 - 1; i >= 0; i--)` of `compute_mapping`, called with the
number of indices still to visit. -/
def exact_pass (file1 file2 : List Entry) :
    Nat → List Int × List Int → Option (List Int × List Int)
  | 0, arrays => some arrays
  | i + 1, arrays =>
    match exact_step file1 file2 i arrays with
    | none => none
    | some arrays1 => exact_pass file1 file2 i arrays1

/-- The final loop of `compute_mapping` when `full` is true: `entries_mapping_get`
at every index, from the last to the first. -/
def full_pass (fstrcmp_bounded : Fstrcmp) : Nat → entries_mapping → entries_mapping
  | 0, mapping => mapping
  | i + 1, mapping => full_pass fstrcmp_bounded i (entries_mapping_get fstrcmp_bounded mapping i).2

/-- The function `compute_mapping`. -/
def compute_mapping (fstrcmp_bounded : Fstrcmp) (file1 file2 : List Entry) (full : Bool) :
    Option entries_mapping :=
  match exact_pass file1 file2 file1.length
      (List.replicate file1.length (-2), List.replicate file2.length (-2)) with
  | none => none
  | some (index_mapping, index_mapping_reverse) =>
    let result : entries_mapping :=
      { file1 := file1, file2 := file2, index_mapping := index_mapping,
        index_mapping_reverse := index_mapping_reverse }
    some (if full then full_pass fstrcmp_bounded file1.length result else result)

/-! ## The differences between two files -/

/-- The `enum edit_type` and `struct edit`: the fields `i1, i2` are used by CHANGE
and REMOVAL only, the fields `j1, j2` by ADDITION and CHANGE only. -/
inductive edit where
  /-- Some consecutive entries `j1 .. j2` of FILE2 were added. -/
  | ADDITION (j1 j2 : Nat)
  /-- The entries `i1 .. i2` of FILE1 were replaced by the entries `j1 .. j2`. -/
  | CHANGE (i1 i2 j1 j2 : Nat)
  /-- Some consecutive entries `i1 .. i2` of FILE1 were removed. -/
  | REMOVAL (i1 i2 : Nat)
deriving DecidableEq, Repr

/-- The `struct differences`. -/
structure differences where
  /-- From FILE1 indices to FILE2 indices, or -1. -/
  index_mapping : List Int
  /-- From FILE2 indices to FILE1 indices, or -1. -/
  index_mapping_reverse : List Int
  /-- The edits that transform FILE1 into FILE2. -/
  edits : List edit
deriving DecidableEq

/-- First loop of `compareseq`: slide down the common prefix. The first argument
is the number of iterations allowed, `min (xlim - xoff) (ylim - yoff)` being
enough. Returns the new `(xoff, yoff)`. -/
def slide_down (xv yv : List Entry) (xlim ylim : Nat) : Nat → Nat → Nat → Nat × Nat
  | 0, xoff, yoff => (xoff, yoff)
  | fuel + 1, xoff, yoff =>
    if xoff < xlim ∧ yoff < ylim ∧ entry_equals (xv.getD xoff []) (yv.getD yoff []) = true then
      slide_down xv yv xlim ylim fuel (xoff + 1) (yoff + 1)
    else (xoff, yoff)

/-- Second loop of `compareseq`: slide up the common suffix. Returns the new
`(xlim, ylim)`. -/
def slide_up (xv yv : List Entry) (xoff yoff : Nat) : Nat → Nat → Nat → Nat × Nat
  | 0, xlim, ylim => (xlim, ylim)
  | fuel + 1, xlim, ylim =>
    if xoff < xlim ∧ yoff < ylim ∧
        entry_equals (xv.getD (xlim - 1) []) (yv.getD (ylim - 1) []) = true then
      slide_up xv yv xoff yoff fuel (xlim - 1) (ylim - 1)
    else (xlim, ylim)

/-- The hook `NOTE_DELETE` (or `NOTE_INSERT`) applied at `count` consecutive
offsets from `off`: the slots become -1. -/
def note_range : Nat → Nat → List Int → List Int
  | 0, _, marks => marks
  | count + 1, off, marks => note_range count (off + 1) (marks.set off (-1))

/-- Modelled from the spec: `compareseq` comes from the included `diffseq.h`, which
is not in the source file; the spec calls it "a standard LCS-based diff where the
element equality predicate is entry byte-equality", recording "for each position of
file1 whether it is deleted and for each position of file2 whether it is inserted
(NOTE_DELETE / NOTE_INSERT hooks)". This is the divide-and-conquer frame of that
algorithm: common prefix and suffix are skipped, an empty side makes the other side
inserted (deleted) as a whole, and otherwise the window is cut at the midpoint given
by `diag` and both halves are compared. The pair is
`(index_mapping, index_mapping_reverse)` of the context; `none` means that the
recursion did not finish within the bound given as first argument. -/
def compareseq (diag : Diag) (xv yv : List Entry) :
    Nat → Nat → Nat → Nat → Nat → List Int × List Int → Option (List Int × List Int)
  | 0, _, _, _, _, _ => none
  | fuel + 1, xoff, xlim, yoff, ylim, ctxt =>
    let lo := slide_down xv yv xlim ylim (xlim - xoff) xoff yoff
    let hi := slide_up xv yv lo.1 lo.2 (xlim - lo.1) xlim ylim
    if lo.1 = hi.1 then
      some (ctxt.1, note_range (hi.2 - lo.2) lo.2 ctxt.2)
    else if lo.2 = hi.2 then
      some (note_range (hi.1 - lo.1) lo.1 ctxt.1, ctxt.2)
    else
      let part := diag xv yv lo.1 hi.1 lo.2 hi.2
      match compareseq diag xv yv fuel lo.1 part.1 lo.2 part.2 ctxt with
      | none => none
      | some ctxt1 => compareseq diag xv yv fuel part.1 hi.1 part.2 hi.2 ctxt1

/-- An inner loop `while (i < n && marks[i] < 0) i++` of `compute_differences`;
the first argument is the number of iterations allowed, `n - i` being enough. -/
def skip_marked (marks : List Int) (n : Nat) : Nat → Nat → Nat
  | 0, i => i
  | fuel + 1, i =>
    if i < n ∧ marks.getD i 0 < 0 then skip_marked marks n fuel (i + 1) else i

/-- The loop of `compute_differences` that completes `index_mapping` and
`index_mapping_reverse`, from `(i, j)`; `none` is a failed `ASSERT` (or the bound
given as first argument reached). -/
def complete_mapping (n1 n2 : Nat) :
    Nat → Nat → Nat → List Int × List Int → Option (List Int × List Int)
  | 0, _, _, _ => none
  | fuel + 1, i, j, ctxt =>
    if i < n1 ∨ j < n2 then
      let i1 := skip_marked ctxt.1 n1 (n1 - i) i
      let j1 := skip_marked ctxt.2 n2 (n2 - j) j
      if decide (i1 < n1) = decide (j1 < n2) then
        if i1 = n1 ∧ j1 = n2 then some ctxt
        else
          complete_mapping n1 n2 fuel (i1 + 1) (j1 + 1)
            (ctxt.1.set i1 (j1 : Int), ctxt.2.set j1 (i1 : Int))
      else none
    else some ctxt

/-- A loop `do i++; while (i < n && marks[i] < 0)` of `compute_differences`: the
index after the run of marked slots that starts at `i`. -/
def run_end (marks : List Int) (n : Nat) (i : Nat) : Nat :=
  skip_marked marks n (n - (i + 1)) (i + 1)

/-- The loop of `compute_differences` that creates the edits, from `(i, j)`, with
the edits made so far; `none` is a failed `ASSERT` (or the bound given as first
argument reached). -/
def create_edits (n1 n2 : Nat) (index_mapping index_mapping_reverse : List Int) :
    Nat → Nat → Nat → List edit → Option (List edit)
  | 0, _, _, _ => none
  | fuel + 1, i, j, edits =>
    if i < n1 ∨ j < n2 then
      if i = n1 then
        if j < n2 then some (edits ++ [edit.ADDITION j (n2 - 1)]) else none
      else if j = n2 then
        if i < n1 then some (edits ++ [edit.REMOVAL i (n1 - 1)]) else none
      else if index_mapping.getD i 0 ≥ 0 then
        if index_mapping_reverse.getD j 0 ≥ 0 then
          if index_mapping.getD i 0 = (j : Int) ∧ index_mapping_reverse.getD j 0 = (i : Int) then
            create_edits n1 n2 index_mapping index_mapping_reverse fuel (i + 1) (j + 1) edits
          else none
        else
          create_edits n1 n2 index_mapping index_mapping_reverse fuel i
            (run_end index_mapping_reverse n2 j)
            (edits ++ [edit.ADDITION j (run_end index_mapping_reverse n2 j - 1)])
      else
        if index_mapping_reverse.getD j 0 ≥ 0 then
          create_edits n1 n2 index_mapping index_mapping_reverse fuel
            (run_end index_mapping n1 i) j
            (edits ++ [edit.REMOVAL i (run_end index_mapping n1 i - 1)])
        else
          create_edits n1 n2 index_mapping index_mapping_reverse fuel
            (run_end index_mapping n1 i) (run_end index_mapping_reverse n2 j)
            (edits ++ [edit.CHANGE i (run_end index_mapping n1 i - 1) j
              (run_end index_mapping_reverse n2 j - 1)])
    else some edits

/-- The function `compute_differences`. -/
def compute_differences (diag : Diag) (file1 file2 : List Entry) : Option differences :=
  match compareseq diag file1 file2 (file1.length + file2.length + 1)
      0 file1.length 0 file2.length
      (List.replicate file1.length 0, List.replicate file2.length 0) with
  | none => none
  | some marks =>
    match complete_mapping file1.length file2.length (file1.length + file2.length + 1)
        0 0 marks with
    | none => none
    | some ctxt =>
      match create_edits file1.length file2.length ctxt.1 ctxt.2
          (file1.length + file2.length + 1) 0 0 [] with
      | none => none
      | some edits =>
        some { index_mapping := ctxt.1, index_mapping_reverse := ctxt.2, edits := edits }

/-! ## Splitting a merged entry -/

/-- The static `empty_entry`. -/
def empty_entry : Entry := []

/-- The loop of `find_paragraph_end`, on the bytes from `offset` on: `memchr` skips
to the next newline, and the offset just past it is returned when a second newline
stands there. -/
def find_paragraph_end_loop : List Byte → Nat → Nat
  | [], offset => offset
  | c :: rest, offset =>
    if c = 10 then
      match rest with
      | 10 :: _ => offset + 1
      | _ => find_paragraph_end_loop rest (offset + 1)
    else find_paragraph_end_loop rest (offset + 1)

/-- The function `find_paragraph_end` (for `offset <= entry->length`). -/
def find_paragraph_end (entry : Entry) (offset : Nat) : Nat :=
  find_paragraph_end_loop (entry.drop offset) offset

/-- The search loop of `try_split_merged_entry`, from `split_offset` with the state
`(best_split_offset, best_similarity)`; `none` means that the loop did not finish
within the bound given as first argument. -/
def split_search (fstrcmp_bounded : Fstrcmp) (old_body new_entry : Entry) :
    Nat → Nat → Nat × ℚ → Option (Nat × ℚ)
  | 0, _, _ => none
  | fuel + 1, split_offset, best =>
    let similarity :=
      entry_fstrcmp fstrcmp_bounded old_body (new_entry.drop split_offset) best.2
    let best1 : Nat × ℚ := if similarity > best.2 then (split_offset, similarity) else best
    if best1.2 = 1 then some best1
    else if split_offset < new_entry.length then
      split_search fstrcmp_bounded old_body new_entry fuel
        (find_paragraph_end new_entry (split_offset + 1)) best1
    else some best1

/-- The function `try_split_merged_entry`: `some (some (new_split[0], new_split[1]))`
when it returns true, `some none` when it returns false, `none` when the `ASSERT`
fails (or the search loop does not finish). -/
def try_split_merged_entry (fstrcmp_bounded : Fstrcmp) (old_entry new_entry : Entry) :
    Option (Option (Entry × Entry)) :=
  let old_title_len := find_paragraph_end old_entry 0
  let new_title_len := find_paragraph_end new_entry 0
  if ¬ (old_title_len = new_title_len ∧
        old_entry.take old_title_len = new_entry.take old_title_len) then some none
  else
    let old_body := old_entry.drop old_title_len
    match split_search fstrcmp_bounded old_body new_entry (new_entry.length + 1)
        new_title_len (new_title_len, 0) with
    | none => none
    | some best =>
      if best.1 = new_entry.length then some none
      else if new_entry.getD best.1 0 ≠ 10 then none
      else if best.2 < FSTRCMP_STRICTER_THRESHOLD then some none
      else
        some (some (new_entry.take (best.1 + 1),
          new_entry.take new_title_len ++ new_entry.drop best.1))

/-! ## The merge -/

/-- The `struct conflict`. -/
structure conflict where
  /-- Parts from the ancestor file. -/
  old_entries : List Entry
  /-- Parts of the modified file. -/
  modified_entries : List Entry
deriving DecidableEq, Repr

/-- A node of the linked list `result_entries`. The node that the program keeps in
`result_entries_pointers[k]` has `slot = some k`; a node added later has
`slot = none`. -/
structure node where
  /-- The index `k` with `result_entries_pointers[k]` equal to this node, if any. -/
  slot : Option Nat
  /-- The entry held by the node. -/
  value : Entry
deriving DecidableEq, Repr

/-- The list routine `gl_list_add_first`. -/
def gl_list_add_first (list : List node) (elt : Entry) : List node :=
  { slot := none, value := elt } :: list

/-- The list routine `gl_list_add_last`. -/
def gl_list_add_last (list : List node) (elt : Entry) : List node :=
  list ++ [{ slot := none, value := elt }]

/-- The list routine `gl_list_add_before`, for the node
`result_entries_pointers[k]`: the new node stands immediately before it. -/
def gl_list_add_before : List node → Nat → Entry → List node
  | [], _, _ => []
  | n :: rest, k, elt =>
    if n.slot = some k then { slot := none, value := elt } :: n :: rest
    else n :: gl_list_add_before rest k elt

/-- The list routine `gl_list_node_set_value`, for the node
`result_entries_pointers[k]`. -/
def gl_list_node_set_value (list : List node) (k : Nat) (elt : Entry) : List node :=
  list.map (fun n => if n.slot = some k then { n with value := elt } else n)

/-- The variables of `main` that the edits change: the lazily computed mapping,
the list `result_entries` and the list `result_conflicts`. -/
structure merge_state where
  /-- The mapping from the ancestor file to the mainstream file. -/
  mapping : entries_mapping
  /-- The entries of the result. -/
  result_entries : List node
  /-- The conflicts of the result. -/
  result_conflicts : List conflict
deriving DecidableEq

/-- A loop `for (j = j1 + count - 1; j >= j1; j--) gl_list_add_first (...)`. -/
def add_first_desc (modified_file : List Entry) (j1 : Nat) : Nat → List node → List node
  | 0, list => list
  | count + 1, list =>
    add_first_desc modified_file j1 count
      (gl_list_add_first list (modified_file.getD (j1 + count) []))

/-- A loop `for (j = j1 + count - 1; j >= j1; j--) gl_list_add_before (...)` with
the node `result_entries_pointers[k]`. -/
def add_before_desc (modified_file : List Entry) (j1 k : Nat) : Nat → List node → List node
  | 0, list => list
  | count + 1, list =>
    add_before_desc modified_file j1 k count
      (gl_list_add_before list k (modified_file.getD (j1 + count) []))

/-- A loop `for (j = j1; j <= j2; j++) gl_list_add_last (...)`, called with the
number `j2 + 1 - j1` of iterations and `j = j1`. -/
def add_last_asc (modified_file : List Entry) : Nat → Nat → List node → List node
  | 0, _, list => list
  | count + 1, j, list =>
    add_last_asc modified_file count (j + 1) (gl_list_add_last list (modified_file.getD j []))

/-- A loop `for (j = j1; j <= j2; j++) gl_list_add_before (...)` with the node
`result_entries_pointers[k]`, called with the number of iterations and `j = j1`. -/
def add_before_asc (modified_file : List Entry) (k : Nat) : Nat → Nat → List node → List node
  | 0, _, list => list
  | count + 1, j, list =>
    add_before_asc modified_file k count (j + 1)
      (gl_list_add_before list k (modified_file.getD j []))

/-- The entries `entries[j1 .. j2]` copied into a conflict. -/
def entries_range (entries : List Entry) (j1 j2 : Nat) : List Entry :=
  (List.range (j2 + 1 - j1)).map (fun d => entries.getD (j1 + d) [])

/-- The case ADDITION of `main`. -/
def apply_addition (fstrcmp_bounded : Fstrcmp) (ancestor_file mainstream_file
    modified_file : List Entry) (diffs : differences) (j1 j2 : Nat) (st : merge_state) :
    Option merge_state :=
  if j1 = 0 then
    some { st with result_entries := add_first_desc modified_file j1 (j2 + 1 - j1) st.result_entries }
  else
    let i_before := diffs.index_mapping_reverse.getD (j1 - 1) 0
    let i_after : Int :=
      if j2 + 1 = modified_file.length then (ancestor_file.length : Int)
      else diffs.index_mapping_reverse.getD (j2 + 1) 0
    if ¬ (i_before ≥ 0 ∧ i_after ≥ 0 ∧ i_after = i_before + 1) then none
    else
      let r_before := entries_mapping_get fstrcmp_bounded st.mapping i_before.toNat
      let r_after : Int × entries_mapping :=
        if i_after = (ancestor_file.length : Int) then ((mainstream_file.length : Int), r_before.2)
        else entries_mapping_get fstrcmp_bounded r_before.2 i_after.toNat
      if r_before.1 ≥ 0 ∧ r_after.1 ≥ 0 ∧ r_after.1 = r_before.1 + 1 then
        if r_after.1 = (mainstream_file.length : Int) then
          some { mapping := r_after.2
                 result_entries := add_last_asc modified_file (j2 + 1 - j1) j1 st.result_entries
                 result_conflicts := st.result_conflicts }
        else
          some { mapping := r_after.2
                 result_entries :=
                   add_before_asc modified_file r_after.1.toNat (j2 + 1 - j1) j1 st.result_entries
                 result_conflicts := st.result_conflicts }
      else
        some { mapping := r_after.2
               result_entries := st.result_entries
               result_conflicts := st.result_conflicts ++
                 [{ old_entries := [], modified_entries := entries_range modified_file j1 j2 }] }

/-- The body of the loop of the case REMOVAL of `main`, at index `i`. -/
def removal_step (fstrcmp_bounded : Fstrcmp) (ancestor_file mainstream_file : List Entry)
    (i : Nat) (st : merge_state) : merge_state :=
  let r := entries_mapping_get fstrcmp_bounded st.mapping i
  if r.1 ≥ 0 ∧ entry_equals (ancestor_file.getD i []) (mainstream_file.getD r.1.toNat []) = true then
    { mapping := r.2
      result_entries := gl_list_node_set_value st.result_entries r.1.toNat empty_entry
      result_conflicts := st.result_conflicts }
  else
    { mapping := r.2
      result_entries := st.result_entries
      result_conflicts := st.result_conflicts ++
        [{ old_entries := [ancestor_file.getD i []], modified_entries := [] }] }

/-- The case REMOVAL of `main`: the loop `for (i = i1; i <= i2; i++)`, called with
the number of iterations and `i = i1`. -/
def apply_removal (fstrcmp_bounded : Fstrcmp) (ancestor_file mainstream_file : List Entry) :
    Nat → Nat → merge_state → merge_state
  | 0, _, st => st
  | count + 1, i, st =>
    apply_removal fstrcmp_bounded ancestor_file mainstream_file count (i + 1)
      (removal_step fstrcmp_bounded ancestor_file mainstream_file i st)

/-- A conflict between one ancestor entry and one changed entry. -/
def single_conflict (old_entry changed_entry : Entry) : conflict :=
  { old_entries := [old_entry], modified_entries := [changed_entry] }

/-- The loops `for (i = ...; i <= i2; i++) if (entry_fstrcmp (ancestor[i],
modified[i + j2 - i2], FSTRCMP_THRESHOLD) < FSTRCMP_THRESHOLD) { ...; break; }` of
the case CHANGE: true when no pair is below the threshold. Called with the number
of iterations and the first `i`. -/
def all_similar (fstrcmp_bounded : Fstrcmp) (ancestor_file modified_file : List Entry)
    (i2 j2 : Nat) : Nat → Nat → Bool
  | 0, _ => true
  | count + 1, i =>
    if entry_fstrcmp fstrcmp_bounded (ancestor_file.getD i [])
        (modified_file.getD (i + j2 - i2) []) FSTRCMP_THRESHOLD < FSTRCMP_THRESHOLD then false
    else all_similar fstrcmp_bounded ancestor_file modified_file i2 j2 count (i + 1)

/-- The loop of single-entry changes of the "simple merged" case, called with the
number of iterations and `j`; `first` is `edit->j1 + num_added` and `split1` is
`split[1]`. -/
def merged_changes (fstrcmp_bounded : Fstrcmp) (ancestor_file mainstream_file
    modified_file : List Entry) (i2 j2 first : Nat) (split1 : Entry) :
    Nat → Nat → merge_state → merge_state
  | 0, _, st => st
  | count + 1, j, st =>
    let changed_entry := if j = first then split1 else modified_file.getD j []
    let i := j + i2 - j2
    let r := entries_mapping_get fstrcmp_bounded st.mapping i
    merged_changes fstrcmp_bounded ancestor_file mainstream_file modified_file i2 j2 first split1
      count (j + 1)
      (if r.1 ≥ 0 ∧
          entry_equals (ancestor_file.getD i []) (mainstream_file.getD r.1.toNat []) = true then
        { mapping := r.2
          result_entries := gl_list_node_set_value st.result_entries r.1.toNat changed_entry
          result_conflicts := st.result_conflicts }
      else if entry_equals (ancestor_file.getD i []) changed_entry = false then
        { mapping := r.2
          result_entries := st.result_entries
          result_conflicts := st.result_conflicts ++
            [single_conflict (ancestor_file.getD i []) changed_entry] }
      else
        { mapping := r.2
          result_entries := st.result_entries
          result_conflicts := st.result_conflicts })

/-- The loop of single-entry changes of a simple change at the top of the modified
file, called with the number of iterations and `j`; `none` is a failed `ASSERT`. -/
def top_changes (fstrcmp_bounded : Fstrcmp) (ancestor_file mainstream_file
    modified_file : List Entry) (i2 j2 : Nat) : Nat → Nat → merge_state → Option merge_state
  | 0, _, st => some st
  | count + 1, j, st =>
    let changed_entry := modified_file.getD j []
    let i := j + i2 - j2
    let r := entries_mapping_get fstrcmp_bounded st.mapping i
    if r.1 ≥ 0 ∧
        entry_equals (ancestor_file.getD i []) (mainstream_file.getD r.1.toNat []) = true then
      top_changes fstrcmp_bounded ancestor_file mainstream_file modified_file i2 j2 count (j + 1)
        { mapping := r.2
          result_entries := gl_list_node_set_value st.result_entries r.1.toNat changed_entry
          result_conflicts := st.result_conflicts }
    else if entry_equals (ancestor_file.getD i []) changed_entry = true then none
    else
      top_changes fstrcmp_bounded ancestor_file mainstream_file modified_file i2 j2 count (j + 1)
        { mapping := r.2
          result_entries := st.result_entries
          result_conflicts := st.result_conflicts ++
            [single_conflict (ancestor_file.getD i []) changed_entry] }

/-- The loop of single-entry changes of a simple change in the interior that is
"linear", called with the number of iterations and `j`; `none` is a failed
`ASSERT`. -/
def linear_changes (fstrcmp_bounded : Fstrcmp) (ancestor_file mainstream_file
    modified_file : List Entry) (i2 j2 : Nat) : Nat → Nat → merge_state → Option merge_state
  | 0, _, st => some st
  | count + 1, j, st =>
    let changed_entry := modified_file.getD j []
    let i := j + i2 - j2
    let r := entries_mapping_get fstrcmp_bounded st.mapping i
    if ¬ (r.1 ≥ 0) then none
    else if entry_equals (ancestor_file.getD i []) (mainstream_file.getD r.1.toNat []) = true then
      linear_changes fstrcmp_bounded ancestor_file mainstream_file modified_file i2 j2 count (j + 1)
        { mapping := r.2
          result_entries := gl_list_node_set_value st.result_entries r.1.toNat changed_entry
          result_conflicts := st.result_conflicts }
    else if entry_equals (ancestor_file.getD i []) changed_entry = true then none
    else
      linear_changes fstrcmp_bounded ancestor_file mainstream_file modified_file i2 j2 count (j + 1)
        { mapping := r.2
          result_entries := st.result_entries
          result_conflicts := st.result_conflicts ++
            [single_conflict (ancestor_file.getD i []) changed_entry] }

/-- The loop that tests `linear` in the interior simple change:
`for (i = i_before + 1; i <= i_before + num_changed; i++)
   if (entries_mapping_get (&mapping, i) != k_before + (i - i_before)) { linear = false; break; }`,
called with the number of iterations and `i`. -/
def linear_test (fstrcmp_bounded : Fstrcmp) (i_before : Nat) (k_before : Int) :
    Nat → Nat → entries_mapping → Bool × entries_mapping
  | 0, _, mapping => (true, mapping)
  | count + 1, i, mapping =>
    let r := entries_mapping_get fstrcmp_bounded mapping i
    if r.1 ≠ k_before + ((i : Int) - (i_before : Int)) then (false, r.2)
    else linear_test fstrcmp_bounded i_before k_before count (i + 1) r.2

/-- The loop that tests `linear_unchanged` in the big change:
`for (i = i_first + 1; i <= edit->i2; i++)`, called with the number of iterations
and `i`. The test calls `entries_mapping_get` a second time when the first
comparison holds. -/
def unchanged_test (fstrcmp_bounded : Fstrcmp) (ancestor_file mainstream_file : List Entry)
    (i_first : Nat) (k_first : Int) : Nat → Nat → entries_mapping → Bool × entries_mapping
  | 0, _, mapping => (true, mapping)
  | count + 1, i, mapping =>
    let r := entries_mapping_get fstrcmp_bounded mapping i
    if r.1 = k_first + ((i : Int) - (i_first : Int)) then
      let r2 := entries_mapping_get fstrcmp_bounded r.2 i
      if entry_equals (ancestor_file.getD i []) (mainstream_file.getD r2.1.toNat []) = true then
        unchanged_test fstrcmp_bounded ancestor_file mainstream_file i_first k_first
          count (i + 1) r2.2
      else (false, r2.2)
    else (false, r.2)

/-- The loop of the big change that empties the slots of the replaced entries,
called with the number of iterations and `i`; `none` is a failed `ASSERT`. -/
def empty_slots (fstrcmp_bounded : Fstrcmp) (ancestor_file mainstream_file : List Entry) :
    Nat → Nat → merge_state → Option merge_state
  | 0, _, st => some st
  | count + 1, i, st =>
    let r := entries_mapping_get fstrcmp_bounded st.mapping i
    if r.1 ≥ 0 ∧
        entry_equals (ancestor_file.getD i []) (mainstream_file.getD r.1.toNat []) = true then
      empty_slots fstrcmp_bounded ancestor_file mainstream_file count (i + 1)
        { mapping := r.2
          result_entries := gl_list_node_set_value st.result_entries r.1.toNat empty_entry
          result_conflicts := st.result_conflicts }
    else none

/-- The first part of the case CHANGE of `main`, the "simple merged" test and its
application (`split_merged_entry` is true): `some (true, st1)` when `done` is set,
`some (false, st)` when not, `none` when an `ASSERT` failed. -/
def change_simple_merged (fstrcmp_bounded : Fstrcmp) (ancestor_file mainstream_file
    modified_file : List Entry) (i1 i2 j1 j2 : Nat) (st : merge_state) :
    Option (Bool × merge_state) :=
  if j1 = 0 ∧ i2 - i1 ≤ j2 - j1 then
    match try_split_merged_entry fstrcmp_bounded (ancestor_file.getD i1 [])
        (modified_file.getD (i1 + j2 - i2) []) with
    | none => none
    | some none => some (false, st)
    | some (some split) =>
      if all_similar fstrcmp_bounded ancestor_file modified_file i2 j2 (i2 - i1) (i1 + 1) then
        let num_changed := i2 - i1 + 1
        let num_added := (j2 - j1 + 1) - num_changed
        some (true,
          merged_changes fstrcmp_bounded ancestor_file mainstream_file modified_file i2 j2
            (j1 + num_added) split.2 (j2 + 1 - (j1 + num_added)) (j1 + num_added)
            { st with
              result_entries :=
                add_first_desc modified_file j1 num_added
                  (gl_list_add_first st.result_entries split.1) })
      else some (false, st)
  else some (false, st)

/-- The second part of the case CHANGE of `main`, entered when `done` is false:
the simple change and the big change. `some (true, st1)` when `done` is set,
`some (false, st1)` when not (the mapping may have been computed further), `none`
when an `ASSERT` failed. -/
def change_simple_or_big (fstrcmp_bounded : Fstrcmp) (ancestor_file mainstream_file
    modified_file : List Entry) (diffs : differences) (i1 i2 j1 j2 : Nat) (st : merge_state) :
    Option (Bool × merge_state) :=
  if i2 - i1 ≤ j2 - j1 ∧
      all_similar fstrcmp_bounded ancestor_file modified_file i2 j2 (i2 + 1 - i1) i1 = true then
    let num_changed := i2 - i1 + 1
    let num_added := (j2 - j1 + 1) - num_changed
    if j1 = 0 then
      match top_changes fstrcmp_bounded ancestor_file mainstream_file modified_file i2 j2
          (j2 + 1 - (j1 + num_added)) (j1 + num_added)
          { st with result_entries := add_first_desc modified_file j1 num_added st.result_entries } with
      | none => none
      | some st1 => some (true, st1)
    else
      let i_before := diffs.index_mapping_reverse.getD (j1 - 1) 0
      if ¬ (i_before ≥ 0) then none
      else
        let r_before := entries_mapping_get fstrcmp_bounded st.mapping i_before.toNat
        let linear : Bool × entries_mapping :=
          if r_before.1 ≥ 0 then
            linear_test fstrcmp_bounded i_before.toNat r_before.1 num_changed
              (i_before.toNat + 1) r_before.2
          else (false, r_before.2)
        if linear.1 = true then
          match linear_changes fstrcmp_bounded ancestor_file mainstream_file modified_file i2 j2
              (j2 + 1 - (j1 + num_added)) (j1 + num_added)
              { mapping := linear.2
                result_entries :=
                  add_before_desc modified_file j1 (r_before.1 + 1).toNat num_added
                    st.result_entries
                result_conflicts := st.result_conflicts } with
          | none => none
          | some st1 => some (true, st1)
        else some (false, { st with mapping := linear.2 })
  else
    let r_first := entries_mapping_get fstrcmp_bounded st.mapping i1
    let linear_unchanged : Bool × entries_mapping :=
      if r_first.1 ≥ 0 ∧
          entry_equals (ancestor_file.getD i1 []) (mainstream_file.getD r_first.1.toNat []) = true then
        unchanged_test fstrcmp_bounded ancestor_file mainstream_file i1 r_first.1
          (i2 - i1) (i1 + 1) r_first.2
      else (false, r_first.2)
    if linear_unchanged.1 = true then
      match empty_slots fstrcmp_bounded ancestor_file mainstream_file (i2 + 1 - i1) i1
          { mapping := linear_unchanged.2
            result_entries :=
              add_before_desc modified_file j1 r_first.1.toNat (j2 + 1 - j1) st.result_entries
            result_conflicts := st.result_conflicts } with
      | none => none
      | some st1 => some (true, st1)
    else some (false, { st with mapping := linear_unchanged.2 })

/-- The case CHANGE of `main`. -/
def apply_change (fstrcmp_bounded : Fstrcmp) (ancestor_file mainstream_file
    modified_file : List Entry) (diffs : differences) (i1 i2 j1 j2 : Nat) (st : merge_state) :
    Option merge_state :=
  match change_simple_merged fstrcmp_bounded ancestor_file mainstream_file modified_file
      i1 i2 j1 j2 st with
  | none => none
  | some (true, st1) => some st1
  | some (false, st1) =>
    match change_simple_or_big fstrcmp_bounded ancestor_file mainstream_file modified_file
        diffs i1 i2 j1 j2 st1 with
    | none => none
    | some (true, st2) => some st2
    | some (false, st2) =>
      some { st2 with
        result_conflicts := st2.result_conflicts ++
          [{ old_entries := entries_range ancestor_file i1 i2
             modified_entries := entries_range modified_file j1 j2 }] }

/-- The body of the loop over the edits in `main`. -/
def apply_edit (fstrcmp_bounded : Fstrcmp) (ancestor_file mainstream_file
    modified_file : List Entry) (diffs : differences) (e : edit) (st : merge_state) :
    Option merge_state :=
  match e with
  | edit.ADDITION j1 j2 =>
    apply_addition fstrcmp_bounded ancestor_file mainstream_file modified_file diffs j1 j2 st
  | edit.REMOVAL i1 i2 =>
    some (apply_removal fstrcmp_bounded ancestor_file mainstream_file (i2 + 1 - i1) i1 st)
  | edit.CHANGE i1 i2 j1 j2 =>
    apply_change fstrcmp_bounded ancestor_file mainstream_file modified_file diffs i1 i2 j1 j2 st

/-- The loop `for (e = 0; e < diffs.num_edits; e++)` of `main`. -/
def apply_edits (fstrcmp_bounded : Fstrcmp) (ancestor_file mainstream_file
    modified_file : List Entry) (diffs : differences) : List edit → merge_state → Option merge_state
  | [], st => some st
  | e :: rest, st =>
    match apply_edit fstrcmp_bounded ancestor_file mainstream_file modified_file diffs e st with
    | none => none
    | some st1 =>
      apply_edits fstrcmp_bounded ancestor_file mainstream_file modified_file diffs rest st1

/-- The initial `result_entries`: one node per entry of the mainstream file, kept in
`result_entries_pointers[k]`. -/
def initial_result (mainstream_file : List Entry) : List node :=
  (List.range mainstream_file.length).map
    (fun k => { slot := some k, value := mainstream_file.getD k [] })

/-- The computation of `main` between reading the three files and writing the
output: the final `result_entries` (as entries, in list order) and
`result_conflicts`. -/
def merge (fstrcmp_bounded : Fstrcmp) (diag : Diag)
    (ancestor_file mainstream_file modified_file : List Entry) :
    Option (List Entry × List conflict) :=
  match compute_mapping fstrcmp_bounded ancestor_file mainstream_file false with
  | none => none
  | some mapping =>
    match compute_differences diag ancestor_file modified_file with
    | none => none
    | some diffs =>
      match apply_edits fstrcmp_bounded ancestor_file mainstream_file modified_file diffs
          diffs.edits
          { mapping := mapping
            result_entries := initial_result mainstream_file
            result_conflicts := [] } with
      | none => none
      | some st => some (st.result_entries.map node.value, st.result_conflicts)

/-- The function `entry_write`: the bytes written for an entry. -/
def entry_write (entry : Entry) : List Byte :=
  if entry.length > 0 then entry else []

/-- The bytes of the string "<<<<<<<\n". -/
def marker_old : List Byte := [60, 60, 60, 60, 60, 60, 60, 10]

/-- The bytes of the string "=======\n". -/
def marker_mid : List Byte := [61, 61, 61, 61, 61, 61, 61, 10]

/-- The bytes of the string ">>>>>>>\n". -/
def marker_new : List Byte := [62, 62, 62, 62, 62, 62, 62, 10]

/-- The function `conflict_write`: the bytes written for a conflict. -/
def conflict_write (c : conflict) : List Byte :=
  marker_old ++ (c.old_entries.map entry_write).flatten ++ marker_mid ++
    (c.modified_entries.map entry_write).flatten ++ marker_new

/-- The output part of `main`: the bytes written to the destination file. -/
def write_output (result_entries : List Entry) (result_conflicts : List conflict) : List Byte :=
  (result_conflicts.map conflict_write).flatten ++ (result_entries.map entry_write).flatten

/-- The exit status of `main`: `EXIT_FAILURE` (1) when there are conflicts,
`EXIT_SUCCESS` (0) otherwise. -/
def exit_status (result_conflicts : List conflict) : Nat :=
  if result_conflicts.length > 0 then 1 else 0

/-- The test `strncmp (var, literal, n) == 0` for a string constant `literal` of
length `n`: the first `n` bytes of `var` are the bytes of `literal`. A C string is
given by its bytes before the terminating NUL. -/
def strncmp_eq (var literal : List Byte) : Bool :=
  var.take literal.length == literal

/-- The search of `c_strstr` from the offset `offset`, at which the bytes `haystack`
start: the offset of the first occurrence of `needle`, if any. -/
def c_strstr_from (needle : List Byte) : List Byte → Nat → Option Nat
  | [], offset => if needle = [] then some offset else none
  | c :: rest, offset =>
    if (c :: rest).take needle.length = needle then some offset
    else c_strstr_from needle rest (offset + 1)

/-- The library routine `c_strstr (haystack, needle)`: the offset of the first
occurrence of `needle` in `haystack`, `none` for `NULL`. -/
def c_strstr (haystack needle : List Byte) : Option Nat :=
  c_strstr_from needle haystack 0

/-- The bytes of the string "pull". -/
def str_pull : List Byte := [112, 117, 108, 108]

/-- The bytes of the string " --rebase". -/
def str_rebase : List Byte := [32, 45, 45, 114, 101, 98, 97, 115, 101]

/-- The bytes of the string "merge origin". -/
def str_merge_origin : List Byte := [109, 101, 114, 103, 101, 32, 111, 114, 105, 103, 105, 110]

/-- The block of `main` that sets `downstream`, from the results of
`getenv ("GIT_DOWNSTREAM")`, `getenv ("GIT_UPSTREAM")` and
`getenv ("GIT_REFLOG_ACTION")` (`none` for `NULL`); `var[0] != 0` is `var ≠ []`. -/
def guess_downstream (git_downstream git_upstream git_reflog_action : Option (List Byte)) :
    Bool :=
  if git_downstream ≠ none ∧ git_downstream ≠ some [] then true
  else if git_upstream ≠ none ∧ git_upstream ≠ some [] then false
  else
    match git_reflog_action with
    | some var =>
      if (strncmp_eq var str_pull = true ∧ c_strstr var str_rebase = none) ∨
          strncmp_eq var str_merge_origin = true then true
      else false
    | none => false

/-- The choice of `mainstream_file_name` in `main`: with `downstream` the other
file (B), else the destination file (A). -/
def mainstream_of {α : Type} (downstream : Bool) (destination other : α) : α :=
  if downstream then other else destination

/-- The choice of `modified_file_name` in `main`: with `downstream` the destination
file (A), else the other file (B). -/
def modified_of {α : Type} (downstream : Bool) (destination other : α) : α :=
  if downstream then destination else other

/-- The program from the contents of the three files `O-FILE`, `A-FILE`, `B-FILE`
and the direction found by the heuristic: the bytes written to `A-FILE` and the
exit status. -/
def main_run (fstrcmp_bounded : Fstrcmp) (diag : Diag) (downstream : Bool)
    (ancestor_contents destination_contents other_contents : List Byte) :
    Option (List Byte × Nat) :=
  match merge fstrcmp_bounded diag (read_changelog_file ancestor_contents)
      (read_changelog_file (mainstream_of downstream destination_contents other_contents))
      (read_changelog_file (modified_of downstream destination_contents other_contents)) with
  | none => none
  | some (result_entries, result_conflicts) =>
    some (write_output result_entries result_conflicts, exit_status result_conflicts)

/-! ## Instances of the two library routines, for the examples -/

/-- One row of the table of longest common subsequences: from the row for a prefix
of the first string, the row for that prefix extended by the byte `x`. The list
`prev` is the old row from the current column on, `diagonal` the old value and
`left` the new value of the column before. -/
def lcs_row (x : Byte) : List Byte → List Nat → Nat → Nat → List Nat
  | [], _, _, _ => []
  | _ :: _, [], _, _ => []
  | y :: b, up :: prev, diagonal, left =>
    (if x = y then diagonal + 1 else max up left) ::
      lcs_row x b prev up (if x = y then diagonal + 1 else max up left)

/-- The length of the longest common subsequence of two byte strings. -/
def lcs_length (a b : List Byte) : Nat :=
  (a.foldl (fun row x => lcs_row x b row 0 0) (List.replicate b.length 0)).getLastD 0

/-- Modelled from the spec: `fstrcmp_bounded` comes from `fstrcmp.h`, which is not in
the source file; the spec gives it as the "classical longest-common-subsequence-based
ratio: `2·|LCS(a,b)| / (|a|+|b|)`", a value in [0,1] "where 1 means equal". This
instance always returns the exact ratio (it never uses the licence to stop early
below the bound), and 1 for two empty strings. -/
def fstrcmp_ratio : Fstrcmp := fun a b _ =>
  if a.length + b.length = 0 then 1
  else ((2 * lcs_length a b : Nat) : ℚ) / ((a.length + b.length : Nat) : ℚ)

/-- A midpoint search for the examples: the window is cut at `(xlim, yoff)`, so that
its entries of FILE1 count as deleted and its entries of FILE2 as inserted. (For a
window of one entry on each side, the two being different, every midpoint search
leaves the same marks.) -/
def diag_corner : Diag := fun _ _ _ xlim yoff _ => (xlim, yoff)

/-! ## Auxiliary definitions for the proofs -/

/-- The index in `file2` that the exact pass looks at for `entry`. -/
def last_index (file2 : List Entry) (entry : Entry) : Nat :=
  ((file2.length : Int) - 1 - gl_list_indexof file2.reverse entry).toNat

/-- Invariant of the exact pass: when an entry is bound on either side, the slot
of the last occurrence of its value in `file2` is bound too. -/
def ExactInv (file1 file2 : List Entry) (arrays : List Int × List Int) : Prop :=
  arrays.1.length = file1.length ∧ arrays.2.length = file2.length ∧
  (∀ i, i < file1.length → arrays.1.getD i 0 ≥ 0 →
    arrays.2.getD (last_index file2 (file1.getD i [])) 0 ≥ 0) ∧
  (∀ j, j < file2.length → arrays.2.getD j 0 ≥ 0 →
    arrays.2.getD (last_index file2 (file2.getD j [])) 0 ≥ 0)

/-- The array `index_mapping` when the first `k` entries of FILE1 are paired with
the entries `m .. m + k - 1` of FILE2 and nothing is marked. -/
def shifted_forward (m n1 k : Nat) : List Int :=
  (List.range n1).map (fun i => if i < k then ((m + i : Nat) : Int) else 0)

/-- The array `index_mapping_reverse` when the first `m` entries of FILE2 are marked
as inserted and the next `k` entries are paired with the entries `0 .. k - 1`. -/
def shifted_reverse (m n1 k : Nat) : List Int :=
  List.replicate m (-1) ++ (List.range n1).map (fun i => if i < k then (i : Int) else 0)

/-- Invariant of the exact pass of a file against itself, before index `t` is
visited: both arrays are the same partial identity, every index from `t` on is bound,
and the occurrences of one value are bound together. -/
def IdInv (file : List Entry) (t : Nat) (arrays : List Int × List Int) : Prop :=
  arrays.1 = arrays.2 ∧ arrays.1.length = file.length ∧
  (∀ i, i < file.length → arrays.1.getD i 0 = (i : Int) ∨ arrays.1.getD i 0 = -2) ∧
  (∀ i, t ≤ i → i < file.length → arrays.1.getD i 0 = (i : Int)) ∧
  (∀ i i', i < file.length → i' < file.length → file.getD i [] = file.getD i' [] →
    arrays.1.getD i 0 ≥ 0 → arrays.1.getD i' 0 ≥ 0)

/-- The array that maps every index below `n` to itself. -/
def identity_mapping (n : Nat) : List Int :=
  List.map Int.ofNat (List.range n)

/-- The claim's words "inserted in order immediately before mainstream slot `k`": the
nodes `new` are put, as a block, right before the node of slot `k`. -/
def spec_insert_before : List node → Nat → List node → List node
  | [], _, _ => []
  | n :: rest, k, new =>
    if n.slot = some k then new ++ n :: rest else n :: spec_insert_before rest k new

/-- The claim's words "U[j1..j2]", as new nodes of the result list. -/
def spec_new_nodes (modified_file : List Entry) (j1 j2 : Nat) : List node :=
  (List.range' j1 (j2 + 1 - j1)).map
    (fun j => ({ slot := none, value := modified_file.getD j [] } : node))

/-- The mapping of the three-entry file of the witnesses to itself. -/
def witness_mapping : entries_mapping :=
  { file1 := [[49, 10], [50, 10], [51, 10]], file2 := [[49, 10], [50, 10], [51, 10]],
    index_mapping := [0, 1, 2], index_mapping_reverse := [0, 1, 2] }

/-- What a step of the exact pass may do to the arrays: a slot keeps its value, or it
was negative and now holds the index of an equal entry of the other file; only slots of
entries equal to `entry` with an index below the bounds `ci` and `cj` change. -/
def ExactChange (file1 file2 : List Entry) (entry : Entry) (ci cj : Nat)
    (old new : List Int × List Int) : Prop :=
  new.1.length = old.1.length ∧ new.2.length = old.2.length ∧
  (∀ p, new.1.getD p 0 = old.1.getD p 0 ∨
    (p < ci ∧ p < file1.length ∧ file1.getD p [] = entry ∧ old.1.getD p 0 < 0 ∧
      ∃ q : Nat, q < file2.length ∧ new.1.getD p 0 = (q : Int) ∧ file2.getD q [] = entry)) ∧
  (∀ q, new.2.getD q 0 = old.2.getD q 0 ∨
    (q < cj ∧ q < file2.length ∧ file2.getD q [] = entry ∧ old.2.getD q 0 < 0 ∧
      ∃ p : Nat, p < file1.length ∧ new.2.getD q 0 = (p : Int) ∧ file1.getD p [] = entry))

/-- The state of the arrays during and after the exact pass: a slot is not yet
computed (-2) or holds the index of an equal entry of the other file. -/
def PassInv (file1 file2 : List Entry) (arrays : List Int × List Int) : Prop :=
  arrays.1.length = file1.length ∧ arrays.2.length = file2.length ∧
  (∀ p, p < file1.length → arrays.1.getD p 0 = -2 ∨
    ∃ q : Nat, q < file2.length ∧ arrays.1.getD p 0 = (q : Int) ∧
      file2.getD q [] = file1.getD p []) ∧
  (∀ q, q < file2.length → arrays.2.getD q 0 = -2 ∨
    ∃ p : Nat, p < file1.length ∧ arrays.2.getD q 0 = (p : Int) ∧
      file1.getD p [] = file2.getD q [])

/-- The mappings that the merge can hold: the result `mapping0` of `compute_mapping`
after any number of calls of `entries_mapping_get`. -/
inductive Looked (fstrcmp_bounded : Fstrcmp) (mapping0 : entries_mapping) :
    entries_mapping → Prop where
  | start : Looked fstrcmp_bounded mapping0 mapping0
  | lookup (mapping : entries_mapping) (i : Nat) :
      Looked fstrcmp_bounded mapping0 mapping →
      Looked fstrcmp_bounded mapping0 (entries_mapping_get fstrcmp_bounded mapping i).2

/-- The mapping from the ancestor "a\n", "b\n", "a\n" to the mainstream file "a\n",
"c\n", "a\n" after the exact pass: the two copies of "a\n" are paired from the last one
backwards. -/
def witness_mapping_removal : entries_mapping :=
  { file1 := [[97, 10], [98, 10], [97, 10]], file2 := [[97, 10], [99, 10], [97, 10]],
    index_mapping := [0, -2, 2], index_mapping_reverse := [0, -2, 2] }

/-- The midpoint search stays inside its window and makes progress: the point it
gives is neither the lower nor the upper corner of the window. -/
def DiagOk (diag : Diag) (xv yv : List Entry) : Prop :=
  ∀ xoff xlim yoff ylim, xoff < xlim → yoff < ylim → xlim ≤ xv.length → ylim ≤ yv.length →
    xoff ≤ (diag xv yv xoff xlim yoff ylim).1 ∧ (diag xv yv xoff xlim yoff ylim).1 ≤ xlim ∧
    yoff ≤ (diag xv yv xoff xlim yoff ylim).2 ∧ (diag xv yv xoff xlim yoff ylim).2 ≤ ylim ∧
    ((diag xv yv xoff xlim yoff ylim).1 ≠ xoff ∨ (diag xv yv xoff xlim yoff ylim).2 ≠ yoff) ∧
    ((diag xv yv xoff xlim yoff ylim).1 ≠ xlim ∨ (diag xv yv xoff xlim yoff ylim).2 ≠ ylim)

/-- A walk through two files from the position `(i, j)` to the position `(i', j')`:
each step passes an entry of FILE1 that is deleted (`D`), an entry of FILE2 that is
inserted (`I`), or a pair of entries that correspond (`P`). -/
inductive Path (D : Nat → Prop) (I : Nat → Prop) (P : Nat → Nat → Prop) :
    Nat → Nat → Nat → Nat → Prop where
  | done (i j : Nat) : Path D I P i j i j
  | del (i j i' j' : Nat) : D i → Path D I P (i + 1) j i' j' → Path D I P i j i' j'
  | ins (i j i' j' : Nat) : I j → Path D I P i (j + 1) i' j' → Path D I P i j i' j'
  | both (i j i' j' : Nat) : P i j → Path D I P (i + 1) (j + 1) i' j' → Path D I P i j i' j'

/-- Entry `i` of FILE1 is marked as deleted in the context. -/
def Deleted (ctxt : List Int × List Int) (i : Nat) : Prop := ctxt.1.getD i 0 < 0

/-- Entry `j` of FILE2 is marked as inserted in the context. -/
def Inserted (ctxt : List Int × List Int) (j : Nat) : Prop := ctxt.2.getD j 0 < 0

/-- Entries `i` of FILE1 and `j` of FILE2 are both unmarked and equal. -/
def Kept (xv yv : List Entry) (ctxt : List Int × List Int) (i j : Nat) : Prop :=
  ctxt.1.getD i 0 ≥ 0 ∧ ctxt.2.getD j 0 ≥ 0 ∧ xv.getD i [] = yv.getD j []

/-- Entries `i` of FILE1 and `j` of FILE2 are mapped to each other and equal. -/
def Paired (xv yv : List Entry) (ctxt : List Int × List Int) (i j : Nat) : Prop :=
  ctxt.1.getD i 0 = (j : Int) ∧ ctxt.2.getD j 0 = (i : Int) ∧ xv.getD i [] = yv.getD j []

/-- The nodes of the initial result list from slot `i` on. -/
def suffix_nodes (mainstream_file : List Entry) (i : Nat) : List node :=
  (List.range' i (mainstream_file.length - i)).map
    (fun k => ({ slot := some k, value := mainstream_file.getD k [] } : node))

/-- A run of nodes of the result list for the slots `i .. i + count - 1`, with the
values given by `val`. -/
def slot_nodes (val : Nat → Entry) (count i : Nat) : List node :=
  (List.range' i count).map (fun k => ({ slot := some k, value := val k } : node))

/-- The loop `gl_list_node_set_value (result_entries, result_entries_pointers[k], val k)`
for `k = i .. i + count - 1`. -/
def set_slots (val : Nat → Entry) : Nat → Nat → List node → List node
  | 0, _, list => list
  | count + 1, i, list => set_slots val count (i + 1) (gl_list_node_set_value list i (val i))

/-- The mapping of a file to itself: every entry is bound to itself. -/
def identity_entries_mapping (file : List Entry) : entries_mapping :=
  { file1 := file, file2 := file, index_mapping := identity_mapping file.length,
    index_mapping_reverse := identity_mapping file.length }

/-- The state of `main` between two edits when the mainstream file is the ancestor
file and the edits up to the position `(i, j)` were put in place: the mapping is the
identity, there is no conflict, and `result_entries` holds the bytes of the first `j`
modified entries followed by the untouched nodes of the slots `i ..`. -/
def PassThrough (file modified_file : List Entry) (i j : Nat) (st : merge_state) : Prop :=
  st.mapping = identity_entries_mapping file ∧ st.result_conflicts = [] ∧
  ∃ pre, st.result_entries = pre ++ suffix_nodes file i ∧
    (∀ n ∈ pre, ∀ k, n.slot = some k → k < i) ∧
    (pre.map node.value).flatten = (modified_file.take j).flatten

/-- The "simple merged" case of a CHANGE does not apply: the CHANGE is not at the top
of the modified file with at least as many modified as ancestor entries, or
`try_split_merged_entry` returns false, or a later pair of entries is not similar. -/
def split_declined (fstrcmp_bounded : Fstrcmp) (ancestor_file modified_file : List Entry)
    (i1 i2 j1 j2 : Nat) : Prop :=
  ¬ (j1 = 0 ∧ i2 - i1 ≤ j2 - j1) ∨
  try_split_merged_entry fstrcmp_bounded (ancestor_file.getD i1 [])
    (modified_file.getD (i1 + j2 - i2) []) = some none ∨
  ((try_split_merged_entry fstrcmp_bounded (ancestor_file.getD i1 [])
      (modified_file.getD (i1 + j2 - i2) [])).isSome = true ∧
    all_similar fstrcmp_bounded ancestor_file modified_file i2 j2 (i2 - i1) (i1 + 1) = false)

/-- The CHANGE calls `gl_list_add_before` at most once: a simple change in the
interior adds at most one entry, and a change that is not simple has one modified
entry. -/
def single_insert (fstrcmp_bounded : Fstrcmp) (ancestor_file modified_file : List Entry)
    (i1 i2 j1 j2 : Nat) : Prop :=
  if i2 - i1 ≤ j2 - j1 ∧
      all_similar fstrcmp_bounded ancestor_file modified_file i2 j2 (i2 + 1 - i1) i1 = true then
    j1 = 0 ∨ (j2 - j1) - (i2 - i1) ≤ 1
  else j2 = j1

/-- The edits that `main` applies by putting the modified entries in place one by
one: every ADDITION, every REMOVAL, and a CHANGE for which the "simple merged" case
does not apply and that calls `gl_list_add_before` at most once. -/
def plain_edit (fstrcmp_bounded : Fstrcmp) (ancestor_file modified_file : List Entry) :
    edit → Prop
  | edit.ADDITION _ _ => True
  | edit.REMOVAL _ _ => True
  | edit.CHANGE i1 i2 j1 j2 =>
    split_declined fstrcmp_bounded ancestor_file modified_file i1 i2 j1 j2 ∧
    single_insert fstrcmp_bounded ancestor_file modified_file i1 i2 j1 j2

/-- What the loop that creates the edits knows at the position `(i, j)`: it is at the
top of FILE2, or it has just passed the pair `(i - 1, j - 1)`, or it has just made an
edit and stands before a pair of unmarked entries or at the end of both files. -/
def walk_start (n1 n2 : Nat) (ctxt : List Int × List Int) (i j : Nat) : Prop :=
  j = 0 ∨ (0 < i ∧ 0 < j ∧ ctxt.2.getD (j - 1) 0 = ((i - 1 : Nat) : Int)) ∨
  (i < n1 ∧ j < n2 ∧ ctxt.1.getD i 0 ≥ 0 ∧ ctxt.2.getD j 0 ≥ 0) ∨ (i = n1 ∧ j = n2)

/-- The offsets in the buffer at which the entries of a list start, the first one
starting at `offset`. -/
def entry_starts : Nat → List Entry → List Nat
  | _, [] => []
  | offset, e :: rest => offset :: entry_starts (offset + e.length) rest

/-- The claim's words for an offset at which a new entry starts: the two bytes before
it are newlines and the byte at it is none of newline, tab, space. -/
def boundary_offset (contents : List Byte) (p : Nat) : Prop :=
  2 ≤ p ∧ p < contents.length ∧ contents.getD (p - 2) 0 = 10 ∧ contents.getD (p - 1) 0 = 10 ∧
    ¬ (contents.getD p 0 = 10 ∨ contents.getD p 0 = 9 ∨ contents.getD p 0 = 32)

/-- The conflicts that one edit can append to `result_conflicts`. An ADDITION appends
nothing or one conflict with the added entries; a REMOVAL appends one conflict per
ancestor entry that it cannot remove, in increasing order of the ancestor index; a
CHANGE appends one conflict per single-entry change that it cannot apply, in
increasing order of the ancestor index (the indices run from `i1` to `i2` for an edit
with `i1 <= i2`), or one conflict with the two ranges. -/
def emitted_by (ancestor_file modified_file : List Entry) : edit → List conflict → Prop
  | edit.ADDITION j1 j2, cs =>
    cs = [] ∨
    cs = [{ old_entries := [], modified_entries := entries_range modified_file j1 j2 }]
  | edit.REMOVAL i1 i2, cs =>
    ∃ indices : List Nat, indices.Sublist (List.range' i1 (i2 + 1 - i1)) ∧
      cs = indices.map (fun i =>
        ({ old_entries := [ancestor_file.getD i []], modified_entries := [] } : conflict))
  | edit.CHANGE i1 i2 j1 j2, cs =>
    (∃ (indices : List Nat) (changed : Nat → Entry),
      indices.Sublist (List.range' (min i1 i2) (i2 - i1 + 1)) ∧
      cs = indices.map (fun i => single_conflict (ancestor_file.getD i []) (changed i))) ∨
    cs = [{ old_entries := entries_range ancestor_file i1 i2,
            modified_entries := entries_range modified_file j1 j2 }]

/-- The conflicts appended by each edit of the loop over the edits in `main`, edit by
edit: what `result_conflicts` holds after an edit beyond what it held before. -/
def conflicts_by_edit (fstrcmp_bounded : Fstrcmp) (ancestor_file mainstream_file
    modified_file : List Entry) (diffs : differences) :
    List edit → merge_state → List (List conflict)
  | [], _ => []
  | e :: rest, st =>
    match apply_edit fstrcmp_bounded ancestor_file mainstream_file modified_file diffs e st with
    | none => []
    | some st1 =>
      st1.result_conflicts.drop st.result_conflicts.length ::
        conflicts_by_edit fstrcmp_bounded ancestor_file mainstream_file modified_file diffs
          rest st1

/-- The ranges of an edit are not empty. -/
def nonempty_ranges : edit → Prop
  | edit.ADDITION j1 j2 => j1 ≤ j2
  | edit.REMOVAL i1 i2 => i1 ≤ i2
  | edit.CHANGE i1 i2 j1 j2 => i1 ≤ i2 ∧ j1 ≤ j2

/-- The two arrays of a mapping are inverse to each other on the indices that are
bound: a slot of `index_mapping` that holds an index `j` of FILE2 has its own index in
slot `j` of `index_mapping_reverse`, and vice versa. -/
def MutualInv (n1 n2 : Nat) (arrays : List Int × List Int) : Prop :=
  arrays.1.length = n1 ∧ arrays.2.length = n2 ∧
  (∀ i j : Nat, i < n1 → arrays.1.getD i 0 = (j : Int) →
    j < n2 ∧ arrays.2.getD j 0 = (i : Int)) ∧
  (∀ j i : Nat, j < n2 → arrays.2.getD j 0 = (i : Int) →
    i < n1 ∧ arrays.1.getD i 0 = (j : Int))

/-- The mappings that a caller can hold: the result `mapping0` of `compute_mapping`
after any number of calls of `entries_mapping_get` and `entries_mapping_reverse_get`. -/
inductive Probed (fstrcmp_bounded : Fstrcmp) (mapping0 : entries_mapping) :
    entries_mapping → Prop where
  | start : Probed fstrcmp_bounded mapping0 mapping0
  | get (mapping : entries_mapping) (i : Nat) :
      Probed fstrcmp_bounded mapping0 mapping →
      Probed fstrcmp_bounded mapping0 (entries_mapping_get fstrcmp_bounded mapping i).2
  | reverse_get (mapping : entries_mapping) (j : Nat) :
      Probed fstrcmp_bounded mapping0 mapping →
      Probed fstrcmp_bounded mapping0 (entries_mapping_reverse_get fstrcmp_bounded mapping j).2

/-- The mapping from "abcde\n", "z\n" to "abcdX\n", "z\n" after the exact pass: the
second entries are paired. -/
def witness_mapping_probe : entries_mapping :=
  { file1 := [[97, 98, 99, 100, 101, 10], [122, 10]],
    file2 := [[97, 98, 99, 100, 88, 10], [122, 10]],
    index_mapping := [-2, 1], index_mapping_reverse := [-2, 1] }

/-- Position `i` of FILE1 lies in the range `[i1, i2]` of the edit, a REMOVAL or a
CHANGE. -/
def covers_file1 (e : edit) (i : Nat) : Bool :=
  match e with
  | edit.ADDITION _ _ => false
  | edit.REMOVAL i1 i2 => decide (i1 ≤ i ∧ i ≤ i2)
  | edit.CHANGE i1 i2 _ _ => decide (i1 ≤ i ∧ i ≤ i2)

/-- Position `j` of FILE2 lies in the range `[j1, j2]` of the edit, an ADDITION or a
CHANGE. -/
def covers_file2 (e : edit) (j : Nat) : Bool :=
  match e with
  | edit.ADDITION j1 j2 => decide (j1 ≤ j ∧ j ≤ j2)
  | edit.REMOVAL _ _ => false
  | edit.CHANGE _ _ j1 j2 => decide (j1 ≤ j ∧ j ≤ j2)

/-- A mapping whose first entry of FILE1 and whose first entry of FILE2 hold a NUL
byte, with nothing computed yet. -/
def witness_mapping_nul : entries_mapping :=
  { file1 := [[97, 0, 10], [98, 10]], file2 := [[97, 0, 10], [98, 10]],
    index_mapping := [-2, -2], index_mapping_reverse := [-2, -2] }

/-- The claim's words "is set and non-empty", for a variable of the environment. -/
def set_and_nonempty (var : Option (List Byte)) : Prop :=
  ∃ v, var = some v ∧ v ≠ []

/-- The claim's words for the direction: downstream if `GIT_DOWNSTREAM` is set and
non-empty; otherwise upstream if `GIT_UPSTREAM` is set and non-empty; otherwise
downstream exactly when `GIT_REFLOG_ACTION` is set and either begins with "pull" and
does not contain " --rebase", or begins with "merge origin". -/
def spec_downstream (git_downstream git_upstream git_reflog_action : Option (List Byte)) :
    Prop :=
  set_and_nonempty git_downstream ∨
    (¬ set_and_nonempty git_downstream ∧ ¬ set_and_nonempty git_upstream ∧
      ∃ v, git_reflog_action = some v ∧
        ((str_pull <+: v ∧ ¬ str_rebase <:+: v) ∨ str_merge_origin <+: v))

/-- The mapping from the ancestor `["p\n", "abcde\n"]` to the mainstream
`["p\n", "n\n", "abcde\n"]` after the exact pass. -/
def witness_mapping_nonlinear : entries_mapping :=
  { file1 := [[112, 10], [97, 98, 99, 100, 101, 10]],
    file2 := [[112, 10], [110, 10], [97, 98, 99, 100, 101, 10]],
    index_mapping := [0, 2], index_mapping_reverse := [0, -2, 1] }

/-- The differences from the ancestor `["p\n", "abcde\n"]` to the modified file
`["p\n", "abcdx\n"]`. -/
def witness_diffs_nonlinear : differences :=
  { index_mapping := [0, -1], index_mapping_reverse := [0, -1],
    edits := [edit.CHANGE 1 1 1 1] }

/-- The claim's words "handled as a single-entry change" with the new content
`changed_entry` for the ancestor entry `i`: slot `mapping(i)` is overwritten if
`A[i] = M[mapping(i)]`, nothing is done if `A[i]` equals the new content, else the
conflict `(A[i], new content)` is appended. -/
def spec_single_change (fstrcmp_bounded : Fstrcmp) (ancestor_file mainstream_file : List Entry)
    (i : Nat) (changed_entry : Entry) (st : merge_state) : merge_state :=
  if (entries_mapping_get fstrcmp_bounded st.mapping i).1 ≥ 0 ∧
      ancestor_file.getD i [] =
        mainstream_file.getD (entries_mapping_get fstrcmp_bounded st.mapping i).1.toNat [] then
    { mapping := (entries_mapping_get fstrcmp_bounded st.mapping i).2
      result_entries := gl_list_node_set_value st.result_entries
        (entries_mapping_get fstrcmp_bounded st.mapping i).1.toNat changed_entry
      result_conflicts := st.result_conflicts }
  else if ancestor_file.getD i [] = changed_entry then
    { mapping := (entries_mapping_get fstrcmp_bounded st.mapping i).2
      result_entries := st.result_entries
      result_conflicts := st.result_conflicts }
  else
    { mapping := (entries_mapping_get fstrcmp_bounded st.mapping i).2
      result_entries := st.result_entries
      result_conflicts := st.result_conflicts ++
        [single_conflict (ancestor_file.getD i []) changed_entry] }

/-- The mapping of the file `["T\n\n\tA\n\n", "E\n"]` to itself. -/
def witness_mapping_merged : entries_mapping :=
  { file1 := [[84, 10, 10, 9, 65, 10, 10], [69, 10]],
    file2 := [[84, 10, 10, 9, 65, 10, 10], [69, 10]],
    index_mapping := [0, 1], index_mapping_reverse := [0, 1] }

/-- The offsets at which the search loop of `try_split_merged_entry` looks, from the
offset `split_offset` on: the offset itself and, as long as the end of the entry is not
reached, the paragraph ends after it. The first argument bounds their number. -/
def split_candidates (new_entry : Entry) : Nat → Nat → List Nat
  | 0, _ => []
  | fuel + 1, split_offset =>
    split_offset ::
      (if split_offset < new_entry.length then
        split_candidates new_entry fuel (find_paragraph_end new_entry (split_offset + 1))
      else [])

/-- The claim's words "maximal over all candidate offsets (first maximum wins)", as a
search through the candidates with the exact similarity `s`: a candidate replaces the
best one so far only when its similarity is strictly greater. -/
def spec_best_split (s : Nat → ℚ) (candidates : List Nat) (init : Nat × ℚ) : Nat × ℚ :=
  candidates.foldl (fun best c => if s c > best.2 then (c, s c) else best) init

/-- What the spec says of the library routine `fstrcmp_bounded`: without a bound it
gives a value in [0, 1]; with the bound `lower_bound` it gives the same value when this
value is not below the bound, and else some value below the bound. -/
def FstrcmpOk (fstrcmp_bounded : Fstrcmp) : Prop :=
  ∀ (a b : List Byte) (lower_bound : ℚ),
    0 ≤ fstrcmp_bounded a b 0 ∧ fstrcmp_bounded a b 0 ≤ 1 ∧
    (lower_bound ≤ fstrcmp_bounded a b 0 →
      fstrcmp_bounded a b lower_bound = fstrcmp_bounded a b 0) ∧
    (fstrcmp_bounded a b 0 < lower_bound → fstrcmp_bounded a b lower_bound < lower_bound)

/-- An offset at which an entry can be split: its end, or a newline in it. -/
def split_point (new_entry : Entry) (c : Nat) : Prop :=
  c = new_entry.length ∨ (c < new_entry.length ∧ new_entry.getD c 0 = 10)

/-- The claim's words "the position with the greatest similarity among the positions
whose slot is negative (the greatest index among ties)": `j` is one of the `n`
positions, its slot is negative, no position with a negative slot has a greater
similarity `s`, and those after `j` have a smaller one. -/
def spec_best_position (s : Nat → ℚ) (slots : List Int) (n j : Nat) : Prop :=
  j < n ∧ slots.getD j 0 < 0 ∧
  (∀ k, k < n → slots.getD k 0 < 0 → s k ≤ s j) ∧
  (∀ k, k < n → slots.getD k 0 < 0 → j < k → s k < s j)

/-- The claim's condition for `entries_mapping_get` to bind `i` to `j`: a mutual best
match above the threshold, in terms of the similarity without a bound. -/
def spec_mutual_best (fstrcmp_bounded : Fstrcmp) (mapping : entries_mapping) (i j : Nat) :
    Prop :=
  spec_best_position
    (fun k => entry_fstrcmp fstrcmp_bounded (mapping.file1.getD i []) (mapping.file2.getD k []) 0)
    mapping.index_mapping_reverse mapping.file2.length j ∧
  FSTRCMP_THRESHOLD ≤
    entry_fstrcmp fstrcmp_bounded (mapping.file1.getD i []) (mapping.file2.getD j []) 0 ∧
  spec_best_position
    (fun k => entry_fstrcmp fstrcmp_bounded (mapping.file1.getD k []) (mapping.file2.getD j []) 0)
    mapping.index_mapping mapping.file1.length i

/-- Two files with a changed entry: file1 = ["ab\n", "xy\n"], file2 = ["abc\n", "q\n"],
nothing bound yet. -/
def witness_mapping_fuzzy : entries_mapping :=
  { file1 := [[97, 98, 10], [120, 121, 10]],
    file2 := [[97, 98, 99, 10], [113, 10]],
    index_mapping := [-2, -2], index_mapping_reverse := [-2, -2] }

/-- The number of occurrences of `e` in `l` after position `p`. -/
def later_count (l : List Entry) (e : Entry) (p : Nat) : Nat :=
  (l.drop (p + 1)).count e

/-- The claim's words "the m-th last occurrence", counted from 0: the number of
occurrences of the entry at position `p` after position `p`. The m-th last occurrence
of a value is the position with this value where the number is `m - 1`. -/
def rank_from_end (l : List Entry) (p : Nat) : Nat :=
  later_count l (l.getD p []) p

/-- The claim's words "the m-th last occurrence of e in file1 and the m-th last
occurrence of e in file2", for some `e` and `m`: the entries at `p` and `q` are equal
and have as many equal entries after them. -/
def spec_paired (a b : List Entry) (p q : Nat) : Prop :=
  a.getD p [] = b.getD q [] ∧ rank_from_end a p = rank_from_end b q

/-- The value `v` of the slot of position `p` of `a` is as the claim says: the position
of `b` paired with `p`, or -2 when there is none. -/
def SlotOk (a b : List Entry) (v : Int) (p : Nat) : Prop :=
  (∃ q : Nat, q < b.length ∧ spec_paired a b p q ∧ v = (q : Int)) ∨
  ((∀ q : Nat, q < b.length → ¬ spec_paired a b p q) ∧ v = -2)

/-- The value `e` occurs in `file1` at an index from `n` on: the exact pass, which goes
down from the last index, has met it when `n` indices are still to visit. -/
def seen_from (file1 : List Entry) (n : Nat) (e : Entry) : Prop :=
  ∃ p', n ≤ p' ∧ p' < file1.length ∧ file1.getD p' [] = e

/-- Invariant of the exact pass when `n` indices are still to visit: the slots of the
entries whose value occurs in file1 at an index from `n` on are final, all others are
not yet computed. -/
def RankInv (file1 file2 : List Entry) (n : Nat) (arrays : List Int × List Int) : Prop :=
  arrays.1.length = file1.length ∧ arrays.2.length = file2.length ∧
  (∀ p, p < file1.length →
    (seen_from file1 n (file1.getD p []) → SlotOk file1 file2 (arrays.1.getD p 0) p) ∧
    (¬ seen_from file1 n (file1.getD p []) → arrays.1.getD p 0 = -2)) ∧
  (∀ q, q < file2.length →
    (seen_from file1 n (file2.getD q []) → SlotOk file2 file1 (arrays.2.getD q 0) q) ∧
    (¬ seen_from file1 n (file2.getD q []) → arrays.2.getD q 0 = -2))

/-- What a write may do to a slot whose indices of the other file are below `bound`:
the value goes from -2 to -1, or from -2 or -1 to an index. The first case is that of
a slot that is not written. -/
def slot_change (bound : Nat) (old new : Int) : Prop :=
  new = old ∨ (old = -2 ∧ new = -1) ∨
  ((old = -2 ∨ old = -1) ∧ ∃ q : Nat, q < bound ∧ new = (q : Int))

/-- The mapping from `["abc\n", "abcd\n"]` to `["abcde\n", "abXY\n"]` after the exact
pass, which binds nothing. The similarities are 4/5 and 2/3 for "abc\n", 10/11 and 3/5
for "abcd\n". -/
def witness_mapping_order : entries_mapping :=
  { file1 := [[97, 98, 99, 10], [97, 98, 99, 100, 10]],
    file2 := [[97, 98, 99, 100, 101, 10], [97, 98, 88, 89, 10]],
    index_mapping := [-2, -2], index_mapping_reverse := [-2, -2] }

/-- The claim's words for the edit made from a gap with the deleted positions
`i .. a - 1` of FILE1 and the inserted positions `j .. b - 1` of FILE2: only inserted
positions yield an ADDITION, only deleted positions a REMOVAL, and both a CHANGE that
carries both runs. -/
def spec_gap_edit (i a j b : Nat) : edit :=
  if i = a then edit.ADDITION j (b - 1)
  else if j = b then edit.REMOVAL i (a - 1)
  else edit.CHANGE i (a - 1) j (b - 1)

/-- The claim's words "a gap between two consecutive mapped pairs", for the positions
`i .. a - 1` of FILE1 and `j .. b - 1` of FILE2: the gap is not empty, all its positions
are unmapped, it starts at the top of both files or right after the mapped pair
`(i - 1, j - 1)`, and it ends at the end of both files or right before the mapped pair
`(a, b)`. -/
def spec_gap (n1 n2 : Nat) (fwd rev : List Int) (i a j b : Nat) : Prop :=
  i ≤ a ∧ j ≤ b ∧ a ≤ n1 ∧ b ≤ n2 ∧ (i < a ∨ j < b) ∧
  (∀ t, i ≤ t → t < a → fwd.getD t 0 < 0) ∧ (∀ t, j ≤ t → t < b → rev.getD t 0 < 0) ∧
  ((i = 0 ∧ j = 0) ∨
    (0 < i ∧ 0 < j ∧ fwd.getD (i - 1) 0 = ((j - 1 : Nat) : Int) ∧
      rev.getD (j - 1) 0 = ((i - 1 : Nat) : Int))) ∧
  ((a = n1 ∧ b = n2) ∨
    (a < n1 ∧ b < n2 ∧ fwd.getD a 0 = (b : Int) ∧ rev.getD b 0 = (a : Int)))

/-- The claim's words for the order of two edits: there is a mapped pair `(p, q)` after
all positions of the first edit and before all positions of the second one. -/
def spec_edit_before (fwd rev : List Int) (e e' : edit) : Prop :=
  ∃ p q : Nat, fwd.getD p 0 = (q : Int) ∧ rev.getD q 0 = (p : Int) ∧
    (∀ t, covers_file1 e t = true → t < p) ∧ (∀ t, covers_file2 e t = true → t < q) ∧
    (∀ t, covers_file1 e' t = true → p < t) ∧ (∀ t, covers_file2 e' t = true → q < t)

/-- The edits made from the position `(i, j)` on, as a walk through the two files: the
walk is at the end of both files, or passes a mapped pair, or passes a gap, for which
it makes an edit, and then stands at the end of both files or before a mapped pair. -/
inductive EditWalk (n1 n2 : Nat) (fwd rev : List Int) : Nat → Nat → List edit → Prop where
  | stop : EditWalk n1 n2 fwd rev n1 n2 []
  | pair (i j : Nat) (edits : List edit) : i < n1 → j < n2 →
      fwd.getD i 0 = (j : Int) → rev.getD j 0 = (i : Int) →
      EditWalk n1 n2 fwd rev (i + 1) (j + 1) edits → EditWalk n1 n2 fwd rev i j edits
  | gap (i a j b : Nat) (edits : List edit) : i ≤ a → j ≤ b → a ≤ n1 → b ≤ n2 →
      (i < a ∨ j < b) →
      (∀ t, i ≤ t → t < a → fwd.getD t 0 < 0) → (∀ t, j ≤ t → t < b → rev.getD t 0 < 0) →
      ((a = n1 ∧ b = n2) ∨
        (a < n1 ∧ b < n2 ∧ fwd.getD a 0 = (b : Int) ∧ rev.getD b 0 = (a : Int))) →
      EditWalk n1 n2 fwd rev a b edits →
      EditWalk n1 n2 fwd rev i j (spec_gap_edit i a j b :: edits)

/-- A common subsequence of the two files, given by the list of its pairs of positions:
the positions increase strictly in both files, and the entries of a pair are equal. -/
def spec_common (file1 file2 : List Entry) (m : List (Nat × Nat)) : Prop :=
  m.Pairwise (fun x y => x.1 < y.1 ∧ x.2 < y.2) ∧
  ∀ x ∈ m, x.1 < file1.length ∧ x.2 < file2.length ∧ file1.getD x.1 [] = file2.getD x.2 []

/-- The claim's words "the diff is minimal": no common subsequence of the two files has
more pairs than there are mapped positions in `index_mapping`. -/
def spec_minimal (file1 file2 : List Entry) (index_mapping : List Int) : Prop :=
  ∀ m : List (Nat × Nat), spec_common file1 file2 m →
    m.length ≤ (List.range file1.length).countP (fun i => decide (0 ≤ index_mapping.getD i 0))

/-- The mapped pairs of a diff together with one more pair `(i, j)`, in the order of the
positions of FILE1. -/
def extended_matching (n1 : Nat) (index_mapping : List Int) (i j : Nat) : List (Nat × Nat) :=
  (List.range n1).filterMap (fun t =>
    if t < n1 then
      (if 0 ≤ index_mapping.getD t 0 then some (t, (index_mapping.getD t 0).toNat)
       else if t = i then some (i, j) else none)
    else none)

/-- The steps that the loop over the edits takes on the mapping and on the list
`result_entries`: calls of `entries_mapping_get`, of the three list routines that add a
node, and of `gl_list_node_set_value`. The log lists the calls of
`gl_list_node_set_value` in their order, each with the ancestor index `i` and the slot
`k = index_mapping[i]` that it writes. -/
inductive MergeRun (fstrcmp_bounded : Fstrcmp) :
    entries_mapping × List node → List (Nat × Nat) → entries_mapping × List node → Prop where
  | done (s : entries_mapping × List node) : MergeRun fstrcmp_bounded s [] s
  | lookup (mapping : entries_mapping) (list : List node) (i : Nat) (log : List (Nat × Nat))
      (s : entries_mapping × List node) :
      MergeRun fstrcmp_bounded ((entries_mapping_get fstrcmp_bounded mapping i).2, list) log s →
      MergeRun fstrcmp_bounded (mapping, list) log s
  | add_first (mapping : entries_mapping) (list : List node) (elt : Entry)
      (log : List (Nat × Nat)) (s : entries_mapping × List node) :
      MergeRun fstrcmp_bounded (mapping, gl_list_add_first list elt) log s →
      MergeRun fstrcmp_bounded (mapping, list) log s
  | add_last (mapping : entries_mapping) (list : List node) (elt : Entry)
      (log : List (Nat × Nat)) (s : entries_mapping × List node) :
      MergeRun fstrcmp_bounded (mapping, gl_list_add_last list elt) log s →
      MergeRun fstrcmp_bounded (mapping, list) log s
  | add_before (mapping : entries_mapping) (list : List node) (k : Nat) (elt : Entry)
      (log : List (Nat × Nat)) (s : entries_mapping × List node) :
      MergeRun fstrcmp_bounded (mapping, gl_list_add_before list k elt) log s →
      MergeRun fstrcmp_bounded (mapping, list) log s
  | set_value (mapping : entries_mapping) (list : List node) (i k : Nat) (elt : Entry)
      (log : List (Nat × Nat)) (s : entries_mapping × List node) :
      mapping.index_mapping.getD i 0 = (k : Int) →
      MergeRun fstrcmp_bounded (mapping, gl_list_node_set_value list k elt) log s →
      MergeRun fstrcmp_bounded (mapping, list) ((i, k) :: log) s

/-- The nodes of the list that were added, those that are in no slot of
`result_entries_pointers`. -/
def added_nodes (list : List node) : List node :=
  list.filter (fun n => decide (n.slot = none))

/-- The nodes of the list that are in slot `k` of `result_entries_pointers`. -/
def nodes_of_slot (list : List node) (k : Nat) : List node :=
  list.filter (fun n => decide (n.slot = some k))

/-- The edits lie one after the other in FILE1. -/
def edits_ascending (edits : List edit) : Prop :=
  edits.Pairwise (fun e e' =>
    ∀ t t' : Nat, covers_file1 e t = true → covers_file1 e' t' = true → t < t')

/-- The mapping of the witness of the frame claim: the file "a\n", "b\n" mapped to
itself by the exact pass. -/
def witness_frame_mapping : entries_mapping :=
  { file1 := [[97, 10], [98, 10]], file2 := [[97, 10], [98, 10]],
    index_mapping := [0, 1], index_mapping_reverse := [0, 1] }

/-- The differences between "a\n", "b\n" and "a\n": the second entry is removed. -/
def witness_frame_diffs : differences :=
  { index_mapping := [0, -1], index_mapping_reverse := [0], edits := [edit.REMOVAL 1 1] }

/-- The state at the end of the merge of the witness of the frame claim: the node of
slot 1 holds the empty entry. -/
def witness_frame_final : merge_state :=
  { mapping := witness_frame_mapping
    result_entries := [{ slot := some 0, value := [97, 10] }, { slot := some 1, value := [] }]
    result_conflicts := [] }

/-- The mapping of the witness of the addition claim: the file "a\n", "c\n" mapped to
itself by the exact pass. -/
def witness_addition_mapping : entries_mapping :=
  { file1 := [[97, 10], [99, 10]], file2 := [[97, 10], [99, 10]],
    index_mapping := [0, 1], index_mapping_reverse := [0, 1] }

/-- The differences between "a\n", "c\n" and "a\n", "x\n", "c\n": the entry "x\n" is
added. -/
def witness_addition_diffs : differences :=
  { index_mapping := [0, 2], index_mapping_reverse := [0, -1, 1],
    edits := [edit.ADDITION 1 1] }

/-- The state at the end of the merge of the witness of the addition claim: the entry
"x\n" stands in a new node before the node of slot 1. -/
def witness_addition_final : merge_state :=
  { mapping := witness_addition_mapping
    result_entries := [{ slot := some 0, value := [97, 10] }, { slot := none, value := [120, 10] },
      { slot := some 1, value := [99, 10] }]
    result_conflicts := [] }

/-- The inner recursion of `spec_lcs`, over the second list: `a` is the first entry of
the first list and `rest` gives the value for the rest of the first list. -/
def spec_lcs_tail (a : Entry) (rest : List Entry → Nat) : List Entry → Nat
  | [] => 0
  | b :: bs => if a = b then rest bs + 1 else max (rest (b :: bs)) (spec_lcs_tail a rest bs)

/-- The claim's words "the diff is minimal", by way of the length of a longest common
subsequence of two lists of entries (a shortest edit script keeps a longest common
subsequence). -/
def spec_lcs : List Entry → List Entry → Nat
  | [] => fun _ => 0
  | a :: as => spec_lcs_tail a (spec_lcs as)

/-- The entries `lo .. hi - 1` of a file: the window of a call of `compareseq`. -/
def spec_window (l : List Entry) (lo hi : Nat) : List Entry :=
  (l.drop lo).take (hi - lo)

/-- The number of entries of the window `lo .. hi - 1` that are not marked. -/
def kept_count (marks : List Int) (lo hi : Nat) : Nat :=
  (List.range' lo (hi - lo)).countP (fun i => decide (0 ≤ marks.getD i 0))

/-- What the spec's words "a standard LCS-based diff" say of the midpoint search of the
included `diffseq.h`, on a window whose first entries differ and whose last entries
differ (`compareseq` has passed the common prefix and suffix): the point lies on a
shortest edit script, that is, a longest common subsequence of the window is made of
one of the part before the point and one of the part after it. -/
def DiagShortest (diag : Diag) (xv yv : List Entry) : Prop :=
  ∀ xoff xlim yoff ylim, xoff < xlim → yoff < ylim → xlim ≤ xv.length → ylim ≤ yv.length →
    xv.getD xoff [] ≠ yv.getD yoff [] → xv.getD (xlim - 1) [] ≠ yv.getD (ylim - 1) [] →
    spec_lcs (spec_window xv xoff xlim) (spec_window yv yoff ylim) =
      spec_lcs (spec_window xv xoff (diag xv yv xoff xlim yoff ylim).1)
          (spec_window yv yoff (diag xv yv xoff xlim yoff ylim).2) +
        spec_lcs (spec_window xv (diag xv yv xoff xlim yoff ylim).1 xlim)
          (spec_window yv (diag xv yv xoff xlim yoff ylim).2 ylim)

/-- A midpoint search that meets both contracts on all files: the point after the first
step of a shortest edit script of the window, which passes the first entry of FILE1 when
a longest common subsequence can do without it, and else the first entry of FILE2. -/
def diag_first_step : Diag := fun xv yv xoff xlim yoff ylim =>
  if spec_lcs (spec_window xv (xoff + 1) xlim) (spec_window yv yoff ylim) =
      spec_lcs (spec_window xv xoff xlim) (spec_window yv yoff ylim) then (xoff + 1, yoff)
  else (xoff, yoff + 1)

/-! ## Lemmas: the parser -/

theorem entry_end_le (l : List Byte) : entry_end l ≤ l.length := by
  induction l with
  | nil => simp [entry_end]
  | cons c rest ih =>
    unfold entry_end
    split_ifs with h1
    · split
      · rename_i d tl
        split_ifs
        · simp only [List.length_cons] at ih ⊢; omega
        · simp only [List.length_cons]; omega
      · simp only [List.length_cons]; omega
    · simp only [List.length_cons]; omega

theorem entry_end_pos (l : List Byte) (h : l ≠ []) : 0 < entry_end l := by
  cases l with
  | nil => exact absurd rfl h
  | cons c rest =>
    unfold entry_end
    split_ifs
    · split
      · split_ifs <;> omega
      · omega
    · omega

theorem split_entries_flatten (fuel : Nat) (l : List Byte) (h : l.length ≤ fuel) :
    (split_entries fuel l).flatten = l := by
  induction fuel generalizing l with
  | zero =>
    have : l = [] := List.length_eq_zero.mp (by omega)
    subst this; simp [split_entries]
  | succ n ih =>
    unfold split_entries
    split_ifs with h0
    · subst h0; simp
    · have hp := entry_end_pos l h0
      have hl := entry_end_le l
      rw [List.flatten_cons, ih]
      · exact List.take_append_drop _ _
      · simp only [List.length_drop]; omega

/-! ## Lemmas: the exact pass of `compute_mapping` -/

theorem getD_set_int (l : List Int) (a b : Nat) (v d : Int) :
    (l.set a v).getD b d = if a = b ∧ a < l.length then v else l.getD b d := by
  simp only [List.getD_eq_getElem?_getD, List.getElem?_set]
  by_cases h : a = b
  · subst h
    by_cases h2 : a < l.length
    · simp [h2]
    · simp [h2, List.getElem?_eq_none (not_lt.mp h2)]
  · simp [h]

theorem entry_equals_iff (a b : Entry) : entry_equals a b = true ↔ a = b := by
  unfold entry_equals
  constructor
  · intro h; simp at h; exact h.2
  · intro h; subst h; simp

theorem indexof_from_spec (l : List Entry) (s : Nat) (e : Entry) :
    gl_list_indexof_from l s e = -1 ∨
      ∃ r : Nat, gl_list_indexof_from l s e = (r : Int) ∧ s ≤ r ∧ r < l.length ∧
        l.getD r [] = e := by
  induction l generalizing s with
  | nil => left; simp [gl_list_indexof_from]
  | cons x rest ih =>
    cases s with
    | zero =>
      unfold gl_list_indexof_from
      by_cases hx : entry_equals x e = true
      · right; refine ⟨0, by simp [hx], le_refl _, by simp, ?_⟩
        simpa using (entry_equals_iff x e).mp hx
      · rcases ih 0 with h | ⟨r, hr, -, hlt, hget⟩
        · left; simp [hx, h]
        · right; refine ⟨r + 1, ?_, by omega, by simp; omega, by simpa using hget⟩
          simp only [hx, hr]
          have : ¬ ((r : Int) < 0) := by omega
          simp [this]
    | succ s =>
      unfold gl_list_indexof_from
      rcases ih s with h | ⟨r, hr, hle, hlt, hget⟩
      · left; simp [h]
      · right; refine ⟨r + 1, ?_, by omega, by simp; omega, by simpa using hget⟩
        simp only [hr]
        have : ¬ ((r : Int) < 0) := by omega
        simp [this]

theorem rev_lookup (l : List Entry) (c : Nat) (e : Entry) :
    gl_list_indexof_from l.reverse (l.length - c) e = -1 ∨
      ∃ p : Nat, p < c ∧ p < l.length ∧ l.getD p [] = e ∧
        gl_list_indexof_from l.reverse (l.length - c) e = (l.length : Int) - 1 - (p : Int) := by
  rcases indexof_from_spec l.reverse (l.length - c) e with h | ⟨r, hr, hle, hlt, hget⟩
  · exact Or.inl h
  · right
    rw [List.length_reverse] at hlt
    refine ⟨l.length - 1 - r, by omega, by omega, ?_, by rw [hr]; omega⟩
    rw [← hget, List.getD_eq_getElem?_getD, List.getD_eq_getElem?_getD,
      List.getElem?_reverse hlt]

theorem pair_occurrences_ok (file1 file2 : List Entry) (entry : Entry) :
    ∀ (fuel curr_i curr_j : Nat) (arrays : List Int × List Int),
      curr_i < fuel → ExactInv file1 file2 arrays →
      (∀ i, i < file1.length → file1.getD i [] = entry → arrays.1.getD i 0 ≥ 0 → curr_i ≤ i) →
      (∀ j, j < file2.length → file2.getD j [] = entry → arrays.2.getD j 0 ≥ 0 → curr_j ≤ j) →
      arrays.2.getD (last_index file2 entry) 0 ≥ 0 →
      ∃ arrays1, pair_occurrences file1 file2 entry fuel curr_i curr_j arrays = some arrays1 ∧
        ExactInv file1 file2 arrays1 := by
  intro fuel
  induction fuel with
  | zero => intro _ _ _ h; omega
  | succ fuel ih =>
    intro curr_i curr_j arrays hfuel hinv h1 h2 h3
    obtain ⟨fwd, rev⟩ := arrays
    unfold pair_occurrences
    rcases rev_lookup file1 curr_i entry with hi | ⟨p, hp, hpn, hpe, hi⟩
    · exact ⟨_, by simp [hi], hinv⟩
    rcases rev_lookup file2 curr_j entry with hj | ⟨q, hq, hqn, hqe, hj⟩
    · refine ⟨(fwd, rev), ?_, hinv⟩
      have : ¬ ((file1.length : Int) - 1 - (p : Int) < 0) := by omega
      simp [hi, hj, this]
    have e1 : ¬ ((file1.length : Int) - 1 - (p : Int) < 0) := by omega
    have e2 : ¬ ((file2.length : Int) - 1 - (q : Int) < 0) := by omega
    have t1 : ((file1.length : Int) - 1 - ((file1.length : Int) - 1 - (p : Int))).toNat = p := by
      omega
    have t2 : ((file2.length : Int) - 1 - ((file2.length : Int) - 1 - (q : Int))).toNat = q := by
      omega
    simp only [hi, hj, e1, e2, if_false, t1, t2]
    have a1 : fwd.getD p 0 < 0 := by
      by_contra hc
      have := h1 p hpn hpe (by simpa using hc)
      omega
    have a2 : rev.getD q 0 < 0 := by
      by_contra hc
      have := h2 q hqn hqe (by simpa using hc)
      omega
    rw [if_pos ⟨a1, a2⟩]
    obtain ⟨hl1, hl2, hI2, hI3⟩ := hinv
    simp only at hl1 hl2 hI2 hI3 h1 h2 h3
    have mono : ∀ b, rev.getD b 0 ≥ 0 → (rev.set q (p : Int)).getD b 0 ≥ 0 := by
      intro b hb
      rw [getD_set_int]
      split_ifs
      · omega
      · exact hb
    apply ih p q _ (by omega)
    · refine ⟨by simpa using hl1, by simpa using hl2, ?_, ?_⟩
      · intro i hin hge
        simp only [getD_set_int] at hge
        simp only
        split_ifs at hge with hc
        · rw [← hc.1, hpe]; exact mono _ h3
        · exact mono _ (hI2 i hin hge)
      · intro j hjn hge
        simp only [getD_set_int] at hge
        simp only
        split_ifs at hge with hc
        · rw [← hc.1, hqe]; exact mono _ h3
        · exact mono _ (hI3 j hjn hge)
    · intro i hin hie hge
      simp only [getD_set_int] at hge
      split_ifs at hge with hc
      · omega
      · have := h1 i hin hie hge; omega
    · intro j hjn hje hge
      simp only [getD_set_int] at hge
      split_ifs at hge with hc
      · omega
      · have := h2 j hjn hje hge; omega
    · exact mono _ h3

theorem exact_step_ok (file1 file2 : List Entry) (i : Nat) (arrays : List Int × List Int)
    (hinv : ExactInv file1 file2 arrays) :
    ∃ arrays1, exact_step file1 file2 i arrays = some arrays1 ∧
      ExactInv file1 file2 arrays1 := by
  obtain ⟨fwd, rev⟩ := arrays
  unfold exact_step
  have hfold : ((file2.length : Int) - 1 -
      gl_list_indexof file2.reverse (file1.getD i [])).toNat =
      last_index file2 (file1.getD i []) := rfl
  simp only [hfold]
  split_ifs with c1 c2 c3
  · -- a new pairing starts at `i`
    obtain ⟨hl1, hl2, hI2, hI3⟩ := hinv
    simp only at hl1 hl2 hI2 hI3
    have hj : last_index file2 (file1.getD i []) < file2.length ∧
        file2.getD (last_index file2 (file1.getD i [])) [] = file1.getD i [] := by
      unfold last_index gl_list_indexof
      have := rev_lookup file2 file2.length (file1.getD i [])
      simp only [Nat.sub_self] at this
      rcases this with h | ⟨p, -, hpn, hpe, h⟩
      · unfold gl_list_indexof at c2; rw [h] at c2; omega
      · rw [h]
        have : ((file2.length : Int) - 1 - ((file2.length : Int) - 1 - (p : Int))).toNat = p := by
          omega
        rw [this]; exact ⟨hpn, hpe⟩
    have c3' : rev.getD (last_index file2 (file1.getD i [])) 0 < 0 := c3
    have hset : (rev.set (last_index file2 (file1.getD i [])) (i : Int)).getD
        (last_index file2 (file1.getD i [])) 0 = (i : Int) := by
      rw [getD_set_int, if_pos ⟨rfl, by omega⟩]
    have mono : ∀ b, rev.getD b 0 ≥ 0 →
        (rev.set (last_index file2 (file1.getD i [])) (i : Int)).getD b 0 ≥ 0 := by
      intro b hb
      rw [getD_set_int]
      split_ifs
      · omega
      · exact hb
    apply pair_occurrences_ok file1 file2 _ (i + 1) i _ _ (by omega)
    · refine ⟨by simpa using hl1, by simpa using hl2, ?_, ?_⟩
      · intro i' hin hge
        simp only [getD_set_int] at hge
        simp only
        split_ifs at hge with hc
        · rw [← hc.1, hset]; omega
        · exact mono _ (hI2 i' hin hge)
      · intro j' hjn hge
        simp only [getD_set_int] at hge
        simp only
        split_ifs at hge with hc
        · rw [← hc.1, hj.2, hset]; omega
        · exact mono _ (hI3 j' hjn hge)
    · intro i' hin hie hge
      simp only [getD_set_int] at hge
      split_ifs at hge with hc
      · omega
      · have := hI2 i' hin hge
        rw [hie] at this; omega
    · intro j' hjn hje hge
      simp only [getD_set_int] at hge
      split_ifs at hge with hc
      · omega
      · have := hI3 j' hjn hge
        rw [hje] at this; omega
    · simp only; rw [hset]; omega
  · exact ⟨_, rfl, hinv⟩
  · exact ⟨_, rfl, hinv⟩
  · exact ⟨_, rfl, hinv⟩

theorem exact_pass_ok (file1 file2 : List Entry) :
    ∀ (n : Nat) (arrays : List Int × List Int), n ≤ file1.length →
      ExactInv file1 file2 arrays →
      ∃ arrays1, exact_pass file1 file2 n arrays = some arrays1 ∧
        ExactInv file1 file2 arrays1 := by
  intro n
  induction n with
  | zero => intro arrays _ hinv; exact ⟨arrays, rfl, hinv⟩
  | succ n ih =>
    intro arrays hn hinv
    obtain ⟨a1, h1, hinv1⟩ := exact_step_ok file1 file2 n arrays hinv
    obtain ⟨a2, h2, hinv2⟩ := ih a1 (by omega) hinv1
    exact ⟨a2, by simp [exact_pass, h1, h2], hinv2⟩

theorem exactInv_init (file1 file2 : List Entry) :
    ExactInv file1 file2
      (List.replicate file1.length (-2), List.replicate file2.length (-2)) := by
  refine ⟨by simp, by simp, ?_, ?_⟩
  · intro i hi hge
    simp only [List.getD_eq_getElem?_getD] at hge
    rw [List.getElem?_replicate] at hge
    simp [hi] at hge
  · intro j hj hge
    simp only [List.getD_eq_getElem?_getD] at hge
    rw [List.getElem?_replicate] at hge
    simp [hj] at hge

/-- The exact pass never aborts: `compute_mapping` without the full pass returns a
mapping between the two files it was given. -/
theorem compute_mapping_ok (fstrcmp_bounded : Fstrcmp) (file1 file2 : List Entry) :
    ∃ mapping, compute_mapping fstrcmp_bounded file1 file2 false = some mapping ∧
      mapping.file1 = file1 ∧ mapping.file2 = file2 ∧
      mapping.index_mapping.length = file1.length ∧
      mapping.index_mapping_reverse.length = file2.length := by
  obtain ⟨a, h, hinv⟩ := exact_pass_ok file1 file2 file1.length _ (le_refl _)
    (exactInv_init file1 file2)
  obtain ⟨fwd, rev⟩ := a
  exact ⟨⟨file1, file2, fwd, rev⟩, by simp [compute_mapping, h], rfl, rfl, hinv.1, hinv.2.1⟩

/-! ## Lemmas: the differences of a file with entries added at the top -/

theorem list_int_ext (l1 l2 : List Int) (hlen : l1.length = l2.length)
    (h : ∀ i, i < l1.length → l1.getD i 0 = l2.getD i 0) : l1 = l2 := by
  apply List.ext_getElem hlen
  intro i h1 h2
  have := h i h1
  simp only [List.getD_eq_getElem?_getD, List.getElem?_eq_getElem h1,
    List.getElem?_eq_getElem h2, Option.getD_some] at this
  exact this

theorem skip_marked_stop (marks : List Int) (n fuel i : Nat)
    (h : ¬ (i < n ∧ marks.getD i 0 < 0)) : skip_marked marks n fuel i = i := by
  cases fuel with
  | zero => rfl
  | succ f => simp only [skip_marked, if_neg h]

theorem skip_marked_run (marks : List Int) (n : Nat) :
    ∀ (c fuel i : Nat), c ≤ fuel → (∀ t, t < c → i + t < n ∧ marks.getD (i + t) 0 < 0) →
      ¬ (i + c < n ∧ marks.getD (i + c) 0 < 0) →
      skip_marked marks n fuel i = i + c := by
  intro c
  induction c with
  | zero => intro fuel i _ _ hstop; exact skip_marked_stop _ _ _ _ hstop
  | succ c ih =>
    intro fuel i hf hrun hstop
    cases fuel with
    | zero => omega
    | succ f =>
      have h0 := hrun 0 (by omega)
      simp only [Nat.add_zero] at h0
      simp only [skip_marked, if_pos h0]
      rw [ih f (i + 1) (by omega)]
      · omega
      · intro t ht
        have := hrun (t + 1) (by omega)
        rw [show i + 1 + t = i + (t + 1) by omega]; exact this
      · rw [show i + 1 + c = i + (c + 1) by omega]; exact hstop

theorem shifted_forward_getD (m n1 k i : Nat) :
    (shifted_forward m n1 k).getD i 0 = if i < k ∧ i < n1 then ((m + i : Nat) : Int) else 0 := by
  unfold shifted_forward
  rw [List.getD_eq_getElem?_getD, List.getElem?_map]
  by_cases h : i < n1
  · rw [List.getElem?_range h]; simp [h]
  · rw [List.getElem?_eq_none (by simpa using h)]; simp [h]

theorem shifted_reverse_getD (m n1 k j : Nat) :
    (shifted_reverse m n1 k).getD j 0 =
      if j < m then -1 else if j - m < k ∧ j - m < n1 then ((j - m : Nat) : Int) else 0 := by
  unfold shifted_reverse
  rw [List.getD_eq_getElem?_getD]
  by_cases h : j < m
  · rw [List.getElem?_append_left (by simpa using h), List.getElem?_replicate]
    simp [h]
  · rw [List.getElem?_append_right (by simpa using h), List.getElem?_map]
    simp only [List.length_replicate, if_neg h]
    by_cases h2 : j - m < n1
    · rw [List.getElem?_range h2]; simp [h2]
    · rw [List.getElem?_eq_none (by simpa using h2)]; simp [h2]

theorem shifted_forward_set (m n1 k : Nat) (hk : k < n1) :
    (shifted_forward m n1 k).set k ((m + k : Nat) : Int) = shifted_forward m n1 (k + 1) := by
  apply list_int_ext
  · simp [shifted_forward]
  · intro i _
    rw [getD_set_int, shifted_forward_getD, shifted_forward_getD]
    have hl : (shifted_forward m n1 k).length = n1 := by simp [shifted_forward]
    rw [hl]
    by_cases h : k = i
    · subst h; simp [hk]
    · simp only [h, false_and, if_false]
      by_cases h2 : i < k
      · have : i < k + 1 := by omega
        simp [h2, this]
      · have : ¬ i < k + 1 := by omega
        simp [h2, this]

theorem shifted_reverse_set (m n1 k : Nat) (hk : k < n1) :
    (shifted_reverse m n1 k).set (m + k) (k : Int) = shifted_reverse m n1 (k + 1) := by
  apply list_int_ext
  · simp [shifted_reverse]
  · intro j _
    rw [getD_set_int, shifted_reverse_getD, shifted_reverse_getD]
    have hl : (shifted_reverse m n1 k).length = m + n1 := by simp [shifted_reverse]
    rw [hl]
    by_cases h : m + k = j
    · subst h
      have h1 : ¬ (m + k < m) := by omega
      have h2 : m + k - m = k := by omega
      simp [hk, h1, h2]
    · simp only [h, false_and, if_false]
      by_cases h1 : j < m
      · simp [h1]
      · simp only [h1, if_false]
        by_cases h2 : j - m < k
        · have : j - m < k + 1 := by omega
          simp [h2, this]
        · have : ¬ j - m < k + 1 := by omega
          simp [h2, this]

theorem note_range_length (c off : Nat) (marks : List Int) :
    (note_range c off marks).length = marks.length := by
  induction c generalizing off marks with
  | zero => rfl
  | succ c ih => simp [note_range, ih]

theorem note_range_getD (c off : Nat) (marks : List Int) (j : Nat) :
    (note_range c off marks).getD j 0 =
      if off ≤ j ∧ j < off + c ∧ j < marks.length then -1 else marks.getD j 0 := by
  induction c generalizing off marks with
  | zero =>
    have : ¬ (off ≤ j ∧ j < off + 0 ∧ j < marks.length) := by omega
    simp only [note_range, if_neg this]
  | succ c ih =>
    simp only [note_range]
    rw [ih, getD_set_int, List.length_set]
    by_cases h1 : off = j
    · subst h1
      by_cases h2 : off < marks.length
      · simp [h2]
      · simp [h2]
    · by_cases h2 : off + 1 ≤ j ∧ j < off + 1 + c ∧ j < marks.length
      · have : off ≤ j ∧ j < off + (c + 1) ∧ j < marks.length := by omega
        simp [h2, this]
      · have : ¬ (off ≤ j ∧ j < off + (c + 1) ∧ j < marks.length) := by omega
        simp [h1, h2, this]

theorem replicate_zero_getD (n j : Nat) : (List.replicate n (0 : Int)).getD j 0 = 0 := by
  rw [List.getD_eq_getElem?_getD, List.getElem?_replicate]
  split_ifs <;> rfl

theorem shifted_forward_zero (m n1 : Nat) :
    List.replicate n1 (0 : Int) = shifted_forward m n1 0 := by
  apply list_int_ext
  · simp [shifted_forward]
  · intro i _
    rw [replicate_zero_getD, shifted_forward_getD]; simp

theorem shifted_reverse_zero (m n1 : Nat) :
    note_range m 0 (List.replicate (m + n1) (0 : Int)) = shifted_reverse m n1 0 := by
  apply list_int_ext
  · simp [note_range_length, shifted_reverse]
  · intro j _
    rw [note_range_getD, replicate_zero_getD, shifted_reverse_getD]
    simp only [List.length_replicate, Nat.zero_le, true_and, Nat.zero_add, Nat.not_lt_zero,
      false_and, if_false]
    by_cases h : j < m
    · have : j < m + n1 := by omega
      simp [h, this]
    · simp [h]

theorem complete_mapping_shifted (m n1 : Nat) :
    ∀ (d fuel k j : Nat), n1 - k = d → k ≤ n1 → d < fuel →
      skip_marked (shifted_reverse m n1 k) (m + n1) (m + n1 - j) j = m + k →
      complete_mapping n1 (m + n1) fuel k j (shifted_forward m n1 k, shifted_reverse m n1 k) =
        some (shifted_forward m n1 n1, shifted_reverse m n1 n1) := by
  intro d
  induction d with
  | zero =>
    intro fuel k j hd hk hf hj
    have hkn : k = n1 := by omega
    subst hkn
    cases fuel with
    | zero => omega
    | succ f =>
      have hi : skip_marked (shifted_forward m k k) k (k - k) k = k :=
        skip_marked_stop _ _ _ _ (by omega)
      unfold complete_mapping
      simp only [hi, hj]
      split_ifs with c1 c2 c3
      · rfl
      · exact absurd ⟨trivial, trivial⟩ c3
      · simp at c2
      · rfl
  | succ d ih =>
    intro fuel k j hd hk hf hj
    cases fuel with
    | zero => omega
    | succ f =>
      have hkn : k < n1 := by omega
      have hi : skip_marked (shifted_forward m n1 k) n1 (n1 - k) k = k := by
        apply skip_marked_stop
        rw [shifted_forward_getD]; simp
      unfold complete_mapping
      simp only [hi, hj]
      rw [if_pos (Or.inl hkn)]
      have e1 : decide (k < n1) = decide (m + k < m + n1) := by simp [hkn]
      rw [if_pos e1, if_neg (by omega)]
      rw [shifted_forward_set m n1 k hkn]
      have := shifted_reverse_set m n1 k hkn
      simp only [Nat.cast_add] at this ⊢
      rw [this]
      apply ih f (k + 1) (m + k + 1) (by omega) (by omega) (by omega)
      rw [skip_marked_stop]
      · omega
      · rw [shifted_reverse_getD]
        have h1 : ¬ (m + k + 1 < m) := by omega
        simp only [h1, if_false]
        split_ifs <;> omega

theorem create_edits_shifted (m n1 : Nat) :
    ∀ (d fuel k : Nat) (acc : List edit), n1 - k = d → k ≤ n1 → d < fuel →
      create_edits n1 (m + n1) (shifted_forward m n1 n1) (shifted_reverse m n1 n1)
        fuel k (m + k) acc = some acc := by
  intro d
  induction d with
  | zero =>
    intro fuel k acc hd hk hf
    cases fuel with
    | zero => omega
    | succ f =>
      unfold create_edits
      rw [if_neg (by omega)]
  | succ d ih =>
    intro fuel k acc hd hk hf
    cases fuel with
    | zero => omega
    | succ f =>
      have hkn : k < n1 := by omega
      have g1 : (shifted_forward m n1 n1).getD k 0 = ((m + k : Nat) : Int) := by
        rw [shifted_forward_getD]; simp [hkn]
      have g2 : (shifted_reverse m n1 n1).getD (m + k) 0 = (k : Int) := by
        rw [shifted_reverse_getD]
        have h1 : ¬ (m + k < m) := by omega
        have h2 : m + k - m = k := by omega
        simp [h1, h2, hkn]
      unfold create_edits
      rw [if_pos (Or.inl hkn), if_neg (by omega), if_neg (by omega), g1, g2,
        if_pos (by omega), if_pos (by omega), if_pos ⟨rfl, rfl⟩]
      exact ih f (k + 1) acc (by omega) (by omega) (by omega)

theorem create_edits_prepend (m n1 : Nat) (hm : 0 < m) :
    create_edits n1 (m + n1) (shifted_forward m n1 n1) (shifted_reverse m n1 n1)
      (n1 + (m + n1) + 1) 0 0 [] = some [edit.ADDITION 0 (m - 1)] := by
  unfold create_edits
  rw [if_pos (Or.inr (by omega))]
  by_cases h0 : n1 = 0
  · subst h0
    simp only [if_true, Nat.add_zero]
    rw [if_pos hm]; rfl
  · rw [if_neg (by omega), if_neg (by omega)]
    have g1 : (shifted_forward m n1 n1).getD 0 0 = ((m + 0 : Nat) : Int) := by
      rw [shifted_forward_getD]
      have : 0 < n1 := by omega
      simp [this]
    have g2 : (shifted_reverse m n1 n1).getD 0 0 = -1 := by
      rw [shifted_reverse_getD]; simp [hm]
    have hrun : run_end (shifted_reverse m n1 n1) (m + n1) 0 = m := by
      unfold run_end
      rw [skip_marked_run _ _ (m - 1) _ _ (by omega)]
      · omega
      · intro t ht
        refine ⟨by omega, ?_⟩
        rw [shifted_reverse_getD, if_pos (by omega)]; omega
      · rw [shifted_reverse_getD]
        have h1 : ¬ (0 + 1 + (m - 1) < m) := by omega
        rw [if_neg h1]
        intro hc
        have := hc.2
        split_ifs at this <;> omega
    rw [g1, g2, if_pos (by omega), if_neg (by omega), hrun]
    have := create_edits_shifted m n1 (n1 - 0) (n1 + (m + n1)) 0 [edit.ADDITION 0 (m - 1)]
      rfl (by omega) (by omega)
    simpa using this

theorem slide_down_same (file : List Entry) :
    ∀ (d fuel k : Nat), file.length - k = d → k ≤ file.length → d ≤ fuel →
      slide_down file file file.length file.length fuel k k = (file.length, file.length) := by
  intro d
  induction d with
  | zero =>
    intro fuel k hd hk _
    have : k = file.length := by omega
    subst this
    cases fuel with
    | zero => rfl
    | succ f =>
      unfold slide_down
      rw [if_neg (by omega)]
  | succ d ih =>
    intro fuel k hd hk hf
    cases fuel with
    | zero => omega
    | succ f =>
      unfold slide_down
      rw [if_pos ⟨by omega, by omega, (entry_equals_iff _ _).mpr rfl⟩]
      exact ih f (k + 1) (by omega) (by omega) (by omega)

theorem slide_down_differ (xv yv : List Entry) (xlim ylim fuel : Nat)
    (h : xlim = 0 ∨ xv.getD 0 [] ≠ yv.getD 0 []) :
    slide_down xv yv xlim ylim fuel 0 0 = (0, 0) := by
  cases fuel with
  | zero => rfl
  | succ f =>
    unfold slide_down
    rw [if_neg]
    rintro ⟨h1, -, h3⟩
    rcases h with h | h
    · omega
    · exact h ((entry_equals_iff _ _).mp h3)

theorem getD_append_shift (added file : List Entry) (t : Nat) :
    (added ++ file).getD (added.length + t) [] = file.getD t [] := by
  rw [List.getD_eq_getElem?_getD, List.getD_eq_getElem?_getD,
    List.getElem?_append_right (by omega)]
  simp

theorem slide_up_prepend (added file : List Entry) :
    ∀ (t fuel : Nat), t ≤ fuel →
      slide_up file (added ++ file) 0 0 fuel t (added.length + t) = (0, added.length) := by
  intro t
  induction t with
  | zero =>
    intro fuel _
    cases fuel with
    | zero => rfl
    | succ f =>
      unfold slide_up
      rw [if_neg (by omega)]; rfl
  | succ t ih =>
    intro fuel hf
    cases fuel with
    | zero => omega
    | succ f =>
      unfold slide_up
      have e : (added ++ file).getD (added.length + (t + 1) - 1) [] = file.getD (t + 1 - 1) [] := by
        rw [show added.length + (t + 1) - 1 = added.length + t by omega, getD_append_shift]
        rfl
      rw [if_pos ⟨by omega, by omega, by rw [e]; exact (entry_equals_iff _ _).mpr rfl⟩]
      rw [show added.length + (t + 1) - 1 = added.length + t by omega]
      exact ih f (by omega)

theorem compareseq_insert (diag : Diag) (xv yv : List Entry) (fuel xoff xlim yoff ylim : Nat)
    (ctxt : List Int × List Int) (lo hi : Nat × Nat)
    (hlo : slide_down xv yv xlim ylim (xlim - xoff) xoff yoff = lo)
    (hhi : slide_up xv yv lo.1 lo.2 (xlim - lo.1) xlim ylim = hi) (h : lo.1 = hi.1) :
    compareseq diag xv yv (fuel + 1) xoff xlim yoff ylim ctxt =
      some (ctxt.1, note_range (hi.2 - lo.2) lo.2 ctxt.2) := by
  subst hlo; subst hhi
  unfold compareseq
  simp only
  rw [if_pos h]

theorem compareseq_delete (diag : Diag) (xv yv : List Entry) (fuel xoff xlim yoff ylim : Nat)
    (ctxt : List Int × List Int) (lo hi : Nat × Nat)
    (hlo : slide_down xv yv xlim ylim (xlim - xoff) xoff yoff = lo)
    (hhi : slide_up xv yv lo.1 lo.2 (xlim - lo.1) xlim ylim = hi) (h1 : lo.1 ≠ hi.1)
    (h2 : lo.2 = hi.2) :
    compareseq diag xv yv (fuel + 1) xoff xlim yoff ylim ctxt =
      some (note_range (hi.1 - lo.1) lo.1 ctxt.1, ctxt.2) := by
  subst hlo; subst hhi
  unfold compareseq
  simp only
  rw [if_neg h1, if_pos h2]

/-- The differences from a file to the same file with entries added at the top, the
first of which differs from the first entry of the file: one ADDITION at the top (no
edit at all when nothing is added), whatever the midpoint search is. -/
theorem compute_differences_prepend (diag : Diag) (file added : List Entry)
    (h : added = [] ∨ file = [] ∨ file.getD 0 [] ≠ added.getD 0 []) :
    compute_differences diag file (added ++ file) =
      some { index_mapping := shifted_forward added.length file.length file.length
             index_mapping_reverse := shifted_reverse added.length file.length file.length
             edits := if added.length = 0 then [] else [edit.ADDITION 0 (added.length - 1)] } := by
  have hmarks : compareseq diag file (added ++ file) (file.length + (added ++ file).length + 1)
      0 file.length 0 (added ++ file).length
      (List.replicate file.length 0, List.replicate (added ++ file).length 0) =
      some (shifted_forward added.length file.length 0,
        shifted_reverse added.length file.length 0) := by
    by_cases ha : added = []
    · subst ha
      rw [compareseq_insert diag file ([] ++ file) _ 0 file.length 0 _ _
        (file.length, file.length) (file.length, file.length)
        (by simpa using slide_down_same file _ _ 0 rfl (by omega) (le_refl _))
        (by simp [slide_up]) rfl]
      simp only [Nat.sub_self, note_range, List.nil_append, List.length_nil]
      rw [← shifted_forward_zero, ← shifted_reverse_zero]
      simp [note_range]
    · have hd : slide_down file (added ++ file) file.length (added ++ file).length
          (file.length - 0) 0 0 = (0, 0) := by
        apply slide_down_differ
        rcases h with h | h | h
        · exact absurd h ha
        · left; simp [h]
        · right
          have : (added ++ file).getD 0 [] = added.getD 0 [] := by
            cases added with
            | nil => exact absurd rfl ha
            | cons a rest => rfl
          rw [this]; exact h
      have hu : slide_up file (added ++ file) 0 0 (file.length - 0) file.length
          (added ++ file).length = (0, added.length) := by
        rw [List.length_append]
        exact slide_up_prepend added file file.length _ (by omega)
      rw [compareseq_insert diag file (added ++ file) _ 0 file.length 0 _ _ (0, 0)
        (0, added.length) hd hu rfl]
      simp only [Nat.sub_zero, List.length_append]
      rw [← shifted_forward_zero, ← shifted_reverse_zero]
  unfold compute_differences
  rw [hmarks]
  simp only [List.length_append]
  have hc := complete_mapping_shifted added.length file.length (file.length - 0)
    (file.length + (added.length + file.length) + 1) 0 0 rfl (by omega) (by omega) (by
      by_cases ha : added.length = 0
      · rw [ha, skip_marked_stop]
        rw [shifted_reverse_getD]; simp
      · rw [skip_marked_run _ _ added.length _ _ (by omega)]
        · omega
        · intro t ht
          refine ⟨by omega, ?_⟩
          rw [shifted_reverse_getD, if_pos (by omega)]; omega
        · rw [shifted_reverse_getD, if_neg (by omega)]
          simp)
  rw [hc]
  simp only
  by_cases ha : added.length = 0
  · rw [if_pos ha]
    have := create_edits_shifted added.length file.length (file.length - 0)
      (file.length + (added.length + file.length) + 1) 0 [] rfl (by omega) (by omega)
    rw [ha] at this ⊢
    simp only [Nat.zero_add] at this ⊢
    rw [this]
  · rw [if_neg ha, create_edits_prepend _ _ (by omega)]

/-! ## Lemmas: the mapping of a file to itself -/

theorem indexof_from_least (l : List Entry) (s : Nat) (e : Entry) :
    (gl_list_indexof_from l s e = -1 ∧ ∀ r, s ≤ r → r < l.length → l.getD r [] ≠ e) ∨
      ∃ r : Nat, gl_list_indexof_from l s e = (r : Int) ∧ s ≤ r ∧ r < l.length ∧
        l.getD r [] = e ∧ ∀ r', s ≤ r' → r' < r → l.getD r' [] ≠ e := by
  induction l generalizing s with
  | nil => left; exact ⟨by simp [gl_list_indexof_from], fun r _ h => by simp at h⟩
  | cons x rest ih =>
    cases s with
    | zero =>
      unfold gl_list_indexof_from
      by_cases hx : entry_equals x e = true
      · right
        refine ⟨0, by simp [hx], le_refl _, by simp, ?_, fun r' _ h => by omega⟩
        simpa using (entry_equals_iff x e).mp hx
      · have hxe : x ≠ e := fun h => hx ((entry_equals_iff x e).mpr h)
        rcases ih 0 with ⟨h, hall⟩ | ⟨r, hr, -, hlt, hget, hleast⟩
        · left
          refine ⟨by simp [hx, h], ?_⟩
          intro r _ hr
          cases r with
          | zero => simpa using hxe
          | succ r => simpa using hall r (by omega) (by simpa using hr)
        · right
          refine ⟨r + 1, ?_, by omega, by simp; omega, by simpa using hget, ?_⟩
          · simp only [hx, hr]
            have : ¬ ((r : Int) < 0) := by omega
            simp [this]
          · intro r' _ hr'
            cases r' with
            | zero => simpa using hxe
            | succ r' => simpa using hleast r' (by omega) (by omega)
    | succ s =>
      unfold gl_list_indexof_from
      rcases ih s with ⟨h, hall⟩ | ⟨r, hr, hle, hlt, hget, hleast⟩
      · left
        refine ⟨by simp [h], ?_⟩
        intro r hsr hr
        cases r with
        | zero => omega
        | succ r => simpa using hall r (by omega) (by simpa using hr)
      · right
        refine ⟨r + 1, ?_, by omega, by simp; omega, by simpa using hget, ?_⟩
        · simp only [hr]
          have : ¬ ((r : Int) < 0) := by omega
          simp [this]
        · intro r' hsr' hr'
          cases r' with
          | zero => omega
          | succ r' => simpa using hleast r' (by omega) (by omega)

theorem rev_lookup_greatest (l : List Entry) (c : Nat) (e : Entry) (hc : c ≤ l.length) :
    (gl_list_indexof_from l.reverse (l.length - c) e = -1 ∧ ∀ p, p < c → l.getD p [] ≠ e) ∨
      ∃ p : Nat, p < c ∧ l.getD p [] = e ∧
        gl_list_indexof_from l.reverse (l.length - c) e = (l.length : Int) - 1 - (p : Int) ∧
        ∀ p', p < p' → p' < c → l.getD p' [] ≠ e := by
  have hrev : ∀ r, r < l.length → l.reverse.getD r [] = l.getD (l.length - 1 - r) [] := by
    intro r hr
    rw [List.getD_eq_getElem?_getD, List.getD_eq_getElem?_getD, List.getElem?_reverse hr]
  rcases indexof_from_least l.reverse (l.length - c) e with
    ⟨h, hall⟩ | ⟨r, hr, hle, hlt, hget, hleast⟩
  · left
    refine ⟨h, ?_⟩
    intro p hp
    have := hall (l.length - 1 - p) (by omega) (by rw [List.length_reverse]; omega)
    rw [hrev _ (by omega)] at this
    rwa [show l.length - 1 - (l.length - 1 - p) = p by omega] at this
  · right
    rw [List.length_reverse] at hlt
    refine ⟨l.length - 1 - r, by omega, ?_, by rw [hr]; omega, ?_⟩
    · rw [← hget, hrev r hlt]
    · intro p' h1 h2
      have := hleast (l.length - 1 - p') (by omega) (by omega)
      rw [hrev _ (by omega)] at this
      rwa [show l.length - 1 - (l.length - 1 - p') = p' by omega] at this

theorem pair_occurrences_same (file : List Entry) (entry : Entry) (t : Nat) :
    ∀ (fuel c : Nat) (fwd : List Int), c < fuel → c < file.length →
      fwd.length = file.length →
      (∀ i, i < file.length → fwd.getD i 0 = (i : Int) ∨ fwd.getD i 0 = -2) →
      (∀ i, t ≤ i → i < file.length → fwd.getD i 0 = (i : Int)) →
      (∀ i i', i < file.length → i' < file.length → file.getD i [] = file.getD i' [] →
        file.getD i [] ≠ entry → fwd.getD i 0 ≥ 0 → fwd.getD i' 0 ≥ 0) →
      (∀ i, i < file.length → file.getD i [] = entry → (fwd.getD i 0 ≥ 0 ↔ c ≤ i)) →
      ∃ arrays1, pair_occurrences file file entry fuel c c (fwd, fwd) = some arrays1 ∧
        IdInv file t arrays1 := by
  intro fuel
  induction fuel with
  | zero => intro _ _ h; omega
  | succ fuel ih =>
    intro c fwd hfuel hc hlen hid hcov hclosed hval
    unfold pair_occurrences
    rcases rev_lookup_greatest file c entry (by omega) with ⟨h, hall⟩ | ⟨p, hp, hpe, h, hgr⟩
    · refine ⟨(fwd, fwd), by simp [h], rfl, hlen, hid, hcov, ?_⟩
      intro i i' hi hi' heq hge
      by_cases he : file.getD i [] = entry
      · have hi'c : c ≤ i' := by
          by_contra hlt
          exact hall i' (by omega) (by rw [← heq, he])
        exact (hval i' hi' (by rw [← heq, he])).mpr hi'c
      · exact hclosed i i' hi hi' heq he hge
    · have e1 : ¬ ((file.length : Int) - 1 - (p : Int) < 0) := by omega
      have t1 : ((file.length : Int) - 1 - ((file.length : Int) - 1 - (p : Int))).toNat = p := by
        omega
      simp only [h, e1, if_false, t1]
      have a1 : fwd.getD p 0 < 0 := by
        by_contra hcon
        have := (hval p (by omega) hpe).mp (by omega)
        omega
      rw [if_pos ⟨a1, a1⟩]
      apply ih p _ (by omega) (by omega) (by simpa using hlen)
      · intro i hi
        rw [getD_set_int]
        split_ifs with hc2
        · left; rw [hc2.1]
        · exact hid i hi
      · intro i hti hi
        rw [getD_set_int]
        split_ifs with hc2
        · rw [hc2.1]
        · exact hcov i hti hi
      · intro i i' hi hi' heq hne hge
        have hip : p ≠ i := fun hh => hne (by rw [← hh]; exact hpe)
        have hip' : p ≠ i' := fun hh => hne (by rw [heq, ← hh]; exact hpe)
        rw [getD_set_int, if_neg (fun hh => hip hh.1)] at hge
        rw [getD_set_int, if_neg (fun hh => hip' hh.1)]
        exact hclosed i i' hi hi' heq hne hge
      · intro i hi hie
        rw [getD_set_int]
        by_cases hpi : p = i
        · subst hpi
          rw [if_pos ⟨rfl, by omega⟩]
          constructor
          · intro _; exact le_refl _
          · intro _; omega
        · rw [if_neg (fun hh => hpi hh.1)]
          constructor
          · intro hge
            have := (hval i hi hie).mp hge
            omega
          · intro hle
            apply (hval i hi hie).mpr
            by_contra hlt
            exact hgr i (by omega) (by omega) hie

theorem exact_step_same (file : List Entry) (i : Nat) (arrays : List Int × List Int)
    (hi : i < file.length) (hinv : IdInv file (i + 1) arrays) :
    ∃ arrays1, exact_step file file i arrays = some arrays1 ∧ IdInv file i arrays1 := by
  obtain ⟨fwd, rev⟩ := arrays
  obtain ⟨heq, hlen, hid, hcov, hclosed⟩ := hinv
  simp only at heq hlen hid hcov hclosed
  subst heq
  unfold exact_step
  simp only
  by_cases c1 : fwd.getD i 0 < -1
  · rw [if_pos c1]
    have hneg : ¬ (fwd.getD i 0 ≥ 0) := by omega
    -- the last occurrence of the entry is `i` itself
    have hlook : gl_list_indexof file.reverse (file.getD i []) =
        (file.length : Int) - 1 - (i : Int) ∧
        ∀ p', i < p' → p' < file.length → file.getD p' [] ≠ file.getD i [] := by
      unfold gl_list_indexof
      have := rev_lookup_greatest file file.length (file.getD i []) (le_refl _)
      rw [Nat.sub_self] at this
      rcases this with ⟨-, hall⟩ | ⟨p, hp, hpe, h, hgr⟩
      · exact absurd rfl (hall i hi)
      · have hpi : p = i := by
          rcases Nat.lt_trichotomy p i with hlt | heq | hgt
          · exact absurd rfl (hgr i hlt hi)
          · exact heq
          · have := hcov p (by omega) hp
            have := hclosed p i hp hi hpe (by omega)
            omega
        subst hpi
        exact ⟨h, hgr⟩
    have t1 : ((file.length : Int) - 1 - ((file.length : Int) - 1 - (i : Int))).toNat = i := by
      omega
    rw [hlook.1, if_pos (by omega), t1, if_pos (by omega)]
    apply pair_occurrences_same file _ i (i + 1) i _ (by omega) hi (by simpa using hlen)
    · intro i' hi'
      rw [getD_set_int]
      split_ifs with hc2
      · left; rw [hc2.1]
      · exact hid i' hi'
    · intro i' hti hi'
      rw [getD_set_int]
      split_ifs with hc2
      · rw [hc2.1]
      · exact hcov i' (by
          rcases Nat.lt_or_ge i i' with h | h
          · omega
          · exact absurd ⟨by omega, by omega⟩ hc2) hi'
    · intro a b ha hb hab hne hge
      have hia : i ≠ a := fun hh => hne (by rw [hh])
      have hib : i ≠ b := fun hh => hne (by rw [hab, hh])
      rw [getD_set_int, if_neg (fun hh => hia hh.1)] at hge
      rw [getD_set_int, if_neg (fun hh => hib hh.1)]
      exact hclosed a b ha hb hab hge
    · intro a ha hae
      rw [getD_set_int]
      by_cases hia : i = a
      · subst hia
        rw [if_pos ⟨rfl, by omega⟩]
        constructor
        · intro _; exact le_refl _
        · intro _; omega
      · rw [if_neg (fun hh => hia hh.1)]
        constructor
        · intro hge
          exact absurd (hclosed a i ha hi hae hge) hneg
        · intro hle
          exact absurd hae (hlook.2 a (by omega) ha)
  · rw [if_neg c1]
    refine ⟨(fwd, fwd), rfl, rfl, hlen, hid, ?_, hclosed⟩
    intro i' hti hi'
    rcases Nat.lt_or_ge i i' with h | h
    · exact hcov i' (by omega) hi'
    · have : i' = i := by omega
      subst this
      rcases hid i' hi' with h1 | h1
      · exact h1
      · omega

theorem exact_pass_same (file : List Entry) :
    ∀ (n : Nat) (arrays : List Int × List Int), n ≤ file.length → IdInv file n arrays →
      ∃ arrays1, exact_pass file file n arrays = some arrays1 ∧ IdInv file 0 arrays1 := by
  intro n
  induction n with
  | zero => intro arrays _ hinv; exact ⟨arrays, rfl, hinv⟩
  | succ n ih =>
    intro arrays hn hinv
    obtain ⟨a1, h1, hinv1⟩ := exact_step_same file n arrays (by omega) hinv
    obtain ⟨a2, h2, hinv2⟩ := ih a1 (by omega) hinv1
    exact ⟨a2, by simp [exact_pass, h1, h2], hinv2⟩

theorem identity_mapping_getD (n i : Nat) (h : i < n) :
    (identity_mapping n).getD i 0 = (i : Int) := by
  unfold identity_mapping
  rw [List.getD_eq_getElem?_getD, List.getElem?_map, List.getElem?_range h]
  rfl

/-- The mapping of a file to itself is the identity after the exact pass: every entry
is bound to itself, also when the file holds an entry several times. -/
theorem compute_mapping_same (fstrcmp_bounded : Fstrcmp) (file : List Entry) :
    compute_mapping fstrcmp_bounded file file false =
      some { file1 := file, file2 := file, index_mapping := identity_mapping file.length,
             index_mapping_reverse := identity_mapping file.length } := by
  have hinit : IdInv file file.length
      (List.replicate file.length (-2), List.replicate file.length (-2)) := by
    refine ⟨rfl, by simp, ?_, ?_, ?_⟩
    · intro i hi
      right
      simp only [List.getD_eq_getElem?_getD]
      rw [List.getElem?_replicate]
      simp [hi]
    · intro i h1 h2; omega
    · intro i i' hi _ _ hge
      simp only [List.getD_eq_getElem?_getD] at hge
      rw [List.getElem?_replicate] at hge
      simp [hi] at hge
  obtain ⟨⟨fwd, rev⟩, h, heq, hlen, -, hcov, -⟩ :=
    exact_pass_same file file.length _ (le_refl _) hinit
  simp only at heq hlen hcov
  subst heq
  have hfwd : fwd = identity_mapping file.length := by
    apply list_int_ext
    · simp [identity_mapping, hlen]
    · intro i hi
      rw [hcov i (Nat.zero_le _) (by omega), identity_mapping_getD _ _ (by omega)]
  subst hfwd
  simp [compute_mapping, h]

/-! ## Lemmas: the merge with entries added at the top -/

theorem initial_result_values (mainstream_file : List Entry) :
    (initial_result mainstream_file).map node.value = mainstream_file := by
  unfold initial_result
  rw [List.map_map]
  apply List.ext_getElem
  · simp
  · intro k h1 h2
    simp only [List.getElem_map, Function.comp, List.getElem_range]
    rw [List.getD_eq_getElem?_getD, List.getElem?_eq_getElem h2]
    rfl

theorem add_first_desc_eq (modified_file : List Entry) (j1 : Nat) :
    ∀ (count : Nat) (list : List node),
      add_first_desc modified_file j1 count list =
        (List.range count).map
          (fun d => ({ slot := none, value := modified_file.getD (j1 + d) [] } : node)) ++ list := by
  intro count
  induction count with
  | zero => intro list; rfl
  | succ c ih =>
    intro list
    simp only [add_first_desc, gl_list_add_first]
    rw [ih, List.range_succ, List.map_append]
    simp

theorem range_getD_prefix (added file : List Entry) :
    (List.range added.length).map (fun d => (added ++ file).getD (0 + d) []) = added := by
  apply List.ext_getElem
  · simp
  · intro k h1 h2
    simp only [List.getElem_map, List.getElem_range, Nat.zero_add]
    rw [List.getD_eq_getElem?_getD, List.getElem?_append_left h2, List.getElem?_eq_getElem h2]
    rfl

/-- Merging a modified file that is the ancestor with entries added at the top, the
first of which differs from the first entry of the ancestor: the added entries are
put above the mainstream file, and there is no conflict. -/
theorem merge_prepend (fstrcmp_bounded : Fstrcmp) (diag : Diag)
    (ancestor_file mainstream_file added : List Entry)
    (h : added = [] ∨ ancestor_file = [] ∨ ancestor_file.getD 0 [] ≠ added.getD 0 []) :
    merge fstrcmp_bounded diag ancestor_file mainstream_file (added ++ ancestor_file) =
      some (added ++ mainstream_file, []) := by
  obtain ⟨mapping, hm, -⟩ := compute_mapping_ok fstrcmp_bounded ancestor_file mainstream_file
  unfold merge
  rw [hm, compute_differences_prepend diag ancestor_file added h]
  simp only
  by_cases ha : added.length = 0
  · have : added = [] := List.length_eq_zero.mp ha
    subst this
    simp [apply_edits, initial_result_values]
  · rw [if_neg ha]
    simp only [apply_edits, apply_edit, apply_addition, if_true]
    rw [add_first_desc_eq]
    simp only [List.map_append, List.map_map, initial_result_values]
    have : added.length - 1 + 1 - 0 = added.length := by omega
    rw [this]
    have e : (node.value ∘ fun d =>
        ({ slot := none, value := (added ++ ancestor_file).getD (0 + d) [] } : node)) =
        fun d => (added ++ ancestor_file).getD (0 + d) [] := rfl
    rw [e, range_getD_prefix added ancestor_file]

/-! ## Lemmas: the output -/

theorem entry_write_flatten (entries : List Entry) :
    (entries.map entry_write).flatten = entries.flatten := by
  induction entries with
  | nil => rfl
  | cons e rest ih =>
    simp only [List.map_cons, List.flatten_cons, ih]
    congr 1
    unfold entry_write
    split_ifs with h
    · rfl
    · have : e = [] := List.length_eq_zero.mp (by omega)
      rw [this]

theorem write_output_no_conflict (entries : List Entry) :
    write_output entries [] = entries.flatten := by
  simp [write_output, entry_write_flatten]

/-! ## Lemmas: the REMOVAL case and scenario S4 -/

theorem entries_mapping_get_bound (fstrcmp_bounded : Fstrcmp) (mapping : entries_mapping)
    (i : Nat) (h : ¬ (mapping.index_mapping.getD i 0 < -1)) :
    entries_mapping_get fstrcmp_bounded mapping i = (mapping.index_mapping.getD i 0, mapping) := by
  unfold entries_mapping_get
  rw [if_neg h]

theorem entry_equals_self (a : Entry) : entry_equals a a = true :=
  (entry_equals_iff a a).mpr rfl

theorem entry_equals_ne (a b : Entry) (h : a ≠ b) : entry_equals a b = false := by
  cases hh : entry_equals a b
  · rfl
  · exact absurd ((entry_equals_iff a b).mp hh) h

/-- The function `compute_differences` from the results of its three steps. -/
theorem compute_differences_steps (diag : Diag) (file1 file2 : List Entry) (n1 n2 : Nat)
    (marks ctxt : List Int × List Int) (edits : List edit)
    (h1 : file1.length = n1) (h2 : file2.length = n2)
    (hmarks : compareseq diag file1 file2 (n1 + n2 + 1) 0 n1 0 n2
      (List.replicate n1 0, List.replicate n2 0) = some marks)
    (hctxt : complete_mapping n1 n2 (n1 + n2 + 1) 0 0 marks = some ctxt)
    (hedits : create_edits n1 n2 ctxt.1 ctxt.2 (n1 + n2 + 1) 0 0 [] = some edits) :
    compute_differences diag file1 file2 =
      some { index_mapping := ctxt.1, index_mapping_reverse := ctxt.2, edits := edits } := by
  subst h1; subst h2
  unfold compute_differences
  rw [hmarks]
  simp only
  rw [hctxt]
  simp only
  rw [hedits]

theorem merge_scenario_S4 (fstrcmp_bounded : Fstrcmp) (diag : Diag) (E1 E2 E3 : Entry) :
    ∃ result_entries,
      merge fstrcmp_bounded diag [E1, E2, E3] [E1, E2, E3] [E1, E3] = some (result_entries, []) ∧
      write_output result_entries [] = E1 ++ E3 := by
  by_cases h : E2 = E3
  · subst h
    refine ⟨[E1, E2, []], ?_, by simp [write_output_no_conflict]⟩
    have hd := compute_differences_steps diag [E1, E2, E2] [E1, E2] 3 2
      ([0, 0, -1], [0, 0]) ([0, 1, -1], [0, 1]) [edit.REMOVAL 2 2] rfl rfl
      (by
        rw [compareseq_delete diag _ _ _ 0 3 0 2 _ (2, 2) (3, 2)
          (by simp [slide_down, entry_equals_self])
          (by simp [slide_up]) (by decide) rfl]
        rfl)
      (by decide) (by decide)
    unfold merge
    rw [compute_mapping_same, hd]
    simp [apply_edits, apply_edit, apply_removal, removal_step, entries_mapping_get_bound,
      identity_mapping, entry_equals_self, initial_result, gl_list_node_set_value, empty_entry,
      List.range_succ]
  · refine ⟨[E1, [], E3], ?_, by simp [write_output_no_conflict]⟩
    have hd := compute_differences_steps diag [E1, E2, E3] [E1, E3] 3 2
      ([0, -1, 0], [0, 0]) ([0, -1, 1], [0, 2]) [edit.REMOVAL 1 1] rfl rfl
      (by
        rw [compareseq_delete diag _ _ _ 0 3 0 2 _ (1, 1) (2, 1)
          (by simp [slide_down, entry_equals_self, entry_equals_ne _ _ h])
          (by simp [slide_up, entry_equals_self]) (by decide) rfl]
        rfl)
      (by decide) (by decide)
    unfold merge
    rw [compute_mapping_same, hd]
    simp [apply_edits, apply_edit, apply_removal, removal_step, entries_mapping_get_bound,
      identity_mapping, entry_equals_self, initial_result, gl_list_node_set_value, empty_entry,
      List.range_succ]

theorem apply_removal_foldl (fstrcmp_bounded : Fstrcmp) (ancestor_file mainstream_file : List Entry) :
    ∀ (count i : Nat) (st : merge_state),
      apply_removal fstrcmp_bounded ancestor_file mainstream_file count i st =
        (List.range' i count).foldl
          (fun s i => removal_step fstrcmp_bounded ancestor_file mainstream_file i s) st := by
  intro count
  induction count with
  | zero => intro i st; rfl
  | succ c ih =>
    intro i st
    simp only [apply_removal, List.range'_succ, List.foldl_cons]
    exact ih (i + 1) _

/-! ## Lemmas: the interior ADDITION case and scenario S6 -/

theorem spec_insert_before_add (list : List node) (k : Nat) (elt : Entry) (new : List node) :
    spec_insert_before (gl_list_add_before list k elt) k new =
      spec_insert_before list k ({ slot := none, value := elt } :: new) := by
  induction list with
  | nil => rfl
  | cons n rest ih =>
    unfold gl_list_add_before
    by_cases h : n.slot = some k
    · rw [if_pos h]
      simp only [spec_insert_before, h, if_true]
      have : ¬ ((none : Option Nat) = some k) := by simp
      rw [if_neg this]
      simp [spec_insert_before, h]
    · rw [if_neg h]
      simp only [spec_insert_before, if_neg h, ih]

theorem spec_insert_before_nil (list : List node) (k : Nat) :
    spec_insert_before list k [] = list := by
  induction list with
  | nil => rfl
  | cons n rest ih =>
    unfold spec_insert_before
    split_ifs
    · rfl
    · rw [ih]

theorem add_before_asc_spec (modified_file : List Entry) (k : Nat) :
    ∀ (count j : Nat) (list : List node),
      add_before_asc modified_file k count j list =
        spec_insert_before list k ((List.range' j count).map
          (fun j => ({ slot := none, value := modified_file.getD j [] } : node))) := by
  intro count
  induction count with
  | zero => intro j list; simp [add_before_asc, spec_insert_before_nil]
  | succ c ih =>
    intro j list
    simp only [add_before_asc, ih, spec_insert_before_add, List.range'_succ, List.map_cons]

theorem add_last_asc_spec (modified_file : List Entry) :
    ∀ (count j : Nat) (list : List node),
      add_last_asc modified_file count j list =
        list ++ (List.range' j count).map
          (fun j => ({ slot := none, value := modified_file.getD j [] } : node)) := by
  intro count
  induction count with
  | zero => intro j list; simp [add_last_asc]
  | succ c ih =>
    intro j list
    simp only [add_last_asc, ih, gl_list_add_last, List.range'_succ, List.map_cons,
      List.append_assoc, List.singleton_append]

theorem entries_range_eq (entries : List Entry) (j1 j2 : Nat) :
    entries_range entries j1 j2 = (List.range' j1 (j2 + 1 - j1)).map (fun j => entries.getD j []) := by
  unfold entries_range
  rw [List.range'_eq_map_range, List.map_map]
  rfl

/-- The interior ADDITION case of `main`, when its three `ASSERT`s hold; `r_before`
and `r_after` are the results of the two lookups in the mapping. -/
theorem apply_addition_interior (fstrcmp_bounded : Fstrcmp)
    (ancestor_file mainstream_file modified_file : List Entry) (diffs : differences)
    (j1 j2 i_before : Nat) (st : merge_state) (r_before r_after : Int × entries_mapping)
    (hj1 : 0 < j1)
    (hbefore : diffs.index_mapping_reverse.getD (j1 - 1) 0 = (i_before : Int))
    (hafter : (if j2 + 1 = modified_file.length then (ancestor_file.length : Int)
      else diffs.index_mapping_reverse.getD (j2 + 1) 0) = (i_before : Int) + 1)
    (hrb : entries_mapping_get fstrcmp_bounded st.mapping i_before = r_before)
    (hra : (if i_before + 1 = ancestor_file.length then
        ((mainstream_file.length : Int), r_before.2)
      else entries_mapping_get fstrcmp_bounded r_before.2 (i_before + 1)) = r_after) :
    apply_edit fstrcmp_bounded ancestor_file mainstream_file modified_file diffs
        (edit.ADDITION j1 j2) st =
      some
        (if r_before.1 ≥ 0 ∧ r_after.1 ≥ 0 ∧ r_after.1 = r_before.1 + 1 then
          { mapping := r_after.2
            result_entries :=
              if r_after.1 = (mainstream_file.length : Int) then
                st.result_entries ++ spec_new_nodes modified_file j1 j2
              else
                spec_insert_before st.result_entries r_after.1.toNat
                  (spec_new_nodes modified_file j1 j2)
            result_conflicts := st.result_conflicts }
        else
          { mapping := r_after.2
            result_entries := st.result_entries
            result_conflicts := st.result_conflicts ++
              [{ old_entries := []
                 modified_entries :=
                   (List.range' j1 (j2 + 1 - j1)).map (fun j => modified_file.getD j []) }] }) := by
  unfold apply_edit apply_addition
  simp only
  rw [if_neg (by omega), hbefore, hafter]
  have e1 : ((i_before : Int) ≥ 0 ∧ (i_before : Int) + 1 ≥ 0 ∧
      (i_before : Int) + 1 = (i_before : Int) + 1) := ⟨by omega, by omega, rfl⟩
  have e2 : ((i_before : Int) + 1).toNat = i_before + 1 := by omega
  have e3 : (i_before : Int).toNat = i_before := by omega
  have e4 : ((i_before : Int) + 1 = (ancestor_file.length : Int)) ↔
      (i_before + 1 = ancestor_file.length) := by omega
  simp only [e1, not_true, if_false, e2, e3, e4, true_and, not_true_eq_false, hrb, hra]
  by_cases hc : r_before.1 ≥ 0 ∧ r_after.1 ≥ 0 ∧ r_after.1 = r_before.1 + 1
  · rw [if_pos hc, if_pos hc]
    by_cases hend : r_after.1 = (mainstream_file.length : Int)
    · rw [if_pos hend, if_pos hend]
      simp only [add_last_asc_spec, spec_new_nodes]
    · rw [if_neg hend, if_neg hend]
      simp only [add_before_asc_spec, spec_new_nodes]
  · rw [if_neg hc, if_neg hc, entries_range_eq]

theorem merge_scenario_S6 (fstrcmp_bounded : Fstrcmp) (diag : Diag) (E1 E2 E3 NEW : Entry) :
    merge fstrcmp_bounded diag [E1, E2, E3] [E1, E2, E3] [E1, NEW, E2, E3] =
      some ([E1, NEW, E2, E3], []) := by
  unfold merge
  rw [compute_mapping_same]
  by_cases h : E2 = NEW
  · subst h
    by_cases h3 : E2 = E3
    · subst h3
      rw [compute_differences_steps diag [E1, E2, E2] [E1, E2, E2, E2] 3 4
        ([0, 0, 0], [0, 0, 0, -1]) ([0, 1, 2], [0, 1, 2, -1]) [edit.ADDITION 3 3] rfl rfl
        (by
          rw [compareseq_insert diag _ _ _ 0 3 0 4 _ (3, 3) (3, 4)
            (by simp [slide_down, entry_equals_self])
            (by simp [slide_up]) rfl]
          rfl)
        (by decide) (by decide)]
      simp [apply_edits, apply_edit, apply_addition, entries_mapping_get_bound,
        identity_mapping, initial_result, add_last_asc, gl_list_add_last, List.range_succ]
    · rw [compute_differences_steps diag [E1, E2, E3] [E1, E2, E2, E3] 3 4
        ([0, 0, 0], [0, 0, -1, 0]) ([0, 1, 3], [0, 1, -1, 2]) [edit.ADDITION 2 2] rfl rfl
        (by
          rw [compareseq_insert diag _ _ _ 0 3 0 4 _ (2, 2) (2, 3)
            (by simp [slide_down, entry_equals_self, entry_equals_ne _ _ (Ne.symm h3)])
            (by simp [slide_up, entry_equals_self]) rfl]
          rfl)
        (by decide) (by decide)]
      simp [apply_edits, apply_edit, apply_addition, entries_mapping_get_bound,
        identity_mapping, initial_result, add_before_asc, gl_list_add_before, List.range_succ]
  · rw [compute_differences_steps diag [E1, E2, E3] [E1, NEW, E2, E3] 3 4
      ([0, 0, 0], [0, -1, 0, 0]) ([0, 2, 3], [0, -1, 1, 2]) [edit.ADDITION 1 1] rfl rfl
      (by
        rw [compareseq_insert diag _ _ _ 0 3 0 4 _ (1, 1) (1, 2)
          (by simp [slide_down, entry_equals_self, entry_equals_ne _ _ h])
          (by simp [slide_up, entry_equals_self]) rfl]
        rfl)
      (by decide) (by decide)]
    simp [apply_edits, apply_edit, apply_addition, entries_mapping_get_bound,
      identity_mapping, initial_result, add_before_asc, gl_list_add_before, List.range_succ]

/-! ## Lemmas: scenario S2 -/

theorem compareseq_split (diag : Diag) (xv yv : List Entry) (fuel xoff xlim yoff ylim : Nat)
    (ctxt : List Int × List Int) (lo hi part : Nat × Nat)
    (hlo : slide_down xv yv xlim ylim (xlim - xoff) xoff yoff = lo)
    (hhi : slide_up xv yv lo.1 lo.2 (xlim - lo.1) xlim ylim = hi) (h1 : lo.1 ≠ hi.1)
    (h2 : lo.2 ≠ hi.2) (hpart : diag xv yv lo.1 hi.1 lo.2 hi.2 = part) :
    compareseq diag xv yv (fuel + 1) xoff xlim yoff ylim ctxt =
      match compareseq diag xv yv fuel lo.1 part.1 lo.2 part.2 ctxt with
      | none => none
      | some ctxt1 => compareseq diag xv yv fuel part.1 hi.1 part.2 hi.2 ctxt1 := by
  subst hlo; subst hhi; subst hpart
  conv_lhs => rw [compareseq]
  simp only [if_neg h1, if_neg h2]

theorem mapping_S2 (fstrcmp_bounded : Fstrcmp) (New E1 E2 : Entry) (h3 : E1 ≠ E2) :
    compute_mapping fstrcmp_bounded [E1, E2] [New, E1, E2] false =
      some { file1 := [E1, E2], file2 := [New, E1, E2], index_mapping := [1, 2],
             index_mapping_reverse := [-2, 0, 1] } := by
  simp [compute_mapping, exact_pass, exact_step, pair_occurrences, gl_list_indexof,
    gl_list_indexof_from, entry_equals_self, entry_equals_ne _ _ h3,
    entry_equals_ne _ _ (Ne.symm h3)]

/-- The differences from `[E1, E2]` to `[E1', E2]` with `E1'` other than `E1`: one
CHANGE of the first entry. The midpoint search is called for the window that holds `E1`
on one side and `E1'` on the other. -/
theorem differences_S2 (diag : Diag) (E1 E2 E1' : Entry) (h : E1 ≠ E1')
    (hdiag : diag [E1, E2] [E1', E2] 0 1 0 1 = (1, 0) ∨
      diag [E1, E2] [E1', E2] 0 1 0 1 = (0, 1)) :
    compute_differences diag [E1, E2] [E1', E2] =
      some { index_mapping := [-1, 1], index_mapping_reverse := [-1, 1],
             edits := [edit.CHANGE 0 0 0 0] } := by
  have hne := entry_equals_ne _ _ h
  apply compute_differences_steps diag [E1, E2] [E1', E2] 2 2 ([-1, 0], [-1, 0])
    ([-1, 1], [-1, 1]) [edit.CHANGE 0 0 0 0] rfl rfl _ (by decide) (by decide)
  rcases hdiag with hd | hd
  · rw [compareseq_split diag _ _ _ 0 2 0 2 _ (0, 0) (1, 1) (1, 0)
      (by simp [slide_down, hne]) (by simp [slide_up, entry_equals_self, hne])
      (by decide) (by decide) hd]
    rw [compareseq_delete diag _ _ _ 0 1 0 0 _ (0, 0) (1, 0)
      (by simp [slide_down]) (by simp [slide_up]) (by decide) rfl]
    simp only
    rw [compareseq_insert diag _ _ _ 1 1 0 1 _ (1, 0) (1, 1)
      (by simp [slide_down]) (by simp [slide_up]) rfl]
    rfl
  · rw [compareseq_split diag _ _ _ 0 2 0 2 _ (0, 0) (1, 1) (0, 1)
      (by simp [slide_down, hne]) (by simp [slide_up, entry_equals_self, hne])
      (by decide) (by decide) hd]
    rw [compareseq_insert diag _ _ _ 0 0 0 1 _ (0, 0) (0, 1)
      (by simp [slide_down]) (by simp [slide_up]) rfl]
    simp only
    rw [compareseq_delete diag _ _ _ 0 1 1 1 _ (0, 1) (1, 1)
      (by simp [slide_down]) (by simp [slide_up]) (by decide) rfl]
    rfl

/-- The merge of scenario S2 when the split of a merged entry does not apply to the
changed entry. -/
theorem merge_scenario_S2 (fstrcmp_bounded : Fstrcmp) (diag : Diag) (New E1 E2 E1' : Entry)
    (h12 : E1 ≠ E2) (hchanged : E1' ≠ E1)
    (hsim : FSTRCMP_THRESHOLD ≤ entry_fstrcmp fstrcmp_bounded E1 E1' FSTRCMP_THRESHOLD)
    (hsplit : try_split_merged_entry fstrcmp_bounded E1 E1' = some none)
    (hdiag : diag [E1, E2] [E1', E2] 0 1 0 1 = (1, 0) ∨
      diag [E1, E2] [E1', E2] 0 1 0 1 = (0, 1)) :
    merge fstrcmp_bounded diag [E1, E2] [New, E1, E2] [E1', E2] =
      some ([New, E1', E2], []) := by
  unfold merge
  rw [mapping_S2 fstrcmp_bounded New E1 E2 h12,
    differences_S2 diag E1 E2 E1' (Ne.symm hchanged) hdiag]
  have hs : ¬ (entry_fstrcmp fstrcmp_bounded E1 E1' FSTRCMP_THRESHOLD < FSTRCMP_THRESHOLD) :=
    not_lt.mpr hsim
  simp [apply_edits, apply_edit, apply_change, change_simple_merged, change_simple_or_big,
    hsplit, all_similar, hs, top_changes, add_first_desc, entries_mapping_get_bound,
    entry_equals_self, initial_result, gl_list_node_set_value, List.range_succ]

/-! ## Lemmas: what the mapping holds, and the removal of an entry -/

theorem exactChange_refl (file1 file2 : List Entry) (entry : Entry) (ci cj : Nat)
    (a : List Int × List Int) : ExactChange file1 file2 entry ci cj a a :=
  ⟨rfl, rfl, fun _ => Or.inl rfl, fun _ => Or.inl rfl⟩

theorem pair_occurrences_change (file1 file2 : List Entry) (entry : Entry) :
    ∀ (fuel curr_i curr_j : Nat) (arrays arrays1 : List Int × List Int),
      arrays.1.length = file1.length → arrays.2.length = file2.length →
      pair_occurrences file1 file2 entry fuel curr_i curr_j arrays = some arrays1 →
      ExactChange file1 file2 entry curr_i curr_j arrays arrays1 := by
  intro fuel
  induction fuel with
  | zero => intro _ _ _ _ _ _ h; simp [pair_occurrences] at h
  | succ fuel ih =>
    intro curr_i curr_j arrays arrays1 hl1 hl2 h
    obtain ⟨fwd, rev⟩ := arrays
    simp only at hl1 hl2
    unfold pair_occurrences at h
    rcases rev_lookup file1 curr_i entry with hi | ⟨p, hp, hpn, hpe, hi⟩
    · simp only [hi] at h
      simp only [show ((-1 : Int) < 0) by omega, if_true, Option.some.injEq] at h
      subst h; exact exactChange_refl _ _ _ _ _ _
    rcases rev_lookup file2 curr_j entry with hj | ⟨q, hq, hqn, hqe, hj⟩
    · have : ¬ ((file1.length : Int) - 1 - (p : Int) < 0) := by omega
      simp only [hi, hj, this, if_false, show ((-1 : Int) < 0) by omega, if_true,
        Option.some.injEq] at h
      subst h; exact exactChange_refl _ _ _ _ _ _
    have e1 : ¬ ((file1.length : Int) - 1 - (p : Int) < 0) := by omega
    have e2 : ¬ ((file2.length : Int) - 1 - (q : Int) < 0) := by omega
    have t1 : ((file1.length : Int) - 1 - ((file1.length : Int) - 1 - (p : Int))).toNat = p := by
      omega
    have t2 : ((file2.length : Int) - 1 - ((file2.length : Int) - 1 - (q : Int))).toNat = q := by
      omega
    simp only [hi, hj, e1, e2, if_false, t1, t2] at h
    split_ifs at h with hassert
    obtain ⟨hlen1, hlen2, hf, hr⟩ := ih p q _ arrays1 (by simpa using hl1) (by simpa using hl2) h
    simp only [List.length_set] at hlen1 hlen2
    refine ⟨hlen1, hlen2, ?_, ?_⟩
    · intro x
      rcases hf x with hx | ⟨hx1, hx2, hx3, hx4, hx5⟩
      · simp only [getD_set_int] at hx
        by_cases hc : p = x ∧ p < fwd.length
        · rw [if_pos hc] at hx
          right
          obtain ⟨hpx, -⟩ := hc
          subst hpx
          exact ⟨hp, hpn, hpe, hassert.1, q, hqn, hx, hqe⟩
        · rw [if_neg hc] at hx; left; exact hx
      · right
        simp only [getD_set_int] at hx4
        have hne : ¬ (p = x ∧ p < fwd.length) := by
          intro hc; rw [if_pos hc] at hx4; omega
        rw [if_neg hne] at hx4
        exact ⟨by omega, hx2, hx3, hx4, hx5⟩
    · intro x
      rcases hr x with hx | ⟨hx1, hx2, hx3, hx4, hx5⟩
      · simp only [getD_set_int] at hx
        by_cases hc : q = x ∧ q < rev.length
        · rw [if_pos hc] at hx
          right
          obtain ⟨hqx, -⟩ := hc
          subst hqx
          exact ⟨hq, hqn, hqe, hassert.2, p, hpn, hx, hpe⟩
        · rw [if_neg hc] at hx; left; exact hx
      · right
        simp only [getD_set_int] at hx4
        have hne : ¬ (q = x ∧ q < rev.length) := by
          intro hc; rw [if_pos hc] at hx4; omega
        rw [if_neg hne] at hx4
        exact ⟨by omega, hx2, hx3, hx4, hx5⟩

theorem last_index_spec (file2 : List Entry) (entry : Entry)
    (h : gl_list_indexof file2.reverse entry ≥ 0) :
    last_index file2 entry < file2.length ∧ file2.getD (last_index file2 entry) [] = entry := by
  unfold last_index
  unfold gl_list_indexof at h ⊢
  have := rev_lookup file2 file2.length entry
  simp only [Nat.sub_self] at this
  rcases this with h1 | ⟨p, -, hpn, hpe, h1⟩
  · rw [h1] at h; omega
  · rw [h1]
    have : ((file2.length : Int) - 1 - ((file2.length : Int) - 1 - (p : Int))).toNat = p := by
      omega
    rw [this]; exact ⟨hpn, hpe⟩

theorem exact_step_change (file1 file2 : List Entry) (i : Nat)
    (arrays arrays1 : List Int × List Int) (hi : i < file1.length)
    (hl1 : arrays.1.length = file1.length) (hl2 : arrays.2.length = file2.length)
    (h : exact_step file1 file2 i arrays = some arrays1) :
    ExactChange file1 file2 (file1.getD i []) (i + 1) file2.length arrays arrays1 ∧
    (arrays.1.getD i 0 < -1 → gl_list_indexof file2.reverse (file1.getD i []) ≥ 0 →
      arrays.2.getD (last_index file2 (file1.getD i [])) 0 < 0 →
      arrays1.1.getD i 0 = (last_index file2 (file1.getD i []) : Int)) := by
  obtain ⟨fwd, rev⟩ := arrays
  simp only at hl1 hl2
  unfold exact_step at h
  have hfold : ((file2.length : Int) - 1 -
      gl_list_indexof file2.reverse (file1.getD i [])).toNat =
      last_index file2 (file1.getD i []) := rfl
  simp only [hfold] at h
  by_cases c1 : fwd.getD i 0 < -1
  · rw [if_pos c1] at h
    by_cases c2 : gl_list_indexof file2.reverse (file1.getD i []) ≥ 0
    · rw [if_pos c2] at h
      by_cases c3 : rev.getD (last_index file2 (file1.getD i [])) 0 < 0
      · rw [if_pos c3] at h
        obtain ⟨hjn, hje⟩ := last_index_spec file2 _ c2
        obtain ⟨hlen1, hlen2, hf, hr⟩ := pair_occurrences_change file1 file2 _ _ _ _ _ arrays1
          (by simpa using hl1) (by simpa using hl2) h
        simp only [List.length_set] at hlen1 hlen2
        have hkey : arrays1.1.getD i 0 = (last_index file2 (file1.getD i []) : Int) := by
          rcases hf i with hx | ⟨hx1, -⟩
          · have hx' : arrays1.1.getD i 0 =
                (fwd.set i (last_index file2 (file1.getD i []) : Int)).getD i 0 := hx
            rw [hx', getD_set_int, if_pos ⟨rfl, by omega⟩]
          · omega
        refine ⟨⟨hlen1, hlen2, ?_, ?_⟩, fun _ _ _ => hkey⟩
        · intro x
          by_cases hxi : x = i
          · subst hxi
            right
            exact ⟨by omega, hi, rfl, (by show fwd.getD x 0 < 0; omega), _, hjn, hkey, hje⟩
          · rcases hf x with hx | ⟨hx1, hx2, hx3, hx4, hx5⟩
            · left
              rw [hx]; simp only [getD_set_int]
              rw [if_neg (fun hc => hxi hc.1.symm)]
            · right
              simp only [getD_set_int] at hx4
              rw [if_neg (fun hc => hxi hc.1.symm)] at hx4
              exact ⟨by omega, hx2, hx3, hx4, hx5⟩
        · intro x
          by_cases hxj : x = last_index file2 (file1.getD i [])
          · right
            rcases hr x with hx | ⟨hx1, -⟩
            · simp only [getD_set_int] at hx
              rw [if_pos ⟨hxj.symm, by omega⟩] at hx
              subst hxj
              exact ⟨hjn, hjn, hje, c3, i, hi, hx, rfl⟩
            · omega
          · rcases hr x with hx | ⟨hx1, hx2, hx3, hx4, hx5⟩
            · left
              rw [hx]; simp only [getD_set_int]
              rw [if_neg (fun hc => hxj hc.1.symm)]
            · right
              simp only [getD_set_int] at hx4
              rw [if_neg (fun hc => hxj hc.1.symm)] at hx4
              exact ⟨by omega, hx2, hx3, hx4, hx5⟩
      · rw [if_neg c3] at h
        simp only [Option.some.injEq] at h
        subst h
        exact ⟨exactChange_refl _ _ _ _ _ _, fun _ _ h3 => absurd h3 c3⟩
    · rw [if_neg c2] at h
      simp only [Option.some.injEq] at h
      subst h
      exact ⟨exactChange_refl _ _ _ _ _ _, fun _ h2 _ => absurd h2 c2⟩
  · rw [if_neg c1] at h
    simp only [Option.some.injEq] at h
    subst h
    exact ⟨exactChange_refl _ _ _ _ _ _, fun h1 _ _ => absurd h1 c1⟩

theorem passInv_step (file1 file2 : List Entry) (entry : Entry) (ci cj : Nat)
    (old new : List Int × List Int) (hinv : PassInv file1 file2 old)
    (hch : ExactChange file1 file2 entry ci cj old new) : PassInv file1 file2 new := by
  obtain ⟨hl1, hl2, hf, hr⟩ := hinv
  obtain ⟨hn1, hn2, hcf, hcr⟩ := hch
  refine ⟨by omega, by omega, ?_, ?_⟩
  · intro p hp
    rcases hcf p with h | ⟨-, -, hpe, -, q, hq, hnew, hqe⟩
    · rw [h]; exact hf p hp
    · right; exact ⟨q, hq, hnew, by rw [hqe, hpe]⟩
  · intro q hq
    rcases hcr q with h | ⟨-, -, hqe, -, p, hp, hnew, hpe⟩
    · rw [h]; exact hr q hq
    · right; exact ⟨p, hp, hnew, by rw [hqe, hpe]⟩

/-- The exact pass binds an entry that occurs once in `file1` and at least once in
`file2` to the last equal entry of `file2`; and all its bound pairs are equal entries. -/
theorem exact_pass_facts (file1 file2 : List Entry) (i0 : Nat) (hi0 : i0 < file1.length)
    (hunique : ∀ i, i < file1.length → file1.getD i [] = file1.getD i0 [] → i = i0)
    (hpresent : gl_list_indexof file2.reverse (file1.getD i0 []) ≥ 0) :
    ∀ (n : Nat) (arrays arrays1 : List Int × List Int), n ≤ file1.length →
      PassInv file1 file2 arrays →
      (i0 < n → arrays.1.getD i0 0 < -1 ∧
        arrays.2.getD (last_index file2 (file1.getD i0 [])) 0 < 0) →
      (n ≤ i0 → arrays.1.getD i0 0 = (last_index file2 (file1.getD i0 []) : Int)) →
      exact_pass file1 file2 n arrays = some arrays1 →
      PassInv file1 file2 arrays1 ∧
        arrays1.1.getD i0 0 = (last_index file2 (file1.getD i0 []) : Int) := by
  intro n
  induction n with
  | zero =>
    intro arrays arrays1 _ hinv _ hdone h
    simp only [exact_pass, Option.some.injEq] at h
    subst h
    exact ⟨hinv, hdone (Nat.zero_le _)⟩
  | succ n ih =>
    intro arrays arrays1 hn hinv hbefore hdone h
    unfold exact_pass at h
    cases hs : exact_step file1 file2 n arrays with
    | none => rw [hs] at h; simp at h
    | some a1 =>
      rw [hs] at h
      simp only at h
      obtain ⟨hch, hkey⟩ := exact_step_change file1 file2 n arrays a1 (by omega) hinv.1
        hinv.2.1 hs
      have hinv1 := passInv_step _ _ _ _ _ _ _ hinv hch
      obtain ⟨j0n, j0e⟩ := last_index_spec file2 _ hpresent
      apply ih a1 arrays1 (by omega) hinv1 _ _ h
      · intro hlt
        have hne : file1.getD n [] ≠ file1.getD i0 [] := by
          intro heq
          have := hunique n (by omega) heq
          omega
        obtain ⟨hb1, hb2⟩ := hbefore (by omega)
        constructor
        · rcases hch.2.2.1 i0 with hx | ⟨-, -, hx, -⟩
          · rw [hx]; exact hb1
          · exact absurd hx.symm hne
        · rcases hch.2.2.2 (last_index file2 (file1.getD i0 [])) with hx | ⟨-, -, hx, -⟩
          · rw [hx]; exact hb2
          · rw [j0e] at hx; exact absurd hx.symm hne
      · intro hle
        by_cases hni : n = i0
        · subst hni
          obtain ⟨hb1, hb2⟩ := hbefore (by omega)
          exact hkey hb1 hpresent hb2
        · have hne : file1.getD n [] ≠ file1.getD i0 [] := by
            intro heq
            exact hni (hunique n (by omega) heq)
          rcases hch.2.2.1 i0 with hx | ⟨-, -, hx, -⟩
          · rw [hx]; exact hdone (by omega)
          · exact absurd hx.symm hne

theorem exact_pass_inv (file1 file2 : List Entry) :
    ∀ (n : Nat) (arrays arrays1 : List Int × List Int), n ≤ file1.length →
      PassInv file1 file2 arrays → exact_pass file1 file2 n arrays = some arrays1 →
      PassInv file1 file2 arrays1 := by
  intro n
  induction n with
  | zero =>
    intro arrays arrays1 _ hinv h
    simp only [exact_pass, Option.some.injEq] at h
    subst h; exact hinv
  | succ n ih =>
    intro arrays arrays1 hn hinv h
    unfold exact_pass at h
    cases hs : exact_step file1 file2 n arrays with
    | none => rw [hs] at h; simp at h
    | some a1 =>
      rw [hs] at h
      simp only at h
      obtain ⟨hch, -⟩ := exact_step_change file1 file2 n arrays a1 (by omega) hinv.1
        hinv.2.1 hs
      exact ih a1 arrays1 (by omega) (passInv_step _ _ _ _ _ _ _ hinv hch) h

theorem passInv_init (file1 file2 : List Entry) :
    PassInv file1 file2 (List.replicate file1.length (-2), List.replicate file2.length (-2)) := by
  refine ⟨by simp, by simp, ?_, ?_⟩
  · intro p hp
    left
    simp only [List.getD_eq_getElem?_getD]
    rw [List.getElem?_replicate]
    simp [hp]
  · intro q hq
    left
    simp only [List.getD_eq_getElem?_getD]
    rw [List.getElem?_replicate]
    simp [hq]

theorem indexof_nonneg_of_mem (file2 : List Entry) (entry : Entry) (h : entry ∈ file2) :
    gl_list_indexof file2.reverse entry ≥ 0 := by
  unfold gl_list_indexof
  rcases indexof_from_least file2.reverse 0 entry with ⟨-, hall⟩ | ⟨r, hr, -⟩
  · exfalso
    have hm : entry ∈ file2.reverse := List.mem_reverse.mpr h
    obtain ⟨k, hk, hke⟩ := List.getElem_of_mem hm
    apply hall k (Nat.zero_le _) hk
    rw [List.getD_eq_getElem?_getD, List.getElem?_eq_getElem hk]
    exact hke
  · rw [hr]; omega

theorem search_file2_range (fstrcmp_bounded : Fstrcmp) (file2 : List Entry)
    (index_mapping_reverse : List Int) (entry_i : Entry) :
    ∀ (j : Nat) (best : Int × ℚ),
      search_file2 fstrcmp_bounded file2 index_mapping_reverse entry_i j best = best ∨
      ∃ j' : Nat, j' < j ∧
        (search_file2 fstrcmp_bounded file2 index_mapping_reverse entry_i j best).1 = (j' : Int) := by
  intro j
  induction j with
  | zero => intro best; left; rfl
  | succ j ih =>
    intro best
    unfold search_file2
    split_ifs with h1 h2
    · rcases ih (↑j, entry_fstrcmp fstrcmp_bounded entry_i (file2.getD j []) best.2) with h | ⟨j', hj', h⟩
      · right; exact ⟨j, by omega, by rw [h]⟩
      · right; exact ⟨j', by omega, h⟩
    · rcases ih best with h | ⟨j', hj', h⟩
      · left; exact h
      · right; exact ⟨j', by omega, h⟩
    · rcases ih best with h | ⟨j', hj', h⟩
      · left; exact h
      · right; exact ⟨j', by omega, h⟩

theorem entries_mapping_get_files (fstrcmp_bounded : Fstrcmp) (mapping : entries_mapping)
    (i : Nat) :
    (entries_mapping_get fstrcmp_bounded mapping i).2.file1 = mapping.file1 ∧
    (entries_mapping_get fstrcmp_bounded mapping i).2.file2 = mapping.file2 ∧
    (entries_mapping_get fstrcmp_bounded mapping i).2.index_mapping.length =
      mapping.index_mapping.length ∧
    (entries_mapping_get fstrcmp_bounded mapping i).1 =
      (entries_mapping_get fstrcmp_bounded mapping i).2.index_mapping.getD i 0 := by
  unfold entries_mapping_get
  dsimp only
  split_ifs <;> simp

/-- What `entries_mapping_get` does to `index_mapping`: it changes at most slot `i`,
from "not yet computed" to -1 or to an index of FILE2. -/
theorem entries_mapping_get_change (fstrcmp_bounded : Fstrcmp) (mapping : entries_mapping)
    (i p : Nat) :
    (entries_mapping_get fstrcmp_bounded mapping i).2.index_mapping.getD p 0 =
        mapping.index_mapping.getD p 0 ∨
      (p = i ∧ mapping.index_mapping.getD p 0 < -1 ∧
        ((entries_mapping_get fstrcmp_bounded mapping i).2.index_mapping.getD p 0 = -1 ∨
          ∃ q : Nat, q < mapping.file2.length ∧
            (entries_mapping_get fstrcmp_bounded mapping i).2.index_mapping.getD p 0 = (q : Int))) := by
  by_cases hp : p = i
  swap
  · left
    have hne : ∀ (l : List Int) (v : Int), (l.set i v).getD p 0 = l.getD p 0 := by
      intro l v
      rw [getD_set_int, if_neg (fun hc => hp hc.1.symm)]
    unfold entries_mapping_get
    dsimp only
    split_ifs <;> simp only [hne]
  subst hp
  by_cases c1 : mapping.index_mapping.getD p 0 < -1
  swap
  · left
    unfold entries_mapping_get
    rw [if_neg c1]
  right
  refine ⟨rfl, c1, ?_⟩
  have hrange : p < mapping.index_mapping.length := by
    by_contra hc
    rw [List.getD_eq_getElem?_getD, List.getElem?_eq_none (by omega)] at c1
    simp at c1
  have hthr : (0 : ℚ) < FSTRCMP_THRESHOLD := by unfold FSTRCMP_THRESHOLD; norm_num
  have hsearch := search_file2_range fstrcmp_bounded mapping.file2 mapping.index_mapping_reverse
      (mapping.file1.getD p []) mapping.file2.length (-1, 0)
  unfold entries_mapping_get
  rw [if_pos c1]
  dsimp only
  generalize search_file2 fstrcmp_bounded mapping.file2 mapping.index_mapping_reverse
      (mapping.file1.getD p []) mapping.file2.length (-1, 0) = best_j at hsearch ⊢
  by_cases hb : best_j.2 ≥ FSTRCMP_THRESHOLD ∧
      ((search_file1 fstrcmp_bounded mapping.file1 mapping.index_mapping
          (mapping.file2.getD best_j.1.toNat []) mapping.file1.length (-1, 0)).2 ≥
          FSTRCMP_THRESHOLD ∧
        (search_file1 fstrcmp_bounded mapping.file1 mapping.index_mapping
          (mapping.file2.getD best_j.1.toNat []) mapping.file1.length (-1, 0)).1 = (p : Int))
  · rw [if_pos hb.1, if_pos hb.2]
    rcases hsearch with hs | ⟨j', hj', hs⟩
    · exfalso
      have := hb.1
      rw [hs] at this
      exact absurd this (not_le.mpr hthr)
    · right
      refine ⟨j', hj', ?_⟩
      have e : (mapping.index_mapping.set p best_j.1).getD p 0 = (j' : Int) := by
        rw [getD_set_int, if_pos ⟨rfl, hrange⟩, hs]
      dsimp only
      rw [if_neg (by rw [e]; omega), e]
  · left
    have hm1 : (if best_j.2 ≥ FSTRCMP_THRESHOLD then
        if (search_file1 fstrcmp_bounded mapping.file1 mapping.index_mapping
              (mapping.file2.getD best_j.1.toNat []) mapping.file1.length (-1, 0)).2 ≥
              FSTRCMP_THRESHOLD ∧
            (search_file1 fstrcmp_bounded mapping.file1 mapping.index_mapping
              (mapping.file2.getD best_j.1.toNat []) mapping.file1.length (-1, 0)).1 = (p : Int)
        then ({ mapping with
            index_mapping := mapping.index_mapping.set p best_j.1
            index_mapping_reverse := mapping.index_mapping_reverse.set best_j.1.toNat (p : Int) } :
              entries_mapping)
        else mapping
      else mapping) = mapping := by
      by_cases h1 : best_j.2 ≥ FSTRCMP_THRESHOLD
      · rw [if_pos h1, if_neg (fun h2 => hb ⟨h1, h2⟩)]
      · rw [if_neg h1]
    rw [hm1, if_pos c1]
    dsimp only
    rw [getD_set_int, if_pos ⟨rfl, hrange⟩]

theorem looked_facts (fstrcmp_bounded : Fstrcmp) (mapping0 mapping : entries_mapping)
    (h : Looked fstrcmp_bounded mapping0 mapping) :
    mapping.file1 = mapping0.file1 ∧ mapping.file2 = mapping0.file2 ∧
    mapping.index_mapping.length = mapping0.index_mapping.length ∧
    (∀ p, mapping0.index_mapping.getD p 0 ≥ -1 →
      mapping.index_mapping.getD p 0 = mapping0.index_mapping.getD p 0) ∧
    ((∀ p, p < mapping0.index_mapping.length → mapping0.index_mapping.getD p 0 ≥ 0 →
        ∃ q : Nat, q < mapping0.file2.length ∧ mapping0.index_mapping.getD p 0 = (q : Int)) →
      ∀ p, p < mapping.index_mapping.length → mapping.index_mapping.getD p 0 ≥ 0 →
        ∃ q : Nat, q < mapping.file2.length ∧ mapping.index_mapping.getD p 0 = (q : Int)) := by
  induction h with
  | start => exact ⟨rfl, rfl, rfl, fun _ _ => rfl, fun h => h⟩
  | lookup m i _ ih =>
    obtain ⟨h1, h2, h3, h4, h5⟩ := ih
    obtain ⟨g1, g2, g3, -⟩ := entries_mapping_get_files fstrcmp_bounded m i
    refine ⟨g1.trans h1, g2.trans h2, g3.trans h3, ?_, ?_⟩
    · intro p hp
      rcases entries_mapping_get_change fstrcmp_bounded m i p with hx | ⟨-, hx, -⟩
      · rw [hx]; exact h4 p hp
      · rw [h4 p hp] at hx; omega
    · intro hrange p hp hge
      rcases entries_mapping_get_change fstrcmp_bounded m i p with hx | ⟨-, -, hx | ⟨q, hq, hx⟩⟩
      · rw [hx] at hge ⊢
        rw [g2]
        exact h5 hrange p (by omega) hge
      · omega
      · exact ⟨q, by rw [g2]; exact hq, hx⟩

theorem append_singleton_ne {α : Type} (l : List α) (c : α) : l ++ [c] ≠ l := by
  intro h
  have := congrArg List.length h
  simp at this

/-- What `compute_mapping` without the full pass returns: the bound pairs are equal
entries, and an entry that occurs once in FILE1 and at least once in FILE2 is bound to
the last equal entry of FILE2. -/
theorem compute_mapping_facts (fstrcmp_bounded : Fstrcmp) (file1 file2 : List Entry) :
    ∃ mapping, compute_mapping fstrcmp_bounded file1 file2 false = some mapping ∧
      mapping.file1 = file1 ∧ mapping.file2 = file2 ∧
      PassInv file1 file2 (mapping.index_mapping, mapping.index_mapping_reverse) ∧
      ∀ i, i < file1.length → file1.getD i [] ∈ file2 →
        (∀ i', i' < file1.length → file1.getD i' [] = file1.getD i [] → i' = i) →
        mapping.index_mapping.getD i 0 = (last_index file2 (file1.getD i []) : Int) := by
  obtain ⟨a, h, -⟩ := exact_pass_ok file1 file2 file1.length _ (le_refl _)
    (exactInv_init file1 file2)
  have hinv := exact_pass_inv file1 file2 _ _ a (le_refl _) (passInv_init file1 file2) h
  obtain ⟨fwd, rev⟩ := a
  refine ⟨⟨file1, file2, fwd, rev⟩, by simp [compute_mapping, h], rfl, rfl, hinv, ?_⟩
  intro i hi hmem hunique
  have hinit : (List.replicate file1.length (-2 : Int)).getD i 0 < -1 := by
    rw [List.getD_eq_getElem?_getD, List.getElem?_replicate]
    simp [hi]
  have hpres := indexof_nonneg_of_mem file2 _ hmem
  have hinit2 : (List.replicate file2.length (-2 : Int)).getD
      (last_index file2 (file1.getD i [])) 0 < 0 := by
    rw [List.getD_eq_getElem?_getD, List.getElem?_replicate,
      if_pos (last_index_spec file2 _ hpres).1]
    decide
  exact (exact_pass_facts file1 file2 i hi hunique hpres file1.length _ (fwd, rev)
    (le_refl _) (passInv_init file1 file2) (fun _ => ⟨hinit, hinit2⟩)
    (fun hle => absurd hi (by omega)) h).2

/-! ## Lemmas: the marks left by compareseq -/

theorem Path.le {D I : Nat → Prop} {P : Nat → Nat → Prop} {i j i' j' : Nat}
    (h : Path D I P i j i' j') : i ≤ i' ∧ j ≤ j' := by
  induction h with
  | done => exact ⟨le_refl _, le_refl _⟩
  | del _ _ _ _ _ _ ih => omega
  | ins _ _ _ _ _ _ ih => omega
  | both _ _ _ _ _ _ ih => omega

theorem Path.append {D I : Nat → Prop} {P : Nat → Nat → Prop} {a b c d e f : Nat}
    (h1 : Path D I P a b c d) (h2 : Path D I P c d e f) : Path D I P a b e f := by
  induction h1 with
  | done => exact h2
  | del i j i' j' hd _ ih => exact Path.del i j _ _ hd (ih h2)
  | ins i j i' j' hi _ ih => exact Path.ins i j _ _ hi (ih h2)
  | both i j i' j' hp _ ih => exact Path.both i j _ _ hp (ih h2)

theorem Path.mono {D I D' I' : Nat → Prop} {P P' : Nat → Nat → Prop} {a b c d : Nat}
    (h : Path D I P a b c d)
    (hD : ∀ i, a ≤ i → i < c → D i → D' i) (hI : ∀ j, b ≤ j → j < d → I j → I' j)
    (hP : ∀ i j, a ≤ i → i < c → b ≤ j → j < d → P i j → P' i j) :
    Path D' I' P' a b c d := by
  induction h with
  | done => exact Path.done _ _
  | del i j i' j' hd hp ih =>
    have := hp.le
    exact Path.del i j _ _ (hD i (le_refl _) (by omega) hd)
      (ih (fun x h1 h2 => hD x (by omega) h2) hI
        (fun x y h1 h2 h3 h4 => hP x y (by omega) h2 h3 h4))
  | ins i j i' j' hi hp ih =>
    have := hp.le
    exact Path.ins i j _ _ (hI j (le_refl _) (by omega) hi)
      (ih hD (fun x h1 h2 => hI x (by omega) h2)
        (fun x y h1 h2 h3 h4 => hP x y h1 h2 (by omega) h4))
  | both i j i' j' hb hp ih =>
    have := hp.le
    exact Path.both i j _ _ (hP i j (le_refl _) (by omega) (le_refl _) (by omega) hb)
      (ih (fun x h1 h2 => hD x (by omega) h2) (fun x h1 h2 => hI x (by omega) h2)
        (fun x y h1 h2 h3 h4 => hP x y (by omega) h2 (by omega) h4))

/-- A run of deleted entries. -/
theorem Path.del_run {D I : Nat → Prop} {P : Nat → Nat → Prop} (j : Nat) :
    ∀ (c i : Nat), (∀ t, t < c → D (i + t)) → Path D I P i j (i + c) j := by
  intro c
  induction c with
  | zero => intro i _; exact Path.done _ _
  | succ c ih =>
    intro i h
    refine Path.del i j _ _ (by simpa using h 0 (by omega)) ?_
    have := ih (i + 1) (fun t ht => by
      have := h (t + 1) (by omega)
      rwa [show i + 1 + t = i + (t + 1) by omega])
    rwa [show i + 1 + c = i + (c + 1) by omega] at this

/-- A run of inserted entries. -/
theorem Path.ins_run {D I : Nat → Prop} {P : Nat → Nat → Prop} (i : Nat) :
    ∀ (c j : Nat), (∀ t, t < c → I (j + t)) → Path D I P i j i (j + c) := by
  intro c
  induction c with
  | zero => intro j _; exact Path.done _ _
  | succ c ih =>
    intro j h
    refine Path.ins i j _ _ (by simpa using h 0 (by omega)) ?_
    have := ih (j + 1) (fun t ht => by
      have := h (t + 1) (by omega)
      rwa [show j + 1 + t = j + (t + 1) by omega])
    rwa [show j + 1 + c = j + (c + 1) by omega] at this

/-- A run of corresponding pairs. -/
theorem Path.both_run {D I : Nat → Prop} {P : Nat → Nat → Prop} :
    ∀ (c i j : Nat), (∀ t, t < c → P (i + t) (j + t)) → Path D I P i j (i + c) (j + c) := by
  intro c
  induction c with
  | zero => intro i j _; exact Path.done _ _
  | succ c ih =>
    intro i j h
    refine Path.both i j _ _ (by simpa using h 0 (by omega)) ?_
    have := ih (i + 1) (j + 1) (fun t ht => by
      have := h (t + 1) (by omega)
      rwa [show i + 1 + t = i + (t + 1) by omega, show j + 1 + t = j + (t + 1) by omega])
    rwa [show i + 1 + c = i + (c + 1) by omega, show j + 1 + c = j + (c + 1) by omega] at this

theorem slide_down_spec (xv yv : List Entry) (xlim ylim : Nat) :
    ∀ (fuel xoff yoff : Nat), xoff ≤ xlim → yoff ≤ ylim →
      ∃ c, slide_down xv yv xlim ylim fuel xoff yoff = (xoff + c, yoff + c) ∧
        xoff + c ≤ xlim ∧ yoff + c ≤ ylim ∧
        ∀ t, t < c → xv.getD (xoff + t) [] = yv.getD (yoff + t) [] := by
  intro fuel
  induction fuel with
  | zero => intro xoff yoff h1 h2; exact ⟨0, rfl, h1, h2, fun t ht => by omega⟩
  | succ f ih =>
    intro xoff yoff h1 h2
    unfold slide_down
    split_ifs with hc
    · obtain ⟨c, hc1, hc2, hc3, hc4⟩ := ih (xoff + 1) (yoff + 1) (by omega) (by omega)
      refine ⟨c + 1, by rw [hc1]; congr 1 <;> omega, by omega, by omega, ?_⟩
      intro t ht
      cases t with
      | zero => exact (entry_equals_iff _ _).mp hc.2.2
      | succ t =>
        have := hc4 t (by omega)
        rwa [show xoff + 1 + t = xoff + (t + 1) by omega,
          show yoff + 1 + t = yoff + (t + 1) by omega] at this
    · exact ⟨0, rfl, h1, h2, fun t ht => by omega⟩

theorem slide_up_spec (xv yv : List Entry) (xoff yoff : Nat) :
    ∀ (fuel xlim ylim : Nat), xoff ≤ xlim → yoff ≤ ylim →
      ∃ c, slide_up xv yv xoff yoff fuel xlim ylim = (xlim - c, ylim - c) ∧
        xoff + c ≤ xlim ∧ yoff + c ≤ ylim ∧
        ∀ t, t < c → xv.getD (xlim - c + t) [] = yv.getD (ylim - c + t) [] := by
  intro fuel
  induction fuel with
  | zero => intro xlim ylim h1 h2; exact ⟨0, rfl, h1, h2, fun t ht => by omega⟩
  | succ f ih =>
    intro xlim ylim h1 h2
    unfold slide_up
    split_ifs with hc
    · obtain ⟨c, hc1, hc2, hc3, hc4⟩ := ih (xlim - 1) (ylim - 1) (by omega) (by omega)
      refine ⟨c + 1, by rw [hc1]; congr 1 <;> omega, by omega, by omega, ?_⟩
      intro t ht
      by_cases htc : t < c
      · have := hc4 t htc
        rwa [show xlim - 1 - c + t = xlim - (c + 1) + t by omega,
          show ylim - 1 - c + t = ylim - (c + 1) + t by omega] at this
      · have htc' : t = c := by omega
        subst htc'
        have := (entry_equals_iff _ _).mp hc.2.2
        rwa [show xlim - 1 = xlim - (t + 1) + t by omega,
          show ylim - 1 = ylim - (t + 1) + t by omega] at this
    · exact ⟨0, rfl, h1, h2, fun t ht => by omega⟩

/-- With a midpoint search that stays in its window and makes progress, `compareseq`
returns; it only marks entries of its window (with -1), and the marks describe a walk
through the window in which the unmarked entries are equal pair by pair. -/
theorem compareseq_path (diag : Diag) (xv yv : List Entry) (hd : DiagOk diag xv yv) :
    ∀ (fuel xoff xlim yoff ylim : Nat) (ctxt : List Int × List Int),
      xoff ≤ xlim → yoff ≤ ylim → xlim ≤ xv.length → ylim ≤ yv.length →
      ctxt.1.length = xv.length → ctxt.2.length = yv.length →
      (xlim - xoff) + (ylim - yoff) < fuel →
      (∀ i, xoff ≤ i → i < xlim → ctxt.1.getD i 0 ≥ 0) →
      (∀ j, yoff ≤ j → j < ylim → ctxt.2.getD j 0 ≥ 0) →
      ∃ ctxt1, compareseq diag xv yv fuel xoff xlim yoff ylim ctxt = some ctxt1 ∧
        ctxt1.1.length = xv.length ∧ ctxt1.2.length = yv.length ∧
        (∀ i, ctxt1.1.getD i 0 = ctxt.1.getD i 0 ∨
          (xoff ≤ i ∧ i < xlim ∧ ctxt1.1.getD i 0 = -1)) ∧
        (∀ j, ctxt1.2.getD j 0 = ctxt.2.getD j 0 ∨
          (yoff ≤ j ∧ j < ylim ∧ ctxt1.2.getD j 0 = -1)) ∧
        Path (Deleted ctxt1) (Inserted ctxt1) (Kept xv yv ctxt1) xoff yoff xlim ylim := by
  intro fuel
  induction fuel with
  | zero => intro _ _ _ _ _ _ _ _ _ _ _ h; omega
  | succ fuel ih =>
    intro xoff xlim yoff ylim ctxt hx hy hxl hyl hl1 hl2 hfuel hz1 hz2
    obtain ⟨a, ha, ha1, ha2, ha3⟩ := slide_down_spec xv yv xlim ylim (xlim - xoff) xoff yoff hx hy
    obtain ⟨b, hb, hb1, hb2, hb3⟩ := slide_up_spec xv yv (xoff + a) (yoff + a)
      (xlim - (xoff + a)) xlim ylim ha1 ha2
    -- the pairs passed by the two slides, for a context that agrees with `ctxt` on them
    have hslides : ∀ c : List Int × List Int,
        (∀ i, ¬ (xoff + a ≤ i ∧ i < xlim - b) → c.1.getD i 0 = ctxt.1.getD i 0) →
        (∀ j, ¬ (yoff + a ≤ j ∧ j < ylim - b) → c.2.getD j 0 = ctxt.2.getD j 0) →
        Path (Deleted c) (Inserted c) (Kept xv yv c) xoff yoff (xoff + a) (yoff + a) ∧
        Path (Deleted c) (Inserted c) (Kept xv yv c) (xlim - b) (ylim - b) xlim ylim := by
      intro c hc1 hc2
      constructor
      · apply Path.both_run
        intro t ht
        refine ⟨?_, ?_, ha3 t ht⟩
        · rw [hc1 _ (by omega)]; exact hz1 _ (by omega) (by omega)
        · rw [hc2 _ (by omega)]; exact hz2 _ (by omega) (by omega)
      · have := @Path.both_run (Deleted c) (Inserted c) (Kept xv yv c) b (xlim - b) (ylim - b)
          (by
            intro t ht
            refine ⟨?_, ?_, hb3 t ht⟩
            · rw [hc1 _ (by omega)]; exact hz1 _ (by omega) (by omega)
            · rw [hc2 _ (by omega)]; exact hz2 _ (by omega) (by omega))
        rwa [show xlim - b + b = xlim by omega, show ylim - b + b = ylim by omega] at this
    by_cases h1 : xoff + a = xlim - b
    · -- the rest of FILE2 is inserted
      rw [compareseq_insert diag xv yv fuel xoff xlim yoff ylim ctxt _ _ ha hb h1]
      have hg : ∀ j, (note_range (ylim - b - (yoff + a)) (yoff + a) ctxt.2).getD j 0 =
          if yoff + a ≤ j ∧ j < ylim - b then -1 else ctxt.2.getD j 0 := by
        intro j
        rw [note_range_getD]
        by_cases hj : yoff + a ≤ j ∧ j < ylim - b
        · rw [if_pos hj, if_pos ⟨hj.1, by omega, by omega⟩]
        · rw [if_neg hj, if_neg (fun h => hj ⟨h.1, by omega⟩)]
      refine ⟨_, rfl, hl1, by rw [note_range_length]; exact hl2, fun i => Or.inl rfl, ?_, ?_⟩
      · intro j
        simp only [hg]
        by_cases hj : yoff + a ≤ j ∧ j < ylim - b
        · right; rw [if_pos hj]; exact ⟨by omega, by omega, rfl⟩
        · left; rw [if_neg hj]
      · obtain ⟨p1, p2⟩ := hslides (ctxt.1, note_range (ylim - b - (yoff + a)) (yoff + a) ctxt.2)
          (fun i _ => rfl) (fun j hj => by simp only [hg]; rw [if_neg hj])
        refine p1.append (Path.append ?_ p2)
        have := @Path.ins_run
          (Deleted (ctxt.1, note_range (ylim - b - (yoff + a)) (yoff + a) ctxt.2))
          (Inserted (ctxt.1, note_range (ylim - b - (yoff + a)) (yoff + a) ctxt.2))
          (Kept xv yv (ctxt.1, note_range (ylim - b - (yoff + a)) (yoff + a) ctxt.2))
          (xoff + a) (ylim - b - (yoff + a)) (yoff + a)
          (by
            intro t ht
            show (note_range (ylim - b - (yoff + a)) (yoff + a) ctxt.2).getD _ 0 < 0
            rw [hg, if_pos ⟨by omega, by omega⟩]; omega)
        rw [show yoff + a + (ylim - b - (yoff + a)) = ylim - b by omega] at this
        rw [← h1]; exact this
    · by_cases h2 : yoff + a = ylim - b
      · -- the rest of FILE1 is deleted
        rw [compareseq_delete diag xv yv fuel xoff xlim yoff ylim ctxt _ _ ha hb h1 h2]
        have hg : ∀ i, (note_range (xlim - b - (xoff + a)) (xoff + a) ctxt.1).getD i 0 =
            if xoff + a ≤ i ∧ i < xlim - b then -1 else ctxt.1.getD i 0 := by
          intro i
          rw [note_range_getD]
          by_cases hi : xoff + a ≤ i ∧ i < xlim - b
          · rw [if_pos hi, if_pos ⟨hi.1, by omega, by omega⟩]
          · rw [if_neg hi, if_neg (fun h => hi ⟨h.1, by omega⟩)]
        refine ⟨_, rfl, by rw [note_range_length]; exact hl1, hl2, ?_, fun j => Or.inl rfl, ?_⟩
        · intro i
          simp only [hg]
          by_cases hi : xoff + a ≤ i ∧ i < xlim - b
          · right; rw [if_pos hi]; exact ⟨by omega, by omega, rfl⟩
          · left; rw [if_neg hi]
        · obtain ⟨p1, p2⟩ := hslides
            (note_range (xlim - b - (xoff + a)) (xoff + a) ctxt.1, ctxt.2)
            (fun i hi => by simp only [hg]; rw [if_neg hi]) (fun j _ => rfl)
          refine p1.append (Path.append ?_ p2)
          have := @Path.del_run
            (Deleted (note_range (xlim - b - (xoff + a)) (xoff + a) ctxt.1, ctxt.2))
            (Inserted (note_range (xlim - b - (xoff + a)) (xoff + a) ctxt.1, ctxt.2))
            (Kept xv yv (note_range (xlim - b - (xoff + a)) (xoff + a) ctxt.1, ctxt.2))
            (yoff + a) (xlim - b - (xoff + a)) (xoff + a)
            (by
              intro t ht
              show (note_range (xlim - b - (xoff + a)) (xoff + a) ctxt.1).getD _ 0 < 0
              rw [hg, if_pos ⟨by omega, by omega⟩]; omega)
          rw [show xoff + a + (xlim - b - (xoff + a)) = xlim - b by omega] at this
          rw [← h2]; exact this
      · -- the window is cut at the midpoint
        obtain ⟨d1, d2, d3, d4, d5, d6⟩ := hd (xoff + a) (xlim - b) (yoff + a) (ylim - b)
          (by omega) (by omega) (by omega) (by omega)
        rw [compareseq_split diag xv yv fuel xoff xlim yoff ylim ctxt _ _ _ ha hb h1 h2 rfl]
        generalize diag xv yv (xoff + a) (xlim - b) (yoff + a) (ylim - b) = part at d1 d2 d3 d4 d5 d6
        obtain ⟨c1, e1, l11, l12, f11, f12, q1⟩ := ih (xoff + a) part.1 (yoff + a) part.2 ctxt
          d1 d3 (by omega) (by omega) hl1 hl2 (by omega)
          (fun i h1 h2 => hz1 i (by omega) (by omega))
          (fun j h1 h2 => hz2 j (by omega) (by omega))
        obtain ⟨c2, e2, l21, l22, f21, f22, q2⟩ := ih part.1 (xlim - b) part.2 (ylim - b) c1
          d2 d4 (by omega) (by omega) l11 l12 (by omega)
          (fun i h1 h2 => by
            rcases f11 i with h | ⟨_, h, _⟩
            · rw [h]; exact hz1 i (by omega) (by omega)
            · omega)
          (fun j h1 h2 => by
            rcases f12 j with h | ⟨_, h, _⟩
            · rw [h]; exact hz2 j (by omega) (by omega)
            · omega)
        simp only
        rw [e1]
        simp only
        rw [e2]
        have g1 : ∀ i, c2.1.getD i 0 = ctxt.1.getD i 0 ∨
            (xoff + a ≤ i ∧ i < xlim - b ∧ c2.1.getD i 0 = -1) := by
          intro i
          rcases f21 i with h | ⟨h1, h2, h3⟩
          · rcases f11 i with h' | ⟨h1', h2', h3'⟩
            · left; rw [h, h']
            · right; exact ⟨h1', by omega, by rw [h, h3']⟩
          · right; exact ⟨by omega, h2, h3⟩
        have g2 : ∀ j, c2.2.getD j 0 = ctxt.2.getD j 0 ∨
            (yoff + a ≤ j ∧ j < ylim - b ∧ c2.2.getD j 0 = -1) := by
          intro j
          rcases f22 j with h | ⟨h1, h2, h3⟩
          · rcases f12 j with h' | ⟨h1', h2', h3'⟩
            · left; rw [h, h']
            · right; exact ⟨h1', by omega, by rw [h, h3']⟩
          · right; exact ⟨by omega, h2, h3⟩
        refine ⟨c2, rfl, l21, l22, ?_, ?_, ?_⟩
        · intro i
          rcases g1 i with h | ⟨h1, h2, h3⟩
          · left; exact h
          · right; exact ⟨by omega, by omega, h3⟩
        · intro j
          rcases g2 j with h | ⟨h1, h2, h3⟩
          · left; exact h
          · right; exact ⟨by omega, by omega, h3⟩
        · obtain ⟨p1, p2⟩ := hslides c2
            (fun i hi => by
              rcases g1 i with h | ⟨h1, h2, _⟩
              · exact h
              · exact absurd ⟨h1, h2⟩ hi)
            (fun j hj => by
              rcases g2 j with h | ⟨h1, h2, _⟩
              · exact h
              · exact absurd ⟨h1, h2⟩ hj)
          have q1' : Path (Deleted c2) (Inserted c2) (Kept xv yv c2) (xoff + a) (yoff + a)
              part.1 part.2 := by
            apply q1.mono
            · intro i hi1 hi2 hdel
              unfold Deleted at hdel ⊢
              rcases f21 i with h | ⟨h1, _, _⟩
              · rw [h]; exact hdel
              · omega
            · intro j hj1 hj2 hins
              unfold Inserted at hins ⊢
              rcases f22 j with h | ⟨h1, _, _⟩
              · rw [h]; exact hins
              · omega
            · intro i j hi1 hi2 hj1 hj2 hk
              unfold Kept at hk ⊢
              rcases f21 i with h | ⟨h1, _, _⟩
              · rcases f22 j with h' | ⟨h1', _, _⟩
                · rw [h, h']; exact hk
                · omega
              · omega
          exact p1.append (q1'.append (q2.append p2))

/-! ## Lemmas: the completed arrays of compute_differences -/

theorem skip_marked_spec (marks : List Int) (n : Nat) :
    ∀ (fuel i : Nat), i ≤ n → n - i ≤ fuel →
      i ≤ skip_marked marks n fuel i ∧ skip_marked marks n fuel i ≤ n ∧
      (∀ t, i ≤ t → t < skip_marked marks n fuel i → marks.getD t 0 < 0) ∧
      ¬ (skip_marked marks n fuel i < n ∧ marks.getD (skip_marked marks n fuel i) 0 < 0) := by
  intro fuel
  induction fuel with
  | zero =>
    intro i h1 h2
    simp only [skip_marked]
    exact ⟨le_refl _, h1, fun t h3 h4 => by omega, fun h => by omega⟩
  | succ f ih =>
    intro i h1 h2
    unfold skip_marked
    split_ifs with hc
    · obtain ⟨g1, g2, g3, g4⟩ := ih (i + 1) (by omega) (by omega)
      refine ⟨by omega, g2, ?_, g4⟩
      intro t ht1 ht2
      by_cases hti : t = i
      · rw [hti]; exact hc.2
      · exact g3 t (by omega) ht2
    · exact ⟨le_refl _, h1, fun t h3 h4 => by omega, hc⟩

theorem Path.skip_del {D I : Nat → Prop} {P : Nat → Nat → Prop} {i j i' j' : Nat}
    (h : Path D I P i j i' j') (hlt : i < i') (hno : ∀ y, ¬ P i y) :
    D i → Path D I P (i + 1) j i' j' := by
  induction h with
  | done => omega
  | del _ _ _ _ _ hp _ => intro _; exact hp
  | ins a b c d hi _ ih => intro hd; exact Path.ins _ _ _ _ hi (ih hlt hno hd)
  | both a b c d hb _ _ => intro _; exact absurd hb (hno _)

theorem Path.skip_ins {D I : Nat → Prop} {P : Nat → Nat → Prop} {i j i' j' : Nat}
    (h : Path D I P i j i' j') (hlt : j < j') (hno : ∀ x, ¬ P x j) :
    I j → Path D I P i (j + 1) i' j' := by
  induction h with
  | done => omega
  | ins _ _ _ _ _ hp _ => intro _; exact hp
  | del a b c d hd _ ih => intro hi; exact Path.del _ _ _ _ hd (ih hlt hno hi)
  | both a b c d hb _ _ => intro _; exact absurd hb (hno _)

theorem Path.skip_del_run {D I : Nat → Prop} {P : Nat → Nat → Prop} {j i' j' : Nat} :
    ∀ (c i : Nat), Path D I P i j i' j' → i + c ≤ i' →
      (∀ t, i ≤ t → t < i + c → D t ∧ ∀ y, ¬ P t y) → Path D I P (i + c) j i' j' := by
  intro c
  induction c with
  | zero => intro i h _ _; exact h
  | succ c ih =>
    intro i h hle hall
    have := ih (i + 1) (h.skip_del (by omega) (hall i (le_refl _) (by omega)).2
      (hall i (le_refl _) (by omega)).1) (by omega) (fun t h1 h2 => hall t (by omega) (by omega))
    rwa [show i + 1 + c = i + (c + 1) by omega] at this

theorem Path.skip_ins_run {D I : Nat → Prop} {P : Nat → Nat → Prop} {i i' j' : Nat} :
    ∀ (c j : Nat), Path D I P i j i' j' → j + c ≤ j' →
      (∀ t, j ≤ t → t < j + c → I t ∧ ∀ x, ¬ P x t) → Path D I P i (j + c) i' j' := by
  intro c
  induction c with
  | zero => intro j h _ _; exact h
  | succ c ih =>
    intro j h hle hall
    have := ih (j + 1) (h.skip_ins (by omega) (hall j (le_refl _) (by omega)).2
      (hall j (le_refl _) (by omega)).1) (by omega) (fun t h1 h2 => hall t (by omega) (by omega))
    rwa [show j + 1 + c = j + (c + 1) by omega] at this

/-- At a position where neither entry is marked, a walk goes on with a pair, or is at
its end. -/
theorem Path.at_unmarked {D I : Nat → Prop} {P : Nat → Nat → Prop} {i j i' j' : Nat}
    (h : Path D I P i j i' j') (hd : ¬ D i) (hi : ¬ I j) :
    (i = i' ∧ j = j') ∨ (P i j ∧ Path D I P (i + 1) (j + 1) i' j') := by
  cases h with
  | done => left; exact ⟨rfl, rfl⟩
  | del _ _ _ _ h1 _ => exact absurd h1 hd
  | ins _ _ _ _ h1 _ => exact absurd h1 hi
  | both _ _ _ _ h1 h2 => right; exact ⟨h1, h2⟩

theorem kept_not_deleted (xv yv : List Entry) (ctxt : List Int × List Int) (t : Nat)
    (h : Deleted ctxt t) : ∀ y, ¬ Kept xv yv ctxt t y := by
  intro y hk
  unfold Deleted at h
  unfold Kept at hk
  omega

theorem kept_not_inserted (xv yv : List Entry) (ctxt : List Int × List Int) (t : Nat)
    (h : Inserted ctxt t) : ∀ x, ¬ Kept xv yv ctxt x t := by
  intro x hk
  unfold Inserted at h
  unfold Kept at hk
  omega

/-- The loop of `compute_differences` that completes the two arrays returns, and the
completed arrays describe a walk through the two files in which the entries that are
not marked are mapped to each other, pair by pair, and equal. -/
theorem complete_mapping_path (xv yv : List Entry) :
    ∀ (fuel i j : Nat) (ctxt : List Int × List Int),
      ctxt.1.length = xv.length → ctxt.2.length = yv.length →
      (xv.length - i) + (yv.length - j) < fuel →
      Path (Deleted ctxt) (Inserted ctxt) (Paired xv yv ctxt) 0 0 i j →
      Path (Deleted ctxt) (Inserted ctxt) (Kept xv yv ctxt) i j xv.length yv.length →
      ∃ ctxt1, complete_mapping xv.length yv.length fuel i j ctxt = some ctxt1 ∧
        ctxt1.1.length = xv.length ∧ ctxt1.2.length = yv.length ∧
        (∀ t, ctxt.1.getD t 0 < 0 → ctxt1.1.getD t 0 = ctxt.1.getD t 0) ∧
        (∀ t, ctxt.2.getD t 0 < 0 → ctxt1.2.getD t 0 = ctxt.2.getD t 0) ∧
        Path (Deleted ctxt1) (Inserted ctxt1) (Paired xv yv ctxt1) 0 0 xv.length yv.length := by
  intro fuel
  induction fuel with
  | zero => intro _ _ _ _ _ h; omega
  | succ fuel ih =>
    intro i j ctxt hl1 hl2 hfuel hpre hsuf
    have hle := hsuf.le
    obtain ⟨s1, s2, s3, s4⟩ := skip_marked_spec ctxt.1 xv.length (xv.length - i) i hle.1
      (le_refl _)
    obtain ⟨r1, r2, r3, r4⟩ := skip_marked_spec ctxt.2 yv.length (yv.length - j) j hle.2
      (le_refl _)
    generalize hi1 : skip_marked ctxt.1 xv.length (xv.length - i) i = i1 at s1 s2 s3 s4
    generalize hj1 : skip_marked ctxt.2 yv.length (yv.length - j) j = j1 at r1 r2 r3 r4
    -- the walk after the two runs of marked entries
    have hsuf1 : Path (Deleted ctxt) (Inserted ctxt) (Kept xv yv ctxt) i1 j1
        xv.length yv.length := by
      have a1 := Path.skip_del_run (i1 - i) i hsuf (by omega)
        (fun t h1 h2 => ⟨s3 t h1 (by omega), kept_not_deleted _ _ _ _ (s3 t h1 (by omega))⟩)
      rw [show i + (i1 - i) = i1 by omega] at a1
      have a2 := Path.skip_ins_run (j1 - j) j a1 (by omega)
        (fun t h1 h2 => ⟨r3 t h1 (by omega), kept_not_inserted _ _ _ _ (r3 t h1 (by omega))⟩)
      rwa [show j + (j1 - j) = j1 by omega] at a2
    have hpre1 : Path (Deleted ctxt) (Inserted ctxt) (Paired xv yv ctxt) 0 0 i1 j1 := by
      have a1 := @Path.del_run (Deleted ctxt) (Inserted ctxt) (Paired xv yv ctxt) j (i1 - i) i
        (fun t ht => s3 (i + t) (by omega) (by omega))
      have a2 := @Path.ins_run (Deleted ctxt) (Inserted ctxt) (Paired xv yv ctxt) i1 (j1 - j) j
        (fun t ht => r3 (j + t) (by omega) (by omega))
      rw [show i + (i1 - i) = i1 by omega] at a1
      rw [show j + (j1 - j) = j1 by omega] at a2
      exact hpre.append (a1.append a2)
    have hnd : ¬ Deleted ctxt i1 := by
      intro h
      unfold Deleted at h
      by_cases hlt : i1 < xv.length
      · exact s4 ⟨hlt, h⟩
      · rw [List.getD_eq_getElem?_getD, List.getElem?_eq_none (by omega)] at h
        simp at h
    have hni : ¬ Inserted ctxt j1 := by
      intro h
      unfold Inserted at h
      by_cases hlt : j1 < yv.length
      · exact r4 ⟨hlt, h⟩
      · rw [List.getD_eq_getElem?_getD, List.getElem?_eq_none (by omega)] at h
        simp at h
    unfold complete_mapping
    by_cases hgo : i < xv.length ∨ j < yv.length
    swap
    · rw [if_neg hgo]
      have e1 : i1 = xv.length := by omega
      have e2 : j1 = yv.length := by omega
      have e3 : i = xv.length := by omega
      have e4 : j = yv.length := by omega
      subst e3; subst e4
      exact ⟨ctxt, rfl, hl1, hl2, fun _ _ => rfl, fun _ _ => rfl, hpre⟩
    rw [if_pos hgo]
    simp only [hi1, hj1]
    rcases hsuf1.at_unmarked hnd hni with ⟨e1, e2⟩ | ⟨hk, hrest⟩
    · rw [if_pos (by simp [e1, e2]), if_pos ⟨e1, e2⟩]
      subst e1; subst e2
      exact ⟨ctxt, rfl, hl1, hl2, fun _ _ => rfl, fun _ _ => rfl, hpre1⟩
    · have hle2 := hrest.le
      rw [if_pos (by
        have a : i1 < xv.length := by omega
        have b : j1 < yv.length := by omega
        simp [a, b]), if_neg (by omega)]
      have hch1 : ∀ t, t ≠ i1 → (ctxt.1.set i1 (j1 : Int)).getD t 0 = ctxt.1.getD t 0 := by
        intro t ht
        rw [getD_set_int, if_neg (fun h => ht h.1.symm)]
      have hch2 : ∀ t, t ≠ j1 → (ctxt.2.set j1 (i1 : Int)).getD t 0 = ctxt.2.getD t 0 := by
        intro t ht
        rw [getD_set_int, if_neg (fun h => ht h.1.symm)]
      have hset1 : (ctxt.1.set i1 (j1 : Int)).getD i1 0 = (j1 : Int) := by
        rw [getD_set_int, if_pos ⟨rfl, by omega⟩]
      have hset2 : (ctxt.2.set j1 (i1 : Int)).getD j1 0 = (i1 : Int) := by
        rw [getD_set_int, if_pos ⟨rfl, by omega⟩]
      obtain ⟨c1, e, l1, l2, m1, m2, pfin⟩ := ih (i1 + 1) (j1 + 1)
        (ctxt.1.set i1 (j1 : Int), ctxt.2.set j1 (i1 : Int))
        (by simpa using hl1) (by simpa using hl2) (by omega)
        (by
          refine Path.append (hpre1.mono ?_ ?_ ?_) (Path.both _ _ _ _ ⟨hset1, hset2, hk.2.2⟩
            (Path.done _ _))
          · intro t _ ht h
            unfold Deleted at h ⊢
            show (ctxt.1.set i1 (j1 : Int)).getD t 0 < 0
            rw [hch1 t (by omega)]; exact h
          · intro t _ ht h
            unfold Inserted at h ⊢
            show (ctxt.2.set j1 (i1 : Int)).getD t 0 < 0
            rw [hch2 t (by omega)]; exact h
          · intro a b _ ha _ hb h
            unfold Paired at h ⊢
            show (ctxt.1.set i1 (j1 : Int)).getD a 0 = _ ∧
              (ctxt.2.set j1 (i1 : Int)).getD b 0 = _ ∧ _
            rw [hch1 a (by omega), hch2 b (by omega)]; exact h)
        (by
          apply hrest.mono
          · intro t ht _ h
            unfold Deleted at h ⊢
            show (ctxt.1.set i1 (j1 : Int)).getD t 0 < 0
            rw [hch1 t (by omega)]; exact h
          · intro t ht _ h
            unfold Inserted at h ⊢
            show (ctxt.2.set j1 (i1 : Int)).getD t 0 < 0
            rw [hch2 t (by omega)]; exact h
          · intro a b ha _ hb _ h
            unfold Kept at h ⊢
            show (ctxt.1.set i1 (j1 : Int)).getD a 0 ≥ 0 ∧
              (ctxt.2.set j1 (i1 : Int)).getD b 0 ≥ 0 ∧ _
            rw [hch1 a (by omega), hch2 b (by omega)]; exact h)
      refine ⟨c1, e, l1, l2, ?_, ?_, pfin⟩
      · intro t ht
        have hti : t ≠ i1 := by
          intro h; subst h
          exact hnd ht
        rw [m1 t (by show (ctxt.1.set i1 (j1 : Int)).getD t 0 < 0; rw [hch1 t hti]; exact ht)]
        exact hch1 t hti
      · intro t ht
        have htj : t ≠ j1 := by
          intro h; subst h
          exact hni ht
        rw [m2 t (by show (ctxt.2.set j1 (i1 : Int)).getD t 0 < 0; rw [hch2 t htj]; exact ht)]
        exact hch2 t htj

/-! ## Lemmas: the result list as a prefix and the untouched slots -/

theorem initial_result_eq_suffix (mainstream_file : List Entry) :
    initial_result mainstream_file = suffix_nodes mainstream_file 0 := by
  unfold initial_result suffix_nodes
  rw [List.range_eq_range']
  rfl

theorem suffix_nodes_cons (mainstream_file : List Entry) (i : Nat)
    (h : i < mainstream_file.length) :
    suffix_nodes mainstream_file i =
      { slot := some i, value := mainstream_file.getD i [] } ::
        suffix_nodes mainstream_file (i + 1) := by
  unfold suffix_nodes
  rw [show mainstream_file.length - i = (mainstream_file.length - (i + 1)) + 1 by omega,
    List.range'_succ, List.map_cons]

theorem suffix_nodes_end (mainstream_file : List Entry) (i : Nat)
    (h : mainstream_file.length ≤ i) : suffix_nodes mainstream_file i = [] := by
  unfold suffix_nodes
  rw [show mainstream_file.length - i = 0 by omega]
  rfl

theorem suffix_nodes_slot (mainstream_file : List Entry) (i : Nat) :
    ∀ n ∈ suffix_nodes mainstream_file i, ∀ k, n.slot = some k → i ≤ k := by
  intro n hn k hk
  unfold suffix_nodes at hn
  simp only [List.mem_map, List.mem_range'_1] at hn
  obtain ⟨a, ha, rfl⟩ := hn
  simp only [Option.some.injEq] at hk
  omega

theorem set_value_untouched (list : List node) (k : Nat) (elt : Entry)
    (h : ∀ n ∈ list, n.slot ≠ some k) : gl_list_node_set_value list k elt = list := by
  unfold gl_list_node_set_value
  conv_rhs => rw [← List.map_id list]
  apply List.map_congr_left
  intro n hn
  rw [if_neg (h n hn)]; rfl

theorem set_value_at (pre post : List node) (k : Nat) (old elt : Entry)
    (h1 : ∀ n ∈ pre, n.slot ≠ some k) (h2 : ∀ n ∈ post, n.slot ≠ some k) :
    gl_list_node_set_value (pre ++ { slot := some k, value := old } :: post) k elt =
      pre ++ { slot := some k, value := elt } :: post := by
  have e1 := set_value_untouched pre k elt h1
  have e2 := set_value_untouched post k elt h2
  unfold gl_list_node_set_value at e1 e2 ⊢
  rw [List.map_append, List.map_cons, e1, e2]
  simp

theorem add_before_at (pre post : List node) (k : Nat) (old elt : Entry)
    (h1 : ∀ n ∈ pre, n.slot ≠ some k) :
    gl_list_add_before (pre ++ { slot := some k, value := old } :: post) k elt =
      pre ++ { slot := none, value := elt } :: { slot := some k, value := old } :: post := by
  induction pre with
  | nil => simp [gl_list_add_before]
  | cons n rest ih =>
    have hn : n.slot ≠ some k := h1 n (by simp)
    rw [List.cons_append, gl_list_add_before, if_neg hn, ih (fun m hm => h1 m (by simp [hm]))]
    rfl

/-- Setting the slots `i .. i + count - 1` of a list that continues with the initial
nodes of these slots. -/
theorem set_slots_suffix (mainstream_file : List Entry) (val : Nat → Entry) :
    ∀ (count i : Nat) (pre : List node), i + count ≤ mainstream_file.length →
      (∀ n ∈ pre, ∀ k, n.slot = some k → k < i) →
      set_slots val count i (pre ++ suffix_nodes mainstream_file i) =
        pre ++ slot_nodes val count i ++ suffix_nodes mainstream_file (i + count) := by
  intro count
  induction count with
  | zero => intro i pre _ _; simp [set_slots, slot_nodes]
  | succ c ih =>
    intro i pre hle hpre
    unfold set_slots
    rw [suffix_nodes_cons _ _ (by omega), set_value_at _ _ _ _ _
      (fun n hn h => by have := hpre n hn i h; omega)
      (fun n hn h => by have := suffix_nodes_slot _ _ n hn i h; omega)]
    have := ih (i + 1) (pre ++ [{ slot := some i, value := val i }]) (by omega) (by
      intro n hn k hk
      rcases List.mem_append.mp hn with h | h
      · have := hpre n h k hk; omega
      · simp only [List.mem_singleton] at h
        subst h
        simp only [Option.some.injEq] at hk
        omega)
    simp only [List.append_assoc, List.singleton_append] at this
    rw [this]
    unfold slot_nodes
    rw [List.range'_succ, List.map_cons]
    simp [Nat.add_assoc, Nat.add_comm 1 c]

theorem spec_insert_before_at (pre post new : List node) (k : Nat) (old : Entry)
    (h1 : ∀ n ∈ pre, n.slot ≠ some k) :
    spec_insert_before (pre ++ { slot := some k, value := old } :: post) k new =
      pre ++ new ++ { slot := some k, value := old } :: post := by
  induction pre with
  | nil => simp [spec_insert_before]
  | cons n rest ih =>
    have hn : n.slot ≠ some k := h1 n (by simp)
    rw [List.cons_append, spec_insert_before, if_neg hn, ih (fun m hm => h1 m (by simp [hm]))]
    rfl

/-- A file up to entry `j + c` is the file up to entry `j` and the next `c` entries. -/
theorem take_add_range (file : List Entry) (j : Nat) :
    ∀ c, j + c ≤ file.length →
      file.take (j + c) = file.take j ++ (List.range' j c).map (fun k => file.getD k []) := by
  intro c
  induction c with
  | zero => intro _; simp
  | succ c ih =>
    intro h
    rw [← Nat.add_assoc, List.take_succ, ih (by omega), List.range'_concat, List.map_append,
      List.append_assoc]
    congr 1
    congr 1
    have hlt : j + c < file.length := by omega
    simp [List.getD_eq_getElem?_getD, List.getElem?_eq_getElem hlt]

theorem slot_nodes_values (val : Nat → Entry) (count i : Nat) :
    (slot_nodes val count i).map node.value = (List.range' i count).map val := by
  unfold slot_nodes
  rw [List.map_map]
  rfl

theorem slot_nodes_slot (val : Nat → Entry) (count i : Nat) :
    ∀ n ∈ slot_nodes val count i, ∀ k, n.slot = some k → k < i + count := by
  intro n hn k hk
  unfold slot_nodes at hn
  simp only [List.mem_map, List.mem_range'_1] at hn
  obtain ⟨a, ha, rfl⟩ := hn
  simp only [Option.some.injEq] at hk
  omega

theorem flatten_empty_values (count i : Nat) :
    ((List.range' i count).map (fun _ => empty_entry)).flatten = [] := by
  induction count generalizing i with
  | zero => rfl
  | succ c ih => rw [List.range'_succ, List.map_cons, List.flatten_cons, ih]; rfl

theorem range_map_shift (file : List Entry) (i1 i2 j2 j count : Nat)
    (h1 : i2 ≤ i1 + j2) (h2 : j = i1 + j2 - i2) :
    (List.range' i1 count).map (fun k => file.getD (k + j2 - i2) []) =
      (List.range' j count).map (fun k => file.getD k []) := by
  rw [List.range'_eq_map_range, List.range'_eq_map_range, List.map_map, List.map_map]
  apply List.map_congr_left
  intro t _
  simp only [Function.comp]
  rw [show i1 + t + j2 - i2 = j + t by omega]

/-! ## Lemmas: the loops of main when mainstream is the ancestor -/

theorem get_identity (fstrcmp_bounded : Fstrcmp) (file : List Entry) (i : Nat)
    (h : i < file.length) :
    entries_mapping_get fstrcmp_bounded (identity_entries_mapping file) i =
      ((i : Int), identity_entries_mapping file) := by
  have hv : (identity_entries_mapping file).index_mapping.getD i 0 = (i : Int) :=
    identity_mapping_getD file.length i h
  rw [entries_mapping_get_bound _ _ _ (by rw [hv]; omega), hv]

theorem apply_removal_identity (fstrcmp_bounded : Fstrcmp) (file : List Entry)
    (cs : List conflict) :
    ∀ (count i : Nat) (list : List node), i + count ≤ file.length →
      apply_removal fstrcmp_bounded file file count i
        { mapping := identity_entries_mapping file, result_entries := list,
          result_conflicts := cs } =
        { mapping := identity_entries_mapping file,
          result_entries := set_slots (fun _ => empty_entry) count i list,
          result_conflicts := cs } := by
  intro count
  induction count with
  | zero => intro i list _; rfl
  | succ c ih =>
    intro i list h
    unfold apply_removal removal_step
    simp only [get_identity fstrcmp_bounded file i (by omega), Int.toNat_ofNat,
      entry_equals_self, Int.natCast_nonneg, ge_iff_le, and_self, if_true]
    rw [ih (i + 1) _ (by omega)]
    rfl

theorem top_changes_identity (fstrcmp_bounded : Fstrcmp) (file modified_file : List Entry)
    (i2 j2 : Nat) (cs : List conflict) :
    ∀ (count j : Nat) (list : List node), j2 ≤ j + i2 → j + i2 - j2 + count ≤ file.length →
      top_changes fstrcmp_bounded file file modified_file i2 j2 count j
        { mapping := identity_entries_mapping file, result_entries := list,
          result_conflicts := cs } =
        some { mapping := identity_entries_mapping file,
               result_entries :=
                 set_slots (fun k => modified_file.getD (k + j2 - i2) []) count (j + i2 - j2) list,
               result_conflicts := cs } := by
  intro count
  induction count with
  | zero => intro j list _ _; rfl
  | succ c ih =>
    intro j list h1 h2
    unfold top_changes
    simp only [get_identity fstrcmp_bounded file (j + i2 - j2) (by omega), Int.toNat_ofNat,
      entry_equals_self, Int.natCast_nonneg, ge_iff_le, and_self, if_true]
    rw [ih (j + 1) _ (by omega) (by omega)]
    conv_rhs => rw [set_slots]
    rw [show j + i2 - j2 + j2 - i2 = j by omega, show j + 1 + i2 - j2 = j + i2 - j2 + 1 by omega]

theorem linear_changes_identity (fstrcmp_bounded : Fstrcmp) (file modified_file : List Entry)
    (i2 j2 : Nat) (cs : List conflict) :
    ∀ (count j : Nat) (list : List node), j2 ≤ j + i2 → j + i2 - j2 + count ≤ file.length →
      linear_changes fstrcmp_bounded file file modified_file i2 j2 count j
        { mapping := identity_entries_mapping file, result_entries := list,
          result_conflicts := cs } =
        some { mapping := identity_entries_mapping file,
               result_entries :=
                 set_slots (fun k => modified_file.getD (k + j2 - i2) []) count (j + i2 - j2) list,
               result_conflicts := cs } := by
  intro count
  induction count with
  | zero => intro j list _ _; rfl
  | succ c ih =>
    intro j list h1 h2
    unfold linear_changes
    simp only [get_identity fstrcmp_bounded file (j + i2 - j2) (by omega), Int.toNat_ofNat,
      entry_equals_self, Int.natCast_nonneg, ge_iff_le, not_true_eq_false, if_false, if_true]
    rw [ih (j + 1) _ (by omega) (by omega)]
    conv_rhs => rw [set_slots]
    rw [show j + i2 - j2 + j2 - i2 = j by omega, show j + 1 + i2 - j2 = j + i2 - j2 + 1 by omega]

theorem empty_slots_identity (fstrcmp_bounded : Fstrcmp) (file : List Entry)
    (cs : List conflict) :
    ∀ (count i : Nat) (list : List node), i + count ≤ file.length →
      empty_slots fstrcmp_bounded file file count i
        { mapping := identity_entries_mapping file, result_entries := list,
          result_conflicts := cs } =
        some { mapping := identity_entries_mapping file,
               result_entries := set_slots (fun _ => empty_entry) count i list,
               result_conflicts := cs } := by
  intro count
  induction count with
  | zero => intro i list _; rfl
  | succ c ih =>
    intro i list h
    unfold empty_slots
    simp only [get_identity fstrcmp_bounded file i (by omega), Int.toNat_ofNat,
      entry_equals_self, Int.natCast_nonneg, ge_iff_le, and_self, if_true]
    rw [ih (i + 1) _ (by omega)]
    rfl

theorem linear_test_identity (fstrcmp_bounded : Fstrcmp) (file : List Entry) (i_before : Nat) :
    ∀ (count i : Nat), i_before ≤ i → i + count ≤ file.length →
      linear_test fstrcmp_bounded i_before (i_before : Int) count i
        (identity_entries_mapping file) = (true, identity_entries_mapping file) := by
  intro count
  induction count with
  | zero => intro i _ _; rfl
  | succ c ih =>
    intro i h1 h2
    unfold linear_test
    simp only [get_identity fstrcmp_bounded file i (by omega)]
    rw [if_neg (by simp), ih (i + 1) (by omega) (by omega)]

theorem unchanged_test_identity (fstrcmp_bounded : Fstrcmp) (file : List Entry)
    (i_first : Nat) :
    ∀ (count i : Nat), i_first ≤ i → i + count ≤ file.length →
      unchanged_test fstrcmp_bounded file file i_first (i_first : Int) count i
        (identity_entries_mapping file) = (true, identity_entries_mapping file) := by
  intro count
  induction count with
  | zero => intro i _ _; rfl
  | succ c ih =>
    intro i h1 h2
    unfold unchanged_test
    simp only [get_identity fstrcmp_bounded file i (by omega), Int.toNat_ofNat,
      entry_equals_self, if_true]
    rw [if_pos (by omega), ih (i + 1) (by omega) (by omega)]

/-! ## Lemmas: the edits when mainstream is the ancestor -/

theorem passThrough_state (file modified_file : List Entry) (i j : Nat) (st : merge_state)
    (h : PassThrough file modified_file i j st) :
    ∃ pre, st = { mapping := identity_entries_mapping file,
                  result_entries := pre ++ suffix_nodes file i, result_conflicts := [] } ∧
      (∀ n ∈ pre, ∀ k, n.slot = some k → k < i) ∧
      (pre.map node.value).flatten = (modified_file.take j).flatten := by
  obtain ⟨hm, hc, pre, hr, hs, hb⟩ := h
  refine ⟨pre, ?_, hs, hb⟩
  cases st with
  | mk m r c =>
    simp only at hm hc hr
    rw [hm, hc, hr]

theorem new_nodes_values (modified_file : List Entry) (j count : Nat) :
    ((List.range' j count).map
      (fun j => ({ slot := none, value := modified_file.getD j [] } : node))).map node.value =
      (List.range' j count).map (fun k => modified_file.getD k []) := by
  rw [List.map_map]
  rfl

/-- A pair of equal entries that the edit script passes over. -/
theorem passThrough_match (file modified_file : List Entry) (i j : Nat) (st : merge_state)
    (h : PassThrough file modified_file i j st) (hi : i < file.length)
    (hj : j < modified_file.length) (heq : file.getD i [] = modified_file.getD j []) :
    PassThrough file modified_file (i + 1) (j + 1) st := by
  obtain ⟨hm, hc, pre, hr, hs, hb⟩ := h
  refine ⟨hm, hc, pre ++ [{ slot := some i, value := file.getD i [] }], ?_, ?_, ?_⟩
  · rw [hr, suffix_nodes_cons _ _ hi]; simp
  · intro n hn k hk
    rcases List.mem_append.mp hn with h1 | h1
    · have := hs n h1 k hk; omega
    · simp only [List.mem_singleton] at h1
      subst h1
      simp only [Option.some.injEq] at hk
      omega
  · rw [List.map_append, List.flatten_append, hb, take_add_range modified_file j 1 (by omega),
      List.flatten_append, heq]
    simp

/-- The case REMOVAL when the mainstream file is the ancestor file. -/
theorem passThrough_removal (fstrcmp_bounded : Fstrcmp) (file modified_file : List Entry)
    (diffs : differences) (i1 i2 j : Nat) (st : merge_state)
    (h : PassThrough file modified_file i1 j st) (h1 : i1 ≤ i2) (h2 : i2 < file.length) :
    ∃ st1, apply_edit fstrcmp_bounded file file modified_file diffs (edit.REMOVAL i1 i2) st
        = some st1 ∧ PassThrough file modified_file (i2 + 1) j st1 := by
  obtain ⟨pre, hst, hs, hb⟩ := passThrough_state _ _ _ _ _ h
  refine ⟨_, rfl, ?_⟩
  rw [hst, apply_removal_identity _ _ _ _ _ _ (by omega), set_slots_suffix _ _ _ _ _ (by omega) hs]
  refine ⟨rfl, rfl, pre ++ slot_nodes (fun _ => empty_entry) (i2 + 1 - i1) i1, ?_, ?_, ?_⟩
  · show _ = _
    rw [show i1 + (i2 + 1 - i1) = i2 + 1 by omega]
  · intro n hn k hk
    rcases List.mem_append.mp hn with h3 | h3
    · have := hs n h3 k hk; omega
    · have := slot_nodes_slot _ _ _ n h3 k hk; omega
  · rw [List.map_append, List.flatten_append, slot_nodes_values, flatten_empty_values,
      List.append_nil, hb]

/-- The case ADDITION when the mainstream file is the ancestor file. -/
theorem passThrough_addition (fstrcmp_bounded : Fstrcmp) (file modified_file : List Entry)
    (diffs : differences) (i j1 j2 : Nat) (st : merge_state)
    (h : PassThrough file modified_file i j1 st) (hi : i ≤ file.length)
    (h1 : j1 ≤ j2) (h2 : j2 < modified_file.length)
    (hbefore : 0 < j1 → 0 < i ∧
      diffs.index_mapping_reverse.getD (j1 - 1) 0 = ((i - 1 : Nat) : Int))
    (hafter : 0 < j1 → (if j2 + 1 = modified_file.length then (file.length : Int)
      else diffs.index_mapping_reverse.getD (j2 + 1) 0) = (i : Int)) :
    ∃ st1, apply_edit fstrcmp_bounded file file modified_file diffs (edit.ADDITION j1 j2) st
        = some st1 ∧ PassThrough file modified_file i (j2 + 1) st1 := by
  obtain ⟨pre, hst, hs, hb⟩ := passThrough_state _ _ _ _ _ h
  have hbytes : ∀ pre1 : List node, (pre1.map node.value).flatten =
      (pre.map node.value).flatten ++
        ((List.range' j1 (j2 + 1 - j1)).map (fun k => modified_file.getD k [])).flatten →
      (pre1.map node.value).flatten = (modified_file.take (j2 + 1)).flatten := by
    intro pre1 hp
    have e := take_add_range modified_file j1 (j2 + 1 - j1) (by omega)
    rw [show j1 + (j2 + 1 - j1) = j2 + 1 by omega] at e
    rw [hp, hb, e, List.flatten_append]
  by_cases hj1 : j1 = 0
  · subst hj1
    refine ⟨_, by
      show apply_addition _ _ _ _ _ _ _ _ = _
      unfold apply_addition
      rw [if_pos rfl], ?_⟩
    rw [hst]
    simp only [add_first_desc_eq]
    refine ⟨rfl, rfl, (List.range (j2 + 1 - 0)).map
      (fun d => ({ slot := none, value := modified_file.getD (0 + d) [] } : node)) ++ pre,
      by simp, ?_, ?_⟩
    · intro n hn k hk
      rcases List.mem_append.mp hn with h3 | h3
      · simp only [List.mem_map] at h3
        obtain ⟨a, _, rfl⟩ := h3
        simp at hk
      · exact hs n h3 k hk
    · have h0 : (pre.map node.value).flatten = [] := by rw [hb]; rfl
      apply hbytes
      rw [List.map_append, List.flatten_append, h0, List.append_nil, List.nil_append,
        List.range'_eq_map_range, List.map_map, List.map_map]
      rfl
  · have hpos : 0 < j1 := by omega
    obtain ⟨hi0, hbef⟩ := hbefore hpos
    have haft := hafter hpos
    have hrb : entries_mapping_get fstrcmp_bounded st.mapping (i - 1) =
        (((i - 1 : Nat) : Int), identity_entries_mapping file) := by
      rw [hst]; exact get_identity _ _ _ (by omega)
    have hra : (if (i - 1) + 1 = file.length then
          ((file.length : Int), ((((i - 1 : Nat) : Int), identity_entries_mapping file) :
            Int × entries_mapping).2)
        else entries_mapping_get fstrcmp_bounded
          ((((i - 1 : Nat) : Int), identity_entries_mapping file) : Int × entries_mapping).2
          ((i - 1) + 1)) = ((i : Int), identity_entries_mapping file) := by
      split_ifs with hc
      · rw [show (file.length : Int) = (i : Int) by omega]
      · rw [show i - 1 + 1 = i by omega]
        exact get_identity _ _ _ (by omega)
    have key := apply_addition_interior fstrcmp_bounded file file modified_file diffs j1 j2
      (i - 1) st _ _ hpos hbef (by rw [haft]; omega) hrb hra
    refine ⟨_, key, ?_⟩
    rw [if_pos ⟨by omega, by omega, by simp only []; omega⟩]
    simp only [hst]
    by_cases hend : i = file.length
    · rw [if_pos (show (i : Int) = (file.length : Int) by omega)]
      refine ⟨rfl, rfl, pre ++ spec_new_nodes modified_file j1 j2, ?_, ?_, ?_⟩
      · show _ ++ _ ++ _ = _
        rw [suffix_nodes_end _ _ (by omega)]; simp
      · intro n hn k hk
        rcases List.mem_append.mp hn with h3 | h3
        · exact hs n h3 k hk
        · unfold spec_new_nodes at h3
          simp only [List.mem_map] at h3
          obtain ⟨a, _, rfl⟩ := h3
          simp at hk
      · apply hbytes
        unfold spec_new_nodes
        rw [List.map_append, List.flatten_append, new_nodes_values]
    · rw [if_neg (show ¬ (i : Int) = (file.length : Int) by omega)]
      refine ⟨rfl, rfl, pre ++ spec_new_nodes modified_file j1 j2, ?_, ?_, ?_⟩
      · show spec_insert_before _ _ _ = _
        rw [Int.toNat_ofNat, suffix_nodes_cons _ _ (by omega),
          spec_insert_before_at _ _ _ _ _ (fun n hn hk => by have := hs n hn i hk; omega)]
      · intro n hn k hk
        rcases List.mem_append.mp hn with h3 | h3
        · exact hs n h3 k hk
        · unfold spec_new_nodes at h3
          simp only [List.mem_map] at h3
          obtain ⟨a, _, rfl⟩ := h3
          simp at hk
      · apply hbytes
        unfold spec_new_nodes
        rw [List.map_append, List.flatten_append, new_nodes_values]

theorem change_simple_merged_declined (fstrcmp_bounded : Fstrcmp)
    (ancestor_file mainstream_file modified_file : List Entry) (i1 i2 j1 j2 : Nat)
    (st : merge_state)
    (h : split_declined fstrcmp_bounded ancestor_file modified_file i1 i2 j1 j2) :
    change_simple_merged fstrcmp_bounded ancestor_file mainstream_file modified_file
      i1 i2 j1 j2 st = some (false, st) := by
  unfold change_simple_merged
  by_cases hc : j1 = 0 ∧ i2 - i1 ≤ j2 - j1
  · rw [if_pos hc]
    rcases h with h | h | ⟨h3, h4⟩
    · exact absurd hc h
    · rw [h]
    · cases hs : try_split_merged_entry fstrcmp_bounded (ancestor_file.getD i1 [])
        (modified_file.getD (i1 + j2 - i2) []) with
      | none => rw [hs] at h3; simp at h3
      | some r =>
        cases r with
        | none => rfl
        | some split => simp only [h4, Bool.false_eq_true, if_false]
  · rw [if_neg hc]

theorem add_before_desc_one (modified_file : List Entry) (j1 k : Nat) (list : List node) :
    add_before_desc modified_file j1 k 1 list =
      gl_list_add_before list k (modified_file.getD j1 []) := by
  simp [add_before_desc]

/-- A simple change at the top of the modified file, when the mainstream file is the
ancestor file. -/
theorem change_top_identity (fstrcmp_bounded : Fstrcmp) (file modified_file : List Entry)
    (diffs : differences) (i1 i2 j1 j2 : Nat) (list : List node)
    (hsimple : i2 - i1 ≤ j2 - j1 ∧
      all_similar fstrcmp_bounded file modified_file i2 j2 (i2 + 1 - i1) i1 = true)
    (hj1 : j1 = 0) (h1 : i1 ≤ i2) (h2 : i2 < file.length) :
    change_simple_or_big fstrcmp_bounded file file modified_file diffs i1 i2 j1 j2
        { mapping := identity_entries_mapping file, result_entries := list,
          result_conflicts := [] } =
      some (true,
        { mapping := identity_entries_mapping file,
          result_entries :=
            set_slots (fun k => modified_file.getD (k + j2 - i2) []) (i2 + 1 - i1) i1
              (add_first_desc modified_file j1 ((j2 - j1) - (i2 - i1)) list),
          result_conflicts := [] }) := by
  unfold change_simple_or_big
  rw [if_pos hsimple]
  dsimp only
  rw [if_pos hj1]
  have hle := hsimple.1
  have e1 : j2 - j1 + 1 - (i2 - i1 + 1) = (j2 - j1) - (i2 - i1) := by omega
  rw [e1, top_changes_identity _ _ _ _ _ _ _ _ _ (by omega) (by omega)]
  dsimp only
  rw [show j1 + (j2 - j1 - (i2 - i1)) + i2 - j2 = i1 by omega,
    show j2 + 1 - (j1 + (j2 - j1 - (i2 - i1))) = i2 + 1 - i1 by omega]

/-- A simple change in the interior of the modified file, when the mainstream file is
the ancestor file. -/
theorem change_linear_identity (fstrcmp_bounded : Fstrcmp) (file modified_file : List Entry)
    (diffs : differences) (i1 i2 j1 j2 : Nat) (list : List node)
    (hsimple : i2 - i1 ≤ j2 - j1 ∧
      all_similar fstrcmp_bounded file modified_file i2 j2 (i2 + 1 - i1) i1 = true)
    (hj1 : 0 < j1) (h0 : 0 < i1) (h1 : i1 ≤ i2) (h2 : i2 < file.length) (h3 : j1 ≤ j2)
    (hbefore : diffs.index_mapping_reverse.getD (j1 - 1) 0 = ((i1 - 1 : Nat) : Int)) :
    change_simple_or_big fstrcmp_bounded file file modified_file diffs i1 i2 j1 j2
        { mapping := identity_entries_mapping file, result_entries := list,
          result_conflicts := [] } =
      some (true,
        { mapping := identity_entries_mapping file,
          result_entries :=
            set_slots (fun k => modified_file.getD (k + j2 - i2) []) (i2 + 1 - i1) i1
              (add_before_desc modified_file j1 i1 ((j2 - j1) - (i2 - i1)) list),
          result_conflicts := [] }) := by
  unfold change_simple_or_big
  rw [if_pos hsimple]
  dsimp only
  rw [if_neg (by omega), hbefore, if_neg (by omega), Int.toNat_ofNat,
    get_identity _ _ _ (by omega)]
  dsimp only
  have hle := hsimple.1
  have e1 : j2 - j1 + 1 - (i2 - i1 + 1) = (j2 - j1) - (i2 - i1) := by omega
  rw [if_pos (show ((i1 - 1 : Nat) : Int) ≥ 0 by omega),
    linear_test_identity _ _ _ _ _ (by omega) (by omega)]
  dsimp only
  rw [if_pos rfl, e1, linear_changes_identity _ _ _ _ _ _ _ _ _ (by omega) (by omega)]
  dsimp only
  rw [show j1 + (j2 - j1 - (i2 - i1)) + i2 - j2 = i1 by omega,
    show j2 + 1 - (j1 + (j2 - j1 - (i2 - i1))) = i2 + 1 - i1 by omega,
    show (((i1 - 1 : Nat) : Int) + 1).toNat = i1 by omega]

/-- A change that is not simple, when the mainstream file is the ancestor file. -/
theorem change_big_identity (fstrcmp_bounded : Fstrcmp) (file modified_file : List Entry)
    (diffs : differences) (i1 i2 j1 j2 : Nat) (list : List node)
    (hbig : ¬ (i2 - i1 ≤ j2 - j1 ∧
      all_similar fstrcmp_bounded file modified_file i2 j2 (i2 + 1 - i1) i1 = true))
    (h1 : i1 ≤ i2) (h2 : i2 < file.length) :
    change_simple_or_big fstrcmp_bounded file file modified_file diffs i1 i2 j1 j2
        { mapping := identity_entries_mapping file, result_entries := list,
          result_conflicts := [] } =
      some (true,
        { mapping := identity_entries_mapping file,
          result_entries :=
            set_slots (fun _ => empty_entry) (i2 + 1 - i1) i1
              (add_before_desc modified_file j1 i1 (j2 + 1 - j1) list),
          result_conflicts := [] }) := by
  unfold change_simple_or_big
  rw [if_neg hbig]
  dsimp only
  rw [get_identity _ _ _ (by omega)]
  dsimp only
  rw [Int.toNat_ofNat, if_pos (show (i1 : Int) ≥ 0 ∧
      entry_equals (file.getD i1 []) (file.getD i1 []) = true from
        ⟨by omega, entry_equals_self _⟩),
    unchanged_test_identity _ _ _ _ _ (by omega) (by omega)]
  dsimp only
  rw [if_pos rfl, empty_slots_identity _ _ _ _ _ _ (by omega)]

/-- The state after a loop that sets the slots `i .. i + c - 1`, when the values set
are the bytes of the next `d` modified entries. -/
theorem passThrough_set_slots (file modified_file : List Entry) (i j c d : Nat)
    (pre : List node) (val : Nat → Entry)
    (hs : ∀ n ∈ pre, ∀ k, n.slot = some k → k < i)
    (hb : (pre.map node.value).flatten = (modified_file.take j).flatten)
    (hc : i + c ≤ file.length) (hd : j + d ≤ modified_file.length)
    (hval : ((List.range' i c).map val).flatten =
      ((List.range' j d).map (fun k => modified_file.getD k [])).flatten) :
    PassThrough file modified_file (i + c) (j + d)
      { mapping := identity_entries_mapping file,
        result_entries := set_slots val c i (pre ++ suffix_nodes file i),
        result_conflicts := [] } := by
  refine ⟨rfl, rfl, pre ++ slot_nodes val c i, ?_, ?_, ?_⟩
  · show set_slots _ _ _ _ = _
    rw [set_slots_suffix _ _ _ _ _ hc hs]
  · intro n hn k hk
    rcases List.mem_append.mp hn with h3 | h3
    · have := hs n h3 k hk; omega
    · exact slot_nodes_slot _ _ _ n h3 k hk
  · rw [List.map_append, List.flatten_append, slot_nodes_values, hb, hval,
      take_add_range modified_file j d hd, List.flatten_append]

/-- One new node for the modified entry `j` after the prefix of the result list. -/
theorem prefix_add_one (modified_file : List Entry) (i j : Nat) (pre : List node)
    (hs : ∀ n ∈ pre, ∀ k, n.slot = some k → k < i)
    (hb : (pre.map node.value).flatten = (modified_file.take j).flatten)
    (hj : j < modified_file.length) :
    (∀ n ∈ pre ++ [({ slot := none, value := modified_file.getD j [] } : node)],
      ∀ k, n.slot = some k → k < i) ∧
    ((pre ++ [({ slot := none, value := modified_file.getD j [] } : node)]).map
      node.value).flatten = (modified_file.take (j + 1)).flatten := by
  constructor
  · intro n hn k hk
    rcases List.mem_append.mp hn with h3 | h3
    · exact hs n h3 k hk
    · simp only [List.mem_singleton] at h3
      subst h3
      simp at hk
  · rw [List.map_append, List.flatten_append, hb, take_add_range modified_file j 1 (by omega),
      List.flatten_append]
    simp

/-- The case CHANGE when the mainstream file is the ancestor file, for a CHANGE that
is a plain edit. -/
theorem passThrough_change (fstrcmp_bounded : Fstrcmp) (file modified_file : List Entry)
    (diffs : differences) (i1 i2 j1 j2 : Nat) (st : merge_state)
    (h : PassThrough file modified_file i1 j1 st)
    (h1 : i1 ≤ i2) (h2 : i2 < file.length) (h3 : j1 ≤ j2) (h4 : j2 < modified_file.length)
    (hbefore : 0 < j1 → 0 < i1 ∧
      diffs.index_mapping_reverse.getD (j1 - 1) 0 = ((i1 - 1 : Nat) : Int))
    (hplain : plain_edit fstrcmp_bounded file modified_file (edit.CHANGE i1 i2 j1 j2)) :
    ∃ st1, apply_edit fstrcmp_bounded file file modified_file diffs (edit.CHANGE i1 i2 j1 j2) st
        = some st1 ∧ PassThrough file modified_file (i2 + 1) (j2 + 1) st1 := by
  obtain ⟨pre, hst, hs, hb⟩ := passThrough_state _ _ _ _ _ h
  obtain ⟨hdecl, hsingle⟩ := hplain
  have happly : ∀ r, change_simple_or_big fstrcmp_bounded file file modified_file diffs
      i1 i2 j1 j2 st = some (true, r) →
      apply_edit fstrcmp_bounded file file modified_file diffs (edit.CHANGE i1 i2 j1 j2) st
        = some r := by
    intro r hr
    show apply_change _ _ _ _ _ _ _ _ _ _ = _
    unfold apply_change
    rw [change_simple_merged_declined _ _ _ _ _ _ _ _ _ hdecl]
    dsimp only
    rw [hr]
  have hi' : i1 + (i2 + 1 - i1) = i2 + 1 := by omega
  unfold single_insert at hsingle
  by_cases hsimple : i2 - i1 ≤ j2 - j1 ∧
      all_similar fstrcmp_bounded file modified_file i2 j2 (i2 + 1 - i1) i1 = true
  · rw [if_pos hsimple] at hsingle
    have hle := hsimple.1
    have hshift := fun (j : Nat) (hj : j = i1 + j2 - i2) =>
      congrArg List.flatten
        (range_map_shift modified_file i1 i2 j2 j (i2 + 1 - i1) (by omega) hj)
    by_cases hj1 : j1 = 0
    · have key := change_top_identity fstrcmp_bounded file modified_file diffs i1 i2 j1 j2
        (pre ++ suffix_nodes file i1) hsimple hj1 h1 h2
      rw [← hst] at key
      refine ⟨_, happly _ key, ?_⟩
      rw [add_first_desc_eq, ← List.append_assoc]
      have := passThrough_set_slots file modified_file i1 ((j2 - j1) - (i2 - i1))
        (i2 + 1 - i1) (i2 + 1 - i1)
        ((List.range ((j2 - j1) - (i2 - i1))).map
          (fun d => ({ slot := none, value := modified_file.getD (j1 + d) [] } : node)) ++ pre)
        (fun k => modified_file.getD (k + j2 - i2) [])
        (by
          intro n hn k hk
          rcases List.mem_append.mp hn with h5 | h5
          · simp only [List.mem_map] at h5
            obtain ⟨a, _, rfl⟩ := h5
            simp at hk
          · exact hs n h5 k hk)
        (by
          have h0 : (pre.map node.value).flatten = [] := by rw [hb, hj1]; rfl
          have e := take_add_range modified_file 0 ((j2 - j1) - (i2 - i1)) (by omega)
          rw [Nat.zero_add] at e
          rw [List.map_append, List.flatten_append, h0, List.append_nil, e, hj1,
            List.range'_eq_map_range, List.map_map, List.map_map]
          rfl)
        (by omega) (by omega) (hshift _ (by omega))
      rw [hi', show j2 - j1 - (i2 - i1) + (i2 + 1 - i1) = j2 + 1 by omega] at this
      exact this
    · have hpos : 0 < j1 := by omega
      obtain ⟨hi0, hbef⟩ := hbefore hpos
      have key := change_linear_identity fstrcmp_bounded file modified_file diffs i1 i2 j1 j2
        (pre ++ suffix_nodes file i1) hsimple hpos hi0 h1 h2 h3 hbef
      rw [← hst] at key
      refine ⟨_, happly _ key, ?_⟩
      have hna : (j2 - j1) - (i2 - i1) = 0 ∨ (j2 - j1) - (i2 - i1) = 1 := by omega
      rcases hna with hna | hna
      · rw [hna]
        have := passThrough_set_slots file modified_file i1 j1 (i2 + 1 - i1) (i2 + 1 - i1)
          pre (fun k => modified_file.getD (k + j2 - i2) []) hs hb (by omega) (by omega)
          (hshift _ (by omega))
        rw [hi', show j1 + (i2 + 1 - i1) = j2 + 1 by omega] at this
        exact this
      · rw [hna, add_before_desc_one, suffix_nodes_cons _ _ (by omega),
          add_before_at _ _ _ _ _ (fun n hn hk => by have := hs n hn i1 hk; omega)]
        obtain ⟨hs1, hb1⟩ := prefix_add_one modified_file i1 j1 pre hs hb (by omega)
        have := passThrough_set_slots file modified_file i1 (j1 + 1) (i2 + 1 - i1)
          (i2 + 1 - i1) _ (fun k => modified_file.getD (k + j2 - i2) []) hs1 hb1
          (by omega) (by omega) (hshift _ (by omega))
        rw [hi', show j1 + 1 + (i2 + 1 - i1) = j2 + 1 by omega,
          suffix_nodes_cons _ _ (by omega), List.append_assoc] at this
        exact this
  · rw [if_neg hsimple] at hsingle
    have key := change_big_identity fstrcmp_bounded file modified_file diffs i1 i2 j1 j2
      (pre ++ suffix_nodes file i1) hsimple h1 h2
    rw [← hst] at key
    refine ⟨_, happly _ key, ?_⟩
    rw [show j2 + 1 - j1 = 1 by omega, add_before_desc_one, suffix_nodes_cons _ _ (by omega),
      add_before_at _ _ _ _ _ (fun n hn hk => by have := hs n hn i1 hk; omega)]
    obtain ⟨hs1, hb1⟩ := prefix_add_one modified_file i1 j1 pre hs hb (by omega)
    have := passThrough_set_slots file modified_file i1 (j1 + 1) (i2 + 1 - i1) 0 _
      (fun _ => empty_entry) hs1 hb1 (by omega) (by omega)
      (by rw [flatten_empty_values]; rfl)
    rw [hi', show j1 + 1 + 0 = j2 + 1 by omega,
      suffix_nodes_cons _ _ (by omega), List.append_assoc] at this
    exact this

/-! ## Lemmas: the edit script applied when mainstream is the ancestor -/

theorem create_edits_acc (n1 n2 : Nat) (index_mapping index_mapping_reverse : List Int) :
    ∀ (fuel i j : Nat) (acc : List edit),
      create_edits n1 n2 index_mapping index_mapping_reverse fuel i j acc =
        (create_edits n1 n2 index_mapping index_mapping_reverse fuel i j []).map
          (fun edits => acc ++ edits) := by
  intro fuel
  induction fuel with
  | zero => intro i j acc; rfl
  | succ f ih =>
    intro i j acc
    have hstep : ∀ (a b : Nat) (e : edit),
        create_edits n1 n2 index_mapping index_mapping_reverse f a b (acc ++ [e]) =
          (create_edits n1 n2 index_mapping index_mapping_reverse f a b [e]).map
            (fun edits => acc ++ edits) := by
      intro a b e
      rw [ih a b (acc ++ [e]), ih a b [e], Option.map_map]
      congr 1
      funext edits
      simp
    simp only [create_edits]
    split_ifs <;> first
      | rfl
      | exact ih _ _ _
      | exact hstep _ _ _
      | simp

theorem apply_edits_cons (fstrcmp_bounded : Fstrcmp) (ancestor_file mainstream_file
    modified_file : List Entry) (diffs : differences) (e : edit) (rest : List edit)
    (st st1 : merge_state)
    (h : apply_edit fstrcmp_bounded ancestor_file mainstream_file modified_file diffs e st
      = some st1) :
    apply_edits fstrcmp_bounded ancestor_file mainstream_file modified_file diffs (e :: rest) st
      = apply_edits fstrcmp_bounded ancestor_file mainstream_file modified_file diffs rest st1 := by
  conv_lhs => rw [apply_edits]
  rw [h]

theorem Path.not_deleted {D I : Nat → Prop} {P : Nat → Nat → Prop} {i j i' j' : Nat}
    (h : Path D I P i j i' j') (hd : ¬ D i) (hlt : i < i') : j < j' := by
  cases h with
  | done => omega
  | del _ _ _ _ h1 _ => exact absurd h1 hd
  | ins _ _ _ _ _ h2 => have := h2.le; omega
  | both _ _ _ _ _ h2 => have := h2.le; omega

theorem Path.not_inserted {D I : Nat → Prop} {P : Nat → Nat → Prop} {i j i' j' : Nat}
    (h : Path D I P i j i' j') (hi : ¬ I j) (hlt : j < j') : i < i' := by
  cases h with
  | done => omega
  | del _ _ _ _ _ h2 => have := h2.le; omega
  | ins _ _ _ _ h1 _ => exact absurd h1 hi
  | both _ _ _ _ _ h2 => have := h2.le; omega

theorem paired_not_deleted (xv yv : List Entry) (ctxt : List Int × List Int) (t : Nat)
    (h : Deleted ctxt t) : ∀ y, ¬ Paired xv yv ctxt t y := by
  intro y hk
  unfold Deleted at h
  unfold Paired at hk
  omega

theorem paired_not_inserted (xv yv : List Entry) (ctxt : List Int × List Int) (t : Nat)
    (h : Inserted ctxt t) : ∀ x, ¬ Paired xv yv ctxt x t := by
  intro x hk
  unfold Inserted at h
  unfold Paired at hk
  omega

/-- The walk past the run of deleted entries that starts at `i`. -/
theorem Path.run_end_del (xv yv : List Entry) (ctxt : List Int × List Int) (n1 n2 i j : Nat)
    (h : Path (Deleted ctxt) (Inserted ctxt) (Paired xv yv ctxt) i j n1 n2)
    (hi : i < n1) (hd : ctxt.1.getD i 0 < 0) :
    i < run_end ctxt.1 n1 i ∧ run_end ctxt.1 n1 i ≤ n1 ∧
    (run_end ctxt.1 n1 i < n1 → ctxt.1.getD (run_end ctxt.1 n1 i) 0 ≥ 0) ∧
    Path (Deleted ctxt) (Inserted ctxt) (Paired xv yv ctxt) (run_end ctxt.1 n1 i) j n1 n2 := by
  obtain ⟨g1, g2, g3, g4⟩ := skip_marked_spec ctxt.1 n1 (n1 - (i + 1)) (i + 1) (by omega)
    (le_refl _)
  refine ⟨by unfold run_end; omega, g2, ?_, ?_⟩
  · intro hlt
    by_contra hneg
    exact g4 ⟨hlt, by unfold run_end at hneg; omega⟩
  · have := Path.skip_del_run (run_end ctxt.1 n1 i - i) i h (by unfold run_end; omega) (by
      intro t ht1 ht2
      have hdt : Deleted ctxt t := by
        unfold Deleted
        by_cases hti : t = i
        · rw [hti]; exact hd
        · exact g3 t (by omega) (by unfold run_end at ht2; omega)
      exact ⟨hdt, paired_not_deleted xv yv ctxt t hdt⟩)
    rwa [show i + (run_end ctxt.1 n1 i - i) = run_end ctxt.1 n1 i by
      unfold run_end; omega] at this

/-- The walk past the run of inserted entries that starts at `j`. -/
theorem Path.run_end_ins (xv yv : List Entry) (ctxt : List Int × List Int) (n1 n2 i j : Nat)
    (h : Path (Deleted ctxt) (Inserted ctxt) (Paired xv yv ctxt) i j n1 n2)
    (hj : j < n2) (hd : ctxt.2.getD j 0 < 0) :
    j < run_end ctxt.2 n2 j ∧ run_end ctxt.2 n2 j ≤ n2 ∧
    (run_end ctxt.2 n2 j < n2 → ctxt.2.getD (run_end ctxt.2 n2 j) 0 ≥ 0) ∧
    Path (Deleted ctxt) (Inserted ctxt) (Paired xv yv ctxt) i (run_end ctxt.2 n2 j) n1 n2 := by
  obtain ⟨g1, g2, g3, g4⟩ := skip_marked_spec ctxt.2 n2 (n2 - (j + 1)) (j + 1) (by omega)
    (le_refl _)
  refine ⟨by unfold run_end; omega, g2, ?_, ?_⟩
  · intro hlt
    by_contra hneg
    exact g4 ⟨hlt, by unfold run_end at hneg; omega⟩
  · have := Path.skip_ins_run (run_end ctxt.2 n2 j - j) j h (by unfold run_end; omega) (by
      intro t ht1 ht2
      have hdt : Inserted ctxt t := by
        unfold Inserted
        by_cases hti : t = j
        · rw [hti]; exact hd
        · exact g3 t (by omega) (by unfold run_end at ht2; omega)
      exact ⟨hdt, paired_not_inserted xv yv ctxt t hdt⟩)
    rwa [show j + (run_end ctxt.2 n2 j - j) = run_end ctxt.2 n2 j by
      unfold run_end; omega] at this

/-- The loop that creates the edits returns, and `main` applies the edits it creates,
when they are plain edits, with the bytes of the modified file as result; the
mainstream file is the ancestor file. -/
theorem pass_through_walk (fstrcmp_bounded : Fstrcmp) (file modified_file : List Entry)
    (diffs : differences) (ctxt : List Int × List Int)
    (hR : diffs.index_mapping_reverse = ctxt.2) :
    ∀ (fuel i j : Nat), (file.length - i) + (modified_file.length - j) < fuel →
      Path (Deleted ctxt) (Inserted ctxt) (Paired file modified_file ctxt) i j
        file.length modified_file.length →
      walk_start file.length modified_file.length ctxt i j →
      ∃ edits, create_edits file.length modified_file.length ctxt.1 ctxt.2 fuel i j []
          = some edits ∧
        ∀ st, PassThrough file modified_file i j st →
          (∀ e ∈ edits, plain_edit fstrcmp_bounded file modified_file e) →
          ∃ st1, apply_edits fstrcmp_bounded file file modified_file diffs edits st = some st1 ∧
            PassThrough file modified_file file.length modified_file.length st1 := by
  intro fuel
  induction fuel with
  | zero => intro i j h; omega
  | succ f ih =>
    intro i j hfuel hpath hstart
    have hle := hpath.le
    unfold create_edits
    by_cases hend : i < file.length ∨ j < modified_file.length
    swap
    · rw [if_neg hend]
      refine ⟨[], rfl, fun st hst _ => ⟨st, rfl, ?_⟩⟩
      rw [show file.length = i by omega, show modified_file.length = j by omega]
      exact hst
    rw [if_pos hend]
    have hprev : 0 < j → ¬ (ctxt.1.getD i 0 ≥ 0 ∧ ctxt.2.getD j 0 ≥ 0 ∧ i < file.length) →
        0 < i ∧ diffs.index_mapping_reverse.getD (j - 1) 0 = ((i - 1 : Nat) : Int) := by
      intro hj hno
      rw [hR]
      rcases hstart with h | ⟨h1, _, h3⟩ | ⟨h1, _, h3, h4⟩ | ⟨h1, h2⟩
      · omega
      · exact ⟨h1, h3⟩
      · exact absurd ⟨h3, h4, h1⟩ hno
      · omega
    have hsingle : ∀ (e : edit) (st : merge_state),
        (∃ st1, apply_edit fstrcmp_bounded file file modified_file diffs e st = some st1 ∧
          PassThrough file modified_file file.length modified_file.length st1) →
        ∃ st1, apply_edits fstrcmp_bounded file file modified_file diffs ([] ++ [e]) st
            = some st1 ∧
          PassThrough file modified_file file.length modified_file.length st1 := by
      intro e st ⟨st1, h1, h2⟩
      refine ⟨st1, ?_, h2⟩
      rw [List.nil_append, apply_edits_cons _ _ _ _ _ _ _ _ _ h1]
      rfl
    have hcons : ∀ (e : edit) (a b : Nat),
        (∃ rest, create_edits file.length modified_file.length ctxt.1 ctxt.2 f a b []
            = some rest ∧
          ∀ st, PassThrough file modified_file a b st →
            (∀ e ∈ rest, plain_edit fstrcmp_bounded file modified_file e) →
            ∃ st1, apply_edits fstrcmp_bounded file file modified_file diffs rest st
                = some st1 ∧
              PassThrough file modified_file file.length modified_file.length st1) →
        (∀ st, PassThrough file modified_file i j st →
          plain_edit fstrcmp_bounded file modified_file e →
          ∃ st1, apply_edit fstrcmp_bounded file file modified_file diffs e st = some st1 ∧
            PassThrough file modified_file a b st1) →
        ∃ edits, create_edits file.length modified_file.length ctxt.1 ctxt.2 f a b ([] ++ [e])
            = some edits ∧
          ∀ st, PassThrough file modified_file i j st →
            (∀ e ∈ edits, plain_edit fstrcmp_bounded file modified_file e) →
            ∃ st1, apply_edits fstrcmp_bounded file file modified_file diffs edits st
                = some st1 ∧
              PassThrough file modified_file file.length modified_file.length st1 := by
      intro e a b ⟨rest, hrest, hexec⟩ hfirst
      refine ⟨e :: rest, ?_, ?_⟩
      · rw [create_edits_acc, hrest]
        rfl
      · intro st hst hall
        obtain ⟨st1, h1, h2⟩ := hfirst st hst (hall e (by simp))
        obtain ⟨st2, h3, h4⟩ := hexec st1 h2 (fun e1 he1 => hall e1 (by simp [he1]))
        exact ⟨st2, by rw [apply_edits_cons _ _ _ _ _ _ _ _ _ h1, h3], h4⟩
    by_cases hi : i = file.length
    · rw [if_pos hi, if_pos (by omega)]
      refine ⟨_, rfl, ?_⟩
      intro st hst _
      apply hsingle
      have := passThrough_addition fstrcmp_bounded file modified_file diffs i j
        (modified_file.length - 1) st hst (by omega) (by omega) (by omega)
        (fun hj => hprev hj (by omega))
        (fun _ => by rw [if_pos (by omega), hi])
      rwa [show modified_file.length - 1 + 1 = modified_file.length by omega, hi] at this
    rw [if_neg hi]
    by_cases hj : j = modified_file.length
    · rw [if_pos hj, if_pos (by omega)]
      refine ⟨_, rfl, ?_⟩
      intro st hst _
      apply hsingle
      have := passThrough_removal fstrcmp_bounded file modified_file diffs i
        (file.length - 1) j st hst (by omega) (by omega)
      rwa [show file.length - 1 + 1 = file.length by omega, hj] at this
    rw [if_neg hj]
    have hi1 : i < file.length := by omega
    have hj1 : j < modified_file.length := by omega
    by_cases hFi : ctxt.1.getD i 0 ≥ 0
    · rw [if_pos hFi]
      by_cases hRj : ctxt.2.getD j 0 ≥ 0
      · rw [if_pos hRj]
        rcases hpath.at_unmarked (by unfold Deleted; omega) (by unfold Inserted; omega) with
          h | ⟨hp, hnext⟩
        · omega
        · rw [if_pos ⟨hp.1, hp.2.1⟩]
          obtain ⟨rest, hrest, hexec⟩ := ih (i + 1) (j + 1) (by omega) hnext
            (Or.inr (Or.inl ⟨by omega, by omega, hp.2.1⟩))
          exact ⟨rest, hrest, fun st hst hall =>
            hexec st (passThrough_match _ _ _ _ _ hst hi1 hj1 hp.2.2) hall⟩
      · rw [if_neg hRj]
        obtain ⟨g1, g2, g3, g4⟩ := Path.run_end_ins file modified_file ctxt _ _ i j hpath hj1
          (by omega)
        have hlt : run_end ctxt.2 modified_file.length j < modified_file.length :=
          g4.not_deleted (by unfold Deleted; omega) hi1
        have hpair : Paired file modified_file ctxt i (run_end ctxt.2 modified_file.length j) := by
          rcases g4.at_unmarked (by unfold Deleted; omega)
            (by unfold Inserted; have := g3 hlt; omega) with h | ⟨hp, _⟩
          · omega
          · exact hp
        apply hcons _ _ _ (ih i _ (by omega) g4 (Or.inr (Or.inr (Or.inl ⟨hi1, hlt, hFi, g3 hlt⟩))))
        intro st hst _
        have := passThrough_addition fstrcmp_bounded file modified_file diffs i j
          (run_end ctxt.2 modified_file.length j - 1) st hst (by omega) (by omega) (by omega)
          (fun hj0 => hprev hj0 (by omega))
          (fun _ => by
            rw [if_neg (by omega), hR,
              show run_end ctxt.2 modified_file.length j - 1 + 1 =
                run_end ctxt.2 modified_file.length j by omega]
            exact hpair.2.1)
        rwa [show run_end ctxt.2 modified_file.length j - 1 + 1 =
          run_end ctxt.2 modified_file.length j by omega] at this
    · rw [if_neg hFi]
      obtain ⟨d1, d2, d3, d4⟩ := Path.run_end_del file modified_file ctxt _ _ i j hpath hi1
        (by omega)
      by_cases hRj : ctxt.2.getD j 0 ≥ 0
      · rw [if_pos hRj]
        have hlt : run_end ctxt.1 file.length i < file.length :=
          d4.not_inserted (by unfold Inserted; omega) hj1
        apply hcons _ _ _ (ih _ j (by omega) d4 (Or.inr (Or.inr (Or.inl ⟨hlt, hj1, d3 hlt, hRj⟩))))
        intro st hst _
        have := passThrough_removal fstrcmp_bounded file modified_file diffs i
          (run_end ctxt.1 file.length i - 1) j st hst (by omega) (by omega)
        rwa [show run_end ctxt.1 file.length i - 1 + 1 = run_end ctxt.1 file.length i by
          omega] at this
      · rw [if_neg hRj]
        obtain ⟨g1, g2, g3, g4⟩ := Path.run_end_ins file modified_file ctxt _ _ _ j d4 hj1
          (by omega)
        have hnext : walk_start file.length modified_file.length ctxt
            (run_end ctxt.1 file.length i) (run_end ctxt.2 modified_file.length j) := by
          by_cases hi2 : run_end ctxt.1 file.length i < file.length
          · have hlt := g4.not_deleted (by unfold Deleted; have := d3 hi2; omega) hi2
            exact Or.inr (Or.inr (Or.inl ⟨hi2, hlt, d3 hi2, g3 hlt⟩))
          · by_cases hj2 : run_end ctxt.2 modified_file.length j < modified_file.length
            · have := g4.not_inserted (by unfold Inserted; have := g3 hj2; omega) hj2
              omega
            · exact Or.inr (Or.inr (Or.inr ⟨by omega, by omega⟩))
        apply hcons _ _ _ (ih _ _ (by omega) g4 hnext)
        intro st hst hplain
        have := passThrough_change fstrcmp_bounded file modified_file diffs i
          (run_end ctxt.1 file.length i - 1) j (run_end ctxt.2 modified_file.length j - 1)
          st hst (by omega) (by omega) (by omega) (by omega)
          (fun hj0 => hprev hj0 (by omega)) hplain
        rwa [show run_end ctxt.1 file.length i - 1 + 1 = run_end ctxt.1 file.length i by omega,
          show run_end ctxt.2 modified_file.length j - 1 + 1 =
            run_end ctxt.2 modified_file.length j by omega] at this

/-! ## Lemmas: the merge when mainstream is the ancestor -/

theorem diagOk_corner (xv yv : List Entry) : DiagOk diag_corner xv yv := by
  intro xoff xlim yoff ylim h1 h2 _ _
  unfold diag_corner
  refine ⟨by omega, le_refl _, le_refl _, by omega, Or.inl (by omega), Or.inr (by omega)⟩

/-- With a midpoint search that stays in its window and makes progress,
`compute_differences` returns; and when the mainstream file is the ancestor file and
the edits are plain edits, `main` ends without conflict and its result list holds the
bytes of the modified file. -/
theorem merge_pass_through (fstrcmp_bounded : Fstrcmp) (diag : Diag)
    (file modified_file : List Entry) (hd : DiagOk diag file modified_file) :
    ∃ diffs, compute_differences diag file modified_file = some diffs ∧
      ((∀ e ∈ diffs.edits, plain_edit fstrcmp_bounded file modified_file e) →
        ∃ entries, merge fstrcmp_bounded diag file file modified_file = some (entries, []) ∧
          entries.flatten = modified_file.flatten) := by
  obtain ⟨marks, hm, ml1, ml2, _, _, mpath⟩ := compareseq_path diag file modified_file hd
    (file.length + modified_file.length + 1) 0 file.length 0 modified_file.length
    (List.replicate file.length 0, List.replicate modified_file.length 0)
    (Nat.zero_le _) (Nat.zero_le _) (le_refl _) (le_refl _) (by simp) (by simp) (by omega)
    (fun i _ _ => by rw [replicate_zero_getD]) (fun j _ _ => by rw [replicate_zero_getD])
  obtain ⟨ctxt, hc, _, _, _, _, cpath⟩ := complete_mapping_path file modified_file
    (file.length + modified_file.length + 1) 0 0 marks ml1 ml2 (by omega) (Path.done 0 0) mpath
  obtain ⟨edits, he, _⟩ := pass_through_walk fstrcmp_bounded file modified_file
    { index_mapping := ctxt.1, index_mapping_reverse := ctxt.2, edits := [] } ctxt rfl
    (file.length + modified_file.length + 1) 0 0 (by omega) cpath (Or.inl rfl)
  obtain ⟨edits1, he1, hexec⟩ := pass_through_walk fstrcmp_bounded file modified_file
    { index_mapping := ctxt.1, index_mapping_reverse := ctxt.2, edits := edits } ctxt rfl
    (file.length + modified_file.length + 1) 0 0 (by omega) cpath (Or.inl rfl)
  have hsame : edits1 = edits := Option.some.inj (he1.symm.trans he)
  subst hsame
  have hdiff := compute_differences_steps diag file modified_file _ _ marks ctxt edits1
    rfl rfl hm hc he
  refine ⟨_, hdiff, ?_⟩
  intro hplain
  obtain ⟨st1, h1, hmap, hcs, pre, hr, _, hb⟩ := hexec
    { mapping := identity_entries_mapping file, result_entries := initial_result file,
      result_conflicts := [] }
    ⟨rfl, rfl, [], by rw [initial_result_eq_suffix]; rfl, by simp, rfl⟩ hplain
  refine ⟨st1.result_entries.map node.value, ?_, ?_⟩
  · unfold merge
    rw [compute_mapping_same, hdiff]
    dsimp only
    have h2 : apply_edits fstrcmp_bounded file file modified_file
        { index_mapping := ctxt.1, index_mapping_reverse := ctxt.2, edits := edits1 } edits1
        { mapping := { file1 := file, file2 := file,
                       index_mapping := identity_mapping file.length,
                       index_mapping_reverse := identity_mapping file.length },
          result_entries := initial_result file, result_conflicts := [] } = some st1 := h1
    rw [h2]
    dsimp only
    rw [hcs]
  · rw [hr, suffix_nodes_end _ _ (le_refl _), List.append_nil, hb, List.take_length]

/-! ## Lemmas: the offsets at which the entries start -/

/-- Where the inner loop of `read_changelog_file` stops: before the end of the buffer
only at a boundary, and at the first one. -/
theorem entry_end_spec (l : List Byte) :
    (entry_end l < l.length → boundary_offset l (entry_end l)) ∧
    (∀ p, p < entry_end l → ¬ boundary_offset l p) := by
  induction l with
  | nil => simp [entry_end]
  | cons c rest ih =>
    obtain ⟨ih1, ih2⟩ := ih
    have hle := entry_end_le rest
    -- the two facts when the loop goes on with `rest`
    have hgo : entry_end (c :: rest) = 1 + entry_end rest →
        ¬ boundary_offset (c :: rest) 2 →
        (entry_end (c :: rest) < (c :: rest).length →
          boundary_offset (c :: rest) (entry_end (c :: rest))) ∧
        (∀ p, p < entry_end (c :: rest) → ¬ boundary_offset (c :: rest) p) := by
      intro he h2
      rw [he]
      constructor
      · intro hlt
        simp only [List.length_cons] at hlt
        obtain ⟨b1, b2, b3, b4, b5⟩ := ih1 (by omega)
        refine ⟨by omega, by simp only [List.length_cons]; omega, ?_, ?_, ?_⟩
        · rw [show 1 + entry_end rest - 2 = (entry_end rest - 2) + 1 by omega]
          exact b3
        · rw [show 1 + entry_end rest - 1 = (entry_end rest - 1) + 1 by omega]
          exact b4
        · rw [show 1 + entry_end rest = entry_end rest + 1 by omega]
          exact b5
      · intro p hp hb
        by_cases hp2 : p = 2
        · exact h2 (hp2 ▸ hb)
        · obtain ⟨b1, b2, b3, b4, b5⟩ := hb
          simp only [List.length_cons] at b2
          apply ih2 (p - 1) (by omega)
          refine ⟨by omega, by omega, ?_, ?_, ?_⟩
          · rw [show p - 2 = (p - 1 - 2) + 1 by omega] at b3
            exact b3
          · rw [show p - 1 = (p - 1 - 1) + 1 by omega] at b4
            exact b4
          · rw [show p = (p - 1) + 1 by omega] at b5
            exact b5
    by_cases hc : c = 10
    · cases rest with
      | nil =>
        apply hgo
        · simp [entry_end, hc]
        · intro hb; have := hb.2.1; simp at this
      | cons x tl =>
        by_cases hx : x = 10
        · cases tl with
          | nil =>
            apply hgo
            · subst hc; subst hx; simp [entry_end]
            · intro hb; have := hb.2.1; simp at this
          | cons d r =>
            by_cases hd : d = 10 ∨ d = 9 ∨ d = 32
            · apply hgo
              · subst hc; subst hx
                conv_lhs => rw [entry_end]
                simp [hd]
              · intro hb; exact hb.2.2.2.2 (by simpa using hd)
            · have he : entry_end (c :: x :: d :: r) = 2 := by
                subst hc; subst hx
                conv_lhs => rw [entry_end]
                simp [hd]
              rw [he]
              constructor
              · intro _
                refine ⟨le_refl _, by simp, by simpa using hc, by simpa using hx, by simpa using hd⟩
              · intro p hp hb
                have := hb.1
                omega
        · apply hgo
          · subst hc
            conv_lhs => unfold entry_end
            simp only [if_true]
            split
            · rename_i h; simp only [List.cons.injEq] at h; exact absurd h.1 hx
            · rfl
          · intro hb; have := hb.2.2.2.1; simp at this; exact hx this
    · apply hgo
      · conv_lhs => unfold entry_end
        rw [if_neg hc]
      · intro hb; have := hb.2.2.1; simp at this; exact hc this

theorem getD_append_offset (pre l : List Byte) (t : Nat) :
    (pre ++ l).getD (pre.length + t) 0 = l.getD t 0 := by
  rw [List.getD_eq_getElem?_getD, List.getD_eq_getElem?_getD,
    List.getElem?_append_right (by omega)]
  congr 2
  omega

theorem boundary_shift (pre l : List Byte) (q : Nat) (hq : 2 ≤ q) :
    boundary_offset (pre ++ l) (pre.length + q) ↔ boundary_offset l q := by
  unfold boundary_offset
  rw [show pre.length + q - 2 = pre.length + (q - 2) by omega,
    show pre.length + q - 1 = pre.length + (q - 1) by omega,
    getD_append_offset, getD_append_offset, getD_append_offset, List.length_append]
  constructor
  · rintro ⟨_, h2, h3⟩
    exact ⟨hq, by omega, h3⟩
  · rintro ⟨_, h2, h3⟩
    exact ⟨by omega, by omega, h3⟩

/-- The offsets at which the entries made by the outer loop of `read_changelog_file`
start, when the loop is at `start` = `pre.length` with the bytes `l` left. -/
theorem split_entries_starts (contents : List Byte) :
    ∀ (fuel : Nat) (pre l : List Byte), contents = pre ++ l → l.length ≤ fuel →
      (pre = [] ∨ l.getD 0 0 ≠ 10) →
      ∀ p, p ∈ entry_starts pre.length (split_entries fuel l) ↔
        (p = pre.length ∧ l ≠ []) ∨ (pre.length < p ∧ boundary_offset contents p) := by
  intro fuel
  induction fuel with
  | zero =>
    intro pre l hc hl _ p
    have : l = [] := List.length_eq_zero.mp (by omega)
    subst this
    simp only [split_entries, entry_starts, List.not_mem_nil, ne_eq, not_true_eq_false,
      and_false, false_or, false_iff, not_and]
    intro h1 h2
    have := h2.2.1
    rw [hc] at this
    simp at this
    omega
  | succ n ih =>
    intro pre l hc hl hinv p
    unfold split_entries
    by_cases h0 : l = []
    · subst h0
      rw [if_pos rfl]
      simp only [entry_starts, List.not_mem_nil, ne_eq, not_true_eq_false,
        and_false, false_or, false_iff, not_and]
      intro h1 h2
      have := h2.2.1
      rw [hc] at this
      simp at this
      omega
    · rw [if_neg h0]
      have hpos := entry_end_pos l h0
      have hle := entry_end_le l
      obtain ⟨sp1, sp2⟩ := entry_end_spec l
      have hlen : (l.take (entry_end l)).length = entry_end l := by
        rw [List.length_take]; omega
      have hrest : l.drop (entry_end l) ≠ [] ↔ entry_end l < l.length := by
        rw [ne_eq, List.drop_eq_nil_iff]; omega
      have hih := ih (pre ++ l.take (entry_end l)) (l.drop (entry_end l))
        (by rw [List.append_assoc, List.take_append_drop]; exact hc)
        (by rw [List.length_drop]; omega)
        (by
          right
          by_cases hlt : entry_end l < l.length
          · have := (sp1 hlt).2.2.2.2
            rw [List.getD_eq_getElem?_getD, List.getElem?_drop, Nat.add_zero,
              ← List.getD_eq_getElem?_getD]
            exact fun h => this (Or.inl h)
          · rw [List.drop_eq_nil_iff.mpr (by omega)]
            simp) p
      rw [List.length_append, hlen] at hih
      simp only [entry_starts, List.mem_cons, hlen, hih, hrest]
      constructor
      · rintro (h | ⟨h1, h2⟩ | ⟨h1, h2⟩)
        · exact Or.inl ⟨h, h0⟩
        · right
          refine ⟨by omega, ?_⟩
          rw [h1, hc]
          exact (boundary_shift pre l _ (sp1 h2).1).mpr (sp1 h2)
        · exact Or.inr ⟨by omega, h2⟩
      · rintro (⟨h, _⟩ | ⟨h1, h2⟩)
        · exact Or.inl h
        · right
          rcases Nat.lt_trichotomy p (pre.length + entry_end l) with h3 | h3 | h3
          · exfalso
            by_cases hq : p = pre.length + 1
            · obtain ⟨b1, _, b3, b4, _⟩ := h2
              rcases hinv with hp | hp
              · rw [hp] at hq; simp at hq; omega
              · apply hp
                rw [hc, hq, show pre.length + 1 - 1 = pre.length + 0 by omega,
                  getD_append_offset] at b4
                exact b4
            · have hb : boundary_offset l (p - pre.length) := by
                rw [← boundary_shift pre l _ (by omega), ← hc,
                  show pre.length + (p - pre.length) = p by omega]
                exact h2
              exact sp2 _ (by omega) hb
          · left
            refine ⟨h3, ?_⟩
            have := h2.2.1
            rw [hc, List.length_append] at this
            omega
          · exact Or.inr ⟨h3, h2⟩

/-- Every entry made by the outer loop of `read_changelog_file`, except the last,
ends with two newlines. -/
theorem split_entries_blank :
    ∀ (fuel : Nat) (l : List Byte) (k : Nat), l.length ≤ fuel →
      k + 1 < (split_entries fuel l).length →
      ∃ body, (split_entries fuel l).getD k [] = body ++ [10, 10] := by
  intro fuel
  induction fuel with
  | zero => intro l k _ h; simp [split_entries] at h
  | succ n ih =>
    intro l k hl hk
    unfold split_entries at hk ⊢
    by_cases h0 : l = []
    · rw [if_pos h0] at hk; simp at hk
    · rw [if_neg h0] at hk ⊢
      have hpos := entry_end_pos l h0
      have hle := entry_end_le l
      cases k with
      | zero =>
        have hlt : entry_end l < l.length := by
          by_contra hge
          rw [List.drop_eq_nil_iff.mpr (by omega)] at hk
          cases n <;> simp [split_entries] at hk
        obtain ⟨b1, _, b3, b4, _⟩ := (entry_end_spec l).1 hlt
        refine ⟨l.take (entry_end l - 2), ?_⟩
        simp only [List.getD_cons_zero]
        have e1 : l.take (entry_end l) = l.take (entry_end l - 2 + 1 + 1) := by
          congr 1; omega
        have g3 : l[entry_end l - 2]? = some 10 := by
          rw [List.getD_eq_getElem?_getD] at b3
          rw [List.getElem?_eq_getElem (by omega)] at b3 ⊢
          simpa using b3
        have g4 : l[entry_end l - 2 + 1]? = some 10 := by
          rw [List.getD_eq_getElem?_getD, show entry_end l - 1 = entry_end l - 2 + 1 by omega] at b4
          rw [List.getElem?_eq_getElem (by omega)] at b4 ⊢
          simpa using b4
        rw [e1, List.take_succ, List.take_succ, g3, g4]
        simp
      | succ k =>
        simp only [List.length_cons] at hk
        simp only [List.getD_cons_succ]
        exact ih _ k (by rw [List.length_drop]; omega) (by omega)

/-! ## Lemmas: the program from the merge -/

theorem main_run_eq (fstrcmp_bounded : Fstrcmp) (diag : Diag) (downstream : Bool)
    (ancestor_contents destination_contents other_contents : List Byte) :
    main_run fstrcmp_bounded diag downstream ancestor_contents destination_contents
        other_contents =
      (merge fstrcmp_bounded diag (read_changelog_file ancestor_contents)
        (read_changelog_file (mainstream_of downstream destination_contents other_contents))
        (read_changelog_file (modified_of downstream destination_contents other_contents))).map
        (fun r => (write_output r.1 r.2, exit_status r.2)) := by
  unfold main_run
  cases merge fstrcmp_bounded diag (read_changelog_file ancestor_contents)
    (read_changelog_file (mainstream_of downstream destination_contents other_contents))
    (read_changelog_file (modified_of downstream destination_contents other_contents)) with
  | none => rfl
  | some r => rfl

theorem conflict_write_ne_nil (c : conflict) : conflict_write c ≠ [] := by
  unfold conflict_write marker_old
  simp

theorem entry_write_filter (entries : List Entry) :
    (entries.map entry_write).flatten =
      (entries.filter (fun e => decide (e.length ≠ 0))).flatten := by
  induction entries with
  | nil => rfl
  | cons e rest ih =>
    rw [List.map_cons, List.flatten_cons, ih, List.filter_cons]
    cases e with
    | nil => simp [entry_write]
    | cons c tl => simp [entry_write]

/-! ## Lemmas: splitting at the second paragraph -/

/-- One iteration of the search loop of `try_split_merged_entry` that goes on. -/
theorem split_search_next (fstrcmp_bounded : Fstrcmp) (old_body new_entry : Entry)
    (fuel split_offset : Nat) (best best1 : Nat × ℚ)
    (h1 : (if entry_fstrcmp fstrcmp_bounded old_body (new_entry.drop split_offset) best.2
        > best.2 then
      (split_offset, entry_fstrcmp fstrcmp_bounded old_body (new_entry.drop split_offset) best.2)
      else best) = best1)
    (h2 : best1.2 ≠ 1) (h3 : split_offset < new_entry.length) :
    split_search fstrcmp_bounded old_body new_entry (fuel + 1) split_offset best =
      split_search fstrcmp_bounded old_body new_entry fuel
        (find_paragraph_end new_entry (split_offset + 1)) best1 := by
  conv_lhs => unfold split_search
  simp only [h1, if_neg h2, if_pos h3]

/-- One iteration of the search loop of `try_split_merged_entry` that finds the
similarity 1 and stops. -/
theorem split_search_stop (fstrcmp_bounded : Fstrcmp) (old_body new_entry : Entry)
    (fuel split_offset : Nat) (best : Nat × ℚ)
    (h1 : entry_fstrcmp fstrcmp_bounded old_body (new_entry.drop split_offset) best.2 = 1)
    (h2 : best.2 < 1) :
    split_search fstrcmp_bounded old_body new_entry (fuel + 1) split_offset best =
      some (split_offset, 1) := by
  conv_lhs => unfold split_search
  simp only [h1, gt_iff_lt, h2, if_true]

/-- The function `try_split_merged_entry` when the titles are the same, the body of
the old entry has a similarity below 1 to the new entry without its title, and the
similarity 1 to the new entry from the end `b` of the next paragraph on, for every bound
below 1: the new entry is split at `b`. -/
theorem try_split_second_paragraph (fstrcmp_bounded : Fstrcmp) (old_entry new_entry : Entry)
    (t b : Nat) (ht1 : find_paragraph_end old_entry 0 = t)
    (ht2 : find_paragraph_end new_entry 0 = t)
    (htitle : old_entry.take t = new_entry.take t)
    (hb : find_paragraph_end new_entry (t + 1) = b)
    (htl : t < new_entry.length) (hbl : b < new_entry.length) (hnl : new_entry.getD b 0 = 10)
    (hs1 : entry_fstrcmp fstrcmp_bounded (old_entry.drop t) (new_entry.drop t) 0 < 1)
    (hs2 : ∀ lower_bound, lower_bound < 1 →
      entry_fstrcmp fstrcmp_bounded (old_entry.drop t) (new_entry.drop b) lower_bound = 1) :
    try_split_merged_entry fstrcmp_bounded old_entry new_entry =
      some (some (new_entry.take (b + 1), new_entry.take t ++ new_entry.drop b)) := by
  have hbest : ((if entry_fstrcmp fstrcmp_bounded (old_entry.drop t) (new_entry.drop t) 0 > 0
      then (t, entry_fstrcmp fstrcmp_bounded (old_entry.drop t) (new_entry.drop t) 0)
      else (t, 0)) : Nat × ℚ).2 < 1 := by
    split_ifs
    · exact hs1
    · norm_num
  have hsearch : split_search fstrcmp_bounded (old_entry.drop t) new_entry
      (new_entry.length + 1) t (t, 0) = some (b, 1) := by
    rw [show new_entry.length + 1 = (new_entry.length - 1) + 1 + 1 by omega,
      split_search_next fstrcmp_bounded (old_entry.drop t) new_entry (new_entry.length - 1 + 1)
        t (t, 0) _ rfl (ne_of_lt hbest) htl, hb]
    exact split_search_stop fstrcmp_bounded (old_entry.drop t) new_entry _ b _ (hs2 _ hbest)
      hbest
  unfold try_split_merged_entry
  simp only [ht1, ht2]
  rw [if_neg (by rw [not_not]; exact ⟨trivial, htitle⟩), hsearch]
  simp only
  rw [if_neg (by omega), if_neg (by rw [not_not]; exact hnl),
    if_neg (by norm_num [FSTRCMP_STRICTER_THRESHOLD])]

/-! ## Lemmas: the conflicts that an edit appends -/

/-- The conflicts that the loop of the case REMOVAL appends: one per ancestor entry
that is not removed, in increasing order of the ancestor index. -/
theorem apply_removal_conflicts (fstrcmp_bounded : Fstrcmp)
    (ancestor_file mainstream_file : List Entry) :
    ∀ (count i : Nat) (st : merge_state),
      ∃ indices : List Nat, indices.Sublist (List.range' i count) ∧
        (apply_removal fstrcmp_bounded ancestor_file mainstream_file count i st).result_conflicts =
          st.result_conflicts ++ indices.map (fun i =>
            ({ old_entries := [ancestor_file.getD i []], modified_entries := [] } : conflict)) := by
  intro count
  induction count with
  | zero => intro i st; exact ⟨[], by simp, by simp [apply_removal]⟩
  | succ c ih =>
    intro i st
    unfold apply_removal
    obtain ⟨rest, h1, h2⟩ := ih (i + 1)
      (removal_step fstrcmp_bounded ancestor_file mainstream_file i st)
    rw [h2, List.range'_succ]
    unfold removal_step
    dsimp only
    split_ifs
    · exact ⟨rest, List.Sublist.cons _ h1, rfl⟩
    · exact ⟨i :: rest, List.Sublist.cons₂ _ h1, by simp⟩

/-- The conflicts that the loop of the "simple merged" case appends. -/
theorem merged_changes_conflicts (fstrcmp_bounded : Fstrcmp)
    (ancestor_file mainstream_file modified_file : List Entry) (i2 j2 first : Nat)
    (split1 : Entry) :
    ∀ (count j : Nat) (st : merge_state), j2 ≤ j + i2 →
      ∃ indices : List Nat, indices.Sublist (List.range' (j + i2 - j2) count) ∧
        (merged_changes fstrcmp_bounded ancestor_file mainstream_file modified_file i2 j2 first
          split1 count j st).result_conflicts =
          st.result_conflicts ++ indices.map (fun i =>
            single_conflict (ancestor_file.getD i [])
              (if i + j2 - i2 = first then split1 else modified_file.getD (i + j2 - i2) [])) := by
  intro count
  induction count with
  | zero => intro j st _; exact ⟨[], by simp, by simp [merged_changes]⟩
  | succ c ih =>
    intro j st hj
    unfold merged_changes
    dsimp only
    have e1 : j + 1 + i2 - j2 = j + i2 - j2 + 1 := by omega
    have e2 : j + i2 - j2 + j2 - i2 = j := by omega
    obtain ⟨changed_entry, hce⟩ : ∃ changed_entry,
      changed_entry = if j = first then split1 else modified_file.getD j [] := ⟨_, rfl⟩
    rw [← hce]
    split_ifs with h1 h2
    · obtain ⟨rest, g1, g2⟩ := ih (j + 1) _ (by omega : j2 ≤ j + 1 + i2)
      rw [g2, List.range'_succ]
      rw [e1] at g1
      exact ⟨rest, List.Sublist.cons _ g1, rfl⟩
    · obtain ⟨rest, g1, g2⟩ := ih (j + 1) _ (by omega : j2 ≤ j + 1 + i2)
      rw [g2, List.range'_succ]
      rw [e1] at g1
      refine ⟨(j + i2 - j2) :: rest, List.Sublist.cons₂ _ g1, ?_⟩
      simp only [List.map_cons, e2, List.append_assoc, List.singleton_append, hce]
    · obtain ⟨rest, g1, g2⟩ := ih (j + 1) _ (by omega : j2 ≤ j + 1 + i2)
      rw [g2, List.range'_succ]
      rw [e1] at g1
      exact ⟨rest, List.Sublist.cons _ g1, rfl⟩

/-- The conflicts that the loop of a simple change at the top appends. -/
theorem top_changes_conflicts (fstrcmp_bounded : Fstrcmp)
    (ancestor_file mainstream_file modified_file : List Entry) (i2 j2 : Nat) :
    ∀ (count j : Nat) (st st1 : merge_state), j2 ≤ j + i2 →
      top_changes fstrcmp_bounded ancestor_file mainstream_file modified_file i2 j2 count j st
        = some st1 →
      ∃ indices : List Nat, indices.Sublist (List.range' (j + i2 - j2) count) ∧
        st1.result_conflicts =
          st.result_conflicts ++ indices.map (fun i =>
            single_conflict (ancestor_file.getD i []) (modified_file.getD (i + j2 - i2) [])) := by
  intro count
  induction count with
  | zero =>
    intro j st st1 _ h
    simp only [top_changes, Option.some.injEq] at h
    subst h
    exact ⟨[], by simp, by simp⟩
  | succ c ih =>
    intro j st st1 hj h
    unfold top_changes at h
    dsimp only at h
    have e1 : j + 1 + i2 - j2 = j + i2 - j2 + 1 := by omega
    have e2 : j + i2 - j2 + j2 - i2 = j := by omega
    split_ifs at h with h1 h2
    · obtain ⟨rest, g1, g2⟩ := ih (j + 1) _ st1 (by omega) h
      rw [g2, List.range'_succ]
      rw [e1] at g1
      exact ⟨rest, List.Sublist.cons _ g1, rfl⟩
    · obtain ⟨rest, g1, g2⟩ := ih (j + 1) _ st1 (by omega) h
      rw [g2, List.range'_succ]
      rw [e1] at g1
      refine ⟨(j + i2 - j2) :: rest, List.Sublist.cons₂ _ g1, ?_⟩
      simp only [List.map_cons, e2, List.append_assoc, List.singleton_append]

/-- The conflicts that the loop of a simple change in the interior appends. -/
theorem linear_changes_conflicts (fstrcmp_bounded : Fstrcmp)
    (ancestor_file mainstream_file modified_file : List Entry) (i2 j2 : Nat) :
    ∀ (count j : Nat) (st st1 : merge_state), j2 ≤ j + i2 →
      linear_changes fstrcmp_bounded ancestor_file mainstream_file modified_file i2 j2 count j st
        = some st1 →
      ∃ indices : List Nat, indices.Sublist (List.range' (j + i2 - j2) count) ∧
        st1.result_conflicts =
          st.result_conflicts ++ indices.map (fun i =>
            single_conflict (ancestor_file.getD i []) (modified_file.getD (i + j2 - i2) [])) := by
  intro count
  induction count with
  | zero =>
    intro j st st1 _ h
    simp only [linear_changes, Option.some.injEq] at h
    subst h
    exact ⟨[], by simp, by simp⟩
  | succ c ih =>
    intro j st st1 hj h
    unfold linear_changes at h
    dsimp only at h
    have e1 : j + 1 + i2 - j2 = j + i2 - j2 + 1 := by omega
    have e2 : j + i2 - j2 + j2 - i2 = j := by omega
    split_ifs at h with h0 h1 h2
    · obtain ⟨rest, g1, g2⟩ := ih (j + 1) _ st1 (by omega) h
      rw [g2, List.range'_succ]
      rw [e1] at g1
      exact ⟨rest, List.Sublist.cons _ g1, rfl⟩
    · obtain ⟨rest, g1, g2⟩ := ih (j + 1) _ st1 (by omega) h
      rw [g2, List.range'_succ]
      rw [e1] at g1
      refine ⟨(j + i2 - j2) :: rest, List.Sublist.cons₂ _ g1, ?_⟩
      simp only [List.map_cons, e2, List.append_assoc, List.singleton_append]

theorem empty_slots_conflicts (fstrcmp_bounded : Fstrcmp)
    (ancestor_file mainstream_file : List Entry) :
    ∀ (count i : Nat) (st st1 : merge_state),
      empty_slots fstrcmp_bounded ancestor_file mainstream_file count i st = some st1 →
      st1.result_conflicts = st.result_conflicts := by
  intro count
  induction count with
  | zero =>
    intro i st st1 h
    simp only [empty_slots, Option.some.injEq] at h
    rw [← h]
  | succ c ih =>
    intro i st st1 h
    unfold empty_slots at h
    dsimp only at h
    split_ifs at h
    have := ih _ _ st1 h
    exact this

theorem change_range_sublist (indices : List Nat) (i1 i2 j1 j2 : Nat)
    (hle : i2 - i1 ≤ j2 - j1)
    (h : indices.Sublist (List.range' (j1 + (j2 - j1 + 1 - (i2 - i1 + 1)) + i2 - j2)
      (j2 + 1 - (j1 + (j2 - j1 + 1 - (i2 - i1 + 1)))))) :
    indices.Sublist (List.range' (min i1 i2) (i2 - i1 + 1)) := by
  by_cases hj : j1 ≤ j2
  · rw [show j1 + (j2 - j1 + 1 - (i2 - i1 + 1)) + i2 - j2 = min i1 i2 by
        rw [Nat.min_def]; split_ifs <;> omega,
      show j2 + 1 - (j1 + (j2 - j1 + 1 - (i2 - i1 + 1))) = i2 - i1 + 1 by omega] at h
    exact h
  · rw [show j2 + 1 - (j1 + (j2 - j1 + 1 - (i2 - i1 + 1))) = 0 by omega] at h
    simp only [List.range'_zero, List.sublist_nil] at h
    rw [h]
    exact List.nil_sublist _

/-- The conflicts that the first part of the case CHANGE appends. -/
theorem change_simple_merged_conflicts (fstrcmp_bounded : Fstrcmp)
    (ancestor_file mainstream_file modified_file : List Entry) (i1 i2 j1 j2 : Nat)
    (st st1 : merge_state) (done : Bool)
    (h : change_simple_merged fstrcmp_bounded ancestor_file mainstream_file modified_file
      i1 i2 j1 j2 st = some (done, st1)) :
    (done = false ∧ st1 = st) ∨
    (done = true ∧ ∃ (indices : List Nat) (changed : Nat → Entry),
      indices.Sublist (List.range' (min i1 i2) (i2 - i1 + 1)) ∧
      st1.result_conflicts = st.result_conflicts ++
        indices.map (fun i => single_conflict (ancestor_file.getD i []) (changed i))) := by
  unfold change_simple_merged at h
  by_cases hc : j1 = 0 ∧ i2 - i1 ≤ j2 - j1
  · rw [if_pos hc] at h
    cases hs : try_split_merged_entry fstrcmp_bounded (ancestor_file.getD i1 [])
      (modified_file.getD (i1 + j2 - i2) []) with
    | none => rw [hs] at h; simp at h
    | some r =>
      rw [hs] at h
      cases r with
      | none =>
        simp only [Option.some.injEq, Prod.mk.injEq] at h
        exact Or.inl ⟨h.1.symm, h.2.symm⟩
      | some split =>
        dsimp only at h
        by_cases hsim : all_similar fstrcmp_bounded ancestor_file modified_file i2 j2
          (i2 - i1) (i1 + 1) = true
        · rw [if_pos hsim] at h
          simp only [Option.some.injEq, Prod.mk.injEq] at h
          obtain ⟨indices, g1, g2⟩ := merged_changes_conflicts fstrcmp_bounded ancestor_file
            mainstream_file modified_file i2 j2 (j1 + (j2 - j1 + 1 - (i2 - i1 + 1))) split.2
            (j2 + 1 - (j1 + (j2 - j1 + 1 - (i2 - i1 + 1))))
            (j1 + (j2 - j1 + 1 - (i2 - i1 + 1)))
            { mapping := st.mapping
              result_entries :=
                add_first_desc modified_file j1 (j2 - j1 + 1 - (i2 - i1 + 1))
                  (gl_list_add_first st.result_entries split.1)
              result_conflicts := st.result_conflicts } (by omega)
          right
          refine ⟨h.1.symm, indices,
            (fun i => if i + j2 - i2 = j1 + (j2 - j1 + 1 - (i2 - i1 + 1)) then split.2
              else modified_file.getD (i + j2 - i2) []),
            change_range_sublist _ _ _ _ _ hc.2 g1, ?_⟩
          rw [← h.2]
          exact g2
        · rw [if_neg hsim] at h
          simp only [Option.some.injEq, Prod.mk.injEq] at h
          exact Or.inl ⟨h.1.symm, h.2.symm⟩
  · rw [if_neg hc] at h
    simp only [Option.some.injEq, Prod.mk.injEq] at h
    exact Or.inl ⟨h.1.symm, h.2.symm⟩

/-- The conflicts that the second part of the case CHANGE appends. -/
theorem change_simple_or_big_conflicts (fstrcmp_bounded : Fstrcmp)
    (ancestor_file mainstream_file modified_file : List Entry) (diffs : differences)
    (i1 i2 j1 j2 : Nat) (st st1 : merge_state) (done : Bool)
    (h : change_simple_or_big fstrcmp_bounded ancestor_file mainstream_file modified_file
      diffs i1 i2 j1 j2 st = some (done, st1)) :
    (done = false ∧ st1.result_conflicts = st.result_conflicts) ∨
    (done = true ∧ ∃ (indices : List Nat) (changed : Nat → Entry),
      indices.Sublist (List.range' (min i1 i2) (i2 - i1 + 1)) ∧
      st1.result_conflicts = st.result_conflicts ++
        indices.map (fun i => single_conflict (ancestor_file.getD i []) (changed i))) := by
  unfold change_simple_or_big at h
  have hmatch : ∀ (x : Option merge_state),
      (match x with
        | none => none
        | some s => some (true, s)) = some (done, st1) → x = some st1 ∧ done = true := by
    intro x hx
    cases x with
    | none => simp at hx
    | some s =>
      simp only [Option.some.injEq, Prod.mk.injEq] at hx
      exact ⟨by rw [hx.2], hx.1.symm⟩
  by_cases hsimple : i2 - i1 ≤ j2 - j1 ∧
      all_similar fstrcmp_bounded ancestor_file modified_file i2 j2 (i2 + 1 - i1) i1 = true
  · rw [if_pos hsimple] at h
    dsimp only at h
    by_cases hj1 : j1 = 0
    · rw [if_pos hj1] at h
      obtain ⟨hl, hd⟩ := hmatch _ h
      obtain ⟨indices, g1, g2⟩ := top_changes_conflicts _ _ _ _ _ _ _ _ _ st1 (by omega) hl
      exact Or.inr ⟨hd, indices, (fun i => modified_file.getD (i + j2 - i2) []),
        change_range_sublist _ _ _ _ _ hsimple.1 g1, g2⟩
    · rw [if_neg hj1] at h
      split_ifs at h <;> first
        | contradiction
        | (obtain ⟨hl, hd⟩ := hmatch _ h
           obtain ⟨indices, g1, g2⟩ :=
             linear_changes_conflicts _ _ _ _ _ _ _ _ _ st1 (by omega) hl
           exact Or.inr ⟨hd, indices, (fun i => modified_file.getD (i + j2 - i2) []),
             change_range_sublist _ _ _ _ _ hsimple.1 g1, g2⟩)
        | (simp only [Option.some.injEq, Prod.mk.injEq] at h
           exact Or.inl ⟨h.1.symm, by rw [← h.2]⟩)
  · rw [if_neg hsimple] at h
    dsimp only at h
    split_ifs at h <;> first
      | contradiction
      | (obtain ⟨hl, hd⟩ := hmatch _ h
         have g := empty_slots_conflicts _ _ _ _ _ _ st1 hl
         exact Or.inr ⟨hd, [], fun _ => [], List.nil_sublist _, by rw [g]; simp⟩)
      | (simp only [Option.some.injEq, Prod.mk.injEq] at h
         exact Or.inl ⟨h.1.symm, by rw [← h.2]⟩)

/-- Every edit only appends to `result_conflicts`, and what it appends has the form
given by `emitted_by`. -/
theorem apply_edit_conflicts (fstrcmp_bounded : Fstrcmp)
    (ancestor_file mainstream_file modified_file : List Entry) (diffs : differences)
    (e : edit) (st st1 : merge_state)
    (h : apply_edit fstrcmp_bounded ancestor_file mainstream_file modified_file diffs e st
      = some st1) :
    ∃ cs, st1.result_conflicts = st.result_conflicts ++ cs ∧
      emitted_by ancestor_file modified_file e cs := by
  cases e with
  | ADDITION j1 j2 =>
    simp only [apply_edit] at h
    unfold apply_addition at h
    dsimp only at h
    split_ifs at h <;> first
      | contradiction
      | (simp only [Option.some.injEq] at h
         subst h
         first
           | exact ⟨_, rfl, Or.inr rfl⟩
           | exact ⟨[], (List.append_nil _).symm, Or.inl rfl⟩)
  | REMOVAL i1 i2 =>
    simp only [apply_edit, Option.some.injEq] at h
    subst h
    obtain ⟨indices, g1, g2⟩ := apply_removal_conflicts fstrcmp_bounded ancestor_file
      mainstream_file (i2 + 1 - i1) i1 st
    exact ⟨_, g2, indices, g1, rfl⟩
  | CHANGE i1 i2 j1 j2 =>
    simp only [apply_edit] at h
    unfold apply_change at h
    cases hm : change_simple_merged fstrcmp_bounded ancestor_file mainstream_file modified_file
      i1 i2 j1 j2 st with
    | none => rw [hm] at h; simp at h
    | some r =>
      obtain ⟨done, st2⟩ := r
      rw [hm] at h
      rcases change_simple_merged_conflicts _ _ _ _ _ _ _ _ _ _ _ hm with ⟨hd, hst⟩ |
        ⟨hd, indices, changed, g1, g2⟩
      · subst hd; subst hst
        dsimp only at h
        cases hb : change_simple_or_big fstrcmp_bounded ancestor_file mainstream_file
          modified_file diffs i1 i2 j1 j2 st2 with
        | none => rw [hb] at h; simp at h
        | some r2 =>
          obtain ⟨done2, st3⟩ := r2
          rw [hb] at h
          rcases change_simple_or_big_conflicts _ _ _ _ _ _ _ _ _ _ _ _ hb with ⟨hd2, g⟩ |
            ⟨hd2, indices, changed, g1, g2⟩
          · subst hd2
            simp only [Option.some.injEq] at h
            subst h
            exact ⟨_, by rw [g], Or.inr rfl⟩
          · subst hd2
            simp only [Option.some.injEq] at h
            subst h
            exact ⟨_, g2, Or.inl ⟨indices, changed, g1, rfl⟩⟩
      · subst hd
        simp only [Option.some.injEq] at h
        subst h
        exact ⟨_, g2, Or.inl ⟨indices, changed, g1, rfl⟩⟩

/-! ## Lemmas: the conflicts of the merge -/

/-- The loop over the edits: `result_conflicts` at the end is `result_conflicts` at the
start followed by the conflicts of each edit, in the order of the edits. -/
theorem apply_edits_conflicts (fstrcmp_bounded : Fstrcmp)
    (ancestor_file mainstream_file modified_file : List Entry) (diffs : differences) :
    ∀ (edits : List edit) (st st1 : merge_state),
      apply_edits fstrcmp_bounded ancestor_file mainstream_file modified_file diffs edits st
        = some st1 →
      st1.result_conflicts = st.result_conflicts ++
        (conflicts_by_edit fstrcmp_bounded ancestor_file mainstream_file modified_file diffs
          edits st).flatten ∧
      List.Forall₂ (emitted_by ancestor_file modified_file) edits
        (conflicts_by_edit fstrcmp_bounded ancestor_file mainstream_file modified_file diffs
          edits st) := by
  intro edits
  induction edits with
  | nil =>
    intro st st1 h
    simp only [apply_edits, Option.some.injEq] at h
    subst h
    exact ⟨by simp [conflicts_by_edit], List.Forall₂.nil⟩
  | cons e rest ih =>
    intro st st1 h
    unfold apply_edits at h
    cases he : apply_edit fstrcmp_bounded ancestor_file mainstream_file modified_file diffs e st with
    | none => rw [he] at h; simp at h
    | some st2 =>
      rw [he] at h
      dsimp only at h
      obtain ⟨g1, g2⟩ := ih st2 st1 h
      obtain ⟨cs, c1, c2⟩ := apply_edit_conflicts _ _ _ _ _ _ _ _ he
      have hdrop : st2.result_conflicts.drop st.result_conflicts.length = cs := by
        rw [c1, List.drop_left]
      unfold conflicts_by_edit
      rw [he]
      dsimp only
      rw [hdrop]
      refine ⟨?_, List.Forall₂.cons c2 g2⟩
      rw [g1, c1, List.flatten_cons, List.append_assoc]

theorem emitted_by_nonempty (ancestor_file modified_file : List Entry) (e : edit)
    (cs : List conflict) (hr : nonempty_ranges e)
    (h : emitted_by ancestor_file modified_file e cs) :
    ∀ c ∈ cs, c.old_entries ≠ [] ∨ c.modified_entries ≠ [] := by
  have hrange : ∀ (entries : List Entry) (a b : Nat), a ≤ b → entries_range entries a b ≠ [] := by
    intro entries a b hab hnil
    have := congrArg List.length hnil
    simp only [entries_range, List.length_map, List.length_range, List.length_nil] at this
    omega
  intro c hc
  cases e with
  | ADDITION j1 j2 =>
    rcases h with h | h
    · rw [h] at hc; simp at hc
    · rw [h] at hc
      simp only [List.mem_singleton] at hc
      subst hc
      exact Or.inr (hrange _ _ _ hr)
  | REMOVAL i1 i2 =>
    obtain ⟨indices, _, h2⟩ := h
    rw [h2] at hc
    simp only [List.mem_map] at hc
    obtain ⟨i, _, rfl⟩ := hc
    exact Or.inl (by simp)
  | CHANGE i1 i2 j1 j2 =>
    rcases h with ⟨indices, changed, _, h2⟩ | h
    · rw [h2] at hc
      simp only [List.mem_map] at hc
      obtain ⟨i, _, rfl⟩ := hc
      exact Or.inl (by simp [single_conflict])
    · rw [h] at hc
      simp only [List.mem_singleton] at hc
      subst hc
      exact Or.inl (hrange _ _ _ hr.1)

/-- The edits that `compute_differences` creates have ranges that are not empty. -/
theorem create_edits_ranges (n1 n2 : Nat) (index_mapping index_mapping_reverse : List Int) :
    ∀ (fuel i j : Nat) (edits : List edit), i ≤ n1 → j ≤ n2 →
      create_edits n1 n2 index_mapping index_mapping_reverse fuel i j [] = some edits →
      ∀ e ∈ edits, nonempty_ranges e := by
  intro fuel
  induction fuel with
  | zero => intro i j edits _ _ h; simp [create_edits] at h
  | succ f ih =>
    intro i j edits hi hj h
    have hcons : ∀ (e : edit) (a b : Nat), a ≤ n1 → b ≤ n2 → nonempty_ranges e →
        create_edits n1 n2 index_mapping index_mapping_reverse f a b ([] ++ [e]) = some edits →
        ∀ e1 ∈ edits, nonempty_ranges e1 := by
      intro e a b ha hb he hc
      rw [create_edits_acc] at hc
      cases hr : create_edits n1 n2 index_mapping index_mapping_reverse f a b [] with
      | none => rw [hr] at hc; simp at hc
      | some rest =>
        rw [hr] at hc
        simp only [Option.map_some', Option.some.injEq, List.nil_append] at hc
        subst hc
        intro e1 he1
        rcases List.mem_cons.mp he1 with h1 | h1
        · rw [h1]; exact he
        · exact ih a b rest ha hb hr e1 h1
    have hrun : ∀ (marks : List Int) (n t : Nat), t < n →
        t ≤ run_end marks n t - 1 ∧ run_end marks n t ≤ n := by
      intro marks n t ht
      have := skip_marked_spec marks n (n - (t + 1)) (t + 1) (by omega) (le_refl _)
      unfold run_end
      omega
    unfold create_edits at h
    split_ifs at h with h1 h2 h3 h4 h5 h6 h7 h8 h9
    · simp only [List.nil_append, Option.some.injEq] at h
      subst h
      intro e he
      simp only [List.mem_singleton] at he
      subst he
      show j ≤ n2 - 1
      omega
    · simp only [List.nil_append, Option.some.injEq] at h
      subst h
      intro e he
      simp only [List.mem_singleton] at he
      subst he
      show i ≤ n1 - 1
      omega
    · exact ih _ _ _ (by omega) (by omega) h
    · exact hcons (edit.ADDITION j (run_end index_mapping_reverse n2 j - 1)) _ _ hi
        (hrun index_mapping_reverse n2 j (by omega)).2
        (hrun index_mapping_reverse n2 j (by omega)).1 h
    · exact hcons (edit.REMOVAL i (run_end index_mapping n1 i - 1)) _ _
        (hrun index_mapping n1 i (by omega)).2 hj
        (hrun index_mapping n1 i (by omega)).1 h
    · exact hcons (edit.CHANGE i (run_end index_mapping n1 i - 1) j
          (run_end index_mapping_reverse n2 j - 1)) _ _
        (hrun index_mapping n1 i (by omega)).2 (hrun index_mapping_reverse n2 j (by omega)).2
        ⟨(hrun index_mapping n1 i (by omega)).1,
          (hrun index_mapping_reverse n2 j (by omega)).1⟩ h
    · simp only [Option.some.injEq] at h
      subst h
      intro e he
      simp at he

theorem compute_differences_ranges (diag : Diag) (file1 file2 : List Entry)
    (diffs : differences) (h : compute_differences diag file1 file2 = some diffs) :
    ∀ e ∈ diffs.edits, nonempty_ranges e := by
  unfold compute_differences at h
  split at h
  · simp at h
  · split at h
    · simp at h
    · split at h
      · simp at h
      · rename_i edits he
        simp only [Option.some.injEq] at h
        subst h
        exact create_edits_ranges _ _ _ _ _ _ _ _ (Nat.zero_le _) (Nat.zero_le _) he

/-- The conflicts of the merge: with the edits of `compute_differences`, they are the
conflicts of the edits, in the order of the edits, each edit having appended conflicts
of the form given by `emitted_by`. -/
theorem merge_conflicts (fstrcmp_bounded : Fstrcmp) (diag : Diag)
    (ancestor_file mainstream_file modified_file : List Entry)
    (result_entries : List Entry) (result_conflicts : List conflict)
    (h : merge fstrcmp_bounded diag ancestor_file mainstream_file modified_file =
      some (result_entries, result_conflicts)) :
    ∃ (diffs : differences) (by_edit : List (List conflict)),
      compute_differences diag ancestor_file modified_file = some diffs ∧
      List.Forall₂ (emitted_by ancestor_file modified_file) diffs.edits by_edit ∧
      result_conflicts = by_edit.flatten := by
  unfold merge at h
  split at h
  · simp at h
  · rename_i mapping hmap
    split at h
    · simp at h
    · rename_i diffs hdiff
      split at h
      · simp at h
      · rename_i st hst
        simp only [Option.some.injEq, Prod.mk.injEq] at h
        obtain ⟨g1, g2⟩ := apply_edits_conflicts _ _ _ _ _ _ _ _ hst
        refine ⟨diffs, _, hdiff, g2, ?_⟩
        rw [← h.2, g1]
        rfl

/-! ## Lemmas: relations on lists -/

theorem forall₂_mem_right {α β : Type} (R : α → β → Prop) (l1 : List α) (l2 : List β)
    (h : List.Forall₂ R l1 l2) : ∀ y ∈ l2, ∃ x ∈ l1, R x y := by
  induction h with
  | nil => intro y hy; simp at hy
  | cons hxy _ ih =>
    intro y hy
    rcases List.mem_cons.mp hy with h1 | h1
    · subst h1
      exact ⟨_, List.mem_cons_self _ _, hxy⟩
    · obtain ⟨x, hx, hr⟩ := ih y h1
      exact ⟨x, List.mem_cons_of_mem _ hx, hr⟩

/-! ## Lemmas: the two arrays of a mapping are inverse to each other -/

theorem getD_neg_lt (l : List Int) (i : Nat) (h : l.getD i 0 < 0) : i < l.length := by
  by_contra hge
  rw [List.getD_eq_getElem?_getD, List.getElem?_eq_none (by omega)] at h
  simp at h

/-- Binding two free slots to each other keeps the arrays inverse to each other. -/
theorem mutualInv_set_pair (n1 n2 : Nat) (fwd rev : List Int) (i j : Nat)
    (hinv : MutualInv n1 n2 (fwd, rev)) (hi : fwd.getD i 0 < 0) (hj : rev.getD j 0 < 0) :
    MutualInv n1 n2 (fwd.set i (j : Int), rev.set j (i : Int)) := by
  obtain ⟨hl1, hl2, hf, hr⟩ := hinv
  simp only at hl1 hl2 hf hr
  have hil := getD_neg_lt fwd i hi
  have hjl := getD_neg_lt rev j hj
  refine ⟨by simp [hl1], by simp [hl2], ?_, ?_⟩
  · intro i' j' hi' h
    simp only [getD_set_int] at h ⊢
    by_cases e : i = i'
    · rw [if_pos ⟨e, hil⟩] at h
      have : j = j' := by omega
      subst this
      rw [if_pos ⟨rfl, hjl⟩]
      exact ⟨by omega, by rw [e]⟩
    · rw [if_neg (fun hc => e hc.1)] at h
      obtain ⟨g1, g2⟩ := hf i' j' hi' h
      refine ⟨g1, ?_⟩
      rw [if_neg (fun hc => by rw [hc.1] at hj; omega)]
      exact g2
  · intro j' i' hj' h
    simp only [getD_set_int] at h ⊢
    by_cases e : j = j'
    · rw [if_pos ⟨e, hjl⟩] at h
      have : i = i' := by omega
      subst this
      rw [if_pos ⟨rfl, hil⟩]
      exact ⟨by omega, by rw [e]⟩
    · rw [if_neg (fun hc => e hc.1)] at h
      obtain ⟨g1, g2⟩ := hr j' i' hj' h
      refine ⟨g1, ?_⟩
      rw [if_neg (fun hc => by rw [hc.1] at hi; omega)]
      exact g2

/-- Marking a free slot of `index_mapping` as "not found" keeps the arrays inverse to
each other. -/
theorem mutualInv_set_none_forward (n1 n2 : Nat) (fwd rev : List Int) (i : Nat)
    (hinv : MutualInv n1 n2 (fwd, rev)) (hi : fwd.getD i 0 < 0) :
    MutualInv n1 n2 (fwd.set i (-1), rev) := by
  obtain ⟨hl1, hl2, hf, hr⟩ := hinv
  simp only at hl1 hl2 hf hr
  have hil := getD_neg_lt fwd i hi
  refine ⟨by simp [hl1], hl2, ?_, ?_⟩
  · intro i' j' hi' h
    simp only [getD_set_int] at h
    by_cases e : i = i'
    · rw [if_pos ⟨e, hil⟩] at h
      omega
    · rw [if_neg (fun hc => e hc.1)] at h
      exact hf i' j' hi' h
  · intro j' i' hj' h
    obtain ⟨g1, g2⟩ := hr j' i' hj' h
    refine ⟨g1, ?_⟩
    simp only [getD_set_int]
    rw [if_neg (fun hc => by rw [hc.1] at hi; omega)]
    exact g2

/-- Marking a free slot of `index_mapping_reverse` as "not found" keeps the arrays
inverse to each other. -/
theorem mutualInv_set_none_reverse (n1 n2 : Nat) (fwd rev : List Int) (j : Nat)
    (hinv : MutualInv n1 n2 (fwd, rev)) (hj : rev.getD j 0 < 0) :
    MutualInv n1 n2 (fwd, rev.set j (-1)) := by
  obtain ⟨hl1, hl2, hf, hr⟩ := hinv
  simp only at hl1 hl2 hf hr
  have hjl := getD_neg_lt rev j hj
  refine ⟨hl1, by simp [hl2], ?_, ?_⟩
  · intro i' j' hi' h
    obtain ⟨g1, g2⟩ := hf i' j' hi' h
    refine ⟨g1, ?_⟩
    simp only [getD_set_int]
    rw [if_neg (fun hc => by rw [hc.1] at hj; omega)]
    exact g2
  · intro j' i' hj' h
    simp only [getD_set_int] at h
    by_cases e : j = j'
    · rw [if_pos ⟨e, hjl⟩] at h
      omega
    · rw [if_neg (fun hc => e hc.1)] at h
      exact hr j' i' hj' h

theorem mutualInv_init (n1 n2 : Nat) :
    MutualInv n1 n2 (List.replicate n1 (-2), List.replicate n2 (-2)) := by
  refine ⟨by simp, by simp, ?_, ?_⟩
  · intro i j hi h
    simp only [List.getD_eq_getElem?_getD] at h
    rw [List.getElem?_replicate] at h
    simp [hi] at h
  · intro j i hj h
    simp only [List.getD_eq_getElem?_getD] at h
    rw [List.getElem?_replicate] at h
    simp [hj] at h

theorem pair_occurrences_mutual (file1 file2 : List Entry) (entry : Entry) (n1 n2 : Nat) :
    ∀ (fuel curr_i curr_j : Nat) (arrays arrays1 : List Int × List Int),
      MutualInv n1 n2 arrays →
      pair_occurrences file1 file2 entry fuel curr_i curr_j arrays = some arrays1 →
      MutualInv n1 n2 arrays1 := by
  intro fuel
  induction fuel with
  | zero => intro _ _ arrays _ _ h; simp [pair_occurrences] at h
  | succ f ih =>
    intro curr_i curr_j arrays arrays1 hinv h
    obtain ⟨fwd, rev⟩ := arrays
    unfold pair_occurrences at h
    dsimp only at h
    split_ifs at h with c1 c2 c3
    · simp only [Option.some.injEq] at h; rw [← h]; exact hinv
    · simp only [Option.some.injEq] at h; rw [← h]; exact hinv
    · exact ih _ _ _ _ (mutualInv_set_pair n1 n2 fwd rev _ _ hinv c3.1 c3.2) h

theorem exact_step_mutual (file1 file2 : List Entry) (n1 n2 i : Nat)
    (arrays arrays1 : List Int × List Int) (hinv : MutualInv n1 n2 arrays)
    (h : exact_step file1 file2 i arrays = some arrays1) : MutualInv n1 n2 arrays1 := by
  obtain ⟨fwd, rev⟩ := arrays
  unfold exact_step at h
  dsimp only at h
  split_ifs at h with c1 c2 c3
  · exact pair_occurrences_mutual file1 file2 _ n1 n2 _ _ _ _ _
      (mutualInv_set_pair n1 n2 fwd rev _ _ hinv (by omega) c3) h
  · simp only [Option.some.injEq] at h; rw [← h]; exact hinv
  · simp only [Option.some.injEq] at h; rw [← h]; exact hinv
  · simp only [Option.some.injEq] at h; rw [← h]; exact hinv

theorem exact_pass_mutual (file1 file2 : List Entry) (n1 n2 : Nat) :
    ∀ (n : Nat) (arrays arrays1 : List Int × List Int), MutualInv n1 n2 arrays →
      exact_pass file1 file2 n arrays = some arrays1 → MutualInv n1 n2 arrays1 := by
  intro n
  induction n with
  | zero =>
    intro arrays arrays1 hinv h
    simp only [exact_pass, Option.some.injEq] at h
    rw [← h]; exact hinv
  | succ n ih =>
    intro arrays arrays1 hinv h
    unfold exact_pass at h
    cases hs : exact_step file1 file2 n arrays with
    | none => rw [hs] at h; simp at h
    | some a =>
      rw [hs] at h
      exact ih a arrays1 (exact_step_mutual _ _ _ _ _ _ _ hinv hs) h

/-- The best index kept by the search over FILE2 is, once a similarity above 0 was
seen, the index of a free slot of `index_mapping_reverse`. -/
theorem search_file2_free (fstrcmp_bounded : Fstrcmp) (file2 : List Entry)
    (index_mapping_reverse : List Int) (entry_i : Entry) :
    ∀ (count : Nat) (best : Int × ℚ),
      (0 ≤ best.2 ∧ (0 < best.2 → ∃ j : Nat, best.1 = (j : Int) ∧
        index_mapping_reverse.getD j 0 < 0)) →
      0 ≤ (search_file2 fstrcmp_bounded file2 index_mapping_reverse entry_i count best).2 ∧
      (0 < (search_file2 fstrcmp_bounded file2 index_mapping_reverse entry_i count best).2 →
        ∃ j : Nat,
          (search_file2 fstrcmp_bounded file2 index_mapping_reverse entry_i count best).1
            = (j : Int) ∧ index_mapping_reverse.getD j 0 < 0) := by
  intro count
  induction count with
  | zero => intro best h; exact h
  | succ c ih =>
    intro best h
    unfold search_file2
    apply ih
    split_ifs with c1 c2
    · exact ⟨le_of_lt (lt_of_le_of_lt h.1 c2), fun _ => ⟨c, rfl, c1⟩⟩
    · exact h
    · exact h

/-- The best index kept by the search over FILE1 is, once a similarity above 0 was
seen, the index of a free slot of `index_mapping`. -/
theorem search_file1_free (fstrcmp_bounded : Fstrcmp) (file1 : List Entry)
    (index_mapping : List Int) (entry_j : Entry) :
    ∀ (count : Nat) (best : Int × ℚ),
      (0 ≤ best.2 ∧ (0 < best.2 → ∃ i : Nat, best.1 = (i : Int) ∧
        index_mapping.getD i 0 < 0)) →
      0 ≤ (search_file1 fstrcmp_bounded file1 index_mapping entry_j count best).2 ∧
      (0 < (search_file1 fstrcmp_bounded file1 index_mapping entry_j count best).2 →
        ∃ i : Nat,
          (search_file1 fstrcmp_bounded file1 index_mapping entry_j count best).1
            = (i : Int) ∧ index_mapping.getD i 0 < 0) := by
  intro count
  induction count with
  | zero => intro best h; exact h
  | succ c ih =>
    intro best h
    unfold search_file1
    apply ih
    split_ifs with c1 c2
    · exact ⟨le_of_lt (lt_of_le_of_lt h.1 c2), fun _ => ⟨c, rfl, c1⟩⟩
    · exact h
    · exact h

theorem threshold_pos : (0 : ℚ) < FSTRCMP_THRESHOLD := by
  norm_num [FSTRCMP_THRESHOLD]

theorem entries_mapping_get_mutual (fstrcmp_bounded : Fstrcmp) (mapping : entries_mapping)
    (n1 n2 i : Nat)
    (hinv : MutualInv n1 n2 (mapping.index_mapping, mapping.index_mapping_reverse)) :
    MutualInv n1 n2
      ((entries_mapping_get fstrcmp_bounded mapping i).2.index_mapping,
       (entries_mapping_get fstrcmp_bounded mapping i).2.index_mapping_reverse) := by
  unfold entries_mapping_get
  by_cases c1 : mapping.index_mapping.getD i 0 < -1
  swap
  · rw [if_neg c1]; exact hinv
  rw [if_pos c1]
  dsimp only
  have hstep : ∀ m1 : entries_mapping,
      MutualInv n1 n2 (m1.index_mapping, m1.index_mapping_reverse) →
      MutualInv n1 n2
        ((if m1.index_mapping.getD i 0 < -1 then
            { m1 with index_mapping := m1.index_mapping.set i (-1) } else m1).index_mapping,
         (if m1.index_mapping.getD i 0 < -1 then
            { m1 with index_mapping := m1.index_mapping.set i (-1) }
            else m1).index_mapping_reverse) := by
    intro m1 h1
    split_ifs with c
    · exact mutualInv_set_none_forward n1 n2 _ _ i h1 (by omega)
    · exact h1
  apply hstep
  split_ifs with c2 c3
  · obtain ⟨_, hfree⟩ := search_file2_free fstrcmp_bounded mapping.file2
      mapping.index_mapping_reverse (mapping.file1.getD i []) mapping.file2.length (-1, 0)
      ⟨le_refl _, fun h => absurd h (lt_irrefl _)⟩
    obtain ⟨j, hj1, hj2⟩ := hfree (lt_of_lt_of_le threshold_pos c2)
    rw [hj1, Int.toNat_ofNat]
    exact mutualInv_set_pair n1 n2 _ _ i j hinv (by omega) hj2
  · exact hinv
  · exact hinv

theorem entries_mapping_reverse_get_mutual (fstrcmp_bounded : Fstrcmp)
    (mapping : entries_mapping) (n1 n2 j : Nat)
    (hinv : MutualInv n1 n2 (mapping.index_mapping, mapping.index_mapping_reverse)) :
    MutualInv n1 n2
      ((entries_mapping_reverse_get fstrcmp_bounded mapping j).2.index_mapping,
       (entries_mapping_reverse_get fstrcmp_bounded mapping j).2.index_mapping_reverse) := by
  unfold entries_mapping_reverse_get
  by_cases c1 : mapping.index_mapping_reverse.getD j 0 < -1
  swap
  · rw [if_neg c1]; exact hinv
  rw [if_pos c1]
  dsimp only
  have hstep : ∀ m1 : entries_mapping,
      MutualInv n1 n2 (m1.index_mapping, m1.index_mapping_reverse) →
      MutualInv n1 n2
        ((if m1.index_mapping_reverse.getD j 0 < -1 then
            { m1 with index_mapping_reverse := m1.index_mapping_reverse.set j (-1) }
            else m1).index_mapping,
         (if m1.index_mapping_reverse.getD j 0 < -1 then
            { m1 with index_mapping_reverse := m1.index_mapping_reverse.set j (-1) }
            else m1).index_mapping_reverse) := by
    intro m1 h1
    split_ifs with c
    · exact mutualInv_set_none_reverse n1 n2 _ _ j h1 (by omega)
    · exact h1
  apply hstep
  split_ifs with c2 c3
  · obtain ⟨_, hfree⟩ := search_file1_free fstrcmp_bounded mapping.file1
      mapping.index_mapping (mapping.file2.getD j []) mapping.file1.length (-1, 0)
      ⟨le_refl _, fun h => absurd h (lt_irrefl _)⟩
    obtain ⟨i, hi1, hi2⟩ := hfree (lt_of_lt_of_le threshold_pos c2)
    rw [hi1, Int.toNat_ofNat]
    exact mutualInv_set_pair n1 n2 _ _ i j hinv hi2 (by omega)
  · exact hinv
  · exact hinv

theorem full_pass_mutual (fstrcmp_bounded : Fstrcmp) (n1 n2 : Nat) :
    ∀ (count : Nat) (mapping : entries_mapping),
      MutualInv n1 n2 (mapping.index_mapping, mapping.index_mapping_reverse) →
      MutualInv n1 n2
        ((full_pass fstrcmp_bounded count mapping).index_mapping,
         (full_pass fstrcmp_bounded count mapping).index_mapping_reverse) := by
  intro count
  induction count with
  | zero => intro mapping h; exact h
  | succ c ih =>
    intro mapping h
    unfold full_pass
    exact ih _ (entries_mapping_get_mutual fstrcmp_bounded mapping n1 n2 c h)

theorem probed_mutual (fstrcmp_bounded : Fstrcmp) (mapping0 mapping : entries_mapping)
    (n1 n2 : Nat)
    (h0 : MutualInv n1 n2 (mapping0.index_mapping, mapping0.index_mapping_reverse))
    (h : Probed fstrcmp_bounded mapping0 mapping) :
    MutualInv n1 n2 (mapping.index_mapping, mapping.index_mapping_reverse) := by
  induction h with
  | start => exact h0
  | get m i _ ih => exact entries_mapping_get_mutual fstrcmp_bounded m n1 n2 i ih
  | reverse_get m j _ ih => exact entries_mapping_reverse_get_mutual fstrcmp_bounded m n1 n2 j ih

/-- The function `compute_mapping` returns, for either value of `full`, and the
arrays of its result are inverse to each other. -/
theorem compute_mapping_mutual (fstrcmp_bounded : Fstrcmp) (file1 file2 : List Entry)
    (full : Bool) :
    ∃ mapping0, compute_mapping fstrcmp_bounded file1 file2 full = some mapping0 ∧
      MutualInv file1.length file2.length
        (mapping0.index_mapping, mapping0.index_mapping_reverse) := by
  obtain ⟨a, h, -⟩ := exact_pass_ok file1 file2 file1.length _ (le_refl _)
    (exactInv_init file1 file2)
  have hinv := exact_pass_mutual file1 file2 file1.length file2.length _ _ a
    (mutualInv_init _ _) h
  obtain ⟨fwd, rev⟩ := a
  refine ⟨_, by simp only [compute_mapping, h]; rfl, ?_⟩
  cases full with
  | false => exact hinv
  | true => exact full_pass_mutual fstrcmp_bounded _ _ _ _ hinv

/-! ## Lemmas: the positions covered by the edits -/

theorem Path.all_ins {D I : Nat → Prop} {P : Nat → Nat → Prop} {i j i' j' : Nat}
    (h : Path D I P i j i' j') : i = i' → ∀ t, j ≤ t → t < j' → I t := by
  induction h with
  | done => intro _ t h1 h2; omega
  | del _ _ _ _ _ hp _ => intro he; have := hp.le; omega
  | ins a b c d hi _ ih =>
    intro he t h1 h2
    by_cases ht : t = b
    · rw [ht]; exact hi
    · exact ih he t (by omega) h2
  | both _ _ _ _ _ hp _ => intro he; have := hp.le; omega

theorem Path.all_del {D I : Nat → Prop} {P : Nat → Nat → Prop} {i j i' j' : Nat}
    (h : Path D I P i j i' j') : j = j' → ∀ t, i ≤ t → t < i' → D t := by
  induction h with
  | done => intro _ t h1 h2; omega
  | ins _ _ _ _ _ hp _ => intro he; have := hp.le; omega
  | del a b c d hd _ ih =>
    intro he t h1 h2
    by_cases ht : t = a
    · rw [ht]; exact hd
    · exact ih he t (by omega) h2
  | both _ _ _ _ _ hp _ => intro he; have := hp.le; omega

/-- The slots from a marked slot `t` up to `run_end` are all marked. -/
theorem run_end_marked (marks : List Int) (n t : Nat) (ht : t < n) (hm : marks.getD t 0 < 0) :
    t < run_end marks n t ∧ run_end marks n t ≤ n ∧
    ∀ s, t ≤ s → s < run_end marks n t → marks.getD s 0 < 0 := by
  obtain ⟨g1, g2, g3, _⟩ := skip_marked_spec marks n (n - (t + 1)) (t + 1) (by omega)
    (le_refl _)
  refine ⟨by unfold run_end; omega, g2, ?_⟩
  intro s hs1 hs2
  by_cases hst : s = t
  · rw [hst]; exact hm
  · exact g3 s (by omega) hs2

/-- The positions covered by a list of edits that starts with an edit for the entries
`i .. a - 1` of FILE1 and `j .. b - 1` of FILE2, all of them marked, and goes on with
edits that cover the marked positions from `(a, b)` on. -/
theorem cover_cons (n1 n2 : Nat) (ctxt : List Int × List Int) (e : edit) (rest : List edit)
    (i j a b : Nat) (hia : i ≤ a) (hjb : j ≤ b) (ha : a ≤ n1) (hb : b ≤ n2)
    (h1 : ∀ t, covers_file1 e t = decide (i ≤ t ∧ t < a))
    (h2 : ∀ t, covers_file2 e t = decide (j ≤ t ∧ t < b))
    (hm1 : ∀ t, i ≤ t → t < a → ctxt.1.getD t 0 < 0)
    (hm2 : ∀ t, j ≤ t → t < b → ctxt.2.getD t 0 < 0)
    (hr1 : ∀ t, rest.countP (fun e => covers_file1 e t) =
      if a ≤ t ∧ t < n1 ∧ ctxt.1.getD t 0 < 0 then 1 else 0)
    (hr2 : ∀ t, rest.countP (fun e => covers_file2 e t) =
      if b ≤ t ∧ t < n2 ∧ ctxt.2.getD t 0 < 0 then 1 else 0) :
    (∀ t, (e :: rest).countP (fun e => covers_file1 e t) =
      if i ≤ t ∧ t < n1 ∧ ctxt.1.getD t 0 < 0 then 1 else 0) ∧
    (∀ t, (e :: rest).countP (fun e => covers_file2 e t) =
      if j ≤ t ∧ t < n2 ∧ ctxt.2.getD t 0 < 0 then 1 else 0) := by
  constructor
  · intro t
    rw [List.countP_cons, hr1 t, h1 t]
    simp only [decide_eq_true_eq]
    have := hm1 t
    split_ifs with c1 c2 c3 c4 c5 <;> first | rfl | (exfalso; omega)
  · intro t
    rw [List.countP_cons, hr2 t, h2 t]
    simp only [decide_eq_true_eq]
    have := hm2 t
    split_ifs with c1 c2 c3 c4 c5 <;> first | rfl | (exfalso; omega)

/-- The loop that creates the edits returns, and every marked position from `(i, j)` on
lies in the range of exactly one of its edits, the other positions in none. -/
theorem create_edits_cover (xv yv : List Entry) (ctxt : List Int × List Int) :
    ∀ (fuel i j : Nat), (xv.length - i) + (yv.length - j) < fuel →
      Path (Deleted ctxt) (Inserted ctxt) (Paired xv yv ctxt) i j xv.length yv.length →
      ∃ edits, create_edits xv.length yv.length ctxt.1 ctxt.2 fuel i j [] = some edits ∧
        (∀ t, edits.countP (fun e => covers_file1 e t) =
          if i ≤ t ∧ t < xv.length ∧ ctxt.1.getD t 0 < 0 then 1 else 0) ∧
        (∀ t, edits.countP (fun e => covers_file2 e t) =
          if j ≤ t ∧ t < yv.length ∧ ctxt.2.getD t 0 < 0 then 1 else 0) := by
  intro fuel
  induction fuel with
  | zero => intro i j h; omega
  | succ f ih =>
    intro i j hfuel hpath
    have hle := hpath.le
    have hnil : (∀ t, ([] : List edit).countP (fun e => covers_file1 e t) =
          if xv.length ≤ t ∧ t < xv.length ∧ ctxt.1.getD t 0 < 0 then 1 else 0) ∧
        (∀ t, ([] : List edit).countP (fun e => covers_file2 e t) =
          if yv.length ≤ t ∧ t < yv.length ∧ ctxt.2.getD t 0 < 0 then 1 else 0) := by
      constructor <;> intro t <;> rw [if_neg (by omega)] <;> rfl
    have hcons : ∀ (e : edit) (a b : Nat), i ≤ a → j ≤ b → a ≤ xv.length → b ≤ yv.length →
        (∀ t, covers_file1 e t = decide (i ≤ t ∧ t < a)) →
        (∀ t, covers_file2 e t = decide (j ≤ t ∧ t < b)) →
        (∀ t, i ≤ t → t < a → ctxt.1.getD t 0 < 0) →
        (∀ t, j ≤ t → t < b → ctxt.2.getD t 0 < 0) →
        (∃ rest, create_edits xv.length yv.length ctxt.1 ctxt.2 f a b [] = some rest ∧
          (∀ t, rest.countP (fun e => covers_file1 e t) =
            if a ≤ t ∧ t < xv.length ∧ ctxt.1.getD t 0 < 0 then 1 else 0) ∧
          (∀ t, rest.countP (fun e => covers_file2 e t) =
            if b ≤ t ∧ t < yv.length ∧ ctxt.2.getD t 0 < 0 then 1 else 0)) →
        ∃ edits, create_edits xv.length yv.length ctxt.1 ctxt.2 f a b ([] ++ [e])
            = some edits ∧
          (∀ t, edits.countP (fun e => covers_file1 e t) =
            if i ≤ t ∧ t < xv.length ∧ ctxt.1.getD t 0 < 0 then 1 else 0) ∧
          (∀ t, edits.countP (fun e => covers_file2 e t) =
            if j ≤ t ∧ t < yv.length ∧ ctxt.2.getD t 0 < 0 then 1 else 0) := by
      intro e a b hia hjb ha hb h1 h2 hm1 hm2 ⟨rest, hrest, hr1, hr2⟩
      refine ⟨e :: rest, ?_, cover_cons _ _ ctxt e rest i j a b hia hjb ha hb h1 h2 hm1 hm2
        hr1 hr2⟩
      rw [create_edits_acc, hrest]
      rfl
    have hrange : ∀ (lo hi t : Nat), lo < hi →
        decide (lo ≤ t ∧ t ≤ hi - 1) = decide (lo ≤ t ∧ t < hi) := by
      intro lo hi t h
      congr 1
      apply propext
      constructor <;> intro hh <;> omega
    have hempty : ∀ (lo t : Nat), false = decide (lo ≤ t ∧ t < lo) := by
      intro lo t
      symm
      rw [decide_eq_false_iff_not]
      omega
    unfold create_edits
    by_cases hend : i < xv.length ∨ j < yv.length
    swap
    · rw [if_neg hend]
      refine ⟨[], rfl, ?_, ?_⟩ <;> intro t <;> rw [if_neg (by omega)] <;> rfl
    rw [if_pos hend]
    by_cases hi : i = xv.length
    · rw [if_pos hi, if_pos (by omega)]
      have hins := hpath.all_ins hi
      refine ⟨_, rfl, ?_⟩
      rw [List.nil_append]
      exact cover_cons _ _ ctxt _ [] i j xv.length yv.length (by omega) (by omega) (le_refl _)
        (le_refl _) (fun t => by rw [hi]; exact hempty _ _)
        (fun t => hrange _ _ _ (by omega)) (fun t h1 h2 => by omega) hins hnil.1 hnil.2
    rw [if_neg hi]
    by_cases hj : j = yv.length
    · rw [if_pos hj, if_pos (by omega)]
      have hdel := hpath.all_del hj
      refine ⟨_, rfl, ?_⟩
      rw [List.nil_append]
      exact cover_cons _ _ ctxt _ [] i j xv.length yv.length (by omega) (by omega) (le_refl _)
        (le_refl _) (fun t => hrange _ _ _ (by omega))
        (fun t => by rw [hj]; exact hempty _ _) hdel (fun t h1 h2 => by omega) hnil.1 hnil.2
    rw [if_neg hj]
    have hi1 : i < xv.length := by omega
    have hj1 : j < yv.length := by omega
    by_cases hFi : ctxt.1.getD i 0 ≥ 0
    · rw [if_pos hFi]
      by_cases hRj : ctxt.2.getD j 0 ≥ 0
      · rw [if_pos hRj]
        rcases hpath.at_unmarked (by unfold Deleted; omega) (by unfold Inserted; omega) with
          h | ⟨hp, hnext⟩
        · omega
        · rw [if_pos ⟨hp.1, hp.2.1⟩]
          obtain ⟨rest, hrest, hr1, hr2⟩ := ih (i + 1) (j + 1) (by omega) hnext
          refine ⟨rest, hrest, ?_, ?_⟩
          · intro t
            rw [hr1 t]
            by_cases ht : t = i
            · rw [ht, if_neg (by omega), if_neg (by omega)]
            · split_ifs <;> first | rfl | (exfalso; omega)
          · intro t
            rw [hr2 t]
            by_cases ht : t = j
            · rw [ht, if_neg (by omega), if_neg (by omega)]
            · split_ifs <;> first | rfl | (exfalso; omega)
      · rw [if_neg hRj]
        obtain ⟨g1, g2, g3⟩ := run_end_marked ctxt.2 yv.length j hj1 (by omega)
        obtain ⟨_, _, _, g4⟩ := Path.run_end_ins xv yv ctxt _ _ i j hpath hj1 (by omega)
        exact hcons _ i _ (le_refl _) (by omega) (by omega) g2
          (fun t => hempty _ _) (fun t => hrange _ _ _ g1)
          (fun t h1 h2 => by omega) g3 (ih i _ (by omega) g4)
    · rw [if_neg hFi]
      obtain ⟨d1, d2, d3⟩ := run_end_marked ctxt.1 xv.length i hi1 (by omega)
      obtain ⟨_, _, _, d4⟩ := Path.run_end_del xv yv ctxt _ _ i j hpath hi1 (by omega)
      by_cases hRj : ctxt.2.getD j 0 ≥ 0
      · rw [if_pos hRj]
        exact hcons _ _ j (by omega) (le_refl _) d2 (by omega)
          (fun t => hrange _ _ _ d1) (fun t => hempty _ _)
          d3 (fun t h1 h2 => by omega) (ih _ j (by omega) d4)
      · rw [if_neg hRj]
        obtain ⟨g1, g2, g3⟩ := run_end_marked ctxt.2 yv.length j hj1 (by omega)
        obtain ⟨_, _, _, g4⟩ := Path.run_end_ins xv yv ctxt _ _ _ j d4 hj1 (by omega)
        exact hcons _ _ _ (by omega) (by omega) d2 g2
          (fun t => hrange _ _ _ d1) (fun t => hrange _ _ _ g1)
          d3 g3 (ih _ _ (by omega) g4)

/-- With a midpoint search that stays in its window and makes progress,
`compute_differences` returns, and its two arrays describe a walk through the two files
from which the loop that creates the edits has made the edits. -/
theorem compute_differences_path (diag : Diag) (file1 file2 : List Entry)
    (hd : DiagOk diag file1 file2) :
    ∃ (ctxt : List Int × List Int) (edits : List edit),
      compute_differences diag file1 file2 =
        some { index_mapping := ctxt.1, index_mapping_reverse := ctxt.2, edits := edits } ∧
      ctxt.1.length = file1.length ∧ ctxt.2.length = file2.length ∧
      Path (Deleted ctxt) (Inserted ctxt) (Paired file1 file2 ctxt) 0 0
        file1.length file2.length ∧
      create_edits file1.length file2.length ctxt.1 ctxt.2
        (file1.length + file2.length + 1) 0 0 [] = some edits := by
  obtain ⟨marks, hm, ml1, ml2, _, _, mpath⟩ := compareseq_path diag file1 file2 hd
    (file1.length + file2.length + 1) 0 file1.length 0 file2.length
    (List.replicate file1.length 0, List.replicate file2.length 0)
    (Nat.zero_le _) (Nat.zero_le _) (le_refl _) (le_refl _) (by simp) (by simp) (by omega)
    (fun i _ _ => by rw [replicate_zero_getD]) (fun j _ _ => by rw [replicate_zero_getD])
  obtain ⟨ctxt, hc, cl1, cl2, _, _, cpath⟩ := complete_mapping_path file1 file2
    (file1.length + file2.length + 1) 0 0 marks ml1 ml2 (by omega) (Path.done 0 0) mpath
  obtain ⟨edits, he, _⟩ := create_edits_cover file1 file2 ctxt
    (file1.length + file2.length + 1) 0 0 (by omega) cpath
  exact ⟨ctxt, edits, compute_differences_steps diag file1 file2 _ _ marks ctxt edits
    rfl rfl hm hc he, cl1, cl2, cpath, he⟩

/-! ## Lemmas: scenario S3 -/

/-- The mapping from `[E1, E2]` to `[E1a, E2]` after the exact pass, `E1a` being other
than `E1`: the second entries are paired and the first entries are not yet looked up
(also when `E2` is equal to `E1` or to `E1a`). -/
theorem mapping_S3 (fstrcmp_bounded : Fstrcmp) (E1 E2 E1a : Entry) (h : E1 ≠ E1a) :
    compute_mapping fstrcmp_bounded [E1, E2] [E1a, E2] false =
      some { file1 := [E1, E2], file2 := [E1a, E2], index_mapping := [-2, 1],
             index_mapping_reverse := [-2, 1] } := by
  have h1 := entry_equals_ne _ _ h
  have h2 := entry_equals_ne _ _ (Ne.symm h)
  by_cases c1 : E1 = E2
  · subst c1
    simp [compute_mapping, exact_pass, exact_step, pair_occurrences, gl_list_indexof,
      gl_list_indexof_from, entry_equals_self, h1, h2]
  · by_cases c2 : E1a = E2
    · subst c2
      simp [compute_mapping, exact_pass, exact_step, pair_occurrences, gl_list_indexof,
        gl_list_indexof_from, entry_equals_self, h1, h2]
    · simp [compute_mapping, exact_pass, exact_step, pair_occurrences, gl_list_indexof,
        gl_list_indexof_from, entry_equals_self, h1, h2, entry_equals_ne _ _ c1,
        entry_equals_ne _ _ (Ne.symm c1), entry_equals_ne _ _ c2,
        entry_equals_ne _ _ (Ne.symm c2)]

/-- The lookup of the first ancestor entry in the mapping of scenario S3 does not find a
mainstream entry equal to it: the result is negative or the index 0, where `E1a`
stands. -/
theorem lookup_S3 (fstrcmp_bounded : Fstrcmp) (E1 E2 E1a : Entry) (h : E1 ≠ E1a) :
    ¬ ((entries_mapping_get fstrcmp_bounded
          { file1 := [E1, E2], file2 := [E1a, E2], index_mapping := [-2, 1],
            index_mapping_reverse := [-2, 1] } 0).1 ≥ 0 ∧
        entry_equals E1 (([E1a, E2] : List Entry).getD
          (entries_mapping_get fstrcmp_bounded
            { file1 := [E1, E2], file2 := [E1a, E2], index_mapping := [-2, 1],
              index_mapping_reverse := [-2, 1] } 0).1.toNat []) = true) := by
  obtain ⟨mapping0, hm0⟩ : ∃ mapping0 : entries_mapping, mapping0 =
      { file1 := [E1, E2], file2 := [E1a, E2], index_mapping := [-2, 1],
        index_mapping_reverse := [-2, 1] } := ⟨_, rfl⟩
  rw [← hm0]
  have hinv0 : MutualInv 2 2 (mapping0.index_mapping, mapping0.index_mapping_reverse) := by
    have := compute_mapping_mutual fstrcmp_bounded [E1, E2] [E1a, E2] false
    rw [mapping_S3 fstrcmp_bounded E1 E2 E1a h] at this
    obtain ⟨m, h1, h2⟩ := this
    rw [hm0, Option.some.inj h1]
    exact h2
  obtain ⟨_, _, hf, _⟩ := entries_mapping_get_mutual fstrcmp_bounded mapping0 2 2 0 hinv0
  obtain ⟨_, _, _, hval⟩ := entries_mapping_get_files fstrcmp_bounded mapping0 0
  have h1 : (entries_mapping_get fstrcmp_bounded mapping0 0).2.index_mapping.getD 1 0 = 1 := by
    rcases entries_mapping_get_change fstrcmp_bounded mapping0 0 1 with g | ⟨g, _⟩
    · rw [g, hm0]; rfl
    · omega
  intro ⟨hk, heq⟩
  obtain ⟨k, hkk⟩ : ∃ k : Nat, (entries_mapping_get fstrcmp_bounded mapping0 0).1 = (k : Int) :=
    ⟨_, (Int.toNat_of_nonneg hk).symm⟩
  rw [hkk, Int.toNat_ofNat] at heq
  obtain ⟨g1, g2⟩ := hf 0 k (by omega) (by rw [← hval, hkk])
  have g3 := hf 1 1 (by omega) (by rw [h1]; rfl)
  have hk0 : k = 0 := by
    by_contra hne
    have : k = 1 := by omega
    rw [this] at g2
    rw [g2] at g3
    have := g3.2
    omega
  rw [hk0] at heq
  exact absurd ((entry_equals_iff _ _).mp heq) h

/-- A CHANGE of the first entry alone, at the top, when the split of a merged entry
does not apply and the lookup of the ancestor entry does not find an equal mainstream
entry: the result entries stay as they are and one conflict, with the ancestor entry
and the changed entry, is appended (by the simple change or by the big change). -/
theorem apply_change_first_conflict (fstrcmp_bounded : Fstrcmp)
    (ancestor_file mainstream_file modified_file : List Entry) (diffs : differences)
    (st : merge_state)
    (hsplit : try_split_merged_entry fstrcmp_bounded (ancestor_file.getD 0 [])
      (modified_file.getD 0 []) = some none)
    (hlook : ¬ ((entries_mapping_get fstrcmp_bounded st.mapping 0).1 ≥ 0 ∧
      entry_equals (ancestor_file.getD 0 [])
        (mainstream_file.getD (entries_mapping_get fstrcmp_bounded st.mapping 0).1.toNat [])
        = true))
    (hne : entry_equals (ancestor_file.getD 0 []) (modified_file.getD 0 []) = false) :
    apply_edit fstrcmp_bounded ancestor_file mainstream_file modified_file diffs
        (edit.CHANGE 0 0 0 0) st =
      some { mapping := (entries_mapping_get fstrcmp_bounded st.mapping 0).2
             result_entries := st.result_entries
             result_conflicts := st.result_conflicts ++
               [{ old_entries := [ancestor_file.getD 0 []],
                  modified_entries := [modified_file.getD 0 []] }] } := by
  show apply_change _ _ _ _ _ _ _ _ _ _ = _
  unfold apply_change
  rw [change_simple_merged_declined _ _ _ _ _ _ _ _ _ (Or.inr (Or.inl hsplit))]
  dsimp only
  unfold change_simple_or_big
  by_cases hs : 0 - 0 ≤ 0 - 0 ∧
      all_similar fstrcmp_bounded ancestor_file modified_file 0 0 (0 + 1 - 0) 0 = true
  · rw [if_pos hs]
    dsimp only
    rw [if_pos rfl]
    have htop : top_changes fstrcmp_bounded ancestor_file mainstream_file modified_file 0 0
        (0 + 1 - (0 + (0 - 0 + 1 - (0 - 0 + 1)))) (0 + (0 - 0 + 1 - (0 - 0 + 1)))
        { st with result_entries :=
            add_first_desc modified_file 0 (0 - 0 + 1 - (0 - 0 + 1)) st.result_entries } =
        some { mapping := (entries_mapping_get fstrcmp_bounded st.mapping 0).2
               result_entries := st.result_entries
               result_conflicts := st.result_conflicts ++
                 [{ old_entries := [ancestor_file.getD 0 []],
                    modified_entries := [modified_file.getD 0 []] }] } := by
      show top_changes fstrcmp_bounded ancestor_file mainstream_file modified_file 0 0 1 0
        { mapping := st.mapping, result_entries := st.result_entries,
          result_conflicts := st.result_conflicts } = _
      unfold top_changes
      dsimp only
      rw [if_neg hlook, if_neg (by rw [hne]; simp)]
      rfl
    rw [htop]
  · rw [if_neg hs]
    dsimp only
    rw [if_neg hlook]
    dsimp only
    rw [if_neg (by simp)]
    rfl

/-- The merge of scenario S3 when the split of a merged entry does not apply to the
entry changed on the modified side: one conflict, and the mainstream entries. -/
theorem merge_scenario_S3 (fstrcmp_bounded : Fstrcmp) (diag : Diag) (E1 E2 E1a E1b : Entry)
    (ha : E1 ≠ E1a) (hb : E1 ≠ E1b)
    (hsplit : try_split_merged_entry fstrcmp_bounded E1 E1b = some none)
    (hdiag : diag [E1, E2] [E1b, E2] 0 1 0 1 = (1, 0) ∨
      diag [E1, E2] [E1b, E2] 0 1 0 1 = (0, 1)) :
    merge fstrcmp_bounded diag [E1, E2] [E1a, E2] [E1b, E2] =
      some ([E1a, E2], [{ old_entries := [E1], modified_entries := [E1b] }]) := by
  unfold merge
  rw [mapping_S3 fstrcmp_bounded E1 E2 E1a ha, differences_S2 diag E1 E2 E1b hb hdiag]
  dsimp only
  have key := apply_change_first_conflict fstrcmp_bounded [E1, E2] [E1a, E2] [E1b, E2]
    { index_mapping := [-1, 1], index_mapping_reverse := [-1, 1],
      edits := [edit.CHANGE 0 0 0 0] }
    { mapping := { file1 := [E1, E2], file2 := [E1a, E2], index_mapping := [-2, 1],
                   index_mapping_reverse := [-2, 1] },
      result_entries := initial_result [E1a, E2], result_conflicts := [] }
    hsplit (lookup_S3 fstrcmp_bounded E1 E2 E1a ha) (entry_equals_ne _ _ hb)
  rw [apply_edits_cons _ _ _ _ _ _ _ _ _ key]
  simp [apply_edits, initial_result, List.range_succ]

/-! ## Lemmas: entries with a NUL byte -/

theorem entry_fstrcmp_nul (fstrcmp_bounded : Fstrcmp) (entry1 entry2 : Entry)
    (lower_bound : ℚ) (h : (0 : Byte) ∈ entry1 ∨ (0 : Byte) ∈ entry2) :
    entry_fstrcmp fstrcmp_bounded entry1 entry2 lower_bound = 0 := by
  unfold entry_fstrcmp
  by_cases h1 : (0 : Byte) ∈ entry1
  · rw [if_pos h1]
  · rw [if_neg h1, if_pos (h.resolve_left h1)]

theorem entry_fstrcmp_pos (fstrcmp_bounded : Fstrcmp) (entry1 entry2 : Entry)
    (lower_bound : ℚ) (h : 0 < entry_fstrcmp fstrcmp_bounded entry1 entry2 lower_bound) :
    (0 : Byte) ∉ entry1 ∧ (0 : Byte) ∉ entry2 := by
  constructor
  · intro h1
    rw [entry_fstrcmp_nul _ _ _ _ (Or.inl h1)] at h
    exact lt_irrefl _ h
  · intro h2
    rw [entry_fstrcmp_nul _ _ _ _ (Or.inr h2)] at h
    exact lt_irrefl _ h

/-- The search over FILE2 for an entry with a NUL byte finds nothing. -/
theorem search_file2_nul (fstrcmp_bounded : Fstrcmp) (file2 : List Entry)
    (index_mapping_reverse : List Int) (entry_i : Entry) (h : (0 : Byte) ∈ entry_i) :
    ∀ count : Nat,
      search_file2 fstrcmp_bounded file2 index_mapping_reverse entry_i count (-1, 0) = (-1, 0) := by
  intro count
  induction count with
  | zero => rfl
  | succ c ih =>
    unfold search_file2
    rw [entry_fstrcmp_nul _ _ _ _ (Or.inl h)]
    simpa using ih

/-- The search over FILE1 for an entry with a NUL byte finds nothing. -/
theorem search_file1_nul (fstrcmp_bounded : Fstrcmp) (file1 : List Entry)
    (index_mapping : List Int) (entry_j : Entry) (h : (0 : Byte) ∈ entry_j) :
    ∀ count : Nat,
      search_file1 fstrcmp_bounded file1 index_mapping entry_j count (-1, 0) = (-1, 0) := by
  intro count
  induction count with
  | zero => rfl
  | succ c ih =>
    unfold search_file1
    rw [entry_fstrcmp_nul _ _ _ _ (Or.inr h)]
    simpa using ih

/-- The best index kept by the search over FILE2 is, once a similarity above 0 was
seen, the index of an entry without NUL byte. -/
theorem search_file2_no_nul (fstrcmp_bounded : Fstrcmp) (file2 : List Entry)
    (index_mapping_reverse : List Int) (entry_i : Entry) :
    ∀ (count : Nat) (best : Int × ℚ),
      (0 ≤ best.2 ∧ (0 < best.2 → ∃ j : Nat, best.1 = (j : Int) ∧
        (0 : Byte) ∉ file2.getD j [])) →
      0 ≤ (search_file2 fstrcmp_bounded file2 index_mapping_reverse entry_i count best).2 ∧
      (0 < (search_file2 fstrcmp_bounded file2 index_mapping_reverse entry_i count best).2 →
        ∃ j : Nat,
          (search_file2 fstrcmp_bounded file2 index_mapping_reverse entry_i count best).1
            = (j : Int) ∧ (0 : Byte) ∉ file2.getD j []) := by
  intro count
  induction count with
  | zero => intro best h; exact h
  | succ c ih =>
    intro best h
    unfold search_file2
    apply ih
    split_ifs with c1 c2
    · exact ⟨le_of_lt (lt_of_le_of_lt h.1 c2),
        fun hp => ⟨c, rfl, (entry_fstrcmp_pos _ _ _ _ hp).2⟩⟩
    · exact h
    · exact h

/-- A lookup in FILE1 of an entry with a NUL byte that is not yet computed. -/
theorem entries_mapping_get_nul (fstrcmp_bounded : Fstrcmp) (mapping : entries_mapping)
    (i : Nat) (hi : mapping.index_mapping.getD i 0 < -1)
    (hnul : (0 : Byte) ∈ mapping.file1.getD i []) :
    entries_mapping_get fstrcmp_bounded mapping i =
      (-1, { mapping with index_mapping := mapping.index_mapping.set i (-1) }) := by
  have hlen : i < mapping.index_mapping.length := by
    by_contra hc
    rw [List.getD_eq_default _ _ (not_lt.mp hc)] at hi
    omega
  unfold entries_mapping_get
  rw [if_pos hi]
  dsimp only
  rw [search_file2_nul _ _ _ _ hnul]
  have hT : ¬ ((-1 : Int), (0 : ℚ)).2 ≥ FSTRCMP_THRESHOLD := by
    norm_num [FSTRCMP_THRESHOLD]
  rw [if_neg hT, if_pos hi]
  simp [getD_set_int, hlen]

/-- A lookup in FILE2 of an entry with a NUL byte that is not yet computed. -/
theorem entries_mapping_reverse_get_nul (fstrcmp_bounded : Fstrcmp)
    (mapping : entries_mapping) (j : Nat) (hj : mapping.index_mapping_reverse.getD j 0 < -1)
    (hnul : (0 : Byte) ∈ mapping.file2.getD j []) :
    entries_mapping_reverse_get fstrcmp_bounded mapping j =
      (-1, { mapping with
        index_mapping_reverse := mapping.index_mapping_reverse.set j (-1) }) := by
  have hlen : j < mapping.index_mapping_reverse.length := by
    by_contra hc
    rw [List.getD_eq_default _ _ (not_lt.mp hc)] at hj
    omega
  unfold entries_mapping_reverse_get
  rw [if_pos hj]
  dsimp only
  rw [search_file1_nul _ _ _ _ hnul]
  have hT : ¬ ((-1 : Int), (0 : ℚ)).2 ≥ FSTRCMP_THRESHOLD := by
    norm_num [FSTRCMP_THRESHOLD]
  rw [if_neg hT, if_pos hj]
  simp [getD_set_int, hlen]

/-- A lookup in FILE1 binds no position of FILE2 whose entry holds a NUL byte. -/
theorem entries_mapping_get_keeps_nul (fstrcmp_bounded : Fstrcmp) (mapping : entries_mapping)
    (k j : Nat) (hnul : (0 : Byte) ∈ mapping.file2.getD j []) :
    ((entries_mapping_get fstrcmp_bounded mapping k).2.index_mapping_reverse.getD j 0 =
        mapping.index_mapping_reverse.getD j 0) ∧
    ∀ p : Nat, (entries_mapping_get fstrcmp_bounded mapping k).2.index_mapping.getD p 0 = (j : Int) →
      mapping.index_mapping.getD p 0 = (j : Int) := by
  unfold entries_mapping_get
  by_cases c1 : mapping.index_mapping.getD k 0 < -1
  swap
  · rw [if_neg c1]; exact ⟨rfl, fun _ h => h⟩
  rw [if_pos c1]
  dsimp only
  have hstep : ∀ m1 : entries_mapping,
      (m1.index_mapping_reverse.getD j 0 = mapping.index_mapping_reverse.getD j 0 ∧
        ∀ p : Nat, m1.index_mapping.getD p 0 = (j : Int) →
          mapping.index_mapping.getD p 0 = (j : Int)) →
      ((if m1.index_mapping.getD k 0 < -1 then
          { m1 with index_mapping := m1.index_mapping.set k (-1) }
          else m1).index_mapping_reverse.getD j 0 = mapping.index_mapping_reverse.getD j 0 ∧
        ∀ p : Nat, (if m1.index_mapping.getD k 0 < -1 then
          { m1 with index_mapping := m1.index_mapping.set k (-1) }
          else m1).index_mapping.getD p 0 = (j : Int) →
          mapping.index_mapping.getD p 0 = (j : Int)) := by
    intro m1 h1
    split_ifs with c
    · refine ⟨h1.1, fun p hp => ?_⟩
      dsimp only at hp
      rw [getD_set_int] at hp
      split_ifs at hp with c'
      exact h1.2 p hp
    · exact h1
  apply hstep
  split_ifs with c2 c3
  · obtain ⟨_, hfree⟩ := search_file2_no_nul fstrcmp_bounded mapping.file2
      mapping.index_mapping_reverse (mapping.file1.getD k []) mapping.file2.length (-1, 0)
      ⟨le_refl _, fun h => absurd h (lt_irrefl _)⟩
    obtain ⟨jb, hj1, hj2⟩ := hfree (lt_of_lt_of_le threshold_pos c2)
    have hne : jb ≠ j := fun h => hj2 (h ▸ hnul)
    dsimp only
    rw [hj1, Int.toNat_ofNat]
    refine ⟨?_, fun p hp => ?_⟩
    · rw [getD_set_int, if_neg (fun h => hne h.1)]
    · rw [getD_set_int] at hp
      split_ifs at hp with c'
      · exact absurd (by exact_mod_cast hp) hne
      · exact hp
  · exact ⟨rfl, fun _ h => h⟩
  · exact ⟨rfl, fun _ h => h⟩

/-- A lookup in FILE2 binds no position of FILE2 whose entry holds a NUL byte: such a
slot keeps its value or becomes -1, and no slot of FILE1 starts to point to it. -/
theorem entries_mapping_reverse_get_keeps_nul (fstrcmp_bounded : Fstrcmp)
    (mapping : entries_mapping) (k j : Nat) (hnul : (0 : Byte) ∈ mapping.file2.getD j []) :
    ((entries_mapping_reverse_get fstrcmp_bounded mapping k).2.index_mapping_reverse.getD j 0 =
        mapping.index_mapping_reverse.getD j 0 ∨
      (entries_mapping_reverse_get fstrcmp_bounded mapping k).2.index_mapping_reverse.getD j 0
        = -1) ∧
    ∀ p : Nat,
      (entries_mapping_reverse_get fstrcmp_bounded mapping k).2.index_mapping.getD p 0 = (j : Int) →
      mapping.index_mapping.getD p 0 = (j : Int) := by
  by_cases hkj : k = j
  · subst hkj
    by_cases c1 : mapping.index_mapping_reverse.getD k 0 < -1
    · rw [entries_mapping_reverse_get_nul _ _ _ c1 hnul]
      have hlen : k < mapping.index_mapping_reverse.length := by
        by_contra hc
        rw [List.getD_eq_default _ _ (not_lt.mp hc)] at c1
        omega
      exact ⟨Or.inr (by simp [getD_set_int, hlen]), fun _ h => h⟩
    · unfold entries_mapping_reverse_get
      rw [if_neg c1]
      exact ⟨Or.inl rfl, fun _ h => h⟩
  unfold entries_mapping_reverse_get
  by_cases c1 : mapping.index_mapping_reverse.getD k 0 < -1
  swap
  · rw [if_neg c1]; exact ⟨Or.inl rfl, fun _ h => h⟩
  rw [if_pos c1]
  dsimp only
  have hstep : ∀ m1 : entries_mapping,
      (m1.index_mapping_reverse.getD j 0 = mapping.index_mapping_reverse.getD j 0 ∧
        ∀ p : Nat, m1.index_mapping.getD p 0 = (j : Int) →
          mapping.index_mapping.getD p 0 = (j : Int)) →
      (((if m1.index_mapping_reverse.getD k 0 < -1 then
          { m1 with index_mapping_reverse := m1.index_mapping_reverse.set k (-1) }
          else m1).index_mapping_reverse.getD j 0 = mapping.index_mapping_reverse.getD j 0 ∨
        (if m1.index_mapping_reverse.getD k 0 < -1 then
          { m1 with index_mapping_reverse := m1.index_mapping_reverse.set k (-1) }
          else m1).index_mapping_reverse.getD j 0 = -1) ∧
        ∀ p : Nat, (if m1.index_mapping_reverse.getD k 0 < -1 then
          { m1 with index_mapping_reverse := m1.index_mapping_reverse.set k (-1) }
          else m1).index_mapping.getD p 0 = (j : Int) →
          mapping.index_mapping.getD p 0 = (j : Int)) := by
    intro m1 h1
    split_ifs with c
    · refine ⟨Or.inl ?_, h1.2⟩
      dsimp only
      rw [getD_set_int, if_neg (fun h => hkj h.1)]
      exact h1.1
    · exact ⟨Or.inl h1.1, h1.2⟩
  apply hstep
  split_ifs with c2 c3
  · dsimp only
    refine ⟨?_, fun p hp => ?_⟩
    · rw [getD_set_int, if_neg (fun h => hkj h.1)]
    · rw [getD_set_int] at hp
      split_ifs at hp with c'
      · exact absurd (by exact_mod_cast hp) hkj
      · exact hp
  · exact ⟨rfl, fun _ h => h⟩
  · exact ⟨rfl, fun _ h => h⟩

/-! ## Lemmas: the direction heuristic -/

theorem strncmp_eq_iff (var literal : List Byte) :
    strncmp_eq var literal = true ↔ literal <+: var := by
  unfold strncmp_eq
  rw [List.prefix_iff_eq_take, beq_iff_eq]
  exact eq_comm

theorem c_strstr_from_none (needle : List Byte) :
    ∀ (haystack : List Byte) (offset : Nat),
      c_strstr_from needle haystack offset = none ↔ ¬ needle <:+: haystack := by
  intro haystack
  induction haystack with
  | nil =>
    intro offset
    unfold c_strstr_from
    rw [List.infix_nil]
    by_cases h : needle = []
    · simp [h]
    · simp [h]
  | cons c rest ih =>
    intro offset
    unfold c_strstr_from
    rw [List.infix_cons_iff, List.prefix_iff_eq_take]
    by_cases h : List.take needle.length (c :: rest) = needle
    · rw [if_pos h]
      constructor
      · intro h'; cases h'
      · intro h'; exact absurd (Or.inl h.symm) h'
    · rw [if_neg h, ih]
      have h2 : ¬ needle = List.take needle.length (c :: rest) := fun e => h e.symm
      simp [h2]

theorem set_and_nonempty_iff (var : Option (List Byte)) :
    set_and_nonempty var ↔ (var ≠ none ∧ var ≠ some []) := by
  unfold set_and_nonempty
  cases var with
  | none => simp
  | some v => simp

/-! ## Lemmas: the simple change in the interior that is not linear -/

/-- The loop that tests "simple" finds no pair below the threshold exactly when every
aligned pair reaches the threshold. -/
theorem all_similar_iff (fstrcmp_bounded : Fstrcmp) (ancestor_file modified_file : List Entry)
    (i2 j2 : Nat) :
    ∀ (count i : Nat),
      all_similar fstrcmp_bounded ancestor_file modified_file i2 j2 count i = true ↔
        ∀ i', i ≤ i' → i' < i + count →
          FSTRCMP_THRESHOLD ≤ entry_fstrcmp fstrcmp_bounded (ancestor_file.getD i' [])
            (modified_file.getD (i' + j2 - i2) []) FSTRCMP_THRESHOLD := by
  intro count
  induction count with
  | zero =>
    intro i
    simp only [all_similar, true_iff]
    intro i' h1 h2
    omega
  | succ c ih =>
    intro i
    unfold all_similar
    by_cases hlt : entry_fstrcmp fstrcmp_bounded (ancestor_file.getD i [])
        (modified_file.getD (i + j2 - i2) []) FSTRCMP_THRESHOLD < FSTRCMP_THRESHOLD
    · rw [if_pos hlt]
      constructor
      · intro h; cases h
      · intro h
        exact absurd (h i (le_refl _) (by omega)) (not_le.mpr hlt)
    · rw [if_neg hlt, ih]
      constructor
      · intro h i' h1 h2
        by_cases he : i' = i
        · subst he; exact not_lt.mp hlt
        · exact h i' (by omega) (by omega)
      · intro h i' h1 h2
        exact h i' (by omega) (by omega)

/-- The "simple merged" test is not made for a CHANGE away from the top. -/
theorem change_simple_merged_interior (fstrcmp_bounded : Fstrcmp)
    (ancestor_file mainstream_file modified_file : List Entry) (i1 i2 j1 j2 : Nat)
    (st : merge_state) (hj1 : 0 < j1) :
    change_simple_merged fstrcmp_bounded ancestor_file mainstream_file modified_file
      i1 i2 j1 j2 st = some (false, st) := by
  unfold change_simple_merged
  rw [if_neg (fun h => by omega)]

/-- A simple CHANGE in the interior that is not linear: one conflict with the two
ranges of the edit is appended, and the result entries stay as they are. -/
theorem apply_change_nonlinear (fstrcmp_bounded : Fstrcmp)
    (ancestor_file mainstream_file modified_file : List Entry) (diffs : differences)
    (i1 i2 j1 j2 i_before : Nat) (st : merge_state)
    (hj1 : 0 < j1)
    (hsimple : i2 - i1 ≤ j2 - j1 ∧
      all_similar fstrcmp_bounded ancestor_file modified_file i2 j2 (i2 + 1 - i1) i1 = true)
    (hbefore : diffs.index_mapping_reverse.getD (j1 - 1) 0 = (i_before : Int))
    (hnot : ¬ ((entries_mapping_get fstrcmp_bounded st.mapping i_before).1 ≥ 0 ∧
      (linear_test fstrcmp_bounded i_before
        (entries_mapping_get fstrcmp_bounded st.mapping i_before).1 (i2 - i1 + 1)
        (i_before + 1) (entries_mapping_get fstrcmp_bounded st.mapping i_before).2).1 = true)) :
    ∃ mapping1 : entries_mapping,
      apply_edit fstrcmp_bounded ancestor_file mainstream_file modified_file diffs
          (edit.CHANGE i1 i2 j1 j2) st =
        some { mapping := mapping1
               result_entries := st.result_entries
               result_conflicts := st.result_conflicts ++
                 [{ old_entries := entries_range ancestor_file i1 i2
                    modified_entries := entries_range modified_file j1 j2 }] } := by
  show ∃ mapping1 : entries_mapping, apply_change _ _ _ _ _ _ _ _ _ _ = _
  unfold apply_change
  rw [change_simple_merged_interior _ _ _ _ _ _ _ _ _ hj1]
  dsimp only
  unfold change_simple_or_big
  rw [if_pos hsimple]
  dsimp only
  rw [if_neg (by omega : ¬ j1 = 0), hbefore,
    if_neg (show ¬ ¬ ((i_before : Int) ≥ 0) by omega), Int.toNat_ofNat]
  by_cases hk : (entries_mapping_get fstrcmp_bounded st.mapping i_before).1 ≥ 0
  · rw [if_pos hk]
    have hl : ¬ (linear_test fstrcmp_bounded i_before
        (entries_mapping_get fstrcmp_bounded st.mapping i_before).1 (i2 - i1 + 1)
        (i_before + 1) (entries_mapping_get fstrcmp_bounded st.mapping i_before).2).1 = true :=
      fun h => hnot ⟨hk, h⟩
    rw [if_neg hl]
    exact ⟨_, rfl⟩
  · rw [if_neg hk]
    dsimp only
    rw [if_neg (by simp)]
    exact ⟨_, rfl⟩

/-! ## Lemmas: the simple merged change -/

theorem entry_equals_false_iff (a b : Entry) : entry_equals a b = false ↔ a ≠ b := by
  rw [← Bool.not_eq_true, entry_equals_iff]

/-- The loop of the "simple merged" case makes the single-entry changes one after the
other. -/
theorem merged_changes_foldl (fstrcmp_bounded : Fstrcmp) (ancestor_file mainstream_file
    modified_file : List Entry) (i2 j2 first : Nat) (split1 : Entry) :
    ∀ (count j : Nat) (st : merge_state),
      merged_changes fstrcmp_bounded ancestor_file mainstream_file modified_file i2 j2 first
          split1 count j st =
        (List.range' j count).foldl
          (fun s j => spec_single_change fstrcmp_bounded ancestor_file mainstream_file
            (j + i2 - j2) (if j = first then split1 else modified_file.getD j []) s) st := by
  intro count
  induction count with
  | zero => intro j st; rfl
  | succ c ih =>
    intro j st
    rw [List.range'_succ, List.foldl_cons, ← ih]
    conv_lhs => unfold merged_changes
    dsimp only
    congr 1
    unfold spec_single_change
    simp only [entry_equals_iff, entry_equals_false_iff]
    by_cases h1 : (entries_mapping_get fstrcmp_bounded st.mapping (j + i2 - j2)).1 ≥ 0 ∧
        ancestor_file.getD (j + i2 - j2) [] = mainstream_file.getD
          (entries_mapping_get fstrcmp_bounded st.mapping (j + i2 - j2)).1.toNat []
    · rw [if_pos h1, if_pos h1]
    · rw [if_neg h1, if_neg h1]
      by_cases h2 : ancestor_file.getD (j + i2 - j2) [] =
          (if j = first then split1 else modified_file.getD j [])
      · rw [if_pos h2, if_neg (not_not.mpr h2)]
      · rw [if_neg h2, if_pos h2]

theorem set_value_front (pre list : List node) (k : Nat) (elt : Entry)
    (h : ∀ n ∈ pre, n.slot = none) :
    gl_list_node_set_value (pre ++ list) k elt = pre ++ gl_list_node_set_value list k elt := by
  have h1 := set_value_untouched pre k elt (fun n hn => by rw [h n hn]; simp)
  unfold gl_list_node_set_value at h1 ⊢
  rw [List.map_append, h1]

/-- A single-entry change leaves the nodes added at the top where they are. -/
theorem spec_single_change_front (fstrcmp_bounded : Fstrcmp)
    (ancestor_file mainstream_file : List Entry) (i : Nat) (changed_entry : Entry)
    (pre : List node) (h : ∀ n ∈ pre, n.slot = none) (st : merge_state) :
    spec_single_change fstrcmp_bounded ancestor_file mainstream_file i changed_entry
        { mapping := st.mapping
          result_entries := pre ++ st.result_entries
          result_conflicts := st.result_conflicts } =
      { mapping := (spec_single_change fstrcmp_bounded ancestor_file mainstream_file i
          changed_entry st).mapping
        result_entries := pre ++ (spec_single_change fstrcmp_bounded ancestor_file
          mainstream_file i changed_entry st).result_entries
        result_conflicts := (spec_single_change fstrcmp_bounded ancestor_file mainstream_file i
          changed_entry st).result_conflicts } := by
  unfold spec_single_change
  dsimp only
  split_ifs
  · rw [set_value_front _ _ _ _ h]
  · rfl
  · rfl

theorem single_changes_front (fstrcmp_bounded : Fstrcmp)
    (ancestor_file mainstream_file : List Entry) (pre : List node)
    (h : ∀ n ∈ pre, n.slot = none) (idx : Nat → Nat) (val : Nat → Entry) :
    ∀ (steps : List Nat) (st : merge_state),
      steps.foldl (fun s d => spec_single_change fstrcmp_bounded ancestor_file mainstream_file
          (idx d) (val d) s)
        { mapping := st.mapping
          result_entries := pre ++ st.result_entries
          result_conflicts := st.result_conflicts } =
      { mapping := (steps.foldl (fun s d => spec_single_change fstrcmp_bounded ancestor_file
          mainstream_file (idx d) (val d) s) st).mapping
        result_entries := pre ++ (steps.foldl (fun s d => spec_single_change fstrcmp_bounded
          ancestor_file mainstream_file (idx d) (val d) s) st).result_entries
        result_conflicts := (steps.foldl (fun s d => spec_single_change fstrcmp_bounded
          ancestor_file mainstream_file (idx d) (val d) s) st).result_conflicts } := by
  intro steps
  induction steps with
  | nil => intro st; rfl
  | cons d rest ih =>
    intro st
    rw [List.foldl_cons, List.foldl_cons, spec_single_change_front _ _ _ _ _ _ h]
    exact ih _

theorem foldl_range_shift {σ : Type} (f : σ → Nat → σ) (a : Nat) :
    ∀ (count : Nat) (s : σ),
      (List.range' a count).foldl f s = (List.range count).foldl (fun s d => f s (a + d)) s := by
  intro count s
  rw [List.range_eq_range', ← List.foldl_map (fun d => a + d) f]
  congr 1
  rw [List.map_add_range']
  simp

/-- The application of the "simple merged" case. -/
theorem change_simple_merged_applies (fstrcmp_bounded : Fstrcmp)
    (ancestor_file mainstream_file modified_file : List Entry) (i1 i2 j2 : Nat)
    (split : Entry × Entry) (st : merge_state) (hle : i2 - i1 ≤ j2 - 0)
    (hsplit : try_split_merged_entry fstrcmp_bounded (ancestor_file.getD i1 [])
      (modified_file.getD (i1 + j2 - i2) []) = some (some split))
    (hsim : all_similar fstrcmp_bounded ancestor_file modified_file i2 j2 (i2 - i1) (i1 + 1)
      = true) :
    change_simple_merged fstrcmp_bounded ancestor_file mainstream_file modified_file
        i1 i2 0 j2 st =
      some (true,
        merged_changes fstrcmp_bounded ancestor_file mainstream_file modified_file i2 j2
          (0 + ((j2 - 0 + 1) - (i2 - i1 + 1))) split.2
          (j2 + 1 - (0 + ((j2 - 0 + 1) - (i2 - i1 + 1)))) (0 + ((j2 - 0 + 1) - (i2 - i1 + 1)))
          { mapping := st.mapping
            result_entries :=
              add_first_desc modified_file 0 ((j2 - 0 + 1) - (i2 - i1 + 1))
                (gl_list_add_first st.result_entries split.1)
            result_conflicts := st.result_conflicts }) := by
  unfold change_simple_merged
  rw [if_pos ⟨rfl, hle⟩, hsplit]
  dsimp only
  rw [if_pos hsim]

/-! ## Lemmas: the split of a merged entry -/

theorem find_paragraph_end_loop_spec :
    ∀ (l : List Byte) (o : Nat),
      o ≤ find_paragraph_end_loop l o ∧ find_paragraph_end_loop l o ≤ o + l.length ∧
      (find_paragraph_end_loop l o < o + l.length →
        l.getD (find_paragraph_end_loop l o - o) 0 = 10) ∧
      (l ≠ [] → o < find_paragraph_end_loop l o) := by
  intro l
  induction l with
  | nil =>
    intro o
    simp [find_paragraph_end_loop]
  | cons c rest ih =>
    intro o
    have hrec : o ≤ find_paragraph_end_loop rest (o + 1) ∧
        find_paragraph_end_loop rest (o + 1) ≤ o + (c :: rest).length ∧
        (find_paragraph_end_loop rest (o + 1) < o + (c :: rest).length →
          (c :: rest).getD (find_paragraph_end_loop rest (o + 1) - o) 0 = 10) ∧
        (c :: rest ≠ [] → o < find_paragraph_end_loop rest (o + 1)) := by
      obtain ⟨h1, h2, h3, _⟩ := ih (o + 1)
      refine ⟨by omega, by simp only [List.length_cons]; omega, ?_, fun _ => by omega⟩
      intro hlt
      simp only [List.length_cons] at hlt
      have := h3 (by omega)
      rw [show find_paragraph_end_loop rest (o + 1) - o =
        (find_paragraph_end_loop rest (o + 1) - (o + 1)) + 1 by omega, List.getD_cons_succ]
      exact this
    by_cases hc : c = 10
    · cases rest with
      | nil =>
        have e : find_paragraph_end_loop [c] o = find_paragraph_end_loop [] (o + 1) := by
          simp [find_paragraph_end_loop, hc]
        rw [e]; exact hrec
      | cons d rest2 =>
        by_cases hd : d = 10
        · have e : find_paragraph_end_loop (c :: d :: rest2) o = o + 1 := by
            simp [find_paragraph_end_loop, hc, hd]
          rw [e]
          refine ⟨by omega, by simp only [List.length_cons]; omega, fun _ => ?_, fun _ => by omega⟩
          simp [hd]
        · have e : find_paragraph_end_loop (c :: d :: rest2) o =
              find_paragraph_end_loop (d :: rest2) (o + 1) := by
            conv_lhs => unfold find_paragraph_end_loop
            rw [if_pos hc]
            split
            · next heq => simp at heq; exact absurd heq.1 hd
            · rfl
          rw [e]; exact hrec
    · have e : find_paragraph_end_loop (c :: rest) o = find_paragraph_end_loop rest (o + 1) := by
        conv_lhs => unfold find_paragraph_end_loop
        rw [if_neg hc]
      rw [e]; exact hrec

/-- The function `find_paragraph_end` gives an offset between `offset` and the length,
beyond `offset` when `offset` is not the length; below the length, it is the offset of
a newline. -/
theorem find_paragraph_end_spec (entry : Entry) (offset : Nat) (h : offset ≤ entry.length) :
    offset ≤ find_paragraph_end entry offset ∧ find_paragraph_end entry offset ≤ entry.length ∧
    (find_paragraph_end entry offset < entry.length →
      entry.getD (find_paragraph_end entry offset) 0 = 10) ∧
    (offset < entry.length → offset < find_paragraph_end entry offset) := by
  unfold find_paragraph_end
  obtain ⟨h1, h2, h3, h4⟩ := find_paragraph_end_loop_spec (entry.drop offset) offset
  rw [List.length_drop] at h2 h3
  refine ⟨h1, by omega, fun hlt => ?_, fun hlt => ?_⟩
  · have := h3 (by omega)
    rw [List.getD_eq_getElem?_getD, List.getElem?_drop] at this
    rw [List.getD_eq_getElem?_getD, ← this]
    congr 2
    omega
  · apply h4
    intro hnil
    have := congrArg List.length hnil
    rw [List.length_drop] at this
    simp at this
    omega

theorem split_point_paragraph_end (entry : Entry) (offset : Nat) (h : offset ≤ entry.length) :
    split_point entry (find_paragraph_end entry offset) := by
  obtain ⟨_, h2, h3, _⟩ := find_paragraph_end_spec entry offset h
  by_cases hlt : find_paragraph_end entry offset < entry.length
  · exact Or.inr ⟨hlt, h3 hlt⟩
  · exact Or.inl (by omega)

/-- The candidates are split points from the first one on, in strictly increasing
order. -/
theorem split_candidates_spec (new_entry : Entry) :
    ∀ (fuel c : Nat), c ≤ new_entry.length → split_point new_entry c →
      (∀ c' ∈ split_candidates new_entry fuel c,
        c ≤ c' ∧ c' ≤ new_entry.length ∧ split_point new_entry c') ∧
      (split_candidates new_entry fuel c).Pairwise (· < ·) := by
  intro fuel
  induction fuel with
  | zero => intro c _ _; simp [split_candidates]
  | succ f ih =>
    intro c hc hp
    unfold split_candidates
    by_cases hlt : c < new_entry.length
    · rw [if_pos hlt]
      obtain ⟨h1, h2, _, h4⟩ := find_paragraph_end_spec new_entry (c + 1) hlt
      obtain ⟨ih1, ih2⟩ := ih (find_paragraph_end new_entry (c + 1)) h2
        (split_point_paragraph_end new_entry (c + 1) hlt)
      constructor
      · intro c' hc'
        rcases List.mem_cons.mp hc' with h | h
        · subst h; exact ⟨le_refl _, hc, hp⟩
        · obtain ⟨a, b, d⟩ := ih1 c' h
          exact ⟨by omega, b, d⟩
      · rw [List.pairwise_cons]
        refine ⟨fun c' hc' => ?_, ih2⟩
        have := (ih1 c' hc').1
        omega
    · rw [if_neg hlt]
      constructor
      · intro c' hc'
        rw [List.mem_singleton] at hc'
        subst hc'; exact ⟨le_refl _, hc, hp⟩
      · simp

/-- The search loop of `try_split_merged_entry` ends, whatever the similarity routine
gives, and the best offset it returns is a split point not before the first candidate
or the offset it started with. -/
theorem split_search_total (fstrcmp_bounded : Fstrcmp) (old_body new_entry : Entry) (t : Nat) :
    ∀ (fuel c : Nat) (best : Nat × ℚ), new_entry.length - c < fuel → c ≤ new_entry.length →
      t ≤ c → split_point new_entry c → t ≤ best.1 → split_point new_entry best.1 →
      ∃ r, split_search fstrcmp_bounded old_body new_entry fuel c best = some r ∧
        t ≤ r.1 ∧ split_point new_entry r.1 := by
  intro fuel
  induction fuel with
  | zero => intro c best h; omega
  | succ f ih =>
    intro c best hf hc htc hpc htb hpb
    unfold split_search
    dsimp only
    have hbest1 : ∀ best1 : Nat × ℚ,
        best1 = (if entry_fstrcmp fstrcmp_bounded old_body (new_entry.drop c) best.2 > best.2
          then (c, entry_fstrcmp fstrcmp_bounded old_body (new_entry.drop c) best.2)
          else best) → t ≤ best1.1 ∧ split_point new_entry best1.1 := by
      intro best1 h
      split_ifs at h
      · rw [h]; exact ⟨htc, hpc⟩
      · rw [h]; exact ⟨htb, hpb⟩
    obtain ⟨hb1, hb2⟩ := hbest1 _ rfl
    split_ifs with h1 h2 h3 h4 h5
    all_goals first
      | exact ⟨_, rfl, hb1, hb2⟩
      | exact ⟨_, rfl, htc, hpc⟩
      | exact ⟨_, rfl, htb, hpb⟩
      | (obtain ⟨a1, a2, _, a4⟩ := find_paragraph_end_spec new_entry (c + 1) (by omega)
         exact ih _ _ (by omega) a2 (by omega)
           (split_point_paragraph_end new_entry (c + 1) (by omega)) (by first | exact htc | exact htb)
           (by first | exact hpc | exact hpb))

theorem split_candidates_complete (new_entry : Entry) :
    ∀ (fuel c : Nat), new_entry.length - c < fuel → c ≤ new_entry.length →
      new_entry.length ∈ split_candidates new_entry fuel c := by
  intro fuel
  induction fuel with
  | zero => intro c h; omega
  | succ f ih =>
    intro c hf hc
    unfold split_candidates
    by_cases hlt : c < new_entry.length
    · rw [if_pos hlt]
      obtain ⟨h1, h2, _, _⟩ := find_paragraph_end_spec new_entry (c + 1) hlt
      exact List.mem_cons_of_mem _ (ih _ (by omega) h2)
    · rw [if_neg hlt]
      have : c = new_entry.length := by omega
      rw [this]; exact List.mem_singleton.mpr rfl

/-- A candidate is the first one, or the paragraph end after another candidate. -/
theorem split_candidates_step (new_entry : Entry) :
    ∀ (fuel c c' : Nat), c' ∈ split_candidates new_entry fuel c →
      c' = c ∨ ∃ c'' ∈ split_candidates new_entry fuel c,
        c'' < new_entry.length ∧ c' = find_paragraph_end new_entry (c'' + 1) := by
  intro fuel
  induction fuel with
  | zero => intro c c' h; simp [split_candidates] at h
  | succ f ih =>
    intro c c' h
    have hfirst : c ∈ split_candidates new_entry (f + 1) c := by
      unfold split_candidates; exact List.mem_cons_self _ _
    unfold split_candidates at h
    rcases List.mem_cons.mp h with h | h
    · exact Or.inl h
    · by_cases hlt : c < new_entry.length
      · rw [if_pos hlt] at h
        right
        rcases ih _ _ h with h' | ⟨c'', hc'', hlt'', he⟩
        · exact ⟨c, hfirst, hlt, h'⟩
        · refine ⟨c'', ?_, hlt'', he⟩
          unfold split_candidates
          rw [if_pos hlt]
          exact List.mem_cons_of_mem _ hc''
      · rw [if_neg hlt] at h
        simp at h

theorem entry_fstrcmp_ok (fstrcmp_bounded : Fstrcmp) (hok : FstrcmpOk fstrcmp_bounded)
    (a b : Entry) (lower_bound : ℚ) :
    0 ≤ entry_fstrcmp fstrcmp_bounded a b 0 ∧ entry_fstrcmp fstrcmp_bounded a b 0 ≤ 1 ∧
    (lower_bound ≤ entry_fstrcmp fstrcmp_bounded a b 0 →
      entry_fstrcmp fstrcmp_bounded a b lower_bound = entry_fstrcmp fstrcmp_bounded a b 0) ∧
    (entry_fstrcmp fstrcmp_bounded a b 0 < lower_bound →
      entry_fstrcmp fstrcmp_bounded a b lower_bound < lower_bound) := by
  unfold entry_fstrcmp
  by_cases h1 : (0 : Byte) ∈ a
  · simp [h1]
  · by_cases h2 : (0 : Byte) ∈ b
    · simp [h1, h2]
    · simp only [if_neg h1, if_neg h2]
      exact hok a b lower_bound

/-- The comparison with a bound made by a search loop picks what the comparison of
the exact similarities picks. -/
theorem bounded_step_eq {ι : Type} (fstrcmp_bounded : Fstrcmp) (hok : FstrcmpOk fstrcmp_bounded)
    (a b : Entry) (c : ι) (best : ι × ℚ) :
    (if entry_fstrcmp fstrcmp_bounded a b best.2 > best.2 then
        (c, entry_fstrcmp fstrcmp_bounded a b best.2) else best) =
      (if entry_fstrcmp fstrcmp_bounded a b 0 > best.2 then
        (c, entry_fstrcmp fstrcmp_bounded a b 0) else best) := by
  obtain ⟨_, _, h3, h4⟩ := entry_fstrcmp_ok fstrcmp_bounded hok a b best.2
  by_cases h : best.2 ≤ entry_fstrcmp fstrcmp_bounded a b 0
  · rw [h3 h]
  · have hlt := h4 (not_le.mp h)
    rw [if_neg (not_lt.mpr (le_of_lt hlt)), if_neg (not_lt.mpr (le_of_lt (not_le.mp h)))]

theorem spec_best_split_top (s : Nat → ℚ) (hs : ∀ c, s c ≤ 1) :
    ∀ (candidates : List Nat) (best : Nat × ℚ), best.2 = 1 →
      spec_best_split s candidates best = best := by
  intro candidates
  induction candidates with
  | nil => intro best _; rfl
  | cons c rest ih =>
    intro best hb
    unfold spec_best_split
    rw [List.foldl_cons, if_neg (by rw [hb]; exact not_lt.mpr (hs c))]
    exact ih best hb

/-- Under the contract of `fstrcmp_bounded`, the search loop of
`try_split_merged_entry` returns the first maximum of the exact similarities over the
candidates. -/
theorem split_search_spec (fstrcmp_bounded : Fstrcmp) (hok : FstrcmpOk fstrcmp_bounded)
    (old_body new_entry : Entry) :
    ∀ (fuel c : Nat) (best : Nat × ℚ), new_entry.length - c < fuel → c ≤ new_entry.length →
      best.2 < 1 →
      split_search fstrcmp_bounded old_body new_entry fuel c best =
        some (spec_best_split
          (fun c => entry_fstrcmp fstrcmp_bounded old_body (new_entry.drop c) 0)
          (split_candidates new_entry fuel c) best) := by
  intro fuel
  induction fuel with
  | zero => intro c best h; omega
  | succ f ih =>
    intro c best hf hc hb
    have hs : ∀ c, (fun c => entry_fstrcmp fstrcmp_bounded old_body (new_entry.drop c) 0) c ≤ 1 :=
      fun c => (entry_fstrcmp_ok fstrcmp_bounded hok old_body (new_entry.drop c) 0).2.1
    unfold split_search split_candidates spec_best_split
    dsimp only
    rw [List.foldl_cons, bounded_step_eq fstrcmp_bounded hok]
    obtain ⟨best1, hbest1⟩ : ∃ best1 : Nat × ℚ, best1 =
        (if entry_fstrcmp fstrcmp_bounded old_body (new_entry.drop c) 0 > best.2 then
          (c, entry_fstrcmp fstrcmp_bounded old_body (new_entry.drop c) 0) else best) := ⟨_, rfl⟩
    rw [← hbest1]
    have hle : best1.2 ≤ 1 := by
      rw [hbest1]
      split_ifs
      · exact hs c
      · exact le_of_lt hb
    by_cases h1 : best1.2 = 1
    · rw [if_pos h1]
      exact congrArg some (spec_best_split_top _ hs _ best1 h1).symm
    · rw [if_neg h1]
      by_cases hlt : c < new_entry.length
      · rw [if_pos hlt, if_pos hlt]
        obtain ⟨_, h2, _, _⟩ := find_paragraph_end_spec new_entry (c + 1) hlt
        exact ih _ best1 (by omega) h2 (lt_of_le_of_ne hle h1)
      · rw [if_neg hlt, if_neg hlt]
        rfl

/-- The first maximum: the result of the search through the candidates is not below
the start value and not below any candidate; when it is above the start value, it is a
candidate with its similarity, and every smaller candidate has a smaller similarity. -/
theorem spec_best_split_max (s : Nat → ℚ) :
    ∀ (candidates : List Nat) (init : Nat × ℚ), candidates.Pairwise (· < ·) →
      init.2 ≤ (spec_best_split s candidates init).2 ∧
      (∀ c ∈ candidates, s c ≤ (spec_best_split s candidates init).2) ∧
      (spec_best_split s candidates init = init ∨
        (init.2 < (spec_best_split s candidates init).2 ∧
          (spec_best_split s candidates init).1 ∈ candidates ∧
          (spec_best_split s candidates init).2 = s (spec_best_split s candidates init).1 ∧
          ∀ c ∈ candidates, c < (spec_best_split s candidates init).1 →
            s c < (spec_best_split s candidates init).2)) := by
  intro candidates
  induction candidates with
  | nil =>
    intro init _
    exact ⟨le_refl _, fun c hc => by simp at hc, Or.inl rfl⟩
  | cons c rest ih =>
    intro init hp
    rw [List.pairwise_cons] at hp
    obtain ⟨init1, hinit1⟩ : ∃ init1 : Nat × ℚ, init1 =
        (if s c > init.2 then (c, s c) else init) := ⟨_, rfl⟩
    have hfold : spec_best_split s (c :: rest) init = spec_best_split s rest init1 := by
      unfold spec_best_split
      rw [List.foldl_cons, ← hinit1]
    rw [hfold]
    obtain ⟨a1, a2, a3⟩ := ih init1 hp.2
    have hstep : init.2 ≤ init1.2 ∧ s c ≤ init1.2 ∧
        (init1 = init ∨ (init.2 < init1.2 ∧ init1 = (c, s c))) := by
      rw [hinit1]
      by_cases h : s c > init.2
      · rw [if_pos h]
        exact ⟨le_of_lt h, le_refl _, Or.inr ⟨h, rfl⟩⟩
      · rw [if_neg h]
        exact ⟨le_refl _, not_lt.mp h, Or.inl rfl⟩
    obtain ⟨b1, b2, b3⟩ := hstep
    refine ⟨le_trans b1 a1, ?_, ?_⟩
    · intro c' hc'
      rcases List.mem_cons.mp hc' with h | h
      · rw [h]; exact le_trans b2 a1
      · exact a2 c' h
    · rcases a3 with a3 | ⟨a3, a4, a5, a6⟩
      · rw [a3]
        rcases b3 with b3 | ⟨b3, b4⟩
        · exact Or.inl b3
        · right
          refine ⟨b3, ?_, ?_, ?_⟩
          · rw [b4]; exact List.mem_cons_self _ _
          · rw [b4]
          · intro c' hc' hlt
            rw [b4] at hlt
            rcases List.mem_cons.mp hc' with h | h
            · rw [h] at hlt; exact absurd hlt (lt_irrefl _)
            · exact absurd (hp.1 c' h) (not_lt.mpr (le_of_lt hlt))
      · right
        refine ⟨lt_of_le_of_lt b1 a3, List.mem_cons_of_mem _ a4, a5, ?_⟩
        intro c' hc' hlt
        rcases List.mem_cons.mp hc' with h | h
        · rw [h]; exact lt_of_le_of_lt b2 a3
        · exact a6 c' h hlt

/-- The function `try_split_merged_entry` never fails an `ASSERT`: it returns false
when the titles differ; else the search loop ends with a best offset `best.1` that is a
split point not before the title length, and the function returns false when this
offset is the length of the new entry or the best similarity is below the stricter
threshold, and true, with the two parts cut at `best.1`, otherwise. -/
theorem try_split_cases (fstrcmp_bounded : Fstrcmp) (old_entry new_entry : Entry) :
    (¬ (find_paragraph_end old_entry 0 = find_paragraph_end new_entry 0 ∧
        old_entry.take (find_paragraph_end old_entry 0) =
          new_entry.take (find_paragraph_end old_entry 0)) ∧
      try_split_merged_entry fstrcmp_bounded old_entry new_entry = some none) ∨
    ((find_paragraph_end old_entry 0 = find_paragraph_end new_entry 0 ∧
        old_entry.take (find_paragraph_end old_entry 0) =
          new_entry.take (find_paragraph_end old_entry 0)) ∧
      ∃ best : Nat × ℚ,
        split_search fstrcmp_bounded (old_entry.drop (find_paragraph_end old_entry 0)) new_entry
          (new_entry.length + 1) (find_paragraph_end new_entry 0)
          (find_paragraph_end new_entry 0, 0) = some best ∧
        find_paragraph_end new_entry 0 ≤ best.1 ∧ split_point new_entry best.1 ∧
        try_split_merged_entry fstrcmp_bounded old_entry new_entry =
          (if best.1 = new_entry.length then some none
           else if best.2 < FSTRCMP_STRICTER_THRESHOLD then some none
           else some (some (new_entry.take (best.1 + 1),
             new_entry.take (find_paragraph_end new_entry 0) ++ new_entry.drop best.1)))) := by
  by_cases ht : find_paragraph_end old_entry 0 = find_paragraph_end new_entry 0 ∧
      old_entry.take (find_paragraph_end old_entry 0) =
        new_entry.take (find_paragraph_end old_entry 0)
  · right
    refine ⟨ht, ?_⟩
    obtain ⟨_, h2, _, _⟩ := find_paragraph_end_spec new_entry 0 (Nat.zero_le _)
    have hp := split_point_paragraph_end new_entry 0 (Nat.zero_le _)
    obtain ⟨best, hbest, htb, hpb⟩ := split_search_total fstrcmp_bounded
      (old_entry.drop (find_paragraph_end old_entry 0)) new_entry (find_paragraph_end new_entry 0)
      (new_entry.length + 1) (find_paragraph_end new_entry 0) (find_paragraph_end new_entry 0, 0)
      (by omega) h2 (le_refl _) hp (le_refl _) hp
    refine ⟨best, hbest, htb, hpb, ?_⟩
    unfold try_split_merged_entry
    dsimp only
    rw [if_neg (not_not.mpr ht), hbest]
    dsimp only
    by_cases h1 : best.1 = new_entry.length
    · rw [if_pos h1, if_pos h1]
    · rw [if_neg h1, if_neg h1]
      have hnl : new_entry.getD best.1 0 = 10 := by
        rcases hpb with h | h
        · exact absurd h h1
        · exact h.2
      rw [if_neg (not_not.mpr hnl)]
  · left
    refine ⟨ht, ?_⟩
    unfold try_split_merged_entry
    dsimp only
    rw [if_pos ht]

/-! ## Lemmas: the similarity routine of the examples and the result of the split -/

theorem getLastD_eq_getD (l : List Nat) (d : Nat) :
    l.getLastD d = l.getD (l.length - 1) d := by
  induction l generalizing d with
  | nil => rfl
  | cons a rest ih =>
    rw [List.getLastD_cons, ih]
    cases rest with
    | nil => rfl
    | cons b rest2 =>
      simp only [List.length_cons, Nat.add_sub_cancel]
      rw [List.getD_cons_succ]
      rw [List.getD_eq_getElem?_getD, List.getD_eq_getElem?_getD,
        List.getElem?_eq_getElem (by simp)]
      rfl

/-- One row of the table of `lcs_length`: with the old row below `B` and, at column
`j`, below `c + j + 1`, the new row is below `B + 1` and, at column `j`, below
`c + j + 1`. -/
theorem lcs_row_bound (x : Byte) (B : Nat) :
    ∀ (b : List Byte) (prev : List Nat) (diagonal left c : Nat),
      (∀ j, prev.getD j 0 ≤ B ∧ prev.getD j 0 ≤ c + j + 1) →
      diagonal ≤ B → diagonal ≤ c → left ≤ B + 1 → left ≤ c →
      (lcs_row x b prev diagonal left).length ≤ b.length ∧
      ∀ j, (lcs_row x b prev diagonal left).getD j 0 ≤ B + 1 ∧
        (lcs_row x b prev diagonal left).getD j 0 ≤ c + j + 1 := by
  intro b
  induction b with
  | nil =>
    intro prev diagonal left c _ _ _ _ _
    simp [lcs_row]
  | cons y b ih =>
    intro prev diagonal left c hprev hd1 hd2 hl1 hl2
    cases prev with
    | nil => simp [lcs_row]
    | cons up prev =>
      unfold lcs_row
      have hup := hprev 0
      simp only [List.getD_cons_zero] at hup
      have hv : (if x = y then diagonal + 1 else max up left) ≤ B + 1 ∧
          (if x = y then diagonal + 1 else max up left) ≤ c + 1 := by
        split_ifs
        · omega
        · exact ⟨max_le (by omega) hl1, max_le (by omega) (by omega)⟩
      obtain ⟨ih1, ih2⟩ := ih prev up (if x = y then diagonal + 1 else max up left) (c + 1)
        (fun j => by
          have := hprev (j + 1)
          simp only [List.getD_cons_succ] at this
          exact ⟨this.1, by omega⟩)
        hup.1 (by omega) hv.1 hv.2
      refine ⟨by simp only [List.length_cons]; omega, ?_⟩
      intro j
      cases j with
      | zero => simp only [List.getD_cons_zero]; exact ⟨hv.1, by omega⟩
      | succ j =>
        simp only [List.getD_cons_succ]
        have := ih2 j
        exact ⟨this.1, by omega⟩

theorem lcs_fold_bound (b : List Byte) :
    ∀ (a : List Byte) (row : List Nat) (B : Nat), row.length ≤ b.length →
      (∀ j, row.getD j 0 ≤ B ∧ row.getD j 0 ≤ j + 1) →
      (a.foldl (fun row x => lcs_row x b row 0 0) row).length ≤ b.length ∧
      ∀ j, (a.foldl (fun row x => lcs_row x b row 0 0) row).getD j 0 ≤ B + a.length ∧
        (a.foldl (fun row x => lcs_row x b row 0 0) row).getD j 0 ≤ j + 1 := by
  intro a
  induction a with
  | nil => intro row B hlen h; exact ⟨hlen, fun j => ⟨by simpa using (h j).1, (h j).2⟩⟩
  | cons x a ih =>
    intro row B hlen h
    rw [List.foldl_cons]
    obtain ⟨h1, h2⟩ := lcs_row_bound x B b row 0 0 0
      (fun j => ⟨(h j).1, by have := (h j).2; omega⟩) (Nat.zero_le _) (le_refl _)
      (Nat.zero_le _) (le_refl _)
    obtain ⟨h3, h4⟩ := ih (lcs_row x b row 0 0) (B + 1) h1
      (fun j => ⟨(h2 j).1, by have := (h2 j).2; omega⟩)
    refine ⟨h3, fun j => ⟨?_, (h4 j).2⟩⟩
    have := (h4 j).1
    simp only [List.length_cons]
    omega

/-- The longest common subsequence is not longer than either string. -/
theorem lcs_length_le (a b : List Byte) :
    lcs_length a b ≤ a.length ∧ lcs_length a b ≤ b.length := by
  unfold lcs_length
  obtain ⟨h1, h2⟩ := lcs_fold_bound b a (List.replicate b.length 0) 0 (by simp)
    (fun j => by
      have : (List.replicate b.length 0).getD j 0 = 0 := by
        rw [List.getD_eq_getElem?_getD, List.getElem?_replicate]
        split_ifs <;> rfl
      rw [this]; exact ⟨le_refl _, Nat.zero_le _⟩)
  rw [getLastD_eq_getD]
  constructor
  · have := (h2 ((a.foldl (fun row x => lcs_row x b row 0 0)
      (List.replicate b.length 0)).length - 1)).1
    omega
  · by_cases hz : (a.foldl (fun row x => lcs_row x b row 0 0)
        (List.replicate b.length 0)).length = 0
    · rw [List.getD_eq_default _ _ (by omega)]
      exact Nat.zero_le _
    · have := (h2 ((a.foldl (fun row x => lcs_row x b row 0 0)
        (List.replicate b.length 0)).length - 1)).2
      omega

/-- The instance `fstrcmp_ratio` meets the contract of `fstrcmp_bounded`. -/
theorem fstrcmpOk_ratio : FstrcmpOk fstrcmp_ratio := by
  intro a b lower_bound
  have hval : ∀ lb, fstrcmp_ratio a b lb = fstrcmp_ratio a b 0 := fun _ => rfl
  refine ⟨?_, ?_, fun _ => hval _, fun h => by rw [hval]; exact h⟩
  · unfold fstrcmp_ratio
    split_ifs
    · exact zero_le_one
    · positivity
  · unfold fstrcmp_ratio
    split_ifs with hz
    · exact le_refl _
    · obtain ⟨h1, h2⟩ := lcs_length_le a b
      rw [div_le_one (by exact_mod_cast Nat.pos_of_ne_zero hz)]
      exact_mod_cast (by omega : 2 * lcs_length a b ≤ a.length + b.length)

/-- The routines that meet the contract of `fstrcmp_bounded` and give 1 for two equal
strings give 1 for them under every lower bound below 1. -/
theorem fstrcmpOk_same (fstrcmp_bounded : Fstrcmp) (hok : FstrcmpOk fstrcmp_bounded)
    (a : List Byte) (h : fstrcmp_bounded a a 0 = 1) :
    ∀ lower_bound, lower_bound < 1 → fstrcmp_bounded a a lower_bound = 1 := by
  intro lower_bound hlb
  rw [(hok a a lower_bound).2.2.1 (by rw [h]; exact le_of_lt hlb), h]

/-- Under the contract of `fstrcmp_bounded`, the best offset and the best similarity
that `try_split_merged_entry` works with, once the titles are found equal, are those of
the first maximum of the exact similarities over all candidates. -/
theorem try_split_best (fstrcmp_bounded : Fstrcmp) (hok : FstrcmpOk fstrcmp_bounded)
    (old_entry new_entry : Entry) (best : Nat × ℚ)
    (h : split_search fstrcmp_bounded (old_entry.drop (find_paragraph_end old_entry 0)) new_entry
      (new_entry.length + 1) (find_paragraph_end new_entry 0)
      (find_paragraph_end new_entry 0, 0) = some best) :
    best = spec_best_split
      (fun c => entry_fstrcmp fstrcmp_bounded (old_entry.drop (find_paragraph_end old_entry 0))
        (new_entry.drop c) 0)
      (split_candidates new_entry (new_entry.length + 1) (find_paragraph_end new_entry 0))
      (find_paragraph_end new_entry 0, 0) := by
  obtain ⟨_, h2, _, _⟩ := find_paragraph_end_spec new_entry 0 (Nat.zero_le _)
  have hspec := split_search_spec fstrcmp_bounded hok
    (old_entry.drop (find_paragraph_end old_entry 0)) new_entry (new_entry.length + 1)
    (find_paragraph_end new_entry 0) (find_paragraph_end new_entry 0, 0) (by omega) h2
    (by norm_num)
  rw [h] at hspec
  exact Option.some.inj hspec

/-! ## Lemmas: the fuzzy search of entries_mapping_get -/

theorem spec_best_position_unique (s : Nat → ℚ) (slots : List Int) (n j j' : Nat)
    (h : spec_best_position s slots n j) (h' : spec_best_position s slots n j') : j = j' := by
  obtain ⟨a1, a2, a3, a4⟩ := h
  obtain ⟨b1, b2, b3, b4⟩ := h'
  rcases Nat.lt_trichotomy j j' with hlt | heq | hgt
  · exact absurd (a4 j' b1 b2 hlt) (not_lt.mpr (b3 j a1 a2))
  · exact heq
  · exact absurd (b4 j a1 a2 hgt) (not_lt.mpr (a3 j' b1 b2))

/-- A downward search loop that keeps a position when its similarity, computed with the
best one so far as the bound, is above the best one so far: it ends with the state it
started with, when no position with a negative slot has a similarity above that of this
state, and else with the best such position and its similarity. -/
theorem search_loop_spec (sb : Nat → ℚ → ℚ) (slots : List Int)
    (f : Nat → Int × ℚ → Int × ℚ) (h0 : ∀ best, f 0 best = best)
    (hs : ∀ j best, f (j + 1) best =
      f j (if slots.getD j 0 < 0 then
        (if sb j best.2 > best.2 then ((j : Int), sb j best.2) else best) else best))
    (hsb : ∀ (j : Nat) (best : Int × ℚ),
      (if sb j best.2 > best.2 then ((j : Int), sb j best.2) else best) =
        (if sb j 0 > best.2 then ((j : Int), sb j 0) else best)) :
    ∀ (count : Nat) (best : Int × ℚ),
      (f count best = best ∧ ∀ k, k < count → slots.getD k 0 < 0 → sb k 0 ≤ best.2) ∨
      (∃ j : Nat, f count best = ((j : Int), sb j 0) ∧ best.2 < sb j 0 ∧
        spec_best_position (fun k => sb k 0) slots count j) := by
  intro count
  induction count with
  | zero =>
    intro best
    exact Or.inl ⟨h0 best, fun k hk => absurd hk (Nat.not_lt_zero k)⟩
  | succ c ih =>
    intro best
    rw [hs, hsb]
    by_cases hfree : slots.getD c 0 < 0
    · rw [if_pos hfree]
      by_cases hgt : sb c 0 > best.2
      · rw [if_pos hgt]
        rcases ih ((c : Int), sb c 0) with ⟨e, hall⟩ | ⟨j, e, hj, hb1, hb2, hb3, hb4⟩
        · refine Or.inr ⟨c, e, hgt, Nat.lt_succ_self c, hfree, ?_, ?_⟩
          · intro k hk hkf
            rcases Nat.lt_succ_iff_lt_or_eq.mp hk with hlt | heq
            · exact hall k hlt hkf
            · rw [heq]
          · intro k hk _ hck
            omega
        · refine Or.inr ⟨j, e, lt_trans hgt hj, Nat.lt_succ_of_lt hb1, hb2, ?_, ?_⟩
          · intro k hk hkf
            rcases Nat.lt_succ_iff_lt_or_eq.mp hk with hlt | heq
            · exact hb3 k hlt hkf
            · rw [heq]; exact le_of_lt hj
          · intro k hk hkf hjk
            rcases Nat.lt_succ_iff_lt_or_eq.mp hk with hlt | heq
            · exact hb4 k hlt hkf hjk
            · rw [heq]; exact hj
      · rw [if_neg hgt]
        rcases ih best with ⟨e, hall⟩ | ⟨j, e, hj, hb1, hb2, hb3, hb4⟩
        · refine Or.inl ⟨e, ?_⟩
          intro k hk hkf
          rcases Nat.lt_succ_iff_lt_or_eq.mp hk with hlt | heq
          · exact hall k hlt hkf
          · rw [heq]; exact not_lt.mp hgt
        · refine Or.inr ⟨j, e, hj, Nat.lt_succ_of_lt hb1, hb2, ?_, ?_⟩
          · intro k hk hkf
            rcases Nat.lt_succ_iff_lt_or_eq.mp hk with hlt | heq
            · exact hb3 k hlt hkf
            · rw [heq]; exact le_trans (not_lt.mp hgt) (le_of_lt hj)
          · intro k hk hkf hjk
            rcases Nat.lt_succ_iff_lt_or_eq.mp hk with hlt | heq
            · exact hb4 k hlt hkf hjk
            · rw [heq]; exact lt_of_le_of_lt (not_lt.mp hgt) hj
    · rw [if_neg hfree]
      rcases ih best with ⟨e, hall⟩ | ⟨j, e, hj, hb1, hb2, hb3, hb4⟩
      · refine Or.inl ⟨e, ?_⟩
        intro k hk hkf
        rcases Nat.lt_succ_iff_lt_or_eq.mp hk with hlt | heq
        · exact hall k hlt hkf
        · rw [heq] at hkf; exact absurd hkf hfree
      · refine Or.inr ⟨j, e, hj, Nat.lt_succ_of_lt hb1, hb2, ?_, ?_⟩
        · intro k hk hkf
          rcases Nat.lt_succ_iff_lt_or_eq.mp hk with hlt | heq
          · exact hb3 k hlt hkf
          · rw [heq] at hkf; exact absurd hkf hfree
        · intro k hk hkf hjk
          rcases Nat.lt_succ_iff_lt_or_eq.mp hk with hlt | heq
          · exact hb4 k hlt hkf hjk
          · rw [heq] at hkf; exact absurd hkf hfree

/-- Under the contract of `fstrcmp_bounded`, the search over FILE2 of
`entries_mapping_get` ends with `(-1, 0)` when no position with a negative reverse slot
has a positive similarity, and else with the best such position and its similarity. -/
theorem search_file2_best (fstrcmp_bounded : Fstrcmp) (hok : FstrcmpOk fstrcmp_bounded)
    (file2 : List Entry) (index_mapping_reverse : List Int) (entry_i : Entry) (count : Nat) :
    (search_file2 fstrcmp_bounded file2 index_mapping_reverse entry_i count (-1, 0) = (-1, 0) ∧
      ∀ k, k < count → index_mapping_reverse.getD k 0 < 0 →
        entry_fstrcmp fstrcmp_bounded entry_i (file2.getD k []) 0 ≤ 0) ∨
    (∃ j : Nat, search_file2 fstrcmp_bounded file2 index_mapping_reverse entry_i count (-1, 0) =
        ((j : Int), entry_fstrcmp fstrcmp_bounded entry_i (file2.getD j []) 0) ∧
      0 < entry_fstrcmp fstrcmp_bounded entry_i (file2.getD j []) 0 ∧
      spec_best_position (fun k => entry_fstrcmp fstrcmp_bounded entry_i (file2.getD k []) 0)
        index_mapping_reverse count j) :=
  search_loop_spec (fun k lb => entry_fstrcmp fstrcmp_bounded entry_i (file2.getD k []) lb)
    index_mapping_reverse (search_file2 fstrcmp_bounded file2 index_mapping_reverse entry_i)
    (fun _ => rfl) (fun _ _ => rfl)
    (fun j best => bounded_step_eq fstrcmp_bounded hok entry_i (file2.getD j []) (j : Int) best)
    count (-1, 0)

/-- The search over FILE1 of `entries_mapping_get`, in the same way. -/
theorem search_file1_best (fstrcmp_bounded : Fstrcmp) (hok : FstrcmpOk fstrcmp_bounded)
    (file1 : List Entry) (index_mapping : List Int) (entry_j : Entry) (count : Nat) :
    (search_file1 fstrcmp_bounded file1 index_mapping entry_j count (-1, 0) = (-1, 0) ∧
      ∀ k, k < count → index_mapping.getD k 0 < 0 →
        entry_fstrcmp fstrcmp_bounded (file1.getD k []) entry_j 0 ≤ 0) ∨
    (∃ i : Nat, search_file1 fstrcmp_bounded file1 index_mapping entry_j count (-1, 0) =
        ((i : Int), entry_fstrcmp fstrcmp_bounded (file1.getD i []) entry_j 0) ∧
      0 < entry_fstrcmp fstrcmp_bounded (file1.getD i []) entry_j 0 ∧
      spec_best_position (fun k => entry_fstrcmp fstrcmp_bounded (file1.getD k []) entry_j 0)
        index_mapping count i) :=
  search_loop_spec (fun k lb => entry_fstrcmp fstrcmp_bounded (file1.getD k []) entry_j lb)
    index_mapping (search_file1 fstrcmp_bounded file1 index_mapping entry_j)
    (fun _ => rfl) (fun _ _ => rfl)
    (fun i best => bounded_step_eq fstrcmp_bounded hok (file1.getD i []) entry_j (i : Int) best)
    count (-1, 0)

/-- The function `entries_mapping_get` at a position that is not yet computed, when it
does not bind. -/
theorem entries_mapping_get_unbound (fstrcmp_bounded : Fstrcmp) (mapping : entries_mapping)
    (i : Nat) (h : mapping.index_mapping.getD i 0 < -1)
    (hno : ¬ (FSTRCMP_THRESHOLD ≤ (search_file2 fstrcmp_bounded mapping.file2
          mapping.index_mapping_reverse (mapping.file1.getD i []) mapping.file2.length (-1, 0)).2 ∧
        FSTRCMP_THRESHOLD ≤ (search_file1 fstrcmp_bounded mapping.file1 mapping.index_mapping
          (mapping.file2.getD (search_file2 fstrcmp_bounded mapping.file2
            mapping.index_mapping_reverse (mapping.file1.getD i []) mapping.file2.length
            (-1, 0)).1.toNat []) mapping.file1.length (-1, 0)).2 ∧
        (search_file1 fstrcmp_bounded mapping.file1 mapping.index_mapping
          (mapping.file2.getD (search_file2 fstrcmp_bounded mapping.file2
            mapping.index_mapping_reverse (mapping.file1.getD i []) mapping.file2.length
            (-1, 0)).1.toNat []) mapping.file1.length (-1, 0)).1 = (i : Int))) :
    entries_mapping_get fstrcmp_bounded mapping i =
      (-1, { mapping with index_mapping := mapping.index_mapping.set i (-1) }) := by
  have hi : i < mapping.index_mapping.length := by
    by_contra hge
    rw [List.getD_eq_default _ _ (not_lt.mp hge)] at h
    omega
  have hget : (mapping.index_mapping.set i (-1)).getD i 0 = -1 := by
    rw [getD_set_int, if_pos ⟨rfl, hi⟩]
  unfold entries_mapping_get
  rw [if_pos h]
  dsimp only
  by_cases h1 : (search_file2 fstrcmp_bounded mapping.file2
      mapping.index_mapping_reverse (mapping.file1.getD i []) mapping.file2.length (-1, 0)).2 ≥
      FSTRCMP_THRESHOLD
  · rw [if_pos h1]
    have h2 : ¬ ((search_file1 fstrcmp_bounded mapping.file1 mapping.index_mapping
          (mapping.file2.getD (search_file2 fstrcmp_bounded mapping.file2
            mapping.index_mapping_reverse (mapping.file1.getD i []) mapping.file2.length
            (-1, 0)).1.toNat []) mapping.file1.length (-1, 0)).2 ≥ FSTRCMP_THRESHOLD ∧
        (search_file1 fstrcmp_bounded mapping.file1 mapping.index_mapping
          (mapping.file2.getD (search_file2 fstrcmp_bounded mapping.file2
            mapping.index_mapping_reverse (mapping.file1.getD i []) mapping.file2.length
            (-1, 0)).1.toNat []) mapping.file1.length (-1, 0)).1 = (i : Int)) :=
      fun h2 => hno ⟨h1, h2.1, h2.2⟩
    rw [if_neg h2]
    rw [if_pos h]
    dsimp only
    rw [hget]
  · rw [if_neg h1]
    rw [if_pos h]
    dsimp only
    rw [hget]

/-- The function `entries_mapping_get` at a position that is not yet computed, when it
binds. -/
theorem entries_mapping_get_binds (fstrcmp_bounded : Fstrcmp) (mapping : entries_mapping)
    (i j : Nat) (h : mapping.index_mapping.getD i 0 < -1)
    (h1 : FSTRCMP_THRESHOLD ≤ (search_file2 fstrcmp_bounded mapping.file2
          mapping.index_mapping_reverse (mapping.file1.getD i []) mapping.file2.length (-1, 0)).2)
    (hj : (search_file2 fstrcmp_bounded mapping.file2
          mapping.index_mapping_reverse (mapping.file1.getD i []) mapping.file2.length (-1, 0)).1
        = (j : Int))
    (h2 : FSTRCMP_THRESHOLD ≤ (search_file1 fstrcmp_bounded mapping.file1 mapping.index_mapping
          (mapping.file2.getD j []) mapping.file1.length (-1, 0)).2)
    (h3 : (search_file1 fstrcmp_bounded mapping.file1 mapping.index_mapping
          (mapping.file2.getD j []) mapping.file1.length (-1, 0)).1 = (i : Int)) :
    entries_mapping_get fstrcmp_bounded mapping i =
      ((j : Int), { mapping with
        index_mapping := mapping.index_mapping.set i (j : Int)
        index_mapping_reverse := mapping.index_mapping_reverse.set j (i : Int) }) := by
  have hi : i < mapping.index_mapping.length := by
    by_contra hge
    rw [List.getD_eq_default _ _ (not_lt.mp hge)] at h
    omega
  have hget : (mapping.index_mapping.set i (j : Int)).getD i 0 = (j : Int) := by
    rw [getD_set_int, if_pos ⟨rfl, hi⟩]
  unfold entries_mapping_get
  rw [if_pos h]
  dsimp only
  have hc : (search_file1 fstrcmp_bounded mapping.file1 mapping.index_mapping
        (mapping.file2.getD j []) mapping.file1.length (-1, 0)).2 ≥ FSTRCMP_THRESHOLD ∧
      (search_file1 fstrcmp_bounded mapping.file1 mapping.index_mapping
        (mapping.file2.getD j []) mapping.file1.length (-1, 0)).1 = (i : Int) := ⟨h2, h3⟩
  have hnot : ¬ ((j : Int) < -1) := by omega
  rw [if_pos h1, hj, Int.toNat_ofNat, if_pos hc]
  dsimp only
  rw [hget, if_neg hnot]
  dsimp only
  rw [hget]

/-! ## Lemmas: the exact pass pairs the occurrences by rank from the end -/

theorem later_count_step (l : List Entry) (e : Entry) (p : Nat) (h : p + 1 < l.length) :
    later_count l e p = later_count l e (p + 1) + (if l.getD (p + 1) [] = e then 1 else 0) := by
  unfold later_count
  rw [List.drop_eq_getElem_cons h, List.count_cons]
  have : l.getD (p + 1) [] = l[p + 1] := by
    rw [List.getD_eq_getElem?_getD, List.getElem?_eq_getElem h]; rfl
  rw [this]
  by_cases hc : l[p + 1] = e
  · simp [hc]
  · simp [hc]

theorem later_count_end (l : List Entry) (e : Entry) (p : Nat) (h : l.length ≤ p + 1) :
    later_count l e p = 0 := by
  unfold later_count
  rw [List.drop_eq_nil_of_le h]
  rfl

theorem later_count_succ_le (l : List Entry) (e : Entry) (p : Nat) :
    later_count l e (p + 1) ≤ later_count l e p := by
  by_cases h : p + 1 < l.length
  · rw [later_count_step l e p h]; omega
  · rw [later_count_end l e (p + 1) (by omega)]; exact Nat.zero_le _

theorem later_count_mono (l : List Entry) (e : Entry) (p p' : Nat) (h : p ≤ p') :
    later_count l e p' ≤ later_count l e p := by
  induction p' with
  | zero =>
    have : p = 0 := by omega
    rw [this]
  | succ k ih =>
    by_cases hk : p ≤ k
    · exact le_trans (later_count_succ_le l e k) (ih hk)
    · have : p = k + 1 := by omega
      rw [this]

theorem later_count_strict (l : List Entry) (e : Entry) (p p' : Nat) (h : p < p')
    (hp' : p' < l.length) (he : l.getD p' [] = e) :
    later_count l e p' < later_count l e p := by
  obtain ⟨k, rfl⟩ : ∃ k, p' = k + 1 := ⟨p' - 1, by omega⟩
  have h1 := later_count_step l e k hp'
  rw [if_pos he] at h1
  have h2 := later_count_mono l e p k (by omega)
  omega

theorem later_count_zero (l : List Entry) (e : Entry) :
    ∀ (k p : Nat), l.length - p = k →
      (∀ p', p < p' → p' < l.length → l.getD p' [] ≠ e) → later_count l e p = 0 := by
  intro k
  induction k with
  | zero => intro p hk _; exact later_count_end l e p (by omega)
  | succ k ih =>
    intro p hk hall
    by_cases h : p + 1 < l.length
    · rw [later_count_step l e p h, if_neg (hall (p + 1) (by omega) h),
        ih (p + 1) (by omega) (fun p' h1 h2 => hall p' (by omega) h2)]
    · exact later_count_end l e p (by omega)

theorem later_count_next (l : List Entry) (e : Entry) :
    ∀ (k p p' : Nat), p' - p = k → p < p' → p' < l.length → l.getD p' [] = e →
      (∀ x, p < x → x < p' → l.getD x [] ≠ e) →
      later_count l e p = later_count l e p' + 1 := by
  intro k
  induction k with
  | zero => intro p p' hk h; omega
  | succ k ih =>
    intro p p' hk h hp' he hall
    by_cases hnext : p + 1 = p'
    · subst hnext
      rw [later_count_step l e p hp', if_pos he]
    · rw [later_count_step l e p (by omega), if_neg (hall (p + 1) (by omega) (by omega)),
        ih (p + 1) p' (by omega) (by omega) hp' he (fun x h1 h2 => hall x (by omega) h2)]

/-- Two positions with the same value and the same rank from the end are the same. -/
theorem rank_from_end_inj (l : List Entry) (p p' : Nat) (hp : p < l.length)
    (hp' : p' < l.length) (he : l.getD p [] = l.getD p' [])
    (hr : rank_from_end l p = rank_from_end l p') : p = p' := by
  unfold rank_from_end at hr
  rw [he] at hr
  rcases Nat.lt_trichotomy p p' with hlt | heq | hgt
  · have := later_count_strict l (l.getD p' []) p p' hlt hp' rfl
    omega
  · exact heq
  · have := later_count_strict l (l.getD p' []) p' p hgt hp he
    omega

theorem spec_paired_symm (a b : List Entry) (p q : Nat) (h : spec_paired a b p q) :
    spec_paired b a q p :=
  ⟨h.1.symm, h.2.symm⟩

/-- A slot that holds a paired position is as the claim says. -/
theorem slotOk_of_paired (a b : List Entry) (v : Int) (p q : Nat) (hq : q < b.length)
    (h : spec_paired a b p q) (hv : v = (q : Int)) : SlotOk a b v p :=
  Or.inl ⟨q, hq, h, hv⟩

/-- When the pairing loop has no further occurrence on one side, all slots of the value
are as the claim says. -/
theorem slots_final (a b : List Entry) (e : Entry) (ca cb : Nat) (sa sb : List Int)
    (hcb : cb < b.length) (hb : b.getD cb [] = e)
    (hrank : later_count a e ca = later_count b e cb)
    (hA : ∀ p, p < a.length → a.getD p [] = e →
      (ca ≤ p → ∃ q : Nat, q < b.length ∧ spec_paired a b p q ∧ sa.getD p 0 = (q : Int)) ∧
      (p < ca → sa.getD p 0 = -2))
    (hB : ∀ q, q < b.length → b.getD q [] = e →
      (cb ≤ q → ∃ p : Nat, p < a.length ∧ spec_paired b a q p ∧ sb.getD q 0 = (p : Int)) ∧
      (q < cb → sb.getD q 0 = -2))
    (hnone : ∀ p, p < ca → a.getD p [] ≠ e) :
    (∀ p, p < a.length → a.getD p [] = e → SlotOk a b (sa.getD p 0) p) ∧
    (∀ q, q < b.length → b.getD q [] = e → SlotOk b a (sb.getD q 0) q) := by
  constructor
  · intro p hp hpe
    have hge : ca ≤ p := by
      by_contra hlt
      exact hnone p (not_le.mp hlt) hpe
    exact Or.inl ((hA p hp hpe).1 hge)
  · intro q hq hqe
    by_cases hge : cb ≤ q
    · exact Or.inl ((hB q hq hqe).1 hge)
    · refine Or.inr ⟨?_, (hB q hq hqe).2 (not_le.mp hge)⟩
      intro p hp hpair
      obtain ⟨hval, hr⟩ := hpair
      unfold rank_from_end at hr
      rw [← hval, hqe] at hr
      have hpe : a.getD p [] = e := by rw [← hval, hqe]
      have hge' : ca ≤ p := by
        by_contra hlt
        exact hnone p (not_le.mp hlt) hpe
      have h1 := later_count_mono a e ca p hge'
      have h2 := later_count_strict b e q cb (not_le.mp hge) hcb hb
      omega

/-- The pairing loop of `compute_mapping`, entered at a pair of occurrences of `entry`
with the same rank from the end, the occurrences from there on being paired by rank and
the earlier ones not yet computed: it leaves the slots of the other values as they are,
and the slots of `entry` as the claim says. -/
theorem pair_occurrences_rank (file1 file2 : List Entry) (entry : Entry) :
    ∀ (fuel curr_i curr_j : Nat) (arrays arrays1 : List Int × List Int),
      pair_occurrences file1 file2 entry fuel curr_i curr_j arrays = some arrays1 →
      arrays.1.length = file1.length → arrays.2.length = file2.length →
      curr_i < file1.length → curr_j < file2.length →
      file1.getD curr_i [] = entry → file2.getD curr_j [] = entry →
      later_count file1 entry curr_i = later_count file2 entry curr_j →
      (∀ p, p < file1.length → file1.getD p [] = entry →
        (curr_i ≤ p → ∃ q : Nat, q < file2.length ∧ spec_paired file1 file2 p q ∧
          arrays.1.getD p 0 = (q : Int)) ∧
        (p < curr_i → arrays.1.getD p 0 = -2)) →
      (∀ q, q < file2.length → file2.getD q [] = entry →
        (curr_j ≤ q → ∃ p : Nat, p < file1.length ∧ spec_paired file2 file1 q p ∧
          arrays.2.getD q 0 = (p : Int)) ∧
        (q < curr_j → arrays.2.getD q 0 = -2)) →
      arrays1.1.length = file1.length ∧ arrays1.2.length = file2.length ∧
      (∀ p, file1.getD p [] ≠ entry → arrays1.1.getD p 0 = arrays.1.getD p 0) ∧
      (∀ q, file2.getD q [] ≠ entry → arrays1.2.getD q 0 = arrays.2.getD q 0) ∧
      (∀ p, p < file1.length → file1.getD p [] = entry →
        SlotOk file1 file2 (arrays1.1.getD p 0) p) ∧
      (∀ q, q < file2.length → file2.getD q [] = entry →
        SlotOk file2 file1 (arrays1.2.getD q 0) q) := by
  intro fuel
  induction fuel with
  | zero => intro _ _ _ _ h; simp [pair_occurrences] at h
  | succ fuel ih =>
    intro curr_i curr_j arrays arrays1 h hl1 hl2 hci hcj hei hej hrank hA hB
    obtain ⟨fwd, rev⟩ := arrays
    simp only at hl1 hl2 hA hB
    unfold pair_occurrences at h
    rcases rev_lookup_greatest file1 curr_i entry (le_of_lt hci) with
      ⟨hi, hnone⟩ | ⟨p1, hp1, hp1e, hi, hp1max⟩
    · simp only [hi] at h
      simp only [show ((-1 : Int) < 0) by omega, if_true, Option.some.injEq] at h
      subst h
      obtain ⟨r1, r2⟩ := slots_final file1 file2 entry curr_i curr_j fwd rev hcj hej hrank
        hA hB hnone
      exact ⟨hl1, hl2, fun _ _ => rfl, fun _ _ => rfl, r1, r2⟩
    rcases rev_lookup_greatest file2 curr_j entry (le_of_lt hcj) with
      ⟨hj, hnone⟩ | ⟨q1, hq1, hq1e, hj, hq1max⟩
    · have : ¬ ((file1.length : Int) - 1 - (p1 : Int) < 0) := by omega
      simp only [hi, hj, this, if_false, show ((-1 : Int) < 0) by omega, if_true,
        Option.some.injEq] at h
      subst h
      obtain ⟨r2, r1⟩ := slots_final file2 file1 entry curr_j curr_i rev fwd hci hei hrank.symm
        hB hA hnone
      exact ⟨hl1, hl2, fun _ _ => rfl, fun _ _ => rfl, r1, r2⟩
    have e1 : ¬ ((file1.length : Int) - 1 - (p1 : Int) < 0) := by omega
    have e2 : ¬ ((file2.length : Int) - 1 - (q1 : Int) < 0) := by omega
    have t1 : ((file1.length : Int) - 1 - ((file1.length : Int) - 1 - (p1 : Int))).toNat
        = p1 := by omega
    have t2 : ((file2.length : Int) - 1 - ((file2.length : Int) - 1 - (q1 : Int))).toNat
        = q1 := by omega
    simp only [hi, hj, e1, e2, if_false, t1, t2] at h
    split_ifs at h with hassert
    have hp1n : p1 < file1.length := by omega
    have hq1n : q1 < file2.length := by omega
    have hr1 : later_count file1 entry p1 = later_count file1 entry curr_i + 1 :=
      later_count_next file1 entry _ p1 curr_i rfl hp1 hci hei
        (fun x h1 h2 => hp1max x h1 h2)
    have hr2 : later_count file2 entry q1 = later_count file2 entry curr_j + 1 :=
      later_count_next file2 entry _ q1 curr_j rfl hq1 hcj hej
        (fun x h1 h2 => hq1max x h1 h2)
    have hpair : spec_paired file1 file2 p1 q1 := by
      refine ⟨by rw [hp1e, hq1e], ?_⟩
      unfold rank_from_end
      rw [hp1e, hq1e, hr1, hr2, hrank]
    obtain ⟨c1, c2, c3, c4, c5, c6⟩ := ih p1 q1 _ arrays1 h
      (by simpa using hl1) (by simpa using hl2) hp1n hq1n hp1e hq1e
      (by rw [hr1, hr2, hrank])
      (by
        intro p hp hpe
        simp only [getD_set_int]
        by_cases hpp : p1 = p
        · subst hpp
          rw [if_pos ⟨rfl, by omega⟩]
          exact ⟨fun _ => ⟨q1, hq1n, hpair, rfl⟩, fun hlt => absurd hlt (lt_irrefl _)⟩
        · rw [if_neg (fun hc => hpp hc.1)]
          refine ⟨fun hge => (hA p hp hpe).1 ?_, fun hlt => (hA p hp hpe).2 (by omega)⟩
          by_contra hlt
          exact hp1max p (by omega) (not_le.mp hlt) hpe)
      (by
        intro q hq hqe
        simp only [getD_set_int]
        by_cases hqq : q1 = q
        · subst hqq
          rw [if_pos ⟨rfl, by omega⟩]
          exact ⟨fun _ => ⟨p1, hp1n, spec_paired_symm _ _ _ _ hpair, rfl⟩,
            fun hlt => absurd hlt (lt_irrefl _)⟩
        · rw [if_neg (fun hc => hqq hc.1)]
          refine ⟨fun hge => (hB q hq hqe).1 ?_, fun hlt => (hB q hq hqe).2 (by omega)⟩
          by_contra hlt
          exact hq1max q (by omega) (not_le.mp hlt) hqe)
    refine ⟨c1, c2, ?_, ?_, c5, c6⟩
    · intro p hpe
      rw [c3 p hpe]
      simp only [getD_set_int]
      rw [if_neg (fun hc => hpe (by rw [← hc.1]; exact hp1e))]
    · intro q hqe
      rw [c4 q hqe]
      simp only [getD_set_int]
      rw [if_neg (fun hc => hqe (by rw [← hc.1]; exact hq1e))]

theorem seen_from_step (file1 : List Entry) (i : Nat) (v : Entry)
    (hseen : seen_from file1 (i + 1) (file1.getD i []) ∨ v ≠ file1.getD i []) :
    seen_from file1 i v ↔ seen_from file1 (i + 1) v := by
  constructor
  · rintro ⟨p', h1, h2, h3⟩
    by_cases hp : p' = i
    · subst hp
      rcases hseen with h | h
      · rw [h3] at h; exact h
      · exact absurd h3.symm h
    · exact ⟨p', by omega, h2, h3⟩
  · rintro ⟨p', h1, h2, h3⟩
    exact ⟨p', by omega, h2, h3⟩

/-- A step of the exact pass at an entry whose value was met before, when it changes
nothing. -/
theorem rankInv_seen (file1 file2 : List Entry) (i : Nat) (arrays : List Int × List Int)
    (hinv : RankInv file1 file2 (i + 1) arrays)
    (hseen : seen_from file1 (i + 1) (file1.getD i [])) : RankInv file1 file2 i arrays := by
  obtain ⟨h1, h2, h3, h4⟩ := hinv
  refine ⟨h1, h2, fun p hp => ?_, fun q hq => ?_⟩
  · rw [seen_from_step file1 i _ (Or.inl hseen)]; exact h3 p hp
  · rw [seen_from_step file1 i _ (Or.inl hseen)]; exact h4 q hq

/-- A step of the exact pass at an entry that does not occur in file2. -/
theorem rankInv_absent (file1 file2 : List Entry) (i : Nat) (arrays : List Int × List Int)
    (hi : i < file1.length) (hinv : RankInv file1 file2 (i + 1) arrays)
    (habs : ∀ q, q < file2.length → file2.getD q [] ≠ file1.getD i []) :
    RankInv file1 file2 i arrays := by
  obtain ⟨h1, h2, h3, h4⟩ := hinv
  refine ⟨h1, h2, fun p hp => ?_, fun q hq => ?_⟩
  · by_cases hv : file1.getD p [] = file1.getD i []
    · have hno : ∀ q : Nat, q < file2.length → ¬ spec_paired file1 file2 p q := by
        intro q hq hpair
        exact habs q hq (by rw [← hpair.1, hv])
      refine ⟨fun _ => Or.inr ⟨hno, ?_⟩, fun hns => absurd ⟨i, le_refl _, hi, hv.symm⟩ hns⟩
      by_cases hs : seen_from file1 (i + 1) (file1.getD p [])
      · rcases (h3 p hp).1 hs with ⟨q, hq, hpair, -⟩ | ⟨-, hval⟩
        · exact absurd hpair (hno q hq)
        · exact hval
      · exact (h3 p hp).2 hs
    · rw [seen_from_step file1 i _ (Or.inr hv)]; exact h3 p hp
  · rw [seen_from_step file1 i _ (Or.inr (habs q hq))]; exact h4 q hq

theorem last_index_greatest (file2 : List Entry) (entry : Entry)
    (h : gl_list_indexof file2.reverse entry ≥ 0) :
    ∀ q, last_index file2 entry < q → q < file2.length → file2.getD q [] ≠ entry := by
  unfold last_index
  unfold gl_list_indexof at h ⊢
  have := rev_lookup_greatest file2 file2.length entry (le_refl _)
  simp only [Nat.sub_self] at this
  rcases this with ⟨h1, -⟩ | ⟨p, hp, hpe, h1, hmax⟩
  · rw [h1] at h; omega
  · rw [h1]
    have : ((file2.length : Int) - 1 - ((file2.length : Int) - 1 - (p : Int))).toNat = p := by
      omega
    rw [this]; exact hmax

theorem indexof_absent (file2 : List Entry) (entry : Entry)
    (h : ¬ gl_list_indexof file2.reverse entry ≥ 0) :
    ∀ q, q < file2.length → file2.getD q [] ≠ entry := by
  unfold gl_list_indexof at h
  have := rev_lookup_greatest file2 file2.length entry (le_refl _)
  simp only [Nat.sub_self] at this
  rcases this with ⟨-, hall⟩ | ⟨p, hp, -, h1, -⟩
  · exact hall
  · rw [h1] at h; omega

/-- A value that occurs in a file has a last occurrence, of rank 0. -/
theorem last_occurrence (l : List Entry) (e : Entry) (p : Nat) (hp : p < l.length)
    (he : l.getD p [] = e) :
    ∃ p0, p0 < l.length ∧ l.getD p0 [] = e ∧ later_count l e p0 = 0 := by
  rcases rev_lookup_greatest l l.length e (le_refl _) with ⟨-, hall⟩ | ⟨p0, hp0, hp0e, -, hmax⟩
  · exact absurd he (hall p hp)
  · exact ⟨p0, hp0, hp0e, later_count_zero l e _ p0 rfl hmax⟩

/-- A step of the exact pass keeps the invariant. -/
theorem exact_step_rank (file1 file2 : List Entry) (i : Nat)
    (arrays arrays1 : List Int × List Int) (hi : i < file1.length)
    (hinv : RankInv file1 file2 (i + 1) arrays)
    (h : exact_step file1 file2 i arrays = some arrays1) : RankInv file1 file2 i arrays1 := by
  obtain ⟨fwd, rev⟩ := arrays
  unfold exact_step at h
  have hfold : ((file2.length : Int) - 1 -
      gl_list_indexof file2.reverse (file1.getD i [])).toNat =
      last_index file2 (file1.getD i []) := rfl
  simp only [hfold] at h
  by_cases c1 : fwd.getD i 0 < -1
  · rw [if_pos c1] at h
    by_cases c2 : gl_list_indexof file2.reverse (file1.getD i []) ≥ 0
    · rw [if_pos c2] at h
      obtain ⟨hjn, hje⟩ := last_index_spec file2 _ c2
      have hjmax := last_index_greatest file2 _ c2
      by_cases c3 : rev.getD (last_index file2 (file1.getD i [])) 0 < 0
      · rw [if_pos c3] at h
        obtain ⟨hl1, hl2, h3, h4⟩ := hinv
        simp only at hl1 hl2 h3 h4
        have hrj : later_count file2 (file1.getD i []) (last_index file2 (file1.getD i [])) = 0 :=
          later_count_zero file2 _ _ _ rfl hjmax
        -- the value of entry `i` was not met before
        have hns : ¬ seen_from file1 (i + 1) (file1.getD i []) := by
          intro hs
          have hs' : seen_from file1 (i + 1)
              (file2.getD (last_index file2 (file1.getD i [])) []) := by rw [hje]; exact hs
          rcases (h4 _ hjn).1 hs' with ⟨p, -, -, hval⟩ | ⟨hno, -⟩
          · omega
          · obtain ⟨p0, hp0, hp0e, hp0r⟩ := last_occurrence file1 _ i hi rfl
            apply hno p0 hp0
            refine ⟨by rw [hje, hp0e], ?_⟩
            unfold rank_from_end
            rw [hje, hp0e, hrj, hp0r]
        have habove : ∀ p', i < p' → p' < file1.length → file1.getD p' [] ≠ file1.getD i [] :=
          fun p' h1 h2 h3 => hns ⟨p', h1, h2, h3⟩
        have hri : later_count file1 (file1.getD i []) i = 0 :=
          later_count_zero file1 _ _ _ rfl habove
        have hpair : spec_paired file1 file2 i (last_index file2 (file1.getD i [])) := by
          refine ⟨hje.symm, ?_⟩
          unfold rank_from_end
          rw [hje, hri, hrj]
        obtain ⟨d1, d2, d3, d4, d5, d6⟩ := pair_occurrences_rank file1 file2 _ _ _ _ _ arrays1 h
          (by simpa using hl1) (by simpa using hl2) hi hjn rfl hje (by rw [hri, hrj])
          (by
            intro p hp hpe
            simp only [getD_set_int]
            by_cases hpp : i = p
            · subst hpp
              rw [if_pos ⟨rfl, by omega⟩]
              exact ⟨fun _ => ⟨_, hjn, hpair, rfl⟩, fun hlt => absurd hlt (lt_irrefl _)⟩
            · rw [if_neg (fun hc => hpp hc.1)]
              refine ⟨fun hge => absurd hpe (habove p (by omega) hp), fun _ => ?_⟩
              exact (h3 p hp).2 (by rw [hpe]; exact hns))
          (by
            intro q hq hqe
            simp only [getD_set_int]
            by_cases hqq : last_index file2 (file1.getD i []) = q
            · rw [if_pos ⟨hqq, by omega⟩]
              rw [← hqq]
              exact ⟨fun _ => ⟨i, hi, spec_paired_symm _ _ _ _ hpair, rfl⟩,
                fun hlt => absurd hlt (lt_irrefl _)⟩
            · rw [if_neg (fun hc => hqq hc.1)]
              refine ⟨fun hge => absurd hqe (hjmax q (by omega) hq), fun _ => ?_⟩
              exact (h4 q hq).2 (by rw [hqe]; exact hns))
        refine ⟨d1, d2, fun p hp => ?_, fun q hq => ?_⟩
        · by_cases hv : file1.getD p [] = file1.getD i []
          · exact ⟨fun _ => d5 p hp hv, fun hns' => absurd ⟨i, le_refl _, hi, hv.symm⟩ hns'⟩
          · rw [seen_from_step file1 i _ (Or.inr hv), d3 p hv]
            simp only [getD_set_int]
            rw [if_neg (fun hc => hv (by rw [← hc.1]))]
            exact h3 p hp
        · by_cases hv : file2.getD q [] = file1.getD i []
          · exact ⟨fun _ => d6 q hq hv, fun hns' => absurd ⟨i, le_refl _, hi, hv.symm⟩ hns'⟩
          · rw [seen_from_step file1 i _ (Or.inr hv), d4 q hv]
            simp only [getD_set_int]
            rw [if_neg (fun hc => hv (by rw [← hc.1]; exact hje))]
            exact h4 q hq
      · rw [if_neg c3] at h
        simp only [Option.some.injEq] at h
        subst h
        apply rankInv_seen _ _ _ _ hinv
        by_contra hns
        have := (hinv.2.2.2 _ hjn).2 (by rw [hje]; exact hns)
        simp only at this
        omega
    · rw [if_neg c2] at h
      simp only [Option.some.injEq] at h
      subst h
      exact rankInv_absent _ _ _ _ hi hinv (indexof_absent file2 _ c2)
  · rw [if_neg c1] at h
    simp only [Option.some.injEq] at h
    subst h
    apply rankInv_seen _ _ _ _ hinv
    by_contra hns
    have := (hinv.2.2.1 i hi).2 hns
    simp only at this
    omega

theorem exact_pass_rank (file1 file2 : List Entry) :
    ∀ (n : Nat) (arrays arrays1 : List Int × List Int), n ≤ file1.length →
      RankInv file1 file2 n arrays → exact_pass file1 file2 n arrays = some arrays1 →
      RankInv file1 file2 0 arrays1 := by
  intro n
  induction n with
  | zero =>
    intro arrays arrays1 _ hinv h
    simp only [exact_pass, Option.some.injEq] at h
    subst h; exact hinv
  | succ n ih =>
    intro arrays arrays1 hn hinv h
    unfold exact_pass at h
    cases hstep : exact_step file1 file2 n arrays with
    | none => rw [hstep] at h; simp at h
    | some a =>
      rw [hstep] at h
      exact ih a arrays1 (by omega) (exact_step_rank file1 file2 n arrays a (by omega) hinv hstep) h

theorem rankInv_init (file1 file2 : List Entry) :
    RankInv file1 file2 file1.length
      (List.replicate file1.length (-2), List.replicate file2.length (-2)) := by
  have hrep : ∀ (n k : Nat), k < n → (List.replicate n (-2 : Int)).getD k 0 = -2 := by
    intro n k hk
    rw [List.getD_eq_getElem?_getD, List.getElem?_replicate, if_pos hk]
    rfl
  have hns : ∀ v, ¬ seen_from file1 file1.length v := by
    rintro v ⟨p', h1, h2, -⟩
    omega
  refine ⟨by simp, by simp, fun p hp => ⟨fun hs => absurd hs (hns _), fun _ => hrep _ _ hp⟩,
    fun q hq => ⟨fun hs => absurd hs (hns _), fun _ => hrep _ _ hq⟩⟩

/-- What `compute_mapping` without the full pass returns: every slot of both arrays
holds the position paired by rank from the end, or -2 when there is none. -/
theorem compute_mapping_rank (fstrcmp_bounded : Fstrcmp) (file1 file2 : List Entry) :
    ∃ mapping, compute_mapping fstrcmp_bounded file1 file2 false = some mapping ∧
      mapping.file1 = file1 ∧ mapping.file2 = file2 ∧
      mapping.index_mapping.length = file1.length ∧
      mapping.index_mapping_reverse.length = file2.length ∧
      (∀ p, p < file1.length → SlotOk file1 file2 (mapping.index_mapping.getD p 0) p) ∧
      (∀ q, q < file2.length →
        SlotOk file2 file1 (mapping.index_mapping_reverse.getD q 0) q) := by
  obtain ⟨a, h, -⟩ := exact_pass_ok file1 file2 file1.length _ (le_refl _)
    (exactInv_init file1 file2)
  obtain ⟨hl1, hl2, h3, h4⟩ := exact_pass_rank file1 file2 _ _ a (le_refl _)
    (rankInv_init file1 file2) h
  obtain ⟨fwd, rev⟩ := a
  simp only at hl1 hl2 h3 h4
  refine ⟨⟨file1, file2, fwd, rev⟩, by simp [compute_mapping, h], rfl, rfl, hl1, hl2, ?_, ?_⟩
  · intro p hp
    exact (h3 p hp).1 ⟨p, Nat.zero_le _, hp, rfl⟩
  · intro q hq
    by_cases hs : seen_from file1 0 (file2.getD q [])
    · exact (h4 q hq).1 hs
    · refine Or.inr ⟨?_, (h4 q hq).2 hs⟩
      intro p hp hpair
      exact hs ⟨p, Nat.zero_le _, hp, hpair.1.symm⟩

/-- A slot that is as the claim says holds `q` exactly when `q` is the paired
position. -/
theorem slotOk_iff (a b : List Entry) (v : Int) (p q : Nat) (hq : q < b.length)
    (h : SlotOk a b v p) : v = (q : Int) ↔ spec_paired a b p q := by
  rcases h with ⟨q0, hq0, hpair0, hv⟩ | ⟨hno, hv⟩
  · constructor
    · intro hvq
      have : q = q0 := by omega
      rw [this]; exact hpair0
    · intro hpair
      have : q = q0 := rank_from_end_inj b q q0 hq hq0 (by rw [← hpair.1, hpair0.1])
        (by rw [← hpair.2, hpair0.2])
      rw [hv, this]
  · constructor
    · intro hvq; omega
    · intro hpair; exact absurd hpair (hno q hq)

theorem later_count_cons_zero (x : Entry) (rest : List Entry) (e : Entry) :
    later_count (x :: rest) e 0 = rest.count e := rfl

theorem later_count_cons_succ (x : Entry) (rest : List Entry) (e : Entry) (p : Nat) :
    later_count (x :: rest) e (p + 1) = later_count rest e p := rfl

/-- An occurrence of `e` has fewer occurrences after it than there are in all. -/
theorem later_count_lt_count (e : Entry) :
    ∀ (l : List Entry) (q : Nat), q < l.length → l.getD q [] = e →
      later_count l e q < l.count e := by
  intro l
  induction l with
  | nil => intro q hq; simp at hq
  | cons x rest ih =>
    intro q hq he
    cases q with
    | zero =>
      simp only [List.getD_cons_zero] at he
      rw [later_count_cons_zero, List.count_cons, he]
      simp
    | succ q =>
      simp only [List.getD_cons_succ] at he
      simp only [List.length_cons] at hq
      rw [later_count_cons_succ, List.count_cons]
      have := ih q (by omega) he
      omega

/-- Every number below the number of occurrences of `e` is the rank from the end of an
occurrence of `e`. -/
theorem rank_exists (e : Entry) :
    ∀ (l : List Entry) (m : Nat), m < l.count e →
      ∃ q, q < l.length ∧ l.getD q [] = e ∧ later_count l e q = m := by
  intro l
  induction l with
  | nil => intro m hm; simp at hm
  | cons x rest ih =>
    intro m hm
    by_cases hlt : m < rest.count e
    · obtain ⟨q, hq, hqe, hqr⟩ := ih m hlt
      exact ⟨q + 1, by simp only [List.length_cons]; omega, by simpa using hqe,
        by rw [later_count_cons_succ]; exact hqr⟩
    · rw [List.count_cons] at hm
      by_cases hx : x = e
      · refine ⟨0, by simp, by simpa using hx, ?_⟩
        rw [later_count_cons_zero]
        simp only [hx, beq_self_eq_true, if_true] at hm
        omega
      · have : (x == e) = false := by simpa using hx
        rw [this] at hm
        simp at hm
        omega

/-- The number of occurrences of `e` with fewer than `b` occurrences after them. -/
theorem count_rank_below (e : Entry) (b : Nat) :
    ∀ (l : List Entry),
      (List.range l.length).countP (fun p => decide (l.getD p [] = e ∧ later_count l e p < b))
        = min (l.count e) b := by
  intro l
  induction l with
  | nil => simp
  | cons x rest ih =>
    rw [List.length_cons, List.range_succ_eq_map, List.countP_cons, List.countP_map]
    have hfun : ((fun p => decide ((x :: rest).getD p [] = e ∧ later_count (x :: rest) e p < b)) ∘
        Nat.succ) = (fun p => decide (rest.getD p [] = e ∧ later_count rest e p < b)) := by
      funext p
      rfl
    rw [hfun, ih, List.count_cons]
    simp only [List.getD_cons_zero, later_count_cons_zero]
    by_cases hx : x = e
    · subst hx
      simp only [beq_self_eq_true, if_true, true_and]
      by_cases hlt : rest.count x < b
      · simp only [hlt, decide_True, if_true]
        omega
      · simp only [hlt, decide_False]
        simp only [Bool.false_eq_true, if_false]
        omega
    · have : (x == e) = false := by simpa using hx
      simp only [hx, false_and, decide_False, this]
      simp

/-- A slot that is as the claim says is bound exactly when the rank from the end of its
entry is below the number of occurrences of the entry in the other file. -/
theorem slotOk_bound_iff (a b : List Entry) (v : Int) (p : Nat) (h : SlotOk a b v p) :
    0 ≤ v ↔ rank_from_end a p < b.count (a.getD p []) := by
  rcases h with ⟨q, hq, hpair, hv⟩ | ⟨hno, hv⟩
  · constructor
    · intro _
      rw [hpair.2]
      unfold rank_from_end
      rw [hpair.1]
      exact later_count_lt_count _ b q hq rfl
    · intro _; omega
  · constructor
    · intro hge; omega
    · intro hlt
      obtain ⟨q, hq, hqe, hqr⟩ := rank_exists _ b _ hlt
      refine absurd ?_ (hno q hq)
      refine ⟨hqe.symm, ?_⟩
      unfold rank_from_end
      rw [hqe]
      exact hqr.symm

/-- The number of bound slots among the occurrences of `e`, when all slots are as the
claim says. -/
theorem count_bound (a b : List Entry) (slots : List Int) (e : Entry)
    (h : ∀ p, p < a.length → SlotOk a b (slots.getD p 0) p) :
    (List.range a.length).countP (fun p => decide (a.getD p [] = e ∧ 0 ≤ slots.getD p 0))
      = min (a.count e) (b.count e) := by
  rw [← count_rank_below e (b.count e) a]
  apply List.countP_congr
  intro p hp
  rw [List.mem_range] at hp
  simp only [decide_eq_true_eq]
  constructor
  · rintro ⟨he, hge⟩
    have := (slotOk_bound_iff a b _ p (h p hp)).mp hge
    unfold rank_from_end at this
    rw [he] at this
    exact ⟨he, this⟩
  · rintro ⟨he, hlt⟩
    refine ⟨he, (slotOk_bound_iff a b _ p (h p hp)).mpr ?_⟩
    unfold rank_from_end
    rw [he]
    exact hlt

/-! ## Lemmas: the paragraph end and the end of the split search -/

/-- The loop of `find_paragraph_end`: a result before the end of the bytes comes right
after a newline and is the offset of a newline, and no offset between the start and the
result is such. -/
theorem find_paragraph_end_loop_blank :
    ∀ (l : List Byte) (o : Nat),
      (find_paragraph_end_loop l o < o + l.length →
        o < find_paragraph_end_loop l o ∧
        l.getD (find_paragraph_end_loop l o - o - 1) 0 = 10 ∧
        l.getD (find_paragraph_end_loop l o - o) 0 = 10) ∧
      (∀ d, 0 < d → o + d < find_paragraph_end_loop l o → d < l.length →
        ¬ (l.getD (d - 1) 0 = 10 ∧ l.getD d 0 = 10)) := by
  intro l
  induction l with
  | nil =>
    intro o
    simp [find_paragraph_end_loop]
  | cons c rest ih =>
    intro o
    -- the case in which the loop goes on with the bytes after `c`
    have hrec : (rest = [] ∨ rest.getD 0 0 ≠ 10 ∨ c ≠ 10) →
        find_paragraph_end_loop (c :: rest) o = find_paragraph_end_loop rest (o + 1) →
        (find_paragraph_end_loop (c :: rest) o < o + (c :: rest).length →
          o < find_paragraph_end_loop (c :: rest) o ∧
          (c :: rest).getD (find_paragraph_end_loop (c :: rest) o - o - 1) 0 = 10 ∧
          (c :: rest).getD (find_paragraph_end_loop (c :: rest) o - o) 0 = 10) ∧
        (∀ d, 0 < d → o + d < find_paragraph_end_loop (c :: rest) o → d < (c :: rest).length →
          ¬ ((c :: rest).getD (d - 1) 0 = 10 ∧ (c :: rest).getD d 0 = 10)) := by
      intro hhead e
      rw [e]
      obtain ⟨ih1, ih2⟩ := ih (o + 1)
      constructor
      · intro hlt
        simp only [List.length_cons] at hlt
        obtain ⟨a1, a2, a3⟩ := ih1 (by omega)
        refine ⟨by omega, ?_, ?_⟩
        · rw [show find_paragraph_end_loop rest (o + 1) - o - 1 =
            (find_paragraph_end_loop rest (o + 1) - (o + 1) - 1) + 1 by omega,
            List.getD_cons_succ]
          exact a2
        · rw [show find_paragraph_end_loop rest (o + 1) - o =
            (find_paragraph_end_loop rest (o + 1) - (o + 1)) + 1 by omega,
            List.getD_cons_succ]
          exact a3
      · intro d hd hlt hdl
        simp only [List.length_cons] at hdl
        by_cases hd1 : d = 1
        · subst hd1
          simp only [Nat.sub_self, List.getD_cons_zero, List.getD_cons_succ]
          rintro ⟨hc, hr⟩
          rcases hhead with h | h | h
          · subst h; simp at hdl
          · exact h hr
          · exact h hc
        · have := ih2 (d - 1) (by omega) (by omega) (by omega)
          rw [show d = (d - 1) + 1 by omega, List.getD_cons_succ,
            show d - 1 + 1 - 1 = (d - 1 - 1) + 1 by omega, List.getD_cons_succ]
          exact this
    by_cases hc : c = 10
    · cases rest with
      | nil =>
        exact hrec (Or.inl rfl) (by simp [find_paragraph_end_loop, hc])
      | cons d rest2 =>
        by_cases hd : d = 10
        · have e : find_paragraph_end_loop (c :: d :: rest2) o = o + 1 := by
            simp [find_paragraph_end_loop, hc, hd]
          rw [e]
          refine ⟨fun _ => ⟨by omega, ?_, ?_⟩, fun d' h1 h2 _ => by omega⟩
          · simp [hc]
          · simp [hd]
        · apply hrec (Or.inr (Or.inl (by simpa using hd)))
          conv_lhs => unfold find_paragraph_end_loop
          rw [if_pos hc]
          split
          · next heq => simp at heq; exact absurd heq.1 hd
          · rfl
    · apply hrec (Or.inr (Or.inr hc))
      conv_lhs => unfold find_paragraph_end_loop
      rw [if_neg hc]

/-- The search loop of `try_split_merged_entry` ends within `|new| - c + 1` iterations
from the offset `c`, whatever the state and the similarity routine. -/
theorem split_search_ends (fstrcmp_bounded : Fstrcmp) (old_body new_entry : Entry) :
    ∀ (fuel c : Nat) (best : Nat × ℚ), new_entry.length - c < fuel → c ≤ new_entry.length →
      ∃ r, split_search fstrcmp_bounded old_body new_entry fuel c best = some r := by
  intro fuel
  induction fuel with
  | zero => intro c best h; omega
  | succ f ih =>
    intro c best hf hc
    unfold split_search
    dsimp only
    generalize (if entry_fstrcmp fstrcmp_bounded old_body (new_entry.drop c) best.2 > best.2
      then (c, entry_fstrcmp fstrcmp_bounded old_body (new_entry.drop c) best.2)
      else best) = best1
    by_cases h1 : best1.2 = 1
    · rw [if_pos h1]; exact ⟨_, rfl⟩
    · rw [if_neg h1]
      by_cases h2 : c < new_entry.length
      · rw [if_pos h2]
        obtain ⟨a1, a2, -, -⟩ := find_paragraph_end_spec new_entry (c + 1) h2
        exact ih _ _ (by omega) a2
      · rw [if_neg h2]; exact ⟨_, rfl⟩

theorem split_candidates_length (new_entry : Entry) :
    ∀ (fuel c : Nat), c ≤ new_entry.length →
      (split_candidates new_entry fuel c).length ≤ new_entry.length - c + 1 := by
  intro fuel
  induction fuel with
  | zero => intro c _; simp [split_candidates]
  | succ f ih =>
    intro c hc
    unfold split_candidates
    by_cases hlt : c < new_entry.length
    · rw [if_pos hlt, List.length_cons]
      obtain ⟨a1, a2, -, -⟩ := find_paragraph_end_spec new_entry (c + 1) hlt
      have := ih (find_paragraph_end new_entry (c + 1)) a2
      omega
    · rw [if_neg hlt]
      simp

/-! ## Lemmas: the writes of the lookups -/

theorem search_file1_range (fstrcmp_bounded : Fstrcmp) (file1 : List Entry)
    (index_mapping : List Int) (entry_j : Entry) :
    ∀ (i : Nat) (best : Int × ℚ),
      search_file1 fstrcmp_bounded file1 index_mapping entry_j i best = best ∨
      ∃ i' : Nat, i' < i ∧
        (search_file1 fstrcmp_bounded file1 index_mapping entry_j i best).1 = (i' : Int) := by
  intro i
  induction i with
  | zero => intro best; left; rfl
  | succ i ih =>
    intro best
    unfold search_file1
    split_ifs with h1 h2
    · rcases ih (↑i, entry_fstrcmp fstrcmp_bounded (file1.getD i []) entry_j best.2) with
        h | ⟨i', hi', h⟩
      · right; exact ⟨i, by omega, by rw [h]⟩
      · right; exact ⟨i', by omega, h⟩
    · rcases ih best with h | ⟨i', hi', h⟩
      · left; exact h
      · right; exact ⟨i', by omega, h⟩
    · rcases ih best with h | ⟨i', hi', h⟩
      · left; exact h
      · right; exact ⟨i', by omega, h⟩

/-- The three outcomes of `entries_mapping_get`: the slot was computed before and
nothing changes; or two slots that were negative are bound to each other; or the slot
is set to -1. -/
theorem entries_mapping_get_cases (fstrcmp_bounded : Fstrcmp) (mapping : entries_mapping)
    (i : Nat) :
    (¬ mapping.index_mapping.getD i 0 < -1 ∧
      entries_mapping_get fstrcmp_bounded mapping i =
        (mapping.index_mapping.getD i 0, mapping)) ∨
    (mapping.index_mapping.getD i 0 < -1 ∧
      ∃ j : Nat, j < mapping.file2.length ∧ i < mapping.file1.length ∧
        mapping.index_mapping_reverse.getD j 0 < 0 ∧
        entries_mapping_get fstrcmp_bounded mapping i =
          ((j : Int), { mapping with
            index_mapping := mapping.index_mapping.set i (j : Int)
            index_mapping_reverse := mapping.index_mapping_reverse.set j (i : Int) })) ∨
    (mapping.index_mapping.getD i 0 < -1 ∧
      entries_mapping_get fstrcmp_bounded mapping i =
        (-1, { mapping with index_mapping := mapping.index_mapping.set i (-1) })) := by
  by_cases c1 : mapping.index_mapping.getD i 0 < -1
  swap
  · exact Or.inl ⟨c1, entries_mapping_get_bound fstrcmp_bounded mapping i c1⟩
  right
  by_cases hb : FSTRCMP_THRESHOLD ≤ (search_file2 fstrcmp_bounded mapping.file2
        mapping.index_mapping_reverse (mapping.file1.getD i []) mapping.file2.length (-1, 0)).2 ∧
      FSTRCMP_THRESHOLD ≤ (search_file1 fstrcmp_bounded mapping.file1 mapping.index_mapping
        (mapping.file2.getD (search_file2 fstrcmp_bounded mapping.file2
          mapping.index_mapping_reverse (mapping.file1.getD i []) mapping.file2.length
          (-1, 0)).1.toNat []) mapping.file1.length (-1, 0)).2 ∧
      (search_file1 fstrcmp_bounded mapping.file1 mapping.index_mapping
        (mapping.file2.getD (search_file2 fstrcmp_bounded mapping.file2
          mapping.index_mapping_reverse (mapping.file1.getD i []) mapping.file2.length
          (-1, 0)).1.toNat []) mapping.file1.length (-1, 0)).1 = (i : Int)
  · left
    obtain ⟨h1, h2, h3⟩ := hb
    obtain ⟨_, hfree⟩ := search_file2_free fstrcmp_bounded mapping.file2
      mapping.index_mapping_reverse (mapping.file1.getD i []) mapping.file2.length (-1, 0)
      ⟨le_refl _, fun h => absurd h (lt_irrefl _)⟩
    obtain ⟨j, hj1, hj2⟩ := hfree (lt_of_lt_of_le threshold_pos h1)
    have hjn : j < mapping.file2.length := by
      rcases search_file2_range fstrcmp_bounded mapping.file2 mapping.index_mapping_reverse
        (mapping.file1.getD i []) mapping.file2.length (-1, 0) with h | ⟨j', hj', h⟩
      · rw [h] at hj1
        simp only at hj1
        omega
      · rw [hj1] at h
        omega
    rw [hj1, Int.toNat_ofNat] at h2 h3
    have hin : i < mapping.file1.length := by
      rcases search_file1_range fstrcmp_bounded mapping.file1 mapping.index_mapping
        (mapping.file2.getD j []) mapping.file1.length (-1, 0) with h | ⟨i', hi', h⟩
      · rw [h] at h3
        simp only at h3
        omega
      · rw [h3] at h
        omega
    exact ⟨c1, j, hjn, hin, hj2,
      entries_mapping_get_binds fstrcmp_bounded mapping i j c1 h1 hj1 h2 h3⟩
  · right
    exact ⟨c1, entries_mapping_get_unbound fstrcmp_bounded mapping i c1 hb⟩

theorem entries_mapping_reverse_get_bound (fstrcmp_bounded : Fstrcmp)
    (mapping : entries_mapping) (j : Nat)
    (h : ¬ (mapping.index_mapping_reverse.getD j 0 < -1)) :
    entries_mapping_reverse_get fstrcmp_bounded mapping j =
      (mapping.index_mapping_reverse.getD j 0, mapping) := by
  unfold entries_mapping_reverse_get
  rw [if_neg h]

/-- The three outcomes of `entries_mapping_reverse_get`. -/
theorem entries_mapping_reverse_get_cases (fstrcmp_bounded : Fstrcmp)
    (mapping : entries_mapping) (j : Nat) :
    (¬ mapping.index_mapping_reverse.getD j 0 < -1 ∧
      entries_mapping_reverse_get fstrcmp_bounded mapping j =
        (mapping.index_mapping_reverse.getD j 0, mapping)) ∨
    (mapping.index_mapping_reverse.getD j 0 < -1 ∧
      ∃ i : Nat, i < mapping.file1.length ∧ j < mapping.file2.length ∧
        mapping.index_mapping.getD i 0 < 0 ∧
        entries_mapping_reverse_get fstrcmp_bounded mapping j =
          ((i : Int), { mapping with
            index_mapping_reverse := mapping.index_mapping_reverse.set j (i : Int)
            index_mapping := mapping.index_mapping.set i (j : Int) })) ∨
    (mapping.index_mapping_reverse.getD j 0 < -1 ∧
      entries_mapping_reverse_get fstrcmp_bounded mapping j =
        (-1, { mapping with
          index_mapping_reverse := mapping.index_mapping_reverse.set j (-1) })) := by
  by_cases c1 : mapping.index_mapping_reverse.getD j 0 < -1
  swap
  · exact Or.inl ⟨c1, entries_mapping_reverse_get_bound fstrcmp_bounded mapping j c1⟩
  right
  have hj : j < mapping.index_mapping_reverse.length := getD_neg_lt _ _ (by omega)
  have hget : ∀ v : Int, (mapping.index_mapping_reverse.set j v).getD j 0 = v := by
    intro v
    rw [getD_set_int, if_pos ⟨rfl, hj⟩]
  by_cases h1 : (search_file1 fstrcmp_bounded mapping.file1 mapping.index_mapping
      (mapping.file2.getD j []) mapping.file1.length (-1, 0)).2 ≥ FSTRCMP_THRESHOLD
  · by_cases h2 : (search_file2 fstrcmp_bounded mapping.file2 mapping.index_mapping_reverse
          (mapping.file1.getD (search_file1 fstrcmp_bounded mapping.file1 mapping.index_mapping
            (mapping.file2.getD j []) mapping.file1.length (-1, 0)).1.toNat [])
          mapping.file2.length (-1, 0)).2 ≥ FSTRCMP_THRESHOLD ∧
        (search_file2 fstrcmp_bounded mapping.file2 mapping.index_mapping_reverse
          (mapping.file1.getD (search_file1 fstrcmp_bounded mapping.file1 mapping.index_mapping
            (mapping.file2.getD j []) mapping.file1.length (-1, 0)).1.toNat [])
          mapping.file2.length (-1, 0)).1 = (j : Int)
    · left
      obtain ⟨_, hfree⟩ := search_file1_free fstrcmp_bounded mapping.file1
        mapping.index_mapping (mapping.file2.getD j []) mapping.file1.length (-1, 0)
        ⟨le_refl _, fun h => absurd h (lt_irrefl _)⟩
      obtain ⟨i, hi1, hi2⟩ := hfree (lt_of_lt_of_le threshold_pos h1)
      have hin : i < mapping.file1.length := by
        rcases search_file1_range fstrcmp_bounded mapping.file1 mapping.index_mapping
          (mapping.file2.getD j []) mapping.file1.length (-1, 0) with h | ⟨i', hi', h⟩
        · rw [h] at hi1
          simp only at hi1
          omega
        · rw [hi1] at h
          omega
      have hjn : j < mapping.file2.length := by
        rcases search_file2_range fstrcmp_bounded mapping.file2 mapping.index_mapping_reverse
          (mapping.file1.getD (search_file1 fstrcmp_bounded mapping.file1 mapping.index_mapping
            (mapping.file2.getD j []) mapping.file1.length (-1, 0)).1.toNat [])
          mapping.file2.length (-1, 0) with h | ⟨j', hj', h⟩
        · have := h2.2
          rw [h] at this
          simp only at this
          omega
        · rw [h2.2] at h
          omega
      refine ⟨c1, i, hin, hjn, hi2, ?_⟩
      unfold entries_mapping_reverse_get
      rw [if_pos c1]
      dsimp only
      rw [if_pos h1, if_pos h2, hi1]
      dsimp only
      have hnot : ¬ ((i : Int) < -1) := by omega
      rw [hget, if_neg hnot]
      dsimp only
      rw [hget, Int.toNat_ofNat]
    · right
      refine ⟨c1, ?_⟩
      unfold entries_mapping_reverse_get
      rw [if_pos c1]
      dsimp only
      rw [if_pos h1, if_neg h2, if_pos c1]
      dsimp only
      rw [hget]
  · right
    refine ⟨c1, ?_⟩
    unfold entries_mapping_reverse_get
    rw [if_pos c1]
    dsimp only
    rw [if_neg h1, if_pos c1]
    dsimp only
    rw [hget]

/-- What `entries_mapping_get` does to the slots, when none of them is below -2. -/
theorem entries_mapping_get_slots (fstrcmp_bounded : Fstrcmp) (mapping : entries_mapping)
    (k : Nat)
    (hfloor : ∀ p, -2 ≤ mapping.index_mapping.getD p 0 ∧
      -2 ≤ mapping.index_mapping_reverse.getD p 0) :
    (entries_mapping_get fstrcmp_bounded mapping k).2.file1 = mapping.file1 ∧
    (entries_mapping_get fstrcmp_bounded mapping k).2.file2 = mapping.file2 ∧
    ∀ p,
      slot_change mapping.file2.length (mapping.index_mapping.getD p 0)
        ((entries_mapping_get fstrcmp_bounded mapping k).2.index_mapping.getD p 0) ∧
      slot_change mapping.file1.length (mapping.index_mapping_reverse.getD p 0)
        ((entries_mapping_get fstrcmp_bounded mapping k).2.index_mapping_reverse.getD p 0) := by
  rcases entries_mapping_get_cases fstrcmp_bounded mapping k with
    ⟨-, e⟩ | ⟨c1, j, hj, hk, hfree, e⟩ | ⟨c1, e⟩
  · rw [e]
    exact ⟨rfl, rfl, fun p => ⟨Or.inl rfl, Or.inl rfl⟩⟩
  · rw [e]
    refine ⟨rfl, rfl, fun p => ⟨?_, ?_⟩⟩
    · dsimp only
      rw [getD_set_int]
      by_cases hp : k = p ∧ k < mapping.index_mapping.length
      · rw [if_pos hp]
        obtain ⟨rfl, -⟩ := hp
        have := (hfloor k).1
        exact Or.inr (Or.inr ⟨Or.inl (by omega), j, hj, rfl⟩)
      · rw [if_neg hp]; exact Or.inl rfl
    · dsimp only
      rw [getD_set_int]
      by_cases hp : j = p ∧ j < mapping.index_mapping_reverse.length
      · rw [if_pos hp]
        obtain ⟨rfl, -⟩ := hp
        have := (hfloor j).2
        exact Or.inr (Or.inr ⟨by omega, k, hk, rfl⟩)
      · rw [if_neg hp]; exact Or.inl rfl
  · rw [e]
    refine ⟨rfl, rfl, fun p => ⟨?_, Or.inl rfl⟩⟩
    dsimp only
    rw [getD_set_int]
    by_cases hp : k = p ∧ k < mapping.index_mapping.length
    · rw [if_pos hp]
      obtain ⟨rfl, -⟩ := hp
      have := (hfloor k).1
      exact Or.inr (Or.inl ⟨by omega, rfl⟩)
    · rw [if_neg hp]; exact Or.inl rfl

/-- What `entries_mapping_reverse_get` does to the slots, when none of them is below
-2. -/
theorem entries_mapping_reverse_get_slots (fstrcmp_bounded : Fstrcmp)
    (mapping : entries_mapping) (k : Nat)
    (hfloor : ∀ p, -2 ≤ mapping.index_mapping.getD p 0 ∧
      -2 ≤ mapping.index_mapping_reverse.getD p 0) :
    (entries_mapping_reverse_get fstrcmp_bounded mapping k).2.file1 = mapping.file1 ∧
    (entries_mapping_reverse_get fstrcmp_bounded mapping k).2.file2 = mapping.file2 ∧
    ∀ p,
      slot_change mapping.file2.length (mapping.index_mapping.getD p 0)
        ((entries_mapping_reverse_get fstrcmp_bounded mapping k).2.index_mapping.getD p 0) ∧
      slot_change mapping.file1.length (mapping.index_mapping_reverse.getD p 0)
        ((entries_mapping_reverse_get fstrcmp_bounded mapping k).2.index_mapping_reverse.getD
          p 0) := by
  rcases entries_mapping_reverse_get_cases fstrcmp_bounded mapping k with
    ⟨-, e⟩ | ⟨c1, i, hi, hk, hfree, e⟩ | ⟨c1, e⟩
  · rw [e]
    exact ⟨rfl, rfl, fun p => ⟨Or.inl rfl, Or.inl rfl⟩⟩
  · rw [e]
    refine ⟨rfl, rfl, fun p => ⟨?_, ?_⟩⟩
    · dsimp only
      rw [getD_set_int]
      by_cases hp : i = p ∧ i < mapping.index_mapping.length
      · rw [if_pos hp]
        obtain ⟨rfl, -⟩ := hp
        have := (hfloor i).1
        exact Or.inr (Or.inr ⟨by omega, k, hk, rfl⟩)
      · rw [if_neg hp]; exact Or.inl rfl
    · dsimp only
      rw [getD_set_int]
      by_cases hp : k = p ∧ k < mapping.index_mapping_reverse.length
      · rw [if_pos hp]
        obtain ⟨rfl, -⟩ := hp
        have := (hfloor k).2
        exact Or.inr (Or.inr ⟨Or.inl (by omega), i, hi, rfl⟩)
      · rw [if_neg hp]; exact Or.inl rfl
  · rw [e]
    refine ⟨rfl, rfl, fun p => ⟨Or.inl rfl, ?_⟩⟩
    dsimp only
    rw [getD_set_int]
    by_cases hp : k = p ∧ k < mapping.index_mapping_reverse.length
    · rw [if_pos hp]
      obtain ⟨rfl, -⟩ := hp
      have := (hfloor k).2
      exact Or.inr (Or.inl ⟨by omega, rfl⟩)
    · rw [if_neg hp]; exact Or.inl rfl

theorem slot_change_floor (bound : Nat) (old new : Int) (h : slot_change bound old new)
    (hold : -2 ≤ old) : -2 ≤ new := by
  rcases h with h | ⟨-, h⟩ | ⟨-, q, -, h⟩ <;> omega

/-- No slot is below -2 in the result of `compute_mapping` nor after any lookups, and
the files stay the same. -/
theorem probed_floor (fstrcmp_bounded : Fstrcmp) (mapping0 mapping : entries_mapping)
    (h0 : ∀ p, -2 ≤ mapping0.index_mapping.getD p 0 ∧
      -2 ≤ mapping0.index_mapping_reverse.getD p 0)
    (h : Probed fstrcmp_bounded mapping0 mapping) :
    mapping.file1 = mapping0.file1 ∧ mapping.file2 = mapping0.file2 ∧
    ∀ p, -2 ≤ mapping.index_mapping.getD p 0 ∧ -2 ≤ mapping.index_mapping_reverse.getD p 0 := by
  induction h with
  | start => exact ⟨rfl, rfl, h0⟩
  | get m i _ ih =>
    obtain ⟨f1, f2, hfl⟩ := ih
    obtain ⟨g1, g2, g3⟩ := entries_mapping_get_slots fstrcmp_bounded m i hfl
    exact ⟨by rw [g1, f1], by rw [g2, f2], fun p =>
      ⟨slot_change_floor _ _ _ (g3 p).1 (hfl p).1, slot_change_floor _ _ _ (g3 p).2 (hfl p).2⟩⟩
  | reverse_get m j _ ih =>
    obtain ⟨f1, f2, hfl⟩ := ih
    obtain ⟨g1, g2, g3⟩ := entries_mapping_reverse_get_slots fstrcmp_bounded m j hfl
    exact ⟨by rw [g1, f1], by rw [g2, f2], fun p =>
      ⟨slot_change_floor _ _ _ (g3 p).1 (hfl p).1, slot_change_floor _ _ _ (g3 p).2 (hfl p).2⟩⟩

theorem full_pass_probed (fstrcmp_bounded : Fstrcmp) (mapping0 : entries_mapping) :
    ∀ (count : Nat) (mapping : entries_mapping), Probed fstrcmp_bounded mapping0 mapping →
      Probed fstrcmp_bounded mapping0 (full_pass fstrcmp_bounded count mapping) := by
  intro count
  induction count with
  | zero => intro mapping h; exact h
  | succ c ih =>
    intro mapping h
    unfold full_pass
    exact ih _ (Probed.get mapping c h)

theorem passInv_floor (file1 file2 : List Entry) (arrays : List Int × List Int)
    (h : PassInv file1 file2 arrays) :
    ∀ p, -2 ≤ arrays.1.getD p 0 ∧ -2 ≤ arrays.2.getD p 0 := by
  obtain ⟨l1, l2, h1, h2⟩ := h
  intro p
  constructor
  · by_cases hp : p < file1.length
    · rcases h1 p hp with e | ⟨q, -, e, -⟩ <;> omega
    · rw [List.getD_eq_default _ _ (by omega)]; omega
  · by_cases hp : p < file2.length
    · rcases h2 p hp with e | ⟨q, -, e, -⟩ <;> omega
    · rw [List.getD_eq_default _ _ (by omega)]; omega

/-- The function `compute_mapping` returns a mapping between the two files in which no
slot is below -2, for either value of `full`. -/
theorem compute_mapping_floor (fstrcmp_bounded : Fstrcmp) (file1 file2 : List Entry)
    (full : Bool) :
    ∃ mapping0, compute_mapping fstrcmp_bounded file1 file2 full = some mapping0 ∧
      mapping0.file1 = file1 ∧ mapping0.file2 = file2 ∧
      ∀ p, -2 ≤ mapping0.index_mapping.getD p 0 ∧
        -2 ≤ mapping0.index_mapping_reverse.getD p 0 := by
  obtain ⟨a, h, -⟩ := exact_pass_ok file1 file2 file1.length _ (le_refl _)
    (exactInv_init file1 file2)
  have hinv := exact_pass_inv file1 file2 _ _ a (le_refl _) (passInv_init file1 file2) h
  obtain ⟨fwd, rev⟩ := a
  have hfl := passInv_floor file1 file2 _ hinv
  cases full with
  | false =>
    exact ⟨⟨file1, file2, fwd, rev⟩, by simp [compute_mapping, h], rfl, rfl, hfl⟩
  | true =>
    refine ⟨full_pass fstrcmp_bounded file1.length ⟨file1, file2, fwd, rev⟩,
      by simp [compute_mapping, h], ?_⟩
    have hp := full_pass_probed fstrcmp_bounded ⟨file1, file2, fwd, rev⟩ file1.length _
      Probed.start
    obtain ⟨f1, f2, f3⟩ := probed_floor fstrcmp_bounded _ _ hfl hp
    exact ⟨f1, f2, f3⟩

/-! ## Lemmas: the edits as a walk through the gaps -/

theorem spec_gap_edit_covers (i a j b : Nat) (hia : i ≤ a) (hjb : j ≤ b)
    (hne : i < a ∨ j < b) :
    (∀ t, covers_file1 (spec_gap_edit i a j b) t = decide (i ≤ t ∧ t < a)) ∧
    (∀ t, covers_file2 (spec_gap_edit i a j b) t = decide (j ≤ t ∧ t < b)) := by
  have hrange : ∀ (lo hi t : Nat), lo < hi →
      decide (lo ≤ t ∧ t ≤ hi - 1) = decide (lo ≤ t ∧ t < hi) := by
    intro lo hi t h
    congr 1
    apply propext
    constructor <;> intro hh <;> omega
  have hempty : ∀ (lo t : Nat), false = decide (lo ≤ t ∧ t < lo) := by
    intro lo t
    symm
    rw [decide_eq_false_iff_not]
    omega
  unfold spec_gap_edit
  by_cases h1 : i = a
  · rw [if_pos h1]
    subst h1
    exact ⟨fun t => hempty _ _, fun t => hrange _ _ _ (by omega)⟩
  · rw [if_neg h1]
    by_cases h2 : j = b
    · rw [if_pos h2]
      subst h2
      exact ⟨fun t => hrange _ _ _ (by omega), fun t => hempty _ _⟩
    · rw [if_neg h2]
      exact ⟨fun t => hrange _ _ _ (by omega), fun t => hrange _ _ _ (by omega)⟩

/-- The edits of a walk from `(i, j)` cover unmapped positions from `(i, j)` on only. -/
theorem EditWalk.bounds {n1 n2 : Nat} {fwd rev : List Int} {i j : Nat} {edits : List edit}
    (h : EditWalk n1 n2 fwd rev i j edits) :
    ∀ e ∈ edits,
      (∀ t, covers_file1 e t = true → i ≤ t ∧ t < n1 ∧ fwd.getD t 0 < 0) ∧
      (∀ t, covers_file2 e t = true → j ≤ t ∧ t < n2 ∧ rev.getD t 0 < 0) := by
  induction h with
  | stop => intro e he; simp at he
  | pair i j edits _ _ _ _ _ ih =>
    intro e he
    obtain ⟨h1, h2⟩ := ih e he
    exact ⟨fun t ht => by have := h1 t ht; omega, fun t ht => by have := h2 t ht; omega⟩
  | gap i a j b edits hia hjb ha hb hne hm1 hm2 _ _ ih =>
    intro e he
    rcases List.mem_cons.mp he with rfl | he'
    · obtain ⟨c1, c2⟩ := spec_gap_edit_covers i a j b hia hjb hne
      constructor
      · intro t ht
        rw [c1 t, decide_eq_true_eq] at ht
        exact ⟨ht.1, by omega, hm1 t ht.1 ht.2⟩
      · intro t ht
        rw [c2 t, decide_eq_true_eq] at ht
        exact ⟨ht.1, by omega, hm2 t ht.1 ht.2⟩
    · obtain ⟨h1, h2⟩ := ih e he'
      exact ⟨fun t ht => by have := h1 t ht; omega, fun t ht => by have := h2 t ht; omega⟩

/-- Every edit of a walk that starts at the top of the files, or right after a mapped
pair, or before a mapped pair, is the edit of a gap between two consecutive mapped
pairs. -/
theorem EditWalk.gaps {n1 n2 : Nat} {fwd rev : List Int} {i j : Nat} {edits : List edit}
    (h : EditWalk n1 n2 fwd rev i j edits) :
    ((i = 0 ∧ j = 0) ∨
      (0 < i ∧ 0 < j ∧ fwd.getD (i - 1) 0 = ((j - 1 : Nat) : Int) ∧
        rev.getD (j - 1) 0 = ((i - 1 : Nat) : Int)) ∨
      (i = n1 ∧ j = n2) ∨
      (i < n1 ∧ j < n2 ∧ fwd.getD i 0 = (j : Int) ∧ rev.getD j 0 = (i : Int))) →
    ∀ e ∈ edits, ∃ i' a j' b : Nat,
      e = spec_gap_edit i' a j' b ∧ spec_gap n1 n2 fwd rev i' a j' b := by
  induction h with
  | stop => intro _ e he; simp at he
  | pair i j edits _ _ hf hr _ ih =>
    intro _ e he
    exact ih (Or.inr (Or.inl ⟨by omega, by omega, by simpa using hf, by simpa using hr⟩)) e he
  | gap i a j b edits hia hjb ha hb hne hm1 hm2 hafter _ ih =>
    intro hstart e he
    rcases List.mem_cons.mp he with rfl | he'
    · refine ⟨i, a, j, b, rfl, hia, hjb, ha, hb, hne, hm1, hm2, ?_, hafter⟩
      rcases hstart with h | h | h | h
      · exact Or.inl h
      · exact Or.inr h
      · omega
      · exfalso
        rcases hne with h' | h'
        · have := hm1 i (le_refl _) h'; omega
        · have := hm2 j (le_refl _) h'; omega
    · rcases hafter with h | h
      · exact ih (Or.inr (Or.inr (Or.inl h))) e he'
      · exact ih (Or.inr (Or.inr (Or.inr h))) e he'

theorem EditWalk.at_end {n1 n2 : Nat} {fwd rev : List Int} {i j : Nat} {edits : List edit}
    (h : EditWalk n1 n2 fwd rev i j edits) : i = n1 → j = n2 → edits = [] := by
  cases h with
  | stop => intro _ _; rfl
  | pair _ _ _ hi _ _ _ _ => intro h1 _; omega
  | gap _ a _ b _ hia hjb ha hb hne _ _ _ _ => intro h1 h2; omega

/-- The edits of a walk come in the order of their positions, with a mapped pair
between any two of them. -/
theorem EditWalk.ordered {n1 n2 : Nat} {fwd rev : List Int} {i j : Nat} {edits : List edit}
    (h : EditWalk n1 n2 fwd rev i j edits) :
    edits.Pairwise (spec_edit_before fwd rev) := by
  induction h with
  | stop => exact List.Pairwise.nil
  | pair i j edits _ _ _ _ _ ih => exact ih
  | gap i a j b edits hia hjb ha hb hne hm1 hm2 hafter hrest ih =>
    rw [List.pairwise_cons]
    refine ⟨?_, ih⟩
    intro e' he'
    obtain ⟨b1, b2⟩ := hrest.bounds e' he'
    obtain ⟨c1, c2⟩ := spec_gap_edit_covers i a j b hia hjb hne
    rcases hafter with ⟨rfl, rfl⟩ | ⟨han, hbn, hf, hr⟩
    · -- at the end of both files no edit is left
      rw [hrest.at_end rfl rfl] at he'
      simp at he'
    · refine ⟨a, b, hf, hr, ?_, ?_, ?_, ?_⟩
      · intro t ht
        rw [c1 t, decide_eq_true_eq] at ht
        exact ht.2
      · intro t ht
        rw [c2 t, decide_eq_true_eq] at ht
        exact ht.2
      · intro t ht
        obtain ⟨d1, d2, d3⟩ := b1 t ht
        by_contra hle
        have : t = a := by omega
        rw [this] at d3; omega
      · intro t ht
        obtain ⟨d1, d2, d3⟩ := b2 t ht
        by_contra hle
        have : t = b := by omega
        rw [this] at d3; omega

/-- The loop that creates the edits returns, and its edits are those of a walk through
the two files. -/
theorem create_edits_walk (xv yv : List Entry) (ctxt : List Int × List Int) :
    ∀ (fuel i j : Nat), (xv.length - i) + (yv.length - j) < fuel →
      Path (Deleted ctxt) (Inserted ctxt) (Paired xv yv ctxt) i j xv.length yv.length →
      ∃ edits, create_edits xv.length yv.length ctxt.1 ctxt.2 fuel i j [] = some edits ∧
        EditWalk xv.length yv.length ctxt.1 ctxt.2 i j edits := by
  intro fuel
  induction fuel with
  | zero => intro i j h; omega
  | succ f ih =>
    intro i j hfuel hpath
    have hle := hpath.le
    -- an edit for the gap up to `(a, b)`, followed by the edits from `(a, b)` on
    have hcons : ∀ (a b : Nat), i ≤ a → j ≤ b → a ≤ xv.length → b ≤ yv.length →
        (i < a ∨ j < b) →
        (∀ t, i ≤ t → t < a → ctxt.1.getD t 0 < 0) →
        (∀ t, j ≤ t → t < b → ctxt.2.getD t 0 < 0) →
        ((a = xv.length ∧ b = yv.length) ∨
          (a < xv.length ∧ b < yv.length ∧ ctxt.1.getD a 0 = (b : Int) ∧
            ctxt.2.getD b 0 = (a : Int))) →
        (∃ rest, create_edits xv.length yv.length ctxt.1 ctxt.2 f a b [] = some rest ∧
          EditWalk xv.length yv.length ctxt.1 ctxt.2 a b rest) →
        ∃ edits, create_edits xv.length yv.length ctxt.1 ctxt.2 f a b
            ([] ++ [spec_gap_edit i a j b]) = some edits ∧
          EditWalk xv.length yv.length ctxt.1 ctxt.2 i j edits := by
      intro a b hia hjb ha hb hne hm1 hm2 hafter ⟨rest, hrest, hwalk⟩
      refine ⟨spec_gap_edit i a j b :: rest, ?_,
        EditWalk.gap i a j b rest hia hjb ha hb hne hm1 hm2 hafter hwalk⟩
      rw [create_edits_acc, hrest]
      rfl
    -- where a walk stands at a position whose entries are not marked
    have hat : ∀ (a b : Nat),
        Path (Deleted ctxt) (Inserted ctxt) (Paired xv yv ctxt) a b xv.length yv.length →
        (a < xv.length → ctxt.1.getD a 0 ≥ 0) → (b < yv.length → ctxt.2.getD b 0 ≥ 0) →
        (a = xv.length ∧ b = yv.length) ∨
          (a < xv.length ∧ b < yv.length ∧ ctxt.1.getD a 0 = (b : Int) ∧
            ctxt.2.getD b 0 = (a : Int)) := by
      intro a b hp h1 h2
      have hle' := hp.le
      by_cases ha : a = xv.length
      · by_cases hb : b = yv.length
        · exact Or.inl ⟨ha, hb⟩
        · exfalso
          have := hp.all_ins ha b (le_refl _) (by omega)
          have := h2 (by omega)
          unfold Inserted at *
          omega
      · by_cases hb : b = yv.length
        · exfalso
          have := hp.all_del hb a (le_refl _) (by omega)
          have := h1 (by omega)
          unfold Deleted at *
          omega
        · have g1 := h1 (by omega)
          have g2 := h2 (by omega)
          rcases hp.at_unmarked (by unfold Deleted; omega) (by unfold Inserted; omega) with
            h | ⟨hpair, -⟩
          · omega
          · exact Or.inr ⟨by omega, by omega, hpair.1, hpair.2.1⟩
    unfold create_edits
    by_cases hend : i < xv.length ∨ j < yv.length
    swap
    · rw [if_neg hend]
      have h1 : i = xv.length := by omega
      have h2 : j = yv.length := by omega
      subst h1; subst h2
      exact ⟨[], rfl, EditWalk.stop⟩
    rw [if_pos hend]
    by_cases hi : i = xv.length
    · rw [if_pos hi, if_pos (by omega)]
      have hins := hpath.all_ins hi
      refine ⟨_, rfl, ?_⟩
      rw [List.nil_append]
      have e : edit.ADDITION j (yv.length - 1) = spec_gap_edit i i j yv.length := by
        unfold spec_gap_edit; rw [if_pos rfl]
      rw [e]
      refine EditWalk.gap i i j yv.length [] (le_refl _) (by omega) (by omega) (le_refl _)
        (Or.inr (by omega)) (fun t h1 h2 => by omega) hins (Or.inl ⟨hi, rfl⟩) ?_
      rw [hi]
      exact EditWalk.stop
    rw [if_neg hi]
    by_cases hj : j = yv.length
    · rw [if_pos hj, if_pos (by omega)]
      have hdel := hpath.all_del hj
      refine ⟨_, rfl, ?_⟩
      rw [List.nil_append]
      have e : edit.REMOVAL i (xv.length - 1) = spec_gap_edit i xv.length j j := by
        unfold spec_gap_edit; rw [if_neg hi, if_pos rfl]
      rw [e]
      refine EditWalk.gap i xv.length j j [] (by omega) (le_refl _) (le_refl _) (by omega)
        (Or.inl (by omega)) hdel (fun t h1 h2 => by omega) (Or.inl ⟨rfl, hj⟩) ?_
      rw [hj]
      exact EditWalk.stop
    rw [if_neg hj]
    have hi1 : i < xv.length := by omega
    have hj1 : j < yv.length := by omega
    by_cases hFi : ctxt.1.getD i 0 ≥ 0
    · rw [if_pos hFi]
      by_cases hRj : ctxt.2.getD j 0 ≥ 0
      · rw [if_pos hRj]
        rcases hpath.at_unmarked (by unfold Deleted; omega) (by unfold Inserted; omega) with
          h | ⟨hp, hnext⟩
        · omega
        · rw [if_pos ⟨hp.1, hp.2.1⟩]
          obtain ⟨rest, hrest, hwalk⟩ := ih (i + 1) (j + 1) (by omega) hnext
          exact ⟨rest, hrest, EditWalk.pair i j rest hi1 hj1 hp.1 hp.2.1 hwalk⟩
      · rw [if_neg hRj]
        obtain ⟨g1, g2, g3⟩ := run_end_marked ctxt.2 yv.length j hj1 (by omega)
        obtain ⟨_, _, g5, g4⟩ := Path.run_end_ins xv yv ctxt _ _ i j hpath hj1 (by omega)
        have e : edit.ADDITION j (run_end ctxt.2 yv.length j - 1) =
            spec_gap_edit i i j (run_end ctxt.2 yv.length j) := by
          unfold spec_gap_edit; rw [if_pos rfl]
        rw [e]
        exact hcons i _ (le_refl _) (by omega) (by omega) g2 (Or.inr g1)
          (fun t h1 h2 => by omega) g3 (hat _ _ g4 (fun _ => hFi) g5) (ih i _ (by omega) g4)
    · rw [if_neg hFi]
      obtain ⟨d1, d2, d3⟩ := run_end_marked ctxt.1 xv.length i hi1 (by omega)
      obtain ⟨_, _, d5, d4⟩ := Path.run_end_del xv yv ctxt _ _ i j hpath hi1 (by omega)
      by_cases hRj : ctxt.2.getD j 0 ≥ 0
      · rw [if_pos hRj]
        have e : edit.REMOVAL i (run_end ctxt.1 xv.length i - 1) =
            spec_gap_edit i (run_end ctxt.1 xv.length i) j j := by
          unfold spec_gap_edit; rw [if_neg (by omega), if_pos rfl]
        rw [e]
        exact hcons _ j (by omega) (le_refl _) d2 (by omega) (Or.inl d1)
          d3 (fun t h1 h2 => by omega) (hat _ _ d4 d5 (fun _ => hRj)) (ih _ j (by omega) d4)
      · rw [if_neg hRj]
        obtain ⟨g1, g2, g3⟩ := run_end_marked ctxt.2 yv.length j hj1 (by omega)
        obtain ⟨_, _, g5, g4⟩ := Path.run_end_ins xv yv ctxt _ _ _ j d4 hj1 (by omega)
        have e : edit.CHANGE i (run_end ctxt.1 xv.length i - 1) j
              (run_end ctxt.2 yv.length j - 1) =
            spec_gap_edit i (run_end ctxt.1 xv.length i) j (run_end ctxt.2 yv.length j) := by
          unfold spec_gap_edit; rw [if_neg (by omega), if_neg (by omega)]
        rw [e]
        exact hcons _ _ (by omega) (by omega) d2 g2 (Or.inl d1)
          d3 g3 (hat _ _ g4 d5 g5) (ih _ _ (by omega) g4)

/-- Along a walk whose pairs are mapped to each other, a mapped position of FILE1 is
mapped to a position of the walk, and the mapping is strictly increasing; likewise a
mapped position of FILE2 is mapped to a position of the walk. -/
theorem Path.mapped (xv yv : List Entry) (ctxt : List Int × List Int) {i j i' j' : Nat}
    (h : Path (Deleted ctxt) (Inserted ctxt) (Paired xv yv ctxt) i j i' j') :
    (∀ t, i ≤ t → t < i' → ctxt.1.getD t 0 ≥ 0 →
      ∃ u : Nat, j ≤ u ∧ u < j' ∧ Paired xv yv ctxt t u) ∧
    (∀ u, j ≤ u → u < j' → ctxt.2.getD u 0 ≥ 0 →
      ∃ t : Nat, i ≤ t ∧ t < i' ∧ Paired xv yv ctxt t u) ∧
    (∀ t t', i ≤ t → t < t' → t' < i' → ctxt.1.getD t 0 ≥ 0 → ctxt.1.getD t' 0 ≥ 0 →
      ctxt.1.getD t 0 < ctxt.1.getD t' 0) := by
  induction h with
  | done i j =>
    exact ⟨fun t h1 h2 => by omega, fun u h1 h2 => by omega, fun t t' h1 h2 h3 => by omega⟩
  | del i j i' j' hd hrest ih =>
    obtain ⟨a1, a2, a3⟩ := ih
    have hle := hrest.le
    refine ⟨?_, ?_, ?_⟩
    · intro t h1 h2 h3
      by_cases ht : t = i
      · subst ht; unfold Deleted at hd; omega
      · exact a1 t (by omega) h2 h3
    · intro u h1 h2 h3
      obtain ⟨t, b1, b2, b3⟩ := a2 u h1 h2 h3
      exact ⟨t, by omega, b2, b3⟩
    · intro t t' h1 h2 h3 h4 h5
      by_cases ht : t = i
      · subst ht; unfold Deleted at hd; omega
      · exact a3 t t' (by omega) h2 h3 h4 h5
  | ins i j i' j' hi hrest ih =>
    obtain ⟨a1, a2, a3⟩ := ih
    have hle := hrest.le
    refine ⟨?_, ?_, a3⟩
    · intro t h1 h2 h3
      obtain ⟨u, b1, b2, b3⟩ := a1 t h1 h2 h3
      exact ⟨u, by omega, b2, b3⟩
    · intro u h1 h2 h3
      by_cases hu : u = j
      · subst hu; unfold Inserted at hi; omega
      · exact a2 u (by omega) h2 h3
  | both i j i' j' hp hrest ih =>
    obtain ⟨a1, a2, a3⟩ := ih
    have hle := hrest.le
    refine ⟨?_, ?_, ?_⟩
    · intro t h1 h2 h3
      by_cases ht : t = i
      · subst ht; exact ⟨j, le_refl _, by omega, hp⟩
      · obtain ⟨u, b1, b2, b3⟩ := a1 t (by omega) h2 h3
        exact ⟨u, by omega, b2, b3⟩
    · intro u h1 h2 h3
      by_cases hu : u = j
      · subst hu; exact ⟨i, le_refl _, by omega, hp⟩
      · obtain ⟨t, b1, b2, b3⟩ := a2 u (by omega) h2 h3
        exact ⟨t, by omega, b2, b3⟩
    · intro t t' h1 h2 h3 h4 h5
      by_cases ht : t = i
      · subst ht
        obtain ⟨u, b1, b2, b3⟩ := a1 t' (by omega) h3 h5
        rw [hp.1, b3.1]
        omega
      · exact a3 t t' (by omega) h2 h3 h4 h5

/-- With a midpoint search that stays in its window and makes progress,
`compute_differences` returns; its arrays describe a walk through the two files, every
one of its edits is the edit of a gap between two consecutive mapped pairs, and its
edits come in the order of their positions. -/
theorem compute_differences_gaps (diag : Diag) (file1 file2 : List Entry)
    (hd : DiagOk diag file1 file2) :
    ∃ (ctxt : List Int × List Int) (edits : List edit),
      compute_differences diag file1 file2 =
        some { index_mapping := ctxt.1, index_mapping_reverse := ctxt.2, edits := edits } ∧
      ctxt.1.length = file1.length ∧ ctxt.2.length = file2.length ∧
      Path (Deleted ctxt) (Inserted ctxt) (Paired file1 file2 ctxt) 0 0
        file1.length file2.length ∧
      (∀ e ∈ edits, ∃ i a j b : Nat, e = spec_gap_edit i a j b ∧
        spec_gap file1.length file2.length ctxt.1 ctxt.2 i a j b) ∧
      edits.Pairwise (spec_edit_before ctxt.1 ctxt.2) := by
  obtain ⟨ctxt, edits, hdiff, hl1, hl2, cpath, he⟩ := compute_differences_path diag file1 file2 hd
  obtain ⟨edits1, he1, hwalk⟩ := create_edits_walk file1 file2 ctxt
    (file1.length + file2.length + 1) 0 0 (by omega) cpath
  have hsame : edits1 = edits := Option.some.inj (he1.symm.trans he)
  subst hsame
  exact ⟨ctxt, edits1, hdiff, hl1, hl2, cpath, hwalk.gaps (Or.inl ⟨rfl, rfl⟩), hwalk.ordered⟩

theorem spec_gap_edit_addition (i a j b j1 j2 : Nat)
    (h : spec_gap_edit i a j b = edit.ADDITION j1 j2) : i = a ∧ j = j1 ∧ b - 1 = j2 := by
  unfold spec_gap_edit at h
  by_cases h1 : i = a
  · rw [if_pos h1] at h
    injection h with e1 e2
    exact ⟨h1, e1, e2⟩
  · rw [if_neg h1] at h
    by_cases h2 : j = b
    · rw [if_pos h2] at h; cases h
    · rw [if_neg h2] at h; cases h

theorem spec_gap_edit_change (i a j b i1 i2 j1 j2 : Nat)
    (h : spec_gap_edit i a j b = edit.CHANGE i1 i2 j1 j2) :
    i ≠ a ∧ j ≠ b ∧ i = i1 ∧ a - 1 = i2 ∧ j = j1 ∧ b - 1 = j2 := by
  unfold spec_gap_edit at h
  by_cases h1 : i = a
  · rw [if_pos h1] at h; cases h
  · rw [if_neg h1] at h
    by_cases h2 : j = b
    · rw [if_pos h2] at h; cases h
    · rw [if_neg h2] at h
      injection h with e1 e2 e3 e4
      exact ⟨h1, h2, e1, e2, e3, e4⟩

/-- The case ADDITION of `main` fails no `ASSERT` when the neighbours of the added
entries are as the loop that creates the edits leaves them. -/
theorem apply_addition_ok (fstrcmp_bounded : Fstrcmp) (ancestor_file mainstream_file
    modified_file : List Entry) (diffs : differences) (j1 j2 : Nat) (st : merge_state)
    (h : 0 < j1 → 0 ≤ diffs.index_mapping_reverse.getD (j1 - 1) 0 ∧
      ((j2 + 1 = modified_file.length ∧
          diffs.index_mapping_reverse.getD (j1 - 1) 0 + 1 = (ancestor_file.length : Int)) ∨
        (j2 + 1 ≠ modified_file.length ∧
          diffs.index_mapping_reverse.getD (j2 + 1) 0 =
            diffs.index_mapping_reverse.getD (j1 - 1) 0 + 1))) :
    apply_addition fstrcmp_bounded ancestor_file mainstream_file modified_file diffs j1 j2 st
      ≠ none := by
  unfold apply_addition
  by_cases h0 : j1 = 0
  · rw [if_pos h0]; simp
  · rw [if_neg h0]
    obtain ⟨hb, hcase⟩ := h (by omega)
    dsimp only
    have hcond : diffs.index_mapping_reverse.getD (j1 - 1) 0 ≥ 0 ∧
        (if j2 + 1 = modified_file.length then (ancestor_file.length : Int)
          else diffs.index_mapping_reverse.getD (j2 + 1) 0) ≥ 0 ∧
        (if j2 + 1 = modified_file.length then (ancestor_file.length : Int)
          else diffs.index_mapping_reverse.getD (j2 + 1) 0) =
          diffs.index_mapping_reverse.getD (j1 - 1) 0 + 1 := by
      rcases hcase with ⟨c1, c2⟩ | ⟨c1, c2⟩
      · rw [if_pos c1]
        exact ⟨hb, by omega, c2.symm⟩
      · rw [if_neg c1]
        exact ⟨hb, by omega, c2⟩
    rw [if_neg (not_not.mpr hcond)]
    split_ifs <;> simp

/-! ## Lemmas: a minimal diff has no equal entries in a gap -/

theorem length_filterMap_countP {α β : Type} (f : α → Option β) :
    ∀ l : List α, (l.filterMap f).length = l.countP (fun a => (f a).isSome) := by
  intro l
  induction l with
  | nil => rfl
  | cons x l ih =>
    rw [List.filterMap_cons, List.countP_cons]
    cases hx : f x with
    | none => simp [ih]
    | some b => simp [ih]

theorem countP_one_more (p : Nat → Bool) (i : Nat) (hpi : p i = false) :
    ∀ l : List Nat, l.Nodup → i ∈ l →
      l.countP (fun t => p t || decide (t = i)) = l.countP p + 1 := by
  intro l
  induction l with
  | nil => intro _ h; simp at h
  | cons x l ih =>
    intro hnd hmem
    rw [List.nodup_cons] at hnd
    rw [List.countP_cons, List.countP_cons]
    by_cases hx : x = i
    · subst hx
      have hsame : l.countP (fun t => p t || decide (t = x)) = l.countP p := by
        apply List.countP_congr
        intro t ht
        have : t ≠ x := fun h => hnd.1 (h ▸ ht)
        simp [this]
      rw [hsame, hpi]
      simp
    · have hmem' : i ∈ l := by
        rcases List.mem_cons.mp hmem with h | h
        · exact absurd h.symm hx
        · exact h
      rw [ih hnd.2 hmem']
      simp [hx]
      omega

/-- The mapped pairs with one more pair, for an unmapped position `i`, are one more
than the mapped positions. -/
theorem extended_matching_length (n1 : Nat) (index_mapping : List Int) (i j : Nat)
    (hi : i < n1) (hneg : index_mapping.getD i 0 < 0) :
    (extended_matching n1 index_mapping i j).length =
      (List.range n1).countP (fun t => decide (0 ≤ index_mapping.getD t 0)) + 1 := by
  unfold extended_matching
  rw [length_filterMap_countP]
  rw [← countP_one_more (fun t => decide (0 ≤ index_mapping.getD t 0)) i
    (by simpa using hneg) (List.range n1) (List.nodup_range n1) (List.mem_range.mpr hi)]
  apply List.countP_congr
  intro t ht
  rw [List.mem_range] at ht
  rw [if_pos ht]
  by_cases h1 : 0 ≤ index_mapping.getD t 0
  · rw [if_pos h1, decide_eq_true h1]; rfl
  · rw [if_neg h1, decide_eq_false h1]
    by_cases h2 : t = i
    · rw [if_pos h2, decide_eq_true h2]; rfl
    · rw [if_neg h2, decide_eq_false h2]; rfl

/-- A pair of equal entries in a gap of the diff, one from each file, can be added to
the mapped pairs: the result is a common subsequence of the two files. -/
theorem extended_matching_common (file1 file2 : List Entry) (ctxt : List Int × List Int)
    (i0 a j0 b i j : Nat)
    (hpath : Path (Deleted ctxt) (Inserted ctxt) (Paired file1 file2 ctxt) 0 0
      file1.length file2.length)
    (hgap : spec_gap file1.length file2.length ctxt.1 ctxt.2 i0 a j0 b)
    (hi : i0 ≤ i) (hia : i < a) (hj : j0 ≤ j) (hjb : j < b)
    (heq : file1.getD i [] = file2.getD j []) :
    spec_common file1 file2 (extended_matching file1.length ctxt.1 i j) := by
  obtain ⟨g1, g2, g3, g4, -, gm1, gm2, gbefore, gafter⟩ := hgap
  obtain ⟨a1, -, a3⟩ := hpath.mapped
  -- a mapped position before the gap is mapped below the gap
  have hlow : ∀ t, t < i → t < file1.length → 0 ≤ ctxt.1.getD t 0 →
      ctxt.1.getD t 0 < (j : Int) := by
    intro t hti htn hm
    have hti0 : t < i0 := by
      by_contra hge
      have := gm1 t (by omega) (by omega)
      omega
    rcases gbefore with ⟨h0, -⟩ | ⟨hi0, hj0, hf, -⟩
    · omega
    · by_cases hlast : t = i0 - 1
      · rw [hlast, hf]; omega
      · have := a3 t (i0 - 1) (Nat.zero_le _) (by omega) (by omega) hm (by rw [hf]; omega)
        rw [hf] at this
        omega
  -- a mapped position after the gap is mapped above the gap
  have hhigh : ∀ t, i < t → t < file1.length → 0 ≤ ctxt.1.getD t 0 →
      (j : Int) < ctxt.1.getD t 0 := by
    intro t hti htn hm
    have hta : a ≤ t := by
      by_contra hlt
      have := gm1 t (by omega) (by omega)
      omega
    rcases gafter with ⟨h0, -⟩ | ⟨han, hbn, hf, -⟩
    · omega
    · by_cases hfirst : t = a
      · rw [hfirst, hf]; omega
      · have := a3 a t (Nat.zero_le _) (by omega) htn (by rw [hf]; omega) hm
        rw [hf] at this
        omega
  have hneg : ctxt.1.getD i 0 < 0 := gm1 i hi hia
  unfold extended_matching
  constructor
  · refine List.Pairwise.filterMap _ ?_ (List.pairwise_lt_range _)
    intro t t' hlt x hx x' hx'
    rw [Option.mem_def] at hx hx'
    by_cases ht : t < file1.length
    swap
    · rw [if_neg ht] at hx; cases hx
    by_cases ht' : t' < file1.length
    swap
    · rw [if_neg ht'] at hx'; cases hx'
    rw [if_pos ht] at hx
    rw [if_pos ht'] at hx'
    by_cases hm : 0 ≤ ctxt.1.getD t 0
    · rw [if_pos hm] at hx
      injection hx with hx
      subst hx
      by_cases hm' : 0 ≤ ctxt.1.getD t' 0
      · rw [if_pos hm'] at hx'
        injection hx' with hx'
        subst hx'
        have := a3 t t' (Nat.zero_le _) hlt ht' hm hm'
        exact ⟨hlt, by dsimp only; omega⟩
      · rw [if_neg hm'] at hx'
        by_cases hs' : t' = i
        · rw [if_pos hs'] at hx'
          injection hx' with hx'
          subst hx'
          have := hlow t (by omega) ht hm
          exact ⟨by dsimp only; omega, by dsimp only; omega⟩
        · rw [if_neg hs'] at hx'; cases hx'
    · rw [if_neg hm] at hx
      by_cases hs : t = i
      · rw [if_pos hs] at hx
        injection hx with hx
        subst hx
        by_cases hm' : 0 ≤ ctxt.1.getD t' 0
        · rw [if_pos hm'] at hx'
          injection hx' with hx'
          subst hx'
          have := hhigh t' (by omega) ht' hm'
          exact ⟨by dsimp only; omega, by dsimp only; omega⟩
        · rw [if_neg hm'] at hx'
          by_cases hs' : t' = i
          · omega
          · rw [if_neg hs'] at hx'; cases hx'
      · rw [if_neg hs] at hx; cases hx
  · intro x hx
    rw [List.mem_filterMap] at hx
    obtain ⟨t, -, hft⟩ := hx
    by_cases ht : t < file1.length
    swap
    · rw [if_neg ht] at hft; cases hft
    rw [if_pos ht] at hft
    by_cases hm : 0 ≤ ctxt.1.getD t 0
    · rw [if_pos hm] at hft
      injection hft with hft
      subst hft
      obtain ⟨u, -, hu, hp⟩ := a1 t (Nat.zero_le _) ht hm
      dsimp only
      rw [hp.1, Int.toNat_ofNat]
      exact ⟨ht, hu, hp.2.2⟩
    · rw [if_neg hm] at hft
      by_cases hs : t = i
      · rw [if_pos hs] at hft
        injection hft with hft
        subst hft
        exact ⟨by omega, by omega, heq⟩
      · rw [if_neg hs] at hft; cases hft

/-- The midpoint search `diag_corner` of the examples does not give a minimal diff: for
the files "a\n", "b\n", "c\n" and "x\n", "b\n", "y\n" nothing is mapped, and the one
CHANGE holds the equal entries at the positions 1 and 1. -/
theorem corner_diff_not_minimal :
    compute_differences diag_corner [[97, 10], [98, 10], [99, 10]]
      [[120, 10], [98, 10], [121, 10]] =
      some { index_mapping := [-1, -1, -1], index_mapping_reverse := [-1, -1, -1],
             edits := [edit.CHANGE 0 2 0 2] } ∧
    entry_equals (([[97, 10], [98, 10], [99, 10]] : List Entry).getD 1 [])
      (([[120, 10], [98, 10], [121, 10]] : List Entry).getD 1 []) = true := by
  decide

/-! ## Lemmas: the run of the merge on the result list -/

theorem MergeRun.trans (fstrcmp_bounded : Fstrcmp) (a b c : entries_mapping × List node)
    (log1 log2 : List (Nat × Nat)) (h1 : MergeRun fstrcmp_bounded a log1 b)
    (h2 : MergeRun fstrcmp_bounded b log2 c) :
    MergeRun fstrcmp_bounded a (log1 ++ log2) c := by
  induction h1 with
  | done s => exact h2
  | lookup mapping list i log s _ ih => exact MergeRun.lookup _ _ _ _ _ (ih h2)
  | add_first mapping list elt log s _ ih => exact MergeRun.add_first _ _ _ _ _ (ih h2)
  | add_last mapping list elt log s _ ih => exact MergeRun.add_last _ _ _ _ _ (ih h2)
  | add_before mapping list k elt log s _ ih => exact MergeRun.add_before _ _ _ _ _ _ (ih h2)
  | set_value mapping list i k elt log s hk _ ih =>
    exact MergeRun.set_value _ _ _ _ _ _ _ hk (ih h2)

/-- One call of `entries_mapping_get`. -/
theorem run_get (fstrcmp_bounded : Fstrcmp) (mapping : entries_mapping) (list : List node)
    (i : Nat) :
    MergeRun fstrcmp_bounded (mapping, list) []
      ((entries_mapping_get fstrcmp_bounded mapping i).2, list) :=
  MergeRun.lookup _ _ _ _ _ (MergeRun.done _)

/-- One call of `entries_mapping_get` with a result `k >= 0`, followed by
`gl_list_node_set_value` for slot `k`. -/
theorem run_write (fstrcmp_bounded : Fstrcmp) (mapping : entries_mapping) (list : List node)
    (i : Nat) (elt : Entry) (h : (entries_mapping_get fstrcmp_bounded mapping i).1 ≥ 0) :
    MergeRun fstrcmp_bounded (mapping, list)
      [(i, (entries_mapping_get fstrcmp_bounded mapping i).1.toNat)]
      ((entries_mapping_get fstrcmp_bounded mapping i).2,
        gl_list_node_set_value list (entries_mapping_get fstrcmp_bounded mapping i).1.toNat elt) := by
  apply MergeRun.lookup _ _ i
  apply MergeRun.set_value
  · rw [← (entries_mapping_get_files fstrcmp_bounded mapping i).2.2.2]
    exact (Int.toNat_of_nonneg h).symm
  · exact MergeRun.done _

theorem run_add_first_desc (fstrcmp_bounded : Fstrcmp) (mapping : entries_mapping)
    (modified_file : List Entry) (j1 : Nat) :
    ∀ (count : Nat) (list : List node),
      MergeRun fstrcmp_bounded (mapping, list) []
        (mapping, add_first_desc modified_file j1 count list) := by
  intro count
  induction count with
  | zero => intro list; exact MergeRun.done _
  | succ c ih =>
    intro list
    unfold add_first_desc
    exact MergeRun.add_first _ _ _ _ _ (ih _)

theorem run_add_before_desc (fstrcmp_bounded : Fstrcmp) (mapping : entries_mapping)
    (modified_file : List Entry) (j1 k : Nat) :
    ∀ (count : Nat) (list : List node),
      MergeRun fstrcmp_bounded (mapping, list) []
        (mapping, add_before_desc modified_file j1 k count list) := by
  intro count
  induction count with
  | zero => intro list; exact MergeRun.done _
  | succ c ih =>
    intro list
    unfold add_before_desc
    exact MergeRun.add_before _ _ _ _ _ _ (ih _)

theorem run_add_last_asc (fstrcmp_bounded : Fstrcmp) (mapping : entries_mapping)
    (modified_file : List Entry) :
    ∀ (count j : Nat) (list : List node),
      MergeRun fstrcmp_bounded (mapping, list) []
        (mapping, add_last_asc modified_file count j list) := by
  intro count
  induction count with
  | zero => intro j list; exact MergeRun.done _
  | succ c ih =>
    intro j list
    unfold add_last_asc
    exact MergeRun.add_last _ _ _ _ _ (ih _ _)

theorem run_add_before_asc (fstrcmp_bounded : Fstrcmp) (mapping : entries_mapping)
    (modified_file : List Entry) (k : Nat) :
    ∀ (count j : Nat) (list : List node),
      MergeRun fstrcmp_bounded (mapping, list) []
        (mapping, add_before_asc modified_file k count j list) := by
  intro count
  induction count with
  | zero => intro j list; exact MergeRun.done _
  | succ c ih =>
    intro j list
    unfold add_before_asc
    exact MergeRun.add_before _ _ _ _ _ _ (ih _ _)

theorem run_linear_test (fstrcmp_bounded : Fstrcmp) (i_before : Nat) (k_before : Int)
    (list : List node) :
    ∀ (count i : Nat) (mapping : entries_mapping),
      MergeRun fstrcmp_bounded (mapping, list) []
        ((linear_test fstrcmp_bounded i_before k_before count i mapping).2, list) := by
  intro count
  induction count with
  | zero => intro i mapping; exact MergeRun.done _
  | succ c ih =>
    intro i mapping
    unfold linear_test
    dsimp only
    split_ifs
    · exact run_get _ _ _ _
    · exact MergeRun.lookup _ _ i _ _ (ih _ _)

theorem run_unchanged_test (fstrcmp_bounded : Fstrcmp)
    (ancestor_file mainstream_file : List Entry) (i_first : Nat) (k_first : Int)
    (list : List node) :
    ∀ (count i : Nat) (mapping : entries_mapping),
      MergeRun fstrcmp_bounded (mapping, list) []
        ((unchanged_test fstrcmp_bounded ancestor_file mainstream_file i_first k_first
          count i mapping).2, list) := by
  intro count
  induction count with
  | zero => intro i mapping; exact MergeRun.done _
  | succ c ih =>
    intro i mapping
    unfold unchanged_test
    dsimp only
    split_ifs
    · exact MergeRun.lookup _ _ i _ _ (MergeRun.lookup _ _ i _ _ (ih _ _))
    · exact MergeRun.lookup _ _ i _ _ (run_get _ _ _ _)
    · exact run_get _ _ _ _

/-- A step of a loop at ancestor index `i`, followed by the rest of the loop. -/
theorem run_prepend (fstrcmp_bounded : Fstrcmp) (a b c : entries_mapping × List node)
    (log1 : List (Nat × Nat)) (i i' count : Nat) (hi : i' = i + 1)
    (h2 : ∃ log2, MergeRun fstrcmp_bounded b log2 c ∧
      (log2.map Prod.fst).Sublist (List.range' i' count))
    (h1 : MergeRun fstrcmp_bounded a log1 b) (s1 : (log1.map Prod.fst).Sublist [i]) :
    ∃ log, MergeRun fstrcmp_bounded a log c ∧
      (log.map Prod.fst).Sublist (List.range' i (count + 1)) := by
  obtain ⟨log2, h2, s2⟩ := h2
  subst hi
  refine ⟨log1 ++ log2, MergeRun.trans _ _ _ _ _ _ h1 h2, ?_⟩
  rw [List.map_append, List.range'_succ]
  exact List.Sublist.append s1 s2

theorem removal_step_run (fstrcmp_bounded : Fstrcmp)
    (ancestor_file mainstream_file : List Entry) (i : Nat) (st : merge_state) :
    ∃ log, MergeRun fstrcmp_bounded (st.mapping, st.result_entries) log
        ((removal_step fstrcmp_bounded ancestor_file mainstream_file i st).mapping,
         (removal_step fstrcmp_bounded ancestor_file mainstream_file i st).result_entries) ∧
      (log.map Prod.fst).Sublist [i] := by
  unfold removal_step
  dsimp only
  split_ifs with h
  · exact ⟨_, run_write _ _ _ _ _ h.1, by simp⟩
  · exact ⟨_, run_get _ _ _ _, by simp⟩

/-- The loop of the case REMOVAL as a run: it writes slots for ancestor indices of its
range, in increasing order. -/
theorem apply_removal_run (fstrcmp_bounded : Fstrcmp)
    (ancestor_file mainstream_file : List Entry) :
    ∀ (count i : Nat) (st : merge_state),
      ∃ log, MergeRun fstrcmp_bounded (st.mapping, st.result_entries) log
          ((apply_removal fstrcmp_bounded ancestor_file mainstream_file count i st).mapping,
           (apply_removal fstrcmp_bounded ancestor_file mainstream_file count i
             st).result_entries) ∧
        (log.map Prod.fst).Sublist (List.range' i count) := by
  intro count
  induction count with
  | zero => intro i st; exact ⟨[], MergeRun.done _, by simp⟩
  | succ c ih =>
    intro i st
    unfold apply_removal
    obtain ⟨log1, f1, f2⟩ := removal_step_run fstrcmp_bounded ancestor_file mainstream_file i st
    exact run_prepend _ _ _ _ _ _ _ _ rfl (ih (i + 1)
      (removal_step fstrcmp_bounded ancestor_file mainstream_file i st)) f1 f2

theorem merged_changes_run (fstrcmp_bounded : Fstrcmp)
    (ancestor_file mainstream_file modified_file : List Entry) (i2 j2 first : Nat)
    (split1 : Entry) :
    ∀ (count j : Nat) (st : merge_state), j2 ≤ j + i2 →
      ∃ log, MergeRun fstrcmp_bounded (st.mapping, st.result_entries) log
          ((merged_changes fstrcmp_bounded ancestor_file mainstream_file modified_file i2 j2
            first split1 count j st).mapping,
           (merged_changes fstrcmp_bounded ancestor_file mainstream_file modified_file i2 j2
            first split1 count j st).result_entries) ∧
        (log.map Prod.fst).Sublist (List.range' (j + i2 - j2) count) := by
  intro count
  induction count with
  | zero => intro j st _; exact ⟨[], MergeRun.done _, by simp⟩
  | succ c ih =>
    intro j st hj
    unfold merged_changes
    dsimp only
    have e1 : j + 1 + i2 - j2 = j + i2 - j2 + 1 := by omega
    obtain ⟨changed_entry, hce⟩ : ∃ changed_entry,
      changed_entry = if j = first then split1 else modified_file.getD j [] := ⟨_, rfl⟩
    rw [← hce]
    split_ifs with h1 h2
    · exact run_prepend _ _ _ _ _ _ _ _ e1 (ih (j + 1) _ (by omega : j2 ≤ j + 1 + i2))
        (run_write _ _ _ _ _ h1.1) (by simp)
    · exact run_prepend _ _ _ _ _ _ _ _ e1 (ih (j + 1) _ (by omega : j2 ≤ j + 1 + i2))
        (run_get _ _ _ (j + i2 - j2)) (by simp)
    · exact run_prepend _ _ _ _ _ _ _ _ e1 (ih (j + 1) _ (by omega : j2 ≤ j + 1 + i2))
        (run_get _ _ _ (j + i2 - j2)) (by simp)

theorem top_changes_run (fstrcmp_bounded : Fstrcmp)
    (ancestor_file mainstream_file modified_file : List Entry) (i2 j2 : Nat) :
    ∀ (count j : Nat) (st st1 : merge_state), j2 ≤ j + i2 →
      top_changes fstrcmp_bounded ancestor_file mainstream_file modified_file i2 j2 count j st
        = some st1 →
      ∃ log, MergeRun fstrcmp_bounded (st.mapping, st.result_entries) log
          (st1.mapping, st1.result_entries) ∧
        (log.map Prod.fst).Sublist (List.range' (j + i2 - j2) count) := by
  intro count
  induction count with
  | zero =>
    intro j st st1 _ h
    simp only [top_changes, Option.some.injEq] at h
    subst h
    exact ⟨[], MergeRun.done _, by simp⟩
  | succ c ih =>
    intro j st st1 hj h
    unfold top_changes at h
    dsimp only at h
    have e1 : j + 1 + i2 - j2 = j + i2 - j2 + 1 := by omega
    split_ifs at h with h1 h2
    · exact run_prepend _ _ _ _ _ _ _ _ e1 (ih (j + 1) _ st1 (by omega) h)
        (run_write _ _ _ _ _ h1.1) (by simp)
    · exact run_prepend _ _ _ _ _ _ _ _ e1 (ih (j + 1) _ st1 (by omega) h)
        (run_get _ _ _ (j + i2 - j2)) (by simp)

theorem linear_changes_run (fstrcmp_bounded : Fstrcmp)
    (ancestor_file mainstream_file modified_file : List Entry) (i2 j2 : Nat) :
    ∀ (count j : Nat) (st st1 : merge_state), j2 ≤ j + i2 →
      linear_changes fstrcmp_bounded ancestor_file mainstream_file modified_file i2 j2 count j st
        = some st1 →
      ∃ log, MergeRun fstrcmp_bounded (st.mapping, st.result_entries) log
          (st1.mapping, st1.result_entries) ∧
        (log.map Prod.fst).Sublist (List.range' (j + i2 - j2) count) := by
  intro count
  induction count with
  | zero =>
    intro j st st1 _ h
    simp only [linear_changes, Option.some.injEq] at h
    subst h
    exact ⟨[], MergeRun.done _, by simp⟩
  | succ c ih =>
    intro j st st1 hj h
    unfold linear_changes at h
    dsimp only at h
    have e1 : j + 1 + i2 - j2 = j + i2 - j2 + 1 := by omega
    split_ifs at h with h0 h1 h2
    · exact run_prepend _ _ _ _ _ _ _ _ e1 (ih (j + 1) _ st1 (by omega) h)
        (run_write _ _ _ _ _ h0) (by simp)
    · exact run_prepend _ _ _ _ _ _ _ _ e1 (ih (j + 1) _ st1 (by omega) h)
        (run_get _ _ _ (j + i2 - j2)) (by simp)

theorem empty_slots_run (fstrcmp_bounded : Fstrcmp)
    (ancestor_file mainstream_file : List Entry) :
    ∀ (count i : Nat) (st st1 : merge_state),
      empty_slots fstrcmp_bounded ancestor_file mainstream_file count i st = some st1 →
      ∃ log, MergeRun fstrcmp_bounded (st.mapping, st.result_entries) log
          (st1.mapping, st1.result_entries) ∧
        (log.map Prod.fst).Sublist (List.range' i count) := by
  intro count
  induction count with
  | zero =>
    intro i st st1 h
    simp only [empty_slots, Option.some.injEq] at h
    subst h
    exact ⟨[], MergeRun.done _, by simp⟩
  | succ c ih =>
    intro i st st1 h
    unfold empty_slots at h
    dsimp only at h
    split_ifs at h with h1
    exact run_prepend _ _ _ _ _ _ _ _ rfl (ih (i + 1) _ st1 h)
      (run_write _ _ _ _ _ h1.1) (by simp)

theorem run_ite {α : Type} (fstrcmp_bounded : Fstrcmp) (c : Prop) [Decidable c]
    (x y : α × entries_mapping) (mapping : entries_mapping) (list : List node)
    (hx : MergeRun fstrcmp_bounded (mapping, list) [] (x.2, list))
    (hy : MergeRun fstrcmp_bounded (mapping, list) [] (y.2, list)) :
    MergeRun fstrcmp_bounded (mapping, list) [] ((if c then x else y).2, list) := by
  split_ifs
  · exact hx
  · exact hy

/-- The first part of the case CHANGE as a run. -/
theorem change_simple_merged_run (fstrcmp_bounded : Fstrcmp)
    (ancestor_file mainstream_file modified_file : List Entry) (i1 i2 j1 j2 : Nat)
    (st st1 : merge_state) (done : Bool)
    (h : change_simple_merged fstrcmp_bounded ancestor_file mainstream_file modified_file
      i1 i2 j1 j2 st = some (done, st1)) :
    ∃ log, MergeRun fstrcmp_bounded (st.mapping, st.result_entries) log
        (st1.mapping, st1.result_entries) ∧
      (log.map Prod.fst).Sublist (List.range' (min i1 i2) (i2 - i1 + 1)) := by
  unfold change_simple_merged at h
  by_cases hc : j1 = 0 ∧ i2 - i1 ≤ j2 - j1
  · rw [if_pos hc] at h
    cases hs : try_split_merged_entry fstrcmp_bounded (ancestor_file.getD i1 [])
      (modified_file.getD (i1 + j2 - i2) []) with
    | none => rw [hs] at h; simp at h
    | some r =>
      rw [hs] at h
      cases r with
      | none =>
        simp only [Option.some.injEq, Prod.mk.injEq] at h
        rw [← h.2]
        exact ⟨[], MergeRun.done _, List.nil_sublist _⟩
      | some split =>
        dsimp only at h
        by_cases hsim : all_similar fstrcmp_bounded ancestor_file modified_file i2 j2
          (i2 - i1) (i1 + 1) = true
        · rw [if_pos hsim] at h
          simp only [Option.some.injEq, Prod.mk.injEq] at h
          obtain ⟨log, g1, g2⟩ := merged_changes_run fstrcmp_bounded ancestor_file
            mainstream_file modified_file i2 j2 (j1 + (j2 - j1 + 1 - (i2 - i1 + 1))) split.2
            (j2 + 1 - (j1 + (j2 - j1 + 1 - (i2 - i1 + 1))))
            (j1 + (j2 - j1 + 1 - (i2 - i1 + 1)))
            { mapping := st.mapping
              result_entries :=
                add_first_desc modified_file j1 (j2 - j1 + 1 - (i2 - i1 + 1))
                  (gl_list_add_first st.result_entries split.1)
              result_conflicts := st.result_conflicts } (by omega)
          refine ⟨log, ?_, change_range_sublist _ _ _ _ _ hc.2 g2⟩
          rw [← h.2]
          exact MergeRun.add_first _ _ split.1 _ _
            (MergeRun.trans _ _ _ _ [] log (run_add_first_desc _ _ _ _ _ _) g1)
        · rw [if_neg hsim] at h
          simp only [Option.some.injEq, Prod.mk.injEq] at h
          rw [← h.2]
          exact ⟨[], MergeRun.done _, List.nil_sublist _⟩
  · rw [if_neg hc] at h
    simp only [Option.some.injEq, Prod.mk.injEq] at h
    rw [← h.2]
    exact ⟨[], MergeRun.done _, List.nil_sublist _⟩

/-- The second part of the case CHANGE as a run. -/
theorem change_simple_or_big_run (fstrcmp_bounded : Fstrcmp)
    (ancestor_file mainstream_file modified_file : List Entry) (diffs : differences)
    (i1 i2 j1 j2 : Nat) (st st1 : merge_state) (done : Bool)
    (h : change_simple_or_big fstrcmp_bounded ancestor_file mainstream_file modified_file
      diffs i1 i2 j1 j2 st = some (done, st1)) :
    ∃ log, MergeRun fstrcmp_bounded (st.mapping, st.result_entries) log
        (st1.mapping, st1.result_entries) ∧
      (log.map Prod.fst).Sublist (List.range' (min i1 i2) (i2 - i1 + 1)) := by
  unfold change_simple_or_big at h
  have hmatch : ∀ (x : Option merge_state),
      (match x with
        | none => none
        | some s => some (true, s)) = some (done, st1) → x = some st1 ∧ done = true := by
    intro x hx
    cases x with
    | none => simp at hx
    | some s =>
      simp only [Option.some.injEq, Prod.mk.injEq] at hx
      exact ⟨by rw [hx.2], hx.1.symm⟩
  by_cases hsimple : i2 - i1 ≤ j2 - j1 ∧
      all_similar fstrcmp_bounded ancestor_file modified_file i2 j2 (i2 + 1 - i1) i1 = true
  · rw [if_pos hsimple] at h
    dsimp only at h
    by_cases hj1 : j1 = 0
    · rw [if_pos hj1] at h
      obtain ⟨hl, _⟩ := hmatch _ h
      obtain ⟨log, g1, g2⟩ := top_changes_run _ _ _ _ _ _ _ _ _ st1 (by omega) hl
      refine ⟨log, ?_, change_range_sublist _ _ _ _ _ hsimple.1 g2⟩
      exact MergeRun.trans _ _ _ _ [] log (run_add_first_desc _ _ _ _ _ _) g1
    · rw [if_neg hj1] at h
      by_cases hib : diffs.index_mapping_reverse.getD (j1 - 1) 0 ≥ 0
      · rw [if_neg (not_not_intro hib)] at h
        have hrun := run_ite fstrcmp_bounded
          ((entries_mapping_get fstrcmp_bounded st.mapping
            (diffs.index_mapping_reverse.getD (j1 - 1) 0).toNat).1 ≥ 0)
          (linear_test fstrcmp_bounded (diffs.index_mapping_reverse.getD (j1 - 1) 0).toNat
            (entries_mapping_get fstrcmp_bounded st.mapping
              (diffs.index_mapping_reverse.getD (j1 - 1) 0).toNat).1 (i2 - i1 + 1)
            ((diffs.index_mapping_reverse.getD (j1 - 1) 0).toNat + 1)
            (entries_mapping_get fstrcmp_bounded st.mapping
              (diffs.index_mapping_reverse.getD (j1 - 1) 0).toNat).2)
          (false, (entries_mapping_get fstrcmp_bounded st.mapping
              (diffs.index_mapping_reverse.getD (j1 - 1) 0).toNat).2)
          (entries_mapping_get fstrcmp_bounded st.mapping
              (diffs.index_mapping_reverse.getD (j1 - 1) 0).toNat).2 st.result_entries
          (run_linear_test _ _ _ _ _ _ _) (MergeRun.done _)
        generalize (if (entries_mapping_get fstrcmp_bounded st.mapping
            (diffs.index_mapping_reverse.getD (j1 - 1) 0).toNat).1 ≥ 0 then
          linear_test fstrcmp_bounded (diffs.index_mapping_reverse.getD (j1 - 1) 0).toNat
            (entries_mapping_get fstrcmp_bounded st.mapping
              (diffs.index_mapping_reverse.getD (j1 - 1) 0).toNat).1 (i2 - i1 + 1)
            ((diffs.index_mapping_reverse.getD (j1 - 1) 0).toNat + 1)
            (entries_mapping_get fstrcmp_bounded st.mapping
              (diffs.index_mapping_reverse.getD (j1 - 1) 0).toNat).2
          else (false, (entries_mapping_get fstrcmp_bounded st.mapping
              (diffs.index_mapping_reverse.getD (j1 - 1) 0).toNat).2)) = linear at h hrun
        have hrun2 := MergeRun.lookup _ _ _ _ _ hrun
        by_cases hl1 : linear.1 = true
        · rw [if_pos hl1] at h
          obtain ⟨hl, _⟩ := hmatch _ h
          obtain ⟨log, g1, g2⟩ := linear_changes_run _ _ _ _ _ _ _ _ _ st1 (by omega) hl
          refine ⟨log, ?_, change_range_sublist _ _ _ _ _ hsimple.1 g2⟩
          exact MergeRun.trans _ _ _ _ [] log hrun2
            (MergeRun.trans _ _ _ _ [] log (run_add_before_desc _ _ _ _ _ _ _) g1)
        · rw [if_neg hl1] at h
          simp only [Option.some.injEq, Prod.mk.injEq] at h
          rw [← h.2]
          exact ⟨[], hrun2, List.nil_sublist _⟩
      · rw [if_pos hib] at h
        contradiction
  · rw [if_neg hsimple] at h
    dsimp only at h
    have hrun := run_ite fstrcmp_bounded
      ((entries_mapping_get fstrcmp_bounded st.mapping i1).1 ≥ 0 ∧
        entry_equals (ancestor_file.getD i1 [])
          (mainstream_file.getD (entries_mapping_get fstrcmp_bounded st.mapping i1).1.toNat [])
          = true)
      (unchanged_test fstrcmp_bounded ancestor_file mainstream_file i1
        (entries_mapping_get fstrcmp_bounded st.mapping i1).1 (i2 - i1) (i1 + 1)
        (entries_mapping_get fstrcmp_bounded st.mapping i1).2)
      (false, (entries_mapping_get fstrcmp_bounded st.mapping i1).2)
      (entries_mapping_get fstrcmp_bounded st.mapping i1).2 st.result_entries
      (run_unchanged_test _ _ _ _ _ _ _ _ _) (MergeRun.done _)
    generalize (if (entries_mapping_get fstrcmp_bounded st.mapping i1).1 ≥ 0 ∧
        entry_equals (ancestor_file.getD i1 [])
          (mainstream_file.getD (entries_mapping_get fstrcmp_bounded st.mapping i1).1.toNat [])
          = true then
      unchanged_test fstrcmp_bounded ancestor_file mainstream_file i1
        (entries_mapping_get fstrcmp_bounded st.mapping i1).1 (i2 - i1) (i1 + 1)
        (entries_mapping_get fstrcmp_bounded st.mapping i1).2
      else (false, (entries_mapping_get fstrcmp_bounded st.mapping i1).2)) = unchanged at h hrun
    have hrun2 := MergeRun.lookup _ _ _ _ _ hrun
    by_cases hl1 : unchanged.1 = true
    · rw [if_pos hl1] at h
      obtain ⟨hl, _⟩ := hmatch _ h
      obtain ⟨log, g1, g2⟩ := empty_slots_run _ _ _ _ _ _ st1 hl
      refine ⟨log, ?_, ?_⟩
      · exact MergeRun.trans _ _ _ _ [] log hrun2
          (MergeRun.trans _ _ _ _ [] log (run_add_before_desc _ _ _ _ _ _ _) g1)
      · by_cases hi : i1 ≤ i2
        · rw [Nat.min_eq_left hi, show i2 - i1 + 1 = i2 + 1 - i1 by omega]
          exact g2
        · rw [show i2 + 1 - i1 = 0 by omega] at g2
          simp only [List.range'_zero, List.sublist_nil] at g2
          rw [g2]
          exact List.nil_sublist _
    · rw [if_neg hl1] at h
      simp only [Option.some.injEq, Prod.mk.injEq] at h
      rw [← h.2]
      exact ⟨[], hrun2, List.nil_sublist _⟩

/-- The positions of FILE1 that an edit with nonempty ranges can write for. -/
theorem range_covers (e : edit) (i1 count : Nat) (positions : List Nat)
    (h : positions.Sublist (List.range' i1 count))
    (hc : ∀ t, i1 ≤ t → t < i1 + count → covers_file1 e t = true) :
    positions.Pairwise (fun a b => a < b) ∧ ∀ t ∈ positions, covers_file1 e t = true := by
  constructor
  · exact List.Pairwise.sublist h (List.pairwise_lt_range' i1 count)
  · intro t ht
    have := h.subset ht
    rw [List.mem_range'_1] at this
    exact hc t this.1 this.2

/-- Every edit as a run: it writes slots only for ancestor indices of its range, in
increasing order. -/
theorem apply_edit_run (fstrcmp_bounded : Fstrcmp)
    (ancestor_file mainstream_file modified_file : List Entry) (diffs : differences)
    (e : edit) (st st1 : merge_state)
    (h : apply_edit fstrcmp_bounded ancestor_file mainstream_file modified_file diffs e st
      = some st1) :
    ∃ log, MergeRun fstrcmp_bounded (st.mapping, st.result_entries) log
        (st1.mapping, st1.result_entries) ∧
      (nonempty_ranges e →
        (log.map Prod.fst).Pairwise (fun a b => a < b) ∧
        ∀ t ∈ log.map Prod.fst, covers_file1 e t = true) := by
  cases e with
  | ADDITION j1 j2 =>
    simp only [apply_edit] at h
    unfold apply_addition at h
    dsimp only at h
    by_cases hj1 : j1 = 0
    · rw [if_pos hj1] at h
      simp only [Option.some.injEq] at h
      subst h
      exact ⟨[], run_add_first_desc _ _ _ _ _ _, fun _ => ⟨List.Pairwise.nil, by simp⟩⟩
    · rw [if_neg hj1] at h
      generalize (if j2 + 1 = modified_file.length then (ancestor_file.length : Int)
        else diffs.index_mapping_reverse.getD (j2 + 1) 0) = i_after at h
      have hrun := run_ite fstrcmp_bounded (i_after = (ancestor_file.length : Int))
        ((mainstream_file.length : Int), (entries_mapping_get fstrcmp_bounded st.mapping
          (diffs.index_mapping_reverse.getD (j1 - 1) 0).toNat).2)
        (entries_mapping_get fstrcmp_bounded
          (entries_mapping_get fstrcmp_bounded st.mapping
            (diffs.index_mapping_reverse.getD (j1 - 1) 0).toNat).2 i_after.toNat)
        (entries_mapping_get fstrcmp_bounded st.mapping
          (diffs.index_mapping_reverse.getD (j1 - 1) 0).toNat).2 st.result_entries
        (MergeRun.done _) (run_get _ _ _ _)
      generalize (if i_after = (ancestor_file.length : Int) then
          ((mainstream_file.length : Int), (entries_mapping_get fstrcmp_bounded st.mapping
            (diffs.index_mapping_reverse.getD (j1 - 1) 0).toNat).2)
        else entries_mapping_get fstrcmp_bounded
          (entries_mapping_get fstrcmp_bounded st.mapping
            (diffs.index_mapping_reverse.getD (j1 - 1) 0).toNat).2 i_after.toNat) = r_after
        at h hrun
      have hrun2 := MergeRun.lookup _ _ _ _ _ hrun
      split_ifs at h <;> first
        | contradiction
        | (simp only [Option.some.injEq] at h
           subst h
           first
             | exact ⟨[], hrun2, fun _ => ⟨List.Pairwise.nil, by simp⟩⟩
             | exact ⟨[], MergeRun.trans _ _ _ _ [] [] hrun2 (run_add_last_asc _ _ _ _ _ _),
                 fun _ => ⟨List.Pairwise.nil, by simp⟩⟩
             | exact ⟨[], MergeRun.trans _ _ _ _ [] [] hrun2 (run_add_before_asc _ _ _ _ _ _ _),
                 fun _ => ⟨List.Pairwise.nil, by simp⟩⟩)
  | REMOVAL i1 i2 =>
    simp only [apply_edit, Option.some.injEq] at h
    subst h
    obtain ⟨log, g1, g2⟩ := apply_removal_run fstrcmp_bounded ancestor_file
      mainstream_file (i2 + 1 - i1) i1 st
    refine ⟨log, g1, fun _ => range_covers _ _ _ _ g2 ?_⟩
    intro t h1 h2
    simp only [covers_file1, decide_eq_true_eq]
    omega
  | CHANGE i1 i2 j1 j2 =>
    have hcov : nonempty_ranges (edit.CHANGE i1 i2 j1 j2) →
        ∀ t, min i1 i2 ≤ t → t < min i1 i2 + (i2 - i1 + 1) →
          covers_file1 (edit.CHANGE i1 i2 j1 j2) t = true := by
      intro hne t h1 h2
      have := hne.1
      simp only [covers_file1, decide_eq_true_eq]
      rw [Nat.min_eq_left this] at h1 h2
      omega
    simp only [apply_edit] at h
    unfold apply_change at h
    cases hm : change_simple_merged fstrcmp_bounded ancestor_file mainstream_file modified_file
      i1 i2 j1 j2 st with
    | none => rw [hm] at h; simp at h
    | some r =>
      obtain ⟨done, st2⟩ := r
      rw [hm] at h
      obtain ⟨log, g1, g2⟩ := change_simple_merged_run _ _ _ _ _ _ _ _ _ _ _ hm
      rcases change_simple_merged_conflicts _ _ _ _ _ _ _ _ _ _ _ hm with ⟨hd, hst⟩ |
        ⟨hd, _⟩
      · subst hd; subst hst
        dsimp only at h
        cases hb : change_simple_or_big fstrcmp_bounded ancestor_file mainstream_file
          modified_file diffs i1 i2 j1 j2 st2 with
        | none => rw [hb] at h; simp at h
        | some r2 =>
          obtain ⟨done2, st3⟩ := r2
          rw [hb] at h
          obtain ⟨log2, f1, f2⟩ := change_simple_or_big_run _ _ _ _ _ _ _ _ _ _ _ _ hb
          cases done2 with
          | true =>
            simp only [Option.some.injEq] at h
            subst h
            exact ⟨log2, f1, fun hne => range_covers _ _ _ _ f2 (hcov hne)⟩
          | false =>
            simp only [Option.some.injEq] at h
            subst h
            exact ⟨log2, f1, fun hne => range_covers _ _ _ _ f2 (hcov hne)⟩
      · subst hd
        simp only [Option.some.injEq] at h
        subst h
        exact ⟨log, g1, fun hne => range_covers _ _ _ _ g2 (hcov hne)⟩

theorem pairwise_append_lt (l1 l2 : List Nat)
    (h1 : l1.Pairwise (fun a b => a < b)) (h2 : l2.Pairwise (fun a b => a < b))
    (h : ∀ a ∈ l1, ∀ b ∈ l2, a < b) : (l1 ++ l2).Pairwise (fun a b => a < b) :=
  List.pairwise_append.mpr ⟨h1, h2, h⟩

/-- The loop over the edits as a run: when the edits lie one after the other in FILE1,
the slots are written for ancestor indices in strictly increasing order, each index in
the range of an edit. -/
theorem apply_edits_run (fstrcmp_bounded : Fstrcmp)
    (ancestor_file mainstream_file modified_file : List Entry) (diffs : differences) :
    ∀ (edits : List edit) (st st1 : merge_state),
      apply_edits fstrcmp_bounded ancestor_file mainstream_file modified_file diffs edits st
        = some st1 →
      ∃ log, MergeRun fstrcmp_bounded (st.mapping, st.result_entries) log
          (st1.mapping, st1.result_entries) ∧
        ((∀ e ∈ edits, nonempty_ranges e) → edits_ascending edits →
          (log.map Prod.fst).Pairwise (fun a b => a < b) ∧
          ∀ t ∈ log.map Prod.fst, ∃ e ∈ edits, covers_file1 e t = true) := by
  intro edits
  induction edits with
  | nil =>
    intro st st1 h
    simp only [apply_edits, Option.some.injEq] at h
    subst h
    exact ⟨[], MergeRun.done _, fun _ _ => ⟨List.Pairwise.nil, by simp⟩⟩
  | cons e rest ih =>
    intro st st1 h
    unfold apply_edits at h
    cases he : apply_edit fstrcmp_bounded ancestor_file mainstream_file modified_file diffs e st with
    | none => rw [he] at h; simp at h
    | some st2 =>
      rw [he] at h
      dsimp only at h
      obtain ⟨log2, g1, g2⟩ := ih st2 st1 h
      obtain ⟨log1, f1, f2⟩ := apply_edit_run _ _ _ _ _ _ _ _ he
      refine ⟨log1 ++ log2, MergeRun.trans _ _ _ _ _ _ f1 g1, ?_⟩
      intro hne hasc
      obtain ⟨a1, a2⟩ := f2 (hne e (List.mem_cons_self _ _))
      obtain ⟨b1, b2⟩ := g2 (fun e' he' => hne e' (List.mem_cons_of_mem _ he'))
        (List.Pairwise.of_cons hasc)
      rw [List.map_append]
      constructor
      · apply pairwise_append_lt _ _ a1 b1
        intro a ha b hb
        obtain ⟨e', he', hc⟩ := b2 b hb
        exact List.rel_of_pairwise_cons hasc he' a b (a2 a ha) hc
      · intro t ht
        rcases List.mem_append.mp ht with ht | ht
        · exact ⟨e, List.mem_cons_self _ _, a2 t ht⟩
        · obtain ⟨e', he', hc⟩ := b2 t ht
          exact ⟨e', List.mem_cons_of_mem _ he', hc⟩

theorem slots_add_before (list : List node) (k : Nat) (elt : Entry) :
    (gl_list_add_before list k elt).filterMap node.slot = list.filterMap node.slot := by
  induction list with
  | nil => rfl
  | cons n rest ih =>
    unfold gl_list_add_before
    split_ifs
    · rw [List.filterMap_cons_none rfl]
    · cases hn : n.slot with
      | none => rw [List.filterMap_cons_none hn, List.filterMap_cons_none hn, ih]
      | some q => rw [List.filterMap_cons_some hn, List.filterMap_cons_some hn, ih]

theorem slots_set_value (list : List node) (k : Nat) (elt : Entry) :
    (gl_list_node_set_value list k elt).filterMap node.slot = list.filterMap node.slot := by
  unfold gl_list_node_set_value
  rw [List.filterMap_map]
  congr 1
  funext n
  simp only [Function.comp]
  split_ifs <;> rfl

/-- A run leaves the slots of the list as they are: it adds no node with a slot, removes
none and does not change their order. -/
theorem run_slots (fstrcmp_bounded : Fstrcmp) (s s' : entries_mapping × List node)
    (log : List (Nat × Nat)) (h : MergeRun fstrcmp_bounded s log s') :
    s'.2.filterMap node.slot = s.2.filterMap node.slot := by
  induction h with
  | done s => rfl
  | lookup mapping list i log s _ ih => exact ih
  | add_first mapping list elt log s _ ih =>
    rw [ih]
    exact List.filterMap_cons_none rfl
  | add_last mapping list elt log s _ ih =>
    rw [ih]
    simp [gl_list_add_last]
  | add_before mapping list k elt log s _ ih =>
    rw [ih]
    exact slots_add_before _ _ _
  | set_value mapping list i k elt log s _ _ ih =>
    rw [ih]
    exact slots_set_value _ _ _

theorem add_before_sublist (list : List node) (k : Nat) (elt : Entry) :
    list.Sublist (gl_list_add_before list k elt) := by
  induction list with
  | nil => exact List.Sublist.slnil
  | cons n rest ih =>
    unfold gl_list_add_before
    split_ifs
    · exact List.Sublist.cons _ (List.Sublist.refl _)
    · exact List.Sublist.cons₂ _ ih

theorem added_set_value (list : List node) (k : Nat) (elt : Entry) :
    added_nodes (gl_list_node_set_value list k elt) = added_nodes list := by
  unfold added_nodes gl_list_node_set_value
  induction list with
  | nil => rfl
  | cons n rest ih =>
    rw [List.map_cons, List.filter_cons, List.filter_cons, ih]
    by_cases hn : n.slot = some k
    · rw [if_pos hn]
      have h1 : ¬ n.slot = none := by rw [hn]; simp
      simp [h1]
    · rw [if_neg hn]

/-- A run keeps the added nodes: none is removed or changed, and their order stays. -/
theorem run_added (fstrcmp_bounded : Fstrcmp) (s s' : entries_mapping × List node)
    (log : List (Nat × Nat)) (h : MergeRun fstrcmp_bounded s log s') :
    (added_nodes s.2).Sublist (added_nodes s'.2) := by
  induction h with
  | done s => exact List.Sublist.refl _
  | lookup mapping list i log s _ ih => exact ih
  | add_first mapping list elt log s _ ih =>
    refine List.Sublist.trans ?_ ih
    exact List.Sublist.filter _ (List.sublist_cons_self _ _)
  | add_last mapping list elt log s _ ih =>
    refine List.Sublist.trans ?_ ih
    exact List.Sublist.filter _ (List.sublist_append_left _ _)
  | add_before mapping list k elt log s _ ih =>
    refine List.Sublist.trans ?_ ih
    exact List.Sublist.filter _ (add_before_sublist _ _ _)
  | set_value mapping list i k elt log s _ _ ih =>
    refine List.Sublist.trans ?_ ih
    dsimp only
    rw [added_set_value]

theorem nodes_of_slot_add_before (list : List node) (k q : Nat) (elt : Entry) :
    nodes_of_slot (gl_list_add_before list q elt) k = nodes_of_slot list k := by
  unfold nodes_of_slot
  induction list with
  | nil => rfl
  | cons n rest ih =>
    unfold gl_list_add_before
    split_ifs
    · rw [List.filter_cons_of_neg (by simp)]
    · rw [List.filter_cons, List.filter_cons, ih]

theorem nodes_of_slot_set_value (list : List node) (k q : Nat) (elt : Entry) (h : q ≠ k) :
    nodes_of_slot (gl_list_node_set_value list q elt) k = nodes_of_slot list k := by
  unfold nodes_of_slot gl_list_node_set_value
  induction list with
  | nil => rfl
  | cons n rest ih =>
    rw [List.map_cons, List.filter_cons, List.filter_cons, ih]
    by_cases hn : n.slot = some q
    · rw [if_pos hn]
      have h1 : ¬ n.slot = some k := by
        rw [hn]
        intro e
        exact h (Option.some.inj e)
      simp [h1, hn, h]
    · rw [if_neg hn]

/-- A run changes the node of a slot only by the calls of its log. -/
theorem run_untouched (fstrcmp_bounded : Fstrcmp) (s s' : entries_mapping × List node)
    (log : List (Nat × Nat)) (h : MergeRun fstrcmp_bounded s log s') (k : Nat)
    (hk : k ∉ log.map Prod.snd) :
    nodes_of_slot s'.2 k = nodes_of_slot s.2 k := by
  induction h with
  | done s => rfl
  | lookup mapping list i log s _ ih => exact ih hk
  | add_first mapping list elt log s _ ih =>
    rw [ih hk]
    exact List.filter_cons_of_neg (by simp)
  | add_last mapping list elt log s _ ih =>
    rw [ih hk]
    simp [nodes_of_slot, gl_list_add_last]
  | add_before mapping list q elt log s _ ih =>
    rw [ih hk]
    exact nodes_of_slot_add_before _ _ _ _
  | set_value mapping list i q elt log s _ _ ih =>
    rw [List.map_cons, List.mem_cons, not_or] at hk
    rw [ih hk.2]
    exact nodes_of_slot_set_value _ _ _ _ (fun e => hk.1 e.symm)

theorem run_mutual (fstrcmp_bounded : Fstrcmp) (s s' : entries_mapping × List node)
    (log : List (Nat × Nat)) (h : MergeRun fstrcmp_bounded s log s') (n1 n2 : Nat)
    (hinv : MutualInv n1 n2 (s.1.index_mapping, s.1.index_mapping_reverse)) :
    MutualInv n1 n2 (s'.1.index_mapping, s'.1.index_mapping_reverse) := by
  induction h with
  | done s => exact hinv
  | lookup mapping list i log s _ ih =>
    exact ih (entries_mapping_get_mutual fstrcmp_bounded mapping n1 n2 i hinv)
  | add_first mapping list elt log s _ ih => exact ih hinv
  | add_last mapping list elt log s _ ih => exact ih hinv
  | add_before mapping list k elt log s _ ih => exact ih hinv
  | set_value mapping list i k elt log s _ _ ih => exact ih hinv

/-- A run keeps every slot of `index_mapping` that holds an index. -/
theorem run_stable (fstrcmp_bounded : Fstrcmp) (s s' : entries_mapping × List node)
    (log : List (Nat × Nat)) (h : MergeRun fstrcmp_bounded s log s') (p : Nat)
    (hp : 0 ≤ s.1.index_mapping.getD p 0) :
    s'.1.index_mapping.getD p 0 = s.1.index_mapping.getD p 0 := by
  induction h with
  | done s => rfl
  | lookup mapping list i log s _ ih =>
    have hstep : (entries_mapping_get fstrcmp_bounded mapping i).2.index_mapping.getD p 0 =
        mapping.index_mapping.getD p 0 := by
      rcases entries_mapping_get_change fstrcmp_bounded mapping i p with e | ⟨-, hlt, -⟩
      · exact e
      · dsimp only at hp
        omega
    rw [ih (by dsimp only; rw [hstep]; exact hp)]
    exact hstep
  | add_first mapping list elt log s _ ih => exact ih hp
  | add_last mapping list elt log s _ ih => exact ih hp
  | add_before mapping list k elt log s _ ih => exact ih hp
  | set_value mapping list i k elt log s _ _ ih => exact ih hp

/-- The slot that a call of the log writes is the one that `index_mapping` holds, at
the end of the run, for the ancestor index of the call. -/
theorem run_log (fstrcmp_bounded : Fstrcmp) (s s' : entries_mapping × List node)
    (log : List (Nat × Nat)) (h : MergeRun fstrcmp_bounded s log s') :
    ∀ x ∈ log, s'.1.index_mapping.getD x.1 0 = (x.2 : Int) := by
  induction h with
  | done s => intro x hx; simp at hx
  | lookup mapping list i log s _ ih => exact ih
  | add_first mapping list elt log s _ ih => exact ih
  | add_last mapping list elt log s _ ih => exact ih
  | add_before mapping list k elt log s _ ih => exact ih
  | set_value mapping list i k elt log s hk hrun ih =>
    intro x hx
    rcases List.mem_cons.mp hx with rfl | hx
    · have := run_stable fstrcmp_bounded _ _ _ hrun i (by dsimp only; rw [hk]; omega)
      rw [this]
      exact hk
    · exact ih x hx

theorem initial_slots (mainstream_file : List Entry) :
    (initial_result mainstream_file).filterMap node.slot = List.range mainstream_file.length := by
  unfold initial_result
  rw [List.filterMap_map]
  have : (node.slot ∘ fun k => ({ slot := some k, value := mainstream_file.getD k [] } : node))
      = some := by
    funext k
    rfl
  rw [this, List.filterMap_some]

theorem filter_range_eq (k : Nat) :
    ∀ n, (List.range n).filter (fun i => decide (i = k)) = if k < n then [k] else [] := by
  intro n
  induction n with
  | zero => simp
  | succ n ih =>
    rw [List.range_succ, List.filter_append, ih]
    by_cases h1 : k < n
    · rw [if_pos h1, if_pos (by omega), List.filter_cons_of_neg (by simp; omega)]
      rfl
    · rw [if_neg h1]
      by_cases h2 : k = n
      · subst h2
        simp
      · rw [if_neg (by omega), List.filter_cons_of_neg (by simp; omega)]
        rfl

theorem initial_nodes_of_slot (mainstream_file : List Entry) (k : Nat)
    (hk : k < mainstream_file.length) :
    nodes_of_slot (initial_result mainstream_file) k =
      [{ slot := some k, value := mainstream_file.getD k [] }] := by
  unfold nodes_of_slot initial_result
  rw [List.filter_map]
  have : ((fun n : node => decide (n.slot = some k)) ∘
      fun k => ({ slot := some k, value := mainstream_file.getD k [] } : node)) =
      fun i => decide (i = k) := by
    funext i
    simp
  rw [this, filter_range_eq, if_pos hk]
  rfl

/-- A list whose slots are `0 .. n - 1` has a first node of slot `k`, for `k < n`. -/
theorem exists_slot (list : List node) (n k : Nat)
    (h : list.filterMap node.slot = List.range n) (hk : k < n) :
    ∃ (pre : List node) (old : Entry) (post : List node),
      list = pre ++ { slot := some k, value := old } :: post ∧
      ∀ n ∈ pre, n.slot ≠ some k := by
  have hmem : ∃ nd ∈ list, nd.slot = some k := by
    have : k ∈ list.filterMap node.slot := by
      rw [h]
      exact List.mem_range.mpr hk
    obtain ⟨nd, h1, h2⟩ := List.mem_filterMap.mp this
    exact ⟨nd, h1, h2⟩
  clear h
  induction list with
  | nil =>
    obtain ⟨nd, h1, _⟩ := hmem
    simp at h1
  | cons a rest ih =>
    by_cases ha : a.slot = some k
    · refine ⟨[], a.value, rest, ?_, by simp⟩
      rw [List.nil_append, ← ha]
    · obtain ⟨nd, h1, h2⟩ := hmem
      rcases List.mem_cons.mp h1 with rfl | h1
      · exact absurd h2 ha
      · obtain ⟨pre, old, post, e, hpre⟩ := ih ⟨nd, h1, h2⟩
        refine ⟨a :: pre, old, post, by rw [e]; rfl, ?_⟩
        intro n hn
        rcases List.mem_cons.mp hn with rfl | hn
        · exact ha
        · exact hpre n hn

theorem apply_edits_append (fstrcmp_bounded : Fstrcmp)
    (ancestor_file mainstream_file modified_file : List Entry) (diffs : differences)
    (e : edit) (es2 : List edit) :
    ∀ (es1 : List edit) (st0 st_final : merge_state),
      apply_edits fstrcmp_bounded ancestor_file mainstream_file modified_file diffs
        (es1 ++ e :: es2) st0 = some st_final →
      ∃ st st1,
        apply_edits fstrcmp_bounded ancestor_file mainstream_file modified_file diffs es1 st0
          = some st ∧
        apply_edit fstrcmp_bounded ancestor_file mainstream_file modified_file diffs e st
          = some st1 ∧
        apply_edits fstrcmp_bounded ancestor_file mainstream_file modified_file diffs es2 st1
          = some st_final := by
  intro es1
  induction es1 with
  | nil =>
    intro st0 st_final h
    rw [List.nil_append] at h
    unfold apply_edits at h
    cases he : apply_edit fstrcmp_bounded ancestor_file mainstream_file modified_file diffs e
      st0 with
    | none => rw [he] at h; simp at h
    | some st1 =>
      rw [he] at h
      exact ⟨st0, st1, by simp [apply_edits], he, h⟩
  | cons a rest ih =>
    intro st0 st_final h
    rw [List.cons_append] at h
    unfold apply_edits at h
    cases he : apply_edit fstrcmp_bounded ancestor_file mainstream_file modified_file diffs a
      st0 with
    | none => rw [he] at h; simp at h
    | some st2 =>
      rw [he] at h
      dsimp only at h
      obtain ⟨st, st1, g1, g2, g3⟩ := ih st2 st_final h
      refine ⟨st, st1, ?_, g2, g3⟩
      unfold apply_edits
      rw [he]
      exact g1

/-- A result of `entries_mapping_get` above 0 is an index of FILE2. -/
theorem entries_mapping_get_target (fstrcmp_bounded : Fstrcmp) (mapping : entries_mapping)
    (n1 n2 i : Nat)
    (hinv : MutualInv n1 n2 (mapping.index_mapping, mapping.index_mapping_reverse))
    (h : 0 < (entries_mapping_get fstrcmp_bounded mapping i).1) :
    (entries_mapping_get fstrcmp_bounded mapping i).1.toNat < n2 := by
  have hinv2 := entries_mapping_get_mutual fstrcmp_bounded mapping n1 n2 i hinv
  have e := (entries_mapping_get_files fstrcmp_bounded mapping i).2.2.2
  by_cases hi : i < n1
  · exact (hinv2.2.2.1 i _ hi (by rw [← e]; omega)).1
  · exfalso
    have hlen := hinv2.1
    dsimp only at hlen
    rw [List.getD_eq_default _ _ (by omega)] at e
    omega

/-- The case ADDITION of `main` on a list that holds every slot of the mainstream file:
either the added entries are put into the list as one block, in their order in the
modified file, and no conflict is added; or the list stays as it is and one conflict
with the added entries, in their order, is appended. -/
theorem apply_addition_step (fstrcmp_bounded : Fstrcmp)
    (ancestor_file mainstream_file modified_file : List Entry) (diffs : differences)
    (j1 j2 n1 : Nat) (st st1 : merge_state)
    (hinv : MutualInv n1 mainstream_file.length
      (st.mapping.index_mapping, st.mapping.index_mapping_reverse))
    (hslots : st.result_entries.filterMap node.slot = List.range mainstream_file.length)
    (h : apply_addition fstrcmp_bounded ancestor_file mainstream_file modified_file diffs
      j1 j2 st = some st1) :
    (∃ pre post : List node, st.result_entries = pre ++ post ∧
      st1.result_entries = pre ++ spec_new_nodes modified_file j1 j2 ++ post ∧
      st1.result_conflicts = st.result_conflicts) ∨
    (st1.result_entries = st.result_entries ∧
      st1.result_conflicts = st.result_conflicts ++
        [{ old_entries := [], modified_entries := entries_range modified_file j1 j2 }]) := by
  unfold apply_addition at h
  dsimp only at h
  by_cases hj1 : j1 = 0
  · rw [if_pos hj1] at h
    simp only [Option.some.injEq] at h
    subst h
    left
    refine ⟨[], st.result_entries, rfl, ?_, rfl⟩
    dsimp only
    rw [add_first_desc_eq, List.nil_append]
    congr 1
    unfold spec_new_nodes
    rw [List.range'_eq_map_range, List.map_map]
    rfl
  · rw [if_neg hj1] at h
    generalize (if j2 + 1 = modified_file.length then (ancestor_file.length : Int)
      else diffs.index_mapping_reverse.getD (j2 + 1) 0) = i_after at h
    obtain ⟨r_after, hra⟩ : ∃ r_after : Int × entries_mapping,
        (if i_after = (ancestor_file.length : Int) then
          ((mainstream_file.length : Int), (entries_mapping_get fstrcmp_bounded st.mapping
            (diffs.index_mapping_reverse.getD (j1 - 1) 0).toNat).2)
        else entries_mapping_get fstrcmp_bounded
          (entries_mapping_get fstrcmp_bounded st.mapping
            (diffs.index_mapping_reverse.getD (j1 - 1) 0).toNat).2 i_after.toNat) = r_after :=
      ⟨_, rfl⟩
    rw [hra] at h
    by_cases hassert : diffs.index_mapping_reverse.getD (j1 - 1) 0 ≥ 0 ∧ i_after ≥ 0 ∧
        i_after = diffs.index_mapping_reverse.getD (j1 - 1) 0 + 1
    · rw [if_neg (not_not_intro hassert)] at h
      by_cases hc : (entries_mapping_get fstrcmp_bounded st.mapping
          (diffs.index_mapping_reverse.getD (j1 - 1) 0).toNat).1 ≥ 0 ∧ r_after.1 ≥ 0 ∧
          r_after.1 = (entries_mapping_get fstrcmp_bounded st.mapping
            (diffs.index_mapping_reverse.getD (j1 - 1) 0).toNat).1 + 1
      · rw [if_pos hc] at h
        by_cases hend : r_after.1 = (mainstream_file.length : Int)
        · rw [if_pos hend] at h
          simp only [Option.some.injEq] at h
          subst h
          left
          refine ⟨st.result_entries, [], (List.append_nil _).symm, ?_, rfl⟩
          dsimp only
          rw [add_last_asc_spec, List.append_nil]
          rfl
        · rw [if_neg hend] at h
          simp only [Option.some.injEq] at h
          subst h
          left
          have hk : r_after.1.toNat < mainstream_file.length := by
            by_cases hia : i_after = (ancestor_file.length : Int)
            · rw [if_pos hia] at hra
              rw [← hra] at hend
              exact absurd rfl hend
            · rw [if_neg hia] at hra
              rw [← hra]
              apply entries_mapping_get_target fstrcmp_bounded _ n1
              · exact entries_mapping_get_mutual fstrcmp_bounded _ _ _ _ hinv
              · rw [hra]
                omega
          obtain ⟨pre, old, post, e, hpre⟩ := exists_slot _ _ _ hslots hk
          refine ⟨pre, { slot := some r_after.1.toNat, value := old } :: post, e, ?_, rfl⟩
          dsimp only
          rw [add_before_asc_spec, e, spec_insert_before_at _ _ _ _ _ hpre]
          rfl
      · rw [if_neg hc] at h
        simp only [Option.some.injEq] at h
        subst h
        right
        exact ⟨rfl, rfl⟩
    · rw [if_pos hassert] at h
      contradiction

/-- The edits of `compute_differences` lie one after the other in both files. -/
theorem edit_before_file1 (fwd rev : List Int) (e e' : edit)
    (h : spec_edit_before fwd rev e e') :
    (∀ t t' : Nat, covers_file1 e t = true → covers_file1 e' t' = true → t < t') ∧
    (∀ t t' : Nat, covers_file2 e t = true → covers_file2 e' t' = true → t < t') := by
  obtain ⟨p, q, -, -, h1, h2, h3, h4⟩ := h
  exact ⟨fun t t' a b => Nat.lt_trans (h1 t a) (h3 t' b),
    fun t t' a b => Nat.lt_trans (h2 t a) (h4 t' b)⟩

/-- The mapping that `main` starts with, the result of `compute_mapping` with `full`
false, has arrays that are inverse to each other. -/
theorem initial_mutual (fstrcmp_bounded : Fstrcmp) (ancestor_file mainstream_file : List Entry)
    (mapping0 : entries_mapping)
    (hm : compute_mapping fstrcmp_bounded ancestor_file mainstream_file false = some mapping0) :
    MutualInv ancestor_file.length mainstream_file.length
      (mapping0.index_mapping, mapping0.index_mapping_reverse) := by
  obtain ⟨m, e, hinv⟩ := compute_mapping_mutual fstrcmp_bounded ancestor_file mainstream_file
    false
  rw [hm] at e
  rw [Option.some.inj e]
  exact hinv

/-- The edits of `compute_differences` have nonempty ranges inside the files and lie one
after the other in both files. -/
theorem compute_differences_ascending (diag : Diag) (file1 file2 : List Entry)
    (hd : DiagOk diag file1 file2) (diffs : differences)
    (h : compute_differences diag file1 file2 = some diffs) :
    edits_ascending diffs.edits ∧
    diffs.edits.Pairwise (fun e e' =>
      ∀ t t' : Nat, covers_file2 e t = true → covers_file2 e' t' = true → t < t') ∧
    ∀ e ∈ diffs.edits, ∀ t, covers_file1 e t = true → t < file1.length := by
  obtain ⟨ctxt, edits, e, -, -, -, hgaps, hpw⟩ := compute_differences_gaps diag file1 file2 hd
  rw [h] at e
  have he := Option.some.inj e
  rw [he]
  dsimp only
  refine ⟨?_, ?_, ?_⟩
  · exact List.Pairwise.imp (fun hr => (edit_before_file1 _ _ _ _ hr).1) hpw
  · exact List.Pairwise.imp (fun hr => (edit_before_file1 _ _ _ _ hr).2) hpw
  · intro e he t ht
    obtain ⟨i, a, j, b, rfl, hg⟩ := hgaps e he
    rw [(spec_gap_edit_covers i a j b hg.1 hg.2.1 hg.2.2.2.2.1).1 t, decide_eq_true_eq] at ht
    have := hg.2.2.1
    omega

/-! ## Lemmas: every gap yields its edit -/

/-- A walk that starts at the top of the files, or right after a mapped pair, or before
a mapped pair, makes the edit of every gap that lies at or after its start. -/
theorem EditWalk.complete {n1 n2 : Nat} {fwd rev : List Int} {x y : Nat} {edits : List edit}
    (h : EditWalk n1 n2 fwd rev x y edits) :
    ((x = 0 ∧ y = 0) ∨
      (0 < x ∧ 0 < y ∧ fwd.getD (x - 1) 0 = ((y - 1 : Nat) : Int) ∧
        rev.getD (y - 1) 0 = ((x - 1 : Nat) : Int)) ∨
      (x = n1 ∧ y = n2) ∨
      (x < n1 ∧ y < n2 ∧ fwd.getD x 0 = (y : Int) ∧ rev.getD y 0 = (x : Int))) →
    ∀ i a j b : Nat, spec_gap n1 n2 fwd rev i a j b → x ≤ i → y ≤ j →
      spec_gap_edit i a j b ∈ edits := by
  induction h with
  | stop =>
    intro _ i a j b hg hx hy
    obtain ⟨g1, g2, g3, g4, g5, -⟩ := hg
    omega
  | pair x y edits hx hy hf hr _ ih =>
    intro _ i a j b hg hxi hyj
    obtain ⟨g1, g2, g3, g4, g5, g6, g7, g8, g9⟩ := hg
    have hlt1 : x < i := by
      by_contra hcon
      have hxe : x = i := by omega
      subst hxe
      have hia : x = a := by
        by_contra hne
        have := g6 x (le_refl _) (by omega)
        omega
      subst hia
      rcases g9 with ⟨e1, e2⟩ | ⟨e1, e2, e3, e4⟩
      · omega
      · omega
    have hlt2 : y < j := by
      by_contra hcon
      have hye : y = j := by omega
      subst hye
      rcases g5 with g5 | g5
      · have hjb : y = b := by
          by_contra hne
          have := g7 y (le_refl _) (by omega)
          omega
        subst hjb
        rcases g9 with ⟨e1, e2⟩ | ⟨e1, e2, e3, e4⟩
        · omega
        · omega
      · have := g7 y (le_refl _) g5
        omega
    exact ih (Or.inr (Or.inl ⟨by omega, by omega, by simpa using hf, by simpa using hr⟩))
      i a j b ⟨g1, g2, g3, g4, g5, g6, g7, g8, g9⟩ (by omega) (by omega)
  | gap x a' y b' edits h1 h2 h3 h4 h5 h6 h7 h8 _ ih =>
    intro hstart i a j b hg hxi hyj
    obtain ⟨g1, g2, g3, g4, g5, g6, g7, g8, g9⟩ := hg
    -- the walk stands at the top or right after a mapped pair
    have hstart2 : (x = 0 ∧ y = 0) ∨
        (0 < x ∧ 0 < y ∧ fwd.getD (x - 1) 0 = ((y - 1 : Nat) : Int) ∧
          rev.getD (y - 1) 0 = ((x - 1 : Nat) : Int)) := by
      rcases hstart with s | s | s | s
      · exact Or.inl s
      · exact Or.inr s
      · omega
      · exfalso
        rcases h5 with h5 | h5
        · have := h6 x (le_refl _) h5
          omega
        · have := h7 y (le_refl _) h5
          omega
    have hnext : (a' = 0 ∧ b' = 0) ∨
        (0 < a' ∧ 0 < b' ∧ fwd.getD (a' - 1) 0 = ((b' - 1 : Nat) : Int) ∧
          rev.getD (b' - 1) 0 = ((a' - 1 : Nat) : Int)) ∨
        (a' = n1 ∧ b' = n2) ∨
        (a' < n1 ∧ b' < n2 ∧ fwd.getD a' 0 = (b' : Int) ∧ rev.getD b' 0 = (a' : Int)) := by
      rcases h8 with s | s
      · exact Or.inr (Or.inr (Or.inl s))
      · exact Or.inr (Or.inr (Or.inr s))
    by_cases hxy : x = i ∧ y = j
    · obtain ⟨hx, hy⟩ := hxy
      subst hx
      subst hy
      have ha : a' = a := by
        rcases Nat.lt_trichotomy a' a with hlt | heq | hgt
        · exfalso
          have := g6 a' h1 hlt
          rcases h8 with ⟨e1, e2⟩ | ⟨e1, e2, e3, e4⟩
          · omega
          · omega
        · exact heq
        · exfalso
          have := h6 a g1 hgt
          rcases g9 with ⟨e1, e2⟩ | ⟨e1, e2, e3, e4⟩
          · omega
          · omega
      have hb : b' = b := by
        rcases Nat.lt_trichotomy b' b with hlt | heq | hgt
        · exfalso
          have := g7 b' h2 hlt
          rcases h8 with ⟨e1, e2⟩ | ⟨e1, e2, e3, e4⟩
          · omega
          · omega
        · exact heq
        · exfalso
          have := h7 b g2 hgt
          rcases g9 with ⟨e1, e2⟩ | ⟨e1, e2, e3, e4⟩
          · omega
          · omega
      subst ha
      subst hb
      exact List.mem_cons_self _ _
    · apply List.mem_cons_of_mem
      -- the gap starts right after a mapped pair that lies after the start of the walk
      have hpair : 0 < i ∧ 0 < j ∧ fwd.getD (i - 1) 0 = ((j - 1 : Nat) : Int) ∧
          rev.getD (j - 1) 0 = ((i - 1 : Nat) : Int) := by
        rcases g8 with s | s
        · omega
        · exact s
      obtain ⟨p1, p2, p3, p4⟩ := hpair
      have hlt : x < i ∧ y < j := by
        by_cases hx : x = i
        · subst hx
          exfalso
          rcases hstart2 with s | ⟨s1, s2, s3, s4⟩
          · omega
          · omega
        · by_cases hy : y = j
          · subst hy
            exfalso
            rcases hstart2 with s | ⟨s1, s2, s3, s4⟩
            · omega
            · omega
          · omega
      have ha : a' ≤ i - 1 := by
        by_contra hcon
        have := h6 (i - 1) (by omega) (by omega)
        omega
      have hb : b' ≤ j - 1 := by
        by_contra hcon
        have := h7 (j - 1) (by omega) (by omega)
        omega
      exact ih hnext i a j b ⟨g1, g2, g3, g4, g5, g6, g7, g8, g9⟩ (by omega) (by omega)

/-- An edit of a gap is not before itself. -/
theorem spec_edit_before_irrefl (fwd rev : List Int) (i a j b : Nat) (hia : i ≤ a)
    (hjb : j ≤ b) (hne : i < a ∨ j < b) :
    ¬ spec_edit_before fwd rev (spec_gap_edit i a j b) (spec_gap_edit i a j b) := by
  rintro ⟨p, q, -, -, c1, c2, c3, c4⟩
  obtain ⟨k1, k2⟩ := spec_gap_edit_covers i a j b hia hjb hne
  rcases hne with h | h
  · have hc : covers_file1 (spec_gap_edit i a j b) i = true := by
      rw [k1, decide_eq_true_eq]
      omega
    have := c1 i hc
    have := c3 i hc
    omega
  · have hc : covers_file2 (spec_gap_edit i a j b) j = true := by
      rw [k2, decide_eq_true_eq]
      omega
    have := c2 j hc
    have := c4 j hc
    omega

/-- With a midpoint search that stays in its window and makes progress, the edits of
`compute_differences` are the edits of the gaps between consecutive mapped pairs: every
edit is the edit of a gap, every gap has its edit in the list, no edit stands twice in
the list, and the edits come in the order of their positions. -/
theorem compute_differences_all_gaps (diag : Diag) (file1 file2 : List Entry)
    (hd : DiagOk diag file1 file2) :
    ∃ (ctxt : List Int × List Int) (edits : List edit),
      compute_differences diag file1 file2 =
        some { index_mapping := ctxt.1, index_mapping_reverse := ctxt.2, edits := edits } ∧
      (∀ e ∈ edits, ∃ i a j b : Nat, e = spec_gap_edit i a j b ∧
        spec_gap file1.length file2.length ctxt.1 ctxt.2 i a j b) ∧
      (∀ i a j b : Nat, spec_gap file1.length file2.length ctxt.1 ctxt.2 i a j b →
        edits.count (spec_gap_edit i a j b) = 1) ∧
      edits.Pairwise (spec_edit_before ctxt.1 ctxt.2) := by
  obtain ⟨ctxt, edits, hdiff, hl1, hl2, cpath, he⟩ := compute_differences_path diag file1 file2 hd
  obtain ⟨edits1, he1, hwalk⟩ := create_edits_walk file1 file2 ctxt
    (file1.length + file2.length + 1) 0 0 (by omega) cpath
  have hsame : edits1 = edits := Option.some.inj (he1.symm.trans he)
  subst hsame
  have hgaps := hwalk.gaps (Or.inl ⟨rfl, rfl⟩)
  have hord := hwalk.ordered
  refine ⟨ctxt, edits1, hdiff, hgaps, ?_, hord⟩
  intro i a j b hg
  have hmem := hwalk.complete (Or.inl ⟨rfl, rfl⟩) i a j b hg (Nat.zero_le _) (Nat.zero_le _)
  have hnodup : edits1.Nodup := by
    unfold List.Nodup
    refine List.Pairwise.imp_of_mem ?_ hord
    intro e e' hm _ hbefore heq
    subst heq
    obtain ⟨i', a', j', b', rfl, hg'⟩ := hgaps e hm
    exact spec_edit_before_irrefl _ _ _ _ _ _ hg'.1 hg'.2.1 hg'.2.2.2.2.1 hbefore
  exact List.count_eq_one_of_mem hnodup hmem

/-! ## Lemmas: the bindings made by the lookups -/

/-- What the lookups of the merge do to the mapping left by `compute_mapping`: a slot of
`index_mapping_reverse` that holds an index keeps it, and a slot of `index_mapping` that
holds an index either held it from the start or was bound to a position of FILE2 that
was free at the start. -/
theorem looked_bindings (fstrcmp_bounded : Fstrcmp) (mapping0 mapping : entries_mapping)
    (h : Looked fstrcmp_bounded mapping0 mapping) :
    (∀ q, 0 ≤ mapping0.index_mapping_reverse.getD q 0 →
      mapping.index_mapping_reverse.getD q 0 = mapping0.index_mapping_reverse.getD q 0) ∧
    (∀ (p j : Nat), mapping.index_mapping.getD p 0 = (j : Int) →
      mapping0.index_mapping.getD p 0 = (j : Int) ∨
        mapping0.index_mapping_reverse.getD j 0 < 0) := by
  induction h with
  | start => exact ⟨fun _ _ => rfl, fun _ _ hj => Or.inl hj⟩
  | lookup m i _ ih =>
    obtain ⟨ih1, ih2⟩ := ih
    rcases entries_mapping_get_cases fstrcmp_bounded m i with
      ⟨-, e⟩ | ⟨-, j', -, -, hrev, e⟩ | ⟨-, e⟩
    · rw [e]
      exact ⟨ih1, ih2⟩
    · rw [e]
      dsimp only
      have hfree : mapping0.index_mapping_reverse.getD j' 0 < 0 := by
        by_contra hcon
        have := ih1 j' (by omega)
        omega
      constructor
      · intro q hq
        rw [getD_set_int]
        by_cases hc : j' = q ∧ j' < m.index_mapping_reverse.length
        · exfalso
          obtain ⟨hc1, -⟩ := hc
          subst hc1
          omega
        · rw [if_neg hc]
          exact ih1 q hq
      · intro p j hj
        rw [getD_set_int] at hj
        by_cases hc : i = p ∧ i < m.index_mapping.length
        · rw [if_pos hc] at hj
          have hjj : j' = j := by omega
          subst hjj
          exact Or.inr hfree
        · rw [if_neg hc] at hj
          exact ih2 p j hj
    · rw [e]
      dsimp only
      refine ⟨ih1, ?_⟩
      intro p j hj
      rw [getD_set_int] at hj
      by_cases hc : i = p ∧ i < m.index_mapping.length
      · rw [if_pos hc] at hj
        omega
      · rw [if_neg hc] at hj
        exact ih2 p j hj

theorem count_eq_zero_of_getD (l : List Entry) (e : Entry)
    (h : ∀ k, k < l.length → l.getD k [] ≠ e) : l.count e = 0 := by
  rw [List.count_eq_zero]
  intro hmem
  obtain ⟨k, hk, hke⟩ := List.mem_iff_getElem.mp hmem
  apply h k hk
  rw [List.getD_eq_getElem?_getD, List.getElem?_eq_getElem hk]
  exact hke

/-! ## Lemmas: a shortest edit script gives a minimal diff -/

theorem spec_lcs_nil_right (l : List Entry) : spec_lcs l [] = 0 := by
  cases l with
  | nil => rfl
  | cons a as => rfl

theorem spec_lcs_cons (a b : Entry) (as bs : List Entry) :
    spec_lcs (a :: as) (b :: bs) =
      if a = b then spec_lcs as bs + 1
      else max (spec_lcs as (b :: bs)) (spec_lcs (a :: as) bs) := rfl

/-- No common subsequence is longer than `spec_lcs`. -/
theorem spec_lcs_upper : ∀ (as bs s : List Entry), s.Sublist as → s.Sublist bs →
    s.length ≤ spec_lcs as bs := by
  intro as
  induction as with
  | nil =>
    intro bs s h1 _
    rw [List.sublist_nil] at h1
    rw [h1]
    exact Nat.zero_le _
  | cons a as iha =>
    intro bs
    induction bs with
    | nil =>
      intro s _ h2
      rw [List.sublist_nil] at h2
      rw [h2]
      exact Nat.zero_le _
    | cons b bs ihb =>
      intro s h1 h2
      rw [spec_lcs_cons]
      by_cases hab : a = b
      · rw [if_pos hab]
        cases s with
        | nil => exact Nat.zero_le _
        | cons c s' =>
          have t1 : s'.Sublist as := by
            cases h1 with
            | cons _ h => exact (List.sublist_cons_self c s').trans h
            | cons₂ _ h => exact h
          have t2 : s'.Sublist bs := by
            cases h2 with
            | cons _ h => exact (List.sublist_cons_self c s').trans h
            | cons₂ _ h => exact h
          have := iha bs s' t1 t2
          simp only [List.length_cons]
          omega
      · rw [if_neg hab]
        cases h1 with
        | cons _ h =>
          exact le_trans (iha (b :: bs) s h h2) (le_max_left _ _)
        | cons₂ _ h =>
          cases h2 with
          | cons _ h' =>
            exact le_trans (ihb _ (List.Sublist.cons₂ _ h) h') (le_max_right _ _)
          | cons₂ _ h' => exact absurd rfl hab

/-- Some common subsequence has the length `spec_lcs`. -/
theorem spec_lcs_attained : ∀ (as bs : List Entry),
    ∃ s : List Entry, s.Sublist as ∧ s.Sublist bs ∧ s.length = spec_lcs as bs := by
  intro as
  induction as with
  | nil => intro bs; exact ⟨[], List.Sublist.slnil, List.nil_sublist _, rfl⟩
  | cons a as iha =>
    intro bs
    induction bs with
    | nil => exact ⟨[], List.nil_sublist _, List.Sublist.slnil, rfl⟩
    | cons b bs ihb =>
      rw [spec_lcs_cons]
      by_cases hab : a = b
      · rw [if_pos hab]
        obtain ⟨s, h1, h2, h3⟩ := iha bs
        refine ⟨a :: s, List.Sublist.cons₂ _ h1, ?_, by simp [h3]⟩
        rw [← hab]
        exact List.Sublist.cons₂ _ h2
      · rw [if_neg hab]
        by_cases hm : spec_lcs (a :: as) bs ≤ spec_lcs as (b :: bs)
        · obtain ⟨s, h1, h2, h3⟩ := iha (b :: bs)
          exact ⟨s, List.Sublist.cons _ h1, h2, by rw [h3, max_eq_left hm]⟩
        · obtain ⟨s, h1, h2, h3⟩ := ihb
          exact ⟨s, h1, List.Sublist.cons _ h2, by rw [h3, max_eq_right (by omega)]⟩

theorem dropLast_sublist_of_concat (s l : List Entry) (a : Entry)
    (h : s.Sublist (l ++ [a])) : s.dropLast.Sublist l := by
  obtain ⟨s1, s2, e, h1, h2⟩ := List.sublist_append_iff.mp h
  cases s2 with
  | nil =>
    rw [e, List.append_nil]
    exact (List.dropLast_sublist s1).trans h1
  | cons c rest =>
    have hlen := h2.length_le
    simp only [List.length_cons, List.length_nil] at hlen
    have hr : rest = [] := List.length_eq_zero.mp (by omega)
    subst hr
    rw [e, List.dropLast_concat]
    exact h1

/-- A common last entry adds one to `spec_lcs`. -/
theorem spec_lcs_concat (as bs : List Entry) (a : Entry) :
    spec_lcs (as ++ [a]) (bs ++ [a]) = spec_lcs as bs + 1 := by
  apply le_antisymm
  · obtain ⟨s, h1, h2, h3⟩ := spec_lcs_attained (as ++ [a]) (bs ++ [a])
    have := spec_lcs_upper as bs s.dropLast (dropLast_sublist_of_concat _ _ _ h1)
      (dropLast_sublist_of_concat _ _ _ h2)
    rw [List.length_dropLast] at this
    omega
  · obtain ⟨s, h1, h2, h3⟩ := spec_lcs_attained as bs
    have := spec_lcs_upper (as ++ [a]) (bs ++ [a]) (s ++ [a])
      (List.Sublist.append h1 (List.Sublist.refl _))
      (List.Sublist.append h2 (List.Sublist.refl _))
    simp only [List.length_append, List.length_singleton] at this
    omega

theorem spec_window_empty (l : List Entry) (lo hi : Nat) (h : hi ≤ lo) :
    spec_window l lo hi = [] := by
  unfold spec_window
  rw [show hi - lo = 0 by omega, List.take_zero]

theorem spec_window_all (l : List Entry) : spec_window l 0 l.length = l := by
  unfold spec_window
  rw [List.drop_zero, Nat.sub_zero, List.take_length]

theorem spec_window_cons (l : List Entry) (lo hi : Nat) (h1 : lo < hi) (h2 : hi ≤ l.length) :
    spec_window l lo hi = l.getD lo [] :: spec_window l (lo + 1) hi := by
  unfold spec_window
  have hlo : lo < l.length := by omega
  rw [List.drop_eq_getElem_cons hlo, show hi - lo = (hi - (lo + 1)) + 1 by omega,
    List.take_succ_cons, List.getD_eq_getElem?_getD, List.getElem?_eq_getElem hlo]
  rfl

theorem spec_window_concat (l : List Entry) (lo hi : Nat) (h1 : lo < hi) (h2 : hi ≤ l.length) :
    spec_window l lo hi = spec_window l lo (hi - 1) ++ [l.getD (hi - 1) []] := by
  unfold spec_window
  have hlen : hi - 1 - lo < (l.drop lo).length := by
    rw [List.length_drop]
    omega
  rw [show hi - lo = (hi - 1 - lo) + 1 by omega, List.take_succ,
    List.getElem?_eq_getElem hlen, List.getElem_drop]
  have hidx : lo + (hi - 1 - lo) = hi - 1 := by omega
  simp only [hidx, Option.toList_some]
  rw [List.getD_eq_getElem?_getD, List.getElem?_eq_getElem (by omega)]
  rfl

/-- A common run of `c` entries at the start of the two windows adds `c` to `spec_lcs`. -/
theorem spec_lcs_front (xv yv : List Entry) (xlim ylim : Nat) (hxl : xlim ≤ xv.length)
    (hyl : ylim ≤ yv.length) :
    ∀ (c xoff yoff : Nat), xoff + c ≤ xlim → yoff + c ≤ ylim →
      (∀ t, t < c → xv.getD (xoff + t) [] = yv.getD (yoff + t) []) →
      spec_lcs (spec_window xv xoff xlim) (spec_window yv yoff ylim) =
        c + spec_lcs (spec_window xv (xoff + c) xlim) (spec_window yv (yoff + c) ylim) := by
  intro c
  induction c with
  | zero => intro xoff yoff _ _ _; simp
  | succ c ih =>
    intro xoff yoff hx hy heq
    rw [spec_window_cons xv xoff xlim (by omega) hxl,
      spec_window_cons yv yoff ylim (by omega) hyl, spec_lcs_cons,
      if_pos (by simpa using heq 0 (by omega)),
      ih (xoff + 1) (yoff + 1) (by omega) (by omega)
        (fun t ht => by
          have := heq (t + 1) (by omega)
          rw [show xoff + 1 + t = xoff + (t + 1) by omega,
            show yoff + 1 + t = yoff + (t + 1) by omega]
          exact this)]
    rw [show xoff + 1 + c = xoff + (c + 1) by omega,
      show yoff + 1 + c = yoff + (c + 1) by omega]
    omega

/-- A common run of `c` entries at the end of the two windows adds `c` to `spec_lcs`. -/
theorem spec_lcs_back (xv yv : List Entry) (xoff yoff : Nat) :
    ∀ (c xlim ylim : Nat), xlim ≤ xv.length → ylim ≤ yv.length →
      xoff + c ≤ xlim → yoff + c ≤ ylim →
      (∀ t, t < c → xv.getD (xlim - c + t) [] = yv.getD (ylim - c + t) []) →
      spec_lcs (spec_window xv xoff xlim) (spec_window yv yoff ylim) =
        spec_lcs (spec_window xv xoff (xlim - c)) (spec_window yv yoff (ylim - c)) + c := by
  intro c
  induction c with
  | zero => intro xlim ylim _ _ _ _ _; simp
  | succ c ih =>
    intro xlim ylim hxl hyl hx hy heq
    have hlast : xv.getD (xlim - 1) [] = yv.getD (ylim - 1) [] := by
      have := heq c (by omega)
      rw [show xlim - (c + 1) + c = xlim - 1 by omega,
        show ylim - (c + 1) + c = ylim - 1 by omega] at this
      exact this
    rw [spec_window_concat xv xoff xlim (by omega) hxl,
      spec_window_concat yv yoff ylim (by omega) hyl, hlast, spec_lcs_concat,
      ih (xlim - 1) (ylim - 1) (by omega) (by omega) (by omega) (by omega)
        (fun t ht => by
          have := heq t (by omega)
          rw [show xlim - 1 - c + t = xlim - (c + 1) + t by omega,
            show ylim - 1 - c + t = ylim - (c + 1) + t by omega]
          exact this)]
    rw [show xlim - 1 - c = xlim - (c + 1) by omega,
      show ylim - 1 - c = ylim - (c + 1) by omega]
    omega

/-- The first loop of `compareseq` stops before a pair of entries that differ. -/
theorem slide_down_stop (xv yv : List Entry) (xlim ylim : Nat) :
    ∀ (fuel xoff yoff : Nat), xlim - xoff ≤ fuel →
      (slide_down xv yv xlim ylim fuel xoff yoff).1 < xlim →
      (slide_down xv yv xlim ylim fuel xoff yoff).2 < ylim →
      xv.getD (slide_down xv yv xlim ylim fuel xoff yoff).1 [] ≠
        yv.getD (slide_down xv yv xlim ylim fuel xoff yoff).2 [] := by
  intro fuel
  induction fuel with
  | zero =>
    intro xoff yoff hf h1 _
    simp only [slide_down] at h1
    omega
  | succ fuel ih =>
    intro xoff yoff hf
    unfold slide_down
    split_ifs with hc
    · exact ih (xoff + 1) (yoff + 1) (by omega)
    · intro h1 h2 heq
      apply hc
      exact ⟨h1, h2, (entry_equals_iff _ _).mpr heq⟩

/-- The second loop of `compareseq` stops after a pair of entries that differ. -/
theorem slide_up_stop (xv yv : List Entry) (xoff yoff : Nat) :
    ∀ (fuel xlim ylim : Nat), xlim - xoff ≤ fuel →
      xoff < (slide_up xv yv xoff yoff fuel xlim ylim).1 →
      yoff < (slide_up xv yv xoff yoff fuel xlim ylim).2 →
      xv.getD ((slide_up xv yv xoff yoff fuel xlim ylim).1 - 1) [] ≠
        yv.getD ((slide_up xv yv xoff yoff fuel xlim ylim).2 - 1) [] := by
  intro fuel
  induction fuel with
  | zero =>
    intro xlim ylim hf h1 _
    simp only [slide_up] at h1
    omega
  | succ fuel ih =>
    intro xlim ylim hf
    unfold slide_up
    split_ifs with hc
    · exact ih (xlim - 1) (ylim - 1) (by omega)
    · intro h1 h2 heq
      apply hc
      exact ⟨h1, h2, (entry_equals_iff _ _).mpr heq⟩

theorem kept_count_split (marks : List Int) (lo mid hi : Nat) (h1 : lo ≤ mid) (h2 : mid ≤ hi) :
    kept_count marks lo hi = kept_count marks lo mid + kept_count marks mid hi := by
  unfold kept_count
  have e := List.range'_append_1 lo (mid - lo) (hi - mid)
  rw [show lo + (mid - lo) = mid by omega,
    show hi - mid + (mid - lo) = hi - lo by omega] at e
  rw [← e, List.countP_append]

theorem kept_count_congr (marks marks' : List Int) (lo hi : Nat)
    (h : ∀ i, lo ≤ i → i < hi → marks'.getD i 0 = marks.getD i 0) :
    kept_count marks' lo hi = kept_count marks lo hi := by
  unfold kept_count
  apply List.countP_congr
  intro i hi'
  rw [List.mem_range'_1] at hi'
  rw [h i hi'.1 (by omega)]

theorem kept_count_all (marks : List Int) (lo hi : Nat)
    (h : ∀ i, lo ≤ i → i < hi → 0 ≤ marks.getD i 0) :
    kept_count marks lo hi = hi - lo := by
  unfold kept_count
  rw [List.countP_eq_length.mpr, List.length_range']
  intro i hi'
  rw [List.mem_range'_1] at hi'
  simp only [decide_eq_true_eq]
  exact h i hi'.1 (by omega)

theorem kept_count_none (marks : List Int) (lo hi : Nat)
    (h : ∀ i, lo ≤ i → i < hi → marks.getD i 0 < 0) :
    kept_count marks lo hi = 0 := by
  unfold kept_count
  rw [List.countP_eq_zero]
  intro i hi'
  rw [List.mem_range'_1] at hi'
  have := h i hi'.1 (by omega)
  simp only [decide_eq_true_eq]
  omega

/-- With a midpoint search that makes progress and gives points on a shortest edit
script, `compareseq` leaves unmarked, in its window of FILE1, as many entries as a
longest common subsequence of the two windows has. -/
theorem compareseq_lcs (diag : Diag) (xv yv : List Entry) (hd : DiagOk diag xv yv)
    (hs : DiagShortest diag xv yv) :
    ∀ (fuel xoff xlim yoff ylim : Nat) (ctxt : List Int × List Int),
      xoff ≤ xlim → yoff ≤ ylim → xlim ≤ xv.length → ylim ≤ yv.length →
      ctxt.1.length = xv.length → ctxt.2.length = yv.length →
      (xlim - xoff) + (ylim - yoff) < fuel →
      (∀ i, xoff ≤ i → i < xlim → ctxt.1.getD i 0 ≥ 0) →
      (∀ j, yoff ≤ j → j < ylim → ctxt.2.getD j 0 ≥ 0) →
      ∃ ctxt1, compareseq diag xv yv fuel xoff xlim yoff ylim ctxt = some ctxt1 ∧
        kept_count ctxt1.1 xoff xlim =
          spec_lcs (spec_window xv xoff xlim) (spec_window yv yoff ylim) := by
  intro fuel
  induction fuel with
  | zero => intro _ _ _ _ _ _ _ _ _ _ _ h; omega
  | succ fuel ih =>
    intro xoff xlim yoff ylim ctxt hx hy hxl hyl hl1 hl2 hfuel hz1 hz2
    obtain ⟨a, ha, ha1, ha2, ha3⟩ := slide_down_spec xv yv xlim ylim (xlim - xoff) xoff yoff hx hy
    obtain ⟨b, hb, hb1, hb2, hb3⟩ := slide_up_spec xv yv (xoff + a) (yoff + a)
      (xlim - (xoff + a)) xlim ylim ha1 ha2
    have hl : spec_lcs (spec_window xv xoff xlim) (spec_window yv yoff ylim) =
        a + (spec_lcs (spec_window xv (xoff + a) (xlim - b))
          (spec_window yv (yoff + a) (ylim - b)) + b) := by
      rw [spec_lcs_front xv yv xlim ylim hxl hyl a xoff yoff ha1 ha2 ha3,
        spec_lcs_back xv yv (xoff + a) (yoff + a) b xlim ylim hxl hyl hb1 hb2 hb3]
    have hk : ∀ marks : List Int,
        (∀ i, ¬ (xoff + a ≤ i ∧ i < xlim - b) → marks.getD i 0 = ctxt.1.getD i 0) →
        kept_count marks xoff xlim = a + (kept_count marks (xoff + a) (xlim - b) + b) := by
      intro marks hm
      rw [kept_count_split marks xoff (xoff + a) xlim (by omega) (by omega),
        kept_count_split marks (xoff + a) (xlim - b) xlim (by omega) (by omega),
        kept_count_all marks xoff (xoff + a)
          (fun i h1 h2 => by rw [hm i (by omega)]; exact hz1 i (by omega) (by omega)),
        kept_count_all marks (xlim - b) xlim
          (fun i h1 h2 => by rw [hm i (by omega)]; exact hz1 i (by omega) (by omega))]
      omega
    by_cases h1 : xoff + a = xlim - b
    · -- the rest of FILE2 is inserted
      rw [compareseq_insert diag xv yv fuel xoff xlim yoff ylim ctxt _ _ ha hb h1]
      refine ⟨_, rfl, ?_⟩
      dsimp only
      rw [hk ctxt.1 (fun _ _ => rfl), hl,
        kept_count_none ctxt.1 (xoff + a) (xlim - b) (fun i h1' h2' => by omega),
        spec_window_empty xv (xoff + a) (xlim - b) (by omega)]
      rfl
    · by_cases h2 : yoff + a = ylim - b
      · -- the rest of FILE1 is deleted
        rw [compareseq_delete diag xv yv fuel xoff xlim yoff ylim ctxt _ _ ha hb h1 h2]
        have hg : ∀ i, (note_range (xlim - b - (xoff + a)) (xoff + a) ctxt.1).getD i 0 =
            if xoff + a ≤ i ∧ i < xlim - b then -1 else ctxt.1.getD i 0 := by
          intro i
          rw [note_range_getD]
          by_cases hi : xoff + a ≤ i ∧ i < xlim - b
          · rw [if_pos hi, if_pos ⟨hi.1, by omega, by omega⟩]
          · rw [if_neg hi, if_neg (fun h => hi ⟨h.1, by omega⟩)]
        refine ⟨_, rfl, ?_⟩
        dsimp only
        rw [hk _ (fun i hi => by rw [hg, if_neg hi]), hl,
          kept_count_none _ (xoff + a) (xlim - b)
            (fun i h1' h2' => by rw [hg, if_pos ⟨h1', h2'⟩]; omega),
          spec_window_empty yv (yoff + a) (ylim - b) (by omega), spec_lcs_nil_right]
      · -- the window is cut at the midpoint
        obtain ⟨d1, d2, d3, d4, d5, d6⟩ := hd (xoff + a) (xlim - b) (yoff + a) (ylim - b)
          (by omega) (by omega) (by omega) (by omega)
        have hne1 : xv.getD (xoff + a) [] ≠ yv.getD (yoff + a) [] := by
          have := slide_down_stop xv yv xlim ylim (xlim - xoff) xoff yoff (le_refl _)
          simp only [ha] at this
          exact this (by omega) (by omega)
        have hne2 : xv.getD (xlim - b - 1) [] ≠ yv.getD (ylim - b - 1) [] := by
          have := slide_up_stop xv yv (xoff + a) (yoff + a) (xlim - (xoff + a)) xlim ylim
            (le_refl _)
          simp only [hb] at this
          exact this (by omega) (by omega)
        have hsplit := hs (xoff + a) (xlim - b) (yoff + a) (ylim - b) (by omega) (by omega)
          (by omega) (by omega) hne1 hne2
        rw [compareseq_split diag xv yv fuel xoff xlim yoff ylim ctxt _ _ _ ha hb h1 h2 rfl]
        generalize diag xv yv (xoff + a) (xlim - b) (yoff + a) (ylim - b) = part
          at d1 d2 d3 d4 d5 d6 hsplit
        obtain ⟨c1, e1, k1⟩ := ih (xoff + a) part.1 (yoff + a) part.2 ctxt
          d1 d3 (by omega) (by omega) hl1 hl2 (by omega)
          (fun i h1 h2 => hz1 i (by omega) (by omega))
          (fun j h1 h2 => hz2 j (by omega) (by omega))
        obtain ⟨c1', e1', l11, l12, f11, f12, -⟩ := compareseq_path diag xv yv hd fuel
          (xoff + a) part.1 (yoff + a) part.2 ctxt
          d1 d3 (by omega) (by omega) hl1 hl2 (by omega)
          (fun i h1 h2 => hz1 i (by omega) (by omega))
          (fun j h1 h2 => hz2 j (by omega) (by omega))
        have hc1 : c1' = c1 := Option.some.inj (e1'.symm.trans e1)
        subst hc1
        have hz1' : ∀ i, part.1 ≤ i → i < xlim - b → c1'.1.getD i 0 ≥ 0 := by
          intro i h1 h2
          rcases f11 i with h | ⟨_, h, _⟩
          · rw [h]; exact hz1 i (by omega) (by omega)
          · omega
        have hz2' : ∀ j, part.2 ≤ j → j < ylim - b → c1'.2.getD j 0 ≥ 0 := by
          intro j h1 h2
          rcases f12 j with h | ⟨_, h, _⟩
          · rw [h]; exact hz2 j (by omega) (by omega)
          · omega
        obtain ⟨c2, e2, k2⟩ := ih part.1 (xlim - b) part.2 (ylim - b) c1'
          d2 d4 (by omega) (by omega) l11 l12 (by omega) hz1' hz2'
        obtain ⟨c2', e2', -, -, f21, -, -⟩ := compareseq_path diag xv yv hd fuel
          part.1 (xlim - b) part.2 (ylim - b) c1'
          d2 d4 (by omega) (by omega) l11 l12 (by omega) hz1' hz2'
        have hc2 : c2' = c2 := Option.some.inj (e2'.symm.trans e2)
        subst hc2
        simp only
        rw [e1]
        simp only
        rw [e2]
        refine ⟨c2', rfl, ?_⟩
        have hout : ∀ i, ¬ (xoff + a ≤ i ∧ i < xlim - b) →
            c2'.1.getD i 0 = ctxt.1.getD i 0 := by
          intro i hi
          rcases f21 i with h | ⟨h1, h2, _⟩
          · rcases f11 i with h' | ⟨h1', h2', _⟩
            · rw [h, h']
            · exact absurd ⟨h1', by omega⟩ hi
          · exact absurd ⟨by omega, h2⟩ hi
        have hleft : ∀ i, xoff + a ≤ i → i < part.1 → c2'.1.getD i 0 = c1'.1.getD i 0 := by
          intro i _ h2
          rcases f21 i with h | ⟨h1, _, _⟩
          · exact h
          · omega
        rw [hk c2'.1 hout, hl, hsplit,
          kept_count_split c2'.1 (xoff + a) part.1 (xlim - b) d1 d2, k2,
          kept_count_congr c1'.1 c2'.1 (xoff + a) part.1 hleft, k1]

/-- The loop that completes the two arrays leaves a value that is not negative in every
slot of `index_mapping` that was not marked. -/
theorem complete_mapping_nonneg (n1 n2 : Nat) :
    ∀ (fuel i j : Nat) (ctxt ctxt1 : List Int × List Int),
      complete_mapping n1 n2 fuel i j ctxt = some ctxt1 →
      ∀ t, 0 ≤ ctxt.1.getD t 0 → 0 ≤ ctxt1.1.getD t 0 := by
  intro fuel
  induction fuel with
  | zero =>
    intro i j ctxt ctxt1 h
    simp only [complete_mapping] at h
    cases h
  | succ fuel ih =>
    intro i j ctxt ctxt1 h t ht
    unfold complete_mapping at h
    dsimp only at h
    split_ifs at h with c1 c2 c3
    · rw [← Option.some.inj h]
      exact ht
    · refine ih _ _ _ ctxt1 h t ?_
      dsimp only
      rw [getD_set_int]
      split_ifs
      · omega
      · exact ht
    · rw [← Option.some.inj h]
      exact ht

/-- The entries at strictly increasing positions of a list form a sublist of it. -/
theorem increasing_positions_sublist :
    ∀ (l : List Entry) (k : Nat) (positions : List Nat),
      positions.Pairwise (fun a b => a < b) →
      (∀ i ∈ positions, k ≤ i ∧ i < k + l.length) →
      (positions.map (fun i => l.getD (i - k) [])).Sublist l := by
  intro l
  induction l with
  | nil =>
    intro k positions _ hb
    cases positions with
    | nil => exact List.Sublist.slnil
    | cons i rest =>
      have := hb i (List.mem_cons_self _ _)
      simp only [List.length_nil] at this
      omega
  | cons a l ih =>
    intro k positions hp hb
    cases positions with
    | nil => exact List.nil_sublist _
    | cons i rest =>
      have hrest : ∀ i' ∈ rest, i < i' := fun i' hi' => List.rel_of_pairwise_cons hp hi'
      have hshift : ∀ (ps : List Nat), (∀ i' ∈ ps, k + 1 ≤ i' ∧ i' < k + (a :: l).length) →
          ps.map (fun i => (a :: l).getD (i - k) []) =
            ps.map (fun i => l.getD (i - (k + 1)) []) := by
        intro ps hps
        apply List.map_congr_left
        intro i' hi'
        have := hps i' hi'
        rw [show i' - k = (i' - (k + 1)) + 1 by omega]
        rfl
      by_cases hik : i = k
      · subst hik
        rw [List.map_cons, Nat.sub_self, hshift rest (fun i' hi' => by
          have := hrest i' hi'
          have := hb i' (List.mem_cons_of_mem _ hi')
          omega)]
        refine List.Sublist.cons₂ _ (ih (i + 1) rest (List.Pairwise.of_cons hp) ?_)
        intro i' hi'
        have := hrest i' hi'
        have := hb i' (List.mem_cons_of_mem _ hi')
        simp only [List.length_cons] at this
        omega
      · have hall : ∀ i' ∈ i :: rest, k + 1 ≤ i' ∧ i' < k + (a :: l).length := by
          intro i' hi'
          have h1 := hb i (List.mem_cons_self _ _)
          have h2 := hb i' hi'
          rcases List.mem_cons.mp hi' with rfl | hi'
          · omega
          · have := hrest i' hi'
            omega
        rw [hshift _ hall]
        refine List.Sublist.cons _ (ih (k + 1) (i :: rest) hp ?_)
        intro i' hi'
        have := hall i' hi'
        simp only [List.length_cons] at this
        omega

/-- A common subsequence given by its pairs of positions is not longer than a longest
common subsequence. -/
theorem spec_common_le_lcs (file1 file2 : List Entry) (m : List (Nat × Nat))
    (h : spec_common file1 file2 m) : m.length ≤ spec_lcs file1 file2 := by
  obtain ⟨hpw, hall⟩ := h
  have h1 := increasing_positions_sublist file1 0 (m.map Prod.fst)
    (by rw [List.pairwise_map]; exact hpw.imp (fun hxy => hxy.1))
    (by
      intro i hi
      obtain ⟨x, hx, rfl⟩ := List.mem_map.mp hi
      have := (hall x hx).1
      omega)
  have h2 := increasing_positions_sublist file2 0 (m.map Prod.snd)
    (by rw [List.pairwise_map]; exact hpw.imp (fun hxy => hxy.2))
    (by
      intro i hi
      obtain ⟨x, hx, rfl⟩ := List.mem_map.mp hi
      have := (hall x hx).2.1
      omega)
  rw [List.map_map] at h1 h2
  have heq : m.map ((fun i => file1.getD (i - 0) []) ∘ Prod.fst) =
      m.map ((fun i => file2.getD (i - 0) []) ∘ Prod.snd) := by
    apply List.map_congr_left
    intro x hx
    simp only [Function.comp, Nat.sub_zero]
    exact (hall x hx).2.2
  rw [heq] at h1
  have := spec_lcs_upper file1 file2 _ h1 h2
  rw [List.length_map] at this
  exact this

/-- With a midpoint search that makes progress and gives points on a shortest edit
script, the diff of `compute_differences` is minimal: no common subsequence of the two
files has more pairs than `index_mapping` has mapped positions. -/
theorem compute_differences_minimal (diag : Diag) (file1 file2 : List Entry)
    (hd : DiagOk diag file1 file2) (hs : DiagShortest diag file1 file2)
    (diffs : differences) (h : compute_differences diag file1 file2 = some diffs) :
    spec_minimal file1 file2 diffs.index_mapping := by
  obtain ⟨marks, hm, ml1, ml2, _, _, mpath⟩ := compareseq_path diag file1 file2 hd
    (file1.length + file2.length + 1) 0 file1.length 0 file2.length
    (List.replicate file1.length 0, List.replicate file2.length 0)
    (Nat.zero_le _) (Nat.zero_le _) (le_refl _) (le_refl _) (by simp) (by simp) (by omega)
    (fun i _ _ => by rw [replicate_zero_getD]) (fun j _ _ => by rw [replicate_zero_getD])
  obtain ⟨marks', hm', hk⟩ := compareseq_lcs diag file1 file2 hd hs
    (file1.length + file2.length + 1) 0 file1.length 0 file2.length
    (List.replicate file1.length 0, List.replicate file2.length 0)
    (Nat.zero_le _) (Nat.zero_le _) (le_refl _) (le_refl _) (by simp) (by simp) (by omega)
    (fun i _ _ => by rw [replicate_zero_getD]) (fun j _ _ => by rw [replicate_zero_getD])
  have hsame : marks' = marks := Option.some.inj (hm'.symm.trans hm)
  subst hsame
  obtain ⟨ctxt, hc, cl1, cl2, _, _, cpath⟩ := complete_mapping_path file1 file2
    (file1.length + file2.length + 1) 0 0 marks' ml1 ml2 (by omega) (Path.done 0 0) mpath
  obtain ⟨edits, he, _⟩ := create_edits_cover file1 file2 ctxt
    (file1.length + file2.length + 1) 0 0 (by omega) cpath
  have hdiff := compute_differences_steps diag file1 file2 _ _ marks' ctxt edits
    rfl rfl hm hc he
  rw [hdiff] at h
  rw [← Option.some.inj h]
  intro m hcommon
  have hub := spec_common_le_lcs file1 file2 m hcommon
  rw [spec_window_all, spec_window_all] at hk
  rw [← hk] at hub
  refine le_trans hub ?_
  unfold kept_count
  rw [Nat.sub_zero, ← List.range_eq_range']
  apply List.countP_mono_left
  intro i _ hi
  simp only [decide_eq_true_eq] at hi ⊢
  exact complete_mapping_nonneg _ _ _ _ _ _ _ hc i hi

/-- In a minimal diff no CHANGE holds a pair of equal entries: the pair could be added
to the mapped pairs, which would give a longer common subsequence. -/
theorem minimal_change_differ (diag : Diag) (file1 file2 : List Entry)
    (hd : DiagOk diag file1 file2) (diffs : differences)
    (h : compute_differences diag file1 file2 = some diffs)
    (hmin : spec_minimal file1 file2 diffs.index_mapping) :
    ∀ i1 i2 j1 j2, edit.CHANGE i1 i2 j1 j2 ∈ diffs.edits →
      (∀ i j, i1 ≤ i → i ≤ i2 → j1 ≤ j → j ≤ j2 →
        entry_equals (file1.getD i []) (file2.getD j []) = false) ∧
      (∀ j, j1 ≤ j → j ≤ j2 → i1 ≤ j + i2 - j2 →
        entry_equals (file1.getD (j + i2 - j2) []) (file2.getD j []) = false) := by
  obtain ⟨ctxt, edits, hdiff, -, -, cpath, hgaps, -⟩ :=
    compute_differences_gaps diag file1 file2 hd
  rw [hdiff] at h
  have hd' := Option.some.inj h
  subst hd'
  intro i1 i2 j1 j2 hmem
  obtain ⟨i0, a, j0, b, he, hgap⟩ := hgaps _ hmem
  obtain ⟨e1, e2, e3, e4, e5, e6⟩ := spec_gap_edit_change i0 a j0 b i1 i2 j1 j2 he.symm
  have hall : ∀ i j, i1 ≤ i → i ≤ i2 → j1 ≤ j → j ≤ j2 →
      entry_equals (file1.getD i []) (file2.getD j []) = false := by
    intro i j hi1 hi2 hj1 hj2
    rw [← Bool.not_eq_true, entry_equals_iff]
    intro heq
    have g := hgap
    obtain ⟨g1, g2, g3, g4, -, gm1, -⟩ := g
    have hia : i < a := by omega
    have hjb : j < b := by omega
    have hcommon := extended_matching_common file1 file2 ctxt i0 a j0 b i j cpath hgap
      (by omega) hia (by omega) hjb heq
    have hlen := extended_matching_length file1.length ctxt.1 i j (by omega)
      (gm1 i (by omega) hia)
    have := hmin _ hcommon
    dsimp only at this
    omega
  exact ⟨hall, fun j hj1 hj2 hi => hall _ j hi (by omega) hj1 hj2⟩

/-! ## Lemmas: a midpoint search that meets both contracts -/

theorem diagOk_first_step (xv yv : List Entry) : DiagOk diag_first_step xv yv := by
  intro xoff xlim yoff ylim h1 h2 _ _
  unfold diag_first_step
  split_ifs
  · dsimp only
    omega
  · dsimp only
    omega

theorem diagShortest_first_step (xv yv : List Entry) :
    DiagShortest diag_first_step xv yv := by
  intro xoff xlim yoff ylim h1 h2 h3 h4 h5 _
  unfold diag_first_step
  by_cases hc : spec_lcs (spec_window xv (xoff + 1) xlim) (spec_window yv yoff ylim) =
      spec_lcs (spec_window xv xoff xlim) (spec_window yv yoff ylim)
  · rw [if_pos hc]
    dsimp only
    rw [spec_window_empty yv yoff yoff (le_refl _), spec_lcs_nil_right, hc]
    omega
  · rw [if_neg hc]
    dsimp only
    rw [spec_window_empty xv xoff xoff (le_refl _)]
    have hmax : spec_lcs (spec_window xv xoff xlim) (spec_window yv yoff ylim) =
        max (spec_lcs (spec_window xv (xoff + 1) xlim) (spec_window yv yoff ylim))
          (spec_lcs (spec_window xv xoff xlim) (spec_window yv (yoff + 1) ylim)) := by
      conv_lhs => rw [spec_window_cons xv xoff xlim h1 h3,
        spec_window_cons yv yoff ylim h2 h4, spec_lcs_cons, if_neg h5]
      rw [← spec_window_cons xv xoff xlim h1 h3, ← spec_window_cons yv yoff ylim h2 h4]
    have hzero : spec_lcs [] (spec_window yv yoff (yoff + 1)) = 0 := rfl
    rw [hzero]
    omega

/-! ## The claims -/

/-- C1: the entries that `read_changelog_file` makes from a buffer, concatenated in
order, are the buffer itself. -/
theorem read_changelog_file_roundtrip (contents : List Byte) :
    (read_changelog_file contents).flatten = contents :=
  split_entries_flatten _ _ (le_refl _)

/-- C2: identity merge. For every sequence of entries, the merge of the ancestor, the
mainstream and the modified file all equal to it gives back these entries and no
conflict; the bytes written are those of the entries and the exit status is 0. For
every buffer, the program run on three files with these contents writes the buffer
back and exits with status 0. -/
theorem identity_merge (fstrcmp_bounded : Fstrcmp) (diag : Diag) :
    (∀ file : List Entry,
      merge fstrcmp_bounded diag file file file = some (file, []) ∧
      write_output file [] = file.flatten ∧ exit_status [] = 0) ∧
    (∀ (downstream : Bool) (contents : List Byte),
      main_run fstrcmp_bounded diag downstream contents contents contents =
        some (contents, 0)) := by
  have hm : ∀ file : List Entry, merge fstrcmp_bounded diag file file file = some (file, []) := by
    intro file
    simpa using merge_prepend fstrcmp_bounded diag file file [] (Or.inl rfl)
  refine ⟨fun file => ⟨hm file, write_output_no_conflict file, rfl⟩, ?_⟩
  intro downstream contents
  unfold main_run
  have h1 : mainstream_of downstream contents contents = contents := by
    cases downstream <;> rfl
  have h2 : modified_of downstream contents contents = contents := by
    cases downstream <;> rfl
  rw [h1, h2, hm]
  simp only [write_output_no_conflict]
  have : (read_changelog_file contents).flatten = contents :=
    split_entries_flatten _ _ (le_refl _)
  rw [this]
  rfl

/-- C3: entries added at the top on both sides. For every ancestor and every
mainstream file, when the modified file is the ancestor with a non-empty list of
entries added at the top, none of them equal to an entry of the ancestor, the merge
puts the added entries, in their order, above all the entries of the mainstream file,
with no conflict. -/
theorem prepend_both_sides (fstrcmp_bounded : Fstrcmp) (diag : Diag)
    (ancestor_file mainstream_file added : List Entry) (hne : added ≠ [])
    (hnew : ∀ x ∈ added, x ∉ ancestor_file) :
    merge fstrcmp_bounded diag ancestor_file mainstream_file (added ++ ancestor_file) =
      some (added ++ mainstream_file, []) := by
  apply merge_prepend
  right
  cases ancestor_file with
  | nil => left; rfl
  | cons a rest =>
    right
    cases added with
    | nil => exact absurd rfl hne
    | cons x tl =>
      intro heq
      have h1 : a = x := by simpa using heq
      exact hnew x (by simp) (by simp [h1])

/-- Witness of C3, with one entry added on each side of a one-entry ancestor. -/
theorem prepend_both_sides_witness :
    ([[88, 10]] : List Entry) ≠ [] ∧ (∀ x ∈ ([[88, 10]] : List Entry), x ∉ ([[69, 10]] : List Entry)) ∧
    merge fstrcmp_ratio diag_corner [[69, 10]] [[89, 10], [69, 10]] ([[88, 10]] ++ [[69, 10]]) =
      some ([[88, 10]] ++ [[89, 10], [69, 10]], []) :=
  ⟨by decide, by decide,
    prepend_both_sides fstrcmp_ratio diag_corner [[69, 10]] [[89, 10], [69, 10]] [[88, 10]]
      (by decide) (by decide)⟩

/-- C4: the modified side is untouched. For all ancestor and mainstream files, the
merge with the modified file equal to the ancestor gives the entries of the mainstream
file, unchanged and in their order, and no conflict. -/
theorem modified_untouched (fstrcmp_bounded : Fstrcmp) (diag : Diag)
    (ancestor_file mainstream_file : List Entry) :
    merge fstrcmp_bounded diag ancestor_file mainstream_file ancestor_file =
      some (mainstream_file, []) := by
  simpa using merge_prepend fstrcmp_bounded diag ancestor_file mainstream_file [] (Or.inl rfl)

/-- C6 as stated fails: in scenario S1 with the direction downstream, the merged
sequence is not the one that starts with `Yb` (here E1 = "1", E2 = "2", Xa = "a",
Yb = "b", each followed by an empty line). -/
theorem scenario_S1_order_counterexample :
    merge fstrcmp_ratio diag_corner [[49, 10, 10], [50, 10, 10]]
      (mainstream_of true [[97, 10, 10], [49, 10, 10], [50, 10, 10]]
        [[98, 10, 10], [49, 10, 10], [50, 10, 10]])
      (modified_of true [[97, 10, 10], [49, 10, 10], [50, 10, 10]]
        [[98, 10, 10], [49, 10, 10], [50, 10, 10]]) ≠
      some ([[98, 10, 10], [97, 10, 10], [49, 10, 10], [50, 10, 10]], []) := by
  decide!

/-- C6, amended: in scenario S1 (ancestor `[E1, E2]`, A = `[Xa, E1, E2]`,
B = `[Yb, E1, E2]`, direction downstream, so that B is the mainstream file and A the
modified file) the merge has no conflict, the exit status is 0 and the merged sequence
is `[Xa, Yb, E1, E2]`: the entry added by the user stands above the entry added in the
mainstream. -/
theorem scenario_S1 (fstrcmp_bounded : Fstrcmp) (diag : Diag) (E1 E2 Xa Yb : Entry)
    (hdistinct : [Xa, Yb, E1, E2].Pairwise (· ≠ ·)) :
    merge fstrcmp_bounded diag [E1, E2]
      (mainstream_of true [Xa, E1, E2] [Yb, E1, E2])
      (modified_of true [Xa, E1, E2] [Yb, E1, E2]) = some ([Xa, Yb, E1, E2], []) ∧
    exit_status ([] : List conflict) = 0 := by
  refine ⟨?_, rfl⟩
  have h : E1 ≠ Xa := by
    simp only [List.pairwise_cons, List.mem_cons] at hdistinct
    exact fun h => hdistinct.1 E1 (by simp) h.symm
  exact merge_prepend fstrcmp_bounded diag [E1, E2] [Yb, E1, E2] [Xa]
    (Or.inr (Or.inr (by simpa using h)))

/-- Witness of C6 (amended). -/
theorem scenario_S1_witness :
    ([[97, 10, 10], [98, 10, 10], [49, 10, 10], [50, 10, 10]] : List Entry).Pairwise (· ≠ ·) ∧
    (merge fstrcmp_ratio diag_corner [[49, 10, 10], [50, 10, 10]]
      (mainstream_of true [[97, 10, 10], [49, 10, 10], [50, 10, 10]]
        [[98, 10, 10], [49, 10, 10], [50, 10, 10]])
      (modified_of true [[97, 10, 10], [49, 10, 10], [50, 10, 10]]
        [[98, 10, 10], [49, 10, 10], [50, 10, 10]]) =
      some ([[97, 10, 10], [98, 10, 10], [49, 10, 10], [50, 10, 10]], []) ∧
    exit_status ([] : List conflict) = 0) :=
  ⟨by decide, scenario_S1 fstrcmp_ratio diag_corner [49, 10, 10] [50, 10, 10] [97, 10, 10]
    [98, 10, 10] (by decide)⟩

/-- C7: the REMOVAL rule. A REMOVAL edit is applied entry by entry, for `i` from `i1`
to `i2`. For each `i`, with `k = entries_mapping_get (mapping, i)`: when `k >= 0` and
the ancestor entry `i` equals the mainstream entry `k`, the node of slot `k` gets the
empty entry and the conflicts are unchanged; otherwise the result entries are unchanged
and one conflict, with the ancestor entry alone on the ancestor side and nothing on the
modified side, is appended. Scenario S4: with ancestor = mainstream = `[E1, E2, E3]` and
modified = `[E1, E3]` the merge has no conflict and writes `E1` followed by `E3`. -/
theorem removal_rule (fstrcmp_bounded : Fstrcmp) (diag : Diag) :
    (∀ (ancestor_file mainstream_file modified_file : List Entry) (diffs : differences)
        (i1 i2 : Nat) (st : merge_state),
      apply_edit fstrcmp_bounded ancestor_file mainstream_file modified_file diffs
          (edit.REMOVAL i1 i2) st =
        some ((List.range' i1 (i2 + 1 - i1)).foldl
          (fun s i => removal_step fstrcmp_bounded ancestor_file mainstream_file i s) st)) ∧
    (∀ (ancestor_file mainstream_file : List Entry) (i : Nat) (st : merge_state),
      removal_step fstrcmp_bounded ancestor_file mainstream_file i st =
        if (entries_mapping_get fstrcmp_bounded st.mapping i).1 ≥ 0 ∧
            ancestor_file.getD i [] =
              mainstream_file.getD (entries_mapping_get fstrcmp_bounded st.mapping i).1.toNat []
        then
          { mapping := (entries_mapping_get fstrcmp_bounded st.mapping i).2
            result_entries := st.result_entries.map (fun n =>
              if n.slot = some (entries_mapping_get fstrcmp_bounded st.mapping i).1.toNat
              then { slot := n.slot, value := [] } else n)
            result_conflicts := st.result_conflicts }
        else
          { mapping := (entries_mapping_get fstrcmp_bounded st.mapping i).2
            result_entries := st.result_entries
            result_conflicts := st.result_conflicts ++
              [{ old_entries := [ancestor_file.getD i []], modified_entries := [] }] }) ∧
    (∀ E1 E2 E3 : Entry, ∃ result_entries,
      merge fstrcmp_bounded diag [E1, E2, E3] [E1, E2, E3] [E1, E3] =
        some (result_entries, []) ∧
      write_output result_entries [] = E1 ++ E3 ∧ exit_status [] = 0) := by
  refine ⟨?_, ?_, ?_⟩
  · intro ancestor_file mainstream_file modified_file diffs i1 i2 st
    simp only [apply_edit, apply_removal_foldl]
  · intro ancestor_file mainstream_file i st
    unfold removal_step
    simp only [entry_equals_iff]
    rfl
  · intro E1 E2 E3
    obtain ⟨r, h1, h2⟩ := merge_scenario_S4 fstrcmp_bounded diag E1 E2 E3
    exact ⟨r, h1, h2, rfl⟩

/-- C9: the interior ADDITION rule. For an ADDITION edit with `j1 > 0`, let `i_before`
be the ancestor index that the differences pair with the modified entry `j1 - 1`, the
next ancestor index being paired with the modified entry `j2 + 1` (or being the end of
the ancestor file when `j2 + 1` is the end of the modified file); let
`k_before = entries_mapping_get (mapping, i_before)` and
`k_after = entries_mapping_get (mapping, i_before + 1)`, or the number of mainstream
entries when `i_before + 1` is the end of the ancestor file. When `k_before >= 0`,
`k_after >= 0` and `k_after = k_before + 1`, the modified entries `j1 .. j2` are
inserted, in order, immediately before the node of slot `k_after` (appended at the end
when `k_after` is the number of mainstream entries), and no conflict is added; otherwise
the result entries are unchanged and one conflict is appended, with an empty ancestor
side and the modified entries `j1 .. j2` on the modified side. Scenario S6: with
ancestor = mainstream = `[E1, E2, E3]` and modified = `[E1, NEW, E2, E3]` the merged
entries are `[E1, NEW, E2, E3]`, without conflict. -/
theorem interior_addition_rule (fstrcmp_bounded : Fstrcmp) (diag : Diag) :
    (∀ (ancestor_file mainstream_file modified_file : List Entry) (diffs : differences)
        (j1 j2 i_before : Nat) (st : merge_state) (r_before r_after : Int × entries_mapping),
      0 < j1 →
      diffs.index_mapping_reverse.getD (j1 - 1) 0 = (i_before : Int) →
      (if j2 + 1 = modified_file.length then (ancestor_file.length : Int)
        else diffs.index_mapping_reverse.getD (j2 + 1) 0) = (i_before : Int) + 1 →
      entries_mapping_get fstrcmp_bounded st.mapping i_before = r_before →
      (if i_before + 1 = ancestor_file.length then
          ((mainstream_file.length : Int), r_before.2)
        else entries_mapping_get fstrcmp_bounded r_before.2 (i_before + 1)) = r_after →
      apply_edit fstrcmp_bounded ancestor_file mainstream_file modified_file diffs
          (edit.ADDITION j1 j2) st =
        some
          (if r_before.1 ≥ 0 ∧ r_after.1 ≥ 0 ∧ r_after.1 = r_before.1 + 1 then
            { mapping := r_after.2
              result_entries :=
                if r_after.1 = (mainstream_file.length : Int) then
                  st.result_entries ++ spec_new_nodes modified_file j1 j2
                else
                  spec_insert_before st.result_entries r_after.1.toNat
                    (spec_new_nodes modified_file j1 j2)
              result_conflicts := st.result_conflicts }
          else
            { mapping := r_after.2
              result_entries := st.result_entries
              result_conflicts := st.result_conflicts ++
                [{ old_entries := []
                   modified_entries :=
                     (List.range' j1 (j2 + 1 - j1)).map (fun j => modified_file.getD j []) }] })) ∧
    (∀ E1 E2 E3 NEW : Entry,
      merge fstrcmp_bounded diag [E1, E2, E3] [E1, E2, E3] [E1, NEW, E2, E3] =
        some ([E1, NEW, E2, E3], []) ∧
      write_output [E1, NEW, E2, E3] [] = E1 ++ (NEW ++ (E2 ++ E3))) := by
  refine ⟨?_, ?_⟩
  · intro ancestor_file mainstream_file modified_file diffs j1 j2 i_before st r_before r_after
      hj1 hbefore hafter hrb hra
    exact apply_addition_interior fstrcmp_bounded ancestor_file mainstream_file modified_file
      diffs j1 j2 i_before st r_before r_after hj1 hbefore hafter hrb hra
  · intro E1 E2 E3 NEW
    exact ⟨merge_scenario_S6 fstrcmp_bounded diag E1 E2 E3 NEW,
      by simp [write_output_no_conflict]⟩

/-- Witness of C9: the rule applied to the edit of scenario S6, with E1 = "1", E2 = "2",
E3 = "3" and NEW = "N" (each followed by a newline): the new entry goes before the
node of slot 1. -/
theorem interior_addition_rule_witness :
    (0 < 1) ∧
    apply_edit fstrcmp_ratio [[49, 10], [50, 10], [51, 10]] [[49, 10], [50, 10], [51, 10]]
        [[49, 10], [78, 10], [50, 10], [51, 10]]
        { index_mapping := [0, 2, 3], index_mapping_reverse := [0, -1, 1, 2],
          edits := [edit.ADDITION 1 1] }
        (edit.ADDITION 1 1)
        { mapping := witness_mapping
          result_entries := initial_result [[49, 10], [50, 10], [51, 10]]
          result_conflicts := [] } =
      some
        { mapping := witness_mapping
          result_entries :=
            [{ slot := some 0, value := [49, 10] }, { slot := none, value := [78, 10] },
             { slot := some 1, value := [50, 10] }, { slot := some 2, value := [51, 10] }]
          result_conflicts := [] } :=
  ⟨by decide,
    ((interior_addition_rule fstrcmp_ratio diag_corner).1
      [[49, 10], [50, 10], [51, 10]] [[49, 10], [50, 10], [51, 10]]
      [[49, 10], [78, 10], [50, 10], [51, 10]]
      { index_mapping := [0, 2, 3], index_mapping_reverse := [0, -1, 1, 2],
        edits := [edit.ADDITION 1 1] }
      1 1 0
      { mapping := witness_mapping
        result_entries := initial_result [[49, 10], [50, 10], [51, 10]]
        result_conflicts := [] }
      (0, witness_mapping) (1, witness_mapping)
      (by decide) (by decide) (by decide) (by decide!) (by decide!)).trans (by decide!)⟩

/-- C10 as stated fails: with New = "N\n\n", E1 = "T\n\n\tA\n\n", E2 = "E\n" and
E1' = "T\n\n\tB\n\n\tA\n\n" (the paragraph "\tB" added under the title of E1; the
similarity of E1 and E1' is 7/9), the changed entry is split: the merged sequence is
"T\n\n\tB\n\n", New, E1, E2, not New, E1', E2. -/
theorem scenario_S2_split_counterexample :
    ([[78, 10, 10], [84, 10, 10, 9, 65, 10, 10], [69, 10]] : List Entry).Pairwise (· ≠ ·) ∧
    ([84, 10, 10, 9, 66, 10, 10, 9, 65, 10, 10] : Entry) ≠ [84, 10, 10, 9, 65, 10, 10] ∧
    FSTRCMP_THRESHOLD ≤ entry_fstrcmp fstrcmp_ratio [84, 10, 10, 9, 65, 10, 10]
      [84, 10, 10, 9, 66, 10, 10, 9, 65, 10, 10] FSTRCMP_THRESHOLD ∧
    merge fstrcmp_ratio diag_corner [[84, 10, 10, 9, 65, 10, 10], [69, 10]]
        [[78, 10, 10], [84, 10, 10, 9, 65, 10, 10], [69, 10]]
        [[84, 10, 10, 9, 66, 10, 10, 9, 65, 10, 10], [69, 10]] =
      some ([[84, 10, 10, 9, 66, 10, 10], [78, 10, 10], [84, 10, 10, 9, 65, 10, 10], [69, 10]],
        []) ∧
    merge fstrcmp_ratio diag_corner [[84, 10, 10, 9, 65, 10, 10], [69, 10]]
        [[78, 10, 10], [84, 10, 10, 9, 65, 10, 10], [69, 10]]
        [[84, 10, 10, 9, 66, 10, 10, 9, 65, 10, 10], [69, 10]] ≠
      some ([[78, 10, 10], [84, 10, 10, 9, 66, 10, 10, 9, 65, 10, 10], [69, 10]], []) := by
  decide!

/-- C10, amended: scenario S2 when the changed entry is not split. For all pairwise
distinct entries New, E1, E2 and every E1' other than E1 whose similarity to E1 is at
least 0.6 and for which `try_split_merged_entry (E1, E1')` returns false, the merge of
the ancestor `[E1, E2]`, the mainstream `[New, E1, E2]` and the modified `[E1', E2]`
has no conflict (exit status 0) and the merged sequence is exactly `[New, E1', E2]`.
(The midpoint search, a parameter of the model, is called once, for the window that
holds E1 and E1'; it is taken to cut this window at one of its two other corners.) -/
theorem scenario_S2 (fstrcmp_bounded : Fstrcmp) (diag : Diag) (New E1 E2 E1' : Entry)
    (hdistinct : [New, E1, E2].Pairwise (· ≠ ·)) (hchanged : E1' ≠ E1)
    (hsim : FSTRCMP_THRESHOLD ≤ entry_fstrcmp fstrcmp_bounded E1 E1' FSTRCMP_THRESHOLD)
    (hsplit : try_split_merged_entry fstrcmp_bounded E1 E1' = some none)
    (hdiag : diag [E1, E2] [E1', E2] 0 1 0 1 = (1, 0) ∨
      diag [E1, E2] [E1', E2] 0 1 0 1 = (0, 1)) :
    merge fstrcmp_bounded diag [E1, E2] [New, E1, E2] [E1', E2] =
      some ([New, E1', E2], []) ∧
    exit_status ([] : List conflict) = 0 := by
  have h12 : E1 ≠ E2 := by
    simp only [List.pairwise_cons, List.mem_cons, List.mem_singleton] at hdistinct
    exact hdistinct.2.1 E2 (by simp)
  exact ⟨merge_scenario_S2 fstrcmp_bounded diag New E1 E2 E1' h12 hchanged hsim hsplit hdiag,
    rfl⟩

/-- Witness of C10 (amended), with New = "N\n", E1 = "ab\n", E2 = "E\n", E1' = "ac\n". -/
theorem scenario_S2_witness :
    ([[78, 10], [97, 98, 10], [69, 10]] : List Entry).Pairwise (· ≠ ·) ∧
    ([97, 99, 10] : Entry) ≠ [97, 98, 10] ∧
    FSTRCMP_THRESHOLD ≤ entry_fstrcmp fstrcmp_ratio [97, 98, 10] [97, 99, 10]
      FSTRCMP_THRESHOLD ∧
    try_split_merged_entry fstrcmp_ratio [97, 98, 10] [97, 99, 10] = some none ∧
    (diag_corner [[97, 98, 10], [69, 10]] [[97, 99, 10], [69, 10]] 0 1 0 1 = (1, 0) ∨
      diag_corner [[97, 98, 10], [69, 10]] [[97, 99, 10], [69, 10]] 0 1 0 1 = (0, 1)) ∧
    merge fstrcmp_ratio diag_corner [[97, 98, 10], [69, 10]] [[78, 10], [97, 98, 10], [69, 10]]
        [[97, 99, 10], [69, 10]] =
      some ([[78, 10], [97, 99, 10], [69, 10]], []) ∧
    exit_status ([] : List conflict) = 0 :=
  ⟨by decide, by decide, by decide!, by decide!, by decide,
    scenario_S2 fstrcmp_ratio diag_corner [78, 10] [97, 98, 10] [69, 10] [97, 99, 10]
      (by decide) (by decide) (by decide!) (by decide!) (by decide)⟩

/-- C8 as stated fails: with the ancestor "a\n", "b\n", "a\n", the mainstream file
"a\n" and the modified file "b\n", "a\n", the ancestor entry 0 is covered by a REMOVAL
edit and the mainstream file holds an equal entry, but the removal is reported as a
conflict and no slot is emptied: the only "a\n" of the mainstream file is paired with
the other copy of the ancestor. -/
theorem removal_of_duplicate_counterexample :
    (compute_differences diag_corner [[97, 10], [98, 10], [97, 10]] [[98, 10], [97, 10]]).map
        differences.edits = some [edit.REMOVAL 0 0] ∧
    ([[97, 10], [98, 10], [97, 10]] : List Entry).getD 0 [] ∈ ([[97, 10]] : List Entry) ∧
    merge fstrcmp_ratio diag_corner [[97, 10], [98, 10], [97, 10]] [[97, 10]]
        [[98, 10], [97, 10]] =
      some ([[97, 10]], [{ old_entries := [[97, 10]], modified_entries := [] }]) := by
  decide!

/-- C8, amended: the removal of an ancestor entry against the mapping held by the
merge (the result of `compute_mapping`, looked up any number of times). The removal of
the ancestor entry `i` empties a mainstream slot and adds no conflict if and only if the
mainstream file holds more entries equal to `A[i]` than the ancestor file holds after
position `i`. In that case the slot emptied is that of the mainstream entry equal to
`A[i]` with as many equal entries after it as `A[i]` has after it in the ancestor file;
otherwise, and in particular when no mainstream entry equals `A[i]`, the result entries
stay as they are and one conflict with the ancestor entry `i` is appended. Whenever no
conflict is added, the slot emptied is that of a mainstream entry equal to `A[i]`; and
when `A[i]` occurs once in the ancestor file and at least once in the mainstream file,
the slot of its last occurrence in the mainstream file is emptied. -/
theorem removal_of_present_entry (fstrcmp_bounded : Fstrcmp)
    (ancestor_file mainstream_file : List Entry) :
    ∃ mapping0,
      compute_mapping fstrcmp_bounded ancestor_file mainstream_file false = some mapping0 ∧
      ∀ (st : merge_state) (i : Nat), Looked fstrcmp_bounded mapping0 st.mapping →
        i < ancestor_file.length →
        (((removal_step fstrcmp_bounded ancestor_file mainstream_file i st).result_conflicts =
              st.result_conflicts ∧
            ∃ k, k < mainstream_file.length ∧
              (removal_step fstrcmp_bounded ancestor_file mainstream_file i st).result_entries =
                gl_list_node_set_value st.result_entries k empty_entry) ↔
          rank_from_end ancestor_file i <
            mainstream_file.count (ancestor_file.getD i [])) ∧
        (rank_from_end ancestor_file i < mainstream_file.count (ancestor_file.getD i []) →
          ∃ k, k < mainstream_file.length ∧ spec_paired ancestor_file mainstream_file i k ∧
            (removal_step fstrcmp_bounded ancestor_file mainstream_file i st).result_conflicts =
              st.result_conflicts ∧
            (removal_step fstrcmp_bounded ancestor_file mainstream_file i st).result_entries =
              gl_list_node_set_value st.result_entries k empty_entry) ∧
        (¬ rank_from_end ancestor_file i <
            mainstream_file.count (ancestor_file.getD i []) →
          (removal_step fstrcmp_bounded ancestor_file mainstream_file i st).result_entries =
            st.result_entries ∧
          (removal_step fstrcmp_bounded ancestor_file mainstream_file i st).result_conflicts =
            st.result_conflicts ++
              [{ old_entries := [ancestor_file.getD i []], modified_entries := [] }]) ∧
        ((removal_step fstrcmp_bounded ancestor_file mainstream_file i st).result_conflicts =
            st.result_conflicts →
          ∃ k, k < mainstream_file.length ∧
            mainstream_file.getD k [] = ancestor_file.getD i [] ∧
            (removal_step fstrcmp_bounded ancestor_file mainstream_file i st).result_entries =
              gl_list_node_set_value st.result_entries k empty_entry) ∧
        ((∀ k, k < mainstream_file.length →
            mainstream_file.getD k [] ≠ ancestor_file.getD i []) →
          (removal_step fstrcmp_bounded ancestor_file mainstream_file i st).result_entries =
            st.result_entries ∧
          (removal_step fstrcmp_bounded ancestor_file mainstream_file i st).result_conflicts =
            st.result_conflicts ++
              [{ old_entries := [ancestor_file.getD i []], modified_entries := [] }]) ∧
        (ancestor_file.getD i [] ∈ mainstream_file →
          (∀ i', i' < ancestor_file.length →
            ancestor_file.getD i' [] = ancestor_file.getD i [] → i' = i) →
          (removal_step fstrcmp_bounded ancestor_file mainstream_file i st).result_conflicts =
            st.result_conflicts ∧
          (removal_step fstrcmp_bounded ancestor_file mainstream_file i st).result_entries =
            gl_list_node_set_value st.result_entries
              (last_index mainstream_file (ancestor_file.getD i [])) empty_entry) := by
  obtain ⟨mapping0, h0, hf1, hf2, hinv, hbound⟩ :=
    compute_mapping_facts fstrcmp_bounded ancestor_file mainstream_file
  obtain ⟨mapping1, h1, -, -, hlen1, hlen2, hslot1, hslot2⟩ :=
    compute_mapping_rank fstrcmp_bounded ancestor_file mainstream_file
  have hm : mapping1 = mapping0 := Option.some.inj (h1.symm.trans h0)
  subst hm
  refine ⟨mapping1, h0, ?_⟩
  intro st i hlooked hi
  -- the mapping after the lookup of `i`
  have hl2 := Looked.lookup st.mapping i hlooked
  obtain ⟨g1, g2, g3, g4, g5⟩ := looked_facts _ _ _ hl2
  obtain ⟨-, hnew⟩ := looked_bindings _ _ _ hl2
  obtain ⟨-, -, -, hres⟩ := entries_mapping_get_files fstrcmp_bounded st.mapping i
  have hrange0 : ∀ p, p < mapping1.index_mapping.length →
      mapping1.index_mapping.getD p 0 ≥ 0 →
      ∃ q : Nat, q < mapping1.file2.length ∧ mapping1.index_mapping.getD p 0 = (q : Int) := by
    intro p hp hge
    rcases hinv.2.2.1 p (by rw [← hinv.1]; exact hp) with hx | ⟨q, hq, hx, -⟩
    · simp only at hx; omega
    · exact ⟨q, by rw [hf2]; exact hq, hx⟩
  have hlen : i < (entries_mapping_get fstrcmp_bounded st.mapping i).2.index_mapping.length := by
    rw [g3]; have := hinv.1; simp only at this; omega
  have hstep : ∀ (P : merge_state → Prop),
      ((entries_mapping_get fstrcmp_bounded st.mapping i).1 ≥ 0 →
        entry_equals (ancestor_file.getD i [])
          (mainstream_file.getD (entries_mapping_get fstrcmp_bounded st.mapping i).1.toNat []) = true →
        P { mapping := (entries_mapping_get fstrcmp_bounded st.mapping i).2
            result_entries := gl_list_node_set_value st.result_entries
              (entries_mapping_get fstrcmp_bounded st.mapping i).1.toNat empty_entry
            result_conflicts := st.result_conflicts }) →
      (¬ ((entries_mapping_get fstrcmp_bounded st.mapping i).1 ≥ 0 ∧
          entry_equals (ancestor_file.getD i [])
            (mainstream_file.getD (entries_mapping_get fstrcmp_bounded st.mapping i).1.toNat []) = true) →
        P { mapping := (entries_mapping_get fstrcmp_bounded st.mapping i).2
            result_entries := st.result_entries
            result_conflicts := st.result_conflicts ++
              [{ old_entries := [ancestor_file.getD i []], modified_entries := [] }] }) →
      P (removal_step fstrcmp_bounded ancestor_file mainstream_file i st) := by
    intro P hyes hno
    unfold removal_step
    dsimp only
    split_ifs with hc
    · exact hyes hc.1 hc.2
    · exact hno hc
  -- a paired copy
  have hpaired : rank_from_end ancestor_file i <
        mainstream_file.count (ancestor_file.getD i []) →
      ∃ k, k < mainstream_file.length ∧ spec_paired ancestor_file mainstream_file i k ∧
        (removal_step fstrcmp_bounded ancestor_file mainstream_file i st).result_conflicts =
          st.result_conflicts ∧
        (removal_step fstrcmp_bounded ancestor_file mainstream_file i st).result_entries =
          gl_list_node_set_value st.result_entries k empty_entry := by
    intro hlt
    have hge := (slotOk_bound_iff _ _ _ _ (hslot1 i hi)).mpr hlt
    rcases hslot1 i hi with ⟨q, hq, hpair, hv⟩ | ⟨-, hv⟩
    · have hk : (entries_mapping_get fstrcmp_bounded st.mapping i).1 = (q : Int) := by
        rw [hres, g4 i (by rw [hv]; omega), hv]
      refine ⟨q, hq, hpair, ?_⟩
      refine hstep (fun s => s.result_conflicts = st.result_conflicts ∧
        s.result_entries = gl_list_node_set_value st.result_entries q empty_entry) ?_ ?_
      · intro _ _
        exact ⟨rfl, by rw [hk]; rfl⟩
      · intro hcon
        exfalso
        apply hcon
        rw [hk]
        exact ⟨by omega, (entry_equals_iff _ _).mpr (by simpa using hpair.1)⟩
    · omega
  -- a copy without partner
  have hsurplus : ¬ rank_from_end ancestor_file i <
        mainstream_file.count (ancestor_file.getD i []) →
      (removal_step fstrcmp_bounded ancestor_file mainstream_file i st).result_entries =
        st.result_entries ∧
      (removal_step fstrcmp_bounded ancestor_file mainstream_file i st).result_conflicts =
        st.result_conflicts ++
          [{ old_entries := [ancestor_file.getD i []], modified_entries := [] }] := by
    intro hnot
    refine hstep (fun s => s.result_entries = st.result_entries ∧
      s.result_conflicts = st.result_conflicts ++
        [{ old_entries := [ancestor_file.getD i []], modified_entries := [] }]) ?_ ?_
    · intro hge heq
      exfalso
      have hj : (entries_mapping_get fstrcmp_bounded st.mapping i).2.index_mapping.getD i 0 =
          (((entries_mapping_get fstrcmp_bounded st.mapping i).1.toNat : Nat) : Int) := by
        rw [← hres]
        omega
      rcases hnew i _ hj with hold | hfree
      · have := (slotOk_bound_iff _ _ _ _ (hslot1 i hi)).mp (by rw [hold]; omega)
        exact hnot this
      · have hjlt : (entries_mapping_get fstrcmp_bounded st.mapping i).1.toNat <
            mainstream_file.length := by
          rw [← hlen2]
          exact getD_neg_lt _ _ hfree
        have hval := (entry_equals_iff _ _).mp heq
        have hb := (slotOk_bound_iff _ _ _ _ (hslot2 _ hjlt))
        have h3 := later_count_lt_count (ancestor_file.getD i []) mainstream_file _ hjlt
          hval.symm
        have h4 := later_count_lt_count (ancestor_file.getD i []) ancestor_file i hi rfl
        have h5 : ¬ rank_from_end mainstream_file
            (entries_mapping_get fstrcmp_bounded st.mapping i).1.toNat <
            ancestor_file.count (mainstream_file.getD
              (entries_mapping_get fstrcmp_bounded st.mapping i).1.toNat []) := by
          intro hc
          have := hb.mpr hc
          omega
        unfold rank_from_end at h5 hnot
        rw [← hval] at h5
        omega
    · intro _; exact ⟨rfl, rfl⟩
  refine ⟨⟨?_, ?_⟩, hpaired, hsurplus, ?_, ?_, ?_⟩
  · rintro ⟨hc, -⟩
    by_contra hnot
    rw [(hsurplus hnot).2] at hc
    exact append_singleton_ne _ _ hc
  · intro hlt
    obtain ⟨k, hk, -, c1, c2⟩ := hpaired hlt
    exact ⟨c1, k, hk, c2⟩
  · refine hstep (fun s => s.result_conflicts = st.result_conflicts →
      ∃ k, k < mainstream_file.length ∧ mainstream_file.getD k [] = ancestor_file.getD i [] ∧
        s.result_entries = gl_list_node_set_value st.result_entries k empty_entry) ?_ ?_
    · intro hge heq _
      obtain ⟨q, hq, hx⟩ := g5 hrange0 i hlen (by rw [← hres]; exact hge)
      rw [← hres] at hx
      refine ⟨q, by rw [g2, hf2] at hq; exact hq, ?_, by rw [hx]; rfl⟩
      have := (entry_equals_iff _ _).mp heq
      rw [hx] at this
      exact this.symm
    · intro _ hcon
      exact absurd hcon (append_singleton_ne _ _)
  · intro hnone
    apply hsurplus
    rw [count_eq_zero_of_getD _ _ hnone]
    omega
  · intro hmem hunique
    have hb := hbound i hi hmem hunique
    obtain ⟨hjn, hje⟩ := last_index_spec mainstream_file _
      (indexof_nonneg_of_mem mainstream_file _ hmem)
    have hk : (entries_mapping_get fstrcmp_bounded st.mapping i).1 =
        (last_index mainstream_file (ancestor_file.getD i []) : Int) := by
      rw [hres, g4 i (by rw [hb]; omega), hb]
    refine hstep (fun s => s.result_conflicts = st.result_conflicts ∧
      s.result_entries = gl_list_node_set_value st.result_entries
        (last_index mainstream_file (ancestor_file.getD i [])) empty_entry) ?_ ?_
    · intro _ _
      exact ⟨rfl, by rw [hk]; rfl⟩
    · intro hcon
      exfalso
      apply hcon
      rw [hk]
      exact ⟨by omega, (entry_equals_iff _ _).mpr (by simpa using hje.symm)⟩

/-- Witness of C8 (amended): the ancestor "a\n", "b\n", "a\n" and the mainstream file
"a\n", "c\n", "a\n". The ancestor entry 0 has one equal entry after it and the
mainstream file holds two entries equal to it, so its removal empties the slot of the
mainstream entry paired with it and adds no conflict. -/
theorem removal_of_present_entry_witness :
    compute_mapping fstrcmp_ratio [[97, 10], [98, 10], [97, 10]]
      [[97, 10], [99, 10], [97, 10]] false = some witness_mapping_removal ∧
    rank_from_end [[97, 10], [98, 10], [97, 10]] 0 <
      ([[97, 10], [99, 10], [97, 10]] : List Entry).count
        (([[97, 10], [98, 10], [97, 10]] : List Entry).getD 0 []) ∧
    ∃ k, k < ([[97, 10], [99, 10], [97, 10]] : List Entry).length ∧
      spec_paired [[97, 10], [98, 10], [97, 10]] [[97, 10], [99, 10], [97, 10]] 0 k ∧
      (removal_step fstrcmp_ratio [[97, 10], [98, 10], [97, 10]]
        [[97, 10], [99, 10], [97, 10]] 0
        { mapping := witness_mapping_removal
          result_entries := initial_result [[97, 10], [99, 10], [97, 10]]
          result_conflicts := [] }).result_conflicts = [] ∧
      (removal_step fstrcmp_ratio [[97, 10], [98, 10], [97, 10]]
        [[97, 10], [99, 10], [97, 10]] 0
        { mapping := witness_mapping_removal
          result_entries := initial_result [[97, 10], [99, 10], [97, 10]]
          result_conflicts := [] }).result_entries =
        gl_list_node_set_value (initial_result [[97, 10], [99, 10], [97, 10]]) k
          empty_entry := by
  have hm : compute_mapping fstrcmp_ratio [[97, 10], [98, 10], [97, 10]]
      [[97, 10], [99, 10], [97, 10]] false = some witness_mapping_removal := by decide
  obtain ⟨mapping0, h0, h⟩ :=
    removal_of_present_entry fstrcmp_ratio [[97, 10], [98, 10], [97, 10]]
      [[97, 10], [99, 10], [97, 10]]
  have hsame : mapping0 = witness_mapping_removal := by
    rw [hm] at h0
    exact (Option.some.inj h0).symm
  subst hsame
  exact ⟨hm, by decide, (h { mapping := witness_mapping_removal
                             result_entries := initial_result [[97, 10], [99, 10], [97, 10]]
                             result_conflicts := [] } 0 (Looked.start) (by decide)).2.1
    (by decide)⟩

/-- C5 as stated fails. (a) With O = ["T\n\n\tA\n\n"] and U = ["T\n\n\tB\n\n\tA\n\n"]
(a paragraph added under the title of the only entry), the CHANGE at the top goes
through `try_split_merged_entry`, which splits the modified entry: the result has no
conflict, and its bytes are "T\n\n\tB\n\n" followed by "T\n\n\tA\n\n", with the title
twice, not the bytes of U. (b) With O = ["A\n", "BBBB\n", "C\n"] and
U = ["A\n", "X\n", "Y\n", "BBBC\n", "C\n"] the simple change in the interior adds its two
new entries in reverse order: the result is "A\n", "Y\n", "X\n", "BBBC\n", "C\n". -/
theorem modified_passes_through_counterexample :
    ([[84, 10, 10, 9, 66, 10, 10, 9, 65, 10, 10]] : List Entry) ≠ [[84, 10, 10, 9, 65, 10, 10]] ∧
    merge fstrcmp_ratio diag_corner [[84, 10, 10, 9, 65, 10, 10]] [[84, 10, 10, 9, 65, 10, 10]]
        [[84, 10, 10, 9, 66, 10, 10, 9, 65, 10, 10]] =
      some ([[84, 10, 10, 9, 66, 10, 10], [84, 10, 10, 9, 65, 10, 10]], []) ∧
    write_output [[84, 10, 10, 9, 66, 10, 10], [84, 10, 10, 9, 65, 10, 10]] [] ≠
      ([[84, 10, 10, 9, 66, 10, 10, 9, 65, 10, 10]] : List Entry).flatten ∧
    merge fstrcmp_ratio diag_corner [[65, 10], [66, 66, 66, 66, 10], [67, 10]]
        [[65, 10], [66, 66, 66, 66, 10], [67, 10]]
        [[65, 10], [88, 10], [89, 10], [66, 66, 66, 67, 10], [67, 10]] =
      some ([[65, 10], [89, 10], [88, 10], [66, 66, 66, 67, 10], [67, 10]], []) ∧
    write_output [[65, 10], [89, 10], [88, 10], [66, 66, 66, 67, 10], [67, 10]] [] ≠
      ([[65, 10], [88, 10], [89, 10], [66, 66, 66, 67, 10], [67, 10]] : List Entry).flatten := by
  decide!

/-- C5, amended: one-sided pass-through, mainstream side untouched. For all entry
sequences O and U, when the midpoint search (a parameter of the model) gives a point
of its window other than the two corners it was given, `compute_differences (O, U)`
returns; and if every CHANGE of its edit script is a plain edit (the "simple merged"
case does not apply to it: it is not at the top of U with at least as many entries as
it replaces, or `try_split_merged_entry` returns false, or a later pair is not
similar; and it puts at most one new entry before a mainstream node: a simple change
in the interior adds at most one entry, a change that is not simple has one modified
entry), then the merge of ancestor O, mainstream O and modified U has no conflict and
the bytes written are the concatenation of U. -/
theorem modified_passes_through (fstrcmp_bounded : Fstrcmp) (diag : Diag)
    (O U : List Entry) (hd : DiagOk diag O U)
    (hplain : ∀ diffs, compute_differences diag O U = some diffs →
      ∀ e ∈ diffs.edits, plain_edit fstrcmp_bounded O U e) :
    (compute_differences diag O U).isSome = true ∧
    ∃ entries, merge fstrcmp_bounded diag O O U = some (entries, []) ∧
      exit_status [] = 0 ∧ write_output entries [] = U.flatten := by
  obtain ⟨diffs, hdiff, hexec⟩ := merge_pass_through fstrcmp_bounded diag O U hd
  obtain ⟨entries, h1, h2⟩ := hexec (hplain diffs hdiff)
  refine ⟨by rw [hdiff]; rfl, entries, h1, rfl, ?_⟩
  rw [write_output_no_conflict, h2]

/-- The amended C5 at O = ["A\n", "BBBB\n", "C\n"] and U = ["A\n", "X\n", "BBBC\n", "C\n"]:
the edit script is one CHANGE in the interior, simple, that adds one entry. -/
theorem modified_passes_through_witness :
    DiagOk diag_corner [[65, 10], [66, 66, 66, 66, 10], [67, 10]]
      [[65, 10], [88, 10], [66, 66, 66, 67, 10], [67, 10]] ∧
    compute_differences diag_corner [[65, 10], [66, 66, 66, 66, 10], [67, 10]]
      [[65, 10], [88, 10], [66, 66, 66, 67, 10], [67, 10]] =
      some { index_mapping := [0, -1, 3], index_mapping_reverse := [0, -1, -1, 2],
             edits := [edit.CHANGE 1 1 1 2] } ∧
    plain_edit fstrcmp_ratio [[65, 10], [66, 66, 66, 66, 10], [67, 10]]
      [[65, 10], [88, 10], [66, 66, 66, 67, 10], [67, 10]] (edit.CHANGE 1 1 1 2) ∧
    ((compute_differences diag_corner [[65, 10], [66, 66, 66, 66, 10], [67, 10]]
      [[65, 10], [88, 10], [66, 66, 66, 67, 10], [67, 10]]).isSome = true ∧
    ∃ entries, merge fstrcmp_ratio diag_corner [[65, 10], [66, 66, 66, 66, 10], [67, 10]]
        [[65, 10], [66, 66, 66, 66, 10], [67, 10]]
        [[65, 10], [88, 10], [66, 66, 66, 67, 10], [67, 10]] = some (entries, []) ∧
      exit_status [] = 0 ∧
      write_output entries [] =
        ([[65, 10], [88, 10], [66, 66, 66, 67, 10], [67, 10]] : List Entry).flatten) := by
  have hdiff : compute_differences diag_corner [[65, 10], [66, 66, 66, 66, 10], [67, 10]]
      [[65, 10], [88, 10], [66, 66, 66, 67, 10], [67, 10]] =
      some { index_mapping := [0, -1, 3], index_mapping_reverse := [0, -1, -1, 2],
             edits := [edit.CHANGE 1 1 1 2] } := by decide
  have hedit : plain_edit fstrcmp_ratio [[65, 10], [66, 66, 66, 66, 10], [67, 10]]
      [[65, 10], [88, 10], [66, 66, 66, 67, 10], [67, 10]] (edit.CHANGE 1 1 1 2) := by
    refine ⟨Or.inl (by decide), ?_⟩
    unfold single_insert
    rw [if_pos (by decide!)]
    exact Or.inr (by decide)
  refine ⟨diagOk_corner _ _, hdiff, hedit,
    modified_passes_through fstrcmp_ratio diag_corner _ _ (diagOk_corner _ _) ?_⟩
  intro diffs h e he
  rw [hdiff] at h
  rw [← Option.some.inj h] at he
  rw [List.mem_singleton.mp he]
  exact hedit

/-- C19: entry boundary characterisation. For every buffer, the offsets at which the
parsed entries start are the offset 0 (when the buffer is not empty) and every offset
`p` with `2 <= p < length` such that the bytes `p - 2` and `p - 1` are newlines and the
byte `p` is none of newline, tab, space; and every entry but the last ends with a blank
line (two newlines). -/
theorem entry_boundaries (contents : List Byte) :
    (∀ p, p ∈ entry_starts 0 (read_changelog_file contents) ↔
      p < contents.length ∧ (p = 0 ∨ boundary_offset contents p)) ∧
    (∀ k, k + 1 < (read_changelog_file contents).length →
      ∃ body, (read_changelog_file contents).getD k [] = body ++ [10, 10]) := by
  constructor
  · intro p
    have := split_entries_starts contents contents.length [] contents rfl (le_refl _)
      (Or.inl rfl) p
    simp only [List.length_nil] at this
    unfold read_changelog_file
    rw [this]
    constructor
    · rintro (⟨h1, h2⟩ | ⟨h1, h2⟩)
      · exact ⟨by rw [h1]; exact List.length_pos.mpr h2, Or.inl h1⟩
      · exact ⟨h2.2.1, Or.inr h2⟩
    · rintro ⟨h1, h2 | h2⟩
      · exact Or.inl ⟨h2, List.length_pos.mp (by omega)⟩
      · exact Or.inr ⟨by have := h2.1; omega, h2⟩
  · intro k hk
    exact split_entries_blank _ _ k (le_refl _) hk

/-- The characterisation C19 on the buffer "a\n\nb\n\n\tc\n": the second entry starts at
offset 3, and the first entry, "a\n\n", ends with a blank line. -/
theorem entry_boundaries_witness :
    (3 ∈ entry_starts 0 (read_changelog_file [97, 10, 10, 98, 10, 10, 9, 99, 10]) ↔
      3 < ([97, 10, 10, 98, 10, 10, 9, 99, 10] : List Byte).length ∧
        (3 = 0 ∨ boundary_offset [97, 10, 10, 98, 10, 10, 9, 99, 10] 3)) ∧
    (0 + 1 < (read_changelog_file [97, 10, 10, 98, 10, 10, 9, 99, 10]).length ∧
      ∃ body, (read_changelog_file [97, 10, 10, 98, 10, 10, 9, 99, 10]).getD 0 [] =
        body ++ [10, 10]) :=
  ⟨(entry_boundaries [97, 10, 10, 98, 10, 10, 9, 99, 10]).1 3,
    by decide,
    (entry_boundaries [97, 10, 10, 98, 10, 10, 9, 99, 10]).2 0 (by decide)⟩

/-- C20: the parser yields no entry for the empty buffer; every entry it yields has
at least one byte; for a buffer that is not empty the inner loop stops after at least
one byte, and the parser yields a first entry, which is the buffer up to that point
(so it starts at offset 0). -/
theorem entries_nonempty :
    read_changelog_file [] = [] ∧
    (∀ contents : List Byte, ∀ e ∈ read_changelog_file contents, 1 ≤ e.length) ∧
    (∀ (c : Byte) (rest : List Byte),
      0 < entry_end (c :: rest) ∧
      ∃ tail, read_changelog_file (c :: rest) =
        (c :: rest).take (entry_end (c :: rest)) :: tail) := by
  refine ⟨rfl, ?_, ?_⟩
  · intro contents
    unfold read_changelog_file
    generalize hf : contents.length = fuel
    have hle : contents.length ≤ fuel := by omega
    clear hf
    induction fuel generalizing contents with
    | zero => intro e he; simp [split_entries] at he
    | succ n ih =>
      intro e he
      unfold split_entries at he
      by_cases h0 : contents = []
      · rw [if_pos h0] at he; simp at he
      · rw [if_neg h0] at he
        have hpos := entry_end_pos contents h0
        have hl := entry_end_le contents
        rcases List.mem_cons.mp he with h | h
        · rw [h, List.length_take]; omega
        · exact ih _ (by rw [List.length_drop]; omega) e h
  · intro c rest
    refine ⟨entry_end_pos _ (by simp), ?_⟩
    unfold read_changelog_file
    rw [List.length_cons, split_entries, if_neg (by simp)]
    exact ⟨_, rfl⟩

/-- The claim C20 on the buffer "a\n\nb\n": its two entries have at least one byte. -/
theorem entries_nonempty_witness :
    ([97, 10, 10] : Entry) ∈ read_changelog_file [97, 10, 10, 98, 10] ∧
    1 ≤ ([97, 10, 10] : Entry).length :=
  ⟨by decide, entries_nonempty.2.1 [97, 10, 10, 98, 10] [97, 10, 10] (by decide)⟩

/-- C13: the output layout. The three markers are the strings "<<<<<<<\n", "=======\n"
and ">>>>>>>\n". The bytes written are, for each conflict of the list of conflicts in
list order, the block made of the first marker, its ancestor entries, the second
marker, its modified entries and the third marker, and after all the blocks the result
entries in list order, where the empty entries contribute no byte; and these are the
bytes that the program writes when the merge returns. -/
theorem output_layout :
    (marker_old = "<<<<<<<\n".toList.map Char.toNat ∧
      marker_mid = "=======\n".toList.map Char.toNat ∧
      marker_new = ">>>>>>>\n".toList.map Char.toNat) ∧
    (∀ (result_entries : List Entry) (result_conflicts : List conflict),
      write_output result_entries result_conflicts =
        (result_conflicts.map (fun c =>
          marker_old ++ c.old_entries.flatten ++ marker_mid ++ c.modified_entries.flatten ++
            marker_new)).flatten ++
        (result_entries.filter (fun e => decide (e.length ≠ 0))).flatten ∧
      (result_entries.filter (fun e => decide (e.length ≠ 0))).flatten =
        result_entries.flatten) ∧
    (∀ (fstrcmp_bounded : Fstrcmp) (diag : Diag) (downstream : Bool)
        (ancestor_contents destination_contents other_contents : List Byte),
      (main_run fstrcmp_bounded diag downstream ancestor_contents destination_contents
        other_contents).map Prod.fst =
      (merge fstrcmp_bounded diag (read_changelog_file ancestor_contents)
        (read_changelog_file (mainstream_of downstream destination_contents other_contents))
        (read_changelog_file (modified_of downstream destination_contents other_contents))).map
        (fun r => write_output r.1 r.2)) := by
  refine ⟨⟨by decide, by decide, by decide⟩, ?_, ?_⟩
  · intro result_entries result_conflicts
    constructor
    · unfold write_output
      rw [entry_write_filter]
      congr 2
      apply List.map_congr_left
      intro c _
      unfold conflict_write
      rw [entry_write_flatten, entry_write_flatten]
    · rw [← entry_write_filter, entry_write_flatten]
  · intro fstrcmp_bounded diag downstream ancestor_contents destination_contents other_contents
    rw [main_run_eq, Option.map_map]
    rfl

/-- C14: the exit code contract. The program, when the merge returns, writes the
output and exits with the status computed from the list of conflicts; this status is 0
exactly when the list is empty and 1 exactly when it is not; and the list is empty
exactly when no conflict block is written. -/
theorem exit_code_contract :
    (∀ (fstrcmp_bounded : Fstrcmp) (diag : Diag) (downstream : Bool)
        (ancestor_contents destination_contents other_contents : List Byte),
      main_run fstrcmp_bounded diag downstream ancestor_contents destination_contents
          other_contents =
        (merge fstrcmp_bounded diag (read_changelog_file ancestor_contents)
          (read_changelog_file (mainstream_of downstream destination_contents other_contents))
          (read_changelog_file (modified_of downstream destination_contents other_contents))).map
          (fun r => (write_output r.1 r.2, exit_status r.2))) ∧
    (∀ result_conflicts : List conflict,
      (exit_status result_conflicts = 0 ↔ result_conflicts = []) ∧
      (exit_status result_conflicts = 1 ↔ result_conflicts ≠ []) ∧
      ((result_conflicts.map conflict_write).flatten = [] ↔ result_conflicts = [])) := by
  refine ⟨main_run_eq, ?_⟩
  intro result_conflicts
  cases result_conflicts with
  | nil => simp [exit_status]
  | cons c rest =>
    refine ⟨by simp [exit_status], by simp [exit_status], ?_⟩
    simp only [List.map_cons, List.flatten_cons, List.append_eq_nil, reduceCtorEq, iff_false,
      not_and]
    intro h
    exact absurd h (conflict_write_ne_nil c)

/-- C12 as stated fails: for old = "Title\nbodyA\n\n" and new =
"Title\nbodyNEW\n\nbodyA\n\n" the first paragraphs, which `try_split_merged_entry`
takes as the titles, are "Title\nbodyA\n" (12 bytes) and "Title\nbodyNEW\n" (14 bytes);
they differ, and the function returns false. -/
theorem scenario_S5_title_counterexample :
    find_paragraph_end [84, 105, 116, 108, 101, 10, 98, 111, 100, 121, 65, 10, 10] 0 = 12 ∧
    find_paragraph_end [84, 105, 116, 108, 101, 10, 98, 111, 100, 121, 78, 69, 87, 10, 10, 98, 111, 100, 121, 65, 10, 10] 0 = 14 ∧
    try_split_merged_entry fstrcmp_ratio [84, 105, 116, 108, 101, 10, 98, 111, 100, 121, 65, 10, 10]
      [84, 105, 116, 108, 101, 10, 98, 111, 100, 121, 78, 69, 87, 10, 10, 98, 111, 100, 121, 65, 10, 10] = some none ∧
    try_split_merged_entry fstrcmp_ratio [84, 105, 116, 108, 101, 10, 98, 111, 100, 121, 65, 10, 10]
      [84, 105, 116, 108, 101, 10, 98, 111, 100, 121, 78, 69, 87, 10, 10, 98, 111, 100, 121, 65, 10, 10] ≠
      some (some ([84, 105, 116, 108, 101, 10, 98, 111, 100, 121, 78, 69, 87, 10, 10], [84, 105, 116, 108, 101, 10, 98, 111, 100, 121, 65, 10, 10])) := by
  decide

/-- C12, amended: scenario S5 with a blank line after the title. For old =
"Title\n\nbodyA\n\n" and new = "Title\n\nbodyNEW\n\nbodyA\n\n", and every similarity
routine that gives less than 1 for the body "\nbodyA\n\n" compared with
"\nbodyNEW\n\nbodyA\n\n" and gives 1 for this body compared with itself under every
lower bound below 1 (as the contract of `entry_fstrcmp` demands for identical strings:
only a result below the bound may be replaced by another value),
`try_split_merged_entry` returns true, with the split before "bodyA": the first part is
"Title\n\nbodyNEW\n\n" and the second part is "Title\n\nbodyA\n\n". -/
theorem scenario_S5 (fstrcmp_bounded : Fstrcmp)
    (hsame : ∀ lower_bound, lower_bound < 1 →
      fstrcmp_bounded [10, 98, 111, 100, 121, 65, 10, 10]
        [10, 98, 111, 100, 121, 65, 10, 10] lower_bound = 1)
    (hfirst : fstrcmp_bounded [10, 98, 111, 100, 121, 65, 10, 10]
      [10, 98, 111, 100, 121, 78, 69, 87, 10, 10, 98, 111, 100, 121, 65, 10, 10] 0 < 1) :
    try_split_merged_entry fstrcmp_bounded
      [84, 105, 116, 108, 101, 10, 10, 98, 111, 100, 121, 65, 10, 10]
      [84, 105, 116, 108, 101, 10, 10, 98, 111, 100, 121, 78, 69, 87, 10, 10, 98, 111, 100, 121,
        65, 10, 10] =
      some (some ([84, 105, 116, 108, 101, 10, 10, 98, 111, 100, 121, 78, 69, 87, 10, 10],
        [84, 105, 116, 108, 101, 10, 10, 98, 111, 100, 121, 65, 10, 10])) := by
  have n1 : (0 : Byte) ∉ ([10, 98, 111, 100, 121, 65, 10, 10] : Entry) := by decide
  have n2 : (0 : Byte) ∉ ([10, 98, 111, 100, 121, 78, 69, 87, 10, 10, 98, 111, 100, 121, 65,
      10, 10] : Entry) := by decide
  exact try_split_second_paragraph fstrcmp_bounded
    [84, 105, 116, 108, 101, 10, 10, 98, 111, 100, 121, 65, 10, 10]
    [84, 105, 116, 108, 101, 10, 10, 98, 111, 100, 121, 78, 69, 87, 10, 10, 98, 111, 100, 121,
      65, 10, 10] 6 15 (by decide) (by decide) (by decide) (by decide) (by decide) (by decide)
    (by decide)
    (by
      show entry_fstrcmp fstrcmp_bounded [10, 98, 111, 100, 121, 65, 10, 10]
        [10, 98, 111, 100, 121, 78, 69, 87, 10, 10, 98, 111, 100, 121, 65, 10, 10] 0 < 1
      unfold entry_fstrcmp
      rw [if_neg n1, if_neg n2]
      exact hfirst)
    (by
      intro lower_bound hlb
      show entry_fstrcmp fstrcmp_bounded [10, 98, 111, 100, 121, 65, 10, 10]
        [10, 98, 111, 100, 121, 65, 10, 10] lower_bound = 1
      unfold entry_fstrcmp
      rw [if_neg n1, if_neg n1]
      exact hsame lower_bound hlb)

/-- Witness of C12 (amended): the ratio of the longest common subsequence meets the two
hypotheses, the first one through its contract. -/
theorem scenario_S5_witness :
    (∀ lower_bound, lower_bound < 1 →
      fstrcmp_ratio [10, 98, 111, 100, 121, 65, 10, 10] [10, 98, 111, 100, 121, 65, 10, 10]
        lower_bound = 1) ∧
    fstrcmp_ratio [10, 98, 111, 100, 121, 65, 10, 10] [10, 98, 111, 100, 121, 78, 69, 87, 10, 10, 98, 111, 100, 121, 65, 10, 10] 0 < 1 ∧
    try_split_merged_entry fstrcmp_ratio [84, 105, 116, 108, 101, 10, 10, 98, 111, 100, 121, 65, 10, 10]
      [84, 105, 116, 108, 101, 10, 10, 98, 111, 100, 121, 78, 69, 87, 10, 10, 98, 111, 100, 121, 65, 10, 10] =
      some (some ([84, 105, 116, 108, 101, 10, 10, 98, 111, 100, 121, 78, 69, 87, 10, 10], [84, 105, 116, 108, 101, 10, 10, 98, 111, 100, 121, 65, 10, 10])) :=
  ⟨fstrcmpOk_same fstrcmp_ratio fstrcmpOk_ratio _ (by decide!), by decide!,
    scenario_S5 fstrcmp_ratio
      (fstrcmpOk_same fstrcmp_ratio fstrcmpOk_ratio _ (by decide!)) (by decide!)⟩

/-- C15: conflict ordering. An edit only appends to `result_conflicts`: the list after
the edit is the list before it followed by the conflicts of the edit, which are, for a
REMOVAL or the single-entry changes of a CHANGE, one conflict per ancestor entry in
increasing order of the ancestor index (`emitted_by`). Hence the conflicts of the merge
are the conflicts of the edits of `compute_differences`, concatenated in the order of
the edits. -/
theorem conflict_ordering (fstrcmp_bounded : Fstrcmp) (diag : Diag)
    (ancestor_file mainstream_file modified_file : List Entry) :
    (∀ (diffs : differences) (e : edit) (st st1 : merge_state),
      apply_edit fstrcmp_bounded ancestor_file mainstream_file modified_file diffs e st
        = some st1 →
      ∃ cs, st1.result_conflicts = st.result_conflicts ++ cs ∧
        emitted_by ancestor_file modified_file e cs) ∧
    (∀ (result_entries : List Entry) (result_conflicts : List conflict),
      merge fstrcmp_bounded diag ancestor_file mainstream_file modified_file =
        some (result_entries, result_conflicts) →
      ∃ (diffs : differences) (by_edit : List (List conflict)),
        compute_differences diag ancestor_file modified_file = some diffs ∧
        List.Forall₂ (emitted_by ancestor_file modified_file) diffs.edits by_edit ∧
        result_conflicts = by_edit.flatten) :=
  ⟨fun _ _ _ _ h => apply_edit_conflicts _ _ _ _ _ _ _ _ h,
    fun _ _ h => merge_conflicts _ _ _ _ _ _ _ h⟩

/-- The claim C15 at ancestor "a\n", "b\n", "c\n" with mainstream and modified both
"c\n": the REMOVAL of the first two entries gives two conflicts, for "a\n" and then
for "b\n". -/
theorem conflict_ordering_witness :
    merge fstrcmp_ratio diag_corner [[97, 10], [98, 10], [99, 10]] [[99, 10]] [[99, 10]] =
      some ([[99, 10]],
        [{ old_entries := [[97, 10]], modified_entries := [] },
         { old_entries := [[98, 10]], modified_entries := [] }]) ∧
    ∃ (diffs : differences) (by_edit : List (List conflict)),
      compute_differences diag_corner [[97, 10], [98, 10], [99, 10]] [[99, 10]] = some diffs ∧
      List.Forall₂ (emitted_by [[97, 10], [98, 10], [99, 10]] [[99, 10]]) diffs.edits by_edit ∧
      ([{ old_entries := [[97, 10]], modified_entries := [] },
        { old_entries := [[98, 10]], modified_entries := [] }] : List conflict) =
        by_edit.flatten :=
  ⟨by decide!,
    (conflict_ordering fstrcmp_ratio diag_corner [[97, 10], [98, 10], [99, 10]] [[99, 10]]
      [[99, 10]]).2 [[99, 10]] _ (by decide!)⟩

/-- C16: conflict well-formedness. An edit whose ranges are not empty appends only
conflicts that have an entry on the ancestor side or on the modified side; the edits of
`compute_differences` have such ranges; so no conflict of the merge has both sides
empty. -/
theorem conflict_well_formed (fstrcmp_bounded : Fstrcmp) (diag : Diag)
    (ancestor_file mainstream_file modified_file : List Entry) :
    (∀ (diffs : differences) (e : edit) (st st1 : merge_state), nonempty_ranges e →
      apply_edit fstrcmp_bounded ancestor_file mainstream_file modified_file diffs e st
        = some st1 →
      ∃ cs, st1.result_conflicts = st.result_conflicts ++ cs ∧
        ∀ c ∈ cs, c.old_entries ≠ [] ∨ c.modified_entries ≠ []) ∧
    (∀ (result_entries : List Entry) (result_conflicts : List conflict),
      merge fstrcmp_bounded diag ancestor_file mainstream_file modified_file =
        some (result_entries, result_conflicts) →
      ∀ c ∈ result_conflicts, c.old_entries ≠ [] ∨ c.modified_entries ≠ []) := by
  constructor
  · intro diffs e st st1 hr h
    obtain ⟨cs, h1, h2⟩ := apply_edit_conflicts _ _ _ _ _ _ _ _ h
    exact ⟨cs, h1, emitted_by_nonempty _ _ _ _ hr h2⟩
  · intro result_entries result_conflicts h c hc
    obtain ⟨diffs, by_edit, h1, h2, h3⟩ := merge_conflicts _ _ _ _ _ _ _ h
    rw [h3, List.mem_flatten] at hc
    obtain ⟨cs, hcs, hmem⟩ := hc
    obtain ⟨e, he, hem⟩ := forall₂_mem_right _ _ _ h2 cs hcs
    exact emitted_by_nonempty _ _ e cs (compute_differences_ranges _ _ _ _ h1 e he) hem c hmem

/-- The claim C16 at ancestor "abcde\n", "z\n", mainstream "abcdX\n", "z\n" and modified
"Ybcde\n", "z\n": the one conflict of the merge has an entry on both sides. -/
theorem conflict_well_formed_witness :
    merge fstrcmp_ratio diag_corner [[97, 98, 99, 100, 101, 10], [122, 10]]
        [[97, 98, 99, 100, 88, 10], [122, 10]] [[89, 98, 99, 100, 101, 10], [122, 10]] =
      some ([[97, 98, 99, 100, 88, 10], [122, 10]],
        [{ old_entries := [[97, 98, 99, 100, 101, 10]],
           modified_entries := [[89, 98, 99, 100, 101, 10]] }]) ∧
    ∀ c ∈ ([{ old_entries := [[97, 98, 99, 100, 101, 10]],
              modified_entries := [[89, 98, 99, 100, 101, 10]] }] : List conflict),
      c.old_entries ≠ [] ∨ c.modified_entries ≠ [] :=
  ⟨by decide!,
    (conflict_well_formed fstrcmp_ratio diag_corner [[97, 98, 99, 100, 101, 10], [122, 10]]
      [[97, 98, 99, 100, 88, 10], [122, 10]] [[89, 98, 99, 100, 101, 10], [122, 10]]).2
      [[97, 98, 99, 100, 88, 10], [122, 10]] _ (by decide!)⟩

/-- C17: the mapping bijection invariant. For either value of `full`,
`compute_mapping (file1, file2, full)` returns, and in its result as well as after any
further calls of `entries_mapping_get` and `entries_mapping_reverse_get`: whenever
`index_mapping[i]` is an index `j >= 0`, then `j < n2` and `index_mapping_reverse[j]`
is `i`; and whenever `index_mapping_reverse[j]` is an index `i >= 0`, then `i < n1` and
`index_mapping[i]` is `j`. -/
theorem mapping_bijection (fstrcmp_bounded : Fstrcmp) (file1 file2 : List Entry)
    (full : Bool) :
    ∃ mapping0, compute_mapping fstrcmp_bounded file1 file2 full = some mapping0 ∧
      ∀ mapping, Probed fstrcmp_bounded mapping0 mapping →
        (∀ i j : Nat, i < file1.length → mapping.index_mapping.getD i 0 = (j : Int) →
          j < file2.length ∧ mapping.index_mapping_reverse.getD j 0 = (i : Int)) ∧
        (∀ j i : Nat, j < file2.length → mapping.index_mapping_reverse.getD j 0 = (i : Int) →
          i < file1.length ∧ mapping.index_mapping.getD i 0 = (j : Int)) := by
  obtain ⟨mapping0, h0, hinv⟩ := compute_mapping_mutual fstrcmp_bounded file1 file2 full
  refine ⟨mapping0, h0, ?_⟩
  intro mapping hp
  obtain ⟨_, _, hf, hr⟩ := probed_mutual fstrcmp_bounded mapping0 mapping _ _ hinv hp
  exact ⟨hf, hr⟩

/-- The claim C17 for the files "abcde\n", "z\n" and "abcdX\n", "z\n": the call
`entries_mapping_get (mapping, 0)` binds the first entries to each other, in both
arrays. -/
theorem mapping_bijection_witness :
    compute_mapping fstrcmp_ratio [[97, 98, 99, 100, 101, 10], [122, 10]]
      [[97, 98, 99, 100, 88, 10], [122, 10]] false = some witness_mapping_probe ∧
    (entries_mapping_get fstrcmp_ratio witness_mapping_probe 0).2.index_mapping.getD 0 0
      = ((0 : Nat) : Int) ∧
    (0 < ([[97, 98, 99, 100, 88, 10], [122, 10]] : List Entry).length ∧
      (entries_mapping_get fstrcmp_ratio witness_mapping_probe 0).2.index_mapping_reverse.getD
        0 0 = ((0 : Nat) : Int)) := by
  have hc : compute_mapping fstrcmp_ratio [[97, 98, 99, 100, 101, 10], [122, 10]]
      [[97, 98, 99, 100, 88, 10], [122, 10]] false = some witness_mapping_probe := by decide
  have hg : (entries_mapping_get fstrcmp_ratio witness_mapping_probe 0).2.index_mapping.getD
      0 0 = ((0 : Nat) : Int) := by decide!
  obtain ⟨mapping0, h0, hall⟩ := mapping_bijection fstrcmp_ratio
    [[97, 98, 99, 100, 101, 10], [122, 10]] [[97, 98, 99, 100, 88, 10], [122, 10]] false
  have hm : mapping0 = witness_mapping_probe := Option.some.inj (h0.symm.trans hc)
  subst hm
  exact ⟨hc, hg,
    (hall _ (Probed.get _ 0 Probed.start)).1 0 0 (by decide) hg⟩

/-- C18: the edit script covers all positions. With a midpoint search (a parameter of
the model) that gives a point of its window other than the two corners it was given,
`compute_differences (file1, file2)` returns, and in its result every position `i` of
FILE1 that is mapped (`index_mapping[i] >= 0`) lies in the range of no REMOVAL or CHANGE
edit, and every position that is not mapped lies in the range `[i1, i2]` of exactly one
REMOVAL or CHANGE edit; likewise every position `j` of FILE2 is mapped and in no range,
or in the range `[j1, j2]` of exactly one ADDITION or CHANGE edit. -/
theorem edits_cover_positions (diag : Diag) (file1 file2 : List Entry)
    (hd : DiagOk diag file1 file2) :
    ∃ diffs, compute_differences diag file1 file2 = some diffs ∧
      (∀ i, i < file1.length →
        diffs.edits.countP (fun e => covers_file1 e i) =
          if diffs.index_mapping.getD i 0 ≥ 0 then 0 else 1) ∧
      (∀ j, j < file2.length →
        diffs.edits.countP (fun e => covers_file2 e j) =
          if diffs.index_mapping_reverse.getD j 0 ≥ 0 then 0 else 1) := by
  obtain ⟨ctxt, edits, hdiff, _, _, cpath, he⟩ := compute_differences_path diag file1 file2 hd
  obtain ⟨edits1, he1, h1, h2⟩ := create_edits_cover file1 file2 ctxt
    (file1.length + file2.length + 1) 0 0 (by omega) cpath
  have hsame : edits1 = edits := Option.some.inj (he1.symm.trans he)
  subst hsame
  refine ⟨_, hdiff, ?_, ?_⟩
  · intro i hi
    show edits1.countP (fun e => covers_file1 e i) = if ctxt.1.getD i 0 ≥ 0 then 0 else 1
    rw [h1 i]
    split_ifs <;> first | rfl | (exfalso; omega)
  · intro j hj
    show edits1.countP (fun e => covers_file2 e j) = if ctxt.2.getD j 0 ≥ 0 then 0 else 1
    rw [h2 j]
    split_ifs <;> first | rfl | (exfalso; omega)

/-- The claim C18 at the files "A\n", "BBBB\n", "C\n" and "A\n", "X\n", "BBBC\n", "C\n":
the edit script is one CHANGE, which covers position 1 of the first file and the
positions 1 and 2 of the second file. -/
theorem edits_cover_positions_witness :
    DiagOk diag_corner [[65, 10], [66, 66, 66, 66, 10], [67, 10]]
      [[65, 10], [88, 10], [66, 66, 66, 67, 10], [67, 10]] ∧
    compute_differences diag_corner [[65, 10], [66, 66, 66, 66, 10], [67, 10]]
      [[65, 10], [88, 10], [66, 66, 66, 67, 10], [67, 10]] =
      some { index_mapping := [0, -1, 3], index_mapping_reverse := [0, -1, -1, 2],
             edits := [edit.CHANGE 1 1 1 2] } ∧
    ∃ diffs, compute_differences diag_corner [[65, 10], [66, 66, 66, 66, 10], [67, 10]]
        [[65, 10], [88, 10], [66, 66, 66, 67, 10], [67, 10]] = some diffs ∧
      (∀ i, i < ([[65, 10], [66, 66, 66, 66, 10], [67, 10]] : List Entry).length →
        diffs.edits.countP (fun e => covers_file1 e i) =
          if diffs.index_mapping.getD i 0 ≥ 0 then 0 else 1) ∧
      (∀ j, j < ([[65, 10], [88, 10], [66, 66, 66, 67, 10], [67, 10]] : List Entry).length →
        diffs.edits.countP (fun e => covers_file2 e j) =
          if diffs.index_mapping_reverse.getD j 0 ≥ 0 then 0 else 1) :=
  ⟨diagOk_corner _ _, by decide,
    edits_cover_positions diag_corner [[65, 10], [66, 66, 66, 66, 10], [67, 10]]
      [[65, 10], [88, 10], [66, 66, 66, 67, 10], [67, 10]] (diagOk_corner _ _)⟩

/-- C11 as stated fails: with E1 = "T\n\n\tA\n\n", E1a = "Txxxxxxxxx\n\n\tA\n\n",
E1b = "T\n\n\tB\n\n\tA\n\n" (the paragraph "\tB" added under the title of E1) and
E2 = "E\n", the three entries are pairwise different, the similarities of E1 to E1a
and to E1b are 14/23 and 7/9, that of E1a to E1b is 14/27, below 0.6; the entry E1b is
split, its first part "T\n\n\tB\n\n" is added at the top and its second part is E1, so
the merge has no conflict and its result is "T\n\n\tB\n\n", E1a, E2. -/
theorem scenario_S3_split_counterexample :
    ([[84, 120, 120, 120, 120, 120, 120, 120, 120, 120, 10, 10, 9, 65, 10, 10],
      [84, 10, 10, 9, 66, 10, 10, 9, 65, 10, 10],
      [84, 10, 10, 9, 65, 10, 10]] : List Entry).Pairwise (· ≠ ·) ∧
    FSTRCMP_THRESHOLD ≤ entry_fstrcmp fstrcmp_ratio [84, 10, 10, 9, 65, 10, 10]
      [84, 120, 120, 120, 120, 120, 120, 120, 120, 120, 10, 10, 9, 65, 10, 10]
      FSTRCMP_THRESHOLD ∧
    FSTRCMP_THRESHOLD ≤ entry_fstrcmp fstrcmp_ratio [84, 10, 10, 9, 65, 10, 10]
      [84, 10, 10, 9, 66, 10, 10, 9, 65, 10, 10] FSTRCMP_THRESHOLD ∧
    entry_fstrcmp fstrcmp_ratio
      [84, 120, 120, 120, 120, 120, 120, 120, 120, 120, 10, 10, 9, 65, 10, 10]
      [84, 10, 10, 9, 66, 10, 10, 9, 65, 10, 10] FSTRCMP_THRESHOLD < FSTRCMP_THRESHOLD ∧
    merge fstrcmp_ratio diag_corner [[84, 10, 10, 9, 65, 10, 10], [69, 10]]
        [[84, 120, 120, 120, 120, 120, 120, 120, 120, 120, 10, 10, 9, 65, 10, 10], [69, 10]]
        [[84, 10, 10, 9, 66, 10, 10, 9, 65, 10, 10], [69, 10]] =
      some ([[84, 10, 10, 9, 66, 10, 10],
        [84, 120, 120, 120, 120, 120, 120, 120, 120, 120, 10, 10, 9, 65, 10, 10], [69, 10]],
        []) ∧
    merge fstrcmp_ratio diag_corner [[84, 10, 10, 9, 65, 10, 10], [69, 10]]
        [[84, 120, 120, 120, 120, 120, 120, 120, 120, 120, 10, 10, 9, 65, 10, 10], [69, 10]]
        [[84, 10, 10, 9, 66, 10, 10, 9, 65, 10, 10], [69, 10]] ≠
      some ([[84, 120, 120, 120, 120, 120, 120, 120, 120, 120, 10, 10, 9, 65, 10, 10],
        [69, 10]],
        [{ old_entries := [[84, 10, 10, 9, 65, 10, 10]],
           modified_entries := [[84, 10, 10, 9, 66, 10, 10, 9, 65, 10, 10]] }]) ∧
    exit_status ([] : List conflict) ≠ 1 := by
  decide!

/-- C11, amended: scenario S3 when the entry changed on the modified side is not split.
For all entries E1, E2, E1a, E1b with E1a, E1b, E1 pairwise different and such that
`try_split_merged_entry (E1, E1b)` returns false, the merge of the ancestor `[E1, E2]`,
the mainstream `[E1a, E2]` and the modified `[E1b, E2]` has exactly one conflict, with
the ancestor side `[E1]` and the modified side `[E1b]`; the merged sequence is
`[E1a, E2]` and the exit status is 1. (This holds whatever the similarities of the three
entries are. The midpoint search, a parameter of the model, is called once, for the
window that holds E1 and E1b; it is taken to cut this window at one of its two other
corners.) -/
theorem scenario_S3 (fstrcmp_bounded : Fstrcmp) (diag : Diag) (E1 E2 E1a E1b : Entry)
    (hdistinct : [E1a, E1b, E1].Pairwise (· ≠ ·))
    (hsplit : try_split_merged_entry fstrcmp_bounded E1 E1b = some none)
    (hdiag : diag [E1, E2] [E1b, E2] 0 1 0 1 = (1, 0) ∨
      diag [E1, E2] [E1b, E2] 0 1 0 1 = (0, 1)) :
    merge fstrcmp_bounded diag [E1, E2] [E1a, E2] [E1b, E2] =
      some ([E1a, E2], [{ old_entries := [E1], modified_entries := [E1b] }]) ∧
    exit_status [{ old_entries := [E1], modified_entries := [E1b] }] = 1 := by
  simp only [List.pairwise_cons, List.mem_cons, List.mem_singleton] at hdistinct
  have ha : E1 ≠ E1a := Ne.symm (hdistinct.1 E1 (Or.inr (Or.inl rfl)))
  have hb : E1 ≠ E1b := Ne.symm (hdistinct.2.1 E1 (Or.inl rfl))
  exact ⟨merge_scenario_S3 fstrcmp_bounded diag E1 E2 E1a E1b ha hb hsplit hdiag, rfl⟩

/-- Witness of C11 (amended), with E1 = "abcde\n", E1a = "abcdX\n", E1b = "Ybcde\n" and
E2 = "z\n". -/
theorem scenario_S3_witness :
    ([[97, 98, 99, 100, 88, 10], [89, 98, 99, 100, 101, 10],
      [97, 98, 99, 100, 101, 10]] : List Entry).Pairwise (· ≠ ·) ∧
    try_split_merged_entry fstrcmp_ratio [97, 98, 99, 100, 101, 10]
      [89, 98, 99, 100, 101, 10] = some none ∧
    (merge fstrcmp_ratio diag_corner [[97, 98, 99, 100, 101, 10], [122, 10]]
        [[97, 98, 99, 100, 88, 10], [122, 10]] [[89, 98, 99, 100, 101, 10], [122, 10]] =
      some ([[97, 98, 99, 100, 88, 10], [122, 10]],
        [{ old_entries := [[97, 98, 99, 100, 101, 10]],
           modified_entries := [[89, 98, 99, 100, 101, 10]] }]) ∧
    exit_status [{ old_entries := [[97, 98, 99, 100, 101, 10]],
                   modified_entries := [[89, 98, 99, 100, 101, 10]] }] = 1) :=
  ⟨by decide, by decide!,
    scenario_S3 fstrcmp_ratio diag_corner [97, 98, 99, 100, 101, 10] [122, 10]
      [97, 98, 99, 100, 88, 10] [89, 98, 99, 100, 101, 10] (by decide) (by decide!)
      (Or.inl rfl)⟩

/-- C21 (entries with NUL bytes never match fuzzily): `entry_fstrcmp` is 0 as soon as
one of the two entries holds a NUL byte; `entries_mapping_get` at a position `i` that is
not yet computed and whose entry holds a NUL byte returns -1 and changes nothing but
`index_mapping[i]`, which becomes -1; and for a position `j` of FILE2 whose entry holds
a NUL byte, neither lookup function binds it: after the call the slot
`index_mapping_reverse[j]` is non-negative only if it held that value before, and no slot
of `index_mapping` holds `j` unless it did before. -/
theorem nul_never_matches (fstrcmp_bounded : Fstrcmp) :
    (∀ (entry1 entry2 : Entry) (lower_bound : ℚ),
      ((0 : Byte) ∈ entry1 ∨ (0 : Byte) ∈ entry2) →
      entry_fstrcmp fstrcmp_bounded entry1 entry2 lower_bound = 0) ∧
    (∀ (mapping : entries_mapping) (i : Nat),
      mapping.index_mapping.getD i 0 < -1 → (0 : Byte) ∈ mapping.file1.getD i [] →
      entries_mapping_get fstrcmp_bounded mapping i =
        (-1, { mapping with index_mapping := mapping.index_mapping.set i (-1) })) ∧
    (∀ (mapping : entries_mapping) (j : Nat), (0 : Byte) ∈ mapping.file2.getD j [] →
      ∀ (k : Nat) (after : entries_mapping),
        (after = (entries_mapping_get fstrcmp_bounded mapping k).2 ∨
          after = (entries_mapping_reverse_get fstrcmp_bounded mapping k).2) →
        (after.index_mapping_reverse.getD j 0 ≥ 0 →
          after.index_mapping_reverse.getD j 0 = mapping.index_mapping_reverse.getD j 0) ∧
        (∀ p : Nat, after.index_mapping.getD p 0 = (j : Int) →
          mapping.index_mapping.getD p 0 = (j : Int))) := by
  refine ⟨fun e1 e2 lb h => entry_fstrcmp_nul _ _ _ _ h,
    fun mapping i hi hnul => entries_mapping_get_nul _ _ _ hi hnul, ?_⟩
  intro mapping j hnul k after hafter
  rcases hafter with h | h
  · subst h
    obtain ⟨h1, h2⟩ := entries_mapping_get_keeps_nul fstrcmp_bounded mapping k j hnul
    exact ⟨fun _ => h1, h2⟩
  · subst h
    obtain ⟨h1, h2⟩ := entries_mapping_reverse_get_keeps_nul fstrcmp_bounded mapping k j hnul
    refine ⟨fun hge => ?_, h2⟩
    rcases h1 with h1 | h1
    · exact h1
    · omega

/-- The statement of C21 at a mapping whose first entries hold a NUL byte: the lookup
of position 0 returns -1 and only marks that position as not found. -/
theorem nul_never_matches_witness :
    witness_mapping_nul.index_mapping.getD 0 0 < -1 ∧
    (0 : Byte) ∈ witness_mapping_nul.file1.getD 0 [] ∧
    entries_mapping_get fstrcmp_ratio witness_mapping_nul 0 =
      (-1, { witness_mapping_nul with index_mapping := [-1, -2] }) :=
  ⟨by decide, by decide,
    (nul_never_matches fstrcmp_ratio).2.1 witness_mapping_nul 0 (by decide) (by decide)⟩

/-- C22 (direction heuristic): the value of `downstream` that `main` computes from
the three variables of the environment is the one the claim describes; with
downstream the mainstream file is B (the other file) and the modified file is A (the
destination file), with upstream the opposite. -/
theorem direction_heuristic (git_downstream git_upstream git_reflog_action :
    Option (List Byte)) :
    (guess_downstream git_downstream git_upstream git_reflog_action = true ↔
      spec_downstream git_downstream git_upstream git_reflog_action) ∧
    ∀ (α : Type) (A B : α),
      (spec_downstream git_downstream git_upstream git_reflog_action →
        mainstream_of (guess_downstream git_downstream git_upstream git_reflog_action) A B = B ∧
        modified_of (guess_downstream git_downstream git_upstream git_reflog_action) A B = A) ∧
      (¬ spec_downstream git_downstream git_upstream git_reflog_action →
        mainstream_of (guess_downstream git_downstream git_upstream git_reflog_action) A B = A ∧
        modified_of (guess_downstream git_downstream git_upstream git_reflog_action) A B = B) := by
  have key : guess_downstream git_downstream git_upstream git_reflog_action = true ↔
      spec_downstream git_downstream git_upstream git_reflog_action := by
    unfold guess_downstream spec_downstream
    rw [set_and_nonempty_iff, set_and_nonempty_iff]
    by_cases hd : git_downstream ≠ none ∧ git_downstream ≠ some []
    · rw [if_pos hd]
      exact ⟨fun _ => Or.inl hd, fun _ => rfl⟩
    rw [if_neg hd]
    by_cases hu : git_upstream ≠ none ∧ git_upstream ≠ some []
    · rw [if_pos hu]
      constructor
      · intro h; cases h
      · rintro (h | ⟨_, h, _⟩)
        · exact absurd h hd
        · exact absurd hu h
    rw [if_neg hu]
    cases git_reflog_action with
    | none =>
      constructor
      · intro h; cases h
      · rintro (h | ⟨_, _, v, hv, _⟩)
        · exact absurd h hd
        · cases hv
    | some var =>
      dsimp only
      have hc_iff : ((strncmp_eq var str_pull = true ∧ c_strstr var str_rebase = none) ∨
          strncmp_eq var str_merge_origin = true) ↔
          ((str_pull <+: var ∧ ¬ str_rebase <:+: var) ∨ str_merge_origin <+: var) := by
        rw [strncmp_eq_iff, strncmp_eq_iff]
        unfold c_strstr
        rw [c_strstr_from_none]
      by_cases c : (strncmp_eq var str_pull = true ∧ c_strstr var str_rebase = none) ∨
          strncmp_eq var str_merge_origin = true
      · rw [if_pos c]
        exact ⟨fun _ => Or.inr ⟨hd, hu, var, rfl, hc_iff.mp c⟩, fun _ => rfl⟩
      · rw [if_neg c]
        constructor
        · intro h; cases h
        · rintro (h | ⟨_, _, v, hv, hc⟩)
          · exact absurd h hd
          · cases hv
            exact absurd (hc_iff.mpr hc) c
  refine ⟨key, fun α A B => ⟨fun h => ?_, fun h => ?_⟩⟩
  · rw [key.mpr h]; exact ⟨rfl, rfl⟩
  · have hf : guess_downstream git_downstream git_upstream git_reflog_action = false := by
      cases hg : guess_downstream git_downstream git_upstream git_reflog_action
      · rfl
      · exact absurd (key.mp hg) h
    rw [hf]; exact ⟨rfl, rfl⟩

/-- C23 as stated fails: with the ancestor `["p\n", "abcde\n"]`, the mainstream
`["p\n", "n\n", "abcde\n"]` (an entry inserted) and the modified file
`["p\n", "abcdx\n"]`, the edit is CHANGE 1 1 1 1 with `j1 = 1 > 0`, it is simple (the
similarity is 5/6), the entry before it is mapped to slot 0 and the changed entry to
slot 2, so the change is not linear; the ancestor entry 1 is byte-equal to the mainstream
entry of slot 2, so the single-entry replacement would put "abcdx\n" into slot 2 without
a conflict; the program leaves the mainstream entries as they are and reports one
conflict with the ancestor side `["abcde\n"]` and the modified side `["abcdx\n"]`. -/
theorem interior_nonlinear_counterexample :
    compute_mapping fstrcmp_ratio [[112, 10], [97, 98, 99, 100, 101, 10]]
      [[112, 10], [110, 10], [97, 98, 99, 100, 101, 10]] false =
      some witness_mapping_nonlinear ∧
    compute_differences diag_corner [[112, 10], [97, 98, 99, 100, 101, 10]]
      [[112, 10], [97, 98, 99, 100, 120, 10]] = some witness_diffs_nonlinear ∧
    FSTRCMP_THRESHOLD ≤ entry_fstrcmp fstrcmp_ratio [97, 98, 99, 100, 101, 10]
      [97, 98, 99, 100, 120, 10] FSTRCMP_THRESHOLD ∧
    (entries_mapping_get fstrcmp_ratio witness_mapping_nonlinear 0).1 = 0 ∧
    (entries_mapping_get fstrcmp_ratio witness_mapping_nonlinear 1).1 = 2 ∧
    ([[112, 10], [97, 98, 99, 100, 101, 10]] : List Entry).getD 1 [] =
      ([[112, 10], [110, 10], [97, 98, 99, 100, 101, 10]] : List Entry).getD 2 [] ∧
    merge fstrcmp_ratio diag_corner [[112, 10], [97, 98, 99, 100, 101, 10]]
        [[112, 10], [110, 10], [97, 98, 99, 100, 101, 10]]
        [[112, 10], [97, 98, 99, 100, 120, 10]] =
      some ([[112, 10], [110, 10], [97, 98, 99, 100, 101, 10]],
        [{ old_entries := [[97, 98, 99, 100, 101, 10]],
           modified_entries := [[97, 98, 99, 100, 120, 10]] }]) ∧
    merge fstrcmp_ratio diag_corner [[112, 10], [97, 98, 99, 100, 101, 10]]
        [[112, 10], [110, 10], [97, 98, 99, 100, 101, 10]]
        [[112, 10], [97, 98, 99, 100, 120, 10]] ≠
      some ([[112, 10], [110, 10], [97, 98, 99, 100, 120, 10]], []) := by
  decide!

/-- C23, amended: a CHANGE edit with `j1 > 0` that is simple (`i2 - i1 <= j2 - j1` and
every aligned pair has a similarity of at least 0.6) but not linear (the lookup of the
ancestor entry `i_before` before the edit gives no slot `k_before`, or the loop that
compares the slots of the changed entries with `k_before + (i - i_before)` finds a
difference) makes no single-entry replacement: the result entries stay as they are and
exactly one conflict, with the ancestor side `A[i1..i2]` and the modified side
`U[j1..j2]`, is appended. -/
theorem interior_nonlinear_change (fstrcmp_bounded : Fstrcmp)
    (ancestor_file mainstream_file modified_file : List Entry) (diffs : differences)
    (i1 i2 j1 j2 i_before : Nat) (st : merge_state)
    (hj1 : 0 < j1) (hle : i2 - i1 ≤ j2 - j1)
    (hsim : ∀ i, i1 ≤ i → i ≤ i2 →
      FSTRCMP_THRESHOLD ≤ entry_fstrcmp fstrcmp_bounded (ancestor_file.getD i [])
        (modified_file.getD (i + j2 - i2) []) FSTRCMP_THRESHOLD)
    (hbefore : diffs.index_mapping_reverse.getD (j1 - 1) 0 = (i_before : Int))
    (hnot : ¬ ((entries_mapping_get fstrcmp_bounded st.mapping i_before).1 ≥ 0 ∧
      (linear_test fstrcmp_bounded i_before
        (entries_mapping_get fstrcmp_bounded st.mapping i_before).1 (i2 - i1 + 1)
        (i_before + 1) (entries_mapping_get fstrcmp_bounded st.mapping i_before).2).1 = true)) :
    ∃ mapping1 : entries_mapping,
      apply_edit fstrcmp_bounded ancestor_file mainstream_file modified_file diffs
          (edit.CHANGE i1 i2 j1 j2) st =
        some { mapping := mapping1
               result_entries := st.result_entries
               result_conflicts := st.result_conflicts ++
                 [{ old_entries := entries_range ancestor_file i1 i2
                    modified_entries := entries_range modified_file j1 j2 }] } :=
  apply_change_nonlinear fstrcmp_bounded ancestor_file mainstream_file modified_file diffs
    i1 i2 j1 j2 i_before st hj1
    ⟨hle, (all_similar_iff _ _ _ _ _ _ _).mpr (fun i h1 h2 => hsim i h1 (by omega))⟩
    hbefore hnot

/-- Witness of C23 (amended): the edit CHANGE 1 1 1 1 of the counterexample, applied
to the initial state of that merge. -/
theorem interior_nonlinear_change_witness :
    ∃ mapping1 : entries_mapping,
      apply_edit fstrcmp_ratio [[112, 10], [97, 98, 99, 100, 101, 10]]
          [[112, 10], [110, 10], [97, 98, 99, 100, 101, 10]]
          [[112, 10], [97, 98, 99, 100, 120, 10]] witness_diffs_nonlinear
          (edit.CHANGE 1 1 1 1)
          { mapping := witness_mapping_nonlinear
            result_entries := initial_result [[112, 10], [110, 10], [97, 98, 99, 100, 101, 10]]
            result_conflicts := [] } =
        some { mapping := mapping1
               result_entries :=
                 initial_result [[112, 10], [110, 10], [97, 98, 99, 100, 101, 10]]
               result_conflicts := [] ++
                 [{ old_entries := entries_range [[112, 10], [97, 98, 99, 100, 101, 10]] 1 1
                    modified_entries :=
                      entries_range [[112, 10], [97, 98, 99, 100, 120, 10]] 1 1 }] } :=
  interior_nonlinear_change fstrcmp_ratio [[112, 10], [97, 98, 99, 100, 101, 10]]
    [[112, 10], [110, 10], [97, 98, 99, 100, 101, 10]]
    [[112, 10], [97, 98, 99, 100, 120, 10]] witness_diffs_nonlinear 1 1 1 1 0
    { mapping := witness_mapping_nonlinear
      result_entries := initial_result [[112, 10], [110, 10], [97, 98, 99, 100, 101, 10]]
      result_conflicts := [] }
    (by decide) (by decide)
    (by
      intro i h1 h2
      have hi : i = 1 := by omega
      subst hi
      decide!)
    (by decide) (by decide!)

/-- C24 at a failing input: the ancestor and the mainstream file are "p\n\ncc\n\n" and
the modified file is "p\n\nxx\n\nyy\n\n" (the entry "cc" replaced by the two entries "xx"
and "yy"). The only edit is CHANGE 1 1 1 2; it is not at the top and not simple, the
aligned pair ("cc\n\n", "yy\n\n") having the similarity 1/2; the ancestor entry 1 is
mapped to the mainstream slot 1 and is byte-equal to it, so the big change applies
without a conflict. The loop `for (j = edit->j2; j >= edit->j1; j--)` puts each entry
immediately before the node of slot 1, so the new entries stand in the result in the
reverse order, "yy" before "xx", and not in the order of the modified file. -/
theorem big_change_reversed_order :
    read_changelog_file [112, 10, 10, 99, 99, 10, 10] = [[112, 10, 10], [99, 99, 10, 10]] ∧
    read_changelog_file [112, 10, 10, 120, 120, 10, 10, 121, 121, 10, 10] =
      [[112, 10, 10], [120, 120, 10, 10], [121, 121, 10, 10]] ∧
    (compute_differences diag_corner [[112, 10, 10], [99, 99, 10, 10]]
      [[112, 10, 10], [120, 120, 10, 10], [121, 121, 10, 10]]).map differences.edits =
      some [edit.CHANGE 1 1 1 2] ∧
    entry_fstrcmp fstrcmp_ratio [99, 99, 10, 10] [121, 121, 10, 10] FSTRCMP_THRESHOLD
      < FSTRCMP_THRESHOLD ∧
    (compute_mapping fstrcmp_ratio [[112, 10, 10], [99, 99, 10, 10]]
      [[112, 10, 10], [99, 99, 10, 10]] false).map entries_mapping.index_mapping =
      some [0, 1] ∧
    merge fstrcmp_ratio diag_corner [[112, 10, 10], [99, 99, 10, 10]]
        [[112, 10, 10], [99, 99, 10, 10]]
        [[112, 10, 10], [120, 120, 10, 10], [121, 121, 10, 10]] =
      some ([[112, 10, 10], [121, 121, 10, 10], [120, 120, 10, 10], []], []) ∧
    main_run fstrcmp_ratio diag_corner false [112, 10, 10, 99, 99, 10, 10]
        [112, 10, 10, 99, 99, 10, 10] [112, 10, 10, 120, 120, 10, 10, 121, 121, 10, 10] =
      some ([112, 10, 10, 121, 121, 10, 10, 120, 120, 10, 10], 0) ∧
    main_run fstrcmp_ratio diag_corner false [112, 10, 10, 99, 99, 10, 10]
        [112, 10, 10, 99, 99, 10, 10] [112, 10, 10, 120, 120, 10, 10, 121, 121, 10, 10] ≠
      some ([112, 10, 10, 120, 120, 10, 10, 121, 121, 10, 10], 0) := by
  decide!

/-- C25 (simple-merged change at the top): for a CHANGE edit with `j1 = 0` that passes
the simple-merged test (`i2 - i1 <= j2 - j1`, the split of `U[j1 + num_added]` against
`A[i1]` succeeds with the two parts `split`, and every later aligned pair has a
similarity of at least 0.6), the edit is applied, and the result list afterwards is
`U[j1 .. j1 + num_added - 1]` in order, then the first part of the split, then the
previous result list after the single-entry changes of the aligned pairs
`(i1 + d, j1 + num_added + d)`, made in order, where the new content of the first pair
is the second part of the split and that of a later pair is `U[j1 + num_added + d]`;
the mapping and the conflicts are those left by these single-entry changes. -/
theorem simple_merged_change (fstrcmp_bounded : Fstrcmp)
    (ancestor_file mainstream_file modified_file : List Entry) (diffs : differences)
    (i1 i2 j1 j2 num_added : Nat) (split : Entry × Entry) (st : merge_state)
    (hj1 : j1 = 0) (h12 : i1 ≤ i2) (hle : i2 - i1 ≤ j2 - j1)
    (hna : num_added = (j2 - j1 + 1) - (i2 - i1 + 1))
    (hsplit : try_split_merged_entry fstrcmp_bounded (ancestor_file.getD i1 [])
      (modified_file.getD (j1 + num_added) []) = some (some split))
    (hsim : ∀ i, i1 < i → i ≤ i2 →
      FSTRCMP_THRESHOLD ≤ entry_fstrcmp fstrcmp_bounded (ancestor_file.getD i [])
        (modified_file.getD (i + j2 - i2) []) FSTRCMP_THRESHOLD) :
    ∃ st1 : merge_state,
      apply_edit fstrcmp_bounded ancestor_file mainstream_file modified_file diffs
        (edit.CHANGE i1 i2 j1 j2) st = some st1 ∧
      st1.result_entries =
        (List.range' j1 num_added).map
            (fun j => ({ slot := none, value := modified_file.getD j [] } : node)) ++
          ({ slot := none, value := split.1 } : node) ::
            ((List.range (i2 + 1 - i1)).foldl
              (fun s d => spec_single_change fstrcmp_bounded ancestor_file mainstream_file
                (i1 + d) (if d = 0 then split.2 else modified_file.getD (j1 + num_added + d) [])
                s) st).result_entries ∧
      st1.mapping =
        ((List.range (i2 + 1 - i1)).foldl
          (fun s d => spec_single_change fstrcmp_bounded ancestor_file mainstream_file
            (i1 + d) (if d = 0 then split.2 else modified_file.getD (j1 + num_added + d) [])
            s) st).mapping ∧
      st1.result_conflicts =
        ((List.range (i2 + 1 - i1)).foldl
          (fun s d => spec_single_change fstrcmp_bounded ancestor_file mainstream_file
            (i1 + d) (if d = 0 then split.2 else modified_file.getD (j1 + num_added + d) [])
            s) st).result_conflicts := by
  subst hj1
  have hna2 : num_added = j2 - (i2 - i1) := by omega
  have hidx : i1 + j2 - i2 = 0 + num_added := by omega
  rw [← hidx] at hsplit
  have happ := change_simple_merged_applies fstrcmp_bounded ancestor_file mainstream_file
    modified_file i1 i2 j2 split st hle hsplit
    ((all_similar_iff _ _ _ _ _ _ _).mpr (fun i h1 h2 => hsim i (by omega) (by omega)))
  rw [← hna] at happ
  have hcount : j2 + 1 - (0 + num_added) = i2 + 1 - i1 := by omega
  rw [hcount, merged_changes_foldl, foldl_range_shift, add_first_desc_eq] at happ
  have hfun : (fun (s : merge_state) (d : Nat) =>
      spec_single_change fstrcmp_bounded ancestor_file mainstream_file
        (0 + num_added + d + i2 - j2)
        (if 0 + num_added + d = 0 + num_added then split.2
          else modified_file.getD (0 + num_added + d) []) s) =
      (fun (s : merge_state) (d : Nat) =>
      spec_single_change fstrcmp_bounded ancestor_file mainstream_file
        ((fun d => 0 + num_added + d + i2 - j2) d)
        ((fun d => if d = 0 then split.2 else modified_file.getD (0 + num_added + d) []) d)
        s) := by
    funext s d
    by_cases hd : d = 0
    · simp [hd]
    · simp [hd]
  have hpre : ∀ n ∈ (List.range num_added).map
      (fun d => ({ slot := none, value := modified_file.getD (0 + d) [] } : node)) ++
      [({ slot := none, value := split.1 } : node)], n.slot = none := by
    intro n hn
    rw [List.mem_append, List.mem_map] at hn
    rcases hn with ⟨d, _, hd⟩ | hn
    · rw [← hd]
    · rw [List.mem_singleton] at hn
      rw [hn]
  have hstate : (⟨st.mapping, (List.range num_added).map
        (fun d => ({ slot := none, value := modified_file.getD (0 + d) [] } : node)) ++
        gl_list_add_first st.result_entries split.1, st.result_conflicts⟩ : merge_state) =
      ⟨st.mapping, ((List.range num_added).map
          (fun d => ({ slot := none, value := modified_file.getD (0 + d) [] } : node)) ++
          [({ slot := none, value := split.1 } : node)]) ++ st.result_entries,
        st.result_conflicts⟩ := by
    simp [gl_list_add_first]
  rw [hfun, hstate, single_changes_front _ _ _ _ hpre] at happ
  have hfold : ∀ (steps : List Nat) (s : merge_state), (∀ d ∈ steps, d < i2 + 1 - i1) →
      steps.foldl (fun s d => spec_single_change fstrcmp_bounded ancestor_file mainstream_file
        ((fun d => 0 + num_added + d + i2 - j2) d)
        ((fun d => if d = 0 then split.2 else modified_file.getD (0 + num_added + d) []) d)
        s) s =
      steps.foldl (fun s d => spec_single_change fstrcmp_bounded ancestor_file mainstream_file
        (i1 + d) (if d = 0 then split.2 else modified_file.getD (0 + num_added + d) []) s) s := by
    intro steps
    induction steps with
    | nil => intro s _; rfl
    | cons d rest ih =>
      intro s hd
      rw [List.foldl_cons, List.foldl_cons]
      have hlt := hd d (List.mem_cons_self _ _)
      have e : 0 + num_added + d + i2 - j2 = i1 + d := by omega
      dsimp only
      rw [e]
      exact ih _ (fun d' hd' => hd d' (List.mem_cons_of_mem _ hd'))
  rw [hfold _ _ (fun d hd => List.mem_range.mp hd)] at happ
  have hedit : ∀ st1 : merge_state,
      change_simple_merged fstrcmp_bounded ancestor_file mainstream_file modified_file
        i1 i2 0 j2 st = some (true, st1) →
      apply_edit fstrcmp_bounded ancestor_file mainstream_file modified_file diffs
        (edit.CHANGE i1 i2 0 j2) st = some st1 := by
    intro st1 h1
    show apply_change _ _ _ _ _ _ _ _ _ _ = _
    unfold apply_change
    rw [h1]
  refine ⟨_, hedit _ happ, ?_, rfl, rfl⟩
  · dsimp only
    rw [List.append_assoc, List.singleton_append, List.range_eq_range']
    congr 1
    apply List.map_congr_left
    intro d _
    simp

/-- Witness of C25: the ancestor `["T\n\n\tA\n\n", "E\n"]`, equal to the mainstream file,
and the modified file `["X\n", "T\n\n\tB\n\n\tA\n\n", "E\n"]`; the edit CHANGE 0 0 0 1
adds "X\n" and the first part "T\n\n\tB\n\n" of the split at the top. -/
theorem simple_merged_change_witness :
    ∃ st1 : merge_state,
      apply_edit fstrcmp_ratio [[84, 10, 10, 9, 65, 10, 10], [69, 10]]
        [[84, 10, 10, 9, 65, 10, 10], [69, 10]]
        [[88, 10], [84, 10, 10, 9, 66, 10, 10, 9, 65, 10, 10], [69, 10]]
        { index_mapping := [-1, 1], index_mapping_reverse := [-1, -1, 1],
          edits := [edit.CHANGE 0 0 0 1] }
        (edit.CHANGE 0 0 0 1)
        { mapping := witness_mapping_merged
          result_entries := initial_result [[84, 10, 10, 9, 65, 10, 10], [69, 10]]
          result_conflicts := [] } = some st1 ∧
      st1.result_entries =
        (List.range' 0 1).map
            (fun j => ({ slot := none, value :=
              ([[88, 10], [84, 10, 10, 9, 66, 10, 10, 9, 65, 10, 10], [69, 10]] :
                List Entry).getD j [] } : node)) ++
          ({ slot := none, value :=
              (([84, 10, 10, 9, 66, 10, 10], [84, 10, 10, 9, 65, 10, 10]) : Entry × Entry).1 } :
              node) ::
            ((List.range (0 + 1 - 0)).foldl
              (fun s d => spec_single_change fstrcmp_ratio
                [[84, 10, 10, 9, 65, 10, 10], [69, 10]] [[84, 10, 10, 9, 65, 10, 10], [69, 10]]
                (0 + d)
                (if d = 0 then
                  (([84, 10, 10, 9, 66, 10, 10], [84, 10, 10, 9, 65, 10, 10]) : Entry × Entry).2
                 else ([[88, 10], [84, 10, 10, 9, 66, 10, 10, 9, 65, 10, 10], [69, 10]] :
                   List Entry).getD (0 + 1 + d) [])
                s)
              { mapping := witness_mapping_merged
                result_entries := initial_result [[84, 10, 10, 9, 65, 10, 10], [69, 10]]
                result_conflicts := [] }).result_entries ∧
      st1.mapping =
        ((List.range (0 + 1 - 0)).foldl
          (fun s d => spec_single_change fstrcmp_ratio
            [[84, 10, 10, 9, 65, 10, 10], [69, 10]] [[84, 10, 10, 9, 65, 10, 10], [69, 10]]
            (0 + d)
            (if d = 0 then
              (([84, 10, 10, 9, 66, 10, 10], [84, 10, 10, 9, 65, 10, 10]) : Entry × Entry).2
             else ([[88, 10], [84, 10, 10, 9, 66, 10, 10, 9, 65, 10, 10], [69, 10]] :
               List Entry).getD (0 + 1 + d) [])
            s)
          { mapping := witness_mapping_merged
            result_entries := initial_result [[84, 10, 10, 9, 65, 10, 10], [69, 10]]
            result_conflicts := [] }).mapping ∧
      st1.result_conflicts =
        ((List.range (0 + 1 - 0)).foldl
          (fun s d => spec_single_change fstrcmp_ratio
            [[84, 10, 10, 9, 65, 10, 10], [69, 10]] [[84, 10, 10, 9, 65, 10, 10], [69, 10]]
            (0 + d)
            (if d = 0 then
              (([84, 10, 10, 9, 66, 10, 10], [84, 10, 10, 9, 65, 10, 10]) : Entry × Entry).2
             else ([[88, 10], [84, 10, 10, 9, 66, 10, 10, 9, 65, 10, 10], [69, 10]] :
               List Entry).getD (0 + 1 + d) [])
            s)
          { mapping := witness_mapping_merged
            result_entries := initial_result [[84, 10, 10, 9, 65, 10, 10], [69, 10]]
            result_conflicts := [] }).result_conflicts :=
  simple_merged_change fstrcmp_ratio [[84, 10, 10, 9, 65, 10, 10], [69, 10]]
    [[84, 10, 10, 9, 65, 10, 10], [69, 10]]
    [[88, 10], [84, 10, 10, 9, 66, 10, 10, 9, 65, 10, 10], [69, 10]]
    { index_mapping := [-1, 1], index_mapping_reverse := [-1, -1, 1],
      edits := [edit.CHANGE 0 0 0 1] }
    0 0 0 1 1 ([84, 10, 10, 9, 66, 10, 10], [84, 10, 10, 9, 65, 10, 10])
    { mapping := witness_mapping_merged
      result_entries := initial_result [[84, 10, 10, 9, 65, 10, 10], [69, 10]]
      result_conflicts := [] }
    rfl (le_refl _) (by decide) (by decide) (by decide!)
    (fun i h1 h2 => absurd h1 (by omega))

/-- C26 (result of a successful split): `try_split_merged_entry` never fails its
`ASSERT` (and its search loop ends); when it returns true with the parts `head` and
`tail`, the two title lengths are the same number `t` and there is an offset `b`, which
is `t` or the paragraph end after another candidate, with `t <= b < |new|` and
`new[b] = '\n'`, such that the similarity of `old[t..]` and `new[b..]` is at least 0.8,
is not below that of any candidate, and is above that of every candidate before `b`;
`head` is the first `b + 1` bytes of `new` and `tail` is `new[0..t) ++ new[b..]`. The
similarity routine is assumed to meet its contract (`FstrcmpOk`); "similarity" is the
value of `entry_fstrcmp` without a bound. -/
theorem split_result (fstrcmp_bounded : Fstrcmp) (hok : FstrcmpOk fstrcmp_bounded)
    (old_entry new_entry : Entry) :
    try_split_merged_entry fstrcmp_bounded old_entry new_entry ≠ none ∧
    ∀ head tail : Entry,
      try_split_merged_entry fstrcmp_bounded old_entry new_entry = some (some (head, tail)) →
      find_paragraph_end old_entry 0 = find_paragraph_end new_entry 0 ∧
      ∃ b : Nat,
        (b = find_paragraph_end new_entry 0 ∨
          ∃ c ∈ split_candidates new_entry (new_entry.length + 1)
              (find_paragraph_end new_entry 0),
            c < new_entry.length ∧ b = find_paragraph_end new_entry (c + 1)) ∧
        find_paragraph_end new_entry 0 ≤ b ∧ b < new_entry.length ∧
        new_entry.getD b 0 = 10 ∧
        FSTRCMP_STRICTER_THRESHOLD ≤
          entry_fstrcmp fstrcmp_bounded (old_entry.drop (find_paragraph_end new_entry 0))
            (new_entry.drop b) 0 ∧
        (∀ c ∈ split_candidates new_entry (new_entry.length + 1)
            (find_paragraph_end new_entry 0),
          entry_fstrcmp fstrcmp_bounded (old_entry.drop (find_paragraph_end new_entry 0))
              (new_entry.drop c) 0 ≤
            entry_fstrcmp fstrcmp_bounded (old_entry.drop (find_paragraph_end new_entry 0))
              (new_entry.drop b) 0) ∧
        (∀ c ∈ split_candidates new_entry (new_entry.length + 1)
            (find_paragraph_end new_entry 0),
          c < b →
          entry_fstrcmp fstrcmp_bounded (old_entry.drop (find_paragraph_end new_entry 0))
              (new_entry.drop c) 0 <
            entry_fstrcmp fstrcmp_bounded (old_entry.drop (find_paragraph_end new_entry 0))
              (new_entry.drop b) 0) ∧
        head = new_entry.take (b + 1) ∧
        tail = new_entry.take (find_paragraph_end new_entry 0) ++ new_entry.drop b := by
  rcases try_split_cases fstrcmp_bounded old_entry new_entry with
    ⟨_, h⟩ | ⟨ht, best, hbest, htb, hpb, h⟩
  · refine ⟨by rw [h]; simp, fun head tail h' => ?_⟩
    rw [h] at h'
    cases h'
  · constructor
    · rw [h]
      split_ifs <;> simp
    · intro head tail h'
      rw [h] at h'
      by_cases c1 : best.1 = new_entry.length
      · rw [if_pos c1] at h'; cases h'
      rw [if_neg c1] at h'
      by_cases c2 : best.2 < FSTRCMP_STRICTER_THRESHOLD
      · rw [if_pos c2] at h'; cases h'
      rw [if_neg c2] at h'
      have hpair := Option.some.inj (Option.some.inj h')
      have hbs := try_split_best fstrcmp_bounded hok old_entry new_entry best hbest
      obtain ⟨_, h2, _, _⟩ := find_paragraph_end_spec new_entry 0 (Nat.zero_le _)
      obtain ⟨hc1, hc2⟩ := split_candidates_spec new_entry (new_entry.length + 1)
        (find_paragraph_end new_entry 0) h2 (split_point_paragraph_end new_entry 0 (Nat.zero_le _))
      obtain ⟨m1, m2, m3⟩ := spec_best_split_max
        (fun c => entry_fstrcmp fstrcmp_bounded
          (old_entry.drop (find_paragraph_end old_entry 0)) (new_entry.drop c) 0)
        (split_candidates new_entry (new_entry.length + 1) (find_paragraph_end new_entry 0))
        (find_paragraph_end new_entry 0, 0) hc2
      rw [← hbs] at m1 m2 m3
      have hpos : (0 : ℚ) < best.2 :=
        lt_of_lt_of_le (by norm_num [FSTRCMP_STRICTER_THRESHOLD]) (not_lt.mp c2)
      rcases m3 with m3 | ⟨_, m4, m5, m6⟩
      · rw [m3] at hpos
        exact absurd hpos (lt_irrefl _)
      · rw [ht.1] at m5 m6 m2
        refine ⟨ht.1, best.1, ?_, htb, ?_, ?_, ?_, ?_, ?_, ?_, ?_⟩
        · exact split_candidates_step new_entry _ _ _ m4
        · have := (hc1 _ m4).2.1
          omega
        · rcases hpb with hp | hp
          · exact absurd hp c1
          · exact hp.2
        · rw [← m5]; exact not_lt.mp c2
        · intro c hc; rw [← m5]; exact m2 c hc
        · intro c hc hlt; rw [← m5]; exact m6 c hc hlt
        · exact (congrArg Prod.fst hpair).symm
        · exact (congrArg Prod.snd hpair).symm

/-- Witness of C26: old = "T\n\n\tA\n\n" and new = "T\n\n\tB\n\n\tA\n\n", with the
similarity routine `fstrcmp_ratio`. -/
theorem split_result_witness :
    try_split_merged_entry fstrcmp_ratio [84, 10, 10, 9, 65, 10, 10]
      [84, 10, 10, 9, 66, 10, 10, 9, 65, 10, 10] =
      some (some ([84, 10, 10, 9, 66, 10, 10], [84, 10, 10, 9, 65, 10, 10])) ∧
    find_paragraph_end [84, 10, 10, 9, 65, 10, 10] 0 =
      find_paragraph_end [84, 10, 10, 9, 66, 10, 10, 9, 65, 10, 10] 0 ∧
    ∃ b : Nat,
      (b = find_paragraph_end [84, 10, 10, 9, 66, 10, 10, 9, 65, 10, 10] 0 ∨
        ∃ c ∈ split_candidates [84, 10, 10, 9, 66, 10, 10, 9, 65, 10, 10]
            (([84, 10, 10, 9, 66, 10, 10, 9, 65, 10, 10] : Entry).length + 1)
            (find_paragraph_end [84, 10, 10, 9, 66, 10, 10, 9, 65, 10, 10] 0),
          c < ([84, 10, 10, 9, 66, 10, 10, 9, 65, 10, 10] : Entry).length ∧
          b = find_paragraph_end [84, 10, 10, 9, 66, 10, 10, 9, 65, 10, 10] (c + 1)) ∧
      find_paragraph_end [84, 10, 10, 9, 66, 10, 10, 9, 65, 10, 10] 0 ≤ b ∧
      b < ([84, 10, 10, 9, 66, 10, 10, 9, 65, 10, 10] : Entry).length ∧
      ([84, 10, 10, 9, 66, 10, 10, 9, 65, 10, 10] : Entry).getD b 0 = 10 ∧
      FSTRCMP_STRICTER_THRESHOLD ≤
        entry_fstrcmp fstrcmp_ratio
          (([84, 10, 10, 9, 65, 10, 10] : Entry).drop
            (find_paragraph_end [84, 10, 10, 9, 66, 10, 10, 9, 65, 10, 10] 0))
          (([84, 10, 10, 9, 66, 10, 10, 9, 65, 10, 10] : Entry).drop b) 0 ∧
      (∀ c ∈ split_candidates [84, 10, 10, 9, 66, 10, 10, 9, 65, 10, 10]
          (([84, 10, 10, 9, 66, 10, 10, 9, 65, 10, 10] : Entry).length + 1)
          (find_paragraph_end [84, 10, 10, 9, 66, 10, 10, 9, 65, 10, 10] 0),
        entry_fstrcmp fstrcmp_ratio
            (([84, 10, 10, 9, 65, 10, 10] : Entry).drop
              (find_paragraph_end [84, 10, 10, 9, 66, 10, 10, 9, 65, 10, 10] 0))
            (([84, 10, 10, 9, 66, 10, 10, 9, 65, 10, 10] : Entry).drop c) 0 ≤
          entry_fstrcmp fstrcmp_ratio
            (([84, 10, 10, 9, 65, 10, 10] : Entry).drop
              (find_paragraph_end [84, 10, 10, 9, 66, 10, 10, 9, 65, 10, 10] 0))
            (([84, 10, 10, 9, 66, 10, 10, 9, 65, 10, 10] : Entry).drop b) 0) ∧
      (∀ c ∈ split_candidates [84, 10, 10, 9, 66, 10, 10, 9, 65, 10, 10]
          (([84, 10, 10, 9, 66, 10, 10, 9, 65, 10, 10] : Entry).length + 1)
          (find_paragraph_end [84, 10, 10, 9, 66, 10, 10, 9, 65, 10, 10] 0),
        c < b →
        entry_fstrcmp fstrcmp_ratio
            (([84, 10, 10, 9, 65, 10, 10] : Entry).drop
              (find_paragraph_end [84, 10, 10, 9, 66, 10, 10, 9, 65, 10, 10] 0))
            (([84, 10, 10, 9, 66, 10, 10, 9, 65, 10, 10] : Entry).drop c) 0 <
          entry_fstrcmp fstrcmp_ratio
            (([84, 10, 10, 9, 65, 10, 10] : Entry).drop
              (find_paragraph_end [84, 10, 10, 9, 66, 10, 10, 9, 65, 10, 10] 0))
            (([84, 10, 10, 9, 66, 10, 10, 9, 65, 10, 10] : Entry).drop b) 0) ∧
      ([84, 10, 10, 9, 66, 10, 10] : Entry) =
        ([84, 10, 10, 9, 66, 10, 10, 9, 65, 10, 10] : Entry).take (b + 1) ∧
      ([84, 10, 10, 9, 65, 10, 10] : Entry) =
        ([84, 10, 10, 9, 66, 10, 10, 9, 65, 10, 10] : Entry).take
            (find_paragraph_end [84, 10, 10, 9, 66, 10, 10, 9, 65, 10, 10] 0) ++
          ([84, 10, 10, 9, 66, 10, 10, 9, 65, 10, 10] : Entry).drop b :=
  ⟨by decide!,
    (split_result fstrcmp_ratio fstrcmpOk_ratio [84, 10, 10, 9, 65, 10, 10]
      [84, 10, 10, 9, 66, 10, 10, 9, 65, 10, 10]).2 [84, 10, 10, 9, 66, 10, 10]
      [84, 10, 10, 9, 65, 10, 10] (by decide!)⟩

/-- C27 (split rejection): under the contract of the similarity routine,
`try_split_merged_entry` returns false (without entries) exactly when the titles
differ (the two title lengths differ or the two title prefixes are not byte-equal), or
the best split offset is the length of `new`, or the best similarity is below 0.8,
where best offset and best similarity are those of the first maximum of the similarity
of the body of `old` to `new[c..]` over all candidate offsets `c`. -/
theorem split_rejection (fstrcmp_bounded : Fstrcmp) (hok : FstrcmpOk fstrcmp_bounded)
    (old_entry new_entry : Entry) :
    try_split_merged_entry fstrcmp_bounded old_entry new_entry = some none ↔
      (¬ (find_paragraph_end old_entry 0 = find_paragraph_end new_entry 0 ∧
          old_entry.take (find_paragraph_end old_entry 0) =
            new_entry.take (find_paragraph_end old_entry 0)) ∨
        (spec_best_split
          (fun c => entry_fstrcmp fstrcmp_bounded
            (old_entry.drop (find_paragraph_end old_entry 0)) (new_entry.drop c) 0)
          (split_candidates new_entry (new_entry.length + 1) (find_paragraph_end new_entry 0))
          (find_paragraph_end new_entry 0, 0)).1 = new_entry.length ∨
        (spec_best_split
          (fun c => entry_fstrcmp fstrcmp_bounded
            (old_entry.drop (find_paragraph_end old_entry 0)) (new_entry.drop c) 0)
          (split_candidates new_entry (new_entry.length + 1) (find_paragraph_end new_entry 0))
          (find_paragraph_end new_entry 0, 0)).2 < FSTRCMP_STRICTER_THRESHOLD) := by
  rcases try_split_cases fstrcmp_bounded old_entry new_entry with
    ⟨ht, h⟩ | ⟨ht, best, hbest, htb, hpb, h⟩
  · exact ⟨fun _ => Or.inl ht, fun _ => h⟩
  · rw [← try_split_best fstrcmp_bounded hok old_entry new_entry best hbest, h]
    by_cases c1 : best.1 = new_entry.length
    · rw [if_pos c1]
      exact ⟨fun _ => Or.inr (Or.inl c1), fun _ => rfl⟩
    · rw [if_neg c1]
      by_cases c2 : best.2 < FSTRCMP_STRICTER_THRESHOLD
      · rw [if_pos c2]
        exact ⟨fun _ => Or.inr (Or.inr c2), fun _ => rfl⟩
      · rw [if_neg c2]
        constructor
        · intro h'; cases h'
        · rintro (h' | h' | h')
          · exact absurd ht h'
          · exact absurd h' c1
          · exact absurd h' c2

/-- Witness of C27: for old = "T\n\n\tA\n\n" and new = "U\n\n\tA\n\n" the titles
differ and the function returns false; for new = "T\n\n\tA\t\t\t\t\n\n" the titles are
the same, the candidates are 2, 10 and 11 with the similarities 5/7, 1/3 and 0, and the
function returns false because the best similarity is below 0.8. -/
theorem split_rejection_witness :
    try_split_merged_entry fstrcmp_ratio [84, 10, 10, 9, 65, 10, 10]
      [85, 10, 10, 9, 65, 10, 10] = some none ∧
    (try_split_merged_entry fstrcmp_ratio [84, 10, 10, 9, 65, 10, 10]
        [84, 10, 10, 9, 65, 9, 9, 9, 9, 10, 10] = some none ↔
      (¬ (find_paragraph_end [84, 10, 10, 9, 65, 10, 10] 0 =
            find_paragraph_end [84, 10, 10, 9, 65, 9, 9, 9, 9, 10, 10] 0 ∧
          ([84, 10, 10, 9, 65, 10, 10] : Entry).take
              (find_paragraph_end [84, 10, 10, 9, 65, 10, 10] 0) =
            ([84, 10, 10, 9, 65, 9, 9, 9, 9, 10, 10] : Entry).take
              (find_paragraph_end [84, 10, 10, 9, 65, 10, 10] 0)) ∨
        (spec_best_split
          (fun c => entry_fstrcmp fstrcmp_ratio
            (([84, 10, 10, 9, 65, 10, 10] : Entry).drop
              (find_paragraph_end [84, 10, 10, 9, 65, 10, 10] 0))
            (([84, 10, 10, 9, 65, 9, 9, 9, 9, 10, 10] : Entry).drop c) 0)
          (split_candidates [84, 10, 10, 9, 65, 9, 9, 9, 9, 10, 10]
            (([84, 10, 10, 9, 65, 9, 9, 9, 9, 10, 10] : Entry).length + 1)
            (find_paragraph_end [84, 10, 10, 9, 65, 9, 9, 9, 9, 10, 10] 0))
          (find_paragraph_end [84, 10, 10, 9, 65, 9, 9, 9, 9, 10, 10] 0, 0)).1 =
            ([84, 10, 10, 9, 65, 9, 9, 9, 9, 10, 10] : Entry).length ∨
        (spec_best_split
          (fun c => entry_fstrcmp fstrcmp_ratio
            (([84, 10, 10, 9, 65, 10, 10] : Entry).drop
              (find_paragraph_end [84, 10, 10, 9, 65, 10, 10] 0))
            (([84, 10, 10, 9, 65, 9, 9, 9, 9, 10, 10] : Entry).drop c) 0)
          (split_candidates [84, 10, 10, 9, 65, 9, 9, 9, 9, 10, 10]
            (([84, 10, 10, 9, 65, 9, 9, 9, 9, 10, 10] : Entry).length + 1)
            (find_paragraph_end [84, 10, 10, 9, 65, 9, 9, 9, 9, 10, 10] 0))
          (find_paragraph_end [84, 10, 10, 9, 65, 9, 9, 9, 9, 10, 10] 0, 0)).2 <
            FSTRCMP_STRICTER_THRESHOLD)) :=
  ⟨by decide!,
    split_rejection fstrcmp_ratio fstrcmpOk_ratio [84, 10, 10, 9, 65, 10, 10]
      [84, 10, 10, 9, 65, 9, 9, 9, 9, 10, 10]⟩

/-- C28 at a failing input. The entry old = "T\n\n\tA\n\n" is changed into new =
"T\n\n\tA!\n\n": one byte is added to the body, no paragraph is added. The titles are
"T\n" (length 2); the candidates for the split offset are 2, 7 and 8, and the
similarity of the body of old to the rest of new is greatest, 10/11, at the candidate 2,
the title length itself. So `try_split_merged_entry` returns true with BODY1 empty: the
first part is "T\n\n", the title followed by one newline, and the second part is the
whole of new. In the merge of the ancestor and mainstream file "T\n\n\tA\n\n" with the
modified file "T\n\n\tA!\n\n" the only edit is CHANGE 0 0 0 0 at the top, the split is
taken as an added entry, and the output is "T\n\nT\n\n\tA!\n\n": an entry that consists
of the title alone stands above the changed entry. -/
theorem split_without_added_paragraph :
    find_paragraph_end [84, 10, 10, 9, 65, 33, 10, 10] 0 = 2 ∧
    split_candidates [84, 10, 10, 9, 65, 33, 10, 10] 9 2 = [2, 7, 8] ∧
    [2, 7, 8].map (fun c => entry_fstrcmp fstrcmp_ratio
      (([84, 10, 10, 9, 65, 10, 10] : Entry).drop 2)
      (([84, 10, 10, 9, 65, 33, 10, 10] : Entry).drop c) 0) = [10 / 11, 1 / 3, 0] ∧
    try_split_merged_entry fstrcmp_ratio [84, 10, 10, 9, 65, 10, 10]
      [84, 10, 10, 9, 65, 33, 10, 10] =
      some (some ([84, 10, 10], [84, 10, 10, 9, 65, 33, 10, 10])) ∧
    ([84, 10, 10] : Entry) = ([84, 10, 10, 9, 65, 33, 10, 10] : Entry).take 2 ++ [10] ∧
    read_changelog_file [84, 10, 10, 9, 65, 10, 10] = [[84, 10, 10, 9, 65, 10, 10]] ∧
    read_changelog_file [84, 10, 10, 9, 65, 33, 10, 10] = [[84, 10, 10, 9, 65, 33, 10, 10]] ∧
    (compute_differences diag_corner [[84, 10, 10, 9, 65, 10, 10]]
      [[84, 10, 10, 9, 65, 33, 10, 10]]).map differences.edits = some [edit.CHANGE 0 0 0 0] ∧
    merge fstrcmp_ratio diag_corner [[84, 10, 10, 9, 65, 10, 10]] [[84, 10, 10, 9, 65, 10, 10]]
        [[84, 10, 10, 9, 65, 33, 10, 10]] =
      some ([[84, 10, 10], [84, 10, 10, 9, 65, 33, 10, 10]], []) ∧
    main_run fstrcmp_ratio diag_corner false [84, 10, 10, 9, 65, 10, 10]
        [84, 10, 10, 9, 65, 10, 10] [84, 10, 10, 9, 65, 33, 10, 10] =
      some ([84, 10, 10, 84, 10, 10, 9, 65, 33, 10, 10], 0) ∧
    main_run fstrcmp_ratio diag_corner false [84, 10, 10, 9, 65, 10, 10]
        [84, 10, 10, 9, 65, 10, 10] [84, 10, 10, 9, 65, 33, 10, 10] ≠
      some ([84, 10, 10, 9, 65, 33, 10, 10], 0) := by
  decide!

/-- The bounds of the split offset: whenever `try_split_merged_entry (old, new)` returns
true with the parts `head` and `tail`, there is a split offset `b` with `t <= b < |new|`,
`t` being the title length; `head` is the first `b + 1` bytes of `new` and `tail` is
`new[0..t) ++ new[b..]`. When `b > t`, `head` is longer than the title followed by one
newline and `tail` is shorter than `new`; when `b = t`, `head` is the title followed by
one newline and `tail` is the whole of `new`. -/
theorem split_offset_bounds (fstrcmp_bounded : Fstrcmp) (old_entry new_entry head tail : Entry)
    (h : try_split_merged_entry fstrcmp_bounded old_entry new_entry =
      some (some (head, tail))) :
    ∃ b : Nat, find_paragraph_end new_entry 0 ≤ b ∧ b < new_entry.length ∧
      head = new_entry.take (b + 1) ∧
      tail = new_entry.take (find_paragraph_end new_entry 0) ++ new_entry.drop b ∧
      (find_paragraph_end new_entry 0 < b →
        find_paragraph_end new_entry 0 + 1 < head.length ∧ tail.length < new_entry.length) ∧
      (b = find_paragraph_end new_entry 0 →
        head = new_entry.take (find_paragraph_end new_entry 0) ++ [10] ∧ tail = new_entry) := by
  rcases try_split_cases fstrcmp_bounded old_entry new_entry with
    ⟨_, h'⟩ | ⟨ht, best, hbest, htb, hpb, h'⟩
  · rw [h'] at h; cases h
  · rw [h'] at h
    by_cases c1 : best.1 = new_entry.length
    · rw [if_pos c1] at h; cases h
    rw [if_neg c1] at h
    by_cases c2 : best.2 < FSTRCMP_STRICTER_THRESHOLD
    · rw [if_pos c2] at h; cases h
    rw [if_neg c2] at h
    have hpair := Option.some.inj (Option.some.inj h)
    have hhead : head = new_entry.take (best.1 + 1) := (congrArg Prod.fst hpair).symm
    have htail : tail = new_entry.take (find_paragraph_end new_entry 0) ++
        new_entry.drop best.1 := (congrArg Prod.snd hpair).symm
    have hlt : best.1 < new_entry.length := by
      rcases hpb with hp | hp
      · exact absurd hp c1
      · exact hp.1
    have hnl : new_entry.getD best.1 0 = 10 := by
      rcases hpb with hp | hp
      · exact absurd hp c1
      · exact hp.2
    refine ⟨best.1, htb, hlt, hhead, htail, fun hgt => ?_, fun heq => ?_⟩
    · rw [hhead, htail]
      simp only [List.length_take, List.length_append, List.length_drop]
      omega
    · constructor
      · rw [hhead, ← heq, List.take_succ]
        congr 1
        rw [List.getD_eq_getElem?_getD, List.getElem?_eq_getElem hlt] at hnl
        rw [List.getElem?_eq_getElem hlt]
        simp only [Option.getD_some] at hnl
        rw [hnl]
        rfl
      · rw [htail, ← heq, List.take_append_drop]

/-- The bounds of the split offset at old = "T\n\n\tA\n\n" and new = "T\n\n\tA!\n\n",
where the split offset is the title length. -/
theorem split_offset_bounds_witness :
    ∃ b : Nat, find_paragraph_end [84, 10, 10, 9, 65, 33, 10, 10] 0 ≤ b ∧
      b < ([84, 10, 10, 9, 65, 33, 10, 10] : Entry).length ∧
      ([84, 10, 10] : Entry) = ([84, 10, 10, 9, 65, 33, 10, 10] : Entry).take (b + 1) ∧
      ([84, 10, 10, 9, 65, 33, 10, 10] : Entry) =
        ([84, 10, 10, 9, 65, 33, 10, 10] : Entry).take
            (find_paragraph_end [84, 10, 10, 9, 65, 33, 10, 10] 0) ++
          ([84, 10, 10, 9, 65, 33, 10, 10] : Entry).drop b ∧
      (find_paragraph_end [84, 10, 10, 9, 65, 33, 10, 10] 0 < b →
        find_paragraph_end [84, 10, 10, 9, 65, 33, 10, 10] 0 + 1 <
            ([84, 10, 10] : Entry).length ∧
          ([84, 10, 10, 9, 65, 33, 10, 10] : Entry).length <
            ([84, 10, 10, 9, 65, 33, 10, 10] : Entry).length) ∧
      (b = find_paragraph_end [84, 10, 10, 9, 65, 33, 10, 10] 0 →
        ([84, 10, 10] : Entry) =
            ([84, 10, 10, 9, 65, 33, 10, 10] : Entry).take
              (find_paragraph_end [84, 10, 10, 9, 65, 33, 10, 10] 0) ++ [10] ∧
          ([84, 10, 10, 9, 65, 33, 10, 10] : Entry) = [84, 10, 10, 9, 65, 33, 10, 10]) :=
  split_offset_bounds fstrcmp_ratio [84, 10, 10, 9, 65, 10, 10] [84, 10, 10, 9, 65, 33, 10, 10]
    [84, 10, 10] [84, 10, 10, 9, 65, 33, 10, 10] (by decide!)

/-- C30 (fuzzy binding is a mutual best match above the threshold): on a position `i`
that is not yet computed, `entries_mapping_get` gives `index_mapping[i] = j` if and only
if `j` is the position of file2 with the greatest similarity to `file1[i]` among those
whose reverse slot is negative (the greatest index among ties), that similarity is at
least 0.6, and `i` is the position of file1 with the greatest similarity to `file2[j]`
among those whose forward slot is negative (the greatest index among ties); it then
returns `j` and has set `index_mapping[i] = j` and `index_mapping_reverse[j] = i` and
nothing else; when no `j` is such, it returns -1 and has set `index_mapping[i] = -1`
and nothing else. The similarity routine is assumed to meet its contract (`FstrcmpOk`);
"similarity" is the value of `entry_fstrcmp` without a bound. -/
theorem fuzzy_binding_mutual_best (fstrcmp_bounded : Fstrcmp)
    (hok : FstrcmpOk fstrcmp_bounded) (mapping : entries_mapping) (i : Nat)
    (h : mapping.index_mapping.getD i 0 < -1) :
    (∀ j : Nat,
      ((entries_mapping_get fstrcmp_bounded mapping i).2.index_mapping.getD i 0 = (j : Int) ↔
        spec_mutual_best fstrcmp_bounded mapping i j) ∧
      (spec_mutual_best fstrcmp_bounded mapping i j →
        entries_mapping_get fstrcmp_bounded mapping i =
          ((j : Int), { mapping with
            index_mapping := mapping.index_mapping.set i (j : Int)
            index_mapping_reverse := mapping.index_mapping_reverse.set j (i : Int) }))) ∧
    ((∀ j : Nat, ¬ spec_mutual_best fstrcmp_bounded mapping i j) →
      entries_mapping_get fstrcmp_bounded mapping i =
        (-1, { mapping with index_mapping := mapping.index_mapping.set i (-1) })) := by
  have hi : i < mapping.index_mapping.length := by
    by_contra hge
    rw [List.getD_eq_default _ _ (not_lt.mp hge)] at h
    omega
  have hthr : (0 : ℚ) < FSTRCMP_THRESHOLD := by norm_num [FSTRCMP_THRESHOLD]
  -- what the code does, in terms of the condition of the claim
  have key : (∃ j0 : Nat, spec_mutual_best fstrcmp_bounded mapping i j0 ∧
        entries_mapping_get fstrcmp_bounded mapping i =
          ((j0 : Int), { mapping with
            index_mapping := mapping.index_mapping.set i (j0 : Int)
            index_mapping_reverse := mapping.index_mapping_reverse.set j0 (i : Int) })) ∨
      ((∀ j : Nat, ¬ spec_mutual_best fstrcmp_bounded mapping i j) ∧
        entries_mapping_get fstrcmp_bounded mapping i =
          (-1, { mapping with index_mapping := mapping.index_mapping.set i (-1) })) := by
    rcases search_file2_best fstrcmp_bounded hok mapping.file2 mapping.index_mapping_reverse
      (mapping.file1.getD i []) mapping.file2.length with ⟨e2, hall2⟩ | ⟨j0, e2, hpos2, hb2⟩
    · -- nothing similar in file2
      refine Or.inr ⟨?_, ?_⟩
      · intro j hc
        have := hall2 j hc.1.1 hc.1.2.1
        exact absurd (lt_of_lt_of_le hthr hc.2.1) (not_lt.mpr this)
      · apply entries_mapping_get_unbound fstrcmp_bounded mapping i h
        rw [e2]
        intro hc
        exact absurd (lt_of_lt_of_le hthr hc.1) (lt_irrefl _)
    · by_cases ht : FSTRCMP_THRESHOLD ≤
          entry_fstrcmp fstrcmp_bounded (mapping.file1.getD i []) (mapping.file2.getD j0 []) 0
      · rcases search_file1_best fstrcmp_bounded hok mapping.file1 mapping.index_mapping
          (mapping.file2.getD j0 []) mapping.file1.length with ⟨e1, hall1⟩ | ⟨i0, e1, hpos1, hb1⟩
        · -- nothing similar in file1: excluded when `i` is a position of file1
          refine Or.inr ⟨?_, ?_⟩
          · intro j hc
            have hjj : j = j0 := spec_best_position_unique _ _ _ _ _ hc.1 hb2
            subst hjj
            have := hall1 i hc.2.2.1 hc.2.2.2.1
            exact absurd (lt_of_lt_of_le hthr hc.2.1) (not_lt.mpr this)
          · apply entries_mapping_get_unbound fstrcmp_bounded mapping i h
            rw [e2]
            dsimp only
            rw [Int.toNat_ofNat, e1]
            intro hc
            exact absurd (lt_of_lt_of_le hthr hc.2.1) (lt_irrefl _)
        · by_cases hii : i0 = i
          · subst hii
            refine Or.inl ⟨j0, ⟨hb2, ht, hb1⟩, ?_⟩
            apply entries_mapping_get_binds fstrcmp_bounded mapping i0 j0 h
            · rw [e2]; exact ht
            · rw [e2]
            · rw [e1]; exact ht
            · rw [e1]
          · refine Or.inr ⟨?_, ?_⟩
            · intro j hc
              have hjj : j = j0 := spec_best_position_unique _ _ _ _ _ hc.1 hb2
              subst hjj
              exact hii (spec_best_position_unique _ _ _ _ _ hb1 hc.2.2)
            · apply entries_mapping_get_unbound fstrcmp_bounded mapping i h
              rw [e2]
              dsimp only
              rw [Int.toNat_ofNat, e1]
              intro hc
              have h3 := hc.2.2
              dsimp only at h3
              exact hii (by exact_mod_cast h3)
      · refine Or.inr ⟨?_, ?_⟩
        · intro j hc
          have hjj : j = j0 := spec_best_position_unique _ _ _ _ _ hc.1 hb2
          subst hjj
          exact ht hc.2.1
        · apply entries_mapping_get_unbound fstrcmp_bounded mapping i h
          rw [e2]
          intro hc
          exact ht hc.1
  rcases key with ⟨j0, hc0, e⟩ | ⟨hnone, e⟩
  · refine ⟨fun j => ⟨?_, ?_⟩, fun hnone => absurd hc0 (hnone j0)⟩
    · rw [e]
      dsimp only
      rw [getD_set_int, if_pos ⟨rfl, hi⟩]
      constructor
      · intro hj
        have : j0 = j := by exact_mod_cast hj
        rw [← this]; exact hc0
      · intro hc
        have : j = j0 := spec_best_position_unique _ _ _ _ _ hc.1 hc0.1
        rw [this]
    · intro hc
      have : j = j0 := spec_best_position_unique _ _ _ _ _ hc.1 hc0.1
      rw [this]; exact e
  · refine ⟨fun j => ⟨?_, fun hc => absurd hc (hnone j)⟩, fun _ => e⟩
    rw [e]
    dsimp only
    rw [getD_set_int, if_pos ⟨rfl, hi⟩]
    constructor
    · intro hj
      exact absurd hj (by omega)
    · intro hc
      exact absurd hc (hnone j)

/-- Witness of C30: file1 = ["ab\n", "xy\n"], file2 = ["abc\n", "q\n"], nothing bound
yet, with the similarity routine `fstrcmp_ratio`: the similarities of "ab\n" are 6/7 and
2/5, those of "abc\n" are 6/7 and 2/7, so position 0 is bound to position 0. -/
theorem fuzzy_binding_mutual_best_witness :
    witness_mapping_fuzzy.index_mapping.getD 0 0 < -1 ∧
    spec_mutual_best fstrcmp_ratio witness_mapping_fuzzy 0 0 ∧
    entries_mapping_get fstrcmp_ratio witness_mapping_fuzzy 0 =
      (0, { witness_mapping_fuzzy with
        index_mapping := [0, -2], index_mapping_reverse := [0, -2] }) :=
  have hc : spec_mutual_best fstrcmp_ratio witness_mapping_fuzzy 0 0 := by
    unfold spec_mutual_best spec_best_position
    decide!
  ⟨by decide, hc,
    ((fuzzy_binding_mutual_best fstrcmp_ratio fstrcmpOk_ratio witness_mapping_fuzzy 0
      (by decide)).1 0).2 hc⟩

/-- C29 (the exact pass of `compute_mapping`): `compute_mapping (file1, file2, false)`
returns (no `ASSERT` of the pairing loop fails), and in its result: (1) for every
value `e` and every `m` below the smaller of the numbers of occurrences of `e` in the two
files, the occurrence of `e` in file1 with `m` occurrences after it and the occurrence
of `e` in file2 with `m` occurrences after it are bound to each other; (2) for every
value `e`, the number of bound occurrences of `e` is, in each file, the smaller of the
two numbers of occurrences; (3) every slot of either array holds -2 or the position of
an equal entry, of the same rank from the end, whose slot points back. -/
theorem exact_pass_pairs (fstrcmp_bounded : Fstrcmp) (file1 file2 : List Entry) :
    ∃ mapping, compute_mapping fstrcmp_bounded file1 file2 false = some mapping ∧
      mapping.file1 = file1 ∧ mapping.file2 = file2 ∧
      mapping.index_mapping.length = file1.length ∧
      mapping.index_mapping_reverse.length = file2.length ∧
      (∀ (e : Entry) (m : Nat), m < min (file1.count e) (file2.count e) →
        ∃ i j : Nat, i < file1.length ∧ j < file2.length ∧
          file1.getD i [] = e ∧ file2.getD j [] = e ∧
          later_count file1 e i = m ∧ later_count file2 e j = m ∧
          mapping.index_mapping.getD i 0 = (j : Int) ∧
          mapping.index_mapping_reverse.getD j 0 = (i : Int)) ∧
      (∀ e : Entry,
        (List.range file1.length).countP
            (fun i => decide (file1.getD i [] = e ∧ 0 ≤ mapping.index_mapping.getD i 0)) =
          min (file1.count e) (file2.count e) ∧
        (List.range file2.length).countP
            (fun j => decide (file2.getD j [] = e ∧
              0 ≤ mapping.index_mapping_reverse.getD j 0)) =
          min (file1.count e) (file2.count e)) ∧
      (∀ i, i < file1.length →
        mapping.index_mapping.getD i 0 = -2 ∨
        ∃ j : Nat, j < file2.length ∧ file1.getD i [] = file2.getD j [] ∧
          rank_from_end file1 i = rank_from_end file2 j ∧
          mapping.index_mapping.getD i 0 = (j : Int) ∧
          mapping.index_mapping_reverse.getD j 0 = (i : Int)) ∧
      (∀ j, j < file2.length →
        mapping.index_mapping_reverse.getD j 0 = -2 ∨
        ∃ i : Nat, i < file1.length ∧ file1.getD i [] = file2.getD j [] ∧
          rank_from_end file1 i = rank_from_end file2 j ∧
          mapping.index_mapping.getD i 0 = (j : Int) ∧
          mapping.index_mapping_reverse.getD j 0 = (i : Int)) := by
  obtain ⟨mapping, hm, hf1, hf2, hl1, hl2, hA, hB⟩ :=
    compute_mapping_rank fstrcmp_bounded file1 file2
  refine ⟨mapping, hm, hf1, hf2, hl1, hl2, ?_, ?_, ?_, ?_⟩
  · intro e m hlt
    obtain ⟨i, hi, hie, hir⟩ := rank_exists e file1 m (lt_of_lt_of_le hlt (min_le_left _ _))
    obtain ⟨j, hj, hje, hjr⟩ := rank_exists e file2 m (lt_of_lt_of_le hlt (min_le_right _ _))
    have hpair : spec_paired file1 file2 i j := by
      refine ⟨by rw [hie, hje], ?_⟩
      unfold rank_from_end
      rw [hie, hje, hir, hjr]
    exact ⟨i, j, hi, hj, hie, hje, hir, hjr,
      (slotOk_iff file1 file2 _ i j hj (hA i hi)).mpr hpair,
      (slotOk_iff file2 file1 _ j i hi (hB j hj)).mpr (spec_paired_symm _ _ _ _ hpair)⟩
  · intro e
    refine ⟨count_bound file1 file2 _ e hA, ?_⟩
    rw [count_bound file2 file1 _ e hB]
    exact min_comm _ _
  · intro i hi
    rcases hA i hi with ⟨j, hj, hpair, hv⟩ | ⟨-, hv⟩
    · exact Or.inr ⟨j, hj, hpair.1, hpair.2, hv,
        (slotOk_iff file2 file1 _ j i hi (hB j hj)).mpr (spec_paired_symm _ _ _ _ hpair)⟩
    · exact Or.inl hv
  · intro j hj
    rcases hB j hj with ⟨i, hi, hpair, hv⟩ | ⟨-, hv⟩
    · exact Or.inr ⟨i, hi, hpair.1.symm, hpair.2.symm,
        (slotOk_iff file1 file2 _ i j hj (hA i hi)).mpr (spec_paired_symm _ _ _ _ hpair), hv⟩
    · exact Or.inl hv

/-- Witness of C29: file1 = ["a\n", "b\n", "a\n", "a\n"] and file2 = ["a\n", "c\n",
"a\n"]. The last "a\n" of file1 (index 3) is bound to the last one of file2 (index 2),
the second last (index 2) to the second last (index 0); the third "a\n" of file1, "b\n"
and "c\n" stay at -2. -/
theorem exact_pass_pairs_witness :
    compute_mapping fstrcmp_ratio [[97, 10], [98, 10], [97, 10], [97, 10]]
        [[97, 10], [99, 10], [97, 10]] false =
      some { file1 := [[97, 10], [98, 10], [97, 10], [97, 10]],
             file2 := [[97, 10], [99, 10], [97, 10]],
             index_mapping := [-2, -2, 0, 2], index_mapping_reverse := [2, -2, 3] } ∧
    ∃ mapping, compute_mapping fstrcmp_ratio [[97, 10], [98, 10], [97, 10], [97, 10]]
        [[97, 10], [99, 10], [97, 10]] false = some mapping ∧
      ∀ e : Entry,
        (List.range 4).countP
            (fun i => decide (([[97, 10], [98, 10], [97, 10], [97, 10]] : List Entry).getD i []
              = e ∧ 0 ≤ mapping.index_mapping.getD i 0)) =
          min (([[97, 10], [98, 10], [97, 10], [97, 10]] : List Entry).count e)
            (([[97, 10], [99, 10], [97, 10]] : List Entry).count e) :=
  ⟨by decide,
    match exact_pass_pairs fstrcmp_ratio [[97, 10], [98, 10], [97, 10], [97, 10]]
        [[97, 10], [99, 10], [97, 10]] with
    | ⟨mapping, h, _, _, _, _, _, hcount, _, _⟩ => ⟨mapping, h, fun e => (hcount e).1⟩⟩

/-- C36 (postcondition of `find_paragraph_end`): for `offset <= |e|` the result `r` has
`offset <= r <= |e|`; either `r = |e|`, or `r < |e|` with `e[r] = '\n'` and
`e[r-1] = '\n'` (the start of a blank line); no offset `r'` with `offset < r' < r` below
`|e|` has `e[r'] = '\n'` and `e[r'-1] = '\n'`; and `r > offset` when `offset < |e|`. -/
theorem find_paragraph_end_post (entry : Entry) (offset : Nat) (h : offset ≤ entry.length) :
    offset ≤ find_paragraph_end entry offset ∧ find_paragraph_end entry offset ≤ entry.length ∧
    (find_paragraph_end entry offset = entry.length ∨
      (find_paragraph_end entry offset < entry.length ∧
        entry.getD (find_paragraph_end entry offset) 0 = 10 ∧
        entry.getD (find_paragraph_end entry offset - 1) 0 = 10)) ∧
    (∀ r', offset < r' → r' < find_paragraph_end entry offset → r' < entry.length →
      ¬ (entry.getD r' 0 = 10 ∧ entry.getD (r' - 1) 0 = 10)) ∧
    (offset < entry.length → offset < find_paragraph_end entry offset) := by
  obtain ⟨h1, h2, -, h4⟩ := find_paragraph_end_spec entry offset h
  have hget : ∀ k, (entry.drop offset).getD k 0 = entry.getD (offset + k) 0 := by
    intro k
    rw [List.getD_eq_getElem?_getD, List.getElem?_drop, List.getD_eq_getElem?_getD]
  obtain ⟨b1, b2⟩ := find_paragraph_end_loop_blank (entry.drop offset) offset
  rw [List.length_drop] at b1 b2
  refine ⟨h1, h2, ?_, ?_, h4⟩
  · by_cases hlt : find_paragraph_end entry offset < entry.length
    · right
      have hlt' : find_paragraph_end_loop (entry.drop offset) offset < entry.length := hlt
      obtain ⟨c1, c2, c3⟩ := b1 (by omega)
      rw [hget] at c2 c3
      refine ⟨hlt, ?_, ?_⟩
      · rw [← c3]
        show entry.getD (find_paragraph_end_loop (entry.drop offset) offset) 0 = _
        congr 1; omega
      · rw [← c2]
        show entry.getD (find_paragraph_end_loop (entry.drop offset) offset - 1) 0 = _
        congr 1; omega
    · left; omega
  · intro r' hr1 hr2 hr3 hboth
    have hr2' : r' < find_paragraph_end_loop (entry.drop offset) offset := hr2
    apply b2 (r' - offset) (by omega) (by omega) (by omega)
    rw [hget, hget]
    rw [show offset + (r' - offset) = r' by omega,
      show offset + (r' - offset - 1) = r' - 1 by omega]
    exact ⟨hboth.2, hboth.1⟩

/-- Witness of C36: the entry "T\n\n\tA\n\n" from the offset 3: the result is 6, the
offset of the last newline, which follows a newline. -/
theorem find_paragraph_end_post_witness :
    find_paragraph_end [84, 10, 10, 9, 65, 10, 10] 3 = 6 ∧
    (3 ≤ find_paragraph_end [84, 10, 10, 9, 65, 10, 10] 3 ∧
    find_paragraph_end [84, 10, 10, 9, 65, 10, 10] 3 ≤
      ([84, 10, 10, 9, 65, 10, 10] : Entry).length ∧
    (find_paragraph_end [84, 10, 10, 9, 65, 10, 10] 3 =
        ([84, 10, 10, 9, 65, 10, 10] : Entry).length ∨
      (find_paragraph_end [84, 10, 10, 9, 65, 10, 10] 3 <
          ([84, 10, 10, 9, 65, 10, 10] : Entry).length ∧
        ([84, 10, 10, 9, 65, 10, 10] : Entry).getD
          (find_paragraph_end [84, 10, 10, 9, 65, 10, 10] 3) 0 = 10 ∧
        ([84, 10, 10, 9, 65, 10, 10] : Entry).getD
          (find_paragraph_end [84, 10, 10, 9, 65, 10, 10] 3 - 1) 0 = 10)) ∧
    (∀ r', 3 < r' → r' < find_paragraph_end [84, 10, 10, 9, 65, 10, 10] 3 →
      r' < ([84, 10, 10, 9, 65, 10, 10] : Entry).length →
      ¬ (([84, 10, 10, 9, 65, 10, 10] : Entry).getD r' 0 = 10 ∧
        ([84, 10, 10, 9, 65, 10, 10] : Entry).getD (r' - 1) 0 = 10)) ∧
    (3 < ([84, 10, 10, 9, 65, 10, 10] : Entry).length →
      3 < find_paragraph_end [84, 10, 10, 9, 65, 10, 10] 3)) :=
  ⟨by decide, find_paragraph_end_post [84, 10, 10, 9, 65, 10, 10] 3 (by decide)⟩

/-- C40 (termination of `try_split_merged_entry`): with `t` the title length of the new
entry, (1) `find_paragraph_end (new, o + 1)` is above `o` and at most `|new|` for every
`o < |new|`, so the split offset strictly increases from one iteration of the search
loop to the next; (2) the offsets that the loop can visit from `t` on are strictly
increasing, lie between `t` and `|new|`, and are at most `|new| - t + 1`; (3) the loop
ends within `|new| - t + 1` iterations, whatever the old body, the state it starts with
and the similarity routine; (4) the function returns (its `ASSERT` does not fail). -/
theorem split_terminates (fstrcmp_bounded : Fstrcmp) (old_entry new_entry : Entry) :
    (∀ o, o < new_entry.length →
      o < find_paragraph_end new_entry (o + 1) ∧
      find_paragraph_end new_entry (o + 1) ≤ new_entry.length) ∧
    (∀ fuel,
      (split_candidates new_entry fuel (find_paragraph_end new_entry 0)).Pairwise (· < ·) ∧
      (∀ c ∈ split_candidates new_entry fuel (find_paragraph_end new_entry 0),
        find_paragraph_end new_entry 0 ≤ c ∧ c ≤ new_entry.length) ∧
      (split_candidates new_entry fuel (find_paragraph_end new_entry 0)).length ≤
        new_entry.length - find_paragraph_end new_entry 0 + 1) ∧
    (∀ (old_body : Entry) (best : Nat × ℚ),
      ∃ r, split_search fstrcmp_bounded old_body new_entry
        (new_entry.length - find_paragraph_end new_entry 0 + 1)
        (find_paragraph_end new_entry 0) best = some r) ∧
    try_split_merged_entry fstrcmp_bounded old_entry new_entry ≠ none := by
  obtain ⟨-, ht, -, -⟩ := find_paragraph_end_spec new_entry 0 (Nat.zero_le _)
  refine ⟨?_, ?_, ?_, ?_⟩
  · intro o ho
    obtain ⟨a1, a2, -, -⟩ := find_paragraph_end_spec new_entry (o + 1) ho
    exact ⟨by omega, a2⟩
  · intro fuel
    obtain ⟨b1, b2⟩ := split_candidates_spec new_entry fuel (find_paragraph_end new_entry 0) ht
      (split_point_paragraph_end new_entry 0 (Nat.zero_le _))
    exact ⟨b2, fun c hc => ⟨(b1 c hc).1, (b1 c hc).2.1⟩,
      split_candidates_length new_entry fuel _ ht⟩
  · intro old_body best
    exact split_search_ends fstrcmp_bounded old_body new_entry _ _ best (by omega) ht
  · rcases try_split_cases fstrcmp_bounded old_entry new_entry with ⟨-, h⟩ | ⟨-, best, -, -, -, h⟩
    · rw [h]; simp
    · rw [h]
      split_ifs <;> simp

/-- C31, counterexample: with the files `["abc\n", "abcd\n"]` and
`["abcde\n", "abXY\n"]`, for which the exact pass binds nothing, the lookup of position
0 of file1 sets `index_mapping[0] = -1` (its best counterpart "abcde\n" prefers
"abcd\n"); the lookup of position 1 binds "abcd\n" to "abcde\n"; and then
`entries_mapping_reverse_get` at position 1 of file2 binds "abXY\n" to "abc\n" and
writes `index_mapping[0] = 1` over the -1. -/
theorem rebound_slot_counterexample :
    compute_mapping fstrcmp_ratio witness_mapping_order.file1 witness_mapping_order.file2
      false = some witness_mapping_order ∧
    (entries_mapping_get fstrcmp_ratio witness_mapping_order 0).2.index_mapping.getD 0 0
      = -1 ∧
    (entries_mapping_reverse_get fstrcmp_ratio
      (entries_mapping_get fstrcmp_ratio
        (entries_mapping_get fstrcmp_ratio witness_mapping_order 0).2 1).2
      1).2.index_mapping.getD 0 0 = 1 := by
  refine ⟨by decide, by decide!, by decide!⟩

/-- C31, amended (monotonic mutation of the mapping): the arrays of the exact pass start
with every slot at -2 or bound, and every step of the exact pass of `compute_mapping`
leaves a slot as it is or changes it from -2 to a valid index; `compute_mapping` returns,
for either value of `full`, and in its result and after any further lookups every call
of `entries_mapping_get` and of `entries_mapping_reverse_get` leaves a slot as it is, or
changes it from -2 to -1, or from -2 or -1 to a valid index. So a slot that holds a
valid index is never written again, while a slot that holds -1 can still be bound. -/
theorem monotonic_mutation (fstrcmp_bounded : Fstrcmp) (file1 file2 : List Entry)
    (full : Bool) :
    PassInv file1 file2
      (List.replicate file1.length (-2), List.replicate file2.length (-2)) ∧
    (∀ (arrays arrays1 : List Int × List Int) (i : Nat), PassInv file1 file2 arrays →
      i < file1.length → exact_step file1 file2 i arrays = some arrays1 →
      PassInv file1 file2 arrays1 ∧
      ∀ p,
        (arrays1.1.getD p 0 = arrays.1.getD p 0 ∨
          (arrays.1.getD p 0 = -2 ∧
            ∃ q : Nat, q < file2.length ∧ arrays1.1.getD p 0 = (q : Int))) ∧
        (arrays1.2.getD p 0 = arrays.2.getD p 0 ∨
          (arrays.2.getD p 0 = -2 ∧
            ∃ q : Nat, q < file1.length ∧ arrays1.2.getD p 0 = (q : Int)))) ∧
    ∃ mapping0, compute_mapping fstrcmp_bounded file1 file2 full = some mapping0 ∧
      ∀ mapping, Probed fstrcmp_bounded mapping0 mapping → ∀ k p,
        slot_change file2.length (mapping.index_mapping.getD p 0)
          ((entries_mapping_get fstrcmp_bounded mapping k).2.index_mapping.getD p 0) ∧
        slot_change file1.length (mapping.index_mapping_reverse.getD p 0)
          ((entries_mapping_get fstrcmp_bounded mapping k).2.index_mapping_reverse.getD p 0) ∧
        slot_change file2.length (mapping.index_mapping.getD p 0)
          ((entries_mapping_reverse_get fstrcmp_bounded mapping k).2.index_mapping.getD p 0) ∧
        slot_change file1.length (mapping.index_mapping_reverse.getD p 0)
          ((entries_mapping_reverse_get fstrcmp_bounded mapping k).2.index_mapping_reverse.getD
            p 0) := by
  refine ⟨passInv_init file1 file2, ?_, ?_⟩
  · intro arrays arrays1 i hinv hi h
    obtain ⟨hch, -⟩ := exact_step_change file1 file2 i arrays arrays1 hi hinv.1 hinv.2.1 h
    refine ⟨passInv_step file1 file2 _ _ _ arrays arrays1 hinv hch, fun p => ⟨?_, ?_⟩⟩
    · rcases hch.2.2.1 p with e | ⟨-, hp, -, hneg, q, hq, e, -⟩
      · exact Or.inl e
      · refine Or.inr ⟨?_, q, hq, e⟩
        rcases hinv.2.2.1 p hp with e2 | ⟨q2, -, e2, -⟩
        · exact e2
        · omega
    · rcases hch.2.2.2 p with e | ⟨-, hp, -, hneg, q, hq, e, -⟩
      · exact Or.inl e
      · refine Or.inr ⟨?_, q, hq, e⟩
        rcases hinv.2.2.2 p hp with e2 | ⟨q2, -, e2, -⟩
        · exact e2
        · omega
  · obtain ⟨mapping0, h, f1, f2, hfl⟩ := compute_mapping_floor fstrcmp_bounded file1 file2 full
    refine ⟨mapping0, h, ?_⟩
    intro mapping hp k p
    obtain ⟨g1, g2, g3⟩ := probed_floor fstrcmp_bounded mapping0 mapping hfl hp
    obtain ⟨-, -, a⟩ := entries_mapping_get_slots fstrcmp_bounded mapping k g3
    obtain ⟨-, -, b⟩ := entries_mapping_reverse_get_slots fstrcmp_bounded mapping k g3
    rw [g1, g2, f1, f2] at a b
    exact ⟨(a p).1, (a p).2, (b p).1, (b p).2⟩

/-- Witness of C31 (amended): the first step of the exact pass for the files
`["a\n", "b\n"]` and `["b\n", "a\n"]`, at index 1: the slots of the two entries "b\n"
go from -2 to the index of each other. -/
theorem monotonic_mutation_witness :
    exact_step [[97, 10], [98, 10]] [[98, 10], [97, 10]] 1 ([-2, -2], [-2, -2]) =
      some ([-2, 0], [1, -2]) ∧
    PassInv [[97, 10], [98, 10]] [[98, 10], [97, 10]] ([-2, 0], [1, -2]) :=
  ⟨by decide,
    ((monotonic_mutation fstrcmp_ratio [[97, 10], [98, 10]] [[98, 10], [97, 10]] false).2.1
      ([-2, -2], [-2, -2]) ([-2, 0], [1, -2]) 1
      (monotonic_mutation fstrcmp_ratio [[97, 10], [98, 10]] [[98, 10], [97, 10]] false).1
      (by decide) (by decide)).1⟩

/-- C32, counterexample: from the state that `compute_mapping` leaves for the files
`["abc\n", "abcd\n"]` and `["abcde\n", "abXY\n"]`, the lookups of the positions 0 and
1 of file1 leave `index_mapping = [-1, 0]` and `index_mapping_reverse = [1, -2]` when
position 0 is looked up first, and `[1, 0]` and `[1, 0]` when position 1 is looked up
first. -/
theorem probe_order_counterexample :
    compute_mapping fstrcmp_ratio witness_mapping_order.file1 witness_mapping_order.file2
      false = some witness_mapping_order ∧
    (entries_mapping_get fstrcmp_ratio
      (entries_mapping_get fstrcmp_ratio witness_mapping_order 0).2 1).2 =
      { witness_mapping_order with
        index_mapping := [-1, 0], index_mapping_reverse := [1, -2] } ∧
    (entries_mapping_get fstrcmp_ratio
      (entries_mapping_get fstrcmp_ratio witness_mapping_order 1).2 0).2 =
      { witness_mapping_order with
        index_mapping := [1, 0], index_mapping_reverse := [1, 0] } := by
  refine ⟨by decide, by decide!, by decide!⟩

/-- C32, amended (what does not depend on the probe order): for every mapping and every
similarity routine, a call of `entries_mapping_get` changes no slot of `index_mapping`
that is computed (not below -1), so a position that was looked up keeps its counterpart
whatever is looked up afterwards; after the lookup of position `i` its slot is computed;
and a second lookup of `i` returns the same value and changes nothing. -/
theorem probe_stability (fstrcmp_bounded : Fstrcmp) (mapping : entries_mapping) (i : Nat) :
    (∀ p, -1 ≤ mapping.index_mapping.getD p 0 →
      (entries_mapping_get fstrcmp_bounded mapping i).2.index_mapping.getD p 0 =
        mapping.index_mapping.getD p 0) ∧
    -1 ≤ (entries_mapping_get fstrcmp_bounded mapping i).2.index_mapping.getD i 0 ∧
    entries_mapping_get fstrcmp_bounded
        (entries_mapping_get fstrcmp_bounded mapping i).2 i =
      ((entries_mapping_get fstrcmp_bounded mapping i).1,
       (entries_mapping_get fstrcmp_bounded mapping i).2) := by
  have h2 : -1 ≤ (entries_mapping_get fstrcmp_bounded mapping i).2.index_mapping.getD i 0 := by
    rcases entries_mapping_get_change fstrcmp_bounded mapping i i with e | ⟨-, -, e | ⟨q, -, e⟩⟩
    · rcases entries_mapping_get_cases fstrcmp_bounded mapping i with
        ⟨c, -⟩ | ⟨c, j, -, -, -, e2⟩ | ⟨c, e2⟩
      · rw [e]; omega
      · rw [e2]
        dsimp only
        rw [getD_set_int, if_pos ⟨rfl, getD_neg_lt _ _ (by omega)⟩]
        omega
      · rw [e2]
        dsimp only
        rw [getD_set_int, if_pos ⟨rfl, getD_neg_lt _ _ (by omega)⟩]
    · omega
    · omega
  refine ⟨?_, h2, ?_⟩
  · intro p hp
    rcases entries_mapping_get_change fstrcmp_bounded mapping i p with e | ⟨-, hlt, -⟩
    · exact e
    · omega
  · rw [entries_mapping_get_bound fstrcmp_bounded _ i (by omega)]
    rw [(entries_mapping_get_files fstrcmp_bounded mapping i).2.2.2]

/-- C33 (the mapping of the diff): with a midpoint search (a parameter of the model)
that gives a point of its window other than the two corners it was given,
`compute_differences (file1, file2)` returns (so the `ASSERT` of the completion loop does
not fail), and in its result `index_mapping` is strictly increasing on the mapped
positions, every mapped position `i` holds an index `j` of FILE2 with
`index_mapping_reverse[j] = i` and `file1[i]` equal to `file2[j]`, and every mapped
position `j` of FILE2 holds an index `i` of FILE1 with `index_mapping[i] = j`. -/
theorem diff_mapping_order (diag : Diag) (file1 file2 : List Entry)
    (hd : DiagOk diag file1 file2) :
    ∃ diffs, compute_differences diag file1 file2 = some diffs ∧
      diffs.index_mapping.length = file1.length ∧
      diffs.index_mapping_reverse.length = file2.length ∧
      (∀ i i', i < i' → i' < file1.length → 0 ≤ diffs.index_mapping.getD i 0 →
        0 ≤ diffs.index_mapping.getD i' 0 →
        diffs.index_mapping.getD i 0 < diffs.index_mapping.getD i' 0) ∧
      (∀ i, i < file1.length → 0 ≤ diffs.index_mapping.getD i 0 →
        ∃ j : Nat, j < file2.length ∧ diffs.index_mapping.getD i 0 = (j : Int) ∧
          diffs.index_mapping_reverse.getD j 0 = (i : Int) ∧
          entry_equals (file1.getD i []) (file2.getD j []) = true) ∧
      (∀ j, j < file2.length → 0 ≤ diffs.index_mapping_reverse.getD j 0 →
        ∃ i : Nat, i < file1.length ∧ diffs.index_mapping_reverse.getD j 0 = (i : Int) ∧
          diffs.index_mapping.getD i 0 = (j : Int)) := by
  obtain ⟨ctxt, edits, hdiff, hl1, hl2, cpath, -, -⟩ :=
    compute_differences_gaps diag file1 file2 hd
  obtain ⟨a1, a2, a3⟩ := cpath.mapped
  refine ⟨_, hdiff, hl1, hl2, ?_, ?_, ?_⟩
  · intro i i' h1 h2 h3 h4
    exact a3 i i' (Nat.zero_le _) h1 h2 h3 h4
  · intro i hi h
    obtain ⟨u, -, hu, hp⟩ := a1 i (Nat.zero_le _) hi h
    exact ⟨u, hu, hp.1, hp.2.1, (entry_equals_iff _ _).mpr hp.2.2⟩
  · intro j hj h
    obtain ⟨t, -, ht, hp⟩ := a2 j (Nat.zero_le _) hj h
    exact ⟨t, ht, hp.2.1, hp.1⟩

/-- Witness of C33: the files "a\n", "b\n", "c\n" and "a\n", "c\n": the entry "b\n"
is removed, the positions 0 and 2 are mapped to 0 and 1. -/
theorem diff_mapping_order_witness :
    DiagOk diag_corner [[97, 10], [98, 10], [99, 10]] [[97, 10], [99, 10]] ∧
    compute_differences diag_corner [[97, 10], [98, 10], [99, 10]] [[97, 10], [99, 10]] =
      some { index_mapping := [0, -1, 1], index_mapping_reverse := [0, 2],
             edits := [edit.REMOVAL 1 1] } ∧
    ∃ diffs, compute_differences diag_corner [[97, 10], [98, 10], [99, 10]]
        [[97, 10], [99, 10]] = some diffs ∧
      ∀ i i', i < i' → i' < ([[97, 10], [98, 10], [99, 10]] : List Entry).length →
        0 ≤ diffs.index_mapping.getD i 0 → 0 ≤ diffs.index_mapping.getD i' 0 →
        diffs.index_mapping.getD i 0 < diffs.index_mapping.getD i' 0 :=
  ⟨diagOk_corner _ _, by decide,
    match diff_mapping_order diag_corner [[97, 10], [98, 10], [99, 10]] [[97, 10], [99, 10]]
        (diagOk_corner _ _) with
    | ⟨diffs, h, _, _, hmono, _, _⟩ => ⟨diffs, h, hmono⟩⟩

/-- C34 (classification of the edits): with a midpoint search (a parameter of the model)
that gives a point of its window other than the two corners it was given,
`compute_differences (file1, file2)` returns, and in its result: the ranges of every edit
are not empty; every edit is the edit of a gap between two consecutive mapped pairs (or
the top or the end of the files), whose positions are all unmapped: an ADDITION when
the gap holds positions of FILE2 only, a REMOVAL when it holds positions of FILE1 only,
a CHANGE with both runs otherwise (so each range is a maximal run of unmapped
positions); every such gap yields its edit, which stands exactly once in the list; and
for any two edits of the list, the positions of the earlier one lie before a mapped
pair, and those of the later one after it. -/
theorem edit_classification (diag : Diag) (file1 file2 : List Entry)
    (hd : DiagOk diag file1 file2) :
    ∃ diffs, compute_differences diag file1 file2 = some diffs ∧
      (∀ e ∈ diffs.edits, nonempty_ranges e) ∧
      (∀ e ∈ diffs.edits, ∃ i a j b : Nat, e = spec_gap_edit i a j b ∧
        spec_gap file1.length file2.length diffs.index_mapping diffs.index_mapping_reverse
          i a j b) ∧
      (∀ i a j b : Nat,
        spec_gap file1.length file2.length diffs.index_mapping diffs.index_mapping_reverse
          i a j b →
        diffs.edits.count (spec_gap_edit i a j b) = 1) ∧
      diffs.edits.Pairwise
        (spec_edit_before diffs.index_mapping diffs.index_mapping_reverse) := by
  obtain ⟨ctxt, edits, hdiff, hgaps, hall, hord⟩ :=
    compute_differences_all_gaps diag file1 file2 hd
  exact ⟨_, hdiff, compute_differences_ranges diag file1 file2 _ hdiff, hgaps, hall, hord⟩

/-- Witness of C34: the files "a\n", "b\n", "c\n" and "a\n", "x\n", "y\n", "c\n":
the gap between the pairs (0, 0) and (2, 3) holds position 1 of the first file and the
positions 1 and 2 of the second one, and yields one CHANGE. -/
theorem edit_classification_witness :
    DiagOk diag_corner [[97, 10], [98, 10], [99, 10]]
      [[97, 10], [120, 10], [121, 10], [99, 10]] ∧
    compute_differences diag_corner [[97, 10], [98, 10], [99, 10]]
      [[97, 10], [120, 10], [121, 10], [99, 10]] =
      some { index_mapping := [0, -1, 3], index_mapping_reverse := [0, -1, -1, 2],
             edits := [edit.CHANGE 1 1 1 2] } ∧
    spec_gap_edit 1 2 1 3 = edit.CHANGE 1 1 1 2 ∧
    ∃ diffs, compute_differences diag_corner [[97, 10], [98, 10], [99, 10]]
        [[97, 10], [120, 10], [121, 10], [99, 10]] = some diffs ∧
      (∀ e ∈ diffs.edits, nonempty_ranges e) ∧
      (∀ e ∈ diffs.edits, ∃ i a j b : Nat, e = spec_gap_edit i a j b ∧
        spec_gap ([[97, 10], [98, 10], [99, 10]] : List Entry).length
          ([[97, 10], [120, 10], [121, 10], [99, 10]] : List Entry).length
          diffs.index_mapping diffs.index_mapping_reverse i a j b) ∧
      (∀ i a j b : Nat,
        spec_gap ([[97, 10], [98, 10], [99, 10]] : List Entry).length
          ([[97, 10], [120, 10], [121, 10], [99, 10]] : List Entry).length
          diffs.index_mapping diffs.index_mapping_reverse i a j b →
        diffs.edits.count (spec_gap_edit i a j b) = 1) ∧
      diffs.edits.Pairwise
        (spec_edit_before diffs.index_mapping diffs.index_mapping_reverse) :=
  ⟨diagOk_corner _ _, by decide, by decide,
    edit_classification diag_corner [[97, 10], [98, 10], [99, 10]]
      [[97, 10], [120, 10], [121, 10], [99, 10]] (diagOk_corner _ _)⟩

/-- C35 (the neighbours of an interior edit are mapped): with a midpoint search (a
parameter of the model) that gives a point of its window other than the two corners it
was given, `compute_differences (ancestor, modified)` returns, and in its result: for
every ADDITION with `j1 > 0`, position `j1 - 1` of the modified file is mapped to an
ancestor index `i_before >= 0`, and either `j2 + 1` is the length of the modified file
and `i_before + 1` the length of the ancestor file, or position `j2 + 1` is mapped to
`i_before + 1`; for every ADDITION the case ADDITION of `main` fails no `ASSERT`,
whatever the state; and for every CHANGE with `j1 > 0`, position `j1 - 1` of the
modified file is mapped to an ancestor index `i_before >= 0`. -/
theorem interior_neighbours_mapped (fstrcmp_bounded : Fstrcmp) (diag : Diag)
    (ancestor_file mainstream_file modified_file : List Entry)
    (hd : DiagOk diag ancestor_file modified_file) :
    ∃ diffs, compute_differences diag ancestor_file modified_file = some diffs ∧
      (∀ j1 j2, edit.ADDITION j1 j2 ∈ diffs.edits →
        (0 < j1 → 0 ≤ diffs.index_mapping_reverse.getD (j1 - 1) 0 ∧
          ((j2 + 1 = modified_file.length ∧
              diffs.index_mapping_reverse.getD (j1 - 1) 0 + 1 = (ancestor_file.length : Int)) ∨
            (j2 + 1 < modified_file.length ∧
              diffs.index_mapping_reverse.getD (j2 + 1) 0 =
                diffs.index_mapping_reverse.getD (j1 - 1) 0 + 1))) ∧
        ∀ st, apply_addition fstrcmp_bounded ancestor_file mainstream_file modified_file
          diffs j1 j2 st ≠ none) ∧
      (∀ i1 i2 j1 j2, edit.CHANGE i1 i2 j1 j2 ∈ diffs.edits → 0 < j1 →
        0 ≤ diffs.index_mapping_reverse.getD (j1 - 1) 0) := by
  obtain ⟨ctxt, edits, hdiff, -, -, -, hgaps, -⟩ :=
    compute_differences_gaps diag ancestor_file modified_file hd
  refine ⟨_, hdiff, ?_, ?_⟩
  · intro j1 j2 hmem
    obtain ⟨i, a, j, b, he, hia, hjb, ha, hb, hne, hm1, hm2, hbefore, hafter⟩ :=
      hgaps _ hmem
    obtain ⟨e1, e2, e3⟩ := spec_gap_edit_addition i a j b j1 j2 he.symm
    subst e1; subst e2
    have hb1 : b = j2 + 1 := by omega
    have hkey : 0 < j → 0 ≤ ctxt.2.getD (j - 1) 0 ∧
        ((j2 + 1 = modified_file.length ∧
            ctxt.2.getD (j - 1) 0 + 1 = (ancestor_file.length : Int)) ∨
          (j2 + 1 < modified_file.length ∧
            ctxt.2.getD (j2 + 1) 0 = ctxt.2.getD (j - 1) 0 + 1)) := by
      intro hj
      rcases hbefore with ⟨-, h0⟩ | ⟨hi0, -, -, hr⟩
      · omega
      · rw [hr]
        refine ⟨by omega, ?_⟩
        rcases hafter with ⟨c1, c2⟩ | ⟨c1, c2, -, c4⟩
        · left; exact ⟨by omega, by omega⟩
        · right
          refine ⟨by omega, ?_⟩
          rw [← hb1, c4]
          omega
    refine ⟨hkey, fun st => ?_⟩
    apply apply_addition_ok
    intro hj
    obtain ⟨k1, k2⟩ := hkey hj
    refine ⟨k1, ?_⟩
    rcases k2 with ⟨c1, c2⟩ | ⟨c1, c2⟩
    · exact Or.inl ⟨c1, c2⟩
    · exact Or.inr ⟨by omega, c2⟩
  · intro i1 i2 j1 j2 hmem hj
    obtain ⟨i, a, j, b, he, hia, hjb, ha, hb, hne, hm1, hm2, hbefore, hafter⟩ :=
      hgaps _ hmem
    obtain ⟨-, -, -, -, e5, -⟩ := spec_gap_edit_change i a j b i1 i2 j1 j2 he.symm
    subst e5
    rcases hbefore with ⟨-, h0⟩ | ⟨-, -, -, hr⟩
    · omega
    · show 0 ≤ ctxt.2.getD (j - 1) 0
      rw [hr]
      omega

/-- Witness of C35: the ancestor "a\n", "c\n" and the modified file "a\n", "x\n",
"c\n": the entry "x\n" is an ADDITION with `j1 = j2 = 1`, position 0 is mapped to 0 and
position 2 to 1. -/
theorem interior_neighbours_mapped_witness :
    DiagOk diag_corner [[97, 10], [99, 10]] [[97, 10], [120, 10], [99, 10]] ∧
    compute_differences diag_corner [[97, 10], [99, 10]] [[97, 10], [120, 10], [99, 10]] =
      some { index_mapping := [0, 2], index_mapping_reverse := [0, -1, 1],
             edits := [edit.ADDITION 1 1] } ∧
    ∃ diffs, compute_differences diag_corner [[97, 10], [99, 10]]
        [[97, 10], [120, 10], [99, 10]] = some diffs ∧
      ∀ j1 j2, edit.ADDITION j1 j2 ∈ diffs.edits →
        ∀ st, apply_addition fstrcmp_ratio [[97, 10], [99, 10]] [[97, 10], [99, 10]]
          [[97, 10], [120, 10], [99, 10]] diffs j1 j2 st ≠ none :=
  ⟨diagOk_corner _ _, by decide,
    match interior_neighbours_mapped fstrcmp_ratio diag_corner [[97, 10], [99, 10]]
        [[97, 10], [99, 10]] [[97, 10], [120, 10], [99, 10]] (diagOk_corner _ _) with
    | ⟨diffs, h, hadd, _⟩ => ⟨diffs, h, fun j1 j2 hm => (hadd j1 j2 hm).2⟩⟩

/-- C38 (frame of the merge on mainstream): let the merge run to its end, from the
mapping of `compute_mapping` and the list `initial_result` with one node per mainstream
entry. Then the steps of the run (lookups in the mapping, additions of nodes, and the
calls of `gl_list_node_set_value` listed in `log`, each with the ancestor index `i` and
the slot `k` it writes) are such that: every call writes the slot that
`entries_mapping_get` gives for an ancestor index `i` in the range of a REMOVAL or a
CHANGE edit; no slot is written twice; the slots of the final list are `0 .. n - 1` in
this order, so that no node of a slot is moved, removed or duplicated; and the node of
every slot `k` that is not written still holds `M[k]`. -/
theorem merge_frame (fstrcmp_bounded : Fstrcmp) (diag : Diag)
    (ancestor_file mainstream_file modified_file : List Entry)
    (hd : DiagOk diag ancestor_file modified_file)
    (mapping0 : entries_mapping) (diffs : differences) (st : merge_state)
    (hm : compute_mapping fstrcmp_bounded ancestor_file mainstream_file false = some mapping0)
    (hdf : compute_differences diag ancestor_file modified_file = some diffs)
    (h : apply_edits fstrcmp_bounded ancestor_file mainstream_file modified_file diffs
      diffs.edits
      { mapping := mapping0
        result_entries := initial_result mainstream_file
        result_conflicts := [] } = some st) :
    ∃ log : List (Nat × Nat),
      MergeRun fstrcmp_bounded (mapping0, initial_result mainstream_file) log
        (st.mapping, st.result_entries) ∧
      (∀ x ∈ log, (∃ e ∈ diffs.edits, covers_file1 e x.1 = true) ∧
        st.mapping.index_mapping.getD x.1 0 = (x.2 : Int)) ∧
      (log.map Prod.snd).Nodup ∧
      st.result_entries.filterMap node.slot = List.range mainstream_file.length ∧
      ∀ k, k < mainstream_file.length → k ∉ log.map Prod.snd →
        nodes_of_slot st.result_entries k =
          [{ slot := some k, value := mainstream_file.getD k [] }] := by
  obtain ⟨log, hrun, hprops⟩ := apply_edits_run fstrcmp_bounded ancestor_file mainstream_file
    modified_file diffs diffs.edits _ st h
  dsimp only at hrun
  obtain ⟨hasc, -, hbound⟩ := compute_differences_ascending diag ancestor_file modified_file hd
    diffs hdf
  obtain ⟨hpair, hcov⟩ := hprops
    (compute_differences_ranges diag ancestor_file modified_file diffs hdf) hasc
  have hlog := run_log fstrcmp_bounded _ _ _ hrun
  have hinv := run_mutual fstrcmp_bounded _ _ _ hrun _ _
    (initial_mutual fstrcmp_bounded ancestor_file mainstream_file mapping0 hm)
  dsimp only at hlog hinv
  refine ⟨log, hrun, ?_, ?_, ?_, ?_⟩
  · intro x hx
    exact ⟨hcov x.1 (List.mem_map_of_mem _ hx), hlog x hx⟩
  · rw [List.pairwise_map] at hpair
    unfold List.Nodup
    rw [List.pairwise_map]
    refine List.Pairwise.imp_of_mem ?_ hpair
    intro x y hx hy hlt heq
    obtain ⟨e1, he1, hc1⟩ := hcov x.1 (List.mem_map_of_mem _ hx)
    obtain ⟨e2, he2, hc2⟩ := hcov y.1 (List.mem_map_of_mem _ hy)
    have a1 := (hinv.2.2.1 x.1 x.2 (hbound e1 he1 _ hc1) (hlog x hx)).2
    have a2 := (hinv.2.2.1 y.1 y.2 (hbound e2 he2 _ hc2) (hlog y hy)).2
    rw [heq, a2] at a1
    omega
  · rw [run_slots fstrcmp_bounded _ _ _ hrun]
    exact initial_slots _
  · intro k hk hnot
    rw [run_untouched fstrcmp_bounded _ _ _ hrun k hnot]
    exact initial_nodes_of_slot _ _ hk

/-- Witness of C38: ancestor and mainstream "a\n", "b\n", modified "a\n". The REMOVAL of
the second entry writes slot 1, once; the node of slot 0 still holds "a\n". -/
theorem merge_frame_witness :
    DiagOk diag_corner [[97, 10], [98, 10]] [[97, 10]] ∧
    compute_mapping fstrcmp_ratio [[97, 10], [98, 10]] [[97, 10], [98, 10]] false =
      some witness_frame_mapping ∧
    compute_differences diag_corner [[97, 10], [98, 10]] [[97, 10]] =
      some witness_frame_diffs ∧
    apply_edits fstrcmp_ratio [[97, 10], [98, 10]] [[97, 10], [98, 10]] [[97, 10]]
      witness_frame_diffs witness_frame_diffs.edits
      { mapping := witness_frame_mapping
        result_entries := initial_result [[97, 10], [98, 10]]
        result_conflicts := [] } = some witness_frame_final ∧
    ∃ log : List (Nat × Nat),
      MergeRun fstrcmp_ratio (witness_frame_mapping, initial_result [[97, 10], [98, 10]]) log
        (witness_frame_final.mapping, witness_frame_final.result_entries) ∧
      (∀ x ∈ log, (∃ e ∈ witness_frame_diffs.edits, covers_file1 e x.1 = true) ∧
        witness_frame_final.mapping.index_mapping.getD x.1 0 = (x.2 : Int)) ∧
      (log.map Prod.snd).Nodup ∧
      witness_frame_final.result_entries.filterMap node.slot =
        List.range ([[97, 10], [98, 10]] : List Entry).length ∧
      ∀ k, k < ([[97, 10], [98, 10]] : List Entry).length → k ∉ log.map Prod.snd →
        nodes_of_slot witness_frame_final.result_entries k =
          [{ slot := some k, value := ([[97, 10], [98, 10]] : List Entry).getD k [] }] :=
  ⟨diagOk_corner _ _, by decide, by decide, by decide,
    merge_frame fstrcmp_ratio diag_corner [[97, 10], [98, 10]] [[97, 10], [98, 10]] [[97, 10]]
      (diagOk_corner _ _) witness_frame_mapping witness_frame_diffs witness_frame_final
      (by decide) (by decide) (by decide)⟩

/-- C39 (no added entry is lost): let the merge run to its end, and let
`ADDITION j1 j2` be one of the edits. No other edit covers a position `j` of
`j1 .. j2`. The edit itself either puts the entries `U[j1 .. j2]` into the result list
as one block of new nodes, in their order in `U`, and adds no conflict; or it leaves
the list as it is and appends exactly one conflict, with no ancestor entry and with
`U[j1 .. j2]`, in their order, on the modified side. The later edits keep the added
nodes of the list, with their values and in their order, and only append to the
conflicts. -/
theorem addition_emitted_once (fstrcmp_bounded : Fstrcmp) (diag : Diag)
    (ancestor_file mainstream_file modified_file : List Entry)
    (hd : DiagOk diag ancestor_file modified_file)
    (mapping0 : entries_mapping) (diffs : differences) (st_final : merge_state)
    (es1 es2 : List edit) (j1 j2 : Nat)
    (hm : compute_mapping fstrcmp_bounded ancestor_file mainstream_file false = some mapping0)
    (hdf : compute_differences diag ancestor_file modified_file = some diffs)
    (hedits : diffs.edits = es1 ++ edit.ADDITION j1 j2 :: es2)
    (h : apply_edits fstrcmp_bounded ancestor_file mainstream_file modified_file diffs
      diffs.edits
      { mapping := mapping0
        result_entries := initial_result mainstream_file
        result_conflicts := [] } = some st_final) :
    (∀ j, j1 ≤ j → j ≤ j2 → ∀ e ∈ es1 ++ es2, covers_file2 e j = false) ∧
    ∃ st st1 : merge_state,
      apply_edits fstrcmp_bounded ancestor_file mainstream_file modified_file diffs es1
        { mapping := mapping0
          result_entries := initial_result mainstream_file
          result_conflicts := [] } = some st ∧
      apply_edit fstrcmp_bounded ancestor_file mainstream_file modified_file diffs
        (edit.ADDITION j1 j2) st = some st1 ∧
      apply_edits fstrcmp_bounded ancestor_file mainstream_file modified_file diffs es2 st1
        = some st_final ∧
      ((∃ pre post : List node, st.result_entries = pre ++ post ∧
          st1.result_entries = pre ++ spec_new_nodes modified_file j1 j2 ++ post ∧
          st1.result_conflicts = st.result_conflicts) ∨
        (st1.result_entries = st.result_entries ∧
          st1.result_conflicts = st.result_conflicts ++
            [{ old_entries := [],
               modified_entries := entries_range modified_file j1 j2 }])) ∧
      (added_nodes st1.result_entries).Sublist (added_nodes st_final.result_entries) ∧
      ∃ cs, st_final.result_conflicts = st1.result_conflicts ++ cs := by
  constructor
  · obtain ⟨-, hpw, -⟩ := compute_differences_ascending diag ancestor_file modified_file hd
      diffs hdf
    rw [hedits, List.pairwise_append] at hpw
    obtain ⟨-, h2, h3⟩ := hpw
    intro j hj1 hj2 e he
    have hcov : covers_file2 (edit.ADDITION j1 j2) j = true := by
      simp only [covers_file2, decide_eq_true_eq]
      exact ⟨hj1, hj2⟩
    cases hc : covers_file2 e j with
    | false => rfl
    | true =>
      exfalso
      rcases List.mem_append.mp he with he | he
      · have := h3 e he _ (List.mem_cons_self _ _) j j hc hcov
        omega
      · have := List.rel_of_pairwise_cons h2 he j j hcov hc
        omega
  · rw [hedits] at h
    obtain ⟨st, st1, g1, g2, g3⟩ := apply_edits_append fstrcmp_bounded ancestor_file
      mainstream_file modified_file diffs _ es2 es1 _ st_final h
    refine ⟨st, st1, g1, g2, g3, ?_, ?_, ?_⟩
    · obtain ⟨log, hrun, -⟩ := apply_edits_run fstrcmp_bounded ancestor_file mainstream_file
        modified_file diffs es1 _ st g1
      dsimp only at hrun
      have hinv := run_mutual fstrcmp_bounded _ _ _ hrun _ _
        (initial_mutual fstrcmp_bounded ancestor_file mainstream_file mapping0 hm)
      have hslots := run_slots fstrcmp_bounded _ _ _ hrun
      dsimp only at hinv hslots
      rw [initial_slots] at hslots
      simp only [apply_edit] at g2
      exact apply_addition_step fstrcmp_bounded ancestor_file mainstream_file modified_file
        diffs j1 j2 _ st st1 hinv hslots g2
    · obtain ⟨log, hrun, -⟩ := apply_edits_run fstrcmp_bounded ancestor_file mainstream_file
        modified_file diffs es2 st1 st_final g3
      exact run_added fstrcmp_bounded _ _ _ hrun
    · exact ⟨_, (apply_edits_conflicts fstrcmp_bounded ancestor_file mainstream_file
        modified_file diffs es2 st1 st_final g3).1⟩

/-- Witness of C39: ancestor and mainstream "a\n", "c\n", modified "a\n", "x\n", "c\n".
The only edit is `ADDITION 1 1`; the entry "x\n" is put into the list, before the node
of slot 1, and there is no conflict. -/
theorem addition_emitted_once_witness :
    DiagOk diag_corner [[97, 10], [99, 10]] [[97, 10], [120, 10], [99, 10]] ∧
    compute_mapping fstrcmp_ratio [[97, 10], [99, 10]] [[97, 10], [99, 10]] false =
      some witness_addition_mapping ∧
    compute_differences diag_corner [[97, 10], [99, 10]] [[97, 10], [120, 10], [99, 10]] =
      some witness_addition_diffs ∧
    witness_addition_diffs.edits = [] ++ edit.ADDITION 1 1 :: [] ∧
    apply_edits fstrcmp_ratio [[97, 10], [99, 10]] [[97, 10], [99, 10]]
      [[97, 10], [120, 10], [99, 10]] witness_addition_diffs witness_addition_diffs.edits
      { mapping := witness_addition_mapping
        result_entries := initial_result [[97, 10], [99, 10]]
        result_conflicts := [] } = some witness_addition_final ∧
    ((∀ j, 1 ≤ j → j ≤ 1 → ∀ e ∈ ([] : List edit) ++ [], covers_file2 e j = false) ∧
    ∃ st st1 : merge_state,
      apply_edits fstrcmp_ratio [[97, 10], [99, 10]] [[97, 10], [99, 10]]
        [[97, 10], [120, 10], [99, 10]] witness_addition_diffs []
        { mapping := witness_addition_mapping
          result_entries := initial_result [[97, 10], [99, 10]]
          result_conflicts := [] } = some st ∧
      apply_edit fstrcmp_ratio [[97, 10], [99, 10]] [[97, 10], [99, 10]]
        [[97, 10], [120, 10], [99, 10]] witness_addition_diffs (edit.ADDITION 1 1) st
        = some st1 ∧
      apply_edits fstrcmp_ratio [[97, 10], [99, 10]] [[97, 10], [99, 10]]
        [[97, 10], [120, 10], [99, 10]] witness_addition_diffs [] st1
        = some witness_addition_final ∧
      ((∃ pre post : List node, st.result_entries = pre ++ post ∧
          st1.result_entries =
            pre ++ spec_new_nodes [[97, 10], [120, 10], [99, 10]] 1 1 ++ post ∧
          st1.result_conflicts = st.result_conflicts) ∨
        (st1.result_entries = st.result_entries ∧
          st1.result_conflicts = st.result_conflicts ++
            [{ old_entries := [],
               modified_entries := entries_range [[97, 10], [120, 10], [99, 10]] 1 1 }])) ∧
      (added_nodes st1.result_entries).Sublist
        (added_nodes witness_addition_final.result_entries) ∧
      ∃ cs, witness_addition_final.result_conflicts = st1.result_conflicts ++ cs) :=
  ⟨diagOk_corner _ _, by decide, by decide, rfl, by decide,
    addition_emitted_once fstrcmp_ratio diag_corner [[97, 10], [99, 10]] [[97, 10], [99, 10]]
      [[97, 10], [120, 10], [99, 10]] (diagOk_corner _ _) witness_addition_mapping
      witness_addition_diffs witness_addition_final [] [] 1 1
      (by decide) (by decide) rfl (by decide)⟩

/-- C37 (no equal entries inside a CHANGE): with a midpoint search (the routine of the
included `diffseq.h`, a parameter of the model) that gives a point of its window other
than the two corners it was given and on a shortest edit script of the window (a longest
common subsequence of the window is made of one of the part before the point and one of
the part after it), every CHANGE edit of `compute_differences (file1, file2)` has
`file1[i]` different from `file2[j]` for all `i` in `i1 .. i2` and `j` in `j1 .. j2`; in
particular for the aligned pairs `i = j + i2 - j2` that the simple-change cases of `main`
compare in their `ASSERT`s. -/
theorem change_entries_differ (diag : Diag) (file1 file2 : List Entry)
    (hd : DiagOk diag file1 file2) (hs : DiagShortest diag file1 file2)
    (diffs : differences) (h : compute_differences diag file1 file2 = some diffs) :
    ∀ i1 i2 j1 j2, edit.CHANGE i1 i2 j1 j2 ∈ diffs.edits →
      (∀ i j, i1 ≤ i → i ≤ i2 → j1 ≤ j → j ≤ j2 →
        entry_equals (file1.getD i []) (file2.getD j []) = false) ∧
      (∀ j, j1 ≤ j → j ≤ j2 → i1 ≤ j + i2 - j2 →
        entry_equals (file1.getD (j + i2 - j2) []) (file2.getD j []) = false) :=
  minimal_change_differ diag file1 file2 hd diffs h
    (compute_differences_minimal diag file1 file2 hd hs diffs h)

/-- Witness of C37: the files "a\n", "b\n", "c\n" and "x\n", "b\n", "y\n" with the
midpoint search `diag_first_step`, which meets both contracts: the entries "b\n" are
mapped to each other, the edits are CHANGE 0 0 0 0 and CHANGE 2 2 2 2, and "a\n" differs
from "x\n". -/
theorem change_entries_differ_witness :
    DiagOk diag_first_step [[97, 10], [98, 10], [99, 10]] [[120, 10], [98, 10], [121, 10]] ∧
    DiagShortest diag_first_step [[97, 10], [98, 10], [99, 10]]
      [[120, 10], [98, 10], [121, 10]] ∧
    compute_differences diag_first_step [[97, 10], [98, 10], [99, 10]]
      [[120, 10], [98, 10], [121, 10]] =
      some { index_mapping := [-1, 1, -1], index_mapping_reverse := [-1, 1, -1],
             edits := [edit.CHANGE 0 0 0 0, edit.CHANGE 2 2 2 2] } ∧
    entry_equals (([[97, 10], [98, 10], [99, 10]] : List Entry).getD 0 [])
      (([[120, 10], [98, 10], [121, 10]] : List Entry).getD 0 []) = false :=
  ⟨diagOk_first_step _ _, diagShortest_first_step _ _, by decide,
    (change_entries_differ diag_first_step [[97, 10], [98, 10], [99, 10]]
      [[120, 10], [98, 10], [121, 10]]
      (diagOk_first_step _ _) (diagShortest_first_step _ _)
      { index_mapping := [-1, 1, -1], index_mapping_reverse := [-1, 1, -1],
        edits := [edit.CHANGE 0 0 0 0, edit.CHANGE 2 2 2 2] } (by decide) 0 0 0 0
      (List.mem_cons_self _ _)).1 0 0 (le_refl _) (le_refl _) (le_refl _) (le_refl _)⟩

end GitMergeChangelog
